import Mathlib

/-!
# BusTub: LRU-K replacer, B+Tree index, executors and optimizer rule

A shallow embedding of `src/buffer/lru_k_replacer.cpp`, of the B+Tree
sources (`src/storage/index/b_plus_tree.cpp`, `src/storage/page/*.cpp`), of
the executors (`src/execution/*_executor.cpp`) and of the optimizer rule
`src/optimizer/seqscan_as_indexscan.cpp`, followed by the theorems about
them.

Conventions of the embedding

* `size_t` values are natural numbers; every `++`, `--` and `-` on them is
  written with its reduction modulo `2^64`.
* `frame_id_t` values are integers.
* `std::unordered_map<frame_id_t, LRUKNode>` is the list of its entries in
  iteration order.  The C++ standard leaves that order unspecified, so no
  theorem below depends on it.
* `std::list<size_t>` is a `List Nat`, front first.
* A failed `BUSTUB_ENSURE` ends the call; the result carries the state at
  that point.  Undefined behaviour (`back()` on an empty list) is a result
  of its own.
-/

namespace bustub

/-! ## LRU-K replacer: data model -/

/-- Number of values of `size_t`. -/
def SIZE_MOD : Nat := 2 ^ 64

/-- The value `std::numeric_limits<size_t>::max()`. -/
def SIZE_MAX : Nat := 2 ^ 64 - 1

/-- Modelled from the spec: the invalid frame sentinel ("An invalid sentinel
exists"); the configuration header that defines `INVALID_FRAME_ID` is not part
of the sources at hand, BusTub defines it as `-1`. -/
def INVALID_FRAME_ID : Int := -1

/-- The statement `x++` on a `size_t`. -/
def sizeIncr (x : Nat) : Nat := (x + 1) % SIZE_MOD

/-- The statement `x--` on a `size_t`: zero wraps around to the largest value.
For `x < 2^64` this is `(x + (2^64 - 1)) % 2^64`, see `sizeDecr_eq_mod`. -/
def sizeDecr (x : Nat) : Nat := if x = 0 then SIZE_MAX else x - 1

/-- The expression `a - b` on two `size_t` values: the difference modulo `2^64`.
For `a, b < 2^64` this is `(a + (2^64 - b)) % 2^64`, see `sizeSub_eq_mod`. -/
def sizeSub (a b : Nat) : Nat := if b ≤ a then a - b else a + SIZE_MOD - b

/-- The conversion `static_cast<size_t>(frame_id)` of a signed frame id. -/
def toSizeT (frame_id : Int) : Nat := (frame_id % (SIZE_MOD : Int)).toNat

/-- The access record of one frame.  The members `k_` and `fid_` of the C++
class are never read by the replacer and are left out. -/
structure LRUKNode where
  /-- Access timestamps, newest first. -/
  history_ : List Nat
  is_evictable_ : Bool
deriving DecidableEq, Repr

/-- Modelled from the spec: the record that `node_store_[frame_id]` creates for
an absent key ("Creates the record if absent, with the evictable flag defaulted
to false"); the class declaration with the member initialisers is not part of
the sources at hand. -/
def LRUKNode.default : LRUKNode := { history_ := [], is_evictable_ := false }

/-- The members of `LRUKReplacer` (the latch aside). -/
structure LRUKReplacer where
  node_store_ : List (Int × LRUKNode)
  current_timestamp_ : Nat
  curr_size_ : Nat
  replacer_size_ : Nat
  k_ : Nat
deriving DecidableEq, Repr

/-- How a call of a replacer method ends. -/
inductive Res (α : Type) where
  /-- The call returned `val` and left the replacer in state `s`. -/
  | done (val : α) (s : LRUKReplacer) : Res α
  /-- A `BUSTUB_ENSURE` failed when the replacer was in state `s`. -/
  | ensureFailed (s : LRUKReplacer) : Res α
  /-- The call ran into undefined behaviour. -/
  | undefinedBehaviour : Res α
deriving DecidableEq, Repr

/-- The call `node_store_.find(frame_id)`: the record of the frame, if any. -/
def findNode : List (Int × LRUKNode) → Int → Option LRUKNode
  | [], _ => none
  | (g, n) :: rest, f => if g = f then some n else findNode rest f

/-- The call `node_store_.erase(frame_id)`. -/
def eraseNode (store : List (Int × LRUKNode)) (f : Int) : List (Int × LRUKNode) :=
  store.filter (fun e => decide (e.1 ≠ f))

/-- Assignment through a reference to the record of a tracked frame. -/
def setNode : List (Int × LRUKNode) → Int → LRUKNode → List (Int × LRUKNode)
  | [], _, _ => []
  | (g, n) :: rest, f, m => if g = f then (g, m) :: rest else (g, n) :: setNode rest f m

/-- The expression `node_store_[frame_id]`: a default record is inserted when
the key is absent. -/
def indexNode (store : List (Int × LRUKNode)) (f : Int) : List (Int × LRUKNode) :=
  match findNode store f with
  | some _ => store
  | none => (f, LRUKNode.default) :: store

/-- `LRUKReplacer::LRUKReplacer(num_frames, k)`. -/
def LRUKReplacer.new (num_frames k : Nat) : LRUKReplacer :=
  { node_store_ := [], current_timestamp_ := 0, curr_size_ := 0,
    replacer_size_ := num_frames, k_ := k }

/-! ## LRU-K replacer: operations -/

/-- The four local variables of `Evict`. -/
structure EvictScan where
  reg_victim_frame : Int
  inf_victim_frame : Int
  inf_candidate_time : Nat
  reg_candidate_distance : Nat
deriving DecidableEq, Repr

/-- The locals of `Evict` before the loop. -/
def EvictScan.init : EvictScan :=
  { reg_victim_frame := INVALID_FRAME_ID, inf_victim_frame := INVALID_FRAME_ID,
    inf_candidate_time := SIZE_MAX, reg_candidate_distance := 0 }

/-- One iteration of the loop of `Evict`; `none` when `back()` is called on an
empty history. -/
def evictVisit (k cur : Nat) (acc : EvictScan) (e : Int × LRUKNode) : Option EvictScan :=
  if e.2.is_evictable_ = false then some acc
  else if e.2.history_.length < k then
    match e.2.history_.getLast? with
    | none => none
    | some oldest =>
      if oldest < acc.inf_candidate_time then
        some { acc with inf_candidate_time := oldest, inf_victim_frame := e.1 }
      else some acc
  else
    match e.2.history_.getLast? with
    | none => none
    | some oldest =>
      let distance := sizeSub cur oldest
      if distance > acc.reg_candidate_distance ∨ acc.reg_victim_frame = INVALID_FRAME_ID then
        some { acc with reg_candidate_distance := distance, reg_victim_frame := e.1 }
      else some acc

/-- The loop of `Evict` over the entries of `node_store_`. -/
def evictScan (k cur : Nat) : EvictScan → List (Int × LRUKNode) → Option EvictScan
  | acc, [] => some acc
  | acc, e :: rest =>
    match evictVisit k cur acc e with
    | none => none
    | some acc1 => evictScan k cur acc1 rest

/-- `LRUKReplacer::Evict`. -/
def Evict (s : LRUKReplacer) : Res (Option Int) :=
  match evictScan s.k_ s.current_timestamp_ EvictScan.init s.node_store_ with
  | none => Res.undefinedBehaviour
  | some sc =>
    let s1 := { s with current_timestamp_ := sizeIncr s.current_timestamp_ }
    if sc.inf_victim_frame ≠ INVALID_FRAME_ID then
      Res.done (some sc.inf_victim_frame)
        { s1 with node_store_ := eraseNode s1.node_store_ sc.inf_victim_frame,
                  curr_size_ := sizeDecr s1.curr_size_ }
    else if sc.reg_victim_frame ≠ INVALID_FRAME_ID then
      Res.done (some sc.reg_victim_frame)
        { s1 with node_store_ := eraseNode s1.node_store_ sc.reg_victim_frame,
                  curr_size_ := sizeDecr s1.curr_size_ }
    else Res.done none s1

/-- The statement `if (node.history_.size() > k_) node.history_.pop_back();`. -/
def trimHistory (k : Nat) (n : LRUKNode) : LRUKNode :=
  if n.history_.length > k then { n with history_ := n.history_.dropLast } else n

/-- `LRUKReplacer::RecordAccess`. -/
def RecordAccess (s : LRUKReplacer) (frame_id : Int) : Res Unit :=
  if ¬ (toSizeT frame_id ≤ s.replacer_size_) then Res.ensureFailed s
  else
    let store1 := indexNode s.node_store_ frame_id
    let node1 : LRUKNode :=
      match findNode store1 frame_id with
      | none => { history_ := [s.current_timestamp_], is_evictable_ := false }
      | some node => { node with history_ := s.current_timestamp_ :: node.history_ }
    let store2 :=
      match findNode store1 frame_id with
      | none => (frame_id, node1) :: store1
      | some _ => setNode store1 frame_id node1
    Res.done ()
      { s with node_store_ := setNode store2 frame_id (trimHistory s.k_ node1),
               current_timestamp_ := sizeIncr s.current_timestamp_ }

/-- `LRUKReplacer::SetEvictable`. -/
def SetEvictable (s : LRUKReplacer) (frame_id : Int) (set_evictable : Bool) : Res Unit :=
  let store1 := indexNode s.node_store_ frame_id
  match findNode store1 frame_id with
  | none => Res.ensureFailed { s with node_store_ := store1 }
  | some node =>
    let size1 :=
      if node.is_evictable_ = true ∧ set_evictable = false then sizeDecr s.curr_size_
      else if node.is_evictable_ = false ∧ set_evictable = true then sizeIncr s.curr_size_
      else s.curr_size_
    Res.done ()
      { s with node_store_ := setNode store1 frame_id { node with is_evictable_ := set_evictable },
               curr_size_ := size1 }

/-- `LRUKReplacer::Remove`. -/
def Remove (s : LRUKReplacer) (frame_id : Int) : Res Unit :=
  match findNode s.node_store_ frame_id with
  | none => Res.done () s
  | some node =>
    if node.is_evictable_ ≠ true then Res.ensureFailed s
    else
      Res.done ()
        { s with node_store_ := eraseNode s.node_store_ frame_id,
                 curr_size_ := sizeDecr s.curr_size_ }

/-- `LRUKReplacer::Size`. -/
def Size (s : LRUKReplacer) : Nat := s.curr_size_

/-- The number of tracked frames whose evictable flag is set. -/
def evictableCount (store : List (Int × LRUKNode)) : Nat :=
  store.countP (fun e => e.2.is_evictable_)

/-- The values of the 32-bit type `frame_id_t`. -/
def IsFrameIdT (f : Int) : Prop := -(2 ^ 31 : Int) ≤ f ∧ f < (2 ^ 31 : Int)

instance (f : Int) : Decidable (IsFrameIdT f) := by
  unfold IsFrameIdT
  infer_instance

/-- The replacer states reachable from a freshly constructed replacer through
calls of the public methods that return.  The iteration order of the
underlying `std::unordered_map` is unspecified and may change whenever the
container rehashes, hence the constructor `reorder`. -/
inductive Reachable : LRUKReplacer → Prop where
  | fresh (num_frames k : Nat) : Reachable (LRUKReplacer.new num_frames k)
  | recordAccess {s s1 : LRUKReplacer} (f : Int) :
      Reachable s → IsFrameIdT f → RecordAccess s f = Res.done () s1 → Reachable s1
  | setEvictable {s s1 : LRUKReplacer} (f : Int) (b : Bool) :
      Reachable s → IsFrameIdT f → SetEvictable s f b = Res.done () s1 → Reachable s1
  | remove {s s1 : LRUKReplacer} (f : Int) :
      Reachable s → IsFrameIdT f → Remove s f = Res.done () s1 → Reachable s1
  | evict {s s1 : LRUKReplacer} (r : Option Int) :
      Reachable s → Evict s = Res.done r s1 → Reachable s1
  | reorder {s : LRUKReplacer} (l : List (Int × LRUKNode)) :
      Reachable s → List.Perm s.node_store_ l → Reachable { s with node_store_ := l }

/-- What a returning call of `Evict` has done: it went from state `s` to state
`s1` and returned `r`.  The timestamp is incremented; when a frame `f` is
returned it was tracked and evictable, exactly its record is erased and
`Size()` is lowered by one (in `size_t` arithmetic, hence by one whenever
`Size()` was positive); when no frame is returned the records and `Size()` are
unchanged. -/
def EvictPost (s : LRUKReplacer) (r : Option Int) (s1 : LRUKReplacer) : Prop :=
  s1.current_timestamp_ = sizeIncr s.current_timestamp_ ∧
  s1.replacer_size_ = s.replacer_size_ ∧ s1.k_ = s.k_ ∧
  (∀ f, r = some f →
    (∃ n, (f, n) ∈ s.node_store_ ∧ n.is_evictable_ = true) ∧
    s1.node_store_ = eraseNode s.node_store_ f ∧
    findNode s1.node_store_ f = none ∧
    (∀ g, g ≠ f → findNode s1.node_store_ g = findNode s.node_store_ g) ∧
    Size s1 = sizeDecr (Size s) ∧
    (0 < Size s → Size s1 + 1 = Size s)) ∧
  (r = none → s1.node_store_ = s.node_store_ ∧ Size s1 = Size s)

/-- The representation invariant of the record store: a frame id occurs at most
once (the store is a map), every key is a value of `frame_id_t`, and the
counter `curr_size_` is the number of records whose evictable flag is set. -/
def StoreInv (s : LRUKReplacer) : Prop :=
  (s.node_store_.map Prod.fst).Nodup ∧
  (∀ g ∈ s.node_store_.map Prod.fst, IsFrameIdT g) ∧
  s.curr_size_ = evictableCount s.node_store_

/-! ## B+Tree: data model

Conventions of the embedding

* Keys are the integers that the comparator orders (`GenericKey` holds an
  integer, `GenericComparator` compares by it); values are record ids.
* A page keeps the slots `[0, size)` of its two arrays as one list of pairs,
  so `GetSize()` is the length of that list.  Slot 0 of an internal page holds
  a key that the code never reads.
* The buffer pool is a map from page ids to page contents together with the
  allocation counter; latches are not modelled, a page guard is the id of its
  page.  The header page is the field `root_page_id_`.
* Every `while (true)` descent takes a fuel argument.
-/

/-- Modelled from the spec: the invalid page id ("an invalid sentinel
(`INVALID`) is reserved"); the configuration header is not part of the sources
at hand, BusTub defines `INVALID_PAGE_ID` as `-1`. -/
def INVALID_PAGE_ID : Int := -1

/-- A record identifier: page id and slot number. -/
structure RID where
  page_id : Int
  slot_num : Nat
deriving DecidableEq, Repr

/-- The call `comparator(a, b)` of `GenericComparator`: negative, zero or
positive as `a` is below, equal to or above `b`. -/
def comparator (a b : Int) : Int := if a < b then -1 else if b < a then 1 else 0

/-- Modelled from the spec: `GetMinSize()`, "`min_size = ⌈max_size/2⌉`" for leaf
and internal pages alike; `b_plus_tree_page.cpp` is not part of the sources at
hand. -/
def GetMinSize (max_size : Nat) : Nat := (max_size + 1) / 2

/-- A leaf page.  `page_id_` is the id stored in the page by `SetPageId`. -/
structure LeafPage where
  page_id_ : Int
  max_size_ : Nat
  /-- The pairs `(key_array_[i], rid_array_[i])` for `i < GetSize()`. -/
  slots : List (Int × RID)
  next_page_id_ : Int
  prev_page_id_ : Int
deriving DecidableEq, Repr

/-- An internal page. -/
structure InternalPage where
  page_id_ : Int
  max_size_ : Nat
  /-- The pairs `(key_array_[i], page_id_array_[i])` for `i < GetSize()`. -/
  slots : List (Int × Int)
deriving DecidableEq, Repr

/-- The content of a page of the index. -/
inductive Page where
  | leaf (p : LeafPage) : Page
  | internal (p : InternalPage) : Page
deriving DecidableEq, Repr

/-- How a call of a B+Tree method ends. -/
inductive Outcome (α : Type) where
  /-- The call returned. -/
  | ok (a : α) : Outcome α
  /-- A `BUSTUB_ENSURE` or `assert` failed. -/
  | ensureFailed : Outcome α
  /-- The call read a slot outside `[0, size)`, a page of the wrong kind, a
  page that does not exist, or used a guard that was moved from. -/
  | undefinedBehaviour : Outcome α
  /-- The fuel given to a descent loop did not suffice. -/
  | outOfFuel : Outcome α
deriving DecidableEq, Repr

/-- Sequencing of calls: the first failure ends the computation. -/
def Outcome.bind {α β : Type} (x : Outcome α) (f : α → Outcome β) : Outcome β :=
  match x with
  | Outcome.ok a => f a
  | Outcome.ensureFailed => Outcome.ensureFailed
  | Outcome.undefinedBehaviour => Outcome.undefinedBehaviour
  | Outcome.outOfFuel => Outcome.outOfFuel

instance : Monad Outcome where
  pure := Outcome.ok
  bind := Outcome.bind

/-- The index with its pages: the buffer pool content, the allocation counter
of the buffer pool, the root page id held by the header page, and the
configuration of the tree.  `LEAF_PAGE_SLOT_CNT`, the number of slots that fit
into a leaf page, is a constant of a header that is not part of the sources at
hand and is taken as a parameter. -/
structure BPlusTree where
  pages : Int → Option Page
  next_page_id_ : Int
  root_page_id_ : Int
  leaf_max_size_ : Nat
  internal_max_size_ : Nat
  LEAF_PAGE_SLOT_CNT : Nat

/-- `BPlusTree::BPlusTree`: the header page is initialised with an invalid
root.  Page id 0 is the header page, so the first page allocated is page 1. -/
def BPlusTree.new (leaf_max_size internal_max_size slot_cnt : Nat) : BPlusTree :=
  { pages := fun _ => none, next_page_id_ := 1, root_page_id_ := INVALID_PAGE_ID,
    leaf_max_size_ := leaf_max_size, internal_max_size_ := internal_max_size,
    LEAF_PAGE_SLOT_CNT := slot_cnt }

/-- Writing through a page guard: the page `pid` now has content `p`. -/
def BPlusTree.setPage (t : BPlusTree) (pid : Int) (p : Page) : BPlusTree :=
  { t with pages := fun q => if q = pid then some p else t.pages q }

/-- Modelled from the spec: `DeletePage(id)` of the buffer pool manager, which
is not part of the sources at hand; the page is gone afterwards. -/
def BPlusTree.DeletePage (t : BPlusTree) (pid : Int) : BPlusTree :=
  { t with pages := fun q => if q = pid then none else t.pages q }

/-- Modelled from the spec: `NewPage()` of the buffer pool manager ("`NewPage()
→ page_id`"), which is not part of the sources at hand: the allocation counter
is returned and advanced. -/
def BPlusTree.NewPage (t : BPlusTree) : Int × BPlusTree :=
  (t.next_page_id_, { t with next_page_id_ := t.next_page_id_ + 1 })

/-- The cast `guard.AsMut<LeafPage>()`. -/
def BPlusTree.leafAt (t : BPlusTree) (pid : Int) : Outcome LeafPage :=
  match t.pages pid with
  | some (Page.leaf p) => Outcome.ok p
  | _ => Outcome.undefinedBehaviour

/-- The cast `guard.AsMut<InternalPage>()`. -/
def BPlusTree.internalAt (t : BPlusTree) (pid : Int) : Outcome InternalPage :=
  match t.pages pid with
  | some (Page.internal p) => Outcome.ok p
  | _ => Outcome.undefinedBehaviour

/-- `Context::IsRootPage`, with `root_page_id_` the id read from the header
page at the start of the call. -/
def IsRootPage (ctx_root_page_id : Int) (page_id : Int) : Bool :=
  decide (page_id = ctx_root_page_id)

/-! ## B+Tree: page primitives -/

/-- `BPlusTreeLeafPage::Init`.  The stored page id is not touched by `Init`;
a page fresh from the buffer pool is zero-filled. -/
def LeafPage.Init (max_size : Nat) : LeafPage :=
  { page_id_ := 0, max_size_ := max_size, slots := [],
    next_page_id_ := INVALID_PAGE_ID, prev_page_id_ := INVALID_PAGE_ID }

/-- `BPlusTreeInternalPage::Init`. -/
def InternalPage.Init (max_size : Nat) : InternalPage :=
  { page_id_ := 0, max_size_ := max_size, slots := [] }

/-- `GetSize()` of a leaf page, as the `int` of the source. -/
def LeafPage.GetSize (p : LeafPage) : Int := p.slots.length

/-- `GetSize()` of an internal page. -/
def InternalPage.GetSize (p : InternalPage) : Int := p.slots.length

/-- `BPlusTreeLeafPage::KeyAt`, with its bounds check. -/
def LeafPage.KeyAt (p : LeafPage) (index : Int) : Outcome Int :=
  if 0 ≤ index ∧ index < p.GetSize then
    match p.slots.get? index.toNat with
    | some s => Outcome.ok s.1
    | none => Outcome.undefinedBehaviour
  else Outcome.ensureFailed

/-- `BPlusTreeLeafPage::ValueAt`, with its bounds check. -/
def LeafPage.ValueAt (p : LeafPage) (index : Int) : Outcome RID :=
  if 0 ≤ index ∧ index < p.GetSize then
    match p.slots.get? index.toNat with
    | some s => Outcome.ok s.2
    | none => Outcome.undefinedBehaviour
  else Outcome.ensureFailed

/-- `BPlusTreeInternalPage::KeyAt`: no bounds check in the source; a read
outside `[0, size)` is not given a value. -/
def InternalPage.KeyAt (p : InternalPage) (index : Int) : Outcome Int :=
  if 0 ≤ index then
    match p.slots.get? index.toNat with
    | some s => Outcome.ok s.1
    | none => Outcome.undefinedBehaviour
  else Outcome.undefinedBehaviour

/-- `BPlusTreeInternalPage::ValueAt`. -/
def InternalPage.ValueAt (p : InternalPage) (index : Int) : Outcome Int :=
  if 0 ≤ index then
    match p.slots.get? index.toNat with
    | some s => Outcome.ok s.2
    | none => Outcome.undefinedBehaviour
  else Outcome.undefinedBehaviour

/-- The loop of `BPlusTreeLeafPage::KeyIndex` on the keys of the page, from
the bounds `left`, `right`.  Every iteration shrinks `right - left`, so the
fuel `size + 1` that `KeyIndex` passes is never used up. -/
def leafKeyIndexLoop (keys : List Int) (key : Int) : Nat → Int → Int → Int
  | 0, left, _ => left
  | fuel + 1, left, right =>
    if left ≤ right then
      let mid := (left + right) / 2
      if comparator (keys.getD mid.toNat 0) key = 0 then mid
      else if comparator (keys.getD mid.toNat 0) key < 0 then
        leafKeyIndexLoop keys key fuel (mid + 1) right
      else leafKeyIndexLoop keys key fuel left (mid - 1)
    else left

/-- `BPlusTreeLeafPage::KeyIndex`. -/
def LeafPage.KeyIndex (p : LeafPage) (key : Int) : Int :=
  leafKeyIndexLoop (p.slots.map Prod.fst) key (p.slots.length + 1) 0 (p.GetSize - 1)

/-- The loop of `BPlusTreeInternalPage::KeyIndex`. -/
def internalKeyIndexLoop (keys : List Int) (key : Int) : Nat → Int → Int → Int
  | 0, left, _ => left - 1
  | fuel + 1, left, right =>
    if left ≤ right then
      let mid := (left + right) / 2
      if comparator (keys.getD mid.toNat 0) key < 0 then
        internalKeyIndexLoop keys key fuel (mid + 1) right
      else if comparator (keys.getD mid.toNat 0) key > 0 then
        internalKeyIndexLoop keys key fuel left (mid - 1)
      else mid
    else left - 1

/-- `BPlusTreeInternalPage::KeyIndex`. -/
def InternalPage.KeyIndex (p : InternalPage) (key : Int) : Int :=
  internalKeyIndexLoop (p.slots.map Prod.fst) key (p.slots.length + 1) 1 (p.GetSize - 1)

/-- The loop of `BPlusTreeInternalPage::ValueIndex` from slot `i` on. -/
def valueIndexFrom (value : Int) : List (Int × Int) → Int → Int
  | [], _ => -1
  | s :: rest, i => if s.2 = value then i else valueIndexFrom value rest (i + 1)

/-- `BPlusTreeInternalPage::ValueIndex`. -/
def InternalPage.ValueIndex (p : InternalPage) (value : Int) : Int :=
  valueIndexFrom value p.slots 0

/-- The slots of a page with one more slot put in front of slot `index`, the
later slots shifted right. -/
def insertSlot {α : Type} (slots : List α) (index : Nat) (s : α) : List α :=
  slots.take index ++ s :: slots.drop index

/-- `BPlusTreeLeafPage::Insert`.  The `BUSTUB_ENSURE` on the index cannot fail,
as `KeyIndex` returns a value in `[0, size]`
(`leafKeyIndex_nonneg`, `leafKeyIndex_le_size`). -/
def LeafPage.Insert (p : LeafPage) (slot_cnt : Nat) (key : Int) (value : RID) :
    Bool × LeafPage :=
  let index := p.KeyIndex key
  if p.GetSize + 1 ≥ (slot_cnt : Int) then (false, p)
  else (true, { p with slots := insertSlot p.slots index.toNat (key, value) })

/-- `BPlusTreeLeafPage::RemoveAndDeleteRecord`. -/
def LeafPage.RemoveAndDeleteRecord (p : LeafPage) (key : Int) : Bool × LeafPage :=
  let index := p.KeyIndex key
  if index ≥ p.GetSize ∨ comparator ((p.slots.map Prod.fst).getD index.toNat 0) key ≠ 0 then
    (false, p)
  else (true, { p with slots := p.slots.eraseIdx index.toNat })

/-- `BPlusTreeInternalPage::InsertNodeAfter`. -/
def InternalPage.InsertNodeAfter (p : InternalPage) (old_value : Int) (new_key : Int)
    (new_value : Int) : Outcome InternalPage :=
  let index := p.ValueIndex old_value
  if index = -1 then Outcome.ensureFailed
  else Outcome.ok { p with slots := insertSlot p.slots (index + 1).toNat (new_key, new_value) }

/-- `BPlusTreeInternalPage::Remove`. -/
def InternalPage.Remove (p : InternalPage) (index : Int) : Outcome InternalPage :=
  if 0 ≤ index ∧ index < p.GetSize then
    Outcome.ok { p with slots := p.slots.eraseIdx index.toNat }
  else Outcome.ensureFailed

/-- `BPlusTreeInternalPage::SetKeyAt` on a slot in `[0, size)`; a write to a
slot outside that range is not modelled. -/
def InternalPage.SetKeyAt (p : InternalPage) (index : Int) (key : Int) : Outcome InternalPage :=
  if 0 ≤ index then
    match p.slots.get? index.toNat with
    | some s => Outcome.ok { p with slots := p.slots.set index.toNat (key, s.2) }
    | none => Outcome.undefinedBehaviour
  else Outcome.undefinedBehaviour

/-- `BPlusTreeInternalPage::InsertFront`: the keys of the slots `[1, size)` and
the children of the slots `[0, size)` move one slot to the right, the new key
goes to slot 1 and the new child to slot 0.  On an empty page the key is
written to slot 1, behind the new size. -/
def InternalPage.InsertFront (p : InternalPage) (new_key : Int) (new_value : Int) :
    InternalPage :=
  match p.slots with
  | [] => { p with slots := [(0, new_value)] }
  | s :: rest => { p with slots := (s.1, new_value) :: (new_key, s.2) :: rest }

/-- `BPlusTreeInternalPage::InsertBack`. -/
def InternalPage.InsertBack (p : InternalPage) (new_key : Int) (new_value : Int) :
    InternalPage :=
  { p with slots := p.slots ++ [(new_key, new_value)] }

/-- `BPlusTreeInternalPage::Split`: returns this page, the sibling and the
middle key.  The sibling keeps the key of its slot 0 (zero on a fresh page),
gets the child of the middle slot as its slot 0 and the slots behind the middle
one as its further slots. -/
def InternalPage.Split (p sibling : InternalPage) : Outcome (InternalPage × InternalPage × Int) :=
  let total_size := p.slots.length
  let mid_index := total_size / 2
  match p.slots.get? mid_index with
  | none => Outcome.undefinedBehaviour
  | some m =>
    Outcome.ok
      ({ p with slots := p.slots.take mid_index },
       { sibling with
           slots := ((sibling.slots.head?.map Prod.fst).getD 0, m.2)
                      :: p.slots.drop (mid_index + 1) },
       m.1)

/-! ## B+Tree: search -/

/-- The loop of `BPlusTree::GetValue`, started at the page `page_id`.  The
result is the value pushed to `result`, if the key was found. -/
def getValueLoop (t : BPlusTree) (key : Int) : Nat → Int → Outcome (Option RID)
  | 0, _ => Outcome.outOfFuel
  | fuel + 1, page_id =>
    match t.pages page_id with
    | none => Outcome.undefinedBehaviour
    | some (Page.leaf leaf) =>
      let idx := leaf.KeyIndex key
      if idx < leaf.GetSize then do
        let k ← leaf.KeyAt idx
        if comparator k key = 0 then do
          let v ← leaf.ValueAt idx
          pure (some v)
        else pure none
      else pure none
    | some (Page.internal internal) => do
      let next_child_id ← internal.ValueAt (internal.KeyIndex key)
      getValueLoop t key fuel next_child_id

/-- `BPlusTree::GetValue`: `some v` when the call returns true and pushes `v`,
`none` when it returns false. -/
def BPlusTree.GetValue (t : BPlusTree) (fuel : Nat) (key : Int) : Outcome (Option RID) :=
  if t.root_page_id_ = INVALID_PAGE_ID then Outcome.ok none
  else getValueLoop t key fuel t.root_page_id_

/-- `BPlusTree::IsEmpty`. -/
def BPlusTree.IsEmpty (t : BPlusTree) : Bool := decide (t.root_page_id_ = INVALID_PAGE_ID)

/-- `BPlusTree::GetRootPageId`. -/
def BPlusTree.GetRootPageId (t : BPlusTree) : Int := t.root_page_id_

/-! ## B+Tree: insertion -/

/-- `BPlusTreeLeafPage::Split` for the leaf `this_id` and the freshly
initialised leaf `sibling_id`: returns the middle key and the pool with the
three pages it writes (this page, the sibling and the old next leaf). -/
def leafSplit (t : BPlusTree) (this_id sibling_id : Int) : Outcome (Int × BPlusTree) := do
  let this ← t.leafAt this_id
  let sibling ← t.leafAt sibling_id
  let total_size := this.GetSize
  let mid_index := (total_size + 1) / 2
  let middle_key ← this.KeyAt mid_index
  let sibling1 : LeafPage :=
    { sibling with slots := sibling.slots ++ this.slots.drop mid_index.toNat,
                   next_page_id_ := this.next_page_id_,
                   prev_page_id_ := this.page_id_ }
  let this1 : LeafPage := { this with next_page_id_ := sibling1.page_id_ }
  let t1 := (t.setPage this_id (Page.leaf this1)).setPage sibling_id (Page.leaf sibling1)
  let t2 ←
    if sibling1.next_page_id_ ≠ INVALID_PAGE_ID then do
      let next ← t1.leafAt sibling1.next_page_id_
      pure (t1.setPage sibling1.next_page_id_
        (Page.leaf { next with prev_page_id_ := sibling1.page_id_ }))
    else pure t1
  let this2 ← t2.leafAt this_id
  pure (middle_key,
    t2.setPage this_id (Page.leaf { this2 with slots := this2.slots.take mid_index.toNat }))

/-- The first branch of `BPlusTree::CoalesceOrSplit`: the split page was the
root, a new root with the two pages as children is created. -/
def newRootAbove (t : BPlusTree) (left_id key right_id : Int) : Outcome BPlusTree :=
  let new_root_id := t.NewPage.1
  let t1 := t.NewPage.2
  if new_root_id = INVALID_PAGE_ID then Outcome.ensureFailed
  else
    let new_root : InternalPage :=
      { InternalPage.Init t.internal_max_size_ with slots := [(0, left_id), (key, right_id)] }
    Outcome.ok { t1.setPage new_root_id (Page.internal new_root) with
                 root_page_id_ := new_root_id }

/-- The second branch of `BPlusTree::CoalesceOrSplit` up to the recursive
call: the pair `(key, right_id)` is put behind `left_id` in the parent; when
the parent overflows it is split, and the result says with which arguments
`CoalesceOrSplit` goes on (`some (old_id, middle, sib_id)`). -/
def insertIntoParent (t : BPlusTree) (parent_id left_id key right_id : Int) :
    Outcome (BPlusTree × Option (Int × Int × Int)) := do
  let parent0 ← t.internalAt parent_id
  let parent1 : InternalPage := { parent0 with page_id_ := parent_id }
  let parent2 ← parent1.InsertNodeAfter left_id key right_id
  if parent2.GetSize ≤ (parent2.max_size_ : Int) then
    pure (t.setPage parent_id (Page.internal parent2), none)
  else
    let old_id := parent2.page_id_
    let sib_id := t.NewPage.1
    let t1 := t.NewPage.2
    if sib_id = INVALID_PAGE_ID then Outcome.ensureFailed
    else do
      let r ← parent2.Split (InternalPage.Init t.internal_max_size_)
      pure ((t1.setPage parent_id (Page.internal r.1)).setPage sib_id (Page.internal r.2.1),
            some (old_id, r.2.2, sib_id))

/-- `BPlusTree::CoalesceOrSplit`; the list is `ctx->write_set_`, its back
first, and `ctx_root` is `ctx->root_page_id_`. -/
def CoalesceOrSplit (ctx_root : Int) :
    List Int → BPlusTree → Int → Int → Int → Outcome BPlusTree
  | [], t, left_id, key, right_id =>
    if IsRootPage ctx_root left_id = true then newRootAbove t left_id key right_id
    else Outcome.ensureFailed
  | parent_id :: write_set, t, left_id, key, right_id =>
    if IsRootPage ctx_root left_id = true then newRootAbove t left_id key right_id
    else do
      let r ← insertIntoParent t parent_id left_id key right_id
      match r.2 with
      | none => pure r.1
      | some (old_id, middle, sib_id) =>
        CoalesceOrSplit ctx_root write_set r.1 old_id middle sib_id

/-- The leaf branch of the loop of `BPlusTree::Insert`: `leaf_id` was the back
of the write set and has been popped, `write_set` holds its ancestors. -/
def insertIntoLeaf (ctx_root : Int) (write_set : List Int) (t : BPlusTree) (leaf_id : Int)
    (leaf0 : LeafPage) (key : Int) (value : RID) : Outcome (Bool × BPlusTree) := do
  let leaf : LeafPage := { leaf0 with page_id_ := leaf_id }
  let t0 := t.setPage leaf_id (Page.leaf leaf)
  let idx := leaf.KeyIndex key
  let found ←
    if idx < leaf.GetSize then do
      let k ← leaf.KeyAt idx
      pure (decide (comparator k key = 0))
    else pure false
  if found = true then pure (false, t0)
  else
    let res := leaf.Insert t.LEAF_PAGE_SLOT_CNT key value
    let t1 := t0.setPage leaf_id (Page.leaf res.2)
    if res.1 = false then pure (false, t1)
    else if res.2.GetSize ≤ (res.2.max_size_ : Int) then pure (true, t1)
    else
      let new_id := t1.NewPage.1
      let t2 := t1.NewPage.2
      if new_id = INVALID_PAGE_ID then Outcome.ensureFailed
      else do
        let right_leaf : LeafPage := { LeafPage.Init t.leaf_max_size_ with page_id_ := new_id }
        let t3 := t2.setPage new_id (Page.leaf right_leaf)
        let sp ← leafSplit t3 leaf_id new_id
        let t5 ← CoalesceOrSplit ctx_root write_set sp.2 leaf_id sp.1 new_id
        pure (true, t5)

/-- The loop of `BPlusTree::Insert`; `page_id` is the back of the write set
and `write_set` the pages below it. -/
def insertLoop (ctx_root : Int) (key : Int) (value : RID) :
    Nat → List Int → Int → BPlusTree → Outcome (Bool × BPlusTree)
  | 0, _, _, _ => Outcome.outOfFuel
  | fuel + 1, write_set, page_id, t =>
    match t.pages page_id with
    | none => Outcome.undefinedBehaviour
    | some (Page.leaf leaf0) => insertIntoLeaf ctx_root write_set t page_id leaf0 key value
    | some (Page.internal internal0) => do
      let internal : InternalPage := { internal0 with page_id_ := page_id }
      let t1 := t.setPage page_id (Page.internal internal)
      let child_id ← internal.ValueAt (internal.KeyIndex key)
      insertLoop ctx_root key value fuel (page_id :: write_set) child_id t1

/-- `BPlusTree::Insert`. -/
def BPlusTree.Insert (t : BPlusTree) (fuel : Nat) (key : Int) (value : RID) :
    Outcome (Bool × BPlusTree) :=
  if t.root_page_id_ = INVALID_PAGE_ID then
    let new_page_id := t.NewPage.1
    let t1 := t.NewPage.2
    if new_page_id = INVALID_PAGE_ID then Outcome.ensureFailed
    else
      let leaf := ((LeafPage.Init t.leaf_max_size_).Insert t.LEAF_PAGE_SLOT_CNT key value).2
      Outcome.ok (true, { t1.setPage new_page_id (Page.leaf leaf) with
                          root_page_id_ := new_page_id })
  else insertLoop t.root_page_id_ key value fuel [] t.root_page_id_ t

/-! ## B+Tree: removal -/

/-- `GetSize()` through the base class `BPlusTreePage`. -/
def Page.GetSize : Page → Int
  | Page.leaf p => p.GetSize
  | Page.internal p => p.GetSize

/-- `GetMaxSize()` through the base class. -/
def Page.GetMaxSize : Page → Nat
  | Page.leaf p => p.max_size_
  | Page.internal p => p.max_size_

/-- `GetPageId()` through the base class: the id stored in the page. -/
def Page.GetPageId : Page → Int
  | Page.leaf p => p.page_id_
  | Page.internal p => p.page_id_

/-- `IsLeafPage()`. -/
def Page.IsLeafPage : Page → Bool
  | Page.leaf _ => true
  | Page.internal _ => false

/-- The cast `guard.AsMut<BPlusTreePage>()`. -/
def BPlusTree.pageAt (t : BPlusTree) (pid : Int) : Outcome Page :=
  match t.pages pid with
  | some p => Outcome.ok p
  | none => Outcome.undefinedBehaviour

/-- `BPlusTreeLeafPage::Merge` of the leaf `sibling_id` into the leaf
`this_id`. -/
def leafMerge (t : BPlusTree) (this_id sibling_id : Int) : Outcome BPlusTree := do
  let this ← t.leafAt this_id
  let sibling ← t.leafAt sibling_id
  let this1 : LeafPage :=
    { this with slots := this.slots ++ sibling.slots,
                next_page_id_ := sibling.next_page_id_ }
  let t1 := t.setPage this_id (Page.leaf this1)
  if sibling.next_page_id_ ≠ INVALID_PAGE_ID then do
    let next ← t1.leafAt sibling.next_page_id_
    pure (t1.setPage sibling.next_page_id_
      (Page.leaf { next with prev_page_id_ := this1.page_id_ }))
  else pure t1

/-- The lambda `try_borrow_from_left` of `FixUnderflow`: `some` of the new pool
when an entry was borrowed, `none` when the lambda returned false. -/
def tryBorrowFromLeft (t : BPlusTree) (is_leaf : Bool) (curr_id parent_id : Int)
    (child_index left_sibling_id : Int) : Outcome (Option BPlusTree) :=
  if left_sibling_id = INVALID_PAGE_ID then pure none
  else do
    let left_node ← t.pageAt left_sibling_id
    let parent_node ← t.internalAt parent_id
    if is_leaf = true then
      if left_node.GetSize ≤ (GetMinSize left_node.GetMaxSize : Int) then pure none
      else do
        let left_leaf ← t.leafAt left_sibling_id
        let curr_leaf ← t.leafAt curr_id
        let key_to_move ← left_leaf.KeyAt (left_leaf.GetSize - 1)
        let value_to_move ← left_leaf.ValueAt (left_leaf.GetSize - 1)
        let left1 := (left_leaf.RemoveAndDeleteRecord key_to_move).2
        let curr1 := (curr_leaf.Insert t.LEAF_PAGE_SLOT_CNT key_to_move value_to_move).2
        let first ← curr1.KeyAt 0
        let parent1 ← parent_node.SetKeyAt child_index first
        pure (some (((t.setPage left_sibling_id (Page.leaf left1)).setPage curr_id
          (Page.leaf curr1)).setPage parent_id (Page.internal parent1)))
    else
      if left_node.GetSize - 1 ≤ (GetMinSize left_node.GetMaxSize : Int) then pure none
      else do
        let left_internal ← t.internalAt left_sibling_id
        let curr_internal ← t.internalAt curr_id
        let separator_key ← parent_node.KeyAt child_index
        let child_to_move ← left_internal.ValueAt (left_internal.GetSize - 1)
        let key_to_push_up ← left_internal.KeyAt (left_internal.GetSize - 1)
        let left1 ← left_internal.Remove (left_internal.GetSize - 1)
        let curr1 := curr_internal.InsertFront separator_key child_to_move
        let parent1 ← parent_node.SetKeyAt child_index key_to_push_up
        pure (some (((t.setPage left_sibling_id (Page.internal left1)).setPage curr_id
          (Page.internal curr1)).setPage parent_id (Page.internal parent1)))

/-- The lambda `try_borrow_from_right` of `FixUnderflow`. -/
def tryBorrowFromRight (t : BPlusTree) (is_leaf : Bool) (curr_id parent_id : Int)
    (child_index right_sibling_id : Int) : Outcome (Option BPlusTree) :=
  if right_sibling_id = INVALID_PAGE_ID then pure none
  else do
    let right_node ← t.pageAt right_sibling_id
    let parent_node ← t.internalAt parent_id
    if is_leaf = true then
      if right_node.GetSize ≤ (GetMinSize right_node.GetMaxSize : Int) then pure none
      else do
        let right_leaf ← t.leafAt right_sibling_id
        let curr_leaf ← t.leafAt curr_id
        let key_to_move ← right_leaf.KeyAt 0
        let value_to_move ← right_leaf.ValueAt 0
        let right1 := (right_leaf.RemoveAndDeleteRecord key_to_move).2
        let curr1 := (curr_leaf.Insert t.LEAF_PAGE_SLOT_CNT key_to_move value_to_move).2
        let first ← right1.KeyAt 0
        let parent1 ← parent_node.SetKeyAt (child_index + 1) first
        pure (some (((t.setPage right_sibling_id (Page.leaf right1)).setPage curr_id
          (Page.leaf curr1)).setPage parent_id (Page.internal parent1)))
    else
      if right_node.GetSize - 1 ≤ (GetMinSize right_node.GetMaxSize : Int) then pure none
      else do
        let right_internal ← t.internalAt right_sibling_id
        let curr_internal ← t.internalAt curr_id
        let separator_key ← parent_node.KeyAt (child_index + 1)
        let child_to_move ← right_internal.ValueAt 0
        let new_separator ← right_internal.KeyAt 1
        let right1 ← right_internal.Remove 0
        let curr1 := curr_internal.InsertBack separator_key child_to_move
        let parent1 ← parent_node.SetKeyAt (child_index + 1) new_separator
        pure (some (((t.setPage right_sibling_id (Page.internal right1)).setPage curr_id
          (Page.internal curr1)).setPage parent_id (Page.internal parent1)))

/-- The merge of two internal pages in `merge_with_left` and
`merge_with_right`: the separator and the slots of `right_id` are appended to
`left_id`, and `right_id` is left with size 0. -/
def internalMerge (t : BPlusTree) (left_id right_id : Int) (separator : Int) :
    Outcome BPlusTree := do
  let left ← t.internalAt left_id
  let right ← t.internalAt right_id
  let first_child ← right.ValueAt 0
  let left1 := left.InsertBack separator first_child
  let left2 : InternalPage := { left1 with slots := left1.slots ++ right.slots.drop 1 }
  let right1 : InternalPage := { right with slots := [] }
  pure ((t.setPage left_id (Page.internal left2)).setPage right_id (Page.internal right1))

/-- The lambda `merge_with_left` of `FixUnderflow`; `page_id` is the id stored
in the current page. -/
def mergeWithLeft (t : BPlusTree) (is_leaf : Bool) (curr_id parent_id : Int)
    (child_index left_sibling_id page_id : Int) : Outcome BPlusTree := do
  let parent_node ← t.internalAt parent_id
  let t1 ←
    if is_leaf = true then leafMerge t left_sibling_id curr_id
    else do
      let separator ← parent_node.KeyAt child_index
      internalMerge t left_sibling_id curr_id separator
  let parent1 ← parent_node.Remove child_index
  pure ((t1.setPage parent_id (Page.internal parent1)).DeletePage page_id)

/-- The lambda `merge_with_right` of `FixUnderflow`. -/
def mergeWithRight (t : BPlusTree) (is_leaf : Bool) (curr_id parent_id : Int)
    (child_index right_sibling_id : Int) : Outcome BPlusTree := do
  let parent_node ← t.internalAt parent_id
  let t1 ←
    if is_leaf = true then leafMerge t curr_id right_sibling_id
    else do
      let separator ← parent_node.KeyAt (child_index + 1)
      internalMerge t curr_id right_sibling_id separator
  let parent1 ← parent_node.Remove (child_index + 1)
  pure ((t1.setPage parent_id (Page.internal parent1)).DeletePage right_sibling_id)

/-- `BPlusTree::FixUnderflow`; the list is `ctx->write_set_`, its back first,
and `ctx_root` is `ctx->root_page_id_`.  The branch without any sibling goes on
with a write set whose back is a guard that was moved from. -/
def FixUnderflow (ctx_root : Int) : List Int → BPlusTree → Outcome BPlusTree
  | [], t => pure t
  | curr_id :: write_set, t => do
    let curr_node ← t.pageAt curr_id
    let page_id := curr_node.GetPageId
    let is_leaf := curr_node.IsLeafPage
    if IsRootPage ctx_root page_id = true ∧ curr_node.GetSize = 1 ∧ curr_node.IsLeafPage = false
    then do
      let node ← t.internalAt curr_id
      let new_root_id ← node.ValueAt 0
      pure { t.DeletePage page_id with root_page_id_ := new_root_id }
    else
      match write_set with
      | [] => Outcome.undefinedBehaviour
      | parent_id :: _ => do
        let parent_node ← t.internalAt parent_id
        let child_index := parent_node.ValueIndex page_id
        if child_index = -1 then Outcome.ensureFailed
        else do
          let left_sibling_id ←
            if child_index > 0 then parent_node.ValueAt (child_index - 1)
            else pure INVALID_PAGE_ID
          let right_sibling_id ←
            if child_index + 1 < parent_node.GetSize then parent_node.ValueAt (child_index + 1)
            else pure INVALID_PAGE_ID
          let borrowed_left ←
            tryBorrowFromLeft t is_leaf curr_id parent_id child_index left_sibling_id
          match borrowed_left with
          | some t1 => pure t1
          | none => do
            let borrowed_right ←
              tryBorrowFromRight t is_leaf curr_id parent_id child_index right_sibling_id
            match borrowed_right with
            | some t1 => pure t1
            | none =>
              if left_sibling_id = INVALID_PAGE_ID ∧ right_sibling_id = INVALID_PAGE_ID then
                Outcome.undefinedBehaviour
              else do
                let t1 ←
                  if left_sibling_id ≠ INVALID_PAGE_ID then
                    mergeWithLeft t is_leaf curr_id parent_id child_index left_sibling_id page_id
                  else mergeWithRight t is_leaf curr_id parent_id child_index right_sibling_id
                let parent1 ← t1.internalAt parent_id
                if IsRootPage ctx_root parent1.page_id_ = true then
                  if parent1.GetSize ≤ 1 then do
                    let new_root_id ← parent1.ValueAt 0
                    pure { t1.DeletePage parent1.page_id_ with root_page_id_ := new_root_id }
                  else pure t1
                else if parent1.GetSize - 1 < (GetMinSize parent1.max_size_ : Int) then
                  FixUnderflow ctx_root write_set t1
                else pure t1

/-- The leaf branch of the loop of `BPlusTree::Remove`; the leaf `leaf_id` is
the back of the write set and `write_set` holds the pages below it. -/
def removeFromLeaf (ctx_root : Int) (write_set : List Int) (t : BPlusTree) (leaf_id : Int)
    (leaf0 : LeafPage) (key : Int) : Outcome BPlusTree := do
  let leaf : LeafPage := { leaf0 with page_id_ := leaf_id }
  let t0 := t.setPage leaf_id (Page.leaf leaf)
  let idx := leaf.KeyIndex key
  let absent ←
    if idx = leaf.GetSize then pure true
    else do
      let k ← leaf.KeyAt idx
      pure (decide (comparator k key ≠ 0))
  if absent = true then pure t0
  else
    let leaf1 := (leaf.RemoveAndDeleteRecord key).2
    let t1 := t0.setPage leaf_id (Page.leaf leaf1)
    if IsRootPage ctx_root leaf_id = true then
      if leaf1.GetSize = 0 then
        pure { t1.DeletePage leaf_id with root_page_id_ := INVALID_PAGE_ID }
      else pure t1
    else if leaf1.GetSize ≥ (GetMinSize leaf1.max_size_ : Int) then pure t1
    else FixUnderflow ctx_root (leaf_id :: write_set) t1

/-- The loop of `BPlusTree::Remove`; `page_id` is the back of the write set
and `write_set` the pages below it. -/
def removeLoop (ctx_root : Int) (key : Int) :
    Nat → List Int → Int → BPlusTree → Outcome BPlusTree
  | 0, _, _, _ => Outcome.outOfFuel
  | fuel + 1, write_set, page_id, t =>
    match t.pages page_id with
    | none => Outcome.undefinedBehaviour
    | some (Page.leaf leaf0) => removeFromLeaf ctx_root write_set t page_id leaf0 key
    | some (Page.internal internal0) => do
      let internal_page : InternalPage := { internal0 with page_id_ := page_id }
      let t1 := t.setPage page_id (Page.internal internal_page)
      let child_id ← internal_page.ValueAt (internal_page.KeyIndex key)
      removeLoop ctx_root key fuel (page_id :: write_set) child_id t1

/-- `BPlusTree::Remove`. -/
def BPlusTree.Remove (t : BPlusTree) (fuel : Nat) (key : Int) : Outcome BPlusTree :=
  if t.root_page_id_ = INVALID_PAGE_ID then Outcome.ok t
  else removeLoop t.root_page_id_ key fuel [] t.root_page_id_ t

/-! ## B+Tree: comparing pools -/

/-- The page with its stored page id replaced: everything `SetPageId` leaves
alone, which is the keys, the values, the size, the maximal size and the
sibling pointers. -/
def Page.withPageId (i : Int) : Page → Page
  | Page.leaf p => Page.leaf { p with page_id_ := i }
  | Page.internal p => Page.internal { p with page_id_ := i }

/-- Two pools hold the same pages up to the page ids stored in the pages. -/
def SamePages (t t1 : BPlusTree) : Prop :=
  ∀ pid, (t1.pages pid).map (Page.withPageId 0) = (t.pages pid).map (Page.withPageId 0)

/-! ## B+Tree: sorted pages -/

/-- The keys of the slots are strictly increasing. -/
def SortedKeys {α : Type} (slots : List (Int × α)) : Prop :=
  slots.Pairwise (fun a b => a.1 < b.1)

/-! ## B+Tree: the tree that a pool of pages represents

The proofs about `Insert`, `Remove` and `GetValue` describe the pages reachable
from a page id as a tree of a given height.  A subtree is described by the
bounds `lo ≤ key < hi` of the keys it may hold, the set `E` of its entries, the
list `ps` of its page ids, the id `first` of its leftmost leaf and the value
`nxt` of the next pointer of its rightmost leaf. -/

/-- The key `k` respects the lower bound `lo` (`none`: no bound). -/
def aboveLo (lo : Option Int) (k : Int) : Prop := ∀ l, lo = some l → l ≤ k

/-- The key `k` respects the upper bound `hi` (`none`: no bound). -/
def belowHi (hi : Option Int) (k : Int) : Prop := ∀ h, hi = some h → k < h

/-- The lower bound is below the upper bound. -/
def boundsOrdered (lo hi : Option Int) : Prop := ∀ l h, lo = some l → hi = some h → l < h

/-- The description of one child of an internal page: the lower bound of its
keys (the separator key of its slot, for the first child the lower bound of the
parent), its page id, its entries, its pages and its leftmost leaf. -/
structure Kid where
  lo : Option Int
  pid : Int
  E : Int → RID → Prop
  ps : List Int
  first : Int

/-- The upper bound of a child: the lower bound of the child after it, or the
upper bound of the parent. -/
def nextLo (rest : List Kid) (hi : Option Int) : Option Int :=
  match rest with
  | [] => hi
  | k :: _ => k.lo

/-- The leaf that follows the last leaf of a child: the leftmost leaf of the
child after it, or the leaf that follows the parent. -/
def nextFirst (rest : List Kid) (nxt : Int) : Int :=
  match rest with
  | [] => nxt
  | k :: _ => k.first

/-- Every child of the list satisfies `R` with the upper bound and the
following leaf that the rest of the list gives it. -/
def KidsOK (R : Kid → Option Int → Int → Prop) : List Kid → Option Int → Int → Prop
  | [], _, _ => True
  | kid :: rest, hi, nxt => R kid (nextLo rest hi) (nextFirst rest nxt) ∧ KidsOK R rest hi nxt

/-- The page without its previous-leaf pointer: what the search structure
depends on. -/
def Page.core : Page → Page
  | Page.leaf p => Page.leaf { p with prev_page_id_ := INVALID_PAGE_ID }
  | Page.internal p => Page.internal p

/-- `Rep L I pages h m pid lo hi E ps first nxt`: in the pool `pages`, the page
`pid` is the root of a tree of height `h` (0: a leaf) over the pages `ps`, with
strictly sorted keys within `[lo, hi)`, holding exactly the entries `E`; the
leaves are linked from `first` on by their next pointers and the last one
points to `nxt`.  Leaves hold at most `L` entries; the page `pid`, when it is
internal, has at least `m` children, every internal page below it at least 2;
when it is a leaf, it has at least `m - 1` entries, so that every leaf below an
internal page holds an entry. -/
def Rep (L I : Nat) (pages : Int → Option Page) :
    Nat → Nat → Int → Option Int → Option Int → (Int → RID → Prop) → List Int → Int → Int → Prop
  | 0, m, pid, lo, hi, E, ps, first, nxt =>
    ∃ lp, pages pid = some (Page.leaf lp) ∧ lp.max_size_ = L ∧ lp.slots.length ≤ L ∧
      SortedKeys lp.slots ∧ (∀ s ∈ lp.slots, aboveLo lo s.1 ∧ belowHi hi s.1) ∧
      (∀ k v, E k v ↔ (k, v) ∈ lp.slots) ∧ ps = [pid] ∧ first = pid ∧
      lp.next_page_id_ = nxt ∧ boundsOrdered lo hi ∧ m ≤ lp.slots.length + 1
  | h + 1, m, pid, lo, hi, E, ps, first, nxt =>
    ∃ ip kids, pages pid = some (Page.internal ip) ∧ ip.max_size_ = I ∧ m ≤ kids.length ∧
      kids.map Kid.pid = ip.slots.map Prod.snd ∧
      kids.map Kid.lo = lo :: (ip.slots.drop 1).map (fun s => some s.1) ∧
      KidsOK (fun kid hi1 nxt1 => Rep L I pages h 2 kid.pid kid.lo hi1 kid.E kid.ps kid.first nxt1)
        kids hi nxt ∧
      (∀ k v, E k v ↔ ∃ kid ∈ kids, kid.E k v) ∧ ps = pid :: kids.flatMap Kid.ps ∧ ps.Nodup ∧
      first = nextFirst kids nxt

/-! ## B+Tree: the conditions that the operations keep -/

/-- The children of a represented internal page, as a predicate on one child
with its upper bound and the leaf that follows it. -/
@[reducible] def RepKid (L I : Nat) (pages : Int → Option Page) (h : Nat) :
    Kid → Option Int → Int → Prop :=
  fun kid hi1 nxt1 => Rep L I pages h 2 kid.pid kid.lo hi1 kid.E kid.ps kid.first nxt1

/-- The slots of an internal page match the children: slot `i` holds the page
id of child `i`, and for `i ≥ 1` its key is the lower bound of child `i`; the
first child has the lower bound `lo`. -/
def SlotsOf (lo : Option Int) (kids : List Kid) (slots : List (Int × Int)) : Prop :=
  kids.map Kid.pid = slots.map Prod.snd ∧
    kids.map Kid.lo = lo :: (slots.drop 1).map (fun s => some s.1)

/-- The slots behind slot 0 match the children: every slot holds the lower
bound and the page id of its child. -/
def SlotsTail (kids : List Kid) (slots : List (Int × Int)) : Prop :=
  kids.map (fun k => (k.lo, k.pid)) = slots.map (fun s => (some s.1, s.2))

/-- The page ids `ps` have been handed out by the buffer pool. -/
def Fresh (t : BPlusTree) (ps : List Int) : Prop :=
  1 ≤ t.next_page_id_ ∧ ∀ p ∈ ps, 1 ≤ p ∧ p < t.next_page_id_

/-- The next pointer `nxt` of the rightmost leaf of a subtree over the pages
`ps` is invalid or names a leaf outside the subtree. -/
def NextOK (t : BPlusTree) (nxt : Int) (ps : List Int) : Prop :=
  nxt = INVALID_PAGE_ID ∨
    (nxt ∉ ps ∧ nxt < t.next_page_id_ ∧ ∃ lp, t.pages nxt = some (Page.leaf lp))

/-- The configuration and the root page id are the same in both trees. -/
def Keep (t t1 : BPlusTree) : Prop :=
  t1.leaf_max_size_ = t.leaf_max_size_ ∧ t1.internal_max_size_ = t.internal_max_size_ ∧
    t1.LEAF_PAGE_SLOT_CNT = t.LEAF_PAGE_SLOT_CNT ∧ t1.root_page_id_ = t.root_page_id_

/-- The next-leaf pointer of a page of the pool, when the page is a leaf. -/
def nextOf : Option Page → Option Int
  | some (Page.leaf lp) => some lp.next_page_id_
  | _ => none

/-- The previous-leaf pointer of a page of the pool, when the page is a leaf. -/
def prevOf : Option Page → Option Int
  | some (Page.leaf lp) => some lp.prev_page_id_
  | _ => none

/-- The page id stored in a page of the pool, when the page is a leaf. -/
def storedOf : Option Page → Option Int
  | some (Page.leaf lp) => some lp.page_id_
  | _ => none

/-- The sibling pointers of the leaves of the pool agree: the leaf `b` is the
next leaf of the leaf `a` exactly when `a` is the previous leaf of `b`; there
are no pages but those that were handed out; and a leaf that has a neighbour
stores its own page id. -/
def PtrInv (t : BPlusTree) : Prop :=
  (∀ a b, a ≠ INVALID_PAGE_ID → b ≠ INVALID_PAGE_ID →
    (nextOf (t.pages a) = some b ↔ prevOf (t.pages b) = some a)) ∧
  (∀ p, (p < 1 ∨ t.next_page_id_ ≤ p) → t.pages p = none) ∧
  (∀ a b, b ≠ INVALID_PAGE_ID →
    (nextOf (t.pages a) = some b ∨ prevOf (t.pages a) = some b) → storedOf (t.pages a) = some a)

/-- The page `f` is a leaf without a previous leaf. -/
def NoPrev (t : BPlusTree) (f : Int) : Prop := prevOf (t.pages f) = some INVALID_PAGE_ID

/-- From `t` to `t1` the sibling pointers stay in agreement, and a leaf without
a previous leaf stays one. -/
def PtrStep (t t1 : BPlusTree) : Prop :=
  (PtrInv t → PtrInv t1) ∧ ∀ f, PtrInv t → NoPrev t f → NoPrev t1 f

/-- The pages that were handed out and are not among `ps` are the same in both
trees, up to the previous-leaf pointers; and the sibling pointers of the pool
stay in agreement. -/
def FrameOut (t t1 : BPlusTree) (ps : List Int) : Prop :=
  (∀ p, p ∉ ps → p < t.next_page_id_ → (t1.pages p).map Page.core = (t.pages p).map Page.core) ∧
    PtrStep t t1

/-- What the descent of `Insert` from the page `pid` of a represented subtree
comes to: the key is there already, or it has been put into the subtree, or the
page `pid` has been split and `CoalesceOrSplit` goes on above it. -/
def InsertPost (ctx_root key : Int) (value : RID) (L I : Nat) (ws : List Int) (t : BPlusTree)
    (h m : Nat) (pid : Int) (lo hi : Option Int) (E : Int → RID → Prop) (ps : List Int)
    (first nxt : Int) (res : Outcome (Bool × BPlusTree)) : Prop :=
  (∃ t1, res = Outcome.ok (false, t1) ∧ (∃ v0, E key v0) ∧ Keep t t1 ∧
      t1.next_page_id_ = t.next_page_id_ ∧
      Rep L I t1.pages h m pid lo hi E ps first nxt ∧ FrameOut t t1 ps) ∨
  (∃ t1 ps1, res = Outcome.ok (true, t1) ∧ (∀ v0, ¬ E key v0) ∧ Keep t t1 ∧
      t.next_page_id_ ≤ t1.next_page_id_ ∧
      Rep L I t1.pages h m pid lo hi (fun k v => E k v ∨ (k = key ∧ v = value)) ps1 first nxt ∧
      (∀ p ∈ ps1, p ∈ ps ∨ (t.next_page_id_ ≤ p ∧ p < t1.next_page_id_)) ∧
      FrameOut t t1 ps) ∨
  (∃ t1 mid new E1 E2 ps1 ps2 first2,
      res = (CoalesceOrSplit ctx_root ws t1 pid mid new >>= fun t5 => pure (true, t5)) ∧
      (∀ v0, ¬ E key v0) ∧ Keep t t1 ∧ t.next_page_id_ ≤ t1.next_page_id_ ∧
      Rep L I t1.pages h 2 pid lo (some mid) E1 ps1 first first2 ∧
      Rep L I t1.pages h 2 new (some mid) hi E2 ps2 first2 nxt ∧
      (∀ k v, (E1 k v ∨ E2 k v) ↔ (E k v ∨ (k = key ∧ v = value))) ∧
      (ps1 ++ ps2).Nodup ∧
      (∀ p ∈ ps1 ++ ps2, p ∈ ps ∨ (t.next_page_id_ ≤ p ∧ p < t1.next_page_id_)) ∧
      FrameOut t t1 ps)

/-- The page `pid` stores its own page id and is below its minimal size: a leaf
with fewer than `min_size` entries, an internal page with fewer than `min_size`
keys. -/
def Under (t : BPlusTree) (pid : Int) : Prop :=
  ∃ page, t.pages pid = some page ∧ page.GetPageId = pid ∧
    match page with
    | Page.leaf lp => lp.slots.length < GetMinSize lp.max_size_
    | Page.internal ip => ip.slots.length ≤ GetMinSize ip.max_size_

/-- The page `pid` stores its own page id. -/
def Stored (t : BPlusTree) (pid : Int) : Prop :=
  ∃ page, t.pages pid = some page ∧ page.GetPageId = pid

/-- The end of `BPlusTree::FixUnderflow` after a merge: the parent of the merged
pages, the back of the write set, is looked at. -/
def afterMerge (ctx_root : Int) (write_set : List Int) (parent_id : Int) (t1 : BPlusTree) :
    Outcome BPlusTree := do
  let parent1 ← t1.internalAt parent_id
  if IsRootPage ctx_root parent1.page_id_ = true then
    if parent1.GetSize ≤ 1 then do
      let new_root_id ← parent1.ValueAt 0
      pure { t1.DeletePage parent1.page_id_ with root_page_id_ := new_root_id }
    else pure t1
  else if parent1.GetSize - 1 < (GetMinSize parent1.max_size_ : Int) then
    FixUnderflow ctx_root write_set t1
  else pure t1

/-- What the descent of `Remove` from a page `pid` other than the root comes to:
the subtree holds the entries `E`, and it is as it has to be or its page `pid`
is below its minimal size, with `FixUnderflow` going on from it. -/
def RemovePost (ctx_root : Int) (L I : Nat) (ws : List Int) (t : BPlusTree)
    (h : Nat) (pid : Int) (lo hi : Option Int) (E : Int → RID → Prop) (ps : List Int)
    (first nxt : Int) (res : Outcome BPlusTree) : Prop :=
  (∃ t1 ps1, res = Outcome.ok t1 ∧ Keep t t1 ∧ t1.next_page_id_ = t.next_page_id_ ∧
      Rep L I t1.pages h 2 pid lo hi E ps1 first nxt ∧
      (∀ p ∈ ps1, p ∈ ps) ∧ FrameOut t t1 ps) ∨
  (∃ t1 ps1, res = FixUnderflow ctx_root (pid :: ws) t1 ∧ Keep t t1 ∧
      t1.next_page_id_ = t.next_page_id_ ∧
      Rep L I t1.pages h 1 pid lo hi E ps1 first nxt ∧
      (∀ p ∈ ps1, p ∈ ps) ∧ FrameOut t t1 ps ∧ Under t1 pid)

/-- What `Remove` comes to at an internal page `pid` before the page itself is
looked at: the subtree holds the entries `E`, and either nothing was merged
below the page, or two children were merged and the end of `FixUnderflow` looks
at the page. -/
def FixPost (ctx_root : Int) (L I : Nat) (ws : List Int) (t : BPlusTree)
    (h m : Nat) (pid : Int) (lo hi : Option Int) (E : Int → RID → Prop) (ps : List Int)
    (first nxt : Int) (res : Outcome BPlusTree) : Prop :=
  (∃ t1 ps1, res = Outcome.ok t1 ∧ Keep t t1 ∧ t1.next_page_id_ = t.next_page_id_ ∧
      Rep L I t1.pages h m pid lo hi E ps1 first nxt ∧
      (∀ p ∈ ps1, p ∈ ps) ∧ FrameOut t t1 ps) ∨
  (∃ t1 ps1, res = afterMerge ctx_root (pid :: ws) pid t1 ∧ Keep t t1 ∧
      t1.next_page_id_ = t.next_page_id_ ∧
      Rep L I t1.pages h 1 pid lo hi E ps1 first nxt ∧
      (∀ p ∈ ps1, p ∈ ps) ∧ FrameOut t t1 ps ∧ Stored t1 pid)

/-- The situation in which `FixUnderflow` is called on the child `curr` of the
page `pid`: the children before and after `curr` are as they have to be, `curr`
is below its minimal size. -/
structure FixCtx (ctx_root : Int) (L I S n : Nat) (t : BPlusTree) (pid : Int)
    (ip : InternalPage) (lo hi : Option Int) (nxt : Int) (pre : List Kid) (curr : Kid)
    (post : List Kid) : Prop where
  cfgL : t.leaf_max_size_ = L
  cfgI : t.internal_max_size_ = I
  cfgS : t.LEAF_PAGE_SLOT_CNT = S
  hL : 2 ≤ L
  hI : 3 ≤ I
  hS : L + 2 ≤ S
  hpage : t.pages pid = some (Page.internal ip)
  hipid : ip.page_id_ = pid
  hmax : ip.max_size_ = I
  hSl : SlotsOf lo (pre ++ [curr] ++ post) ip.slots
  hpre : KidsOK (RepKid L I t.pages n) pre curr.lo curr.first
  hcurr : Rep L I t.pages n 1 curr.pid curr.lo (nextLo post hi) curr.E curr.ps curr.first
    (nextFirst post nxt)
  hpost : KidsOK (RepKid L I t.pages n) post hi nxt
  hnd : (pid :: (pre ++ [curr] ++ post).flatMap Kid.ps).Nodup
  hfresh : Fresh t (pid :: (pre ++ [curr] ++ post).flatMap Kid.ps)
  hunder : Under t curr.pid
  hnext : NextOK t nxt (pid :: (pre ++ [curr] ++ post).flatMap Kid.ps)
  hnotroot : curr.pid ≠ ctx_root
  hlen : 2 ≤ (pre ++ [curr] ++ post).length

/-- The page id of the left sibling as `FixUnderflow` reads it from the parent:
the child before the current one, if there is one. -/
def leftId (pre : List Kid) : Int :=
  match pre.getLast? with
  | some l => l.pid
  | none => INVALID_PAGE_ID

/-- The page id of the right sibling as `FixUnderflow` reads it from the
parent. -/
def rightId (post : List Kid) : Int :=
  match post.head? with
  | some r => r.pid
  | none => INVALID_PAGE_ID

/-- What a step of `FixUnderflow` below the page `pid` leaves behind: the page
`pid` stores its id and is the root of a tree with the entries of the children
`kids`, over pages that were pages of the subtree before. -/
def FixGood (L I : Nat) (t t2 : BPlusTree) (n m : Nat) (pid : Int) (lo hi : Option Int)
    (kids : List Kid) (nxt : Int) : Prop :=
  Keep t t2 ∧ t2.next_page_id_ = t.next_page_id_ ∧ Stored t2 pid ∧
    ∃ ps2, Rep L I t2.pages (n + 1) m pid lo hi (fun k v => ∃ x ∈ kids, x.E k v) ps2
        (nextFirst kids nxt) nxt ∧
      (∀ p ∈ ps2, p ∈ pid :: kids.flatMap Kid.ps) ∧
      FrameOut t t2 (pid :: kids.flatMap Kid.ps)

/-! ## B+Tree: sequences of calls and the reference map -/

/-- A call of `Insert` or of `Remove`. -/
inductive Op where
  | insert (key : Int) (value : RID)
  | remove (key : Int)
deriving DecidableEq, Repr

/-- The calls made one after the other on a tree; the flag that `Insert`
returns is dropped. -/
def runOps (fuel : Nat) : List Op → BPlusTree → Outcome BPlusTree
  | [], t => Outcome.ok t
  | Op.insert key value :: rest, t =>
    (t.Insert fuel key value).bind (fun r => runOps fuel rest r.2)
  | Op.remove key :: rest, t =>
    (t.Remove fuel key).bind (fun t1 => runOps fuel rest t1)

/-- The reference finite map of the specification: keys with their values. -/
@[reducible] def RefMap : Type := List (Int × RID)

/-- The value the reference map holds for a key. -/
def RefMap.find : RefMap → Int → Option RID
  | [], _ => none
  | (k, v) :: rest, key => if k = key then some v else RefMap.find rest key

/-- Insert-if-absent on the reference map. -/
def RefMap.insertIfAbsent (m : RefMap) (key : Int) (value : RID) : RefMap :=
  match m.find key with
  | some _ => m
  | none => (key, value) :: m

/-- Erase on the reference map. -/
def RefMap.erase (m : RefMap) (key : Int) : RefMap :=
  m.filter (fun e => decide (e.1 ≠ key))

/-- The reference map driven by the calls. -/
def refRun : List Op → RefMap → RefMap
  | [], m => m
  | Op.insert key value :: rest, m => refRun rest (m.insertIfAbsent key value)
  | Op.remove key :: rest, m => refRun rest (m.erase key)

/-- The tree is empty, or its root is the root of a represented tree of a height
below `b` with the entries `E`, over pages that have been handed out, whose
leftmost leaf has no previous leaf; the sibling pointers of the pool agree. -/
def TreeInv (L I S b : Nat) (t : BPlusTree) (E : Int → RID → Prop) : Prop :=
  t.leaf_max_size_ = L ∧ t.internal_max_size_ = I ∧ t.LEAF_PAGE_SLOT_CNT = S ∧
  1 ≤ t.next_page_id_ ∧ PtrInv t ∧
  ((t.root_page_id_ = INVALID_PAGE_ID ∧ ∀ k v, ¬ E k v) ∨
    (t.root_page_id_ ≠ INVALID_PAGE_ID ∧ ∃ h ps first, h < b ∧
      Rep L I t.pages h 2 t.root_page_id_ none none E ps first INVALID_PAGE_ID ∧ Fresh t ps ∧
      NoPrev t first))

/-! ## LRU-K replacer: what the victim scan has seen -/

/-- Every victim recorded by the scan is an evictable entry that was visited. -/
def VictimSeen (seen : List (Int × LRUKNode)) (sc : EvictScan) : Prop :=
  (sc.inf_victim_frame ≠ INVALID_FRAME_ID →
      ∃ e ∈ seen, e.2.is_evictable_ = true ∧ e.1 = sc.inf_victim_frame) ∧
  (sc.reg_victim_frame ≠ INVALID_FRAME_ID →
      ∃ e ∈ seen, e.2.is_evictable_ = true ∧ e.1 = sc.reg_victim_frame)

/-- State of the infinite-distance candidate after the entries `seen`. -/
def InfSeen (k : Nat) (seen : List (Int × LRUKNode)) (sc : EvictScan) : Prop :=
  (∀ e ∈ seen, e.2.is_evictable_ = true → e.2.history_.length < k →
      ∀ t, e.2.history_.getLast? = some t → sc.inf_candidate_time ≤ t) ∧
  sc.inf_candidate_time ≤ SIZE_MAX ∧
  ((sc.inf_victim_frame = INVALID_FRAME_ID ∧ sc.inf_candidate_time = SIZE_MAX) ∨
   (∃ e ∈ seen, e.2.is_evictable_ = true ∧ e.2.history_.length < k ∧
      e.2.history_.getLast? = some sc.inf_candidate_time ∧ e.1 = sc.inf_victim_frame))

/-- State of the finite-distance candidate after the entries `seen`. -/
def RegSeen (k cur : Nat) (seen : List (Int × LRUKNode)) (sc : EvictScan) : Prop :=
  (sc.reg_victim_frame = INVALID_FRAME_ID ∧
    ∀ e ∈ seen, e.2.is_evictable_ = true → ¬ e.2.history_.length < k → False) ∨
  (∃ e ∈ seen, e.2.is_evictable_ = true ∧ ¬ e.2.history_.length < k ∧ e.1 = sc.reg_victim_frame ∧
    ∃ t, e.2.history_.getLast? = some t ∧ sizeSub cur t = sc.reg_candidate_distance ∧
    ∀ e1 ∈ seen, e1.2.is_evictable_ = true → ¬ e1.2.history_.length < k →
      ∀ t1, e1.2.history_.getLast? = some t1 → sizeSub cur t1 ≤ sc.reg_candidate_distance)

/-! ## Index iterator

The iterator keeps the id of its leaf, the index of its slot and a read guard
on the leaf; the guard is the id of the page it holds, `none` for
`std::nullopt`. -/

/-- `IndexIterator`: `current_page_id_`, `index_` and `page_guard_`. -/
structure IndexIterator where
  current_page_id_ : Int
  index_ : Int
  page_guard_ : Option Int
deriving DecidableEq, Repr

/-- `IndexIterator::IndexIterator()`, which is also what `BPlusTree::End`
returns. -/
def IndexIterator.End : IndexIterator :=
  { current_page_id_ := INVALID_PAGE_ID, index_ := 0, page_guard_ := none }

/-- `IndexIterator::IndexIterator(bpm, page_id, index)`: the page is read
unless the id is invalid. -/
def IndexIterator.make (page_id : Int) (index : Int) : IndexIterator :=
  { current_page_id_ := page_id, index_ := index,
    page_guard_ := if page_id ≠ INVALID_PAGE_ID then some page_id else none }

/-- `IndexIterator::IsEnd`. -/
def IndexIterator.IsEnd (it : IndexIterator) : Bool :=
  decide (it.current_page_id_ = INVALID_PAGE_ID) || it.page_guard_.isNone

/-- `IndexIterator::operator==`: the page id and the index are compared. -/
def IndexIterator.eq (a b : IndexIterator) : Bool :=
  decide (a.current_page_id_ = b.current_page_id_) && decide (a.index_ = b.index_)

/-- What `operator*` returns: a `std::pair<const KeyType &, const ValueType &>`.
Its two references are bound to the members of the temporary
`std::pair<KeyType, ValueType>` that `std::make_pair(KeyAt(index_),
ValueAt(index_))` creates in the return statement (`KeyAt` and `ValueAt` return
by value); the temporary is destroyed when the statement ends, so both
references are dangling when the caller receives them.  `referent` is what the
temporary held. -/
structure DanglingPair where
  referent : Int × RID
deriving DecidableEq, Repr

/-- A read through a reference of the pair that `operator*` has returned, as in
`auto [key, rid] = *iter; RID rid_copy = rid;`: the object referred to has been
destroyed, the read is undefined behaviour. -/
def DanglingPair.read (_p : DanglingPair) : Outcome (Int × RID) := Outcome.undefinedBehaviour

/-- `IndexIterator::operator*`: the assertion fails without a guard; the
guarded page is read as a leaf page; key and value of the slot are computed
and references to the temporary that holds them are returned. -/
def IndexIterator.deref (t : BPlusTree) (it : IndexIterator) : Outcome DanglingPair :=
  match it.page_guard_ with
  | none => Outcome.ensureFailed
  | some g => do
    let leaf_page ← t.leafAt g
    let k ← leaf_page.KeyAt it.index_
    let v ← leaf_page.ValueAt it.index_
    pure { referent := (k, v) }

/-- `IndexIterator::operator++`. -/
def IndexIterator.incr (t : BPlusTree) (it : IndexIterator) : Outcome IndexIterator :=
  match it.page_guard_ with
  | none => Outcome.ensureFailed
  | some g => do
    let leaf_page ← t.leafAt g
    let index1 := it.index_ + 1
    if index1 ≥ leaf_page.GetSize then
      let next_page_id := leaf_page.next_page_id_
      if next_page_id = INVALID_PAGE_ID then
        pure { current_page_id_ := INVALID_PAGE_ID, index_ := 0, page_guard_ := none }
      else
        pure { current_page_id_ := next_page_id, index_ := 0, page_guard_ := some next_page_id }
    else pure { it with index_ := index1 }

/-- The loop of `BPlusTree::Begin()`, started at the page `page_id`. -/
def beginLoop (t : BPlusTree) : Nat → Int → Outcome IndexIterator
  | 0, _ => Outcome.outOfFuel
  | fuel + 1, page_id =>
    match t.pages page_id with
    | none => Outcome.undefinedBehaviour
    | some (Page.leaf leaf_page) => pure (IndexIterator.make leaf_page.page_id_ 0)
    | some (Page.internal internal_page) => do
      let child ← internal_page.ValueAt 0
      beginLoop t fuel child

/-- `BPlusTree::Begin()`. -/
def BPlusTree.Begin (t : BPlusTree) (fuel : Nat) : Outcome IndexIterator :=
  if t.root_page_id_ = INVALID_PAGE_ID then pure IndexIterator.End
  else beginLoop t fuel t.root_page_id_

/-- The loop of `BPlusTree::Begin(key)`, started at the page `page_id`. -/
def beginKeyLoop (t : BPlusTree) (key : Int) : Nat → Int → Outcome IndexIterator
  | 0, _ => Outcome.outOfFuel
  | fuel + 1, page_id =>
    match t.pages page_id with
    | none => Outcome.undefinedBehaviour
    | some (Page.leaf leaf_page) =>
      pure (IndexIterator.make leaf_page.page_id_ (leaf_page.KeyIndex key))
    | some (Page.internal internal_page) => do
      let child ← internal_page.ValueAt (internal_page.KeyIndex key)
      beginKeyLoop t key fuel child

/-- `BPlusTree::Begin(key)`. -/
def BPlusTree.BeginKey (t : BPlusTree) (fuel : Nat) (key : Int) : Outcome IndexIterator :=
  if t.root_page_id_ = INVALID_PAGE_ID then pure IndexIterator.End
  else beginKeyLoop t key fuel t.root_page_id_

/-- `BPlusTree::End`. -/
def BPlusTree.End (_t : BPlusTree) : IndexIterator := IndexIterator.End

/-- The traversal `for (it = first; it != End(); ++it)` that collects the
entries read through `*it`. -/
def traverse (t : BPlusTree) : Nat → IndexIterator → Outcome (List (Int × RID))
  | 0, _ => Outcome.outOfFuel
  | fuel + 1, it =>
    if it.eq t.End = true then pure []
    else do
      let p ← it.deref t
      let e ← p.read
      let it1 ← it.incr t
      let rest ← traverse t fuel it1
      pure (e :: rest)

/-! ## B+Tree: the shape of the tree in the pool

The pages, keys and leaves that are reached from a page by following the child
pointers of the internal pages.  The descents take fuel: with fuel `n` they
follow at most `n - 1` pointers, so that with more fuel than the height they
see the whole tree. -/

/-- The pages reached from the page `p`, `p` first. -/
def pagesBelow (t : BPlusTree) : Nat → Int → List Int
  | 0, _ => []
  | fuel + 1, p =>
    match t.pages p with
    | none => []
    | some (Page.leaf _) => [p]
    | some (Page.internal ip) => p :: ip.slots.flatMap (fun s => pagesBelow t fuel s.2)

/-- The keys of the leaves reached from the page `p`: the keys reachable
through `p`. -/
def keysBelow (t : BPlusTree) : Nat → Int → List Int
  | 0, _ => []
  | fuel + 1, p =>
    match t.pages p with
    | none => []
    | some (Page.leaf lp) => lp.slots.map Prod.fst
    | some (Page.internal ip) => ip.slots.flatMap (fun s => keysBelow t fuel s.2)

/-- The lengths of the paths from the page `p` to the leaves reached from it. -/
def leafDepths (t : BPlusTree) : Nat → Int → List Nat
  | 0, _ => []
  | fuel + 1, p =>
    match t.pages p with
    | none => []
    | some (Page.leaf _) => [0]
    | some (Page.internal ip) =>
      (ip.slots.flatMap (fun s => leafDepths t fuel s.2)).map (fun d => d + 1)

/-- The pages of the tree: those reached from the root. -/
def BPlusTree.treePages (t : BPlusTree) (fuel : Nat) : List Int :=
  if t.root_page_id_ = INVALID_PAGE_ID then [] else pagesBelow t fuel t.root_page_id_

/-- The depths of the leaves of the tree. -/
def BPlusTree.treeLeafDepths (t : BPlusTree) (fuel : Nat) : List Nat :=
  if t.root_page_id_ = INVALID_PAGE_ID then [] else leafDepths t fuel t.root_page_id_

/-- The separator invariant of an internal page: for every slot `i ≥ 1`, the
keys reachable through child `i` are at least the key of slot `i`, and the keys
reachable through child `i - 1` are below it. -/
def SeparatorsOK (t : BPlusTree) (fuel : Nat) (ip : InternalPage) : Prop :=
  ∀ i : Nat, 1 ≤ i → i < ip.slots.length →
    (∀ k ∈ keysBelow t fuel (ip.slots.getD i (0, 0)).2, (ip.slots.getD i (0, 0)).1 ≤ k) ∧
    (∀ k ∈ keysBelow t fuel (ip.slots.getD (i - 1) (0, 0)).2, k < (ip.slots.getD i (0, 0)).1)

/-- The leaves reached from the page `p`, from left to right. -/
def leavesBelow (t : BPlusTree) : Nat → Int → List Int
  | 0, _ => []
  | fuel + 1, p =>
    match t.pages p with
    | none => []
    | some (Page.leaf _) => [p]
    | some (Page.internal ip) => ip.slots.flatMap (fun s => leavesBelow t fuel s.2)

/-- The leaves of the tree, from left to right: those reached from the root. -/
def BPlusTree.treeLeaves (t : BPlusTree) (fuel : Nat) : List Int :=
  if t.root_page_id_ = INVALID_PAGE_ID then [] else leavesBelow t fuel t.root_page_id_

/-- The keys of the leaf page `p`, in the order of its slots. -/
def leafKeys (t : BPlusTree) (p : Int) : List Int :=
  match t.pages p with
  | some (Page.leaf lp) => lp.slots.map Prod.fst
  | _ => []

/-- Following `next_page_id_` from the page `p` until `INVALID_PAGE_ID`: the
pages that are visited; `none` when a page of the chain is not a leaf page or
the fuel does not reach the end of the chain. -/
def nextChain (t : BPlusTree) : Nat → Int → Option (List Int)
  | 0, _ => none
  | fuel + 1, p =>
    if p = INVALID_PAGE_ID then some []
    else
      match t.pages p with
      | some (Page.leaf lp) => (nextChain t fuel lp.next_page_id_).map (fun l => p :: l)
      | _ => none

/-- The pages of the list are leaf pages, the next pointer of each of them is
the page after it, and the next pointer of the last one is `nxt`. -/
def Linked (t : BPlusTree) : List Int → Int → Prop
  | [], _ => True
  | p :: rest, nxt =>
    p ≠ INVALID_PAGE_ID ∧
      (∃ lp, t.pages p = some (Page.leaf lp) ∧ lp.next_page_id_ = rest.headD nxt) ∧
      Linked t rest nxt

/-- The leaves `ls` of a subtree with the entries `E` over the pages `ps`: they
are linked from `first` on and the last one points to `nxt`, no leaf comes
twice, and their keys, read along the list, are ascending and are keys of
entries of the subtree. -/
def LeavesOK (t : BPlusTree) (ls : List Int) (E : Int → RID → Prop) (ps : List Int)
    (first nxt : Int) : Prop :=
  ls.headD nxt = first ∧ Linked t ls nxt ∧ (∀ p ∈ ls, p ∈ ps) ∧ ls.Nodup ∧
    (ls.flatMap (leafKeys t)).Pairwise (fun a b => a < b) ∧
    ∀ k ∈ ls.flatMap (leafKeys t), ∃ v, E k v

/-! ## Execution: data model

The executors and the optimizer rule (`src/execution/*.cpp`,
`src/optimizer/seqscan_as_indexscan.cpp`) reach the values, tuples,
expressions, plan nodes, table heap and catalog through interfaces whose code
is not part of the sources at hand; the model of these follows §3 and §6 of
the specification.

Conventions of the embedding

* A tuple is the list of its values; the schema that the C++ calls pass along
  only names the columns and is a list of column names.
* The table heap is the list of its slots in the order of its iterator; the
  record id of slot `i` is `⟨0, i⟩`.
* An index of the catalog is a B+Tree of the model above; the calls of the
  `Index` interface are calls of the tree and take the fuel of its descents.
* The catalog is a value; an executor that changes the heap or an index
  returns the changed catalog.
* `INTEGER` counters of the executors are `int32_t`: incrementing
  `2^31 - 1` is undefined behaviour.
-/

/-- The value `UINT32_MAX`, which `ExtractOrKeys` uses as the invalid column
id. -/
def UINT32_MAX : Nat := 4294967295

/-- The greatest value of `int32_t`. -/
def INT32_MAX : Int := 2147483647

/-- Modelled from the spec: a value of a column or of an expression: an
`INTEGER` or a `BOOLEAN`. -/
inductive Value where
  | integer (v : Int)
  | boolean (b : Bool)
deriving DecidableEq, Repr

/-- Modelled from the spec: `Value::GetAs<bool>()`, which the scan uses to
tell whether the filter holds ("skip if `filter` evaluates falsy"). -/
def Value.GetAsBool : Value → Bool
  | Value.boolean b => b
  | Value.integer v => decide (v ≠ 0)

/-- Modelled from the spec: a row of a table, the list of its values. -/
structure Tuple where
  values : List Value
deriving DecidableEq, Repr

/-- Modelled from the spec: a schema, the names of its columns. -/
structure Schema where
  columns : List String
deriving DecidableEq, Repr

/-- Modelled from the spec: `Tuple::GetValue(schema, col_idx)`; reading a
column that the tuple does not have is undefined behaviour. -/
def Tuple.GetValue (t : Tuple) (col_idx : Nat) : Outcome Value :=
  match t.values[col_idx]? with
  | some v => Outcome.ok v
  | none => Outcome.undefinedBehaviour

/-- Modelled from the spec: the columns `key_attrs` of the tuple, one after the
other. -/
def keyValues (t : Tuple) : List Nat → Outcome (List Value)
  | [] => Outcome.ok []
  | c :: rest => do
    let v ← t.GetValue c
    let vs ← keyValues t rest
    pure (v :: vs)

/-- Modelled from the spec: `Tuple::KeyFromTuple(schema, key_schema,
key_attrs)`, the "key projection" of a row. -/
def Tuple.KeyFromTuple (t : Tuple) (key_attrs : List Nat) : Outcome Tuple := do
  let vs ← keyValues t key_attrs
  pure { values := vs }

/-- Modelled from the spec: the integer by which the B+Tree compares a value
of a key. -/
def Value.toKey : Value → Int
  | Value.integer v => v
  | Value.boolean b => if b then 1 else 0

/-- Modelled from the spec: the key that the B+Tree index holds for a key
tuple.  The indexes of the model are over one column (the index scan builds
its key tuples from one value): the key is the first value of the key tuple. -/
def Tuple.toIndexKey (t : Tuple) : Int :=
  match t.values with
  | [] => 0
  | v :: _ => v.toKey

/-! ## Execution: expressions -/

/-- Modelled from the spec: `ComparisonType`. -/
inductive ComparisonType where
  | Equal
  | NotEqual
  | LessThan
  | LessThanOrEqual
  | GreaterThan
  | GreaterThanOrEqual
deriving DecidableEq, Repr

/-- Modelled from the spec: `LogicType`. -/
inductive LogicType where
  | And
  | Or
deriving DecidableEq, Repr

/-- Modelled from the spec: the expression tree; the four shapes that §6
names: `ColumnValueExpression(tuple_idx, col_idx)`,
`ConstantValueExpression(value)`, `ComparisonExpression(type, left, right)` and
`LogicExpression(type, left, right)`. -/
inductive AbstractExpression where
  | ColumnValueExpression (tuple_idx col_idx : Nat)
  | ConstantValueExpression (val : Value)
  | ComparisonExpression (comp_type_ : ComparisonType) (left right : AbstractExpression)
  | LogicExpression (logic_type_ : LogicType) (left right : AbstractExpression)
deriving DecidableEq, Repr

/-- Modelled from the spec: the comparison of two values of one type; values
of different types are not comparable, the assertion on them fails. -/
def Value.PerformComparison (ty : ComparisonType) : Value → Value → Outcome Value
  | Value.integer a, Value.integer b =>
    Outcome.ok (Value.boolean
      (match ty with
       | ComparisonType.Equal => decide (a = b)
       | ComparisonType.NotEqual => decide (a ≠ b)
       | ComparisonType.LessThan => decide (a < b)
       | ComparisonType.LessThanOrEqual => decide (a ≤ b)
       | ComparisonType.GreaterThan => decide (a > b)
       | ComparisonType.GreaterThanOrEqual => decide (a ≥ b)))
  | Value.boolean a, Value.boolean b =>
    Outcome.ok (Value.boolean
      (match ty with
       | ComparisonType.Equal => decide (a = b)
       | ComparisonType.NotEqual => decide (a ≠ b)
       | ComparisonType.LessThan => !a && b
       | ComparisonType.LessThanOrEqual => !a || b
       | ComparisonType.GreaterThan => a && !b
       | ComparisonType.GreaterThanOrEqual => a || !b))
  | _, _ => Outcome.ensureFailed

/-- Modelled from the spec: `AbstractExpression::Evaluate(tuple, schema)`; the
tuple is `none` for the null pointer, which a column reference must not be
evaluated against. -/
def AbstractExpression.Evaluate : AbstractExpression → Option Tuple → Outcome Value
  | AbstractExpression.ColumnValueExpression _ col_idx, some t => t.GetValue col_idx
  | AbstractExpression.ColumnValueExpression _ _, none => Outcome.undefinedBehaviour
  | AbstractExpression.ConstantValueExpression val, _ => Outcome.ok val
  | AbstractExpression.ComparisonExpression ty l r, t => do
    let lhs ← l.Evaluate t
    let rhs ← r.Evaluate t
    Value.PerformComparison ty lhs rhs
  | AbstractExpression.LogicExpression ty l r, t => do
    let lhs ← l.Evaluate t
    let rhs ← r.Evaluate t
    match ty with
    | LogicType.And => pure (Value.boolean (lhs.GetAsBool && rhs.GetAsBool))
    | LogicType.Or => pure (Value.boolean (lhs.GetAsBool || rhs.GetAsBool))

/-- The cast `dynamic_cast<const ColumnValueExpression *>`: the tuple index and
the column index of a column reference. -/
def AbstractExpression.asColumnValue : AbstractExpression → Option (Nat × Nat)
  | AbstractExpression.ColumnValueExpression tuple_idx col_idx => some (tuple_idx, col_idx)
  | _ => none

/-- The cast `dynamic_cast<const ConstantValueExpression *>`. -/
def AbstractExpression.asConstantValue : AbstractExpression → Option Value
  | AbstractExpression.ConstantValueExpression val => some val
  | _ => none

/-! ## Execution: table heap -/

/-- Modelled from the spec: the tuple metadata `(timestamp, is_deleted)`. -/
structure TupleMeta where
  ts_ : Int
  is_deleted_ : Bool
deriving DecidableEq, Repr

/-- Modelled from the spec: the table heap: its slots, in the order of its
iterator, and the greatest number of values of a tuple that fits into a
page. -/
structure TableHeap where
  slots : List (TupleMeta × Tuple)
  tuple_limit : Nat
deriving DecidableEq, Repr

/-- Modelled from the spec: `TableHeap::GetTuple(rid)`. -/
def TableHeap.GetTuple (h : TableHeap) (rid : RID) : Outcome (TupleMeta × Tuple) :=
  if rid.page_id = 0 then
    match h.slots[rid.slot_num]? with
    | some s => Outcome.ok s
    | none => Outcome.ensureFailed
  else Outcome.undefinedBehaviour

/-- Modelled from the spec: `TableHeap::InsertTuple(meta, tuple, ...)`: the
record id of the new slot, which is the last one; no record id and no change
when the tuple does not fit into a page. -/
def TableHeap.InsertTuple (h : TableHeap) (tuple_meta : TupleMeta) (tuple : Tuple) :
    Option RID × TableHeap :=
  if tuple.values.length ≤ h.tuple_limit then
    (some { page_id := 0, slot_num := h.slots.length },
      { h with slots := h.slots ++ [(tuple_meta, tuple)] })
  else (none, h)

/-- Modelled from the spec: `TableHeap::UpdateTupleMeta(meta, rid)`. -/
def TableHeap.UpdateTupleMeta (h : TableHeap) (tuple_meta : TupleMeta) (rid : RID) :
    Outcome TableHeap :=
  if rid.page_id = 0 then
    match h.slots[rid.slot_num]? with
    | some s => Outcome.ok { h with slots := h.slots.set rid.slot_num (tuple_meta, s.2) }
    | none => Outcome.ensureFailed
  else Outcome.undefinedBehaviour

/-- Modelled from the spec: the iterator of a table heap: the record ids that
it has yet to visit. -/
structure TableIterator where
  rids : List RID
deriving DecidableEq, Repr

/-- Modelled from the spec: `TableHeap::MakeIterator()`: the iterator visits
the slots that the heap holds when the iterator is made. -/
def TableHeap.MakeIterator (h : TableHeap) : TableIterator :=
  { rids := (List.range h.slots.length).map (fun i => { page_id := 0, slot_num := i }) }

/-! ## Execution: catalog -/

/-- Modelled from the spec: `TableInfo{schema, table_heap, name}` with the oid
of the table. -/
structure TableInfo where
  schema_ : Schema
  name_ : String
  table_ : TableHeap
  oid_ : Nat
deriving DecidableEq, Repr

/-- Modelled from the spec: `IndexInfo{key_schema, index, oid, key_attrs}` with
the name of its table; the index is a B+Tree. -/
structure IndexInfo where
  key_schema_ : Schema
  table_name_ : String
  index_ : BPlusTree
  index_oid_ : Nat
  key_attrs : List Nat

/-- Modelled from the spec: the catalog: its tables and its indexes, in the
order in which the catalog lists them. -/
structure Catalog where
  tables_ : List TableInfo
  indexes_ : List IndexInfo

/-- Modelled from the spec: `Catalog::GetTable(oid)`, `none` for the null
pointer that an unknown oid gives. -/
def Catalog.GetTable (c : Catalog) (table_oid : Nat) : Option TableInfo :=
  c.tables_.find? (fun ti => decide (ti.oid_ = table_oid))

/-- Modelled from the spec: `Catalog::GetTableIndexes(table_name)`. -/
def Catalog.GetTableIndexes (c : Catalog) (table_name : String) : List IndexInfo :=
  c.indexes_.filter (fun ii => decide (ii.table_name_ = table_name))

/-- Modelled from the spec: `Catalog::GetIndex(oid)`. -/
def Catalog.GetIndex (c : Catalog) (index_oid : Nat) : Option IndexInfo :=
  c.indexes_.find? (fun ii => decide (ii.index_oid_ = index_oid))

/-- The heap of the table `table_oid` after an executor has changed it through
the pointer `table_info->table_`. -/
def Catalog.setTableHeap (c : Catalog) (table_oid : Nat) (h : TableHeap) : Catalog :=
  let put := fun (ti : TableInfo) => if ti.oid_ = table_oid then { ti with table_ := h } else ti
  { c with tables_ := c.tables_.map put }

/-- The indexes of a table put back into the list of all indexes, each in the
place of the index it comes from. -/
def putIndexes (table_name : String) : List IndexInfo → List IndexInfo → List IndexInfo
  | [], _ => []
  | ii :: rest, changed =>
    if ii.table_name_ = table_name then
      match changed with
      | [] => ii :: putIndexes table_name rest []
      | jj :: changed1 => jj :: putIndexes table_name rest changed1
    else ii :: putIndexes table_name rest changed

/-- The indexes of the table `table_name` after an executor has changed them
through the pointers `index_info->index_`. -/
def Catalog.setTableIndexes (c : Catalog) (table_name : String) (changed : List IndexInfo) :
    Catalog :=
  { c with indexes_ := putIndexes table_name c.indexes_ changed }

/-- Modelled from the spec: `Index::InsertEntry(key_tuple, rid, txn)` of the
B+Tree index: `Insert` of the tree; the flag that it returns is dropped by the
executors. -/
def IndexInfo.InsertEntry (ii : IndexInfo) (fuel : Nat) (key : Tuple) (rid : RID) :
    Outcome IndexInfo := do
  let r ← ii.index_.Insert fuel key.toIndexKey rid
  pure { ii with index_ := r.2 }

/-- Modelled from the spec: `Index::DeleteEntry(key_tuple, rid, txn)` of the
B+Tree index: `Remove` of the tree, which takes the key only. -/
def IndexInfo.DeleteEntry (ii : IndexInfo) (fuel : Nat) (key : Tuple) (_rid : RID) :
    Outcome IndexInfo := do
  let t ← ii.index_.Remove fuel key.toIndexKey
  pure { ii with index_ := t }

/-- Modelled from the spec: `Index::ScanKey(key_tuple, &out_rids, txn)` of the
B+Tree index: `GetValue` of the tree. -/
def IndexInfo.ScanKey (ii : IndexInfo) (fuel : Nat) (key : Tuple) : Outcome (List RID) := do
  let r ← ii.index_.GetValue fuel key.toIndexKey
  pure r.toList

/-- Modelled from the spec: `GetBeginIterator()` of the B+Tree index: `Begin()`
of the tree. -/
def IndexInfo.GetBeginIterator (ii : IndexInfo) (fuel : Nat) : Outcome IndexIterator :=
  ii.index_.Begin fuel

/-- Modelled from the spec: the executor context: the catalog and the
temporary timestamp of the transaction (`GetTransactionTempTs()`). -/
structure ExecutorContext where
  catalog_ : Catalog
  txn_temp_ts_ : Int

/-! ## Optimizer rule: sequential scan as index scan -/

/-- `ExtractOrKeys(expr, col_idx)`: the key expressions, and the column id that
the C++ function hands back through its reference parameter
(`UINT32_MAX` when nothing was extracted).

The first `if` of the Equal branch asks whether the left child is not a column
reference or the right child is not a constant; then the children are looked
at the other way round. -/
def ExtractOrKeys : AbstractExpression → List AbstractExpression × Nat
  | AbstractExpression.ComparisonExpression comp_type_ child0 child1 =>
    if comp_type_ = ComparisonType.Equal then
      match child0.asColumnValue, child1.asConstantValue with
      | some left_col, some _ =>
        if left_col.1 = 0 then ([child1], left_col.2) else ([], UINT32_MAX)
      | _, _ =>
        match child1.asColumnValue, child0.asConstantValue with
        | some right_col, some _ =>
          if right_col.1 = 0 then ([child0], right_col.2) else ([], UINT32_MAX)
        | _, _ => ([], UINT32_MAX)
    else ([], UINT32_MAX)
  | AbstractExpression.LogicExpression logic_type_ child0 child1 =>
    if logic_type_ = LogicType.Or then
      let left := ExtractOrKeys child0
      let right := ExtractOrKeys child1
      if left.1 ≠ [] ∧ right.1 ≠ [] ∧ left.2 = right.2 ∧ left.2 ≠ UINT32_MAX then
        (left.1 ++ right.1, left.2)
      else ([], UINT32_MAX)
    else ([], UINT32_MAX)
  | _ => ([], UINT32_MAX)

/-- Modelled from the spec: `SeqScanPlanNode`: its output schema, the oid and
the name of its table and its filter predicate (`none` for the null
pointer). -/
structure SeqScanPlanNode where
  output_schema_ : Schema
  table_oid_ : Nat
  table_name_ : String
  filter_predicate_ : Option AbstractExpression
deriving DecidableEq, Repr

/-- Modelled from the spec:
`IndexScanPlanNode(schema, table_oid, index_oid, filter, pred_keys)`. -/
structure IndexScanPlanNode where
  output_schema_ : Schema
  table_oid_ : Nat
  index_oid_ : Nat
  filter_predicate_ : Option AbstractExpression
  pred_keys_ : List AbstractExpression
deriving DecidableEq, Repr

mutual
/-- Modelled from the spec: a plan node: a sequential scan or an index scan,
which have no children, or a node of another type, of which the model keeps
the name of the type, the output schema and the children. -/
inductive AbstractPlanNode where
  | SeqScan (node : SeqScanPlanNode)
  | IndexScan (node : IndexScanPlanNode)
  | Other (type_name : String) (output_schema_ : Schema) (children_ : PlanChildren)
/-- The children of a plan node, first child first. -/
inductive PlanChildren where
  | nil
  | cons (child : AbstractPlanNode) (rest : PlanChildren)
end

/-- The loop of the optimizer over the indexes of the table: the first index
whose list of key attributes is not empty and starts with `col_idx`. -/
def findIndexOn (col_idx : Nat) : List IndexInfo → Option IndexInfo
  | [] => none
  | index :: rest =>
    match index.key_attrs with
    | [] => findIndexOn col_idx rest
    | first :: _ => if first = col_idx then some index else findIndexOn col_idx rest

/-- The part of `Optimizer::OptimizeSeqScanAsIndexScan` that looks at a
sequential scan after its children have been rewritten.  `GetTable` of an
unknown oid gives a null pointer, which is dereferenced. -/
def rewriteSeqScan (catalog_ : Catalog) (seq_scan : SeqScanPlanNode) :
    Outcome AbstractPlanNode :=
  match seq_scan.filter_predicate_ with
  | none => Outcome.ok (AbstractPlanNode.SeqScan seq_scan)
  | some filter =>
    match catalog_.GetTable seq_scan.table_oid_ with
    | none => Outcome.undefinedBehaviour
    | some table_info =>
      let indices := catalog_.GetTableIndexes table_info.name_
      let extracted := ExtractOrKeys filter
      if extracted.1 ≠ [] ∧ extracted.2 ≠ UINT32_MAX then
        match findIndexOn extracted.2 indices with
        | some index =>
          Outcome.ok (AbstractPlanNode.IndexScan
            { output_schema_ := seq_scan.output_schema_, table_oid_ := seq_scan.table_oid_,
              index_oid_ := index.index_oid_, filter_predicate_ := seq_scan.filter_predicate_,
              pred_keys_ := extracted.1 })
        | none => Outcome.ok (AbstractPlanNode.SeqScan seq_scan)
      else Outcome.ok (AbstractPlanNode.SeqScan seq_scan)

mutual
/-- `Optimizer::OptimizeSeqScanAsIndexScan(plan)`: the children are rewritten
first, the node is cloned with them, and a sequential scan is looked at. -/
def OptimizeSeqScanAsIndexScan (catalog_ : Catalog) : AbstractPlanNode → Outcome AbstractPlanNode
  | AbstractPlanNode.SeqScan seq_scan => rewriteSeqScan catalog_ seq_scan
  | AbstractPlanNode.IndexScan node => Outcome.ok (AbstractPlanNode.IndexScan node)
  | AbstractPlanNode.Other type_name output_schema_ children_ => do
    let children ← optimizeChildren catalog_ children_
    pure (AbstractPlanNode.Other type_name output_schema_ children)
/-- The loop of `OptimizeSeqScanAsIndexScan` over the children of a node. -/
def optimizeChildren (catalog_ : Catalog) : PlanChildren → Outcome PlanChildren
  | PlanChildren.nil => Outcome.ok PlanChildren.nil
  | PlanChildren.cons child rest => do
    let child1 ← OptimizeSeqScanAsIndexScan catalog_ child
    let rest1 ← optimizeChildren catalog_ rest
    pure (PlanChildren.cons child1 rest1)
end

/-! ## Executors: sequential scan and index scan

An executor is the record of its members; `Init` and `Next` take the executor
context, whose catalog holds the heap and the indexes, and `Next` returns the
row that it emits (`none` for `false`) with the executor after the call. -/

/-- The members of `SeqScanExecutor` after `Init`. -/
structure SeqScanExecutor where
  plan_ : SeqScanPlanNode
  table_iterator_ : TableIterator
deriving DecidableEq, Repr

/-- `SeqScanExecutor::Init`. -/
def SeqScanExecutor.Init (exec_ctx_ : ExecutorContext) (plan_ : SeqScanPlanNode) :
    Outcome SeqScanExecutor :=
  match exec_ctx_.catalog_.GetTable plan_.table_oid_ with
  | none => Outcome.undefinedBehaviour
  | some table_info =>
    Outcome.ok { plan_ := plan_, table_iterator_ := table_info.table_.MakeIterator }

/-- The loop of `SeqScanExecutor::Next` over the record ids that the iterator
has yet to visit: the row that is emitted and the record ids that are left. -/
def seqScanLoop (table_ : TableHeap) (filter_predicate_ : Option AbstractExpression) :
    List RID → Outcome (Option (Tuple × RID) × List RID)
  | [] => Outcome.ok (none, [])
  | rid :: rest => do
    let slot ← table_.GetTuple rid
    if slot.1.is_deleted_ = true then seqScanLoop table_ filter_predicate_ rest
    else
      match filter_predicate_ with
      | none => pure (some (slot.2, rid), rest)
      | some filter => do
        let eval_result ← filter.Evaluate (some slot.2)
        if eval_result.GetAsBool = false then seqScanLoop table_ filter_predicate_ rest
        else pure (some (slot.2, rid), rest)

/-- `SeqScanExecutor::Next`. -/
def SeqScanExecutor.Next (exec_ctx_ : ExecutorContext) (e : SeqScanExecutor) :
    Outcome (Option (Tuple × RID) × SeqScanExecutor) :=
  match exec_ctx_.catalog_.GetTable e.plan_.table_oid_ with
  | none => Outcome.undefinedBehaviour
  | some table_info => do
    let r ← seqScanLoop table_info.table_ e.plan_.filter_predicate_ e.table_iterator_.rids
    pure (r.1, { e with table_iterator_ := { rids := r.2 } })

/-- The members of `IndexScanExecutor` after `Init`. -/
structure IndexScanExecutor where
  plan_ : IndexScanPlanNode
  scan_rids_ : List RID
  current_index_ : Nat
deriving DecidableEq, Repr

/-- The call `rid_set.insert(rid.Get())` on the set of record ids; the set is
the list of its elements in the order in which they came in.  The C++ standard
leaves the order in which an `unordered_set` is iterated unspecified: the list
is one of the possible orders, and the theorems about the point lookup speak
of the members of the list, of its being free of repetitions and of lists up
to permutation only. -/
def ridSetInsert (rid_set : List RID) (rid : RID) : List RID :=
  if rid ∈ rid_set then rid_set else rid_set ++ [rid]

/-- The loop of `IndexScanExecutor::Init` over the key expressions of a point
lookup.  Every key is evaluated against the null tuple; the schema of the
table is read, `none` stands for the null pointer of an unknown table. -/
def pointLookupLoop (fuel : Nat) (table_info : Option TableInfo) (index_info : IndexInfo) :
    List AbstractExpression → List RID → Outcome (List RID)
  | [], rid_set => Outcome.ok rid_set
  | key_expr :: rest, rid_set =>
    match table_info with
    | none => Outcome.undefinedBehaviour
    | some _ => do
      let v ← key_expr.Evaluate none
      let key_tuple : Tuple := { values := [v] }
      let result_rids ← index_info.ScanKey fuel key_tuple
      pointLookupLoop fuel table_info index_info rest (result_rids.foldl ridSetInsert rid_set)

/-- The loop of `IndexScanExecutor::Init` over the index iterator in an
ordered scan: `auto [key, rid] = *iter;` keeps the pair of references that
`operator*` returns, and `RID rid_copy = rid;` reads the record id through
its second reference. -/
def orderedScanLoop (tree : BPlusTree) : Nat → IndexIterator → List RID → Outcome (List RID)
  | 0, _, _ => Outcome.outOfFuel
  | fuel + 1, iter, scan_rids_ =>
    if iter.IsEnd = true then Outcome.ok scan_rids_
    else do
      let entry ← iter.deref tree
      let rid_copy ← entry.read
      let iter1 ← iter.incr tree
      orderedScanLoop tree fuel iter1 (scan_rids_ ++ [rid_copy.2])

/-- `IndexScanExecutor::Init`.  `GetIndex` of an unknown oid gives a null
pointer, which is dereferenced. -/
def IndexScanExecutor.Init (exec_ctx_ : ExecutorContext) (fuel : Nat) (plan_ : IndexScanPlanNode) :
    Outcome IndexScanExecutor :=
  match exec_ctx_.catalog_.GetIndex plan_.index_oid_ with
  | none => Outcome.undefinedBehaviour
  | some index_info =>
    let table_info := exec_ctx_.catalog_.GetTable plan_.table_oid_
    let is_point_lookup_ := plan_.filter_predicate_.isSome
    if is_point_lookup_ = true then
      if plan_.pred_keys_ ≠ [] then do
        let rid_set ← pointLookupLoop fuel table_info index_info plan_.pred_keys_ []
        pure { plan_ := plan_, scan_rids_ := rid_set, current_index_ := 0 }
      else pure { plan_ := plan_, scan_rids_ := [], current_index_ := 0 }
    else do
      let iter ← index_info.GetBeginIterator fuel
      let rids ← orderedScanLoop index_info.index_ fuel iter []
      pure { plan_ := plan_, scan_rids_ := rids, current_index_ := 0 }

/-- The loop of `IndexScanExecutor::Next` over the record ids from
`current_index_` on: the row that is emitted and the new `current_index_`. -/
def indexScanLoop (table_info : Option TableInfo) :
    List RID → Nat → Outcome (Option (Tuple × RID) × Nat)
  | [], current_index_ => Outcome.ok (none, current_index_)
  | current_rid :: rest, current_index_ =>
    match table_info with
    | none => Outcome.undefinedBehaviour
    | some ti => do
      let slot ← ti.table_.GetTuple current_rid
      if slot.1.is_deleted_ = true then indexScanLoop table_info rest (current_index_ + 1)
      else pure (some (slot.2, current_rid), current_index_ + 1)

/-- `IndexScanExecutor::Next`. -/
def IndexScanExecutor.Next (exec_ctx_ : ExecutorContext) (e : IndexScanExecutor) :
    Outcome (Option (Tuple × RID) × IndexScanExecutor) := do
  let table_info := exec_ctx_.catalog_.GetTable e.plan_.table_oid_
  let r ← indexScanLoop table_info (e.scan_rids_.drop e.current_index_) e.current_index_
  pure (r.1, { e with current_index_ := r.2 })

/-! ## Executors: insert, delete and update

The child executor is an external collaborator ("`Next` produces one row;
false = EOF"): it is the list of the rows that its calls of `Next` yield. -/

/-- The statement `count++` on an `int32_t` counter. -/
def int32Incr (count : Int) : Outcome Int :=
  if count = INT32_MAX then Outcome.undefinedBehaviour else Outcome.ok (count + 1)

/-- The loop `for (auto &index_info : indexes) InsertEntry(...)`. -/
def insertEntries (fuel : Nat) (tuple : Tuple) (rid : RID) :
    List IndexInfo → Outcome (List IndexInfo)
  | [] => Outcome.ok []
  | index_info :: rest => do
    let key ← tuple.KeyFromTuple index_info.key_attrs
    let index1 ← index_info.InsertEntry fuel key rid
    let rest1 ← insertEntries fuel tuple rid rest
    pure (index1 :: rest1)

/-- The loop `for (auto &index_info : indexes) DeleteEntry(...)`. -/
def deleteEntries (fuel : Nat) (tuple : Tuple) (rid : RID) :
    List IndexInfo → Outcome (List IndexInfo)
  | [] => Outcome.ok []
  | index_info :: rest => do
    let key ← tuple.KeyFromTuple index_info.key_attrs
    let index1 ← index_info.DeleteEntry fuel key rid
    let rest1 ← deleteEntries fuel tuple rid rest
    pure (index1 :: rest1)

/-- Modelled from the spec: `InsertPlanNode`: the oid of its table. -/
structure InsertPlanNode where
  table_oid_ : Nat
deriving DecidableEq, Repr

/-- The members of `InsertExecutor`. -/
structure InsertExecutor where
  plan_ : InsertPlanNode
  child_executor_ : List (Tuple × RID)
  done_ : Bool
deriving DecidableEq, Repr

/-- The constructor of `InsertExecutor` followed by `InsertExecutor::Init`,
which initialises the child. -/
def InsertExecutor.Init (plan_ : InsertPlanNode) (child_rows : List (Tuple × RID)) :
    InsertExecutor :=
  { plan_ := plan_, child_executor_ := child_rows, done_ := false }

/-- The loop of `InsertExecutor::Next` over the rows of the child: the heap,
the indexes and the counter after the loop. -/
def insertExecutorLoop (fuel : Nat) (ts : Int) :
    List (Tuple × RID) → TableHeap → List IndexInfo → Int →
      Outcome (TableHeap × List IndexInfo × Int)
  | [], table_, indexes, insert_count => Outcome.ok (table_, indexes, insert_count)
  | (child_tuple, _) :: rest, table_, indexes, insert_count =>
    match table_.InsertTuple { ts_ := ts, is_deleted_ := false } child_tuple with
    | (some inserted_rid, table1) => do
      let count1 ← int32Incr insert_count
      let indexes1 ← insertEntries fuel child_tuple inserted_rid indexes
      insertExecutorLoop fuel ts rest table1 indexes1 count1
    | (none, table1) => insertExecutorLoop fuel ts rest table1 indexes insert_count

/-- `InsertExecutor::Next`: the tuple that is emitted (`none` for `false`), the
executor and the context after the call. -/
def InsertExecutor.Next (exec_ctx_ : ExecutorContext) (fuel : Nat) (e : InsertExecutor) :
    Outcome (Option Tuple × InsertExecutor × ExecutorContext) :=
  if e.done_ = true then Outcome.ok (none, e, exec_ctx_)
  else
    match exec_ctx_.catalog_.GetTable e.plan_.table_oid_ with
    | none => Outcome.undefinedBehaviour
    | some table_info => do
      let indexes := exec_ctx_.catalog_.GetTableIndexes table_info.name_
      let r ← insertExecutorLoop fuel exec_ctx_.txn_temp_ts_ e.child_executor_ table_info.table_
        indexes 0
      let catalog1 := (exec_ctx_.catalog_.setTableHeap e.plan_.table_oid_ r.1).setTableIndexes
        table_info.name_ r.2.1
      pure (some { values := [Value.integer r.2.2] },
        { e with child_executor_ := [], done_ := true },
        { exec_ctx_ with catalog_ := catalog1 })

/-- Modelled from the spec: `DeletePlanNode`: the oid of its table. -/
structure DeletePlanNode where
  table_oid_ : Nat
deriving DecidableEq, Repr

/-- The members of `DeleteExecutor`. -/
structure DeleteExecutor where
  plan_ : DeletePlanNode
  child_executor_ : List (Tuple × RID)
  done_ : Bool
deriving DecidableEq, Repr

/-- The constructor of `DeleteExecutor` followed by `DeleteExecutor::Init`. -/
def DeleteExecutor.Init (plan_ : DeletePlanNode) (child_rows : List (Tuple × RID)) :
    DeleteExecutor :=
  { plan_ := plan_, child_executor_ := child_rows, done_ := false }

/-- The loop of `DeleteExecutor::Next` over the rows of the child. -/
def deleteExecutorLoop (fuel : Nat) (ts : Int) :
    List (Tuple × RID) → TableHeap → List IndexInfo → Int →
      Outcome (TableHeap × List IndexInfo × Int)
  | [], table_, indexes, delete_count => Outcome.ok (table_, indexes, delete_count)
  | (child_tuple, child_rid) :: rest, table_, indexes, delete_count => do
    let indexes1 ← deleteEntries fuel child_tuple child_rid indexes
    let table1 ← table_.UpdateTupleMeta { ts_ := ts, is_deleted_ := true } child_rid
    let count1 ← int32Incr delete_count
    deleteExecutorLoop fuel ts rest table1 indexes1 count1

/-- `DeleteExecutor::Next`. -/
def DeleteExecutor.Next (exec_ctx_ : ExecutorContext) (fuel : Nat) (e : DeleteExecutor) :
    Outcome (Option Tuple × DeleteExecutor × ExecutorContext) :=
  if e.done_ = true then Outcome.ok (none, e, exec_ctx_)
  else
    match exec_ctx_.catalog_.GetTable e.plan_.table_oid_ with
    | none => Outcome.undefinedBehaviour
    | some table_info => do
      let indexes := exec_ctx_.catalog_.GetTableIndexes table_info.name_
      let r ← deleteExecutorLoop fuel exec_ctx_.txn_temp_ts_ e.child_executor_ table_info.table_
        indexes 0
      let catalog1 := (exec_ctx_.catalog_.setTableHeap e.plan_.table_oid_ r.1).setTableIndexes
        table_info.name_ r.2.1
      pure (some { values := [Value.integer r.2.2] },
        { e with child_executor_ := [], done_ := true },
        { exec_ctx_ with catalog_ := catalog1 })

/-- Modelled from the spec: `UpdatePlanNode`: the oid of its table and the
target expressions, one for each column of the new row. -/
structure UpdatePlanNode where
  table_oid_ : Nat
  target_expressions_ : List AbstractExpression
deriving DecidableEq, Repr

/-- The members of `UpdateExecutor`; `table_info_` points into the catalog and
is the oid by which the table is found there. -/
structure UpdateExecutor where
  plan_ : UpdatePlanNode
  child_executor_ : List (Tuple × RID)
  done_ : Bool
deriving DecidableEq, Repr

/-- The constructor of `UpdateExecutor` followed by `UpdateExecutor::Init`. -/
def UpdateExecutor.Init (plan_ : UpdatePlanNode) (child_rows : List (Tuple × RID)) :
    UpdateExecutor :=
  { plan_ := plan_, child_executor_ := child_rows, done_ := false }

/-- The loop over the target expressions: the values of the new row. -/
def evaluateTargets (child_tuple : Tuple) : List AbstractExpression → Outcome (List Value)
  | [] => Outcome.ok []
  | expr :: rest => do
    let v ← expr.Evaluate (some child_tuple)
    let vs ← evaluateTargets child_tuple rest
    pure (v :: vs)

/-- The loop of `UpdateExecutor::Next` over the rows of the child. -/
def updateExecutorLoop (fuel : Nat) (ts : Int) (target_expressions_ : List AbstractExpression) :
    List (Tuple × RID) → TableHeap → List IndexInfo → Int →
      Outcome (TableHeap × List IndexInfo × Int)
  | [], table_, indexes, update_count => Outcome.ok (table_, indexes, update_count)
  | (child_tuple, child_rid) :: rest, table_, indexes, update_count => do
    let values ← evaluateTargets child_tuple target_expressions_
    let new_tuple : Tuple := { values := values }
    let indexes1 ← deleteEntries fuel child_tuple child_rid indexes
    let table1 ← table_.UpdateTupleMeta { ts_ := ts, is_deleted_ := true } child_rid
    match table1.InsertTuple { ts_ := ts, is_deleted_ := false } new_tuple with
    | (some new_rid, table2) => do
      let count1 ← int32Incr update_count
      let indexes2 ← insertEntries fuel new_tuple new_rid indexes1
      updateExecutorLoop fuel ts target_expressions_ rest table2 indexes2 count1
    | (none, table2) =>
      updateExecutorLoop fuel ts target_expressions_ rest table2 indexes1 update_count

/-- `UpdateExecutor::Next`. -/
def UpdateExecutor.Next (exec_ctx_ : ExecutorContext) (fuel : Nat) (e : UpdateExecutor) :
    Outcome (Option Tuple × UpdateExecutor × ExecutorContext) :=
  if e.done_ = true then Outcome.ok (none, e, exec_ctx_)
  else
    match exec_ctx_.catalog_.GetTable e.plan_.table_oid_ with
    | none => Outcome.undefinedBehaviour
    | some table_info_ => do
      let indexes := exec_ctx_.catalog_.GetTableIndexes table_info_.name_
      let r ← updateExecutorLoop fuel exec_ctx_.txn_temp_ts_ e.plan_.target_expressions_
        e.child_executor_ table_info_.table_ indexes 0
      let catalog1 := (exec_ctx_.catalog_.setTableHeap e.plan_.table_oid_ r.1).setTableIndexes
        table_info_.name_ r.2.1
      pure (some { values := [Value.integer r.2.2] },
        { e with child_executor_ := [], done_ := true },
        { exec_ctx_ with catalog_ := catalog1 })

/-! ## Executors: running a scan

What a caller of a scan sees: the rows that `Next` emits, call after call,
until it returns false.  The number of calls is bounded by the fuel. -/

/-- The rows that the calls of `SeqScanExecutor::Next` emit until `Next`
returns false, and the executor after that call. -/
def SeqScanExecutor.run (exec_ctx_ : ExecutorContext) :
    Nat → SeqScanExecutor → Outcome (List (Tuple × RID) × SeqScanExecutor)
  | 0, _ => Outcome.outOfFuel
  | n + 1, e => do
    let r ← e.Next exec_ctx_
    match r.1 with
    | none => pure ([], r.2)
    | some row => do
      let rest ← SeqScanExecutor.run exec_ctx_ n r.2
      pure (row :: rest.1, rest.2)

/-- The rows that the calls of `IndexScanExecutor::Next` emit until `Next`
returns false, and the executor after that call. -/
def IndexScanExecutor.run (exec_ctx_ : ExecutorContext) :
    Nat → IndexScanExecutor → Outcome (List (Tuple × RID) × IndexScanExecutor)
  | 0, _ => Outcome.outOfFuel
  | n + 1, e => do
    let r ← e.Next exec_ctx_
    match r.1 with
    | none => pure ([], r.2)
    | some row => do
      let rest ← IndexScanExecutor.run exec_ctx_ n r.2
      pure (row :: rest.1, rest.2)

/-- The rows of a scan plan: the executor of the plan is initialised and run;
`none` for a plan that is no scan. -/
def executeScan (exec_ctx_ : ExecutorContext) (fuel : Nat) :
    AbstractPlanNode → Option (Outcome (List (Tuple × RID)))
  | AbstractPlanNode.SeqScan plan_ => some (do
      let e ← SeqScanExecutor.Init exec_ctx_ plan_
      let r ← SeqScanExecutor.run exec_ctx_ fuel e
      pure r.1)
  | AbstractPlanNode.IndexScan plan_ => some (do
      let e ← IndexScanExecutor.Init exec_ctx_ fuel plan_
      let r ← IndexScanExecutor.run exec_ctx_ fuel e
      pure r.1)
  | AbstractPlanNode.Other _ _ _ => none

/-! ## Optimizer rule and executors: what the claims speak of -/

/-- The key of an equality `col = const` or `const = col` whose column
reference is on the scanned tuple (tuple index 0): the constant expression;
`none` for every other expression. -/
def equalityKey (col : Nat) : AbstractExpression → Option AbstractExpression
  | AbstractExpression.ComparisonExpression ComparisonType.Equal
      (AbstractExpression.ColumnValueExpression tuple_idx col_idx)
      (AbstractExpression.ConstantValueExpression val) =>
    if tuple_idx = 0 ∧ col_idx = col then some (AbstractExpression.ConstantValueExpression val)
    else none
  | AbstractExpression.ComparisonExpression ComparisonType.Equal
      (AbstractExpression.ConstantValueExpression val)
      (AbstractExpression.ColumnValueExpression tuple_idx col_idx) =>
    if tuple_idx = 0 ∧ col_idx = col then some (AbstractExpression.ConstantValueExpression val)
    else none
  | _ => none

/-- The keys of a disjunction of equalities on the column `col`: the constant
expressions of an Or-tree whose leaves are equalities `col = const` or
`const = col`, in the order of the leaves from left to right; `none` for every
other expression. -/
def disjunctionKeys (col : Nat) : AbstractExpression → Option (List AbstractExpression)
  | AbstractExpression.LogicExpression LogicType.Or child0 child1 =>
    match disjunctionKeys col child0, disjunctionKeys col child1 with
    | some left_keys, some right_keys => some (left_keys ++ right_keys)
    | _, _ => none
  | e => (equalityKey col e).map (fun key => [key])

/-- The children of a plan node as a list. -/
def PlanChildren.toList : PlanChildren → List AbstractPlanNode
  | PlanChildren.nil => []
  | PlanChildren.cons child rest => child :: rest.toList

/-- Whether the filter of a scan holds of a tuple: it does when there is no
filter, and when the filter evaluates to a value that is true. -/
def filterHolds (filter_predicate_ : Option AbstractExpression) (t : Tuple) : Bool :=
  match filter_predicate_ with
  | none => true
  | some filter =>
    match filter.Evaluate (some t) with
    | Outcome.ok v => v.GetAsBool
    | _ => false

/-- The slots of a heap from slot `i` on, each with its record id, in the
order of the iterator. -/
def slotsFrom (i : Nat) : List (TupleMeta × Tuple) → List (RID × TupleMeta × Tuple)
  | [] => []
  | slot :: rest => ({ page_id := 0, slot_num := i }, slot) :: slotsFrom (i + 1) rest

/-- The rows of a heap that are not deleted and of which the filter holds, each
with its record id, in the order of the iterator. -/
def liveRows (h : TableHeap) (filter_predicate_ : Option AbstractExpression) :
    List (Tuple × RID) :=
  ((slotsFrom 0 h.slots).filter
    (fun r => !r.2.1.is_deleted_ && filterHolds filter_predicate_ r.2.2)).map
    (fun r => (r.2.2, r.1))

/-- The calls `RecordAccess(f)` for the frames of the list, one after the
other; a call that does not return ends the sequence. -/
def recordAccesses : List Int → LRUKReplacer → Res Unit
  | [], s => Res.done () s
  | f :: rest, s =>
    match RecordAccess s f with
    | Res.done _ s1 => recordAccesses rest s1
    | r => r

/-- The calls `SetEvictable(f, true)` for the frames of the list, one after the
other. -/
def setEvictableAll : List Int → LRUKReplacer → Res Unit
  | [], s => Res.done () s
  | f :: rest, s =>
    match SetEvictable s f true with
    | Res.done _ s1 => setEvictableAll rest s1
    | r => r

/-- The calls `RecordAccess(f)`, `SetEvictable(f, true)` for the frames of the
list, one frame after the other. -/
def accessAndSetEvictable : List Int → LRUKReplacer → Res Unit
  | [], s => Res.done () s
  | f :: rest, s =>
    match RecordAccess s f with
    | Res.done _ s1 =>
      match SetEvictable s1 f true with
      | Res.done _ s2 => accessAndSetEvictable rest s2
      | r => r
    | r => r

/-- The call of `next` on the state in which the call before it returned. -/
def Res.andThen {α β : Type} (r : Res α) (next : LRUKReplacer → Res β) : Res β :=
  match r with
  | Res.done _ s => next s
  | Res.ensureFailed s => Res.ensureFailed s
  | Res.undefinedBehaviour => Res.undefinedBehaviour

/-- The rows at the record ids of the list that are not deleted, each with its
record id, in the order of the list. -/
def fetchLive (h : TableHeap) (rids : List RID) : List (Tuple × RID) :=
  rids.filterMap (fun rid =>
    match h.GetTuple rid with
    | Outcome.ok slot => if slot.1.is_deleted_ = true then none else some (slot.2, rid)
    | _ => none)

/-- Whether the index agrees with the heap on the value `x` of the column
`col`: the lookup of `x` returns; every record id that it gives is a record
id of the heap whose row, when it is not deleted, holds `x` in the column; and
it gives the record id of every row that is not deleted and holds `x` in the
column. -/
def indexAgrees (h : TableHeap) (col : Nat) (index : IndexInfo) (fuel : Nat) (x : Value) :
    Bool :=
  match index.ScanKey fuel { values := [x] } with
  | Outcome.ok rids =>
    rids.all (fun rid =>
      match h.GetTuple rid with
      | Outcome.ok slot => slot.1.is_deleted_ || decide (slot.2.GetValue col = Outcome.ok x)
      | _ => false) &&
    (slotsFrom 0 h.slots).all (fun r =>
      r.2.1.is_deleted_ || !decide (r.2.2.GetValue col = Outcome.ok x) || decide (r.1 ∈ rids))
  | _ => false

/-- The record ids that the lookup of the integer key `k` gives in the index
with the oid `index_oid` of the catalog of the context. -/
def indexLookup (exec_ctx_ : ExecutorContext) (index_oid : Nat) (fuel : Nat) (k : Int) :
    Outcome (List RID) :=
  match exec_ctx_.catalog_.GetIndex index_oid with
  | some index_info => index_info.ScanKey fuel { values := [Value.integer k] }
  | none => Outcome.undefinedBehaviour

/-- The slots of the heap of the table with the oid `table_oid` of the catalog
of the context. -/
def heapSlots (exec_ctx_ : ExecutorContext) (table_oid : Nat) :
    Option (List (TupleMeta × Tuple)) :=
  (exec_ctx_.catalog_.GetTable table_oid).map (fun table_info => table_info.table_.slots)

/-- Whether the heap accepts the tuple: `InsertTuple` gives a record id for
it. -/
def TableHeap.accepts (h : TableHeap) (tuple : Tuple) : Bool :=
  (h.InsertTuple { ts_ := 0, is_deleted_ := false } tuple).1.isSome

/-- The new row that the update makes of a row of the child: the values of the
target expressions on the row. -/
def updatedTuple (target_expressions_ : List AbstractExpression) (child_tuple : Tuple) : Tuple :=
  match evaluateTargets child_tuple target_expressions_ with
  | Outcome.ok values => { values := values }
  | _ => { values := [] }

/-- The tree of the index is well formed (it is represented, with
`leaf_max_size ≥ 2`, `internal_max_size ≥ 3` and two slots more in a leaf page
than `leaf_max_size`), and the fuel of its descents suffices for `k` further
insertions. -/
def IndexOK (fuel k : Nat) (index : IndexInfo) : Prop :=
  ∃ (L I S b : Nat) (E : Int → RID → Prop), 2 ≤ L ∧ 3 ≤ I ∧ L + 2 ≤ S ∧
    TreeInv L I S b index.index_ E ∧ b + k ≤ fuel

/-! ## Executors: a table to apply the theorems to -/

/-- The equality `c = v` between the column `col` of the scanned tuple and the
integer constant `v`. -/
def columnEquals (col : Nat) (v : Int) : AbstractExpression :=
  AbstractExpression.ComparisonExpression ComparisonType.Equal
    (AbstractExpression.ColumnValueExpression 0 col)
    (AbstractExpression.ConstantValueExpression (Value.integer v))

/-- A row of integers. -/
def integerRow (vs : List Int) : Tuple := { values := vs.map Value.integer }

/-- A heap of four rows with two columns: `(1, 10)`, `(2, 20)`, which is
deleted, `(3, 30)` and `(5, 40)`. -/
def exampleHeap : TableHeap :=
  { slots := [({ ts_ := 0, is_deleted_ := false }, integerRow [1, 10]),
              ({ ts_ := 0, is_deleted_ := true }, integerRow [2, 20]),
              ({ ts_ := 0, is_deleted_ := false }, integerRow [3, 30]),
              ({ ts_ := 0, is_deleted_ := false }, integerRow [5, 40])],
    tuple_limit := 2 }

/-- The table `t` with the oid 7 over `exampleHeap`. -/
def exampleTable : TableInfo :=
  { schema_ := { columns := ["c0", "c1"] }, name_ := "t", table_ := exampleHeap, oid_ := 7 }

/-- An index of the table `t` with the oid 3 on the column 0 over the tree
`tree`. -/
def exampleIndex (tree : BPlusTree) : IndexInfo :=
  { key_schema_ := { columns := ["c0"] }, table_name_ := "t", index_ := tree, index_oid_ := 3,
    key_attrs := [0] }

/-- The tree after `Insert` of the keys of the rows of `exampleHeap` that are
not deleted, each with the record id of its row (`leaf_max_size = 2`,
`internal_max_size = 3`, four slots in a leaf page). -/
def exampleTree : BPlusTree :=
  match runOps 4 [Op.insert 1 { page_id := 0, slot_num := 0 },
      Op.insert 3 { page_id := 0, slot_num := 2 },
      Op.insert 5 { page_id := 0, slot_num := 3 }] (BPlusTree.new 2 3 4) with
  | Outcome.ok t => t
  | _ => BPlusTree.new 2 3 4

/-- The context with the table `t` and the given indexes. -/
def exampleContext (indexes : List IndexInfo) : ExecutorContext :=
  { catalog_ := { tables_ := [exampleTable], indexes_ := indexes }, txn_temp_ts_ := 1 }

/-- The sequential scan of the table `t` with the given filter. -/
def exampleSeqScan (filter : Option AbstractExpression) : SeqScanPlanNode :=
  { output_schema_ := { columns := ["c0", "c1"] }, table_oid_ := 7, table_name_ := "t",
    filter_predicate_ := filter }

/-- The filter `c0 = 1 OR c0 = 5`. -/
def exampleFilter : AbstractExpression :=
  AbstractExpression.LogicExpression LogicType.Or (columnEquals 0 1) (columnEquals 0 5)

/-- The index scan of the table `t` over the index with the oid 3, with the
given filter and keys. -/
def exampleIndexScan (filter : Option AbstractExpression) (keys : List AbstractExpression) :
    IndexScanPlanNode :=
  { output_schema_ := { columns := ["c0", "c1"] }, table_oid_ := 7, index_oid_ := 3,
    filter_predicate_ := filter, pred_keys_ := keys }

/-- The context of a table `t` with the oid 7 whose heap holds the rows
`(1, 2)` and `(2, 3)`, with an index with the oid 3 on the column 0 that holds
the keys 1 and 2 of the two rows. -/
def shiftContext : ExecutorContext :=
  { catalog_ :=
      { tables_ := [{ schema_ := { columns := ["c0", "c1"] }, name_ := "t",
                      table_ := { slots := [({ ts_ := 0, is_deleted_ := false }, integerRow [1, 2]),
                                            ({ ts_ := 0, is_deleted_ := false }, integerRow [2, 3])],
                                  tuple_limit := 2 },
                      oid_ := 7 }],
        indexes_ := [exampleIndex
          (match runOps 3 [Op.insert 1 { page_id := 0, slot_num := 0 },
              Op.insert 2 { page_id := 0, slot_num := 1 }] (BPlusTree.new 2 3 4) with
           | Outcome.ok t => t
           | _ => BPlusTree.new 2 3 4)] },
    txn_temp_ts_ := 1 }

/-- The update `SET c0 = c1, c1 = c1` of the table with the oid 7. -/
def shiftUpdate : UpdatePlanNode :=
  { table_oid_ := 7,
    target_expressions_ := [AbstractExpression.ColumnValueExpression 0 1,
      AbstractExpression.ColumnValueExpression 0 1] }

/-- The rows of the table of `shiftContext`, as the child of the update yields
them. -/
def shiftRows : List (Tuple × RID) :=
  [(integerRow [1, 2], { page_id := 0, slot_num := 0 }),
   (integerRow [2, 3], { page_id := 0, slot_num := 1 })]

/-- The rows of the slots 0 and 2 of `exampleHeap`, as a child yields them. -/
def exampleChildRows : List (Tuple × RID) :=
  [(integerRow [1, 10], { page_id := 0, slot_num := 0 }),
   (integerRow [3, 30], { page_id := 0, slot_num := 2 })]

/-- The target expressions of the update `SET c0 = c1, c1 = c1`. -/
def exampleTargets : List AbstractExpression :=
  [AbstractExpression.ColumnValueExpression 0 1, AbstractExpression.ColumnValueExpression 0 1]

/-! ## LRU-K replacer: the timestamps of the reachable states -/

/-- The replacer states reachable from a freshly constructed replacer through
calls of the public methods that return, together with the number of
timestamps handed out on the way: `RecordAccess` and `Evict` are the two
methods that increment `current_timestamp_`, each of their returning calls
counts one.  As in `Reachable`, the iteration order of the record store may
change at any time. -/
inductive ReachableIn : Nat → LRUKReplacer → Prop where
  | fresh (num_frames k : Nat) : ReachableIn 0 (LRUKReplacer.new num_frames k)
  | recordAccess {n : Nat} {s s1 : LRUKReplacer} (f : Int) :
      ReachableIn n s → IsFrameIdT f → RecordAccess s f = Res.done () s1 →
      ReachableIn (n + 1) s1
  | setEvictable {n : Nat} {s s1 : LRUKReplacer} (f : Int) (b : Bool) :
      ReachableIn n s → IsFrameIdT f → SetEvictable s f b = Res.done () s1 → ReachableIn n s1
  | remove {n : Nat} {s s1 : LRUKReplacer} (f : Int) :
      ReachableIn n s → IsFrameIdT f → Remove s f = Res.done () s1 → ReachableIn n s1
  | evict {n : Nat} {s s1 : LRUKReplacer} (r : Option Int) :
      ReachableIn n s → Evict s = Res.done r s1 → ReachableIn (n + 1) s1
  | reorder {n : Nat} {s : LRUKReplacer} (l : List (Int × LRUKNode)) :
      ReachableIn n s → List.Perm s.node_store_ l → ReachableIn n { s with node_store_ := l }

/-- The timestamps of the record store, frame by frame: every recorded
timestamp is below `current_timestamp_`, every history is strictly decreasing
from front to back, only frame ids that pass the range check of `RecordAccess`
have a recorded timestamp, and a timestamp recorded for two frame ids is
recorded for one frame. -/
def TsInv (s : LRUKReplacer) : Prop :=
  (∀ f n, findNode s.node_store_ f = some n →
    (∀ t ∈ n.history_, t < s.current_timestamp_) ∧ n.history_.Pairwise (· > ·) ∧
    (n.history_ ≠ [] → toSizeT f ≤ s.replacer_size_)) ∧
  (∀ f g n m t, findNode s.node_store_ f = some n → findNode s.node_store_ g = some m →
    t ∈ n.history_ → t ∈ m.history_ → f = g)

/-- The replacer after `RecordAccess(1)`, `RecordAccess(2)`,
`SetEvictable(1, true)`, `SetEvictable(2, true)` and `RecordAccess(1)` on a
fresh replacer of capacity 7 with `k = 2`. -/
def exampleReplacer : LRUKReplacer :=
  { node_store_ := [(2, { history_ := [1], is_evictable_ := true }),
                    (1, { history_ := [2, 0], is_evictable_ := true })],
    current_timestamp_ := 3, curr_size_ := 2, replacer_size_ := 7, k_ := 2 }

/-! ## Sequencing of calls -/

@[simp] theorem Outcome.ok_bind {α β : Type} (a : α) (f : α → Outcome β) :
    (Outcome.ok a >>= f) = f a := rfl

@[simp] theorem Outcome.pure_eq_ok {α : Type} (a : α) : (pure a : Outcome α) = Outcome.ok a := rfl

@[simp] theorem Outcome.ensureFailed_bind {α β : Type} (f : α → Outcome β) :
    ((Outcome.ensureFailed : Outcome α) >>= f) = Outcome.ensureFailed := rfl

@[simp] theorem Outcome.undefinedBehaviour_bind {α β : Type} (f : α → Outcome β) :
    ((Outcome.undefinedBehaviour : Outcome α) >>= f) = Outcome.undefinedBehaviour := rfl

@[simp] theorem Outcome.outOfFuel_bind {α β : Type} (f : α → Outcome β) :
    ((Outcome.outOfFuel : Outcome α) >>= f) = Outcome.outOfFuel := rfl

/-! ## LRU-K replacer: lemmas on the record store -/

theorem findNode_eraseNode_self (store : List (Int × LRUKNode)) (f : Int) :
    findNode (eraseNode store f) f = none := by
  induction store with
  | nil => rfl
  | cons e rest ih =>
    obtain ⟨g, n⟩ := e
    by_cases h : g = f
    · simpa [eraseNode, h] using ih
    · simpa [eraseNode, h, findNode] using ih

theorem findNode_eraseNode_ne (store : List (Int × LRUKNode)) {f g : Int} (hne : g ≠ f) :
    findNode (eraseNode store f) g = findNode store g := by
  induction store with
  | nil => rfl
  | cons e rest ih =>
    obtain ⟨h, n⟩ := e
    by_cases hf : h = f
    · subst hf
      have hg : ¬ h = g := fun hh => hne hh.symm
      simpa [eraseNode, findNode, hg] using ih
    · by_cases hg : h = g
      · subst hg
        simp [eraseNode, findNode, hf]
      · simpa [eraseNode, findNode, hf, hg] using ih

theorem findNode_setNode_self {store : List (Int × LRUKNode)} {f : Int} {n : LRUKNode}
    (m : LRUKNode) (h : findNode store f = some n) :
    findNode (setNode store f m) f = some m := by
  induction store with
  | nil => simp [findNode] at h
  | cons e rest ih =>
    obtain ⟨g, k⟩ := e
    by_cases hg : g = f
    · simp [setNode, findNode, hg]
    · simp only [findNode, hg, if_false] at h
      simpa [setNode, findNode, hg] using ih h

theorem findNode_setNode_ne (store : List (Int × LRUKNode)) {f g : Int} (m : LRUKNode)
    (hne : g ≠ f) : findNode (setNode store f m) g = findNode store g := by
  induction store with
  | nil => rfl
  | cons e rest ih =>
    obtain ⟨h, k⟩ := e
    by_cases hf : h = f
    · subst hf
      have hg : ¬ h = g := fun hh => hne hh.symm
      simp [setNode, findNode, hg]
    · by_cases hg : h = g
      · subst hg
        simp [setNode, findNode, hf]
      · simpa [setNode, findNode, hf, hg] using ih

theorem findNode_indexNode_self (store : List (Int × LRUKNode)) (f : Int) :
    findNode (indexNode store f) f
      = some (match findNode store f with
              | some n => n
              | none => LRUKNode.default) := by
  unfold indexNode
  cases h : findNode store f with
  | none => simp [findNode]
  | some n => simp [h]

theorem findNode_indexNode_ne (store : List (Int × LRUKNode)) {f g : Int} (hne : g ≠ f) :
    findNode (indexNode store f) g = findNode store g := by
  unfold indexNode
  cases h : findNode store f with
  | none =>
    have hg : ¬ f = g := fun hh => hne hh.symm
    simp [findNode, hg]
  | some n => rfl

theorem findNode_of_mem {store : List (Int × LRUKNode)} {f : Int} {n : LRUKNode}
    (hnd : (store.map Prod.fst).Nodup) (h : (f, n) ∈ store) : findNode store f = some n := by
  induction store with
  | nil => simp at h
  | cons e rest ih =>
    obtain ⟨g, k⟩ := e
    simp only [List.map_cons, List.nodup_cons] at hnd
    rcases List.mem_cons.mp h with heq | hmem
    · cases heq
      simp [findNode]
    · have hg : ¬ g = f := by
        intro hh
        apply hnd.1
        subst hh
        exact List.mem_map_of_mem Prod.fst hmem
      simpa [findNode, hg] using ih hnd.2 hmem

theorem mem_of_findNode {store : List (Int × LRUKNode)} {f : Int} {n : LRUKNode}
    (h : findNode store f = some n) : (f, n) ∈ store := by
  induction store with
  | nil => simp [findNode] at h
  | cons e rest ih =>
    obtain ⟨g, k⟩ := e
    by_cases hg : g = f
    · simp only [findNode, hg, if_true, Option.some.injEq] at h
      subst hg; subst h
      exact List.mem_cons_self _ _
    · simp only [findNode, hg, if_false] at h
      exact List.mem_cons_of_mem _ (ih h)

theorem findNode_eq_none_iff {store : List (Int × LRUKNode)} {f : Int} :
    findNode store f = none ↔ f ∉ store.map Prod.fst := by
  induction store with
  | nil => simp [findNode]
  | cons e rest ih =>
    obtain ⟨g, k⟩ := e
    by_cases hg : g = f
    · simp [findNode, hg]
    · have hg2 : ¬ f = g := fun hh => hg hh.symm
      simp [findNode, hg, hg2, ih]

theorem map_fst_setNode (store : List (Int × LRUKNode)) (f : Int) (m : LRUKNode) :
    (setNode store f m).map Prod.fst = store.map Prod.fst := by
  induction store with
  | nil => rfl
  | cons e rest ih =>
    obtain ⟨g, k⟩ := e
    by_cases hg : g = f
    · simp [setNode, hg]
    · simp [setNode, hg, ih]

theorem map_fst_eraseNode_nodup {store : List (Int × LRUKNode)} (f : Int)
    (hnd : (store.map Prod.fst).Nodup) : ((eraseNode store f).map Prod.fst).Nodup := by
  unfold eraseNode
  exact (List.Nodup.sublist (List.Sublist.map _ (List.filter_sublist _)) hnd)

theorem map_fst_indexNode_nodup {store : List (Int × LRUKNode)} (f : Int)
    (hnd : (store.map Prod.fst).Nodup) : ((indexNode store f).map Prod.fst).Nodup := by
  unfold indexNode
  cases h : findNode store f with
  | none =>
    simp only [List.map_cons, List.nodup_cons]
    exact ⟨findNode_eq_none_iff.mp h, hnd⟩
  | some n => exact hnd

theorem mem_eraseNode {store : List (Int × LRUKNode)} {f : Int} {e : Int × LRUKNode}
    (h : e ∈ eraseNode store f) : e ∈ store := by
  unfold eraseNode at h
  exact (List.mem_filter.mp h).1

theorem mem_map_fst_setNode {store : List (Int × LRUKNode)} {f g : Int} {m : LRUKNode}
    (h : g ∈ (setNode store f m).map Prod.fst) : g ∈ store.map Prod.fst := by
  rwa [map_fst_setNode] at h

/-! ### Counting evictable records -/

theorem evictableCount_cons (e : Int × LRUKNode) (rest : List (Int × LRUKNode)) :
    evictableCount (e :: rest)
      = evictableCount rest + (if e.2.is_evictable_ = true then 1 else 0) := by
  unfold evictableCount
  rw [List.countP_cons]

theorem evictableCount_le_length (store : List (Int × LRUKNode)) :
    evictableCount store ≤ store.length := List.countP_le_length _

theorem evictableCount_eraseNode {store : List (Int × LRUKNode)} {f : Int} {n : LRUKNode}
    (hnd : (store.map Prod.fst).Nodup) (h : findNode store f = some n) :
    evictableCount store
      = evictableCount (eraseNode store f) + (if n.is_evictable_ = true then 1 else 0) := by
  induction store with
  | nil => simp [findNode] at h
  | cons e rest ih =>
    obtain ⟨g, k⟩ := e
    simp only [List.map_cons, List.nodup_cons] at hnd
    by_cases hg : g = f
    · simp only [findNode, hg, if_true, Option.some.injEq] at h
      subst hg; subst h
      have hrest : eraseNode rest g = rest := by
        unfold eraseNode
        apply List.filter_eq_self.mpr
        intro a ha
        have : a.1 ≠ g := fun hh => hnd.1 (hh ▸ List.mem_map_of_mem Prod.fst ha)
        simpa using this
      have : eraseNode ((g, k) :: rest) g = rest := by
        have : eraseNode ((g, k) :: rest) g = eraseNode rest g := by simp [eraseNode]
        rw [this, hrest]
      rw [this, evictableCount_cons]
    · simp only [findNode, hg, if_false] at h
      have : eraseNode ((g, k) :: rest) f = (g, k) :: eraseNode rest f := by
        simp [eraseNode, hg]
      rw [this, evictableCount_cons, evictableCount_cons, ih hnd.2 h]
      omega

theorem evictableCount_setNode {store : List (Int × LRUKNode)} {f : Int} {n : LRUKNode}
    (m : LRUKNode) (h : findNode store f = some n) :
    evictableCount (setNode store f m) + (if n.is_evictable_ = true then 1 else 0)
      = evictableCount store + (if m.is_evictable_ = true then 1 else 0) := by
  induction store with
  | nil => simp [findNode] at h
  | cons e rest ih =>
    obtain ⟨g, k⟩ := e
    by_cases hg : g = f
    · simp only [findNode, hg, if_true, Option.some.injEq] at h
      subst h
      simp only [setNode, hg, if_true, evictableCount_cons]
      omega
    · simp only [findNode, hg, if_false] at h
      simp only [setNode, hg, if_false, evictableCount_cons]
      have := ih h
      omega

theorem evictableCount_indexNode (store : List (Int × LRUKNode)) (f : Int) :
    evictableCount (indexNode store f) = evictableCount store := by
  unfold indexNode
  cases h : findNode store f with
  | none => simp [evictableCount_cons, LRUKNode.default]
  | some n => rfl

theorem evictableCount_pos_of_mem {store : List (Int × LRUKNode)} {e : Int × LRUKNode}
    (h : e ∈ store) (he : e.2.is_evictable_ = true) : 0 < evictableCount store := by
  unfold evictableCount
  exact List.countP_pos_iff.mpr ⟨e, h, he⟩

/-- A list of pairwise distinct 32-bit integers has at most `2^32` entries. -/
theorem length_le_of_nodup_frameIdT {l : List Int} (hnd : l.Nodup)
    (hr : ∀ x ∈ l, IsFrameIdT x) : l.length ≤ 2 ^ 32 := by
  have hsub : l.toFinset ⊆ Finset.Ico (-(2 ^ 31 : Int)) (2 ^ 31 : Int) := by
    intro x hx
    have := hr x (List.mem_toFinset.mp hx)
    exact Finset.mem_Ico.mpr this
  have hcard := Finset.card_le_card hsub
  rw [List.toFinset_card_of_nodup hnd, Int.card_Ico] at hcard
  have : ((2 ^ 31 : Int) - -(2 ^ 31 : Int)).toNat = 2 ^ 32 := by decide
  omega

/-! ## LRU-K replacer: the victim scan of `Evict` -/

/-- The five ways in which one iteration of the loop of `Evict` can end. -/
theorem evictVisit_cases {k cur : Nat} {acc r : EvictScan} {e : Int × LRUKNode}
    (h : evictVisit k cur acc e = some r) :
    (e.2.is_evictable_ = false ∧ r = acc) ∨
    (e.2.is_evictable_ = true ∧ e.2.history_.length < k ∧ ∃ oldest,
      e.2.history_.getLast? = some oldest ∧
      ((oldest < acc.inf_candidate_time ∧
          r = { acc with inf_candidate_time := oldest, inf_victim_frame := e.1 }) ∨
       (¬ oldest < acc.inf_candidate_time ∧ r = acc))) ∨
    (e.2.is_evictable_ = true ∧ ¬ e.2.history_.length < k ∧ ∃ oldest,
      e.2.history_.getLast? = some oldest ∧
      (((sizeSub cur oldest > acc.reg_candidate_distance ∨
            acc.reg_victim_frame = INVALID_FRAME_ID) ∧
          r = { acc with reg_candidate_distance := sizeSub cur oldest,
                         reg_victim_frame := e.1 }) ∨
       (¬ (sizeSub cur oldest > acc.reg_candidate_distance ∨
            acc.reg_victim_frame = INVALID_FRAME_ID) ∧ r = acc))) := by
  unfold evictVisit at h
  cases hev : e.2.is_evictable_ with
  | false =>
    rw [hev] at h
    simp only [if_true, Option.some.injEq] at h
    exact Or.inl ⟨rfl, h.symm⟩
  | true =>
    rw [hev] at h
    simp only [Bool.true_eq_false, if_false] at h
    by_cases hk : e.2.history_.length < k
    · rw [if_pos hk] at h
      refine Or.inr (Or.inl ⟨rfl, hk, ?_⟩)
      cases hl : e.2.history_.getLast? with
      | none => rw [hl] at h; simp at h
      | some oldest =>
        rw [hl] at h
        refine ⟨oldest, rfl, ?_⟩
        by_cases hlt : oldest < acc.inf_candidate_time
        · simp only [hlt, if_true, Option.some.injEq] at h
          exact Or.inl ⟨hlt, h.symm⟩
        · simp only [hlt, if_false, Option.some.injEq] at h
          exact Or.inr ⟨hlt, h.symm⟩
    · rw [if_neg hk] at h
      refine Or.inr (Or.inr ⟨rfl, hk, ?_⟩)
      cases hl : e.2.history_.getLast? with
      | none => rw [hl] at h; simp at h
      | some oldest =>
        rw [hl] at h
        refine ⟨oldest, rfl, ?_⟩
        by_cases hc : sizeSub cur oldest > acc.reg_candidate_distance ∨
            acc.reg_victim_frame = INVALID_FRAME_ID
        · simp only [hc, if_true, Option.some.injEq] at h
          exact Or.inl ⟨hc, h.symm⟩
        · simp only [hc, if_false, Option.some.injEq] at h
          exact Or.inr ⟨hc, h.symm⟩

theorem evictVisit_victimSeen {k cur : Nat} {seen : List (Int × LRUKNode)} {acc r : EvictScan}
    {e : Int × LRUKNode} (hacc : VictimSeen seen acc) (h : evictVisit k cur acc e = some r) :
    VictimSeen (seen ++ [e]) r := by
  have hmono : ∀ sc, VictimSeen seen sc → VictimSeen (seen ++ [e]) sc := by
    intro sc hsc
    refine ⟨fun hne => ?_, fun hne => ?_⟩
    · obtain ⟨x, hx, hx2⟩ := hsc.1 hne
      exact ⟨x, List.mem_append_left _ hx, hx2⟩
    · obtain ⟨x, hx, hx2⟩ := hsc.2 hne
      exact ⟨x, List.mem_append_left _ hx, hx2⟩
  have hmem : e ∈ seen ++ [e] := by simp
  rcases evictVisit_cases h with ⟨_, hr⟩ | ⟨hev, _, oldest, _, ⟨_, hr⟩ | ⟨_, hr⟩⟩ |
      ⟨hev, _, oldest, _, ⟨_, hr⟩ | ⟨_, hr⟩⟩
  · subst hr; exact hmono _ hacc
  · subst hr
    exact ⟨fun _ => ⟨e, hmem, hev, rfl⟩, (hmono _ hacc).2⟩
  · subst hr; exact hmono _ hacc
  · subst hr
    exact ⟨(hmono _ hacc).1, fun _ => ⟨e, hmem, hev, rfl⟩⟩
  · subst hr; exact hmono _ hacc

theorem evictVisit_infSeen {k cur : Nat} {seen : List (Int × LRUKNode)} {acc r : EvictScan}
    {e : Int × LRUKNode} (hacc : InfSeen k seen acc) (h : evictVisit k cur acc e = some r) :
    InfSeen k (seen ++ [e]) r := by
  obtain ⟨h1, h2, h3⟩ := hacc
  have hmem : e ∈ seen ++ [e] := by simp
  have hkeep : ∀ sc : EvictScan, sc.inf_candidate_time = acc.inf_candidate_time →
      sc.inf_victim_frame = acc.inf_victim_frame →
      (∀ t, e.2.is_evictable_ = true → e.2.history_.length < k →
        e.2.history_.getLast? = some t → acc.inf_candidate_time ≤ t) →
      InfSeen k (seen ++ [e]) sc := by
    intro sc hs1 hs2 hle
    unfold InfSeen
    rw [hs1, hs2]
    refine ⟨?_, h2, ?_⟩
    · intro x hx hxe hxk t ht
      rcases List.mem_append.mp hx with hx | hx
      · exact h1 x hx hxe hxk t ht
      · have : x = e := by simpa using hx
        subst this
        exact hle t hxe hxk ht
    · rcases h3 with h3 | ⟨x, hx, hx2⟩
      · exact Or.inl h3
      · exact Or.inr ⟨x, List.mem_append_left _ hx, hx2⟩
  rcases evictVisit_cases h with ⟨hev, hr⟩ | ⟨hev, hk, oldest, hl, ⟨hlt, hr⟩ | ⟨hlt, hr⟩⟩ |
      ⟨hev, hk, oldest, hl, ⟨_, hr⟩ | ⟨_, hr⟩⟩
  · subst hr
    exact hkeep _ rfl rfl (fun t hte => by simp [hev] at hte)
  · subst hr
    refine ⟨?_, ?_, Or.inr ⟨e, hmem, hev, hk, hl, rfl⟩⟩
    · intro x hx hxe hxk t ht
      show oldest ≤ t
      rcases List.mem_append.mp hx with hx | hx
      · have := h1 x hx hxe hxk t ht
        omega
      · have : x = e := by simpa using hx
        subst this
        rw [hl] at ht
        cases ht
        exact le_refl _
    · show oldest ≤ SIZE_MAX
      omega
  · subst hr
    apply hkeep _ rfl rfl
    intro t _ _ ht
    rw [hl] at ht
    cases ht
    omega
  · subst hr
    exact hkeep _ rfl rfl (fun t _ hk2 _ => absurd hk2 hk)
  · subst hr
    exact hkeep _ rfl rfl (fun t _ hk2 _ => absurd hk2 hk)

theorem evictVisit_regSeen {k cur : Nat} {seen : List (Int × LRUKNode)} {acc r : EvictScan}
    {e : Int × LRUKNode}
    (hseen : ∀ x ∈ seen, x.2.is_evictable_ = true → x.1 ≠ INVALID_FRAME_ID)
    (hacc : RegSeen k cur seen acc) (h : evictVisit k cur acc e = some r) :
    RegSeen k cur (seen ++ [e]) r := by
  have hmem : e ∈ seen ++ [e] := by simp
  have hkeep : ∀ sc : EvictScan, sc.reg_candidate_distance = acc.reg_candidate_distance →
      sc.reg_victim_frame = acc.reg_victim_frame →
      (e.2.is_evictable_ = true → ¬ e.2.history_.length < k →
        acc.reg_victim_frame ≠ INVALID_FRAME_ID ∧
        ∀ t, e.2.history_.getLast? = some t → sizeSub cur t ≤ acc.reg_candidate_distance) →
      RegSeen k cur (seen ++ [e]) sc := by
    intro sc hs1 hs2 hle
    unfold RegSeen
    rw [hs1, hs2]
    rcases hacc with ⟨ha1, ha2⟩ | ⟨x, hx, hxe, hxk, hxf, t, ht, hd, hmax⟩
    · refine Or.inl ⟨ha1, ?_⟩
      intro y hy hye hyk
      rcases List.mem_append.mp hy with hy | hy
      · exact ha2 y hy hye hyk
      · have : y = e := by simpa using hy
        subst this
        exact (hle hye hyk).1 ha1
    · refine Or.inr ⟨x, List.mem_append_left _ hx, hxe, hxk, hxf, t, ht, hd, ?_⟩
      intro y hy hye hyk t1 ht1
      rcases List.mem_append.mp hy with hy | hy
      · exact hmax y hy hye hyk t1 ht1
      · have : y = e := by simpa using hy
        subst this
        exact (hle hye hyk).2 t1 ht1
  rcases evictVisit_cases h with ⟨hev, hr⟩ | ⟨hev, hk, oldest, hl, ⟨_, hr⟩ | ⟨_, hr⟩⟩ |
      ⟨hev, hk, oldest, hl, ⟨hc, hr⟩ | ⟨hc, hr⟩⟩
  · subst hr
    exact hkeep _ rfl rfl (fun hte => by simp [hev] at hte)
  · subst hr
    exact hkeep _ rfl rfl (fun _ hk2 => absurd hk hk2)
  · subst hr
    exact hkeep _ rfl rfl (fun _ hk2 => absurd hk hk2)
  · subst hr
    refine Or.inr ⟨e, hmem, hev, hk, rfl, oldest, hl, rfl, ?_⟩
    intro y hy hye hyk t1 ht1
    show sizeSub cur t1 ≤ sizeSub cur oldest
    rcases List.mem_append.mp hy with hy | hy
    · rcases hacc with ⟨_, ha2⟩ | ⟨x, hx, hxe, hxk, hxf, t, ht, hd, hmax⟩
      · exact absurd (ha2 y hy hye hyk) id
      · have h1 := hmax y hy hye hyk t1 ht1
        rcases hc with hc | hc
        · omega
        · exact absurd (hxf.trans hc) (hseen x hx hxe)
    · have : y = e := by simpa using hy
      subst this
      rw [hl] at ht1
      cases ht1
      exact le_refl _
  · have hc1 : ¬ sizeSub cur oldest > acc.reg_candidate_distance := fun hh => hc (Or.inl hh)
    have hc2 : acc.reg_victim_frame ≠ INVALID_FRAME_ID := fun hh => hc (Or.inr hh)
    rw [hr]
    apply hkeep _ rfl rfl
    intro _ _
    refine ⟨hc2, ?_⟩
    intro t ht
    rw [hl] at ht
    cases ht
    omega

/-- Induction over the loop of `Evict`: a property of the entries visited so far
and of the locals that every iteration preserves holds after the loop. -/
theorem evictScan_induct (k cur : Nat) (P : List (Int × LRUKNode) → EvictScan → Prop)
    (hstep : ∀ seen acc e r, P seen acc → evictVisit k cur acc e = some r → P (seen ++ [e]) r)
    (l : List (Int × LRUKNode)) :
    ∀ (seen : List (Int × LRUKNode)) (acc r : EvictScan), P seen acc →
      evictScan k cur acc l = some r → P (seen ++ l) r := by
  induction l with
  | nil =>
    intro seen acc r hP h
    simp only [evictScan, Option.some.injEq] at h
    subst h
    simpa using hP
  | cons e rest ih =>
    intro seen acc r hP h
    simp only [evictScan] at h
    cases hv : evictVisit k cur acc e with
    | none => rw [hv] at h; simp at h
    | some acc1 =>
      rw [hv] at h
      have := ih (seen ++ [e]) acc1 r (hstep seen acc e acc1 hP hv) h
      simpa using this

theorem evictVisit_total (k cur : Nat) (acc : EvictScan) {e : Int × LRUKNode}
    (h : e.2.is_evictable_ = true → e.2.history_ ≠ []) : ∃ r, evictVisit k cur acc e = some r := by
  unfold evictVisit
  cases hev : e.2.is_evictable_ with
  | false => exact ⟨acc, by simp⟩
  | true =>
    have hne := h hev
    rw [List.getLast?_eq_getLast _ hne]
    simp only [Bool.true_eq_false, if_false]
    split_ifs <;> exact ⟨_, rfl⟩

theorem evictScan_total (k cur : Nat) {l : List (Int × LRUKNode)}
    (h : ∀ e ∈ l, e.2.is_evictable_ = true → e.2.history_ ≠ []) :
    ∀ acc, ∃ r, evictScan k cur acc l = some r := by
  induction l with
  | nil => intro acc; exact ⟨acc, rfl⟩
  | cons e rest ih =>
    intro acc
    obtain ⟨acc1, h1⟩ := evictVisit_total k cur acc
      (h e (List.mem_cons_self _ _))
    obtain ⟨r, hr⟩ := ih (fun x hx => h x (List.mem_cons_of_mem _ hx)) acc1
    exact ⟨r, by simp only [evictScan, h1, hr]⟩

theorem evictScan_none_evictable {k cur : Nat} {l : List (Int × LRUKNode)}
    (h : ∀ e ∈ l, e.2.is_evictable_ = false) (acc : EvictScan) :
    evictScan k cur acc l = some acc := by
  induction l with
  | nil => rfl
  | cons e rest ih =>
    have h1 : evictVisit k cur acc e = some acc := by
      unfold evictVisit
      simp [h e (List.mem_cons_self _ _)]
    simp only [evictScan, h1]
    exact ih (fun x hx => h x (List.mem_cons_of_mem _ hx))

theorem evictScan_victimSeen {k cur : Nat} {l : List (Int × LRUKNode)} {r : EvictScan}
    (h : evictScan k cur EvictScan.init l = some r) : VictimSeen l r := by
  have := evictScan_induct k cur VictimSeen
    (fun seen acc e r hP hv => evictVisit_victimSeen hP hv) l [] EvictScan.init r
    ⟨fun hh => absurd rfl hh, fun hh => absurd rfl hh⟩ h
  simpa using this

theorem evictScan_infSeen {k cur : Nat} {l : List (Int × LRUKNode)} {r : EvictScan}
    (h : evictScan k cur EvictScan.init l = some r) : InfSeen k l r := by
  have := evictScan_induct k cur (InfSeen k)
    (fun seen acc e r hP hv => evictVisit_infSeen hP hv) l [] EvictScan.init r
    ⟨fun e he => by simp at he, le_refl _, Or.inl ⟨rfl, rfl⟩⟩ h
  simpa using this

theorem evictScan_regSeen {k cur : Nat} {l : List (Int × LRUKNode)} {r : EvictScan}
    (hid : ∀ x ∈ l, x.2.is_evictable_ = true → x.1 ≠ INVALID_FRAME_ID)
    (h : evictScan k cur EvictScan.init l = some r) : RegSeen k cur l r := by
  have := evictScan_induct k cur
    (fun seen sc => (∀ x ∈ seen, x.2.is_evictable_ = true → x.1 ≠ INVALID_FRAME_ID) →
      RegSeen k cur seen sc)
    (fun seen acc e r hP hv hs =>
      evictVisit_regSeen (fun x hx => hs x (List.mem_append_left _ hx))
        (hP (fun x hx => hs x (List.mem_append_left _ hx))) hv)
    l [] EvictScan.init r
    (fun _ => Or.inl ⟨rfl, fun e he => by simp at he⟩) h
  simp only [List.nil_append] at this
  exact this hid

theorem sizeSub_eq_sub {a b : Nat} (hb : b ≤ a) : sizeSub a b = a - b := by
  unfold sizeSub
  rw [if_pos hb]

theorem sizeSub_eq_mod {a b : Nat} (ha : a < SIZE_MOD) (hb : b < SIZE_MOD) :
    sizeSub a b = (a + (SIZE_MOD - b)) % SIZE_MOD := by
  unfold sizeSub
  by_cases h : b ≤ a
  · rw [if_pos h]
    have : a + (SIZE_MOD - b) = (a - b) + SIZE_MOD := by omega
    rw [this, Nat.add_mod_right, Nat.mod_eq_of_lt (by omega)]
  · rw [if_neg h]
    have : a + (SIZE_MOD - b) = a + SIZE_MOD - b := by omega
    rw [this, Nat.mod_eq_of_lt (by omega)]

theorem sizeDecr_eq_mod {x : Nat} (hx : x < SIZE_MOD) :
    sizeDecr x = (x + (SIZE_MOD - 1)) % SIZE_MOD := by
  unfold sizeDecr SIZE_MAX
  unfold SIZE_MOD at hx ⊢
  by_cases h : x = 0
  · subst h
    decide
  · rw [if_neg h]
    omega

theorem sizeDecr_eq_pred {x : Nat} (h0 : 0 < x) : sizeDecr x + 1 = x := by
  unfold sizeDecr
  rw [if_neg (by omega)]
  omega

theorem sizeIncr_eq_succ {x : Nat} (hx : x + 1 < SIZE_MOD) : sizeIncr x = x + 1 := by
  unfold sizeIncr
  exact Nat.mod_eq_of_lt hx

/-! ## LRU-K replacer: theorems -/

/-- C1.  In every replacer state in which every tracked frame has a non-empty
history and at least one evictable frame has fewer than `k` recorded accesses,
`Evict` returns an evictable frame with fewer than `k` recorded accesses whose
oldest recorded timestamp (the back of its history) is the smallest among such
frames; evictable frames with `k` accesses play no part, whatever their
backward k-distance.  The state is one of the data model: the invalid frame id
is not the id of an evictable frame with fewer than `k` accesses, and the
oldest timestamp of the frame with fewer than `k` accesses is below the largest
`size_t` value, as every recorded timestamp is while the clock has not wrapped
around (`Evict` starts `inf_candidate_time` at that value and compares with
`<`). -/
theorem Evict_prefers_infinite_distance (s : LRUKReplacer)
    (hne : ∀ e ∈ s.node_store_, e.2.history_ ≠ [])
    (hid : ∀ e ∈ s.node_store_, e.2.is_evictable_ = true → e.2.history_.length < s.k_ →
      e.1 ≠ INVALID_FRAME_ID)
    (hex : ∃ e ∈ s.node_store_, e.2.is_evictable_ = true ∧ e.2.history_.length < s.k_ ∧
      ∃ t, e.2.history_.getLast? = some t ∧ t < SIZE_MAX) :
    ∃ f n t s1, Evict s = Res.done (some f) s1 ∧ (f, n) ∈ s.node_store_ ∧
      n.is_evictable_ = true ∧ n.history_.length < s.k_ ∧ n.history_.getLast? = some t ∧
      ∀ e ∈ s.node_store_, e.2.is_evictable_ = true → e.2.history_.length < s.k_ →
        ∀ u, e.2.history_.getLast? = some u → t ≤ u := by
  obtain ⟨sc, hsc⟩ := evictScan_total s.k_ s.current_timestamp_ (fun e he _ => hne e he)
    EvictScan.init
  obtain ⟨hmin, _, hvict⟩ := evictScan_infSeen hsc
  obtain ⟨e0, he0, hev0, hk0, t0, ht0, hlt0⟩ := hex
  have hle := hmin e0 he0 hev0 hk0 t0 ht0
  rcases hvict with ⟨_, htime⟩ | ⟨e, he, hev, hk, hl, hf⟩
  · omega
  · have hvalid : sc.inf_victim_frame ≠ INVALID_FRAME_ID := hf ▸ hid e he hev hk
    have hE : ∃ s1, Evict s = Res.done (some sc.inf_victim_frame) s1 := by
      unfold Evict
      rw [hsc]
      simp only [hvalid, ne_eq, not_false_eq_true, if_true]
      exact ⟨_, rfl⟩
    obtain ⟨s1, hs1⟩ := hE
    refine ⟨sc.inf_victim_frame, e.2, sc.inf_candidate_time, s1, hs1, ?_, hev, hk, hl, hmin⟩
    rw [← hf]
    exact he

/-- C1, applied: frame 2 has one access (timestamp 5), frame 1 has
`k = 2` accesses and the larger backward distance; `Evict` returns frame 2. -/
theorem Evict_prefers_infinite_distance_witness :
    ∃ f n t s1,
      Evict { node_store_ := [(1, { history_ := [3, 0], is_evictable_ := true }),
                              (2, { history_ := [5], is_evictable_ := true })],
              current_timestamp_ := 6, curr_size_ := 2, replacer_size_ := 7, k_ := 2 }
        = Res.done (some f) s1 ∧
      (f, n) ∈ [((1 : Int), ({ history_ := [3, 0], is_evictable_ := true } : LRUKNode)),
                (2, { history_ := [5], is_evictable_ := true })] ∧
      n.is_evictable_ = true ∧ n.history_.length < 2 ∧ n.history_.getLast? = some t ∧
      ∀ e ∈ [((1 : Int), ({ history_ := [3, 0], is_evictable_ := true } : LRUKNode)),
             (2, { history_ := [5], is_evictable_ := true })],
        e.2.is_evictable_ = true → e.2.history_.length < 2 →
        ∀ u, e.2.history_.getLast? = some u → t ≤ u :=
  Evict_prefers_infinite_distance
    { node_store_ := [(1, { history_ := [3, 0], is_evictable_ := true }),
                      (2, { history_ := [5], is_evictable_ := true })],
      current_timestamp_ := 6, curr_size_ := 2, replacer_size_ := 7, k_ := 2 }
    (by decide) (by decide) (by decide)

/-- C2.  In every replacer state (`k ≥ 1`, no evictable frame carries the
invalid frame id) in which at least one frame is evictable and every evictable
frame has exactly `k` recorded accesses, `Evict` returns an evictable frame `f`
whose backward k-distance `current_ts − t`, with `t` the timestamp of its k-th
most recent access, is the greatest: no evictable frame has a strictly greater
distance.  The subtraction is the one of `size_t`. -/
theorem Evict_greatest_backward_distance (s : LRUKReplacer) (hk : 1 ≤ s.k_)
    (hid : ∀ e ∈ s.node_store_, e.2.is_evictable_ = true → e.1 ≠ INVALID_FRAME_ID)
    (hex : ∃ e ∈ s.node_store_, e.2.is_evictable_ = true)
    (hall : ∀ e ∈ s.node_store_, e.2.is_evictable_ = true → e.2.history_.length = s.k_) :
    ∃ f n t s1, Evict s = Res.done (some f) s1 ∧ (f, n) ∈ s.node_store_ ∧
      n.is_evictable_ = true ∧ n.history_[s.k_ - 1]? = some t ∧
      ∀ e ∈ s.node_store_, e.2.is_evictable_ = true →
        ∀ u, e.2.history_[s.k_ - 1]? = some u →
          sizeSub s.current_timestamp_ u ≤ sizeSub s.current_timestamp_ t := by
  have hne : ∀ e ∈ s.node_store_, e.2.is_evictable_ = true → e.2.history_ ≠ [] := by
    intro e he hev hnil
    have := hall e he hev
    rw [hnil] at this
    simp at this
    omega
  have hlast : ∀ e ∈ s.node_store_, e.2.is_evictable_ = true →
      e.2.history_.getLast? = e.2.history_[s.k_ - 1]? := by
    intro e he hev
    rw [List.getLast?_eq_getElem?, hall e he hev]
  obtain ⟨sc, hsc⟩ := evictScan_total s.k_ s.current_timestamp_ hne EvictScan.init
  obtain ⟨_, _, hinf⟩ := evictScan_infSeen hsc
  have hinf0 : sc.inf_victim_frame = INVALID_FRAME_ID := by
    rcases hinf with ⟨h, _⟩ | ⟨e, he, hev, hlen, _⟩
    · exact h
    · have := hall e he hev
      omega
  obtain ⟨e0, he0, hev0⟩ := hex
  rcases evictScan_regSeen hid hsc with ⟨_, hnone⟩ | ⟨e, he, hev, hlen, hf, t, ht, hd, hmax⟩
  · exact absurd (hnone e0 he0 hev0 (by have := hall e0 he0 hev0; omega)) id
  · have hvalid : sc.reg_victim_frame ≠ INVALID_FRAME_ID := hf ▸ hid e he hev
    have hE : ∃ s1, Evict s = Res.done (some sc.reg_victim_frame) s1 := by
      unfold Evict
      rw [hsc]
      simp only [hinf0, hvalid, ne_eq, not_true_eq_false, not_false_eq_true, if_true, if_false]
      exact ⟨_, rfl⟩
    obtain ⟨s1, hs1⟩ := hE
    refine ⟨sc.reg_victim_frame, e.2, t, s1, hs1, ?_, hev, ?_, ?_⟩
    · rw [← hf]
      exact he
    · rw [← hlast e he hev]
      exact ht
    · intro x hx hxe u hu
      rw [hd]
      rw [← hlast x hx hxe] at hu
      exact hmax x hx hxe (by have := hall x hx hxe; omega) u hu

/-- C2, applied: `k = 2`, frames 1, 2, 3 evictable with two accesses each, at
`current_ts = 6`; frame 1, whose second most recent access is the oldest, is
among the admissible answers. -/
theorem Evict_greatest_backward_distance_witness :
    ∃ f n t s1,
      Evict { node_store_ := [(3, { history_ := [5, 2], is_evictable_ := true }),
                              (1, { history_ := [3, 0], is_evictable_ := true }),
                              (2, { history_ := [4, 1], is_evictable_ := true })],
              current_timestamp_ := 6, curr_size_ := 3, replacer_size_ := 7, k_ := 2 }
        = Res.done (some f) s1 ∧
      (f, n) ∈ [((3 : Int), ({ history_ := [5, 2], is_evictable_ := true } : LRUKNode)),
                (1, { history_ := [3, 0], is_evictable_ := true }),
                (2, { history_ := [4, 1], is_evictable_ := true })] ∧
      n.is_evictable_ = true ∧ n.history_[2 - 1]? = some t ∧
      ∀ e ∈ [((3 : Int), ({ history_ := [5, 2], is_evictable_ := true } : LRUKNode)),
             (1, { history_ := [3, 0], is_evictable_ := true }),
             (2, { history_ := [4, 1], is_evictable_ := true })],
        e.2.is_evictable_ = true → ∀ u, e.2.history_[2 - 1]? = some u →
          sizeSub 6 u ≤ sizeSub 6 t :=
  Evict_greatest_backward_distance
    { node_store_ := [(3, { history_ := [5, 2], is_evictable_ := true }),
                      (1, { history_ := [3, 0], is_evictable_ := true }),
                      (2, { history_ := [4, 1], is_evictable_ := true })],
      current_timestamp_ := 6, curr_size_ := 3, replacer_size_ := 7, k_ := 2 }
    (by decide) (by decide) (by decide) (by decide)

theorem evict_post (s : LRUKReplacer) :
    ∀ r s1, Evict s = Res.done r s1 → EvictPost s r s1 := by
  intro r s1 h
  unfold Evict at h
  cases hsc : evictScan s.k_ s.current_timestamp_ EvictScan.init s.node_store_ with
  | none => rw [hsc] at h; simp at h
  | some sc =>
    rw [hsc] at h
    dsimp only at h
    have hseen := evictScan_victimSeen hsc
    have key : ∀ f, (∃ e ∈ s.node_store_, e.2.is_evictable_ = true ∧ e.1 = f) →
        Res.done (some f)
          { s with current_timestamp_ := sizeIncr s.current_timestamp_,
                   node_store_ := eraseNode s.node_store_ f,
                   curr_size_ := sizeDecr s.curr_size_ } = Res.done r s1 → EvictPost s r s1 := by
      intro f hmem heq
      simp only [Res.done.injEq] at heq
      obtain ⟨hr, hs1⟩ := heq
      subst hs1
      subst hr
      refine ⟨rfl, rfl, rfl, ?_, ?_⟩
      · intro f1 hf1
        have hff : f = f1 := by simpa using hf1
        subst hff
        obtain ⟨e, he, hev, hef⟩ := hmem
        subst hef
        refine ⟨⟨e.2, he, hev⟩, rfl, ?_, ?_, rfl, ?_⟩
        · exact findNode_eraseNode_self _ _
        · intro g hg
          exact findNode_eraseNode_ne _ hg
        · intro h0
          exact sizeDecr_eq_pred h0
      · intro hnone
        simp at hnone
    by_cases h1 : sc.inf_victim_frame ≠ INVALID_FRAME_ID
    · rw [if_pos h1] at h
      exact key _ (hseen.1 h1) h
    · rw [if_neg h1] at h
      by_cases h2 : sc.reg_victim_frame ≠ INVALID_FRAME_ID
      · rw [if_pos h2] at h
        exact key _ (hseen.2 h2) h
      · rw [if_neg h2] at h
        simp only [Res.done.injEq] at h
        obtain ⟨hr, hs1⟩ := h
        subst hs1
        subst hr
        refine ⟨rfl, rfl, rfl, ?_, fun _ => ⟨rfl, rfl⟩⟩
        intro f hf
        simp at hf

/-- C4.  Whenever `Evict` returns, `current_ts` has been incremented by one.
When it returns a frame `f`, that frame was tracked and evictable, the records
after the call are those before it with the record of `f` erased (so every other
frame keeps its history and flag), and `Size()` is lowered by one.  `Evict`
returns whenever every evictable frame has a non-empty history; when no tracked
frame is evictable it returns no frame and changes neither a record nor
`Size()`. -/
theorem Evict_effect (s : LRUKReplacer) :
    (∀ r s1, Evict s = Res.done r s1 → EvictPost s r s1) ∧
    ((∀ e ∈ s.node_store_, e.2.is_evictable_ = true → e.2.history_ ≠ []) →
      ∃ r s1, Evict s = Res.done r s1) ∧
    ((∀ e ∈ s.node_store_, e.2.is_evictable_ = false) →
      Evict s = Res.done none { s with current_timestamp_ := sizeIncr s.current_timestamp_ }) := by
  refine ⟨?_, ?_, ?_⟩
  · exact evict_post s
  · intro hne
    obtain ⟨sc, hsc⟩ := evictScan_total s.k_ s.current_timestamp_ hne EvictScan.init
    unfold Evict
    rw [hsc]
    dsimp only
    split_ifs <;> exact ⟨_, _, rfl⟩
  · intro hnone
    unfold Evict
    rw [evictScan_none_evictable hnone]
    simp [EvictScan.init]

theorem trimHistory_cons_eq_take {k : Nat} (ts : Nat) (n : LRUKNode) (hk : 1 ≤ k)
    (hlen : n.history_.length ≤ k) :
    trimHistory k { n with history_ := ts :: n.history_ }
      = { history_ := (ts :: n.history_).take k, is_evictable_ := n.is_evictable_ } := by
  unfold trimHistory
  by_cases h : (ts :: n.history_).length > k
  · rw [if_pos h]
    have hl : (ts :: n.history_).length - 1 = k := by
      simp only [List.length_cons] at h ⊢
      omega
    simp only [List.dropLast_eq_take, hl]
  · rw [if_neg h]
    rw [List.take_of_length_le (by omega)]

/-- C5.  For every frame id `f` that passes the range check, `RecordAccess(f)`
returns; afterwards the history of `f` is the pre-call `current_ts` followed by
the previous entries in order, with the last entry dropped when that makes more
than `k` entries (for `k ≥ 1` and a previous history of at most `k` entries: the
first `k` entries of `current_ts :: previous`); `current_ts` is incremented;
the evictable flag of `f` is the previous one, or `false` when `f` was
untracked; `Size()` and the record of every other frame are unchanged. -/
theorem RecordAccess_effect (s : LRUKReplacer) (f : Int)
    (hvalid : toSizeT f ≤ s.replacer_size_) :
    ∃ s1, RecordAccess s f = Res.done () s1 ∧
      s1.current_timestamp_ = sizeIncr s.current_timestamp_ ∧
      Size s1 = Size s ∧ s1.replacer_size_ = s.replacer_size_ ∧ s1.k_ = s.k_ ∧
      (∀ g, g ≠ f → findNode s1.node_store_ g = findNode s.node_store_ g) ∧
      (∀ old : LRUKNode, old = (findNode s.node_store_ f).getD LRUKNode.default →
        findNode s1.node_store_ f
          = some (trimHistory s.k_
              { old with history_ := s.current_timestamp_ :: old.history_ }) ∧
        (findNode s.node_store_ f = none → old.is_evictable_ = false ∧ old.history_ = []) ∧
        (1 ≤ s.k_ → old.history_.length ≤ s.k_ →
          findNode s1.node_store_ f
            = some { history_ := (s.current_timestamp_ :: old.history_).take s.k_,
                     is_evictable_ := old.is_evictable_ })) := by
  have hidx := findNode_indexNode_self s.node_store_ f
  have hold : (match findNode s.node_store_ f with
      | some n => n
      | none => LRUKNode.default) = (findNode s.node_store_ f).getD LRUKNode.default := by
    cases findNode s.node_store_ f <;> rfl
  rw [hold] at hidx
  unfold RecordAccess
  rw [if_neg (not_not.mpr hvalid)]
  simp only [hidx]
  refine ⟨_, rfl, rfl, rfl, rfl, rfl, ?_, ?_⟩
  · intro g hg
    show findNode (setNode (setNode (indexNode s.node_store_ f) f _) f _) g = _
    rw [findNode_setNode_ne _ _ hg, findNode_setNode_ne _ _ hg, findNode_indexNode_ne _ hg]
  · intro old hold2
    subst hold2
    have hfind : findNode (setNode (setNode (indexNode s.node_store_ f) f
        { (findNode s.node_store_ f).getD LRUKNode.default with
          history_ := s.current_timestamp_ ::
            ((findNode s.node_store_ f).getD LRUKNode.default).history_ }) f
        (trimHistory s.k_
          { (findNode s.node_store_ f).getD LRUKNode.default with
            history_ := s.current_timestamp_ ::
              ((findNode s.node_store_ f).getD LRUKNode.default).history_ })) f
        = some (trimHistory s.k_
          { (findNode s.node_store_ f).getD LRUKNode.default with
            history_ := s.current_timestamp_ ::
              ((findNode s.node_store_ f).getD LRUKNode.default).history_ }) :=
      findNode_setNode_self _ (findNode_setNode_self _ hidx)
    refine ⟨hfind, ?_, ?_⟩
    · intro hnone
      rw [hnone]
      exact ⟨rfl, rfl⟩
    · intro hk hlen
      rw [← trimHistory_cons_eq_take _ _ hk hlen]
      exact hfind

/-- C5, applied: frame 3 of a replacer with `k = 2` has the history `[4, 1]`
and is evictable; `RecordAccess(3)` at `current_ts = 9` leaves it with `[9, 4]`. -/
theorem RecordAccess_effect_witness :
    ∃ s1,
      RecordAccess { node_store_ := [(3, { history_ := [4, 1], is_evictable_ := true })],
                     current_timestamp_ := 9, curr_size_ := 1, replacer_size_ := 7, k_ := 2 } 3
        = Res.done () s1 ∧
      s1.current_timestamp_ = sizeIncr 9 ∧ Size s1 = 1 ∧ s1.replacer_size_ = 7 ∧ s1.k_ = 2 ∧
      (∀ g, g ≠ 3 → findNode s1.node_store_ g
          = findNode [(3, { history_ := [4, 1], is_evictable_ := true })] g) ∧
      (∀ old : LRUKNode,
        old = (findNode [(3, { history_ := [4, 1], is_evictable_ := true })] 3).getD
                LRUKNode.default →
        findNode s1.node_store_ 3
          = some (trimHistory 2 { old with history_ := 9 :: old.history_ }) ∧
        (findNode [(3, { history_ := [4, 1], is_evictable_ := true })] 3 = none →
          old.is_evictable_ = false ∧ old.history_ = []) ∧
        (1 ≤ 2 → old.history_.length ≤ 2 →
          findNode s1.node_store_ 3
            = some { history_ := (9 :: old.history_).take 2,
                     is_evictable_ := old.is_evictable_ })) :=
  RecordAccess_effect
    { node_store_ := [(3, { history_ := [4, 1], is_evictable_ := true })],
      current_timestamp_ := 9, curr_size_ := 1, replacer_size_ := 7, k_ := 2 } 3 (by decide)

/-- C6.  `Remove(f)` fails exactly when `f` is tracked and its evictable flag
is false, and the state at the failure is the state before the call.  When `f`
is tracked and evictable, `Remove(f)` returns, the records afterwards are those
before with the record of `f` erased (every other record is unchanged) and
`Size()` is lowered by one.  On an untracked frame `Remove` returns without any
effect. -/
theorem Remove_effect (s : LRUKReplacer) (f : Int) :
    ((∃ s1, Remove s f = Res.ensureFailed s1) ↔
      ∃ n, findNode s.node_store_ f = some n ∧ n.is_evictable_ = false) ∧
    (∀ s1, Remove s f = Res.ensureFailed s1 → s1 = s) ∧
    (∀ n, findNode s.node_store_ f = some n → n.is_evictable_ = true →
      ∃ s1, Remove s f = Res.done () s1 ∧
        s1.node_store_ = eraseNode s.node_store_ f ∧
        findNode s1.node_store_ f = none ∧
        (∀ g, g ≠ f → findNode s1.node_store_ g = findNode s.node_store_ g) ∧
        Size s1 = sizeDecr (Size s) ∧ (0 < Size s → Size s1 + 1 = Size s) ∧
        s1.current_timestamp_ = s.current_timestamp_ ∧
        s1.replacer_size_ = s.replacer_size_ ∧ s1.k_ = s.k_) ∧
    (findNode s.node_store_ f = none → Remove s f = Res.done () s) := by
  unfold Remove
  cases hfind : findNode s.node_store_ f with
  | none =>
    refine ⟨⟨?_, ?_⟩, ?_, ?_, fun _ => rfl⟩
    · rintro ⟨s1, h⟩
      simp at h
    · rintro ⟨n, h, _⟩
      simp at h
    · intro s1 h
      simp at h
    · intro n h
      simp at h
  | some n =>
    cases hev : n.is_evictable_ with
    | false =>
      refine ⟨⟨fun _ => ⟨n, rfl, hev⟩, fun _ => ⟨s, by simp [hev]⟩⟩, ?_, ?_, ?_⟩
      · intro s1 h
        simp [hev] at h
        exact h.symm
      · intro m hm hme
        simp only [Option.some.injEq] at hm
        subst hm
        rw [hev] at hme
        simp at hme
      · intro h
        simp at h
    | true =>
      refine ⟨⟨?_, ?_⟩, ?_, ?_, ?_⟩
      · rintro ⟨s1, h⟩
        simp [hev] at h
      · rintro ⟨m, hm, hme⟩
        simp only [Option.some.injEq] at hm
        subst hm
        rw [hev] at hme
        simp at hme
      · intro s1 h
        simp [hev] at h
      · intro m _ _
        refine ⟨{ s with node_store_ := eraseNode s.node_store_ f,
                         curr_size_ := sizeDecr s.curr_size_ },
          by simp only [hev, ne_eq, not_true_eq_false, not_false_eq_true, if_false], rfl,
          findNode_eraseNode_self _ _, fun g hg => findNode_eraseNode_ne _ hg, rfl, ?_,
          rfl, rfl, rfl⟩
        intro h0
        exact sizeDecr_eq_pred h0
      · intro h
        simp at h

theorem toSizeT_of_nonneg {f : Int} (h0 : 0 ≤ f) (h1 : f < 2 ^ 64) : toSizeT f = f.toNat := by
  unfold toSizeT SIZE_MOD
  have : f % ((2 ^ 64 : Nat) : Int) = f := by
    apply Int.emod_eq_of_lt h0
    norm_num
    exact h1
  rw [this]

theorem toSizeT_of_neg {f : Int} (h0 : f < 0) (h1 : -(2 ^ 64 : Int) ≤ f) :
    toSizeT f = (f + 2 ^ 64).toNat := by
  unfold toSizeT SIZE_MOD
  have : f % ((2 ^ 64 : Nat) : Int) = f + 2 ^ 64 := by
    have h2 : ((2 ^ 64 : Nat) : Int) = 2 ^ 64 := by norm_num
    rw [h2]
    rw [← Int.add_mul_emod_self (b := 1) (c := 2 ^ 64)]
    rw [one_mul]
    apply Int.emod_eq_of_lt <;> omega
  rw [this]

theorem recordAccess_returns (s : LRUKReplacer) (f : Int)
    (hvalid : toSizeT f ≤ s.replacer_size_) : ∃ s1, RecordAccess s f = Res.done () s1 := by
  unfold RecordAccess
  rw [if_neg (not_not.mpr hvalid)]
  exact ⟨_, rfl⟩

/-- C7 (the code at the failing input).  A replacer of capacity 7 accepts
`RecordAccess(7)` and starts tracking frame 7, although 7 is outside `[0, 7)`;
in general `RecordAccess` accepts the frame id equal to the capacity.  For a
capacity below `2^63` the call is an assertion violation exactly for the
negative ids and the ids above the capacity, and the state is then unchanged. -/
theorem RecordAccess_accepts_frame_id_at_capacity :
    RecordAccess (LRUKReplacer.new 7 2) 7
      = Res.done () { node_store_ := [(7, { history_ := [0], is_evictable_ := false })],
                      current_timestamp_ := 1, curr_size_ := 0, replacer_size_ := 7, k_ := 2 } ∧
    (∀ s : LRUKReplacer, s.replacer_size_ < 2 ^ 63 →
      ∃ s1, RecordAccess s (s.replacer_size_ : Int) = Res.done () s1) ∧
    (∀ (s : LRUKReplacer) (f : Int), IsFrameIdT f → s.replacer_size_ < 2 ^ 63 →
      ((∃ s1, RecordAccess s f = Res.ensureFailed s1) ↔
        (f < 0 ∨ (s.replacer_size_ : Int) < f)) ∧
      (∀ s1, RecordAccess s f = Res.ensureFailed s1 → s1 = s)) := by
  refine ⟨by decide, ?_, ?_⟩
  · intro s hN
    have h : toSizeT (s.replacer_size_ : Int) ≤ s.replacer_size_ := by
      rw [toSizeT_of_nonneg (by omega) (by omega)]
      simp
    exact recordAccess_returns s _ h
  · intro s f hf hN
    obtain ⟨hf1, hf2⟩ := hf
    have hcheck : toSizeT f ≤ s.replacer_size_ ↔ ¬ (f < 0 ∨ (s.replacer_size_ : Int) < f) := by
      by_cases h0 : f < 0
      · rw [toSizeT_of_neg h0 (by omega)]
        constructor
        · intro h; omega
        · intro h; exact absurd (Or.inl h0) h
      · rw [toSizeT_of_nonneg (by omega) (by omega)]
        constructor
        · intro h; omega
        · intro h; omega
    unfold RecordAccess
    by_cases hc : toSizeT f ≤ s.replacer_size_
    · rw [if_neg (not_not.mpr hc)]
      refine ⟨⟨?_, ?_⟩, ?_⟩
      · rintro ⟨s1, h⟩
        simp at h
      · intro h
        exact absurd h (hcheck.mp hc)
      · intro s1 h
        simp at h
    · rw [if_pos hc]
      refine ⟨⟨fun _ => ?_, fun _ => ⟨s, rfl⟩⟩, ?_⟩
      · by_contra hh
        exact hc (hcheck.mpr hh)
      · intro s1 h
        simp only [Res.ensureFailed.injEq] at h
        exact h.symm

/-- C8 (the code at the failing input).  On a fresh replacer, which tracks no
frame, `SetEvictable(1, true)` returns normally, creates a record for frame 1
with an empty history and raises `Size()` to 1; a following `Evict` calls
`back()` on that empty history.  In general `SetEvictable` on an untracked
frame creates its record and never fails its assertion. -/
theorem SetEvictable_creates_record_for_untracked_frame :
    SetEvictable (LRUKReplacer.new 7 2) 1 true
      = Res.done () { node_store_ := [(1, { history_ := [], is_evictable_ := true })],
                      current_timestamp_ := 0, curr_size_ := 1, replacer_size_ := 7, k_ := 2 } ∧
    Evict { node_store_ := [(1, { history_ := [], is_evictable_ := true })],
            current_timestamp_ := 0, curr_size_ := 1, replacer_size_ := 7, k_ := 2 }
      = Res.undefinedBehaviour ∧
    (∀ (s : LRUKReplacer) (f : Int) (b : Bool), findNode s.node_store_ f = none →
      ∃ s1, SetEvictable s f b = Res.done () s1 ∧
        findNode s1.node_store_ f = some { history_ := [], is_evictable_ := b } ∧
        Size s1 = if b = true then sizeIncr (Size s) else Size s) ∧
    (∀ (s : LRUKReplacer) (f : Int) (b : Bool) (s1 : LRUKReplacer),
      SetEvictable s f b ≠ Res.ensureFailed s1) := by
  refine ⟨by decide, by decide, ?_, ?_⟩
  · intro s f b hnone
    have hidx := findNode_indexNode_self s.node_store_ f
    rw [hnone] at hidx
    unfold SetEvictable
    simp only [hidx]
    refine ⟨_, rfl, findNode_setNode_self _ hidx, ?_⟩
    cases b <;> simp [LRUKNode.default, Size]
  · intro s f b s1
    have hidx := findNode_indexNode_self s.node_store_ f
    unfold SetEvictable
    simp only [hidx]
    simp

theorem storeInv_length_le {store : List (Int × LRUKNode)}
    (hnd : (store.map Prod.fst).Nodup) (hr : ∀ g ∈ store.map Prod.fst, IsFrameIdT g) :
    store.length ≤ 2 ^ 32 := by
  have := length_le_of_nodup_frameIdT hnd hr
  simpa using this

theorem mem_map_fst_indexNode {store : List (Int × LRUKNode)} {f g : Int}
    (h : g ∈ (indexNode store f).map Prod.fst) : g = f ∨ g ∈ store.map Prod.fst := by
  unfold indexNode at h
  cases hf : findNode store f with
  | none =>
    rw [hf] at h
    simpa using h
  | some n =>
    rw [hf] at h
    exact Or.inr h

theorem storeInv_recordAccess {s s1 : LRUKReplacer} {f : Int} (hinv : StoreInv s)
    (hf : IsFrameIdT f) (h : RecordAccess s f = Res.done () s1) : StoreInv s1 := by
  obtain ⟨hnd, hr, hsz⟩ := hinv
  have hidx := findNode_indexNode_self s.node_store_ f
  unfold RecordAccess at h
  by_cases hc : toSizeT f ≤ s.replacer_size_
  · rw [if_neg (not_not.mpr hc)] at h
    simp only [hidx, Res.done.injEq, true_and] at h
    subst h
    refine ⟨?_, ?_, ?_⟩
    · show ((setNode (setNode (indexNode s.node_store_ f) f _) f _).map Prod.fst).Nodup
      rw [map_fst_setNode, map_fst_setNode]
      exact map_fst_indexNode_nodup f hnd
    · intro g hg
      have hg1 : g ∈ (indexNode s.node_store_ f).map Prod.fst := by
        have hg0 : g ∈ (setNode (setNode (indexNode s.node_store_ f) f _) f _).map Prod.fst := hg
        rwa [map_fst_setNode, map_fst_setNode] at hg0
      rcases mem_map_fst_indexNode hg1 with hg2 | hg2
      · rw [hg2]; exact hf
      · exact hr g hg2
    · show s.curr_size_ = evictableCount (setNode (setNode (indexNode s.node_store_ f) f _) f _)
      have e1 := evictableCount_setNode
        { (match findNode s.node_store_ f with
            | some n => n
            | none => LRUKNode.default) with
          history_ := s.current_timestamp_ ::
            (match findNode s.node_store_ f with
              | some n => n
              | none => LRUKNode.default).history_ } hidx
      have e2 := evictableCount_setNode
        (trimHistory s.k_
          { (match findNode s.node_store_ f with
              | some n => n
              | none => LRUKNode.default) with
            history_ := s.current_timestamp_ ::
              (match findNode s.node_store_ f with
                | some n => n
                | none => LRUKNode.default).history_ })
        (findNode_setNode_self
          { (match findNode s.node_store_ f with
              | some n => n
              | none => LRUKNode.default) with
            history_ := s.current_timestamp_ ::
              (match findNode s.node_store_ f with
                | some n => n
                | none => LRUKNode.default).history_ } hidx)
      have e3 : (trimHistory s.k_
          { (match findNode s.node_store_ f with
              | some n => n
              | none => LRUKNode.default) with
            history_ := s.current_timestamp_ ::
              (match findNode s.node_store_ f with
                | some n => n
                | none => LRUKNode.default).history_ }).is_evictable_
          = (match findNode s.node_store_ f with
              | some n => n
              | none => LRUKNode.default).is_evictable_ := by
        unfold trimHistory
        split_ifs <;> rfl
      rw [e3] at e2
      rw [evictableCount_indexNode] at e1
      dsimp only at e1 e2
      rw [hsz]
      omega
  · rw [if_pos hc] at h
    simp at h

theorem storeInv_setEvictable {s s1 : LRUKReplacer} {f : Int} {b : Bool} (hinv : StoreInv s)
    (hf : IsFrameIdT f) (h : SetEvictable s f b = Res.done () s1) : StoreInv s1 := by
  obtain ⟨hnd, hr, hsz⟩ := hinv
  have hidx := findNode_indexNode_self s.node_store_ f
  unfold SetEvictable at h
  simp only [hidx, Res.done.injEq, true_and] at h
  subst h
  have hnd1 : ((setNode (indexNode s.node_store_ f) f
      { (match findNode s.node_store_ f with
          | some n => n
          | none => LRUKNode.default) with is_evictable_ := b }).map Prod.fst).Nodup := by
    rw [map_fst_setNode]
    exact map_fst_indexNode_nodup f hnd
  have hr1 : ∀ g ∈ (setNode (indexNode s.node_store_ f) f
      { (match findNode s.node_store_ f with
          | some n => n
          | none => LRUKNode.default) with is_evictable_ := b }).map Prod.fst,
      IsFrameIdT g := by
    intro g hg
    rw [map_fst_setNode] at hg
    rcases mem_map_fst_indexNode hg with hg2 | hg2
    · rw [hg2]; exact hf
    · exact hr g hg2
  refine ⟨hnd1, hr1, ?_⟩
  have e1 := evictableCount_setNode
    { (match findNode s.node_store_ f with
        | some n => n
        | none => LRUKNode.default) with is_evictable_ := b } hidx
  rw [evictableCount_indexNode] at e1
  have hlen := storeInv_length_le hnd1 hr1
  have hcnt := evictableCount_le_length (setNode (indexNode s.node_store_ f) f
    { (match findNode s.node_store_ f with
        | some n => n
        | none => LRUKNode.default) with is_evictable_ := b })
  dsimp only at e1 ⊢
  generalize (match findNode s.node_store_ f with
        | some n => n
        | none => LRUKNode.default) = node at e1 hcnt hlen ⊢
  generalize evictableCount (setNode (indexNode s.node_store_ f) f
    { history_ := node.history_, is_evictable_ := b }) = c1 at e1 hcnt ⊢
  generalize setNode (indexNode s.node_store_ f) f
    { history_ := node.history_, is_evictable_ := b } = st1 at hlen hcnt
  rw [hsz]
  generalize evictableCount s.node_store_ = c0 at e1 ⊢
  cases hb : b <;> cases hn : node.is_evictable_ <;> simp [hb, hn] at e1 ⊢
  · omega
  · unfold sizeDecr
    rw [if_neg (by omega)]
    omega
  · unfold sizeIncr SIZE_MOD
    rw [Nat.mod_eq_of_lt (by omega)]
    omega
  · omega

theorem storeInv_remove {s s1 : LRUKReplacer} {f : Int} (hinv : StoreInv s)
    (h : Remove s f = Res.done () s1) : StoreInv s1 := by
  obtain ⟨hnd, hr, hsz⟩ := hinv
  unfold Remove at h
  cases hfind : findNode s.node_store_ f with
  | none =>
    rw [hfind] at h
    simp only [Res.done.injEq, true_and] at h
    subst h
    exact ⟨hnd, hr, hsz⟩
  | some n =>
    rw [hfind] at h
    cases hev : n.is_evictable_ with
    | false => simp [hev] at h
    | true =>
      simp only [hev, ne_eq, not_true_eq_false, if_false, Res.done.injEq, true_and] at h
      subst h
      refine ⟨map_fst_eraseNode_nodup f hnd, ?_, ?_⟩
      · intro g hg
        obtain ⟨e, he, rfl⟩ := List.mem_map.mp hg
        exact hr _ (List.mem_map_of_mem Prod.fst (mem_eraseNode he))
      · have e1 := evictableCount_eraseNode hnd hfind
        rw [hev] at e1
        simp only [if_true] at e1
        show sizeDecr s.curr_size_ = evictableCount (eraseNode s.node_store_ f)
        unfold sizeDecr
        rw [if_neg (by omega)]
        omega

theorem storeInv_evict {s s1 : LRUKReplacer} {r : Option Int} (hinv : StoreInv s)
    (h : Evict s = Res.done r s1) : StoreInv s1 := by
  obtain ⟨hnd, hr, hsz⟩ := hinv
  obtain ⟨_, _, _, hsome, hnone⟩ := evict_post s r s1 h
  cases r with
  | none =>
    obtain ⟨h1, h2⟩ := hnone rfl
    unfold StoreInv
    rw [h1]
    exact ⟨hnd, hr, by rw [← hsz]; exact h2⟩
  | some f =>
    obtain ⟨⟨n, hmem, hev⟩, hstore, _, _, hsize, _⟩ := hsome f rfl
    have hfind := findNode_of_mem hnd hmem
    unfold StoreInv
    rw [hstore]
    refine ⟨map_fst_eraseNode_nodup f hnd, ?_, ?_⟩
    · intro g hg
      obtain ⟨e, he, rfl⟩ := List.mem_map.mp hg
      exact hr _ (List.mem_map_of_mem Prod.fst (mem_eraseNode he))
    · have e1 := evictableCount_eraseNode hnd hfind
      rw [hev] at e1
      simp only [if_true] at e1
      have : s1.curr_size_ = sizeDecr s.curr_size_ := hsize
      rw [this]
      unfold sizeDecr
      rw [if_neg (by omega)]
      omega

theorem reachable_storeInv {s : LRUKReplacer} (h : Reachable s) : StoreInv s := by
  induction h with
  | fresh num_frames k =>
    refine ⟨by simp [LRUKReplacer.new], by simp [LRUKReplacer.new], rfl⟩
  | recordAccess f _ hf hop ih => exact storeInv_recordAccess ih hf hop
  | setEvictable f b _ hf hop ih => exact storeInv_setEvictable ih hf hop
  | remove f _ _ hop ih => exact storeInv_remove ih hop
  | evict r _ hop ih => exact storeInv_evict ih hop
  | reorder l _ hperm ih =>
    obtain ⟨hnd, hr, hsz⟩ := ih
    refine ⟨?_, ?_, ?_⟩
    · exact (List.Perm.nodup_iff (List.Perm.map Prod.fst hperm)).mp hnd
    · intro g hg
      exact hr g ((List.Perm.mem_iff (List.Perm.map Prod.fst hperm)).mpr hg)
    · show _ = evictableCount l
      rw [hsz]
      exact List.Perm.countP_eq _ hperm

/-- C3.  In every state reachable from a freshly constructed replacer through
returning calls of `RecordAccess`, `SetEvictable`, `Remove` and `Evict`,
`Size()` is the number of tracked frames whose evictable flag is true. -/
theorem Size_eq_evictable_count (s : LRUKReplacer) (h : Reachable s) :
    Size s = evictableCount s.node_store_ :=
  (reachable_storeInv h).2.2

/-- C3, applied to the state after `RecordAccess(1)`, `SetEvictable(1, true)`,
`RecordAccess(2)` on a fresh replacer of capacity 7 with `k = 2`. -/
theorem Size_eq_evictable_count_witness :
    Size { node_store_ := [(2, { history_ := [1], is_evictable_ := false }),
                           (1, { history_ := [0], is_evictable_ := true })],
           current_timestamp_ := 2, curr_size_ := 1, replacer_size_ := 7, k_ := 2 }
      = evictableCount [(2, { history_ := [1], is_evictable_ := false }),
                        (1, { history_ := [0], is_evictable_ := true })] :=
  Size_eq_evictable_count _
    (@Reachable.recordAccess
      { node_store_ := [(1, { history_ := [0], is_evictable_ := true })],
        current_timestamp_ := 1, curr_size_ := 1, replacer_size_ := 7, k_ := 2 } _ 2
      (@Reachable.setEvictable
        { node_store_ := [(1, { history_ := [0], is_evictable_ := false })],
          current_timestamp_ := 1, curr_size_ := 0, replacer_size_ := 7, k_ := 2 } _ 1 true
        (@Reachable.recordAccess (LRUKReplacer.new 7 2) _ 1 (Reachable.fresh 7 2)
          (by decide) (by decide))
        (by decide) (by decide))
      (by decide) (by decide))

/-! ## B+Tree: inserting a key that is present -/

theorem samePages_refl (t : BPlusTree) : SamePages t t := fun _ => rfl

theorem samePages_setPageId {t t1 : BPlusTree} (h : SamePages t t1) {pid : Int} {p : Page}
    (hp : t1.pages pid = some p) (i : Int) : SamePages t (t1.setPage pid (p.withPageId i)) := by
  intro q
  by_cases hq : q = pid
  · subst hq
    have := h q
    rw [hp] at this
    simp only [BPlusTree.setPage, if_true, Option.map_some']
    rw [← this]
    cases p <;> rfl
  · simp only [BPlusTree.setPage, hq, if_false]
    exact h q

theorem samePages_leaf {t t1 : BPlusTree} (h : SamePages t t1) {pid : Int} {lp : LeafPage}
    (hp : t.pages pid = some (Page.leaf lp)) :
    ∃ lp1, t1.pages pid = some (Page.leaf lp1) ∧ lp1.slots = lp.slots ∧
      lp1.max_size_ = lp.max_size_ := by
  have := h pid
  rw [hp] at this
  cases h1 : t1.pages pid with
  | none => rw [h1] at this; simp at this
  | some p1 =>
    rw [h1] at this
    cases p1 with
    | leaf lp1 =>
      simp only [Option.map_some', Page.withPageId, Option.some.injEq, Page.leaf.injEq,
        LeafPage.mk.injEq] at this
      exact ⟨lp1, rfl, this.2.2.1, this.2.1⟩
    | internal ip1 => simp [Page.withPageId] at this

theorem samePages_internal {t t1 : BPlusTree} (h : SamePages t t1) {pid : Int}
    {ip : InternalPage} (hp : t.pages pid = some (Page.internal ip)) :
    ∃ ip1, t1.pages pid = some (Page.internal ip1) ∧ ip1.slots = ip.slots := by
  have := h pid
  rw [hp] at this
  cases h1 : t1.pages pid with
  | none => rw [h1] at this; simp at this
  | some p1 =>
    rw [h1] at this
    cases p1 with
    | leaf lp1 => simp [Page.withPageId] at this
    | internal ip1 =>
      simp only [Option.map_some', Page.withPageId, Option.some.injEq,
        Page.internal.injEq, InternalPage.mk.injEq] at this
      exact ⟨ip1, rfl, this.2.2⟩

theorem leaf_KeyIndex_congr {a b : LeafPage} (h : a.slots = b.slots) (key : Int) :
    a.KeyIndex key = b.KeyIndex key := by
  unfold LeafPage.KeyIndex LeafPage.GetSize
  rw [h]

theorem leaf_KeyAt_congr {a b : LeafPage} (h : a.slots = b.slots) (i : Int) :
    a.KeyAt i = b.KeyAt i := by
  unfold LeafPage.KeyAt LeafPage.GetSize
  rw [h]

theorem leaf_ValueAt_congr {a b : LeafPage} (h : a.slots = b.slots) (i : Int) :
    a.ValueAt i = b.ValueAt i := by
  unfold LeafPage.ValueAt LeafPage.GetSize
  rw [h]

theorem internal_KeyIndex_congr {a b : InternalPage} (h : a.slots = b.slots) (key : Int) :
    a.KeyIndex key = b.KeyIndex key := by
  unfold InternalPage.KeyIndex InternalPage.GetSize
  rw [h]

theorem internal_ValueAt_congr {a b : InternalPage} (h : a.slots = b.slots) (i : Int) :
    a.ValueAt i = b.ValueAt i := by
  unfold InternalPage.ValueAt
  rw [h]

/-- `GetValue` does not read the page ids stored in the pages. -/
theorem getValueLoop_samePages {t t1 : BPlusTree} (h : SamePages t t1) (key : Int) :
    ∀ (fuel : Nat) (pid : Int), getValueLoop t1 key fuel pid = getValueLoop t key fuel pid := by
  intro fuel
  induction fuel with
  | zero => intro pid; rfl
  | succ n ih =>
    intro pid
    unfold getValueLoop
    cases hp : t.pages pid with
    | none =>
      have := h pid
      rw [hp] at this
      cases h1 : t1.pages pid with
      | none => rfl
      | some p1 => rw [h1] at this; simp at this
    | some p =>
      cases p with
      | leaf lp =>
        obtain ⟨lp1, h1, hs, _⟩ := samePages_leaf h hp
        rw [h1]
        simp only [leaf_KeyIndex_congr hs, leaf_KeyAt_congr hs,
          leaf_ValueAt_congr hs, LeafPage.GetSize, hs]
      | internal ip =>
        obtain ⟨ip1, h1, hs⟩ := samePages_internal h hp
        rw [h1]
        simp only [internal_KeyIndex_congr hs, internal_ValueAt_congr hs]
        cases ip.ValueAt (ip.KeyIndex key) with
        | ok c => simp only [Outcome.ok_bind]; exact ih c
        | ensureFailed => rfl
        | undefinedBehaviour => rfl
        | outOfFuel => rfl

/-- What `GetValue` has seen in the leaf when it returns a value. -/
theorem getValue_leaf_found {lp : LeafPage} {key : Int} {v0 : RID}
    (hg : (if lp.KeyIndex key < lp.GetSize then do
            let k ← lp.KeyAt (lp.KeyIndex key)
            if comparator k key = 0 then do
              let v ← lp.ValueAt (lp.KeyIndex key)
              pure (some v)
            else pure none
          else pure none : Outcome (Option RID)) = Outcome.ok (some v0)) :
    ∃ k, lp.KeyIndex key < lp.GetSize ∧ lp.KeyAt (lp.KeyIndex key) = Outcome.ok k ∧
      comparator k key = 0 := by
  by_cases hidx : lp.KeyIndex key < lp.GetSize
  · rw [if_pos hidx] at hg
    cases hk : lp.KeyAt (lp.KeyIndex key) with
    | ok k =>
      rw [hk] at hg
      simp only [Outcome.ok_bind] at hg
      by_cases hc : comparator k key = 0
      · exact ⟨k, hidx, rfl, hc⟩
      · rw [if_neg hc] at hg
        simp at hg
    | ensureFailed => rw [hk] at hg; simp at hg
    | undefinedBehaviour => rw [hk] at hg; simp at hg
    | outOfFuel => rw [hk] at hg; simp at hg
  · rw [if_neg hidx] at hg
    simp at hg

/-- The leaf branch of `Insert` on a key that the leaf holds. -/
theorem insertIntoLeaf_found (ctx_root : Int) (ws : List Int) (t : BPlusTree) (pid : Int)
    (leaf0 : LeafPage) (key : Int) (value : RID) {k : Int}
    (hidx : leaf0.KeyIndex key < leaf0.GetSize)
    (hk : leaf0.KeyAt (leaf0.KeyIndex key) = Outcome.ok k) (hc : comparator k key = 0) :
    insertIntoLeaf ctx_root ws t pid leaf0 key value
      = Outcome.ok (false, t.setPage pid (Page.withPageId pid (Page.leaf leaf0))) := by
  have hs : ({ leaf0 with page_id_ := pid } : LeafPage).slots = leaf0.slots := rfl
  have hsz : ({ leaf0 with page_id_ := pid } : LeafPage).GetSize = leaf0.GetSize := rfl
  unfold insertIntoLeaf
  simp only [leaf_KeyIndex_congr hs, leaf_KeyAt_congr hs, hsz, hidx, if_true, hk,
    Outcome.ok_bind, hc, decide_True, Outcome.pure_eq_ok]
  rfl

/-- The descent of `Insert` follows the descent of `GetValue`; when the latter
finds the key, the former returns false and has only rewritten the page ids
stored in the pages on its way. -/
theorem insertLoop_of_found {t : BPlusTree} (ctx_root key : Int) (value v0 : RID) :
    ∀ (fuel : Nat) (ws : List Int) (pid : Int) (t1 : BPlusTree), SamePages t t1 →
      getValueLoop t key fuel pid = Outcome.ok (some v0) →
      ∃ t2, insertLoop ctx_root key value fuel ws pid t1 = Outcome.ok (false, t2) ∧
        SamePages t t2 ∧ t2.root_page_id_ = t1.root_page_id_ ∧
        t2.next_page_id_ = t1.next_page_id_ ∧ t2.leaf_max_size_ = t1.leaf_max_size_ ∧
        t2.internal_max_size_ = t1.internal_max_size_ ∧
        t2.LEAF_PAGE_SLOT_CNT = t1.LEAF_PAGE_SLOT_CNT := by
  intro fuel
  induction fuel with
  | zero =>
    intro ws pid t1 _ hg
    simp [getValueLoop] at hg
  | succ n ih =>
    intro ws pid t1 hsame hg
    unfold getValueLoop at hg
    unfold insertLoop
    cases hp : t.pages pid with
    | none => rw [hp] at hg; simp at hg
    | some p =>
      rw [hp] at hg
      cases p with
      | leaf lp =>
        obtain ⟨lp1, h1, hs, _⟩ := samePages_leaf hsame hp
        rw [h1]
        simp only at hg ⊢
        obtain ⟨k, hidx, hk, hc⟩ := getValue_leaf_found hg
        rw [← leaf_KeyIndex_congr hs] at hidx hk
        rw [← leaf_KeyAt_congr hs] at hk
        have hsz : lp1.GetSize = lp.GetSize := by
          unfold LeafPage.GetSize
          rw [hs]
        rw [← hsz] at hidx
        rw [insertIntoLeaf_found ctx_root ws t1 pid lp1 key value hidx hk hc]
        exact ⟨_, rfl, samePages_setPageId hsame h1 pid, rfl, rfl, rfl, rfl, rfl⟩
      | internal ip =>
        obtain ⟨ip1, h1, hs⟩ := samePages_internal hsame hp
        rw [h1]
        simp only at hg ⊢
        have hs1 : ({ ip1 with page_id_ := pid } : InternalPage).slots = ip.slots := hs
        simp only [internal_KeyIndex_congr hs1, internal_ValueAt_congr hs1]
        cases hv : ip.ValueAt (ip.KeyIndex key) with
        | ok c =>
          rw [hv] at hg
          simp only [Outcome.ok_bind] at hg ⊢
          have hsame1 : SamePages t (t1.setPage pid (Page.internal { ip1 with page_id_ := pid })) :=
            samePages_setPageId hsame h1 pid
          obtain ⟨t2, h2, h3, h4, h5, h6, h7, h8⟩ := ih (pid :: ws) c _ hsame1 hg
          exact ⟨t2, h2, h3, h4, h5, h6, h7, h8⟩
        | ensureFailed => rw [hv] at hg; simp at hg
        | undefinedBehaviour => rw [hv] at hg; simp at hg
        | outOfFuel => rw [hv] at hg; simp at hg

/-- C10.  For every tree and every key that `GetValue` finds in it, `Insert`
of that key returns false and leaves the tree as it was: the root page id, the
allocation counter, and every page with its keys, values, size, maximal size
and sibling pointers are the same as before (only the page id stored in the
pages on the search path is rewritten by `SetPageId`), and `GetValue` still
yields the value stored before. -/
theorem Insert_duplicate_unchanged (t : BPlusTree) (fuel : Nat) (key : Int) (value v0 : RID)
    (hpresent : t.GetValue fuel key = Outcome.ok (some v0)) :
    ∃ t1, t.Insert fuel key value = Outcome.ok (false, t1) ∧
      t1.root_page_id_ = t.root_page_id_ ∧ t1.next_page_id_ = t.next_page_id_ ∧
      (∀ pid, (t1.pages pid).map (Page.withPageId 0) = (t.pages pid).map (Page.withPageId 0)) ∧
      t1.leaf_max_size_ = t.leaf_max_size_ ∧ t1.internal_max_size_ = t.internal_max_size_ ∧
      t1.LEAF_PAGE_SLOT_CNT = t.LEAF_PAGE_SLOT_CNT ∧
      t1.GetValue fuel key = Outcome.ok (some v0) := by
  unfold BPlusTree.GetValue at hpresent
  by_cases hroot : t.root_page_id_ = INVALID_PAGE_ID
  · rw [if_pos hroot] at hpresent
    simp at hpresent
  · rw [if_neg hroot] at hpresent
    obtain ⟨t2, h2, h3, h4, h5, h6, h7, h8⟩ :=
      insertLoop_of_found t.root_page_id_ key value v0 fuel [] t.root_page_id_ t
        (samePages_refl t) hpresent
    refine ⟨t2, ?_, h4, h5, h3, h6, h7, h8, ?_⟩
    · unfold BPlusTree.Insert
      rw [if_neg hroot]
      exact h2
    · unfold BPlusTree.GetValue
      rw [h4, if_neg hroot, getValueLoop_samePages h3]
      exact hpresent

/-- C10, applied: the tree whose root is the leaf page 1 with the keys 3 and 5;
inserting key 5 again is refused. -/
theorem Insert_duplicate_unchanged_witness :
    ∃ t1,
      BPlusTree.Insert
        { pages := fun q =>
            if q = 1 then
              some (Page.leaf { page_id_ := 1, max_size_ := 4,
                                slots := [(3, ⟨3, 0⟩), (5, ⟨5, 0⟩)],
                                next_page_id_ := INVALID_PAGE_ID,
                                prev_page_id_ := INVALID_PAGE_ID })
            else none,
          next_page_id_ := 2, root_page_id_ := 1, leaf_max_size_ := 4,
          internal_max_size_ := 5, LEAF_PAGE_SLOT_CNT := 255 } 3 5 ⟨9, 9⟩
        = Outcome.ok (false, t1) ∧
      t1.root_page_id_ = 1 ∧ t1.next_page_id_ = 2 ∧
      (∀ pid, (t1.pages pid).map (Page.withPageId 0)
        = ((if pid = 1 then
              some (Page.leaf { page_id_ := 1, max_size_ := 4,
                                slots := [(3, ⟨3, 0⟩), (5, ⟨5, 0⟩)],
                                next_page_id_ := INVALID_PAGE_ID,
                                prev_page_id_ := INVALID_PAGE_ID })
            else none : Option Page)).map (Page.withPageId 0)) ∧
      t1.leaf_max_size_ = 4 ∧ t1.internal_max_size_ = 5 ∧ t1.LEAF_PAGE_SLOT_CNT = 255 ∧
      t1.GetValue 3 5 = Outcome.ok (some ⟨5, 0⟩) :=
  Insert_duplicate_unchanged
    { pages := fun q =>
        if q = 1 then
          some (Page.leaf { page_id_ := 1, max_size_ := 4,
                            slots := [(3, ⟨3, 0⟩), (5, ⟨5, 0⟩)],
                            next_page_id_ := INVALID_PAGE_ID,
                            prev_page_id_ := INVALID_PAGE_ID })
        else none,
      next_page_id_ := 2, root_page_id_ := 1, leaf_max_size_ := 4,
      internal_max_size_ := 5, LEAF_PAGE_SLOT_CNT := 255 } 3 5 ⟨9, 9⟩ ⟨5, 0⟩ (by decide)

/-! ## B+Tree: the binary searches of the pages -/

theorem comparator_eq_zero {a b : Int} : comparator a b = 0 ↔ a = b := by
  unfold comparator
  by_cases h1 : a < b
  · rw [if_pos h1]
    constructor <;> intro h <;> omega
  · rw [if_neg h1]
    by_cases h2 : b < a
    · rw [if_pos h2]
      constructor <;> intro h <;> omega
    · rw [if_neg h2]
      constructor <;> intro h <;> omega

theorem comparator_neg {a b : Int} : comparator a b < 0 ↔ a < b := by
  unfold comparator
  by_cases h1 : a < b
  · rw [if_pos h1]
    constructor <;> intro h <;> omega
  · rw [if_neg h1]
    by_cases h2 : b < a
    · rw [if_pos h2]
      constructor <;> intro h <;> omega
    · rw [if_neg h2]
      constructor <;> intro h <;> omega

theorem comparator_pos {a b : Int} : comparator a b > 0 ↔ b < a := by
  unfold comparator
  by_cases h1 : a < b
  · rw [if_pos h1]
    constructor <;> intro h <;> omega
  · rw [if_neg h1]
    by_cases h2 : b < a
    · rw [if_pos h2]
      constructor <;> intro h <;> omega
    · rw [if_neg h2]
      constructor <;> intro h <;> omega

/-- The loop of the leaf `KeyIndex` on strictly increasing keys: the result `r`
splits the keys into those below the search key (slots before `r`) and those
not below it (slots from `r` on). -/
theorem leafKeyIndexLoop_spec (keys : List Int) (key : Int)
    (hs : ∀ i j : Nat, i < j → j < keys.length → keys.getD i 0 < keys.getD j 0) :
    ∀ (fuel : Nat) (left right : Int), 0 ≤ left → right < keys.length → left ≤ right + 1 →
      right + 1 - left ≤ fuel →
      (∀ i : Nat, (i : Int) < left → keys.getD i 0 < key) →
      (∀ i : Nat, right < (i : Int) → i < keys.length → key < keys.getD i 0) →
      left ≤ leafKeyIndexLoop keys key fuel left right ∧
      leafKeyIndexLoop keys key fuel left right ≤ right + 1 ∧
      (∀ i : Nat, (i : Int) < leafKeyIndexLoop keys key fuel left right → keys.getD i 0 < key) ∧
      (∀ i : Nat, leafKeyIndexLoop keys key fuel left right ≤ (i : Int) → i < keys.length →
        key ≤ keys.getD i 0) := by
  intro fuel
  induction fuel with
  | zero =>
    intro left right h0 hr hlr hf hlo hhi
    have : left = right + 1 := by omega
    simp only [leafKeyIndexLoop]
    refine ⟨le_refl _, hlr, hlo, ?_⟩
    intro i hi hn
    exact le_of_lt (hhi i (by omega) hn)
  | succ n ih =>
    intro left right h0 hr hlr hf hlo hhi
    unfold leafKeyIndexLoop
    by_cases hle : left ≤ right
    · rw [if_pos hle]
      have hmid1 : left ≤ (left + right) / 2 := by omega
      have hmid2 : (left + right) / 2 ≤ right := by omega
      have hmidn : ((left + right) / 2).toNat < keys.length := by omega
      have hmidc : (((left + right) / 2).toNat : Int) = (left + right) / 2 := by omega
      simp only
      by_cases hc0 : comparator (keys.getD ((left + right) / 2).toNat 0) key = 0
      · rw [if_pos hc0]
        have heq := comparator_eq_zero.mp hc0
        refine ⟨hmid1, by omega, ?_, ?_⟩
        · intro i hi
          rw [← heq]
          exact hs i _ (by omega) hmidn
        · intro i hi hn
          rw [← heq]
          by_cases hieq : i = ((left + right) / 2).toNat
          · rw [hieq]
          · exact le_of_lt (hs _ i (by omega) hn)
      · rw [if_neg hc0]
        by_cases hc1 : comparator (keys.getD ((left + right) / 2).toNat 0) key < 0
        · rw [if_pos hc1]
          have hlt := comparator_neg.mp hc1
          have := ih ((left + right) / 2 + 1) right (by omega) hr (by omega) (by omega)
            (by
              intro i hi
              by_cases hieq : i = ((left + right) / 2).toNat
              · rw [hieq]; exact hlt
              · exact lt_trans (hs i _ (by omega) hmidn) hlt)
            hhi
          exact ⟨by omega, this.2.1, this.2.2.1, this.2.2.2⟩
        · rw [if_neg hc1]
          have hgt : key < keys.getD ((left + right) / 2).toNat 0 := by
            have h1 : ¬ keys.getD ((left + right) / 2).toNat 0 < key :=
              fun h => hc1 (comparator_neg.mpr h)
            have h2 : ¬ keys.getD ((left + right) / 2).toNat 0 = key :=
              fun h => hc0 (comparator_eq_zero.mpr h)
            omega
          have := ih left ((left + right) / 2 - 1) h0 (by omega) (by omega) (by omega) hlo
            (by
              intro i hi hn
              by_cases hieq : i = ((left + right) / 2).toNat
              · rw [hieq]; exact hgt
              · exact lt_trans hgt (hs _ i (by omega) hn))
          exact ⟨this.1, by omega, this.2.2.1, this.2.2.2⟩
    · rw [if_neg hle]
      refine ⟨le_refl _, hlr, hlo, ?_⟩
      intro i hi hn
      exact le_of_lt (hhi i (by omega) hn)

/-- The loop of the internal `KeyIndex` on strictly increasing separator keys
(slots `[1, size)`): the result `r` is the last slot whose key is at most the
search key, or 0. -/
theorem internalKeyIndexLoop_spec (keys : List Int) (key : Int)
    (hs : ∀ i j : Nat, 1 ≤ i → i < j → j < keys.length → keys.getD i 0 < keys.getD j 0) :
    ∀ (fuel : Nat) (left right : Int), 1 ≤ left → right < keys.length → left ≤ right + 1 →
      right + 1 - left ≤ fuel →
      (∀ i : Nat, 1 ≤ i → (i : Int) < left → keys.getD i 0 ≤ key) →
      (∀ i : Nat, right < (i : Int) → i < keys.length → key < keys.getD i 0) →
      left - 1 ≤ internalKeyIndexLoop keys key fuel left right ∧
      internalKeyIndexLoop keys key fuel left right ≤ right ∧
      (∀ i : Nat, 1 ≤ i → (i : Int) ≤ internalKeyIndexLoop keys key fuel left right →
        keys.getD i 0 ≤ key) ∧
      (∀ i : Nat, internalKeyIndexLoop keys key fuel left right < (i : Int) → i < keys.length →
        key < keys.getD i 0) := by
  intro fuel
  induction fuel with
  | zero =>
    intro left right h0 hr hlr hf hlo hhi
    have : left = right + 1 := by omega
    simp only [internalKeyIndexLoop]
    refine ⟨le_refl _, by omega, ?_, ?_⟩
    · intro i h1 hi
      exact hlo i h1 (by omega)
    · intro i hi hn
      exact hhi i (by omega) hn
  | succ n ih =>
    intro left right h0 hr hlr hf hlo hhi
    unfold internalKeyIndexLoop
    by_cases hle : left ≤ right
    · rw [if_pos hle]
      have hmid1 : left ≤ (left + right) / 2 := by omega
      have hmid2 : (left + right) / 2 ≤ right := by omega
      have hmidn : ((left + right) / 2).toNat < keys.length := by omega
      have hmid0 : 1 ≤ ((left + right) / 2).toNat := by omega
      simp only
      by_cases hc1 : comparator (keys.getD ((left + right) / 2).toNat 0) key < 0
      · rw [if_pos hc1]
        have hlt := comparator_neg.mp hc1
        have := ih ((left + right) / 2 + 1) right (by omega) hr (by omega) (by omega)
          (by
            intro i h1 hi
            by_cases hieq : i = ((left + right) / 2).toNat
            · rw [hieq]; exact le_of_lt hlt
            · exact le_of_lt (lt_trans (hs i _ h1 (by omega) hmidn) hlt))
          hhi
        exact ⟨by omega, this.2.1, this.2.2.1, this.2.2.2⟩
      · rw [if_neg hc1]
        by_cases hc2 : comparator (keys.getD ((left + right) / 2).toNat 0) key > 0
        · rw [if_pos hc2]
          have hgt := comparator_pos.mp hc2
          have := ih left ((left + right) / 2 - 1) h0 (by omega) (by omega) (by omega) hlo
            (by
              intro i hi hn
              by_cases hieq : i = ((left + right) / 2).toNat
              · rw [hieq]; exact hgt
              · exact lt_trans hgt (hs _ i hmid0 (by omega) hn))
          exact ⟨this.1, by omega, this.2.2.1, this.2.2.2⟩
        · rw [if_neg hc2]
          have heq : keys.getD ((left + right) / 2).toNat 0 = key := by
            have h1 : ¬ keys.getD ((left + right) / 2).toNat 0 < key :=
              fun h => hc1 (comparator_neg.mpr h)
            have h2 : ¬ key < keys.getD ((left + right) / 2).toNat 0 :=
              fun h => hc2 (comparator_pos.mpr h)
            omega
          refine ⟨by omega, hmid2, ?_, ?_⟩
          · intro i h1 hi
            rw [← heq]
            by_cases hieq : i = ((left + right) / 2).toNat
            · rw [hieq]
            · exact le_of_lt (hs i _ h1 (by omega) hmidn)
          · intro i hi hn
            rw [← heq]
            exact hs _ i hmid0 (by omega) hn
    · rw [if_neg hle]
      refine ⟨le_refl _, by omega, ?_, ?_⟩
      · intro i h1 hi
        exact hlo i h1 (by omega)
      · intro i hi hn
        exact hhi i (by omega) hn

theorem sortedKeys_getD {α : Type} {slots : List (Int × α)} (h : SortedKeys slots) :
    ∀ i j : Nat, i < j → j < (slots.map Prod.fst).length →
      (slots.map Prod.fst).getD i 0 < (slots.map Prod.fst).getD j 0 := by
  intro i j hij hj
  rw [List.length_map] at hj
  have hi : i < slots.length := by omega
  rw [List.getD_eq_getElem _ _ (by rw [List.length_map]; exact hi),
    List.getD_eq_getElem _ _ (by rw [List.length_map]; exact hj)]
  simp only [List.getElem_map]
  exact (List.pairwise_iff_getElem.mp h) i j hi hj hij

/-- The leaf `KeyIndex` on sorted slots returns the number of slots whose key
is below the search key. -/
theorem leaf_KeyIndex_split (lp : LeafPage) (key : Int) (hs : SortedKeys lp.slots) :
    ∃ r : Nat, lp.KeyIndex key = (r : Int) ∧ r ≤ lp.slots.length ∧
      (∀ s ∈ lp.slots.take r, s.1 < key) ∧ (∀ s ∈ lp.slots.drop r, key ≤ s.1) := by
  have hspec : 0 ≤ lp.KeyIndex key ∧ lp.KeyIndex key ≤ lp.GetSize - 1 + 1 ∧
      (∀ i : Nat, (i : Int) < lp.KeyIndex key → (lp.slots.map Prod.fst).getD i 0 < key) ∧
      (∀ i : Nat, lp.KeyIndex key ≤ (i : Int) → i < (lp.slots.map Prod.fst).length →
        key ≤ (lp.slots.map Prod.fst).getD i 0) :=
    leafKeyIndexLoop_spec (lp.slots.map Prod.fst) key (sortedKeys_getD hs)
    (lp.slots.length + 1) 0 (lp.GetSize - 1) (le_refl _)
    (by unfold LeafPage.GetSize; rw [List.length_map]; omega)
    (by unfold LeafPage.GetSize; omega)
    (by unfold LeafPage.GetSize; push_cast; omega)
    (by intro i hi; omega)
    (by
      intro i hi hn
      unfold LeafPage.GetSize at hi
      rw [List.length_map] at hn
      omega)
  obtain ⟨h1, h2, h3, h4⟩ := hspec
  have hr0 : 0 ≤ lp.KeyIndex key := h1
  have hrn : lp.KeyIndex key ≤ lp.slots.length := by
    unfold LeafPage.GetSize at h2
    omega
  refine ⟨(lp.KeyIndex key).toNat, by omega, by omega, ?_, ?_⟩
  · intro s hsm
    obtain ⟨i, hm, hx⟩ := List.mem_take_iff_getElem.mp hsm
    have hi : i < lp.slots.length := by omega
    have := h3 i (by omega)
    rw [List.getD_eq_getElem _ _ (by rw [List.length_map]; exact hi)] at this
    simp only [List.getElem_map] at this
    rw [← hx]
    exact this
  · intro s hsm
    obtain ⟨i, hm, hx⟩ := List.mem_drop_iff_getElem.mp hsm
    have hi : (lp.KeyIndex key).toNat + i < lp.slots.length := by omega
    have := h4 ((lp.KeyIndex key).toNat + i) (by omega)
      (by rw [List.length_map]; exact hi)
    rw [List.getD_eq_getElem _ _ (by rw [List.length_map]; exact hi)] at this
    simp only [List.getElem_map] at this
    rw [← hx]
    exact this

theorem sortedKeys_append {α : Type} {A B : List (Int × α)} :
    SortedKeys (A ++ B) ↔ SortedKeys A ∧ SortedKeys B ∧ ∀ a ∈ A, ∀ b ∈ B, a.1 < b.1 := by
  unfold SortedKeys
  exact List.pairwise_append

theorem sortedKeys_cons {α : Type} {a : Int × α} {B : List (Int × α)} :
    SortedKeys (a :: B) ↔ (∀ b ∈ B, a.1 < b.1) ∧ SortedKeys B := by
  unfold SortedKeys
  exact List.pairwise_cons

/-- The leaf `KeyIndex` on sorted slots, as a decomposition of the slots: the
slots before the returned index have keys below the search key; the slot at the
index, if there is one, has a key that is not below it. -/
theorem leaf_KeyIndex_cases (lp : LeafPage) (key : Int) (hs : SortedKeys lp.slots) :
    ∃ A B, lp.slots = A ++ B ∧ lp.KeyIndex key = (A.length : Int) ∧ (∀ s ∈ A, s.1 < key) ∧
      (B = [] ∨ ∃ k1 v1 B1, B = (k1, v1) :: B1 ∧ key ≤ k1 ∧ ∀ s ∈ B1, k1 < s.1) := by
  obtain ⟨r, hr, hrn, hA, hB⟩ := leaf_KeyIndex_split lp key hs
  refine ⟨lp.slots.take r, lp.slots.drop r, (List.take_append_drop r lp.slots).symm, ?_, hA, ?_⟩
  · rw [hr, List.length_take]
    congr 1
    omega
  · cases hd : lp.slots.drop r with
    | nil => exact Or.inl rfl
    | cons s B1 =>
      refine Or.inr ⟨s.1, s.2, B1, rfl, ?_, ?_⟩
      · exact hB s (by rw [hd]; exact List.mem_cons_self _ _)
      · have hsorted : SortedKeys (lp.slots.take r ++ lp.slots.drop r) := by
          rw [List.take_append_drop]
          exact hs
        rw [hd] at hsorted
        exact (sortedKeys_cons.mp (sortedKeys_append.mp hsorted).2.1).1

theorem leaf_KeyAt_append (lp : LeafPage) {A B1 : List (Int × RID)} {k1 : Int} {v1 : RID}
    (h : lp.slots = A ++ (k1, v1) :: B1) :
    lp.KeyAt (A.length : Int) = Outcome.ok k1 ∧ lp.ValueAt (A.length : Int) = Outcome.ok v1 ∧
      (A.length : Int) < lp.GetSize := by
  have hlt : (A.length : Int) < lp.GetSize := by
    unfold LeafPage.GetSize
    rw [h, List.length_append, List.length_cons]
    push_cast
    omega
  have hget : lp.slots.get? (A.length : Int).toNat = some (k1, v1) := by
    rw [h]
    simp only [Int.toNat_ofNat, List.get?_eq_getElem?]
    rw [List.getElem?_append_right (le_refl _)]
    simp
  have h0 : (0 : Int) ≤ (A.length : Int) := by omega
  unfold LeafPage.KeyAt LeafPage.ValueAt
  rw [if_pos ⟨h0, hlt⟩, if_pos ⟨h0, hlt⟩, hget]
  exact ⟨rfl, rfl, hlt⟩

theorem insertSlot_append {α : Type} (A B : List α) (x : α) :
    insertSlot (A ++ B) A.length x = A ++ x :: B := by
  unfold insertSlot
  rw [List.take_left', List.drop_left'] <;> rfl

theorem eraseIdx_append_cons {α : Type} (A B : List α) (x : α) :
    (A ++ x :: B).eraseIdx A.length = A ++ B := by
  induction A with
  | nil => rfl
  | cons a A ih => simp [List.eraseIdx, ih]

/-! ## B+Tree: basic facts about the represented tree -/

theorem kidsOK_append (R : Kid → Option Int → Int → Prop) (pre post : List Kid)
    (hi : Option Int) (nxt : Int) :
    KidsOK R (pre ++ post) hi nxt ↔
      KidsOK R pre (nextLo post hi) (nextFirst post nxt) ∧ KidsOK R post hi nxt := by
  induction pre with
  | nil => simp [KidsOK]
  | cons kid rest ih =>
    cases rest with
    | nil =>
      simp only [List.cons_append, List.nil_append, KidsOK, and_true]
      cases post <;> simp [KidsOK, nextLo, nextFirst]
    | cons kid2 rest2 =>
      simp only [List.cons_append, KidsOK] at ih ⊢
      rw [ih]
      simp only [nextLo, nextFirst]
      tauto

theorem kidsOK_mono {R R1 : Kid → Option Int → Int → Prop} {kids : List Kid} {hi : Option Int}
    {nxt : Int} (hR : ∀ kid ∈ kids, ∀ hi1 nxt1, R kid hi1 nxt1 → R1 kid hi1 nxt1)
    (h : KidsOK R kids hi nxt) : KidsOK R1 kids hi nxt := by
  induction kids with
  | nil => trivial
  | cons kid rest ih =>
    obtain ⟨h1, h2⟩ := h
    exact ⟨hR kid (List.mem_cons_self _ _) _ _ h1,
      ih (fun k hk => hR k (List.mem_cons_of_mem _ hk)) h2⟩

/-- The page id of a represented tree is among its pages. -/
theorem rep_pid_mem {L I : Nat} {pages : Int → Option Page} {h m : Nat} {pid : Int}
    {lo hi : Option Int} {E : Int → RID → Prop} {ps : List Int} {first nxt : Int}
    (hrep : Rep L I pages h m pid lo hi E ps first nxt) : pid ∈ ps := by
  cases h with
  | zero =>
    obtain ⟨lp, _, _, _, _, _, _, hps, _⟩ := hrep
    rw [hps]
    exact List.mem_singleton_self _
  | succ n =>
    obtain ⟨ip, kids, _, _, _, _, _, _, _, hps, _⟩ := hrep
    rw [hps]
    exact List.mem_cons_self _ _

/-- The root of a represented tree may have fewer children. -/
theorem rep_mono {L I : Nat} {pages : Int → Option Page} {h m m1 : Nat} {pid : Int}
    {lo hi : Option Int} {E : Int → RID → Prop} {ps : List Int} {first nxt : Int}
    (hm : m1 ≤ m) (hrep : Rep L I pages h m pid lo hi E ps first nxt) :
    Rep L I pages h m1 pid lo hi E ps first nxt := by
  cases h with
  | zero =>
    obtain ⟨lp, h1, h2, h3, h4, h5, h6, h7, h8, h9, h10, h11⟩ := hrep
    exact ⟨lp, h1, h2, h3, h4, h5, h6, h7, h8, h9, h10, by omega⟩
  | succ n =>
    obtain ⟨ip, kids, h1, h2, h3, h4⟩ := hrep
    exact ⟨ip, kids, h1, h2, by omega, h4⟩

/-- A represented tree depends only on its own pages, and on them only up to
the previous-leaf pointers. -/
theorem rep_frame {L I : Nat} {pages pages1 : Int → Option Page} :
    ∀ {h m : Nat} {pid : Int} {lo hi : Option Int} {E : Int → RID → Prop} {ps : List Int}
      {first nxt : Int},
      (∀ p ∈ ps, (pages1 p).map Page.core = (pages p).map Page.core) →
      Rep L I pages h m pid lo hi E ps first nxt →
      Rep L I pages1 h m pid lo hi E ps first nxt := by
  intro h
  induction h with
  | zero =>
    intro m pid lo hi E ps first nxt hsame hrep
    obtain ⟨lp, h1, h2, h3, h4, h5, h6, h7, h8, h9, h10, h11⟩ := hrep
    have hp := hsame pid (by rw [h7]; exact List.mem_singleton_self _)
    rw [h1] at hp
    cases hp1 : pages1 pid with
    | none => rw [hp1] at hp; simp at hp
    | some p1 =>
      rw [hp1] at hp
      cases p1 with
      | internal ip1 => simp [Page.core] at hp
      | leaf lp1 =>
        simp only [Option.map_some', Page.core, Option.some.injEq, Page.leaf.injEq,
          LeafPage.mk.injEq, true_and, and_true] at hp
        obtain ⟨_, e1, e2, e3⟩ := hp
        exact ⟨lp1, hp1, by rw [e1]; exact h2, by rw [e2]; exact h3, by rw [e2]; exact h4,
          by rw [e2]; exact h5, by rw [e2]; exact h6, h7, h8, by rw [e3]; exact h9, h10,
          by rw [e2]; exact h11⟩
  | succ n ih =>
    intro m pid lo hi E ps first nxt hsame hrep
    obtain ⟨ip, kids, h1, h2, h3, h4, h5, h6, h7, h8, h9, h10⟩ := hrep
    have hp := hsame pid (by rw [h8]; exact List.mem_cons_self _ _)
    rw [h1] at hp
    cases hp1 : pages1 pid with
    | none => rw [hp1] at hp; simp at hp
    | some p1 =>
      rw [hp1] at hp
      cases p1 with
      | leaf lp1 => simp [Page.core] at hp
      | internal ip1 =>
        simp only [Option.map_some', Page.core, Option.some.injEq, Page.internal.injEq] at hp
        subst hp
        refine ⟨ip1, kids, hp1, h2, h3, h4, h5, ?_, h7, h8, h9, h10⟩
        apply kidsOK_mono _ h6
        intro kid hkid hi1 nxt1 hr
        apply ih _ hr
        intro p hp2
        apply hsame
        rw [h8]
        exact List.mem_cons_of_mem _ (List.mem_flatMap.mpr ⟨kid, hkid, hp2⟩)

/-! ## B+Tree: order of the separators along the children -/

theorem nextLo_append_cons (pre : List Kid) (kid : Kid) (post : List Kid) (hi : Option Int) :
    nextLo (pre ++ kid :: post) hi = nextLo (pre ++ [kid]) hi := by
  cases pre <;> rfl

/-- Along a chain of children, the lower bound of the first child is at most
the lower bound of any later child. -/
theorem chain_lo_le {R : Kid → Option Int → Int → Prop}
    (hRo : ∀ kid hi1 nxt1, R kid hi1 nxt1 → boundsOrdered kid.lo hi1) :
    ∀ (pre : List Kid) (kid : Kid) (post : List Kid) (hi : Option Int) (nxt : Int),
      KidsOK R (pre ++ kid :: post) hi nxt →
      (∀ x ∈ (pre ++ kid :: post).tail, ∃ l, x.lo = some l) →
      ∀ k, aboveLo kid.lo k → aboveLo (nextLo (pre ++ kid :: post) hi) k := by
  intro pre
  induction pre with
  | nil =>
    intro kid post hi nxt _ _ k hk
    exact hk
  | cons kid0 pre1 ih =>
    intro kid post hi nxt hok hsome k hk
    simp only [List.cons_append, KidsOK] at hok
    obtain ⟨h0, hrest⟩ := hok
    have hsome1 : ∀ x ∈ (pre1 ++ kid :: post).tail, ∃ l, x.lo = some l := by
      intro x hx
      apply hsome
      simp only [List.cons_append, List.tail_cons]
      exact List.mem_of_mem_tail hx
    have h1 := ih kid post hi nxt hrest hsome1 k hk
    have hord := hRo _ _ _ h0
    intro l hl
    simp only [List.cons_append, nextLo] at hl
    have hne : ∃ l1, nextLo (pre1 ++ kid :: post) hi = some l1 := by
      cases hp : pre1 ++ kid :: post with
      | nil => simp at hp
      | cons y ys =>
        simp only [nextLo]
        apply hsome
        simp only [List.cons_append, List.tail_cons, hp]
        exact List.mem_cons_self _ _
    obtain ⟨l1, hl1⟩ := hne
    have := hord l l1 hl hl1
    have := h1 l1 hl1
    omega

/-- Along a chain of children all of which carry a separator, the lower bound
of the first child is below the upper bound of the parent whenever a key is. -/
theorem chain_hi_le {R : Kid → Option Int → Int → Prop}
    (hRo : ∀ kid hi1 nxt1, R kid hi1 nxt1 → boundsOrdered kid.lo hi1) :
    ∀ (post : List Kid) (hi : Option Int) (nxt : Int), KidsOK R post hi nxt →
      (∀ x ∈ post, ∃ l, x.lo = some l) →
      ∀ k, belowHi (nextLo post hi) k → belowHi hi k := by
  intro post
  induction post with
  | nil =>
    intro hi nxt _ _ k hk
    exact hk
  | cons kid rest ih =>
    intro hi nxt hok hsome k hk
    obtain ⟨h0, hrest⟩ := hok
    obtain ⟨l, hl⟩ := hsome kid (List.mem_cons_self _ _)
    have hkl : k < l := hk l hl
    have hord := hRo _ _ _ h0
    apply ih hi nxt hrest (fun x hx => hsome x (List.mem_cons_of_mem _ hx))
    intro l1 hl1
    have := hord l l1 hl hl1
    omega

/-- The lower bound of the first child is below the upper bound of the
parent. -/
theorem chain_ordered {R : Kid → Option Int → Int → Prop}
    (hRo : ∀ kid hi1 nxt1, R kid hi1 nxt1 → boundsOrdered kid.lo hi1)
    (kid : Kid) (rest : List Kid) (hi : Option Int) (nxt : Int)
    (hok : KidsOK R (kid :: rest) hi nxt) (hsome : ∀ x ∈ rest, ∃ l, x.lo = some l) :
    boundsOrdered kid.lo hi := by
  obtain ⟨h0, hrest⟩ := hok
  intro l h hl hh
  have hord := hRo _ _ _ h0
  cases rest with
  | nil => exact hord l h hl hh
  | cons kid1 rest1 =>
    obtain ⟨l1, hl1⟩ := hsome kid1 (List.mem_cons_self _ _)
    have h1 : l < l1 := hord l l1 hl hl1
    have h2 := chain_hi_le hRo (kid1 :: rest1) hi nxt hrest hsome l
      (by
        intro l2 hl2
        simp only [nextLo] at hl2
        rw [hl1] at hl2
        cases hl2
        exact h1)
    exact h2 h hh

/-- The children after the first one carry their separator key as lower
bound. -/
theorem kids_tail_lo_some {kids : List Kid} {lo : Option Int} {slots : List (Int × Int)}
    (hlo : kids.map Kid.lo = lo :: (slots.drop 1).map (fun s => some s.1)) :
    ∀ x ∈ kids.tail, ∃ l, x.lo = some l := by
  intro x hx
  cases kids with
  | nil => simp at hx
  | cons kid rest =>
    simp only [List.map_cons, List.cons.injEq] at hlo
    simp only [List.tail_cons] at hx
    have : x.lo ∈ rest.map Kid.lo := List.mem_map_of_mem _ hx
    rw [hlo.2] at this
    obtain ⟨s, _, hs⟩ := List.mem_map.mp this
    exact ⟨s.1, hs.symm⟩

/-- The bounds of a represented tree are ordered. -/
theorem rep_ordered {L I : Nat} {pages : Int → Option Page} :
    ∀ {h m : Nat} {pid : Int} {lo hi : Option Int} {E : Int → RID → Prop} {ps : List Int}
      {first nxt : Int}, Rep L I pages h m pid lo hi E ps first nxt → boundsOrdered lo hi := by
  intro h
  induction h with
  | zero =>
    intro m pid lo hi E ps first nxt hrep
    obtain ⟨lp, _, _, _, _, _, _, _, _, _, h10, _⟩ := hrep
    exact h10
  | succ n ih =>
    intro m pid lo hi E ps first nxt hrep
    obtain ⟨ip, kids, _, _, _, _, hlo, hok, _⟩ := hrep
    have hsome := kids_tail_lo_some hlo
    cases kids with
    | nil => simp at hlo
    | cons kid rest =>
      simp only [List.map_cons, List.cons.injEq] at hlo
      rw [← hlo.1]
      exact chain_ordered (fun kid hi1 nxt1 hr => ih hr) kid rest hi nxt hok hsome

/-- The entries of a represented tree lie within its bounds. -/
theorem rep_bounds {L I : Nat} {pages : Int → Option Page} :
    ∀ {h m : Nat} {pid : Int} {lo hi : Option Int} {E : Int → RID → Prop} {ps : List Int}
      {first nxt : Int}, Rep L I pages h m pid lo hi E ps first nxt →
      ∀ k v, E k v → aboveLo lo k ∧ belowHi hi k := by
  intro h
  induction h with
  | zero =>
    intro m pid lo hi E ps first nxt hrep k v hE
    obtain ⟨lp, _, _, _, _, h5, h6, _⟩ := hrep
    exact h5 (k, v) ((h6 k v).mp hE)
  | succ n ih =>
    intro m pid lo hi E ps first nxt hrep k v hE
    obtain ⟨ip, kids, _, _, _, _, hlo, hok, hE1, _⟩ := hrep
    obtain ⟨kid, hkid, hkE⟩ := (hE1 k v).mp hE
    obtain ⟨pre, post, hsplit⟩ := List.append_of_mem hkid
    have hsome := kids_tail_lo_some hlo
    have hRo : ∀ (kid : Kid) (hi1 : Option Int) (nxt1 : Int),
        Rep L I pages n 2 kid.pid kid.lo hi1 kid.E kid.ps kid.first nxt1 →
        boundsOrdered kid.lo hi1 := fun kid hi1 nxt1 hr => rep_ordered hr
    subst hsplit
    have hkidrep := ((kidsOK_append _ pre (kid :: post) hi nxt).mp hok).2.1
    obtain ⟨hb1, hb2⟩ := ih hkidrep k v hkE
    constructor
    · have := chain_lo_le hRo pre kid post hi nxt hok hsome k hb1
      have hhead : nextLo (pre ++ kid :: post) hi = lo := by
        cases pre with
        | nil =>
          simp only [List.nil_append, List.map_cons, List.cons.injEq] at hlo
          exact hlo.1
        | cons kid0 pre1 =>
          simp only [List.cons_append, List.map_cons, List.cons.injEq] at hlo
          exact hlo.1
      rw [hhead] at this
      exact this
    · have hpost := ((kidsOK_append _ pre (kid :: post) hi nxt).mp hok).2.2
      apply chain_hi_le hRo post hi nxt hpost _ k hb2
      intro x hx
      apply hsome
      cases pre with
      | nil => simpa using hx
      | cons kid0 pre1 =>
        simp only [List.cons_append, List.tail_cons]
        exact List.mem_append_right _ (List.mem_cons_of_mem _ hx)

/-! ## B+Tree: which child a key belongs to -/

theorem kidsOK_tail {R : Kid → Option Int → Int → Prop} {kid : Kid} {rest : List Kid}
    {hi : Option Int} {nxt : Int} (h : KidsOK R (kid :: rest) hi nxt) : KidsOK R rest hi nxt :=
  h.2

/-- The separators along a chain of children are strictly increasing. -/
theorem chain_pairwise {R : Kid → Option Int → Int → Prop}
    (hRo : ∀ kid hi1 nxt1, R kid hi1 nxt1 → boundsOrdered kid.lo hi1) :
    ∀ (l : List Kid) (hi : Option Int) (nxt : Int), KidsOK R l hi nxt →
      (∀ x ∈ l, ∃ v, x.lo = some v) →
      l.Pairwise (fun a b => ∀ la lb, a.lo = some la → b.lo = some lb → la < lb) := by
  intro l
  induction l with
  | nil => intro _ _ _ _; exact List.Pairwise.nil
  | cons kid rest ih =>
    intro hi nxt hok hsome
    refine List.Pairwise.cons ?_ (ih hi nxt hok.2 (fun x hx => hsome x (List.mem_cons_of_mem _ hx)))
    intro b hb la lb hla hlb
    obtain ⟨pre, post, hsplit⟩ := List.append_of_mem hb
    have hord := hRo _ _ _ hok.1
    have hrest := hok.2
    rw [hsplit] at hrest hord
    have hle := chain_lo_le hRo pre b post hi nxt hrest
      (by
        intro x hx
        apply hsome
        rw [hsplit]
        exact List.mem_cons_of_mem _ (List.mem_of_mem_tail hx))
      lb (by intro l hl; rw [hlb] at hl; cases hl; exact le_refl _)
    have hne : ∃ l1, nextLo (pre ++ b :: post) hi = some l1 := by
      cases pre with
      | nil => exact ⟨lb, by simpa [nextLo] using hlb⟩
      | cons y ys =>
        simp only [List.cons_append, nextLo]
        apply hsome
        rw [hsplit]
        simp
    obtain ⟨l1, hl1⟩ := hne
    have h1 := hord la l1 hla hl1
    have h2 := hle l1 hl1
    omega

theorem pairwise_drop_one_getD {keys : List Int} (h : (keys.drop 1).Pairwise (· < ·)) :
    ∀ i j : Nat, 1 ≤ i → i < j → j < keys.length → keys.getD i 0 < keys.getD j 0 := by
  intro i j h1 hij hj
  have hi : i < keys.length := by omega
  rw [List.getD_eq_getElem _ _ hi, List.getD_eq_getElem _ _ hj]
  have hlen : (keys.drop 1).length = keys.length - 1 := List.length_drop 1 keys
  have := (List.pairwise_iff_getElem.mp h) (i - 1) (j - 1) (by omega) (by omega) (by omega)
  simp only [List.getElem_drop] at this
  have e1 : 1 + (i - 1) = i := by omega
  have e2 : 1 + (j - 1) = j := by omega
  simp only [e1, e2] at this
  exact this

/-- The internal `KeyIndex` on a page with at least one slot and strictly
increasing separators: the slots `[1, r]` have keys at most the search key, the
slots behind `r` have greater keys. -/
theorem internal_KeyIndex_split (ip : InternalPage) (key : Int) (hn : 1 ≤ ip.slots.length)
    (hs : ((ip.slots.map Prod.fst).drop 1).Pairwise (· < ·)) :
    ∃ r : Nat, ip.KeyIndex key = (r : Int) ∧ r < ip.slots.length ∧
      (∀ s ∈ (ip.slots.take (r + 1)).drop 1, s.1 ≤ key) ∧
      (∀ s ∈ ip.slots.drop (r + 1), key < s.1) := by
  have hspec : 1 - 1 ≤ ip.KeyIndex key ∧ ip.KeyIndex key ≤ ip.GetSize - 1 ∧
      (∀ i : Nat, 1 ≤ i → (i : Int) ≤ ip.KeyIndex key → (ip.slots.map Prod.fst).getD i 0 ≤ key) ∧
      (∀ i : Nat, ip.KeyIndex key < (i : Int) → i < (ip.slots.map Prod.fst).length →
        key < (ip.slots.map Prod.fst).getD i 0) :=
    internalKeyIndexLoop_spec (ip.slots.map Prod.fst) key (pairwise_drop_one_getD hs)
      (ip.slots.length + 1) 1 (ip.GetSize - 1) (le_refl _)
      (by unfold InternalPage.GetSize; rw [List.length_map]; omega)
      (by unfold InternalPage.GetSize; omega)
      (by unfold InternalPage.GetSize; push_cast; omega)
      (by intro i h1 hi; omega)
      (by
        intro i hi hn
        unfold InternalPage.GetSize at hi
        rw [List.length_map] at hn
        omega)
  obtain ⟨h1, h2, h3, h4⟩ := hspec
  unfold InternalPage.GetSize at h2
  refine ⟨(ip.KeyIndex key).toNat, by omega, by omega, ?_, ?_⟩
  · intro s hsm
    obtain ⟨i, hm, hx⟩ := List.mem_drop_iff_getElem.mp hsm
    rw [List.length_take] at hm
    have hi : 1 + i < ip.slots.length := by omega
    have := h3 (1 + i) (by omega) (by omega)
    rw [List.getD_eq_getElem _ _ (by rw [List.length_map]; exact hi)] at this
    simp only [List.getElem_map] at this
    rw [← hx, List.getElem_take]
    exact this
  · intro s hsm
    obtain ⟨i, hm, hx⟩ := List.mem_drop_iff_getElem.mp hsm
    have hi : (ip.KeyIndex key).toNat + 1 + i < ip.slots.length := by omega
    have := h4 ((ip.KeyIndex key).toNat + 1 + i) (by omega)
      (by rw [List.length_map]; exact hi)
    rw [List.getD_eq_getElem _ _ (by rw [List.length_map]; exact hi)] at this
    simp only [List.getElem_map] at this
    rw [← hx]
    exact this

/-! ## B+Tree: the child that a descent takes -/

theorem kids_length_eq {kids : List Kid} {slots : List (Int × Int)}
    (hpid : kids.map Kid.pid = slots.map Prod.snd) : kids.length = slots.length := by
  have := congrArg List.length hpid
  simpa using this

theorem kids_pid_getElem {kids : List Kid} {slots : List (Int × Int)}
    (hpid : kids.map Kid.pid = slots.map Prod.snd) (i : Nat) (hk : i < kids.length)
    (hs : i < slots.length) : kids[i].pid = slots[i].2 := by
  have := congrArg (fun l => l[i]?) hpid
  simp only [List.getElem?_map, List.getElem?_eq_getElem hk, List.getElem?_eq_getElem hs,
    Option.map_some'] at this
  exact Option.some.inj this

theorem kids_lo_getElem {kids : List Kid} {slots : List (Int × Int)} {lo : Option Int}
    (hlo : kids.map Kid.lo = lo :: (slots.drop 1).map (fun s => some s.1)) (i : Nat)
    (hk : i + 1 < kids.length) (hs : i + 1 < slots.length) :
    kids[i + 1].lo = some slots[i + 1].1 := by
  have := congrArg (fun l => l[i + 1]?) hlo
  simp only [List.getElem?_map, List.getElem?_eq_getElem hk, List.getElem?_cons_succ,
    Option.map_some', List.getElem?_drop] at this
  have e : 1 + i = i + 1 := by omega
  rw [e, List.getElem?_eq_getElem hs] at this
  simpa using this

theorem kids_lo_head {kids : List Kid} {slots : List (Int × Int)} {lo : Option Int}
    (hlo : kids.map Kid.lo = lo :: (slots.drop 1).map (fun s => some s.1))
    (hk : 0 < kids.length) : kids[0].lo = lo := by
  have := congrArg (fun l => l[0]?) hlo
  simp only [List.getElem?_map, List.getElem?_eq_getElem hk, List.getElem?_cons_zero,
    Option.map_some'] at this
  exact Option.some.inj this

theorem kids_ne_nil {kids : List Kid} {slots : List (Int × Int)} {lo : Option Int}
    (hlo : kids.map Kid.lo = lo :: (slots.drop 1).map (fun s => some s.1)) :
    0 < kids.length := by
  cases kids with
  | nil => simp at hlo
  | cons a l => simp

/-- The separators of an internal page with a chain of children are strictly
increasing. -/
theorem separators_sorted {R : Kid → Option Int → Int → Prop}
    (hRo : ∀ kid hi1 nxt1, R kid hi1 nxt1 → boundsOrdered kid.lo hi1)
    {kids : List Kid} {slots : List (Int × Int)} {lo hi : Option Int} {nxt : Int}
    (hlo : kids.map Kid.lo = lo :: (slots.drop 1).map (fun s => some s.1))
    (hok : KidsOK R kids hi nxt) :
    ((slots.map Prod.fst).drop 1).Pairwise (· < ·) := by
  cases kids with
  | nil => simp at hlo
  | cons kid0 rest =>
    simp only [List.map_cons, List.cons.injEq] at hlo
    have hsome : ∀ x ∈ rest, ∃ v, x.lo = some v := by
      intro x hx
      have : x.lo ∈ rest.map Kid.lo := List.mem_map_of_mem _ hx
      rw [hlo.2] at this
      obtain ⟨s, _, hs⟩ := List.mem_map.mp this
      exact ⟨s.1, hs.symm⟩
    have hp := chain_pairwise hRo rest hi nxt hok.2 hsome
    have hp2 : (rest.map Kid.lo).Pairwise
        (fun x y => ∀ la lb, x = some la → y = some lb → la < lb) :=
      List.pairwise_map.mpr hp
    rw [hlo.2] at hp2
    have hp3 := List.pairwise_map.mp hp2
    rw [← List.map_drop]
    apply List.pairwise_map.mpr
    exact hp3.imp (fun h => h _ _ rfl rfl)

theorem select_kid {R : Kid → Option Int → Int → Prop}
    (hRo : ∀ kid hi1 nxt1, R kid hi1 nxt1 → boundsOrdered kid.lo hi1)
    (ip : InternalPage) {kids : List Kid} {lo hi : Option Int} {nxt : Int}
    (hpid : kids.map Kid.pid = ip.slots.map Prod.snd)
    (hlo : kids.map Kid.lo = lo :: (ip.slots.drop 1).map (fun s => some s.1))
    (hok : KidsOK R kids hi nxt) (key : Int) (hlok : aboveLo lo key) (hhik : belowHi hi key) :
    ∃ pre kid post, kids = pre ++ kid :: post ∧ ip.KeyIndex key = (pre.length : Int) ∧
      ip.ValueAt (pre.length : Int) = Outcome.ok kid.pid ∧ aboveLo kid.lo key ∧
      belowHi (nextLo post hi) key := by
  have hlen := kids_length_eq hpid
  have hpos := kids_ne_nil hlo
  obtain ⟨r, hr, hrn, hle, hgt⟩ := internal_KeyIndex_split ip key (by omega)
    (separators_sorted hRo hlo hok)
  have hrk : r < kids.length := by omega
  refine ⟨kids.take r, kids[r], kids.drop (r + 1), ?_, ?_, ?_, ?_, ?_⟩
  · rw [← List.drop_eq_getElem_cons hrk, List.take_append_drop]
  · rw [hr, List.length_take]
    congr 1
    omega
  · have hl : (kids.take r).length = r := by rw [List.length_take]; omega
    rw [hl]
    unfold InternalPage.ValueAt
    simp only [Int.toNat_ofNat, List.get?_eq_getElem?, Int.natCast_nonneg, if_true,
      List.getElem?_eq_getElem hrn]
    rw [kids_pid_getElem hpid r hrk hrn]
  · cases r with
    | zero =>
      rw [kids_lo_head hlo hpos]
      exact hlok
    | succ r0 =>
      rw [kids_lo_getElem hlo r0 hrk hrn]
      intro l hl
      cases hl
      apply hle
      apply List.mem_drop_iff_getElem.mpr
      refine ⟨r0, ?_, ?_⟩
      · rw [List.length_take]; omega
      · rw [List.getElem_take]
        congr 1
        omega
  · by_cases hlast : r + 1 < kids.length
    · have hd : kids.drop (r + 1) = kids[r + 1] :: kids.drop (r + 1 + 1) :=
        List.drop_eq_getElem_cons hlast
      rw [hd]
      simp only [nextLo]
      rw [kids_lo_getElem hlo r hlast (by omega)]
      intro h hh
      cases hh
      apply hgt
      apply List.mem_drop_iff_getElem.mpr
      exact ⟨0, by omega, rfl⟩
    · have hd : kids.drop (r + 1) = [] := List.drop_eq_nil_of_le (by omega)
      rw [hd]
      exact hhik

/-! ## B+Tree: a key belongs to one child only -/

theorem nextLo_some {l : List Kid} (hne : l ≠ []) (hsome : ∀ x ∈ l, ∃ v, x.lo = some v)
    (hi : Option Int) : ∃ v, nextLo l hi = some v := by
  cases l with
  | nil => exact absurd rfl hne
  | cons a rest => exact hsome a (List.mem_cons_self _ _)

/-- A key that lies between the lower bound of a child and the lower bound of
the next child is not an entry of any other child. -/
theorem kid_excl {R : Kid → Option Int → Int → Prop}
    (hRo : ∀ kid hi1 nxt1, R kid hi1 nxt1 → boundsOrdered kid.lo hi1)
    (hRb : ∀ kid hi1 nxt1, R kid hi1 nxt1 →
      ∀ k v, kid.E k v → aboveLo kid.lo k ∧ belowHi hi1 k)
    (pre : List Kid) (kid : Kid) (post : List Kid) (hi : Option Int) (nxt : Int)
    (hok : KidsOK R (pre ++ kid :: post) hi nxt)
    (hsome : ∀ x ∈ (pre ++ kid :: post).tail, ∃ l, x.lo = some l)
    (key : Int) (h1 : aboveLo kid.lo key) (h2 : belowHi (nextLo post hi) key) :
    ∀ x ∈ pre ++ post, ∀ v, ¬ x.E key v := by
  intro x hx v hE
  have hpostsome : ∀ y ∈ post, ∃ l, y.lo = some l := by
    intro y hy
    apply hsome
    cases pre with
    | nil => simpa using hy
    | cons kid0 pre1 =>
      simp only [List.cons_append, List.tail_cons]
      exact List.mem_append_right _ (List.mem_cons_of_mem _ hy)
  rcases List.mem_append.mp hx with hpre | hpost
  · obtain ⟨A, B, hsplit⟩ := List.append_of_mem hpre
    subst hsplit
    rw [List.append_assoc, List.cons_append] at hok hsome
    have hx1 := ((kidsOK_append R A (x :: (B ++ kid :: post)) hi nxt).mp hok).2
    have hb := (hRb _ _ _ hx1.1 key v hE).2
    have hsuffsome : ∀ y ∈ B ++ kid :: post, ∃ l, y.lo = some l := by
      intro y hy
      apply hsome
      cases A with
      | nil => simpa using hy
      | cons kid0 A1 =>
        simp only [List.cons_append, List.tail_cons]
        exact List.mem_append_right _ (List.mem_cons_of_mem _ hy)
    have ha := chain_lo_le hRo B kid post hi nxt hx1.2
      (fun y hy => hsuffsome y (List.mem_of_mem_tail hy)) key h1
    obtain ⟨l, hl⟩ := nextLo_some (l := B ++ kid :: post) (by simp) hsuffsome hi
    have := hb l hl
    have := ha l hl
    omega
  · obtain ⟨A, B, hsplit⟩ := List.append_of_mem hpost
    have hpostok := ((kidsOK_append R pre (kid :: post) hi nxt).mp hok).2.2
    rw [hsplit] at hpostok
    have hx1 := ((kidsOK_append R A (x :: B) hi nxt).mp hpostok).2.1
    have ha0 := (hRb _ _ _ hx1 key v hE).1
    have ha := chain_lo_le hRo A x B hi nxt hpostok
      (by
        intro y hy
        apply hpostsome
        rw [hsplit]
        exact List.mem_of_mem_tail hy) key ha0
    obtain ⟨l, hl⟩ := nextLo_some (l := post) (by rw [hsplit]; simp) hpostsome hi
    rw [← hsplit] at ha
    have := h2 l hl
    have := ha l hl
    omega

/-! ## B+Tree: looking a key up in a sorted leaf -/

theorem comparator_self (a : Int) : comparator a a = 0 := comparator_eq_zero.mpr rfl

/-- The leaf `KeyIndex` on sorted slots either points at the slot of the key or,
when the key is not on the page, at the place where it belongs. -/
theorem leaf_find (lp : LeafPage) (key : Int) (hs : SortedKeys lp.slots) :
    (∃ A v0 B, lp.slots = A ++ (key, v0) :: B ∧ lp.KeyIndex key = (A.length : Int) ∧
      (∀ s ∈ A, s.1 < key) ∧ (∀ s ∈ B, key < s.1)) ∨
    (∃ A B, lp.slots = A ++ B ∧ lp.KeyIndex key = (A.length : Int) ∧
      (∀ s ∈ A, s.1 < key) ∧ (∀ s ∈ B, key < s.1) ∧
      ((lp.KeyIndex key = lp.GetSize ∧ B = []) ∨
        ∃ k1, lp.KeyIndex key < lp.GetSize ∧ lp.KeyAt (lp.KeyIndex key) = Outcome.ok k1 ∧
          comparator k1 key ≠ 0)) := by
  obtain ⟨A, B, hsl, hidx, hA, hB⟩ := leaf_KeyIndex_cases lp key hs
  rcases hB with hB | ⟨k1, v1, B1, hB, hk1, hB1⟩
  · subst hB
    refine Or.inr ⟨A, [], hsl, hidx, hA, by simp, Or.inl ⟨?_, rfl⟩⟩
    rw [hidx]
    unfold LeafPage.GetSize
    rw [hsl]
    simp
  · subst hB
    by_cases hk : k1 = key
    · subst hk
      exact Or.inl ⟨A, v1, B1, hsl, hidx, hA, hB1⟩
    · have hlt : key < k1 := by omega
      obtain ⟨e1, _, e3⟩ := leaf_KeyAt_append lp hsl
      refine Or.inr ⟨A, (k1, v1) :: B1, hsl, hidx, hA, ?_, Or.inr ⟨k1, ?_, ?_, ?_⟩⟩
      · intro s hs1
        rcases List.mem_cons.mp hs1 with h | h
        · subst h; exact hlt
        · have := hB1 s h
          omega
      · rw [hidx]; exact e3
      · rw [hidx]; exact e1
      · intro hc
        exact hk (comparator_eq_zero.mp hc)

theorem mem_sorted_unique {α : Type} {A B : List (Int × α)} {key : Int} {v0 v : α}
    (hA : ∀ s ∈ A, s.1 < key) (hB : ∀ s ∈ B, key < s.1)
    (h : (key, v) ∈ A ++ (key, v0) :: B) : v = v0 := by
  rcases List.mem_append.mp h with h | h
  · have := hA _ h
    simp at this
  · rcases List.mem_cons.mp h with h | h
    · exact (Prod.mk.inj h).2
    · have := hB _ h
      simp at this

theorem not_mem_of_bounds {α : Type} {A B : List (Int × α)} {key : Int} {v : α}
    (hA : ∀ s ∈ A, s.1 < key) (hB : ∀ s ∈ B, key < s.1) : (key, v) ∉ A ++ B := by
  intro h
  rcases List.mem_append.mp h with h | h
  · have := hA _ h
    simp at this
  · have := hB _ h
    simp at this

/-- The leaf part of `GetValue` on a sorted leaf. -/
theorem getValue_leaf (lp : LeafPage) (key : Int) (hs : SortedKeys lp.slots) :
    ∃ r, (if lp.KeyIndex key < lp.GetSize then do
            let k ← lp.KeyAt (lp.KeyIndex key)
            if comparator k key = 0 then do
              let v ← lp.ValueAt (lp.KeyIndex key)
              pure (some v)
            else pure none
          else pure none : Outcome (Option RID)) = Outcome.ok r ∧
      ∀ v, r = some v ↔ (key, v) ∈ lp.slots := by
  rcases leaf_find lp key hs with ⟨A, v0, B, hsl, hidx, hA, hB⟩ | ⟨A, B, hsl, hidx, hA, hB, hc⟩
  · obtain ⟨e1, e2, e3⟩ := leaf_KeyAt_append lp hsl
    refine ⟨some v0, ?_, ?_⟩
    · rw [hidx, if_pos e3, e1]
      simp only [Outcome.ok_bind, comparator_self, if_true, e2, Outcome.pure_eq_ok]
    · intro v
      rw [hsl]
      constructor
      · intro h
        cases h
        exact List.mem_append_right _ (List.mem_cons_self _ _)
      · intro h
        rw [mem_sorted_unique hA hB h]
  · refine ⟨none, ?_, ?_⟩
    · rcases hc with ⟨hc, _⟩ | ⟨k1, hlt, hk, hne⟩
      · rw [if_neg (by omega)]
        rfl
      · rw [if_pos hlt, hk]
        simp only [Outcome.ok_bind, hne, if_false, Outcome.pure_eq_ok]
    · intro v
      rw [hsl]
      constructor
      · intro h; cases h
      · intro h
        exact absurd h (not_mem_of_bounds hA hB)

/-! ## B+Tree: `GetValue` on a represented tree -/

theorem rep_child_ordered {L I : Nat} {pages : Int → Option Page} {n : Nat} :
    ∀ (kid : Kid) (hi1 : Option Int) (nxt1 : Int),
      Rep L I pages n 2 kid.pid kid.lo hi1 kid.E kid.ps kid.first nxt1 →
      boundsOrdered kid.lo hi1 := fun _ _ _ hr => rep_ordered hr

theorem rep_child_bounds {L I : Nat} {pages : Int → Option Page} {n : Nat} :
    ∀ (kid : Kid) (hi1 : Option Int) (nxt1 : Int),
      Rep L I pages n 2 kid.pid kid.lo hi1 kid.E kid.ps kid.first nxt1 →
      ∀ k v, kid.E k v → aboveLo kid.lo k ∧ belowHi hi1 k := fun _ _ _ hr => rep_bounds hr

/-- The descent of `GetValue` from the root of a represented tree, for a key
within the bounds of the tree, returns what the tree holds for the key. -/
theorem rep_getValue (t : BPlusTree) (L I : Nat) (key : Int) :
    ∀ (h m : Nat) (pid : Int) (lo hi : Option Int) (E : Int → RID → Prop) (ps : List Int)
      (first nxt : Int), Rep L I t.pages h m pid lo hi E ps first nxt →
      aboveLo lo key → belowHi hi key → ∀ fuel, h < fuel →
      ∃ r, getValueLoop t key fuel pid = Outcome.ok r ∧ ∀ v, r = some v ↔ E key v := by
  intro h
  induction h with
  | zero =>
    intro m pid lo hi E ps first nxt hrep _ _ fuel hfuel
    obtain ⟨lp, h1, _, _, h4, _, h6, _⟩ := hrep
    obtain ⟨f, rfl⟩ : ∃ f, fuel = f + 1 := ⟨fuel - 1, by omega⟩
    obtain ⟨r, hr, hrv⟩ := getValue_leaf lp key h4
    refine ⟨r, ?_, ?_⟩
    · unfold getValueLoop
      rw [h1]
      exact hr
    · intro v
      rw [hrv v]
      exact (h6 key v).symm
  | succ n ih =>
    intro m pid lo hi E ps first nxt hrep hlok hhik fuel hfuel
    obtain ⟨ip, kids, h1, _, _, hpid, hlo, hok, hE, _⟩ := hrep
    obtain ⟨f, rfl⟩ : ∃ f, fuel = f + 1 := ⟨fuel - 1, by omega⟩
    obtain ⟨pre, kid, post, hsplit, hidx, hval, hkl, hkh⟩ :=
      select_kid rep_child_ordered ip hpid hlo hok key hlok hhik
    subst hsplit
    have hkidrep := ((kidsOK_append _ pre (kid :: post) hi nxt).mp hok).2.1
    obtain ⟨r, hr, hrv⟩ := ih 2 kid.pid kid.lo _ kid.E kid.ps kid.first _ hkidrep hkl hkh f
      (by omega)
    refine ⟨r, ?_, ?_⟩
    · unfold getValueLoop
      rw [h1]
      simp only [hidx, hval, Outcome.ok_bind]
      exact hr
    · intro v
      rw [hrv v, hE key v]
      constructor
      · intro hk
        exact ⟨kid, by simp, hk⟩
      · rintro ⟨x, hx, hxE⟩
        rcases List.mem_append.mp hx with hx1 | hx1
        · exact absurd hxE (kid_excl rep_child_ordered rep_child_bounds pre kid post hi nxt hok
            (kids_tail_lo_some hlo) key hkl hkh x (List.mem_append_left _ hx1) v)
        · rcases List.mem_cons.mp hx1 with hx2 | hx2
          · subst hx2; exact hxE
          · exact absurd hxE (kid_excl rep_child_ordered rep_child_bounds pre kid post hi nxt hok
              (kids_tail_lo_some hlo) key hkl hkh x (List.mem_append_right _ hx2) v)

/-! ## B+Tree: facts about represented trees -/

theorem rep_leaf_iff {L I : Nat} {pages : Int → Option Page} {m : Nat} {pid : Int}
    {lo hi : Option Int} {E : Int → RID → Prop} {ps : List Int} {first nxt : Int} :
    Rep L I pages 0 m pid lo hi E ps first nxt ↔
      ∃ lp, pages pid = some (Page.leaf lp) ∧ lp.max_size_ = L ∧ lp.slots.length ≤ L ∧
        SortedKeys lp.slots ∧ (∀ s ∈ lp.slots, aboveLo lo s.1 ∧ belowHi hi s.1) ∧
        (∀ k v, E k v ↔ (k, v) ∈ lp.slots) ∧ ps = [pid] ∧ first = pid ∧
        lp.next_page_id_ = nxt ∧ boundsOrdered lo hi ∧ m ≤ lp.slots.length + 1 := Iff.rfl

theorem rep_internal_iff {L I : Nat} {pages : Int → Option Page} {h m : Nat} {pid : Int}
    {lo hi : Option Int} {E : Int → RID → Prop} {ps : List Int} {first nxt : Int} :
    Rep L I pages (h + 1) m pid lo hi E ps first nxt ↔
      ∃ ip kids, pages pid = some (Page.internal ip) ∧ ip.max_size_ = I ∧ m ≤ kids.length ∧
        SlotsOf lo kids ip.slots ∧ KidsOK (RepKid L I pages h) kids hi nxt ∧
        (∀ k v, E k v ↔ ∃ kid ∈ kids, kid.E k v) ∧ ps = pid :: kids.flatMap Kid.ps ∧
        ps.Nodup ∧ first = nextFirst kids nxt := by
  constructor
  · rintro ⟨ip, kids, h1, h2, h3, h4, h5, h6, h7, h8, h9, h10⟩
    exact ⟨ip, kids, h1, h2, h3, ⟨h4, h5⟩, h6, h7, h8, h9, h10⟩
  · rintro ⟨ip, kids, h1, h2, h3, ⟨h4, h5⟩, h6, h7, h8, h9, h10⟩
    exact ⟨ip, kids, h1, h2, h3, h4, h5, h6, h7, h8, h9, h10⟩

theorem rep_congr_E {L I : Nat} {pages : Int → Option Page} {h m : Nat} {pid : Int}
    {lo hi : Option Int} {E E1 : Int → RID → Prop} {ps : List Int} {first nxt : Int}
    (hE : ∀ k v, E1 k v ↔ E k v) (hrep : Rep L I pages h m pid lo hi E ps first nxt) :
    Rep L I pages h m pid lo hi E1 ps first nxt := by
  cases h with
  | zero =>
    obtain ⟨lp, h1, h2, h3, h4, h5, h6, h7⟩ := hrep
    exact ⟨lp, h1, h2, h3, h4, h5, fun k v => (hE k v).trans (h6 k v), h7⟩
  | succ n =>
    obtain ⟨ip, kids, h1, h2, h3, h4, h5, h6, h7, h8⟩ := hrep
    exact ⟨ip, kids, h1, h2, h3, h4, h5, h6, fun k v => (hE k v).trans (h7 k v), h8⟩

theorem rep_nodup {L I : Nat} {pages : Int → Option Page} {h m : Nat} {pid : Int}
    {lo hi : Option Int} {E : Int → RID → Prop} {ps : List Int} {first nxt : Int}
    (hrep : Rep L I pages h m pid lo hi E ps first nxt) : ps.Nodup := by
  cases h with
  | zero =>
    obtain ⟨lp, _, _, _, _, _, _, h7, _⟩ := hrep
    rw [h7]
    exact List.nodup_singleton _
  | succ n =>
    obtain ⟨ip, kids, _, _, _, _, _, _, _, _, h9, _⟩ := hrep
    exact h9

/-- The leftmost leaf of a represented tree is one of its pages, and a leaf. -/
theorem rep_first {L I : Nat} {pages : Int → Option Page} :
    ∀ {h m : Nat} {pid : Int} {lo hi : Option Int} {E : Int → RID → Prop} {ps : List Int}
      {first nxt : Int}, Rep L I pages h m pid lo hi E ps first nxt →
      first ∈ ps ∧ ∃ lp, pages first = some (Page.leaf lp) := by
  intro h
  induction h with
  | zero =>
    intro m pid lo hi E ps first nxt hrep
    obtain ⟨lp, h1, _, _, _, _, _, h7, h8, _⟩ := hrep
    rw [h7, h8]
    exact ⟨List.mem_singleton_self _, lp, h1⟩
  | succ n ih =>
    intro m pid lo hi E ps first nxt hrep
    obtain ⟨ip, kids, _, _, _, _, hlo, hok, _, h8, _, h10⟩ := hrep
    cases kids with
    | nil => simp at hlo
    | cons kid rest =>
      obtain ⟨hm, hl⟩ := ih hok.1
      rw [h10, h8]
      simp only [nextFirst, List.flatMap_cons]
      exact ⟨List.mem_cons_of_mem _ (List.mem_append_left _ hm), hl⟩

theorem kidsOK_mem {R : Kid → Option Int → Int → Prop} {kids : List Kid} {hi : Option Int}
    {nxt : Int} (hok : KidsOK R kids hi nxt) {kid : Kid} (hk : kid ∈ kids) :
    ∃ hi1 nxt1, R kid hi1 nxt1 := by
  obtain ⟨pre, post, rfl⟩ := List.append_of_mem hk
  exact ⟨_, _, ((kidsOK_append R pre (kid :: post) hi nxt).mp hok).2.1⟩

/-- Changing the pool outside the pages of the children keeps the children. -/
theorem kidsOK_frame {L I : Nat} {pages pages1 : Int → Option Page} {h : Nat} {kids : List Kid}
    {hi : Option Int} {nxt : Int}
    (hsame : ∀ kid ∈ kids, ∀ p ∈ kid.ps, (pages1 p).map Page.core = (pages p).map Page.core)
    (hok : KidsOK (RepKid L I pages h) kids hi nxt) :
    KidsOK (RepKid L I pages1 h) kids hi nxt :=
  kidsOK_mono (fun kid hk _ _ hr => rep_frame (hsame kid hk) hr) hok

/-- A chain of children with its rear part replaced by another one that starts
with the same lower bound and the same leftmost leaf. -/
theorem kidsOK_swap {R R1 : Kid → Option Int → Int → Prop} {pre suf suf1 : List Kid}
    {hi : Option Int} {nxt : Int} (hok : KidsOK R (pre ++ suf) hi nxt)
    (hsuf : KidsOK R1 suf1 hi nxt) (hlo : nextLo suf1 hi = nextLo suf hi)
    (hfirst : nextFirst suf1 nxt = nextFirst suf nxt)
    (hpre : ∀ x ∈ pre, ∀ hi1 nxt1, R x hi1 nxt1 → R1 x hi1 nxt1) :
    KidsOK R1 (pre ++ suf1) hi nxt := by
  rw [kidsOK_append] at hok ⊢
  rw [hlo, hfirst]
  exact ⟨kidsOK_mono hpre hok.1, hsuf⟩

theorem nextFirst_append (pre suf suf1 : List Kid) (nxt : Int)
    (h : nextFirst suf1 nxt = nextFirst suf nxt) :
    nextFirst (pre ++ suf1) nxt = nextFirst (pre ++ suf) nxt := by
  cases pre with
  | nil => exact h
  | cons a l => rfl

theorem nextLo_append (pre suf suf1 : List Kid) (hi : Option Int)
    (h : nextLo suf1 hi = nextLo suf hi) :
    nextLo (pre ++ suf1) hi = nextLo (pre ++ suf) hi := by
  cases pre with
  | nil => exact h
  | cons a l => rfl

/-! ### Slots and children -/

theorem slotsTail_nil : SlotsTail [] [] := rfl

theorem slotsTail_cons {k : Kid} {K : List Kid} {s : Int × Int} {S : List (Int × Int)} :
    SlotsTail (k :: K) (s :: S) ↔ k.lo = some s.1 ∧ k.pid = s.2 ∧ SlotsTail K S := by
  unfold SlotsTail
  simp only [List.map_cons, List.cons.injEq, Prod.mk.injEq]
  tauto

theorem slotsTail_length {K : List Kid} {S : List (Int × Int)} (h : SlotsTail K S) :
    K.length = S.length := by
  have := congrArg List.length h
  simpa using this

theorem slotsTail_nil_left {S : List (Int × Int)} (h : SlotsTail [] S) : S = [] := by
  have := slotsTail_length h
  exact List.eq_nil_of_length_eq_zero this.symm

theorem slotsTail_cons_left {k : Kid} {K : List Kid} {S : List (Int × Int)}
    (h : SlotsTail (k :: K) S) :
    ∃ s S1, S = s :: S1 ∧ k.lo = some s.1 ∧ k.pid = s.2 ∧ SlotsTail K S1 := by
  cases S with
  | nil => have := slotsTail_length h; simp at this
  | cons s S1 => exact ⟨s, S1, rfl, slotsTail_cons.mp h⟩

theorem slotsTail_append {K1 K2 : List Kid} {S1 S2 : List (Int × Int)}
    (h1 : SlotsTail K1 S1) (h2 : SlotsTail K2 S2) : SlotsTail (K1 ++ K2) (S1 ++ S2) := by
  unfold SlotsTail at *
  rw [List.map_append, List.map_append, h1, h2]

theorem slotsTail_split {K1 K2 : List Kid} {S : List (Int × Int)}
    (h : SlotsTail (K1 ++ K2) S) :
    ∃ S1 S2, S = S1 ++ S2 ∧ S1.length = K1.length ∧ SlotsTail K1 S1 ∧ SlotsTail K2 S2 := by
  have hlen := slotsTail_length h
  rw [List.length_append] at hlen
  refine ⟨S.take K1.length, S.drop K1.length, (List.take_append_drop _ _).symm, ?_, ?_, ?_⟩
  · rw [List.length_take]; omega
  · unfold SlotsTail at *
    have := congrArg (List.take K1.length) h
    rw [List.map_append, List.take_left' (by simp)] at this
    rw [this, List.map_take]
  · unfold SlotsTail at *
    have := congrArg (List.drop K1.length) h
    rw [List.map_append, List.drop_left' (by simp)] at this
    rw [this, List.map_drop]

theorem slotsOf_cons {lo : Option Int} {k : Kid} {K : List Kid} {s : Int × Int}
    {S : List (Int × Int)} :
    SlotsOf lo (k :: K) (s :: S) ↔ k.lo = lo ∧ k.pid = s.2 ∧ SlotsTail K S := by
  unfold SlotsOf SlotsTail
  simp only [List.map_cons, List.cons.injEq, List.drop_succ_cons, List.drop_zero]
  constructor
  · rintro ⟨⟨h1, h2⟩, h3, h4⟩
    refine ⟨h3, h1, ?_⟩
    apply List.ext_getElem
    · have := congrArg List.length h2
      simpa using this
    · intro i hi1 hi2
      have e1 := congrArg (fun l => l[i]?) h2
      have e2 := congrArg (fun l => l[i]?) h4
      simp only [List.length_map] at hi1 hi2
      simp only [List.getElem?_map, List.getElem?_eq_getElem hi1, List.getElem?_eq_getElem hi2,
        Option.map_some', Option.some.injEq] at e1 e2
      simp only [List.getElem_map, Prod.mk.injEq]
      exact ⟨e2, e1⟩
  · rintro ⟨h1, h2, h3⟩
    refine ⟨⟨h2, ?_⟩, h1, ?_⟩
    · have := congrArg (List.map Prod.snd) h3
      simpa [List.map_map, Function.comp_def] using this
    · have := congrArg (List.map Prod.fst) h3
      simpa [List.map_map, Function.comp_def] using this

theorem slotsOf_length {lo : Option Int} {K : List Kid} {S : List (Int × Int)}
    (h : SlotsOf lo K S) : K.length = S.length := kids_length_eq h.1

theorem slotsOf_ne_nil {lo : Option Int} {K : List Kid} {S : List (Int × Int)}
    (h : SlotsOf lo K S) : 0 < K.length := kids_ne_nil h.2

theorem slotsOf_cons_left {lo : Option Int} {k : Kid} {K : List Kid} {S : List (Int × Int)}
    (h : SlotsOf lo (k :: K) S) :
    ∃ s S1, S = s :: S1 ∧ k.lo = lo ∧ k.pid = s.2 ∧ SlotsTail K S1 := by
  cases S with
  | nil => have := slotsOf_length h; simp at this
  | cons s S1 => exact ⟨s, S1, rfl, slotsOf_cons.mp h⟩

/-- The slots of a list of children that is cut behind a nonempty front part. -/
theorem slotsOf_append {lo : Option Int} {A K : List Kid} {SA S : List (Int × Int)}
    (h1 : SlotsOf lo A SA) (h2 : SlotsTail K S) : SlotsOf lo (A ++ K) (SA ++ S) := by
  have hpos := slotsOf_ne_nil h1
  cases A with
  | nil => simp at hpos
  | cons a A1 =>
    obtain ⟨s, SA1, rfl, e1, e2, e3⟩ := slotsOf_cons_left h1
    rw [List.cons_append, List.cons_append]
    exact slotsOf_cons.mpr ⟨e1, e2, slotsTail_append e3 h2⟩

theorem slotsOf_split {lo : Option Int} {A K : List Kid} {S : List (Int × Int)}
    (hne : A ≠ []) (h : SlotsOf lo (A ++ K) S) :
    ∃ SA SK, S = SA ++ SK ∧ SA.length = A.length ∧ SlotsOf lo A SA ∧ SlotsTail K SK := by
  cases A with
  | nil => exact absurd rfl hne
  | cons a A1 =>
    rw [List.cons_append] at h
    obtain ⟨s, S1, rfl, e1, e2, e3⟩ := slotsOf_cons_left h
    obtain ⟨T1, T2, rfl, hl, t1, t2⟩ := slotsTail_split e3
    exact ⟨s :: T1, T2, rfl, by simp [hl], slotsOf_cons.mpr ⟨e1, e2, t1⟩, t2⟩

/-- The slots match any children with the same lower bounds and page ids. -/
theorem slotsOf_congr {lo : Option Int} {K K1 : List Kid} {S : List (Int × Int)}
    (h : SlotsOf lo K S) (hpid : K1.map Kid.pid = K.map Kid.pid)
    (hlo : K1.map Kid.lo = K.map Kid.lo) : SlotsOf lo K1 S := by
  unfold SlotsOf at *
  rw [hpid, hlo]
  exact h

theorem slotsOf_snoc_congr {lo : Option Int} {pre : List Kid} {k k1 : Kid}
    {S : List (Int × Int)} (h : SlotsOf lo (pre ++ [k]) S) (hpid : k1.pid = k.pid)
    (hlo : k1.lo = k.lo) : SlotsOf lo (pre ++ [k1]) S :=
  slotsOf_congr h (by simp [hpid]) (by simp [hlo])

/-! ### The position of a child in its parent -/

theorem valueIndexFrom_append (v : Int) (SA : List (Int × Int)) (s : Int × Int)
    (SB : List (Int × Int)) (hs : s.2 = v) (hSA : ∀ x ∈ SA, x.2 ≠ v) :
    ∀ i : Int, valueIndexFrom v (SA ++ s :: SB) i = i + SA.length := by
  induction SA with
  | nil =>
    intro i
    simp [valueIndexFrom, hs]
  | cons a SA1 ih =>
    intro i
    have ha : ¬ a.2 = v := hSA a (List.mem_cons_self _ _)
    have hi := ih (fun x hx => hSA x (List.mem_cons_of_mem _ hx)) (i + 1)
    rw [List.cons_append]
    show (if a.2 = v then i else valueIndexFrom v (SA1 ++ s :: SB) (i + 1)) = _
    rw [if_neg ha, hi, List.length_cons]
    push_cast
    omega

theorem valueIndex_append (ip : InternalPage) (v : Int) {SA SB : List (Int × Int)}
    {s : Int × Int} (hsl : ip.slots = SA ++ s :: SB) (hs : s.2 = v) (hSA : ∀ x ∈ SA, x.2 ≠ v) :
    ip.ValueIndex v = (SA.length : Int) := by
  unfold InternalPage.ValueIndex
  rw [hsl, valueIndexFrom_append v SA s SB hs hSA 0]
  omega

/-! ### Lists of page ids -/

theorem nodup_replace {a X X1 b : List Int} (h : (a ++ X ++ b).Nodup) (hX1 : X1.Nodup)
    (hsub : ∀ p ∈ X1, p ∈ X ∨ (p ∉ a ∧ p ∉ b)) : (a ++ X1 ++ b).Nodup := by
  rw [List.append_assoc, List.nodup_append] at h ⊢
  obtain ⟨ha, hXb, hd⟩ := h
  rw [List.nodup_append] at hXb ⊢
  obtain ⟨_, hb, hd2⟩ := hXb
  refine ⟨ha, ⟨hX1, hb, ?_⟩, ?_⟩
  · intro p hp1 hp2
    rcases hsub p hp1 with h1 | h1
    · exact hd2 h1 hp2
    · exact h1.2 hp2
  · intro p hp1 hp2
    rcases List.mem_append.mp hp2 with h2 | h2
    · rcases hsub p h2 with h1 | h1
      · exact hd hp1 (List.mem_append_left _ h1)
      · exact h1.1 hp1
    · exact hd hp1 (List.mem_append_right _ h2)

/-! ## B+Tree: reading and writing the pool -/

@[simp] theorem setPage_pages (t : BPlusTree) (pid : Int) (p : Page) (q : Int) :
    (t.setPage pid p).pages q = if q = pid then some p else t.pages q := rfl

@[simp] theorem setPage_next (t : BPlusTree) (pid : Int) (p : Page) :
    (t.setPage pid p).next_page_id_ = t.next_page_id_ := rfl

@[simp] theorem setPage_root (t : BPlusTree) (pid : Int) (p : Page) :
    (t.setPage pid p).root_page_id_ = t.root_page_id_ := rfl

@[simp] theorem setPage_leaf_max (t : BPlusTree) (pid : Int) (p : Page) :
    (t.setPage pid p).leaf_max_size_ = t.leaf_max_size_ := rfl

@[simp] theorem setPage_internal_max (t : BPlusTree) (pid : Int) (p : Page) :
    (t.setPage pid p).internal_max_size_ = t.internal_max_size_ := rfl

@[simp] theorem setPage_slot_cnt (t : BPlusTree) (pid : Int) (p : Page) :
    (t.setPage pid p).LEAF_PAGE_SLOT_CNT = t.LEAF_PAGE_SLOT_CNT := rfl

@[simp] theorem deletePage_pages (t : BPlusTree) (pid : Int) (q : Int) :
    (t.DeletePage pid).pages q = if q = pid then none else t.pages q := rfl

@[simp] theorem deletePage_next (t : BPlusTree) (pid : Int) :
    (t.DeletePage pid).next_page_id_ = t.next_page_id_ := rfl

@[simp] theorem deletePage_root (t : BPlusTree) (pid : Int) :
    (t.DeletePage pid).root_page_id_ = t.root_page_id_ := rfl

@[simp] theorem deletePage_leaf_max (t : BPlusTree) (pid : Int) :
    (t.DeletePage pid).leaf_max_size_ = t.leaf_max_size_ := rfl

@[simp] theorem deletePage_internal_max (t : BPlusTree) (pid : Int) :
    (t.DeletePage pid).internal_max_size_ = t.internal_max_size_ := rfl

@[simp] theorem deletePage_slot_cnt (t : BPlusTree) (pid : Int) :
    (t.DeletePage pid).LEAF_PAGE_SLOT_CNT = t.LEAF_PAGE_SLOT_CNT := rfl

@[simp] theorem newPage_fst (t : BPlusTree) : t.NewPage.1 = t.next_page_id_ := rfl

@[simp] theorem newPage_pages (t : BPlusTree) : t.NewPage.2.pages = t.pages := rfl

@[simp] theorem newPage_next (t : BPlusTree) :
    t.NewPage.2.next_page_id_ = t.next_page_id_ + 1 := rfl

@[simp] theorem newPage_root (t : BPlusTree) : t.NewPage.2.root_page_id_ = t.root_page_id_ := rfl

@[simp] theorem newPage_leaf_max (t : BPlusTree) :
    t.NewPage.2.leaf_max_size_ = t.leaf_max_size_ := rfl

@[simp] theorem newPage_internal_max (t : BPlusTree) :
    t.NewPage.2.internal_max_size_ = t.internal_max_size_ := rfl

@[simp] theorem newPage_slot_cnt (t : BPlusTree) :
    t.NewPage.2.LEAF_PAGE_SLOT_CNT = t.LEAF_PAGE_SLOT_CNT := rfl

theorem leafAt_eq {t : BPlusTree} {pid : Int} {lp : LeafPage}
    (h : t.pages pid = some (Page.leaf lp)) : t.leafAt pid = Outcome.ok lp := by
  unfold BPlusTree.leafAt
  rw [h]

theorem internalAt_eq {t : BPlusTree} {pid : Int} {ip : InternalPage}
    (h : t.pages pid = some (Page.internal ip)) : t.internalAt pid = Outcome.ok ip := by
  unfold BPlusTree.internalAt
  rw [h]

theorem pageAt_eq {t : BPlusTree} {pid : Int} {p : Page}
    (h : t.pages pid = some p) : t.pageAt pid = Outcome.ok p := by
  unfold BPlusTree.pageAt
  rw [h]

theorem keep_refl (t : BPlusTree) : Keep t t := ⟨rfl, rfl, rfl, rfl⟩

theorem keep_trans {t t1 t2 : BPlusTree} (h1 : Keep t t1) (h2 : Keep t1 t2) : Keep t t2 :=
  ⟨h2.1.trans h1.1, h2.2.1.trans h1.2.1, h2.2.2.1.trans h1.2.2.1, h2.2.2.2.trans h1.2.2.2⟩

theorem keep_setPage (t : BPlusTree) (pid : Int) (p : Page) : Keep t (t.setPage pid p) :=
  ⟨rfl, rfl, rfl, rfl⟩

theorem keep_deletePage (t : BPlusTree) (pid : Int) : Keep t (t.DeletePage pid) :=
  ⟨rfl, rfl, rfl, rfl⟩

theorem keep_newPage (t : BPlusTree) : Keep t t.NewPage.2 := ⟨rfl, rfl, rfl, rfl⟩

theorem core_leaf_prev (lp : LeafPage) (x : Int) :
    Page.core (Page.leaf { lp with prev_page_id_ := x }) = Page.core (Page.leaf lp) := rfl

/-! ## B+Tree: splitting a leaf -/

theorem leaf_KeyAt_getD (lp : LeafPage) (c : Nat) (hc : c < lp.slots.length) :
    lp.KeyAt (c : Int) = Outcome.ok ((lp.slots.map Prod.fst).getD c 0) := by
  unfold LeafPage.KeyAt LeafPage.GetSize
  have h0 : (0 : Int) ≤ (c : Int) ∧ (c : Int) < (lp.slots.length : Int) := by omega
  rw [if_pos h0]
  simp only [Int.toNat_ofNat, List.get?_eq_getElem?, List.getElem?_eq_getElem hc]
  rw [List.getD_eq_getElem _ _ (by rw [List.length_map]; exact hc)]
  simp

/-- `BPlusTreeLeafPage::Split` moves the slots from the middle one on to the
sibling and links the sibling in behind the page. -/
theorem leafSplit_spec (t : BPlusTree) (this_id sib_id : Int) (this sib : LeafPage)
    (hthis : t.pages this_id = some (Page.leaf this))
    (hsib : t.pages sib_id = some (Page.leaf sib)) (hne : this_id ≠ sib_id)
    (hc : (this.slots.length + 1) / 2 < this.slots.length)
    (hnext : this.next_page_id_ = INVALID_PAGE_ID ∨
      (this.next_page_id_ ≠ this_id ∧ this.next_page_id_ ≠ sib_id ∧
        ∃ nl, t.pages this.next_page_id_ = some (Page.leaf nl))) :
    ∃ t1, leafSplit t this_id sib_id
        = Outcome.ok ((this.slots.map Prod.fst).getD ((this.slots.length + 1) / 2) 0, t1) ∧
      t1.pages this_id = some (Page.leaf { this with
        next_page_id_ := sib.page_id_,
        slots := this.slots.take ((this.slots.length + 1) / 2) }) ∧
      t1.pages sib_id = some (Page.leaf { sib with
        slots := sib.slots ++ this.slots.drop ((this.slots.length + 1) / 2),
        next_page_id_ := this.next_page_id_,
        prev_page_id_ := this.page_id_ }) ∧
      (∀ p, p ≠ this_id → p ≠ sib_id → (t1.pages p).map Page.core = (t.pages p).map Page.core) ∧
      t1.next_page_id_ = t.next_page_id_ ∧ Keep t t1 ∧
      (∀ p, p ≠ this_id → p ≠ sib_id →
        ¬ (this.next_page_id_ ≠ INVALID_PAGE_ID ∧ p = this.next_page_id_) →
        t1.pages p = t.pages p) ∧
      (this.next_page_id_ ≠ INVALID_PAGE_ID →
        ∃ nl, t.pages this.next_page_id_ = some (Page.leaf nl) ∧
          t1.pages this.next_page_id_
            = some (Page.leaf { nl with prev_page_id_ := sib.page_id_ })) := by
  have hmid : (this.GetSize + 1) / 2 = (((this.slots.length + 1) / 2 : Nat) : Int) := by
    unfold LeafPage.GetSize
    omega
  have hne2 : sib_id ≠ this_id := fun h => hne h.symm
  unfold leafSplit
  rw [leafAt_eq hthis, leafAt_eq hsib]
  simp only [Outcome.ok_bind, hmid, leaf_KeyAt_getD this _ hc, Int.toNat_ofNat]
  by_cases hinv : this.next_page_id_ = INVALID_PAGE_ID
  · simp only [hinv, ne_eq, not_true_eq_false, if_false, Outcome.pure_eq_ok, Outcome.ok_bind]
    have hl : ((t.setPage this_id (Page.leaf { this with next_page_id_ := sib.page_id_ })).setPage
        sib_id (Page.leaf { sib with
          slots := sib.slots ++ this.slots.drop ((this.slots.length + 1) / 2),
          next_page_id_ := INVALID_PAGE_ID,
          prev_page_id_ := this.page_id_ })).leafAt this_id
        = Outcome.ok { this with next_page_id_ := sib.page_id_ } := by
      apply leafAt_eq
      simp [hne]
    rw [hl]
    simp only [Outcome.ok_bind]
    refine ⟨_, rfl, ?_, ?_, ?_, rfl, ⟨rfl, rfl, rfl, rfl⟩, ?_, fun h => h.elim⟩
    · simp
    · simp [hne2]
    · intro p hp1 hp2
      simp [hp1, hp2]
    · intro p hp1 hp2 _
      simp [hp1, hp2]
  · rcases hnext with hinv1 | ⟨hn1, hn2, nl, hnl⟩
    · exact absurd hinv1 hinv
    · simp only [ne_eq, hinv, not_false_eq_true, if_true]
      have hl1 : ((t.setPage this_id (Page.leaf { this with next_page_id_ := sib.page_id_ })).setPage
          sib_id (Page.leaf { sib with
            slots := sib.slots ++ this.slots.drop ((this.slots.length + 1) / 2),
            next_page_id_ := this.next_page_id_,
            prev_page_id_ := this.page_id_ })).leafAt this.next_page_id_
          = Outcome.ok nl := by
        apply leafAt_eq
        simp [hn1, hn2, hnl]
      rw [hl1]
      simp only [Outcome.ok_bind, Outcome.pure_eq_ok]
      have hl : (((t.setPage this_id (Page.leaf { this with next_page_id_ := sib.page_id_ })).setPage
          sib_id (Page.leaf { sib with
            slots := sib.slots ++ this.slots.drop ((this.slots.length + 1) / 2),
            next_page_id_ := this.next_page_id_,
            prev_page_id_ := this.page_id_ })).setPage this.next_page_id_
              (Page.leaf { nl with prev_page_id_ := sib.page_id_ })).leafAt this_id
          = Outcome.ok { this with next_page_id_ := sib.page_id_ } := by
        apply leafAt_eq
        have hn1s : ¬ this_id = this.next_page_id_ := fun h => hn1 h.symm
        simp [hne, hn1s]
      rw [hl]
      simp only [Outcome.ok_bind]
      refine ⟨_, rfl, ?_, ?_, ?_, rfl, ⟨rfl, rfl, rfl, rfl⟩, ?_, ?_⟩
      · simp
      · have hn2s : ¬ sib_id = this.next_page_id_ := fun h => hn2 h.symm
        simp [hne2, hn2s]
      · intro p hp1 hp2
        by_cases hp3 : p = this.next_page_id_
        · subst hp3
          simp [hp1, hp2, hnl, Page.core]
        · simp [hp1, hp2, hp3]
      · intro p hp1 hp2 hp3
        have hp4 : p ≠ this.next_page_id_ := fun hh => hp3 ⟨trivial, hh⟩
        simp [hp1, hp2, hp4]
      · intro _
        refine ⟨nl, hnl, ?_⟩
        have hn1s : ¬ this.next_page_id_ = this_id := hn1
        simp [hn1s]

/-! ## B+Tree: the sibling pointers of the pool -/

theorem ptrStep_refl (t : BPlusTree) : PtrStep t t := ⟨fun h => h, fun _ _ h => h⟩

theorem ptrStep_trans {t t1 t2 : BPlusTree} (h1 : PtrStep t t1) (h2 : PtrStep t1 t2) :
    PtrStep t t2 :=
  ⟨fun h => h2.1 (h1.1 h), fun f h hf => h2.2 f (h1.1 h) (h1.2 f h hf)⟩

theorem nextOf_some_iff {x : Option Page} {b : Int} :
    nextOf x = some b ↔ ∃ lp, x = some (Page.leaf lp) ∧ lp.next_page_id_ = b := by
  cases x with
  | none => simp [nextOf]
  | some p =>
    cases p with
    | leaf lp => simp [nextOf]
    | internal ip => simp [nextOf]

theorem prevOf_some_iff {x : Option Page} {b : Int} :
    prevOf x = some b ↔ ∃ lp, x = some (Page.leaf lp) ∧ lp.prev_page_id_ = b := by
  cases x with
  | none => simp [prevOf]
  | some p =>
    cases p with
    | leaf lp => simp [prevOf]
    | internal ip => simp [prevOf]

theorem nextOf_ne_none {x : Option Page} {b : Int} (h : nextOf x = some b) : x ≠ none := by
  intro h0
  rw [h0] at h
  cases h

theorem prevOf_ne_none {x : Option Page} {b : Int} (h : prevOf x = some b) : x ≠ none := by
  intro h0
  rw [h0] at h
  cases h

/-- A page of the pool has been handed out. -/
theorem ptrInv_range {t : BPlusTree} (h : PtrInv t) {p : Int} (hp : t.pages p ≠ none) :
    1 ≤ p ∧ p < t.next_page_id_ := by
  by_contra hc
  exact hp (h.2.1 p (by omega))

theorem ptrInv_ne_invalid {t : BPlusTree} (h : PtrInv t) {p : Int} (hp : t.pages p ≠ none) :
    p ≠ INVALID_PAGE_ID := by
  have := ptrInv_range h hp
  unfold INVALID_PAGE_ID
  omega

/-- The pointers of the pages change only between an absent pointer and an
invalid one: the agreement of the sibling pointers is kept. -/
theorem ptrInv_of_views (t t1 : BPlusTree) (hn : t.next_page_id_ ≤ t1.next_page_id_)
    (hv : ∀ p,
      (nextOf (t1.pages p) = nextOf (t.pages p) ∨
        (nextOf (t.pages p) = none ∧ nextOf (t1.pages p) = some INVALID_PAGE_ID) ∨
        (nextOf (t.pages p) = some INVALID_PAGE_ID ∧ nextOf (t1.pages p) = none)) ∧
      (prevOf (t1.pages p) = prevOf (t.pages p) ∨
        (prevOf (t.pages p) = none ∧ prevOf (t1.pages p) = some INVALID_PAGE_ID) ∨
        (prevOf (t.pages p) = some INVALID_PAGE_ID ∧ prevOf (t1.pages p) = none)) ∧
      (∀ b, b ≠ INVALID_PAGE_ID →
        (nextOf (t1.pages p) = some b ∨ prevOf (t1.pages p) = some b) →
        storedOf (t1.pages p) = storedOf (t.pages p) ∨ storedOf (t1.pages p) = some p) ∧
      (t1.pages p = none ∨ t.pages p ≠ none ∨ (1 ≤ p ∧ p < t1.next_page_id_)))
    (h : PtrInv t) : PtrInv t1 := by
  have hN : ∀ a b, b ≠ INVALID_PAGE_ID →
      (nextOf (t1.pages a) = some b ↔ nextOf (t.pages a) = some b) := by
    intro a b hb
    rcases (hv a).1 with e | ⟨e1, e2⟩ | ⟨e1, e2⟩
    · rw [e]
    · rw [e1, e2]
      constructor
      · intro hh
        exact absurd (Option.some.inj hh).symm hb
      · intro hh
        cases hh
    · rw [e1, e2]
      constructor
      · intro hh
        cases hh
      · intro hh
        exact absurd (Option.some.inj hh).symm hb
  have hP : ∀ a b, a ≠ INVALID_PAGE_ID →
      (prevOf (t1.pages b) = some a ↔ prevOf (t.pages b) = some a) := by
    intro a b ha
    rcases (hv b).2.1 with e | ⟨e1, e2⟩ | ⟨e1, e2⟩
    · rw [e]
    · rw [e1, e2]
      constructor
      · intro hh
        exact absurd (Option.some.inj hh).symm ha
      · intro hh
        cases hh
    · rw [e1, e2]
      constructor
      · intro hh
        cases hh
      · intro hh
        exact absurd (Option.some.inj hh).symm ha
  refine ⟨?_, ?_, ?_⟩
  · intro a b ha hb
    rw [hN a b hb, hP a b ha]
    exact h.1 a b ha hb
  · intro p hp
    rcases (hv p).2.2.2 with e | e | e
    · exact e
    · have := ptrInv_range h e
      omega
    · omega
  · intro a b hb hab
    have hab1 : nextOf (t.pages a) = some b ∨ prevOf (t.pages a) = some b := by
      rcases hab with e | e
      · exact Or.inl ((hN a b hb).mp e)
      · exact Or.inr ((hP b a hb).mp e)
    have hs := h.2.2 a b hb hab1
    rcases (hv a).2.2.1 b hb hab with e | e
    · rw [e]; exact hs
    · exact e

/-- A step of the pool that changes the pointers only from absent to invalid. -/
theorem ptrStep_of_views (t t1 : BPlusTree) (hn : t.next_page_id_ ≤ t1.next_page_id_)
    (hv : PtrInv t → ∀ p,
      (nextOf (t1.pages p) = nextOf (t.pages p) ∨
        (nextOf (t.pages p) = none ∧ nextOf (t1.pages p) = some INVALID_PAGE_ID)) ∧
      (prevOf (t1.pages p) = prevOf (t.pages p) ∨
        (prevOf (t.pages p) = none ∧ prevOf (t1.pages p) = some INVALID_PAGE_ID)) ∧
      (∀ b, b ≠ INVALID_PAGE_ID →
        (nextOf (t1.pages p) = some b ∨ prevOf (t1.pages p) = some b) →
        storedOf (t1.pages p) = storedOf (t.pages p) ∨ storedOf (t1.pages p) = some p) ∧
      (t1.pages p = none ∨ t.pages p ≠ none ∨ (1 ≤ p ∧ p < t1.next_page_id_))) :
    PtrStep t t1 := by
  refine ⟨fun hinv => ptrInv_of_views t t1 hn (fun p => ?_) hinv, ?_⟩
  · obtain ⟨h1, h2, h3, h4⟩ := hv hinv p
    refine ⟨?_, ?_, h3, h4⟩
    · rcases h1 with e | e
      · exact Or.inl e
      · exact Or.inr (Or.inl e)
    · rcases h2 with e | e
      · exact Or.inl e
      · exact Or.inr (Or.inl e)
  · intro f hinv hf
    unfold NoPrev at hf ⊢
    rcases (hv hinv f).2.1 with e | ⟨e1, _⟩
    · rw [e]; exact hf
    · rw [e1] at hf
      cases hf

/-- Writing a page over a page with the same pointers. -/
theorem ptrStep_setPage (t : BPlusTree) (pid : Int) (old pg : Page)
    (hex : t.pages pid = some old) (h1 : nextOf (some pg) = nextOf (some old))
    (h2 : prevOf (some pg) = prevOf (some old))
    (h3 : storedOf (some pg) = storedOf (some old) ∨ storedOf (some pg) = some pid) :
    PtrStep t (t.setPage pid pg) := by
  apply ptrStep_of_views t (t.setPage pid pg) (le_refl _)
  intro _ p
  by_cases hp : p = pid
  · subst hp
    simp only [setPage_pages, if_true, hex]
    exact ⟨Or.inl h1, Or.inl h2, fun _ _ _ => h3, Or.inr (Or.inl (by simp))⟩
  · have e : (t.setPage pid pg).pages p = t.pages p := by
      simp only [setPage_pages, hp, if_false]
    rw [e]
    exact ⟨Or.inl rfl, Or.inl rfl, fun _ _ _ => Or.inl rfl, by
      cases hq : t.pages p with
      | none => exact Or.inl rfl
      | some q => exact Or.inr (Or.inl (by simp))⟩

/-- Deleting a page that is not a leaf. -/
theorem ptrStep_deletePage (t : BPlusTree) (pid : Int) (h : nextOf (t.pages pid) = none) :
    PtrStep t (t.DeletePage pid) := by
  have hnl : ∀ lp, t.pages pid ≠ some (Page.leaf lp) := by
    intro lp hh
    rw [hh] at h
    cases h
  have h2 : prevOf (t.pages pid) = none := by
    cases hq : t.pages pid with
    | none => rfl
    | some q =>
      cases q with
      | leaf lp => exact absurd hq (hnl lp)
      | internal ip => rfl
  have h3 : storedOf (t.pages pid) = none := by
    cases hq : t.pages pid with
    | none => rfl
    | some q =>
      cases q with
      | leaf lp => exact absurd hq (hnl lp)
      | internal ip => rfl
  apply ptrStep_of_views t (t.DeletePage pid) (le_refl _)
  intro _ p
  by_cases hp : p = pid
  · subst hp
    have e : (t.DeletePage p).pages p = none := by
      simp only [deletePage_pages, if_true]
    rw [e]
    exact ⟨Or.inl h.symm, Or.inl h2.symm, fun _ _ _ => Or.inl h3.symm, Or.inl rfl⟩
  · have e : (t.DeletePage pid).pages p = t.pages p := by
      simp only [deletePage_pages, hp, if_false]
    rw [e]
    exact ⟨Or.inl rfl, Or.inl rfl, fun _ _ _ => Or.inl rfl, by
      cases hq : t.pages p with
      | none => exact Or.inl rfl
      | some q => exact Or.inr (Or.inl (by simp))⟩

/-- A page is handed out and written: an internal page, or a leaf without
neighbours. -/
theorem ptrStep_alloc (t : BPlusTree) (pg : Page) (h0 : 1 ≤ t.next_page_id_)
    (h1 : nextOf (some pg) = none ∨ nextOf (some pg) = some INVALID_PAGE_ID)
    (h2 : prevOf (some pg) = none ∨ prevOf (some pg) = some INVALID_PAGE_ID) :
    PtrInv t → PtrStep t (t.NewPage.2.setPage t.next_page_id_ pg) := by
  intro hinv
  have hnone : t.pages t.next_page_id_ = none := hinv.2.1 _ (Or.inr (le_refl _))
  apply ptrStep_of_views t (t.NewPage.2.setPage t.next_page_id_ pg)
    (by show t.next_page_id_ ≤ t.next_page_id_ + 1; omega)
  intro _ p
  by_cases hp : p = t.next_page_id_
  · subst hp
    simp only [setPage_pages, if_true, hnone]
    refine ⟨?_, ?_, ?_, Or.inr (Or.inr ⟨h0, by show t.next_page_id_ < t.next_page_id_ + 1; omega⟩)⟩
    · rcases h1 with e | e
      · exact Or.inl e
      · exact Or.inr ⟨rfl, e⟩
    · rcases h2 with e | e
      · exact Or.inl e
      · exact Or.inr ⟨rfl, e⟩
    · intro b hb hab
      exfalso
      rcases hab with e | e
      · rcases h1 with e1 | e1
        · rw [e1] at e; cases e
        · rw [e1] at e; exact hb (Option.some.inj e).symm
      · rcases h2 with e1 | e1
        · rw [e1] at e; cases e
        · rw [e1] at e; exact hb (Option.some.inj e).symm
  · have e : (t.NewPage.2.setPage t.next_page_id_ pg).pages p = t.pages p := by
      simp only [setPage_pages, hp, if_false, newPage_pages]
    rw [e]
    exact ⟨Or.inl rfl, Or.inl rfl, fun _ _ _ => Or.inl rfl, by
      cases hq : t.pages p with
      | none => exact Or.inl rfl
      | some q => exact Or.inr (Or.inl (by simp))⟩

/-- A leaf is split: the new leaf `n` is linked in behind the leaf `pid`. -/
theorem ptrStep_split {t t4 : BPlusTree} {pid n x : Int}
    (hnext : nextOf (t.pages pid) = some x) (hnt : t.next_page_id_ ≤ n) (hn1 : 1 ≤ n)
    (hn4 : n < t4.next_page_id_) (hnn : t.next_page_id_ ≤ t4.next_page_id_)
    (hx : x = INVALID_PAGE_ID ∨ x ≠ pid)
    (h1 : nextOf (t4.pages pid) = some n) (h2 : prevOf (t4.pages pid) = prevOf (t.pages pid))
    (h2s : storedOf (t4.pages pid) = some pid)
    (h3 : nextOf (t4.pages n) = some x) (h4 : prevOf (t4.pages n) = some pid)
    (h4s : storedOf (t4.pages n) = some n)
    (h5 : x ≠ INVALID_PAGE_ID → nextOf (t4.pages x) = nextOf (t.pages x) ∧
      prevOf (t4.pages x) = some n ∧ storedOf (t4.pages x) = storedOf (t.pages x))
    (h6 : ∀ p, p ≠ pid → p ≠ n → (x ≠ INVALID_PAGE_ID → p ≠ x) → t4.pages p = t.pages p) :
    PtrStep t t4 := by
  have hkey : PtrInv t → pid ≠ INVALID_PAGE_ID ∧ pid ≠ n ∧ n ≠ INVALID_PAGE_ID ∧
      (x ≠ INVALID_PAGE_ID → x ≠ n ∧ x ≠ pid ∧ prevOf (t.pages x) = some pid) ∧
      t.pages n = none := by
    intro hinv
    have hnone : t.pages n = none := hinv.2.1 n (Or.inr hnt)
    have hpid := ptrInv_ne_invalid hinv (nextOf_ne_none hnext)
    have hpn : pid ≠ n := by
      intro hh
      rw [hh, hnone] at hnext
      cases hnext
    have hninv : n ≠ INVALID_PAGE_ID := by
      unfold INVALID_PAGE_ID
      omega
    refine ⟨hpid, hpn, hninv, ?_, hnone⟩
    intro hxv
    have hpx := (hinv.1 pid x hpid hxv).mp hnext
    refine ⟨?_, ?_, hpx⟩
    · intro hh
      rw [hh, hnone] at hpx
      cases hpx
    · rcases hx with e | e
      · exact absurd e hxv
      · exact e
  constructor
  · intro hinv
    obtain ⟨hpid, hpn, hninv, hxfacts, hnone⟩ := hkey hinv
    have hnextN : ∀ a b, a ≠ pid → a ≠ n → (nextOf (t4.pages a) = some b ↔
        nextOf (t.pages a) = some b) := by
      intro a b ha1 ha2
      by_cases hax : x ≠ INVALID_PAGE_ID ∧ a = x
      · rw [hax.2, (h5 hax.1).1]
      · rw [h6 a ha1 ha2 (fun hxv hh => hax ⟨hxv, hh⟩)]
    have hprevN : ∀ a b, b ≠ n → ¬ (x ≠ INVALID_PAGE_ID ∧ b = x) →
        (prevOf (t4.pages b) = some a ↔ prevOf (t.pages b) = some a) := by
      intro a b hb1 hb2
      by_cases hbp : b = pid
      · rw [hbp, h2]
      · rw [h6 b hbp hb1 (fun hxv hh => hb2 ⟨hxv, hh⟩)]
    refine ⟨?_, ?_, ?_⟩
    · intro a b ha hb
      by_cases hbn : b = n
      · subst hbn
        rw [h4]
        constructor
        · intro hN
          by_cases hap : a = pid
          · rw [hap]
          · by_cases han : a = b
            · exfalso
              rw [han, h3] at hN
              have hxb : x = b := Option.some.inj hN
              exact (hxfacts (by rw [hxb]; exact hb)).1 hxb
            · exfalso
              have := (hinv.1 a b ha hb).mp ((hnextN a b hap han).mp hN)
              rw [hnone] at this
              cases this
        · intro hP
          have hap : pid = a := Option.some.inj hP
          rw [← hap]
          exact h1
      · by_cases hbx : x ≠ INVALID_PAGE_ID ∧ b = x
        · obtain ⟨hxv, hbx1⟩ := hbx
          subst hbx1
          obtain ⟨hxn, hxp, hpx⟩ := hxfacts hxv
          rw [(h5 hxv).2.1]
          constructor
          · intro hN
            by_cases hap : a = pid
            · exfalso
              rw [hap, h1] at hN
              exact hbn (Option.some.inj hN).symm
            · by_cases han : a = n
              · rw [han]
              · exfalso
                have := (hinv.1 a b ha hb).mp ((hnextN a b hap han).mp hN)
                rw [hpx] at this
                exact hap (Option.some.inj this).symm
          · intro hP
            have han : n = a := Option.some.inj hP
            rw [← han]
            exact h3
        · rw [hprevN a b hbn hbx, ← hinv.1 a b ha hb]
          by_cases hap : a = pid
          · rw [hap, h1, hnext]
            constructor
            · intro hh
              exact absurd (Option.some.inj hh).symm hbn
            · intro hh
              have hxb : x = b := Option.some.inj hh
              exact absurd ⟨by rw [hxb]; exact hb, hxb.symm⟩ hbx
          · by_cases han : a = n
            · rw [han, h3, hnone]
              constructor
              · intro hh
                have hxb : x = b := Option.some.inj hh
                exact absurd ⟨by rw [hxb]; exact hb, hxb.symm⟩ hbx
              · intro hh
                cases hh
            · exact hnextN a b hap han
    · intro p hp
      have hp1 : p ≠ pid := by
        intro hh
        have := ptrInv_range hinv (nextOf_ne_none hnext)
        omega
      have hp2 : p ≠ n := by omega
      have hp3 : x ≠ INVALID_PAGE_ID → p ≠ x := by
        intro hxv hh
        have := ptrInv_range hinv (prevOf_ne_none (hxfacts hxv).2.2)
        omega
      rw [h6 p hp1 hp2 hp3]
      exact hinv.2.1 p (by omega)
    · intro a b hb hab
      by_cases hap : a = pid
      · rw [hap]; exact h2s
      · by_cases han : a = n
        · rw [han]; exact h4s
        · by_cases hax : x ≠ INVALID_PAGE_ID ∧ a = x
          · obtain ⟨hxv, hax1⟩ := hax
            rw [hax1, (h5 hxv).2.2]
            exact hinv.2.2 x pid hpid (Or.inr (hxfacts hxv).2.2)
          · have e := h6 a hap han (fun hxv hh => hax ⟨hxv, hh⟩)
            rw [e] at hab ⊢
            exact hinv.2.2 a b hb hab
  · intro f hinv hf
    obtain ⟨hpid, hpn, hninv, hxfacts, hnone⟩ := hkey hinv
    unfold NoPrev at hf ⊢
    by_cases hfp : f = pid
    · rw [hfp, h2, ← hfp]; exact hf
    · by_cases hfn : f = n
      · rw [hfn, hnone] at hf
        cases hf
      · by_cases hfx : x ≠ INVALID_PAGE_ID ∧ f = x
        · exfalso
          rw [hfx.2, (hxfacts hfx.1).2.2] at hf
          exact hpid (Option.some.inj hf)
        · rw [h6 f hfp hfn (fun hxv hh => hfx ⟨hxv, hh⟩)]
          exact hf

/-- A leaf `s` is merged into the leaf `a` before it and deleted. -/
theorem ptrStep_merge {t t2 : BPlusTree} {a s z : Int}
    (hN : nextOf (t.pages a) = some s) (hs : nextOf (t.pages s) = some z) (has : a ≠ s)
    (hz : z = INVALID_PAGE_ID ∨ z ≠ a) (hn : t.next_page_id_ ≤ t2.next_page_id_)
    (h1 : nextOf (t2.pages a) = some z) (h2 : prevOf (t2.pages a) = prevOf (t.pages a))
    (h2s : storedOf (t2.pages a) = storedOf (t.pages a))
    (h3 : t2.pages s = none)
    (h4 : z ≠ INVALID_PAGE_ID → nextOf (t2.pages z) = nextOf (t.pages z) ∧
      prevOf (t2.pages z) = storedOf (t.pages a) ∧
      storedOf (t2.pages z) = storedOf (t.pages z))
    (h5 : ∀ p, p ≠ a → p ≠ s → (z ≠ INVALID_PAGE_ID → p ≠ z) →
      nextOf (t2.pages p) = nextOf (t.pages p) ∧ prevOf (t2.pages p) = prevOf (t.pages p) ∧
      storedOf (t2.pages p) = storedOf (t.pages p) ∧
      (t2.pages p = none ∨ t.pages p ≠ none)) :
    PtrStep t t2 := by
  have hkey : PtrInv t → a ≠ INVALID_PAGE_ID ∧ s ≠ INVALID_PAGE_ID ∧
      prevOf (t.pages s) = some a ∧ storedOf (t.pages a) = some a ∧
      (z ≠ INVALID_PAGE_ID → z ≠ s ∧ z ≠ a ∧ prevOf (t.pages z) = some s) := by
    intro hinv
    have ha := ptrInv_ne_invalid hinv (nextOf_ne_none hN)
    have hsv := ptrInv_ne_invalid hinv (nextOf_ne_none hs)
    have hps := (hinv.1 a s ha hsv).mp hN
    refine ⟨ha, hsv, hps, hinv.2.2 a s hsv (Or.inl hN), ?_⟩
    intro hzv
    have hpz := (hinv.1 s z hsv hzv).mp hs
    refine ⟨?_, ?_, hpz⟩
    · intro hh
      rw [hh, hps] at hpz
      exact has (Option.some.inj hpz)
    · rcases hz with e | e
      · exact absurd e hzv
      · exact e
  constructor
  · intro hinv
    obtain ⟨ha, hsv, hps, hsa, hzfacts⟩ := hkey hinv
    have hnextN : ∀ u b, u ≠ a → u ≠ s → (nextOf (t2.pages u) = some b ↔
        nextOf (t.pages u) = some b) := by
      intro u b hu1 hu2
      by_cases huz : z ≠ INVALID_PAGE_ID ∧ u = z
      · rw [huz.2, (h4 huz.1).1]
      · rw [(h5 u hu1 hu2 (fun hzv hh => huz ⟨hzv, hh⟩)).1]
    have hprevN : ∀ u b, b ≠ s → ¬ (z ≠ INVALID_PAGE_ID ∧ b = z) →
        (prevOf (t2.pages b) = some u ↔ prevOf (t.pages b) = some u) := by
      intro u b hb1 hb2
      by_cases hba : b = a
      · rw [hba, h2]
      · rw [(h5 b hba hb1 (fun hzv hh => hb2 ⟨hzv, hh⟩)).2.1]
    refine ⟨?_, ?_, ?_⟩
    · intro u b hu hb
      by_cases hbs : b = s
      · subst hbs
        rw [h3]
        constructor
        · intro hNu
          exfalso
          by_cases hua : u = a
          · rw [hua, h1] at hNu
            have hzb : z = b := Option.some.inj hNu
            exact (hzfacts (by rw [hzb]; exact hb)).1 hzb
          · by_cases hus : u = b
            · rw [hus, h3] at hNu
              cases hNu
            · have := (hinv.1 u b hu hb).mp ((hnextN u b hua hus).mp hNu)
              rw [hps] at this
              exact hua (Option.some.inj this).symm
        · intro hh
          cases hh
      · by_cases hbz : z ≠ INVALID_PAGE_ID ∧ b = z
        · obtain ⟨hzv, hbz1⟩ := hbz
          subst hbz1
          obtain ⟨hzs, hza, hpz⟩ := hzfacts hzv
          rw [(h4 hzv).2.1, hsa]
          constructor
          · intro hNu
            by_cases hua : u = a
            · rw [hua]
            · exfalso
              by_cases hus : u = s
              · rw [hus, h3] at hNu
                cases hNu
              · have := (hinv.1 u b hu hb).mp ((hnextN u b hua hus).mp hNu)
                rw [hpz] at this
                exact hus (Option.some.inj this).symm
          · intro hP
            have hau : a = u := Option.some.inj hP
            rw [← hau]
            exact h1
        · rw [hprevN u b hbs hbz, ← hinv.1 u b hu hb]
          by_cases hua : u = a
          · rw [hua, h1, hN]
            constructor
            · intro hh
              have hzb : z = b := Option.some.inj hh
              exact absurd ⟨by rw [hzb]; exact hb, hzb.symm⟩ hbz
            · intro hh
              exact absurd (Option.some.inj hh).symm hbs
          · by_cases hus : u = s
            · rw [hus, h3, hs]
              constructor
              · intro hh
                cases hh
              · intro hh
                have hzb : z = b := Option.some.inj hh
                exact absurd ⟨by rw [hzb]; exact hb, hzb.symm⟩ hbz
            · exact hnextN u b hua hus
    · intro p hp
      by_cases hps1 : p = s
      · rw [hps1]; exact h3
      · have hp1 : p ≠ a := by
          intro hh
          have := ptrInv_range hinv (nextOf_ne_none hN)
          omega
        have hp3 : z ≠ INVALID_PAGE_ID → p ≠ z := by
          intro hzv hh
          have := ptrInv_range hinv (prevOf_ne_none (hzfacts hzv).2.2)
          omega
        rcases (h5 p hp1 hps1 hp3).2.2.2 with e | e
        · exact e
        · have := ptrInv_range hinv e
          omega
    · intro u b hb hub
      by_cases hua : u = a
      · rw [hua, h2s]; exact hsa
      · by_cases hus : u = s
        · exfalso
          rw [hus, h3] at hub
          rcases hub with e | e <;> cases e
        · by_cases huz : z ≠ INVALID_PAGE_ID ∧ u = z
          · obtain ⟨hzv, huz1⟩ := huz
            rw [huz1, (h4 hzv).2.2]
            exact hinv.2.2 z s hsv (Or.inr (hzfacts hzv).2.2)
          · obtain ⟨e1, e2, e3, _⟩ := h5 u hua hus (fun hzv hh => huz ⟨hzv, hh⟩)
            rw [e1, e2] at hub
            rw [e3]
            exact hinv.2.2 u b hb hub
  · intro f hinv hf
    obtain ⟨ha, hsv, hps, hsa, hzfacts⟩ := hkey hinv
    unfold NoPrev at hf ⊢
    by_cases hfa : f = a
    · rw [hfa, h2, ← hfa]; exact hf
    · by_cases hfs : f = s
      · exfalso
        rw [hfs, hps] at hf
        exact ha (Option.some.inj hf)
      · by_cases hfz : z ≠ INVALID_PAGE_ID ∧ f = z
        · exfalso
          rw [hfz.2, (hzfacts hfz.1).2.2] at hf
          exact hsv (Option.some.inj hf)
        · rw [(h5 f hfa hfs (fun hzv hh => hfz ⟨hzv, hh⟩)).2.1]
          exact hf

/-- The only leaf of a tree is deleted. -/
theorem ptrInv_delete_single (t : BPlusTree) (pid : Int)
    (h1 : nextOf (t.pages pid) = some INVALID_PAGE_ID)
    (h2 : prevOf (t.pages pid) = some INVALID_PAGE_ID) (h : PtrInv t) :
    PtrInv (t.DeletePage pid) := by
  apply ptrInv_of_views t (t.DeletePage pid) (le_refl _) _ h
  intro p
  by_cases hp : p = pid
  · subst hp
    have e : (t.DeletePage p).pages p = none := by
      simp only [deletePage_pages, if_true]
    rw [e]
    exact ⟨Or.inr (Or.inr ⟨h1, rfl⟩), Or.inr (Or.inr ⟨h2, rfl⟩),
      fun b hb hab => (by rcases hab with e | e <;> cases e), Or.inl rfl⟩
  · have e : (t.DeletePage pid).pages p = t.pages p := by
      simp only [deletePage_pages, hp, if_false]
    rw [e]
    exact ⟨Or.inl rfl, Or.inl rfl, fun _ _ _ => Or.inl rfl, by
      cases hq : t.pages p with
      | none => exact Or.inl rfl
      | some q => exact Or.inr (Or.inl (by simp))⟩

/-- Writing a leaf over a leaf with the same pointers. -/
theorem ptrStep_setLeaf (t : BPlusTree) (pid : Int) (l0 l1 : LeafPage)
    (hpage : t.pages pid = some (Page.leaf l0))
    (hn : l1.next_page_id_ = l0.next_page_id_) (hp : l1.prev_page_id_ = l0.prev_page_id_)
    (hs : l1.page_id_ = l0.page_id_ ∨ l1.page_id_ = pid) :
    PtrStep t (t.setPage pid (Page.leaf l1)) := by
  apply ptrStep_setPage t pid (Page.leaf l0) (Page.leaf l1) hpage
  · simp [nextOf, hn]
  · simp [prevOf, hp]
  · rcases hs with e | e
    · exact Or.inl (by simp [storedOf, e])
    · exact Or.inr (by simp [storedOf, e])

/-- Writing a leaf twice over a leaf with the same pointers. -/
theorem ptrStep_setLeaf2 (t : BPlusTree) (pid : Int) (l0 l1 l2 : LeafPage)
    (hpage : t.pages pid = some (Page.leaf l0))
    (hn1 : l1.next_page_id_ = l0.next_page_id_) (hp1 : l1.prev_page_id_ = l0.prev_page_id_)
    (hs1 : l1.page_id_ = l0.page_id_ ∨ l1.page_id_ = pid)
    (hn2 : l2.next_page_id_ = l1.next_page_id_) (hp2 : l2.prev_page_id_ = l1.prev_page_id_)
    (hs2 : l2.page_id_ = l1.page_id_ ∨ l2.page_id_ = pid) :
    PtrStep t ((t.setPage pid (Page.leaf l1)).setPage pid (Page.leaf l2)) :=
  ptrStep_trans (ptrStep_setLeaf t pid l0 l1 hpage hn1 hp1 hs1)
    (ptrStep_setLeaf (t.setPage pid (Page.leaf l1)) pid l1 l2 (by simp) hn2 hp2 hs2)

/-- Writing an internal page over an internal page. -/
theorem ptrStep_setInternal (t : BPlusTree) (pid : Int) (i0 i1 : InternalPage)
    (hpage : t.pages pid = some (Page.internal i0)) :
    PtrStep t (t.setPage pid (Page.internal i1)) :=
  ptrStep_setPage t pid (Page.internal i0) (Page.internal i1) hpage rfl rfl (Or.inl rfl)

/-- Deleting an internal page. -/
theorem ptrStep_deleteInternal (t : BPlusTree) (pid : Int) (i0 : InternalPage)
    (hpage : t.pages pid = some (Page.internal i0)) : PtrStep t (t.DeletePage pid) :=
  ptrStep_deletePage t pid (by rw [hpage]; rfl)

theorem views_of_nextOf_none {x : Option Page} (h : nextOf x = none) :
    prevOf x = none ∧ storedOf x = none := by
  cases x with
  | none => exact ⟨rfl, rfl⟩
  | some p =>
    cases p with
    | leaf lp => cases h
    | internal ip => exact ⟨rfl, rfl⟩

/-- A step of the pool that leaves the leaves alone. -/
theorem ptrStep_no_leaf (t t1 : BPlusTree) (hn : t.next_page_id_ ≤ t1.next_page_id_)
    (h : PtrInv t → ∀ p, t1.pages p = t.pages p ∨
      (nextOf (t1.pages p) = none ∧ nextOf (t.pages p) = none ∧
        (t.pages p ≠ none ∨ (1 ≤ p ∧ p < t1.next_page_id_)))) :
    PtrStep t t1 := by
  apply ptrStep_of_views t t1 hn
  intro hinv p
  rcases h hinv p with e | ⟨e1, e2, e3⟩
  · rw [e]
    exact ⟨Or.inl rfl, Or.inl rfl, fun _ _ _ => Or.inl rfl, by
      cases hq : t.pages p with
      | none => exact Or.inl rfl
      | some q => exact Or.inr (Or.inl (by simp))⟩
  · obtain ⟨a1, a2⟩ := views_of_nextOf_none e1
    obtain ⟨b1, b2⟩ := views_of_nextOf_none e2
    exact ⟨Or.inl (by rw [e1, e2]), Or.inl (by rw [a1, b1]),
      fun _ _ _ => Or.inl (by rw [a2, b2]), Or.inr e3⟩

theorem nextOf_internal {x : Option Page} {ip : InternalPage}
    (h : x = some (Page.internal ip)) : nextOf x = none := by
  rw [h]
  rfl

/-! ## B+Tree: `Insert` on a leaf -/

theorem sortedKeys_cut {α : Type} (S : List (Int × α)) (hs : SortedKeys S) (c : Nat)
    (hc : c < S.length) :
    (∀ s ∈ S.take c, s.1 < (S.map Prod.fst).getD c 0) ∧
      (∀ s ∈ S.drop c, (S.map Prod.fst).getD c 0 ≤ s.1) ∧
      SortedKeys (S.take c) ∧ SortedKeys (S.drop c) ∧
      ∃ s ∈ S.drop c, s.1 = (S.map Prod.fst).getD c 0 := by
  have hd : S.drop c = S[c] :: S.drop (c + 1) := List.drop_eq_getElem_cons hc
  have hg : (S.map Prod.fst).getD c 0 = S[c].1 := by
    rw [List.getD_eq_getElem _ _ (by rw [List.length_map]; exact hc)]
    simp
  have hsplit : SortedKeys (S.take c ++ S.drop c) := by
    rw [List.take_append_drop]; exact hs
  obtain ⟨h1, h2, h3⟩ := sortedKeys_append.mp hsplit
  rw [hg]
  refine ⟨?_, ?_, h1, h2, S[c], by rw [hd]; exact List.mem_cons_self _ _, rfl⟩
  · intro s hs1
    exact h3 s hs1 S[c] (by rw [hd]; exact List.mem_cons_self _ _)
  · intro s hs1
    rw [hd] at hs1 h2
    rcases List.mem_cons.mp hs1 with h | h
    · rw [h]
    · exact le_of_lt ((sortedKeys_cons.mp h2).1 s h)

theorem sortedKeys_insert {α : Type} {A B : List (Int × α)} {key : Int} (v : α)
    (hs : SortedKeys (A ++ B)) (hA : ∀ s ∈ A, s.1 < key) (hB : ∀ s ∈ B, key < s.1) :
    SortedKeys (A ++ (key, v) :: B) := by
  obtain ⟨h1, h2, h3⟩ := sortedKeys_append.mp hs
  apply sortedKeys_append.mpr
  refine ⟨h1, sortedKeys_cons.mpr ⟨hB, h2⟩, ?_⟩
  intro a ha b hb
  rcases List.mem_cons.mp hb with h | h
  · rw [h]; exact hA a ha
  · exact h3 a ha b h

theorem fresh_ne_invalid {t : BPlusTree} {ps : List Int} (h : Fresh t ps) :
    t.next_page_id_ ≠ INVALID_PAGE_ID := by
  unfold INVALID_PAGE_ID
  have := h.1
  omega

/-- The leaf branch of `Insert` on a represented leaf. -/
theorem insertIntoLeaf_post (ctx_root key : Int) (value : RID) (L I S : Nat) (hL : 2 ≤ L)
    (hS : L + 2 ≤ S) (ws : List Int) (t : BPlusTree) (m : Nat) (pid : Int)
    (lo hi : Option Int) (E : Int → RID → Prop) (ps : List Int) (first nxt : Int)
    (lp0 : LeafPage) (hpage : t.pages pid = some (Page.leaf lp0))
    (hcL : t.leaf_max_size_ = L) (hcS : t.LEAF_PAGE_SLOT_CNT = S)
    (hrep : Rep L I t.pages 0 m pid lo hi E ps first nxt)
    (hlok : aboveLo lo key) (hhik : belowHi hi key) (hfresh : Fresh t ps)
    (hnext : NextOK t nxt ps) :
    InsertPost ctx_root key value L I ws t 0 m pid lo hi E ps first nxt
      (insertIntoLeaf ctx_root ws t pid lp0 key value) := by
  obtain ⟨lp, h1, h2, h3, h4, h5, h6, h7, h8, h9, h10, h11⟩ := hrep
  rw [hpage] at h1
  simp only [Option.some.injEq, Page.leaf.injEq] at h1
  subst h1
  subst h7
  have hpidlt : pid < t.next_page_id_ := (hfresh.2 pid (List.mem_singleton_self _)).2
  unfold insertIntoLeaf
  generalize hleaf : ({ lp0 with page_id_ := pid } : LeafPage) = leaf
  have hsl : leaf.slots = lp0.slots := by rw [← hleaf]
  have hmax : leaf.max_size_ = L := by rw [← hleaf]; exact h2
  have hnx : leaf.next_page_id_ = nxt := by rw [← hleaf]; exact h9
  have hpl : leaf.page_id_ = pid := by rw [← hleaf]
  have hpv : leaf.prev_page_id_ = lp0.prev_page_id_ := by rw [← hleaf]
  have hnx0 : leaf.next_page_id_ = lp0.next_page_id_ := by rw [← hleaf]
  clear hleaf
  rw [← hsl] at h3 h4 h5 h6 h11
  rcases leaf_find leaf key h4 with
    ⟨A, v0, B, hsplit, hidx, hA, hB⟩ | ⟨A, B, hsplit, hidx, hA, hB, hc⟩
  · -- the key is on the page
    obtain ⟨e1, _, e3⟩ := leaf_KeyAt_append _ hsplit
    refine Or.inl ⟨t.setPage pid (Page.leaf leaf), ?_, ⟨v0, ?_⟩,
      keep_setPage _ _ _, rfl, ?_, ?_⟩
    · simp only [hidx, e3, if_true, e1, Outcome.ok_bind, comparator_self, decide_True,
        Outcome.pure_eq_ok]
    · rw [h6, hsplit]
      exact List.mem_append_right _ (List.mem_cons_self _ _)
    · exact ⟨leaf, by simp, hmax, h3, h4, h5, h6, rfl, h8, hnx, h10, h11⟩
    · refine ⟨?_, ptrStep_setLeaf t pid lp0 leaf hpage hnx0 hpv (Or.inr hpl)⟩
      intro p hp _
      have : p ≠ pid := fun h => hp (by rw [h]; exact List.mem_singleton_self _)
      simp [this]
  · -- the key is not on the page
    have hnotE : ∀ v0, ¬ E key v0 := by
      intro v0 hE
      rw [h6, hsplit] at hE
      exact not_mem_of_bounds hA hB hE
    have hlen : A.length + B.length ≤ L := by
      rw [hsplit, List.length_append] at h3
      exact h3
    have hsize : leaf.GetSize = ((A.length + B.length : Nat) : Int) := by
      unfold LeafPage.GetSize
      rw [hsplit, List.length_append]
    have hins : leaf.Insert t.LEAF_PAGE_SLOT_CNT key value
        = (true, { leaf with slots := A ++ (key, value) :: B }) := by
      unfold LeafPage.Insert
      have hsz1 : ¬ (leaf.GetSize + 1 ≥ (t.LEAF_PAGE_SLOT_CNT : Int)) := by
        rw [hsize, hcS]
        omega
      rw [if_neg hsz1, hidx, Int.toNat_ofNat, hsplit, insertSlot_append]
    have hsorted : SortedKeys (A ++ (key, value) :: B) := by
      apply sortedKeys_insert value _ hA hB
      rw [← hsplit]; exact h4
    have hbounds : ∀ s ∈ A ++ (key, value) :: B, aboveLo lo s.1 ∧ belowHi hi s.1 := by
      intro s hs1
      rcases List.mem_append.mp hs1 with h | h
      · exact h5 s (by rw [hsplit]; exact List.mem_append_left _ h)
      · rcases List.mem_cons.mp h with h | h
        · rw [h]; exact ⟨hlok, hhik⟩
        · exact h5 s (by rw [hsplit]; exact List.mem_append_right _ h)
    have hEnew : ∀ k v, (E k v ∨ (k = key ∧ v = value)) ↔ (k, v) ∈ A ++ (key, value) :: B := by
      intro k v
      rw [h6, hsplit]
      simp only [List.mem_append, List.mem_cons, Prod.mk.injEq]
      tauto
    have hstep : ∀ (jp : Bool → Outcome (Bool × BPlusTree)),
        (if leaf.KeyIndex key < leaf.GetSize then do
          let k ← leaf.KeyAt (leaf.KeyIndex key)
          let y ← pure (decide (comparator k key = 0))
          jp y
        else do
          let y ← pure false
          jp y) = jp false := by
      intro jp
      rcases hc with ⟨hc, _⟩ | ⟨k1, hlt, hk, hne⟩
      · rw [if_neg (by omega)]; rfl
      · rw [if_pos hlt, hk]
        simp only [Outcome.ok_bind, hne, decide_False, Outcome.pure_eq_ok]
    simp only [hstep, hins, Bool.false_eq_true, if_false, Bool.true_eq_false]
    have hsize1 : ({ leaf with slots := A ++ (key, value) :: B } : LeafPage).GetSize
        = ((A.length + B.length + 1 : Nat) : Int) := by
      unfold LeafPage.GetSize
      simp only [List.length_append, List.length_cons]
      push_cast
      omega
    rw [hsize1]
    by_cases hfit : A.length + B.length + 1 ≤ L
    · -- the leaf has room
      have hle : ((A.length + B.length + 1 : Nat) : Int) ≤ ((leaf.max_size_ : Nat) : Int) := by
        rw [hmax]
        omega
      rw [if_pos hle]
      refine Or.inr (Or.inl ⟨_, [pid], rfl, hnotE,
        keep_trans (keep_setPage _ _ _) (keep_setPage _ _ _), le_refl _, ?_,
        fun p hp => Or.inl hp, ?_⟩)
      · have hm : m ≤ A.length + B.length + 1 := by
          rw [hsplit, List.length_append] at h11
          exact h11
        refine ⟨{ leaf with slots := A ++ (key, value) :: B }, by simp, hmax, ?_,
          hsorted, hbounds, hEnew, rfl, h8, hnx, h10, ?_⟩
        · simp only [List.length_append, List.length_cons]
          omega
        · simp only [List.length_append, List.length_cons]
          omega
      · refine ⟨?_, ptrStep_setLeaf2 t pid lp0 leaf _ hpage hnx0 hpv (Or.inr hpl) rfl rfl
          (Or.inl rfl)⟩
        intro p hp hlt
        have : p ≠ pid := fun h => hp (by rw [h]; exact List.mem_singleton_self _)
        simp [this]
    · -- the leaf is split
      have hgt : ¬ ((A.length + B.length + 1 : Nat) : Int) ≤ ((leaf.max_size_ : Nat) : Int) := by
        rw [hmax]
        omega
      rw [if_neg hgt]
      have hLeq : A.length + B.length = L := by omega
      have hnewne : pid ≠ t.next_page_id_ := by omega
      simp only [newPage_fst, setPage_next, if_neg (fresh_ne_invalid hfresh)]
      generalize ht3 : (((t.setPage pid (Page.leaf leaf)).setPage pid
        (Page.leaf { leaf with slots := A ++ (key, value) :: B })).NewPage.2.setPage
          t.next_page_id_ (Page.leaf { LeafPage.Init t.leaf_max_size_ with
            page_id_ := t.next_page_id_ })) = t3
      have h3pid : t3.pages pid
          = some (Page.leaf { leaf with slots := A ++ (key, value) :: B }) := by
        rw [← ht3]; simp [hnewne]
      have h3new : t3.pages t.next_page_id_ = some (Page.leaf { LeafPage.Init t.leaf_max_size_ with
            page_id_ := t.next_page_id_ }) := by
        rw [← ht3]; simp
      have h3other : ∀ p, p ≠ pid → p ≠ t.next_page_id_ → t3.pages p = t.pages p := by
        intro p hp1 hp2
        rw [← ht3]; simp [hp1, hp2]
      have h3next : t3.next_page_id_ = t.next_page_id_ + 1 := by rw [← ht3]; rfl
      have h3keep : Keep t t3 := by rw [← ht3]; exact ⟨rfl, rfl, rfl, rfl⟩
      clear ht3
      have hlenI : (A ++ (key, value) :: B).length = L + 1 := by
        simp only [List.length_append, List.length_cons]
        omega
      have hcut : ((A ++ (key, value) :: B).length + 1) / 2 < (A ++ (key, value) :: B).length := by
        rw [hlenI]
        omega
      obtain ⟨t4, hsp, h4pid, h4new, h4other, h4next, h4keep, h4exact, h4x⟩ :=
        leafSplit_spec t3 pid t.next_page_id_ { leaf with slots := A ++ (key, value) :: B }
          { LeafPage.Init t.leaf_max_size_ with page_id_ := t.next_page_id_ } h3pid h3new hnewne
          hcut
          (by
            show leaf.next_page_id_ = INVALID_PAGE_ID ∨ _
            rw [hnx]
            rcases hnext with hn | ⟨hn1, hn2, lpn, hn3⟩
            · exact Or.inl hn
            · have hn4 : nxt ≠ pid := fun h => hn1 (by rw [h]; exact List.mem_singleton_self _)
              have hn5 : nxt ≠ t.next_page_id_ := by omega
              exact Or.inr ⟨hn4, hn5, lpn, by rw [h3other nxt hn4 hn5]; exact hn3⟩)
      rw [hsp]
      simp only [Outcome.ok_bind]
      obtain ⟨c1, c2, c3, c4, ⟨smid, c5, c6⟩⟩ := sortedKeys_cut (A ++ (key, value) :: B) hsorted
        (((A ++ (key, value) :: B).length + 1) / 2) hcut
      generalize hcdef : ((A ++ (key, value) :: B).length + 1) / 2 = c at *
      generalize hmdef : ((A ++ (key, value) :: B).map Prod.fst).getD c 0 = mid at *
      generalize hSdef : A ++ (key, value) :: B = S1 at *
      have hc0 : 1 ≤ c := by omega
      have hcle : c ≤ L := by omega
      have hmidb : aboveLo lo mid ∧ belowHi hi mid := by
        rw [← c6]
        exact hbounds smid (List.mem_of_mem_drop c5)
      refine Or.inr (Or.inr ⟨t4, mid, t.next_page_id_, fun k v => (k, v) ∈ S1.take c,
        fun k v => (k, v) ∈ S1.drop c, [pid], [t.next_page_id_], t.next_page_id_, rfl, hnotE,
        keep_trans h3keep h4keep, by omega, ?_, ?_, ?_, ?_, ?_, ?_⟩)
      · refine ⟨_, h4pid, hmax, ?_, c3, ?_, fun k v => Iff.rfl, rfl, h8, rfl, ?_, ?_⟩
        rotate_right
        · show 2 ≤ (S1.take c).length + 1
          rw [List.length_take]
          omega
        · show (S1.take c).length ≤ L
          rw [List.length_take]
          omega
        · intro s hs1
          refine ⟨(hbounds s (List.mem_of_mem_take hs1)).1, ?_⟩
          intro h hh
          cases hh
          exact c1 s hs1
        · intro l h hl hh
          cases hh
          have hpos : 0 < (S1.take c).length := by rw [List.length_take]; omega
          have hmem : (S1.take c)[0] ∈ S1.take c := List.getElem_mem _
          have := c1 _ hmem
          have := (hbounds _ (List.mem_of_mem_take hmem)).1 l hl
          omega
      · refine ⟨_, h4new, hcL, ?_, ?_, ?_, fun k v => ?_, rfl, rfl, hnx, ?_, ?_⟩
        rotate_right
        · show 2 ≤ ([] ++ S1.drop c).length + 1
          rw [List.nil_append, List.length_drop]
          omega
        · show ([] ++ S1.drop c).length ≤ L
          rw [List.nil_append, List.length_drop]
          omega
        · show SortedKeys ([] ++ S1.drop c)
          rw [List.nil_append]; exact c4
        · show ∀ s ∈ [] ++ S1.drop c, _
          rw [List.nil_append]
          intro s hs1
          refine ⟨?_, (hbounds s (List.mem_of_mem_drop hs1)).2⟩
          intro l hl
          cases hl
          exact c2 s hs1
        · show _ ↔ (k, v) ∈ [] ++ S1.drop c
          rw [List.nil_append]
        · intro l h hl hh
          cases hl
          exact hmidb.2 h hh
      · intro k v
        rw [hEnew k v, ← List.mem_append, List.take_append_drop]
      · simp [hnewne]
      · intro p hp
        simp only [List.singleton_append, List.mem_cons, List.mem_singleton, List.not_mem_nil,
          or_false] at hp
        rcases hp with hp | hp
        · exact Or.inl (by rw [hp]; exact List.mem_singleton_self _)
        · exact Or.inr (by omega)
      · refine ⟨?_, ?_⟩
        · intro p hp hlt
          have hp1 : p ≠ pid := fun h => hp (by rw [h]; exact List.mem_singleton_self _)
          have hp2 : p ≠ t.next_page_id_ := by omega
          rw [h4other p hp1 hp2, h3other p hp1 hp2]
        · have hnxS : ({ leaf with slots := S1 } : LeafPage).next_page_id_ = nxt := hnx
          apply @ptrStep_split _ _ pid t.next_page_id_ nxt
          · rw [hpage]
            simp [nextOf, h9]
          · exact le_refl _
          · exact hfresh.1
          · omega
          · omega
          · rcases hnext with hn | ⟨hn1, _⟩
            · exact Or.inl hn
            · exact Or.inr (fun h => hn1 (by rw [h]; exact List.mem_singleton_self _))
          · rw [h4pid]
            rfl
          · rw [h4pid, hpage]
            simp [prevOf, hpv]
          · rw [h4pid]
            simp [storedOf, hpl]
          · rw [h4new]
            simp [nextOf, hnx]
          · rw [h4new]
            simp [prevOf, hpl]
          · rw [h4new]
            rfl
          · intro hxv
            obtain ⟨nl, g1, g2⟩ := h4x (by rw [hnxS]; exact hxv)
            rw [hnxS] at g1 g2
            rcases hnext with hn | ⟨hn1, hn2, _⟩
            · exact absurd hn hxv
            · have hn4 : nxt ≠ pid := fun h => hn1 (by rw [h]; exact List.mem_singleton_self _)
              have hn5 : nxt ≠ t.next_page_id_ := by omega
              rw [h3other nxt hn4 hn5] at g1
              rw [g2, g1]
              exact ⟨rfl, rfl, rfl⟩
          · intro p hp1 hp2 hp3
            rw [h4exact p hp1 hp2 (by
              rw [hnxS]
              exact fun hh => hp3 hh.1 hh.2), h3other p hp1 hp2]


/-! ## B+Tree: putting a separator into the parent -/

theorem slotsOf_snoc_pid {lo : Option Int} {pre : List Kid} {k : Kid} {SA : List (Int × Int)}
    (h : SlotsOf lo (pre ++ [k]) SA) :
    ∃ SA1 s, SA = SA1 ++ [s] ∧ SA1.length = pre.length ∧ s.2 = k.pid ∧
      SA1.map Prod.snd = pre.map Kid.pid := by
  have hlen := slotsOf_length h
  rw [List.length_append, List.length_singleton] at hlen
  have hne : SA ≠ [] := by
    intro h0
    rw [h0] at hlen
    simp at hlen
  have hSA : SA = SA.dropLast ++ [SA.getLast hne] := (List.dropLast_append_getLast hne).symm
  have hmap := h.1
  rw [hSA, List.map_append, List.map_append] at hmap
  have hl : (pre.map Kid.pid).length = (SA.dropLast.map Prod.snd).length := by
    simp only [List.length_map, List.length_dropLast]
    omega
  obtain ⟨e1, e2⟩ := List.append_inj hmap hl
  refine ⟨SA.dropLast, SA.getLast hne, hSA, ?_, ?_, e1.symm⟩
  · rw [List.length_dropLast]; omega
  · simpa using e2.symm

/-- The page ids of the children of a page are pairwise distinct. -/
theorem kids_pid_distinct {R : Kid → Option Int → Int → Prop}
    (hRp : ∀ kid hi1 nxt1, R kid hi1 nxt1 → kid.pid ∈ kid.ps)
    {pre : List Kid} {kid : Kid} {post : List Kid} {hi : Option Int} {nxt : Int}
    (hok : KidsOK R (pre ++ kid :: post) hi nxt)
    (hnd : ((pre ++ kid :: post).flatMap Kid.ps).Nodup) :
    ∀ x ∈ pre, x.pid ≠ kid.pid := by
  intro x hx heq
  obtain ⟨_, _, hrx⟩ := kidsOK_mem hok (List.mem_append_left _ hx)
  obtain ⟨_, _, hrk⟩ := kidsOK_mem hok (List.mem_append_right _ (List.mem_cons_self _ _))
  have h1 := hRp _ _ _ hrx
  have h2 := hRp _ _ _ hrk
  rw [List.flatMap_append, List.nodup_append] at hnd
  apply hnd.2.2 (List.mem_flatMap.mpr ⟨x, hx, h1⟩)
  rw [List.flatMap_cons, heq]
  exact List.mem_append_left _ h2

theorem repKid_pid_mem {L I : Nat} {pages : Int → Option Page} {h : Nat} :
    ∀ (kid : Kid) (hi1 : Option Int) (nxt1 : Int), RepKid L I pages h kid hi1 nxt1 →
      kid.pid ∈ kid.ps := fun _ _ _ hr => rep_pid_mem hr

theorem internal_split_eq (ip sib : InternalPage) (hsib : sib.slots = [])
    (hc : ip.slots.length / 2 < ip.slots.length) :
    ∃ ms, ip.slots.drop (ip.slots.length / 2) = ms :: ip.slots.drop (ip.slots.length / 2 + 1) ∧
      ip.Split sib = Outcome.ok
        ({ ip with slots := ip.slots.take (ip.slots.length / 2) },
         { sib with slots := (0, ms.2) :: ip.slots.drop (ip.slots.length / 2 + 1) }, ms.1) := by
  refine ⟨ip.slots[ip.slots.length / 2], List.drop_eq_getElem_cons hc, ?_⟩
  unfold InternalPage.Split
  simp only [List.get?_eq_getElem?, List.getElem?_eq_getElem hc, hsib, List.head?_nil,
    Option.map_none', Option.getD_none]

theorem mem_flatMap_take {K : List Kid} {c : Nat} {p : Int}
    (h : p ∈ (K.take c).flatMap Kid.ps) : p ∈ K.flatMap Kid.ps := by
  obtain ⟨x, hx, hp⟩ := List.mem_flatMap.mp h
  exact List.mem_flatMap.mpr ⟨x, List.mem_of_mem_take hx, hp⟩

theorem mem_flatMap_drop {K : List Kid} {c : Nat} {p : Int}
    (h : p ∈ (K.drop c).flatMap Kid.ps) : p ∈ K.flatMap Kid.ps := by
  obtain ⟨x, hx, hp⟩ := List.mem_flatMap.mp h
  exact List.mem_flatMap.mpr ⟨x, List.mem_of_mem_drop hx, hp⟩

/-- The second branch of `CoalesceOrSplit` on a represented parent whose child
`kidL` has been split off the new right neighbour `kidR`. -/
theorem insertIntoParent_post (L I : Nat) (hI : 3 ≤ I) (t : BPlusTree)
    (hcI : t.internal_max_size_ = I) (h m : Nat) (pid : Int) (ip : InternalPage)
    (hpage : t.pages pid = some (Page.internal ip)) (hmax : ip.max_size_ = I)
    (lo hi : Option Int) (nxt : Int) (pre : List Kid) (kidL kidR : Kid) (post : List Kid)
    (SA SB : List (Int × Int)) (hslots : ip.slots = SA ++ SB)
    (hSA : SlotsOf lo (pre ++ [kidL]) SA) (hSB : SlotsTail post SB) (mid new : Int)
    (hRlo : kidR.lo = some mid) (hRpid : kidR.pid = new)
    (hok : KidsOK (RepKid L I t.pages h) (pre ++ kidL :: kidR :: post) hi nxt)
    (hnd : (pid :: (pre ++ kidL :: kidR :: post).flatMap Kid.ps).Nodup)
    (hfresh : Fresh t (pid :: (pre ++ kidL :: kidR :: post).flatMap Kid.ps))
    (hm : m ≤ (pre ++ kidL :: kidR :: post).length) :
    (∃ t1, insertIntoParent t pid kidL.pid mid new = Outcome.ok (t1, none) ∧ Keep t t1 ∧
      t1.next_page_id_ = t.next_page_id_ ∧
      Rep L I t1.pages (h + 1) m pid lo hi
        (fun k v => ∃ x ∈ pre ++ kidL :: kidR :: post, x.E k v)
        (pid :: (pre ++ kidL :: kidR :: post).flatMap Kid.ps)
        (nextFirst (pre ++ kidL :: kidR :: post) nxt) nxt ∧
      (∀ p, p ≠ pid → t1.pages p = t.pages p)) ∨
    (∃ t1 mid1 K1 K2, pre ++ kidL :: kidR :: post = K1 ++ K2 ∧
      insertIntoParent t pid kidL.pid mid new
        = Outcome.ok (t1, some (pid, mid1, t.next_page_id_)) ∧
      Keep t t1 ∧ t1.next_page_id_ = t.next_page_id_ + 1 ∧
      Rep L I t1.pages (h + 1) 2 pid lo (some mid1) (fun k v => ∃ x ∈ K1, x.E k v)
        (pid :: K1.flatMap Kid.ps) (nextFirst (pre ++ kidL :: kidR :: post) nxt)
        (nextFirst K2 nxt) ∧
      Rep L I t1.pages (h + 1) 2 t.next_page_id_ (some mid1) hi (fun k v => ∃ x ∈ K2, x.E k v)
        (t.next_page_id_ :: K2.flatMap Kid.ps) (nextFirst K2 nxt) nxt ∧
      (∀ p, p ≠ pid → p ≠ t.next_page_id_ → t1.pages p = t.pages p)) := by
  obtain ⟨SA1, s, hSAeq, hSA1len, hspid, hSA1pid⟩ := slotsOf_snoc_pid hSA
  have hSAlen : SA.length = pre.length + 1 := by
    rw [hSAeq, List.length_append, List.length_singleton, hSA1len]
  have hnd2 := (List.nodup_cons.mp hnd).2
  have hdist : ∀ x ∈ SA1, x.2 ≠ kidL.pid := by
    intro x hx
    have : x.2 ∈ pre.map Kid.pid := by
      rw [← hSA1pid]
      exact List.mem_map_of_mem _ hx
    obtain ⟨y, hy, hyx⟩ := List.mem_map.mp this
    rw [← hyx]
    exact kids_pid_distinct repKid_pid_mem hok hnd2 y hy
  have hslots2 : ip.slots = SA1 ++ s :: SB := by
    rw [hslots, hSAeq, List.append_assoc]
    rfl
  have hvi : ({ ip with page_id_ := pid } : InternalPage).ValueIndex kidL.pid
      = (SA1.length : Int) :=
    valueIndex_append _ kidL.pid hslots2 hspid hdist
  have hS1 : SlotsOf lo (pre ++ kidL :: kidR :: post) (SA ++ (mid, new) :: SB) := by
    have : pre ++ kidL :: kidR :: post = (pre ++ [kidL]) ++ kidR :: post := by simp
    rw [this]
    exact slotsOf_append hSA (slotsTail_cons.mpr ⟨hRlo, hRpid, hSB⟩)
  have hina : ({ ip with page_id_ := pid } : InternalPage).InsertNodeAfter kidL.pid mid new
      = Outcome.ok { ip with page_id_ := pid, slots := SA ++ (mid, new) :: SB } := by
    unfold InternalPage.InsertNodeAfter
    have hne : ¬ ((SA1.length : Int) = -1) := by omega
    simp only [hvi, if_neg hne]
    have e : ((SA1.length : Int) + 1).toNat = SA.length := by
      rw [hSAlen, hSA1len]
      omega
    rw [e]
    show Outcome.ok { ip with page_id_ := pid, slots := insertSlot ip.slots SA.length (mid, new) }
      = _
    rw [hslots, insertSlot_append]
  have hpidnot : pid ∉ (pre ++ kidL :: kidR :: post).flatMap Kid.ps := (List.nodup_cons.mp hnd).1
  have hlen : (SA ++ (mid, new) :: SB).length = (pre ++ kidL :: kidR :: post).length :=
    (slotsOf_length hS1).symm
  unfold insertIntoParent
  rw [internalAt_eq hpage]
  simp only [Outcome.ok_bind, hina]
  have hsz : ({ ip with page_id_ := pid, slots := SA ++ (mid, new) :: SB } : InternalPage).GetSize
      = (((pre ++ kidL :: kidR :: post).length : Nat) : Int) := by
    unfold InternalPage.GetSize
    rw [← hlen]
  rw [hsz]
  by_cases hfit : (pre ++ kidL :: kidR :: post).length ≤ I
  · have hle : (((pre ++ kidL :: kidR :: post).length : Nat) : Int) ≤ ((ip.max_size_ : Nat) : Int) := by
      rw [hmax]; omega
    simp only [hle, if_true, Outcome.pure_eq_ok]
    refine Or.inl ⟨_, rfl, keep_setPage _ _ _, rfl, ?_, ?_⟩
    · rw [rep_internal_iff]
      refine ⟨{ ip with page_id_ := pid, slots := SA ++ (mid, new) :: SB },
        pre ++ kidL :: kidR :: post, by simp, hmax, hm, hS1, ?_, fun k v => Iff.rfl,
        rfl, hnd, rfl⟩
      apply kidsOK_frame _ hok
      intro kid hkid p hp
      have : p ≠ pid := by
        intro hh
        apply hpidnot
        rw [← hh]
        exact List.mem_flatMap.mpr ⟨kid, hkid, hp⟩
      simp [this]
    · intro p hp
      simp [hp]
  · have hgt : ¬ (((pre ++ kidL :: kidR :: post).length : Nat) : Int)
        ≤ ((ip.max_size_ : Nat) : Int) := by
      rw [hmax]; omega
    have hnewne : pid ≠ t.next_page_id_ := by
      have := (hfresh.2 pid (List.mem_cons_self _ _)).2
      omega
    simp only [hgt, if_false, newPage_fst, if_neg (fresh_ne_invalid hfresh)]
    have hbig : I + 1 ≤ (SA ++ (mid, new) :: SB).length := by
      rw [hlen]; omega
    generalize hSdef : SA ++ (mid, new) :: SB = S1 at *
    generalize hKdef : pre ++ kidL :: kidR :: post = K at *
    have hc : S1.length / 2 < S1.length := by omega
    obtain ⟨ms, hdrop, hsplit⟩ := internal_split_eq
      { ip with page_id_ := pid, slots := S1 } (InternalPage.Init t.internal_max_size_) rfl hc
    rw [hsplit]
    simp only [Outcome.ok_bind, Outcome.pure_eq_ok]
    have hKsplit : K = K.take (S1.length / 2) ++ K.drop (S1.length / 2) :=
      (List.take_append_drop _ _).symm
    have hlenK1 : (K.take (S1.length / 2)).length = S1.length / 2 := by
      rw [List.length_take]; omega
    have hK1ne : K.take (S1.length / 2) ≠ [] := by
      intro h0
      rw [h0] at hlenK1
      simp only [List.length_nil] at hlenK1
      omega
    have hS1K := hS1
    rw [hKsplit] at hS1K
    obtain ⟨T1, T2, hT, hTlen, hT1, hT2⟩ := slotsOf_split hK1ne hS1K
    have hTlen2 : T1.length = S1.length / 2 := by
      rw [hTlen, List.length_take]
      omega
    have hT1eq : T1 = S1.take (S1.length / 2) := by
      have := congrArg (List.take T1.length) hT
      rw [List.take_left' rfl, hTlen2] at this
      exact this.symm
    have hT2eq : T2 = S1.drop (S1.length / 2) := by
      have := congrArg (List.drop T1.length) hT
      rw [List.drop_left' rfl, hTlen2] at this
      exact this.symm
    rw [hT2eq] at hT2
    change SlotsTail _ (List.drop (S1.length / 2) S1) at hT2
    have hdrop2 : List.drop (S1.length / 2) S1 = ms :: List.drop (S1.length / 2 + 1) S1 := hdrop
    rw [hdrop2] at hT2
    cases hK2 : K.drop (S1.length / 2) with
    | nil =>
      rw [hK2] at hT2
      have := slotsTail_length hT2
      simp at this
    | cons km K2r =>
      rw [hK2] at hT2
      obtain ⟨hkmlo, hkmpid, hT2r⟩ := slotsTail_cons.mp hT2
      have hokK := hok
      rw [hKsplit, kidsOK_append] at hokK
      have hnewnot : t.next_page_id_ ∉ K.flatMap Kid.ps := by
        intro hh
        have := (hfresh.2 _ (List.mem_cons_of_mem _ hh)).2
        omega
      have hframe : ∀ kid ∈ K, ∀ p ∈ kid.ps,
          ((((t.NewPage.2.setPage pid (Page.internal
              { ip with page_id_ := pid, slots := S1.take (S1.length / 2) })).setPage
              t.next_page_id_ (Page.internal
                { InternalPage.Init t.internal_max_size_ with
                  slots := (0, ms.2) :: S1.drop (S1.length / 2 + 1) })).pages p).map Page.core)
            = (t.pages p).map Page.core := by
        intro kid hkid p hp
        have hpK : p ∈ K.flatMap Kid.ps := List.mem_flatMap.mpr ⟨kid, hkid, hp⟩
        have h1 : p ≠ pid := fun hh => hpidnot (hh ▸ hpK)
        have h2 : p ≠ t.next_page_id_ := fun hh => hnewnot (hh ▸ hpK)
        simp [h1, h2]
      have hlenK2 : (km :: K2r).length = S1.length - S1.length / 2 := by
        rw [← hK2, List.length_drop]; omega
      refine Or.inr ⟨_, ms.1, K.take (S1.length / 2), km :: K2r, by rw [← hK2]; exact hKsplit,
        rfl, ⟨rfl, rfl, rfl, rfl⟩, rfl, ?_, ?_, ?_⟩
      · rw [rep_internal_iff]
        refine ⟨{ ip with page_id_ := pid, slots := S1.take (S1.length / 2) },
          K.take (S1.length / 2), by simp [hnewne], hmax, by omega, ?_, ?_,
          fun k v => Iff.rfl, rfl, ?_, ?_⟩
        · rw [← hT1eq]; exact hT1
        · have := hokK.1
          rw [hK2] at this
          simp only [nextLo, hkmlo] at this
          apply kidsOK_frame _ this
          intro kid hkid p hp
          exact hframe kid (List.mem_of_mem_take hkid) p hp
        · have hsub : (pid :: (K.take (S1.length / 2)).flatMap Kid.ps).Sublist
              (pid :: K.flatMap Kid.ps) := by
            apply List.Sublist.cons₂
            nth_rewrite 2 [hKsplit]
            rw [List.flatMap_append]
            exact List.sublist_append_left _ _
          exact hsub.nodup hnd
        · nth_rewrite 1 [hKsplit]
          cases hK1 : K.take (S1.length / 2) with
          | nil => exact absurd hK1 hK1ne
          | cons a l => rfl
      · rw [rep_internal_iff]
        refine ⟨{ InternalPage.Init t.internal_max_size_ with
            slots := (0, ms.2) :: S1.drop (S1.length / 2 + 1) }, km :: K2r, by simp, hcI,
          by omega, ?_, ?_, fun k v => Iff.rfl, rfl, ?_, rfl⟩
        · exact slotsOf_cons.mpr ⟨hkmlo, hkmpid, hT2r⟩
        · have := hokK.2
          rw [hK2] at this
          apply kidsOK_frame _ this
          intro kid hkid p hp
          exact hframe kid (List.mem_of_mem_drop (by rw [hK2]; exact hkid)) p hp
        · apply List.nodup_cons.mpr
          constructor
          · intro hh
            apply hnewnot
            rw [← hK2] at hh
            exact mem_flatMap_drop hh
          · have hsub : ((km :: K2r).flatMap Kid.ps).Sublist (K.flatMap Kid.ps) := by
              rw [hKsplit, List.flatMap_append, hK2]
              exact List.sublist_append_right _ _
            exact hsub.nodup hnd2
      · intro p hp1 hp2
        simp [hp1, hp2]

/-! ## B+Tree: replacing a run of children of a page -/

theorem core_internal_inv {x : Option Page} {ip : InternalPage}
    (h : x.map Page.core = some (Page.internal ip)) : x = some (Page.internal ip) := by
  cases x with
  | none => simp at h
  | some p =>
    cases p with
    | leaf lp => simp [Page.core] at h
    | internal ip1 =>
      simp only [Option.map_some', Page.core, Option.some.injEq, Page.internal.injEq] at h
      rw [h]

theorem core_leaf_inv {x : Option Page} {lp : LeafPage}
    (h : x.map Page.core = (some (Page.leaf lp)).map Page.core) :
    ∃ lp1, x = some (Page.leaf lp1) ∧ lp1.slots = lp.slots ∧ lp1.max_size_ = lp.max_size_ ∧
      lp1.next_page_id_ = lp.next_page_id_ ∧ lp1.page_id_ = lp.page_id_ := by
  cases x with
  | none => simp at h
  | some p =>
    cases p with
    | internal ip => simp [Page.core] at h
    | leaf lp1 =>
      simp only [Option.map_some', Page.core, Option.some.injEq, Page.leaf.injEq,
        LeafPage.mk.injEq, and_true] at h
      exact ⟨lp1, rfl, h.2.2.1, h.2.1, h.2.2.2, h.1⟩

theorem segment_kidsOK {L I n : Nat} {pages1 pages2 : Int → Option Page}
    {pre O N post : List Kid} {hi : Option Int} {nxt pid bound : Int}
    (hok : KidsOK (RepKid L I pages1 n) (pre ++ O ++ post) hi nxt)
    (hnd : (pid :: (pre ++ O ++ post).flatMap Kid.ps).Nodup)
    (hlt : ∀ p ∈ (pre ++ O ++ post).flatMap Kid.ps, p < bound)
    (hframe : ∀ p, p ∉ O.flatMap Kid.ps → p ≠ pid → p < bound →
      (pages2 p).map Page.core = (pages1 p).map Page.core)
    (hnew : KidsOK (RepKid L I pages2 n) N (nextLo post hi) (nextFirst post nxt))
    (hlo : nextLo (N ++ post) hi = nextLo (O ++ post) hi)
    (hfirst : nextFirst (N ++ post) nxt = nextFirst (O ++ post) nxt) :
    KidsOK (RepKid L I pages2 n) (pre ++ N ++ post) hi nxt := by
  have hfr : ∀ x ∈ pre ++ post, ∀ p ∈ x.ps,
      (pages2 p).map Page.core = (pages1 p).map Page.core := by
    intro x hx p hp
    have hnd2 := (List.nodup_cons.mp hnd).2
    have hpidnot := (List.nodup_cons.mp hnd).1
    rw [List.flatMap_append, List.flatMap_append] at hnd2 hpidnot
    have hpall : p ∈ (pre ++ O ++ post).flatMap Kid.ps := by
      rcases List.mem_append.mp hx with h | h
      · exact List.mem_flatMap.mpr ⟨x, List.mem_append_left _ (List.mem_append_left _ h), hp⟩
      · exact List.mem_flatMap.mpr ⟨x, List.mem_append_right _ h, hp⟩
    apply hframe p _ _ (hlt p hpall)
    · intro hold
      rw [List.nodup_append] at hnd2
      obtain ⟨h1, h2, h3⟩ := hnd2
      rcases List.mem_append.mp hx with h | h
      · rw [List.nodup_append] at h1
        exact h1.2.2 (List.mem_flatMap.mpr ⟨x, h, hp⟩) hold
      · exact h3 (List.mem_append_right _ hold) (List.mem_flatMap.mpr ⟨x, h, hp⟩)
    · intro hh
      rw [hh] at hpall
      exact (List.nodup_cons.mp hnd).1 hpall
  rw [List.append_assoc] at hok ⊢
  have hpost : KidsOK (RepKid L I pages2 n) post hi nxt := by
    have := ((kidsOK_append _ pre (O ++ post) hi nxt).mp hok).2
    have := ((kidsOK_append _ O post hi nxt).mp this).2
    exact kidsOK_frame (fun x hx p hp => hfr x (List.mem_append_right _ hx) p hp) this
  apply kidsOK_swap hok _ hlo hfirst
  · intro x hx hi1 nxt1 hr
    exact rep_frame (hfr x (List.mem_append_left _ hx)) hr
  · exact (kidsOK_append _ N post hi nxt).mpr ⟨hnew, hpost⟩

theorem segment_nodup {pre O N post : List Kid} {pid bound : Int}
    (hnd : (pid :: (pre ++ O ++ post).flatMap Kid.ps).Nodup)
    (hlt : ∀ p ∈ pid :: (pre ++ O ++ post).flatMap Kid.ps, p < bound)
    (hnewnd : (N.flatMap Kid.ps).Nodup)
    (hsub : ∀ p ∈ N.flatMap Kid.ps, p ∈ O.flatMap Kid.ps ∨ bound ≤ p) :
    (pid :: (pre ++ N ++ post).flatMap Kid.ps).Nodup := by
  have h1 : ((pid :: pre.flatMap Kid.ps) ++ O.flatMap Kid.ps ++ post.flatMap Kid.ps).Nodup := by
    simpa [List.flatMap_append] using hnd
  have h2 := nodup_replace h1 hnewnd (by
    intro p hp
    rcases hsub p hp with h | h
    · exact Or.inl h
    · refine Or.inr ⟨?_, ?_⟩
      · intro hm
        have := hlt p (by
          rcases List.mem_cons.mp hm with h3 | h3
          · rw [h3]; exact List.mem_cons_self _ _
          · apply List.mem_cons_of_mem
            rw [List.flatMap_append, List.flatMap_append]
            exact List.mem_append_left _ (List.mem_append_left _ h3))
        omega
      · intro hm
        have := hlt p (by
          apply List.mem_cons_of_mem
          rw [List.flatMap_append]
          exact List.mem_append_right _ hm)
        omega)
  simpa [List.flatMap_append] using h2

theorem exists_mem_segment {pre mid post : List Kid} {P : Kid → Prop} :
    (∃ x ∈ pre ++ mid ++ post, P x) ↔
      (∃ x ∈ pre, P x) ∨ (∃ x ∈ mid, P x) ∨ (∃ x ∈ post, P x) := by
  simp only [List.mem_append]
  constructor
  · rintro ⟨x, (h | h) | h, hP⟩
    · exact Or.inl ⟨x, h, hP⟩
    · exact Or.inr (Or.inl ⟨x, h, hP⟩)
    · exact Or.inr (Or.inr ⟨x, h, hP⟩)
  · rintro (⟨x, h, hP⟩ | ⟨x, h, hP⟩ | ⟨x, h, hP⟩)
    · exact ⟨x, Or.inl (Or.inl h), hP⟩
    · exact ⟨x, Or.inl (Or.inr h), hP⟩
    · exact ⟨x, Or.inr h, hP⟩

theorem mem_segment_flatMap {pre O N post : List Kid} {p : Int}
    (h : p ∈ (pre ++ N ++ post).flatMap Kid.ps) :
    p ∈ N.flatMap Kid.ps ∨ p ∈ (pre ++ O ++ post).flatMap Kid.ps := by
  simp only [List.flatMap_append, List.mem_append] at h ⊢
  tauto

theorem split_segment (pre : List Kid) (kid : Kid) (post : List Kid) :
    pre ++ kid :: post = pre ++ [kid] ++ post := by simp

/-- A represented internal page whose run `O` of children has been replaced
by the run `N`, the pool being the same outside the pages of `O` and the
page itself. -/
theorem rep_replace_seg {L I n m : Nat} {t t2 : BPlusTree} {pid : Int} {ip : InternalPage}
    {lo hi : Option Int} {nxt : Int} {pre O N post : List Kid}
    (hpage2 : t2.pages pid = some (Page.internal ip)) (hmax : ip.max_size_ = I)
    (hSl : SlotsOf lo (pre ++ N ++ post) ip.slots)
    (hok : KidsOK (RepKid L I t.pages n) (pre ++ O ++ post) hi nxt)
    (hnd : (pid :: (pre ++ O ++ post).flatMap Kid.ps).Nodup)
    (hfresh : Fresh t (pid :: (pre ++ O ++ post).flatMap Kid.ps))
    (hframe : ∀ p, p ∉ O.flatMap Kid.ps → p ≠ pid → p < t.next_page_id_ →
      (t2.pages p).map Page.core = (t.pages p).map Page.core)
    (hnew : KidsOK (RepKid L I t2.pages n) N (nextLo post hi) (nextFirst post nxt))
    (hlo : nextLo (N ++ post) hi = nextLo (O ++ post) hi)
    (hfirst : nextFirst (N ++ post) nxt = nextFirst (O ++ post) nxt)
    (hnewnd : (N.flatMap Kid.ps).Nodup)
    (hsub : ∀ p ∈ N.flatMap Kid.ps, p ∈ O.flatMap Kid.ps ∨ t.next_page_id_ ≤ p)
    (hm : m ≤ (pre ++ N ++ post).length) :
    Rep L I t2.pages (n + 1) m pid lo hi (fun k v => ∃ x ∈ pre ++ N ++ post, x.E k v)
      (pid :: (pre ++ N ++ post).flatMap Kid.ps) (nextFirst (pre ++ O ++ post) nxt) nxt := by
  rw [rep_internal_iff]
  refine ⟨ip, pre ++ N ++ post, hpage2, hmax, hm, hSl, ?_, fun k v => Iff.rfl, rfl, ?_, ?_⟩
  · exact segment_kidsOK hok hnd (fun p hp => (hfresh.2 p (List.mem_cons_of_mem _ hp)).2) hframe
      hnew hlo hfirst
  · exact segment_nodup hnd (fun p hp => (hfresh.2 p hp).2) hnewnd hsub
  · rw [List.append_assoc, List.append_assoc]
    exact (nextFirst_append pre (O ++ post) (N ++ post) nxt hfirst).symm

theorem kidsOK_single {R : Kid → Option Int → Int → Prop} {kid : Kid} {hi : Option Int}
    {nxt : Int} (h : R kid hi nxt) : KidsOK R [kid] hi nxt := ⟨h, trivial⟩

theorem kidsOK_pair {R : Kid → Option Int → Int → Prop} {a b : Kid} {hi : Option Int}
    {nxt : Int} (h1 : R a b.lo b.first) (h2 : R b hi nxt) : KidsOK R [a, b] hi nxt :=
  ⟨h1, h2, trivial⟩

/-! ## B+Tree: the descent of `Insert` -/

theorem or_shuffle {a b c d : Prop} : ((a ∨ b ∨ c) ∨ d) ↔ (a ∨ (b ∨ d) ∨ c) := by tauto

theorem or_shuffle2 {a b c d e : Prop} (h : e ↔ (b ∨ d)) :
    (a ∨ e ∨ c) ↔ ((a ∨ b ∨ c) ∨ d) := by tauto

theorem nextFirst_pair (pre : List Kid) (kid kidL kidR : Kid) (post : List Kid) (nxt : Int)
    (h : kidL.first = kid.first) :
    nextFirst (pre ++ kidL :: kidR :: post) nxt = nextFirst (pre ++ [kid] ++ post) nxt := by
  cases pre with
  | nil => exact h
  | cons a l => rfl

theorem nodup_two_pages {pid new : Int} {K1 K2 : List Kid}
    (hnd : (pid :: (K1 ++ K2).flatMap Kid.ps).Nodup)
    (hnew : new ∉ pid :: (K1 ++ K2).flatMap Kid.ps) :
    ((pid :: K1.flatMap Kid.ps) ++ (new :: K2.flatMap Kid.ps)).Nodup := by
  rw [List.nodup_middle]
  apply List.nodup_cons.mpr
  rw [List.flatMap_append] at hnd hnew
  exact ⟨by simpa using hnew, by simpa using hnd⟩

set_option maxHeartbeats 1000000 in
/-- The descent of `Insert` from the root of a represented subtree. -/
theorem insertLoop_post (ctx_root key : Int) (value : RID) (L I S : Nat) (hL : 2 ≤ L)
    (hI : 3 ≤ I) (hS : L + 2 ≤ S) :
    ∀ (h m : Nat) (pid : Int) (lo hi : Option Int) (E : Int → RID → Prop) (ps : List Int)
      (first nxt : Int) (ws : List Int) (fuel : Nat) (t : BPlusTree),
      t.leaf_max_size_ = L → t.internal_max_size_ = I → t.LEAF_PAGE_SLOT_CNT = S →
      Rep L I t.pages h m pid lo hi E ps first nxt → aboveLo lo key → belowHi hi key →
      Fresh t ps → ctx_root ∉ ps.tail → NextOK t nxt ps → h < fuel →
      InsertPost ctx_root key value L I ws t h m pid lo hi E ps first nxt
        (insertLoop ctx_root key value fuel ws pid t) := by
  intro h
  induction h with
  | zero =>
    intro m pid lo hi E ps first nxt ws fuel t hcL hcI hcS hrep hlok hhik hfresh hroot hnext hfuel
    obtain ⟨f, rfl⟩ : ∃ f, fuel = f + 1 := ⟨fuel - 1, by omega⟩
    obtain ⟨lp, hpage, _⟩ := rep_leaf_iff.mp hrep
    unfold insertLoop
    rw [hpage]
    exact insertIntoLeaf_post ctx_root key value L I S hL hS ws t m pid lo hi E ps first nxt lp
      hpage hcL hcS hrep hlok hhik hfresh hnext
  | succ n ih =>
    intro m pid lo hi E ps first nxt ws fuel t hcL hcI hcS hrep hlok hhik hfresh hroot hnext hfuel
    obtain ⟨f, rfl⟩ : ∃ f, fuel = f + 1 := ⟨fuel - 1, by omega⟩
    obtain ⟨ip, kids, hpage, hmax, hm, hSl, hok, hE, hps, hnd, hfirst⟩ := rep_internal_iff.mp hrep
    obtain ⟨pre, kid, post, hsplit, hidx, hval, hkl, hkh⟩ :=
      select_kid rep_child_ordered { ip with page_id_ := pid } hSl.1 hSl.2 hok key hlok hhik
    rw [split_segment] at hsplit
    subst hsplit
    subst hps
    have heq : insertLoop ctx_root key value (f + 1) ws pid t
        = insertLoop ctx_root key value f (pid :: ws) kid.pid
            (t.setPage pid (Page.internal { ip with page_id_ := pid })) := by
      conv_lhs => unfold insertLoop
      rw [hpage]
      simp only [hidx, hval, Outcome.ok_bind]
    rw [heq]
    generalize ht1 : t.setPage pid (Page.internal { ip with page_id_ := pid }) = t1
    have h1pid : t1.pages pid = some (Page.internal { ip with page_id_ := pid }) := by
      rw [← ht1]; simp
    have h1other : ∀ p, p ≠ pid → t1.pages p = t.pages p := by
      intro p hp
      rw [← ht1]; simp [hp]
    have h1next : t1.next_page_id_ = t.next_page_id_ := by rw [← ht1]; rfl
    have h1keep : Keep t t1 := by rw [← ht1]; exact keep_setPage _ _ _
    have h1ptr : PtrStep t t1 := by
      rw [← ht1]
      exact ptrStep_setInternal t pid ip _ hpage
    clear ht1
    have hpidnot : pid ∉ (pre ++ [kid] ++ post).flatMap Kid.ps := (List.nodup_cons.mp hnd).1
    have hnd2 := (List.nodup_cons.mp hnd).2
    have hkidsub : ∀ p ∈ kid.ps, p ∈ (pre ++ [kid] ++ post).flatMap Kid.ps := by
      intro p hp
      exact List.mem_flatMap.mpr ⟨kid, by simp, hp⟩
    have hkidne : ∀ p ∈ kid.ps, p ≠ pid := fun p hp hh => hpidnot (hh ▸ hkidsub p hp)
    have hokk := hok
    rw [List.append_assoc, kidsOK_append, List.singleton_append] at hokk
    have hkidrep : Rep L I t.pages n 2 kid.pid kid.lo (nextLo post hi) kid.E kid.ps kid.first
        (nextFirst post nxt) := hokk.2.1
    have hkidrep1 : Rep L I t1.pages n 2 kid.pid kid.lo (nextLo post hi) kid.E kid.ps kid.first
        (nextFirst post nxt) :=
      rep_frame (fun p hp => by rw [h1other p (hkidne p hp)]) hkidrep
    have hfresh1 : Fresh t1 kid.ps :=
      ⟨by rw [h1next]; exact hfresh.1,
        fun p hp => by rw [h1next]; exact hfresh.2 p (List.mem_cons_of_mem _ (hkidsub p hp))⟩
    have hroot1 : ctx_root ∉ kid.ps.tail := by
      intro hh
      exact hroot (hkidsub _ (List.mem_of_mem_tail hh))
    have hnext1 : NextOK t1 (nextFirst post nxt) kid.ps := by
      cases post with
      | nil =>
        show NextOK t1 nxt kid.ps
        rcases hnext with hn | ⟨hn1, hn2, lpn, hn3⟩
        · exact Or.inl hn
        · refine Or.inr ⟨fun hh => hn1 (List.mem_cons_of_mem _ (hkidsub _ hh)), by omega, lpn, ?_⟩
          rw [h1other nxt (fun hh => hn1 (hh ▸ List.mem_cons_self _ _))]
          exact hn3
      | cons k1 post1 =>
        have hk1 : Rep L I t.pages n 2 k1.pid k1.lo (nextLo post1 hi) k1.E k1.ps k1.first
            (nextFirst post1 nxt) := hokk.2.2.1
        obtain ⟨hf1, lpf, hf2⟩ := rep_first hk1
        have hf3 : k1.first ∈ (pre ++ [kid] ++ k1 :: post1).flatMap Kid.ps :=
          List.mem_flatMap.mpr ⟨k1, by simp, hf1⟩
        show NextOK t1 k1.first kid.ps
        refine Or.inr ⟨?_, ?_, lpf, ?_⟩
        · intro hh
          rw [List.flatMap_append, List.flatMap_append, List.nodup_append] at hnd2
          apply hnd2.2.2 (List.mem_append_right _ (by simpa using hh))
          exact List.mem_flatMap.mpr ⟨k1, List.mem_cons_self _ _, hf1⟩
        · rw [h1next]
          exact (hfresh.2 _ (List.mem_cons_of_mem _ hf3)).2
        · rw [h1other _ (fun hh => hpidnot (hh ▸ hf3))]
          exact hf2
    have hres := ih 2 kid.pid kid.lo (nextLo post hi) kid.E kid.ps kid.first (nextFirst post nxt)
      (pid :: ws) f t1 (h1keep.1.trans hcL) (h1keep.2.1.trans hcI) (h1keep.2.2.1.trans hcS) hkidrep1 hkl hkh hfresh1 hroot1 hnext1 (by omega)
    have hsome := kids_tail_lo_some hSl.2
    have hexcl : ∀ x ∈ pre ++ post, ∀ v, ¬ x.E key v := by
      have hok2 := hok
      rw [← split_segment] at hok2 hsome
      exact kid_excl rep_child_ordered rep_child_bounds pre kid post hi nxt hok2 hsome key hkl hkh
    have hEkey : ∀ v, E key v ↔ kid.E key v := by
      intro v
      rw [hE key v, exists_mem_segment]
      constructor
      · rintro (⟨x, hx, hxE⟩ | ⟨x, hx, hxE⟩ | ⟨x, hx, hxE⟩)
        · exact absurd hxE (hexcl x (List.mem_append_left _ hx) v)
        · rw [List.mem_singleton] at hx
          rw [← hx]; exact hxE
        · exact absurd hxE (hexcl x (List.mem_append_right _ hx) v)
      · intro hk
        exact Or.inr (Or.inl ⟨kid, List.mem_singleton_self _, hk⟩)
    have hkidflat : [kid].flatMap Kid.ps = kid.ps := by simp
    -- what holds for every outcome of the descent into the child
    have hcommon : ∀ t2, Keep t1 t2 → t1.next_page_id_ ≤ t2.next_page_id_ →
        FrameOut t1 t2 kid.ps →
        t2.pages pid = some (Page.internal { ip with page_id_ := pid }) ∧ Keep t t2 ∧
        (∀ p, p ∉ [kid].flatMap Kid.ps → p ≠ pid → p < t.next_page_id_ →
          (t2.pages p).map Page.core = (t.pages p).map Page.core) ∧
        FrameOut t t2 (pid :: (pre ++ [kid] ++ post).flatMap Kid.ps) := by
      intro t2 hk2 _ hfr
      have hpidlt : pid < t1.next_page_id_ := by
        rw [h1next]; exact (hfresh.2 pid (List.mem_cons_self _ _)).2
      refine ⟨?_, keep_trans h1keep hk2, ?_, ?_⟩
      · apply core_internal_inv
        rw [hfr.1 pid (fun hh => hkidne pid hh rfl) hpidlt, h1pid]
        rfl
      · intro p hp1 hp2 hp3
        rw [hkidflat] at hp1
        rw [hfr.1 p hp1 (by rw [h1next]; exact hp3), h1other p hp2]
      · refine ⟨?_, ptrStep_trans h1ptr hfr.2⟩
        intro p hp1 hp3
        have hp2 : p ≠ pid := fun hh => hp1 (hh ▸ List.mem_cons_self _ _)
        have hp4 : p ∉ kid.ps := fun hh => hp1 (List.mem_cons_of_mem _ (hkidsub p hh))
        rw [hfr.1 p hp4 (by rw [h1next]; exact hp3), h1other p hp2]
    rcases hres with ⟨t2, hr, ⟨v0, hv0⟩, hk2, hn2, hrep2, hfr2⟩ |
      ⟨t2, ps1, hr, hno, hk2, hn2, hrep2, hsub2, hfr2⟩ |
      ⟨t2, mid, new, E1, E2, ps1, ps2, first2, hr, hno, hk2, hn2, hrepL, hrepR, hE12, hnd12,
        hsub12, hfr2⟩
    · -- the key is in the child already
      obtain ⟨hp2, hkeep, hframe, hfout⟩ := hcommon t2 hk2 (by omega) hfr2
      refine Or.inl ⟨t2, hr, ⟨v0, (hEkey v0).mpr hv0⟩, hkeep, by omega, ?_, hfout⟩
      have := rep_replace_seg (m := m) (N := [kid]) hp2 hmax hSl hok hnd hfresh hframe
        (kidsOK_single hrep2) rfl rfl (by rw [hkidflat]; exact rep_nodup hkidrep)
        (fun p hp => Or.inl hp) hm
      rw [← hfirst] at this
      exact rep_congr_E hE this
    · -- the key has been put into the child
      obtain ⟨hp2, hkeep, hframe, hfout⟩ := hcommon t2 hk2 hn2 hfr2
      refine Or.inr (Or.inl ⟨t2,
        pid :: (pre ++ [(⟨kid.lo, kid.pid, fun k v => kid.E k v ∨ (k = key ∧ v = value), ps1,
          kid.first⟩ : Kid)] ++ post).flatMap Kid.ps, hr, fun v0 hv => hno v0 ((hEkey v0).mp hv),
        hkeep, by omega, ?_, ?_, hfout⟩)
      · have := rep_replace_seg (m := m)
          (N := [(⟨kid.lo, kid.pid, fun k v => kid.E k v ∨ (k = key ∧ v = value), ps1,
            kid.first⟩ : Kid)]) hp2 hmax
          (slotsOf_congr hSl (by simp) (by simp)) hok hnd hfresh hframe
          (kidsOK_single hrep2) rfl rfl (by simpa using rep_nodup hrep2)
          (by
            intro p hp
            simp only [List.flatMap_cons, List.flatMap_nil, List.append_nil] at hp ⊢
            rcases hsub2 p hp with h | h
            · exact Or.inl h
            · exact Or.inr (by omega))
          (by simpa using hm)
        rw [← hfirst] at this
        apply rep_congr_E _ this
        intro k v
        rw [hE k v, exists_mem_segment, exists_mem_segment]
        simp only [List.mem_singleton, exists_eq_left]
        exact or_shuffle
      · intro p hp
        rcases List.mem_cons.mp hp with h | h
        · exact Or.inl (by rw [h]; exact List.mem_cons_self _ _)
        · rcases mem_segment_flatMap (O := [kid]) h with h1 | h1
          · simp only [List.flatMap_cons, List.flatMap_nil, List.append_nil] at h1
            rcases hsub2 p h1 with h2 | h2
            · exact Or.inl (List.mem_cons_of_mem _ (hkidsub p h2))
            · exact Or.inr (by omega)
          · exact Or.inl (List.mem_cons_of_mem _ h1)
    · -- the child has been split
      obtain ⟨hp2, hkeep, hframe, hfout⟩ := hcommon t2 hk2 hn2 hfr2
      have hpg2 := hp2
      have hnotroot : IsRootPage ctx_root kid.pid = false := by
        unfold IsRootPage
        simp only [decide_eq_false_iff_not]
        intro hh
        apply hroot
        rw [← hh]
        exact hkidsub _ (rep_pid_mem hkidrep)
      have hlt : ∀ p ∈ pid :: (pre ++ [kid] ++ post).flatMap Kid.ps, p < t.next_page_id_ :=
        fun p hp => (hfresh.2 p hp).2
      have hsubK : ∀ p ∈ [(⟨kid.lo, kid.pid, E1, ps1, kid.first⟩ : Kid),
          (⟨some mid, new, E2, ps2, first2⟩ : Kid)].flatMap Kid.ps,
          p ∈ [kid].flatMap Kid.ps ∨ t.next_page_id_ ≤ p := by
        intro p hp
        simp only [List.flatMap_cons, List.flatMap_nil, List.append_nil] at hp ⊢
        rcases hsub12 p hp with h | h
        · exact Or.inl h
        · exact Or.inr (by omega)
      have hKeq : pre ++ [(⟨kid.lo, kid.pid, E1, ps1, kid.first⟩ : Kid),
          (⟨some mid, new, E2, ps2, first2⟩ : Kid)] ++ post
          = pre ++ (⟨kid.lo, kid.pid, E1, ps1, kid.first⟩ : Kid)
            :: (⟨some mid, new, E2, ps2, first2⟩ : Kid) :: post := by simp
      have hokK := segment_kidsOK hok hnd (fun p hp => hlt p (List.mem_cons_of_mem _ hp)) hframe
        (kidsOK_pair (a := (⟨kid.lo, kid.pid, E1, ps1, kid.first⟩ : Kid))
          (b := (⟨some mid, new, E2, ps2, first2⟩ : Kid)) hrepL hrepR) rfl rfl
      have hndK := segment_nodup hnd hlt
        (N := [(⟨kid.lo, kid.pid, E1, ps1, kid.first⟩ : Kid),
          (⟨some mid, new, E2, ps2, first2⟩ : Kid)])
        (by simpa using hnd12) hsubK
      rw [hKeq] at hokK hndK
      have hmemK : ∀ p ∈ pid :: (pre ++ (⟨kid.lo, kid.pid, E1, ps1, kid.first⟩ : Kid)
          :: (⟨some mid, new, E2, ps2, first2⟩ : Kid) :: post).flatMap Kid.ps,
          p ∈ pid :: (pre ++ [kid] ++ post).flatMap Kid.ps ∨
            (t.next_page_id_ ≤ p ∧ p < t2.next_page_id_) := by
        intro p hp
        rcases List.mem_cons.mp hp with h | h
        · exact Or.inl (by rw [h]; exact List.mem_cons_self _ _)
        · rw [← hKeq] at h
          rcases mem_segment_flatMap (O := [kid]) h with h1 | h1
          · simp only [List.flatMap_cons, List.flatMap_nil, List.append_nil] at h1
            rcases hsub12 p h1 with h2 | h2
            · exact Or.inl (List.mem_cons_of_mem _ (hkidsub p h2))
            · exact Or.inr (by omega)
          · exact Or.inl (List.mem_cons_of_mem _ h1)
      have hfreshK : Fresh t2 (pid :: (pre ++ (⟨kid.lo, kid.pid, E1, ps1, kid.first⟩ : Kid)
          :: (⟨some mid, new, E2, ps2, first2⟩ : Kid) :: post).flatMap Kid.ps) := by
        refine ⟨by have := hfresh.1; omega, ?_⟩
        intro p hp
        rcases hmemK p hp with h | h
        · have := hfresh.2 p h
          omega
        · have := hfresh.1
          omega
      have hEK : ∀ k v, (∃ x ∈ pre ++ (⟨kid.lo, kid.pid, E1, ps1, kid.first⟩ : Kid)
          :: (⟨some mid, new, E2, ps2, first2⟩ : Kid) :: post, x.E k v)
          ↔ (E k v ∨ (k = key ∧ v = value)) := by
        intro k v
        rw [← hKeq, hE k v, exists_mem_segment, exists_mem_segment]
        apply or_shuffle2
        simp only [List.mem_cons, List.mem_singleton, List.not_mem_nil, or_false,
          exists_eq_or_imp, exists_eq_left]
        exact hE12 k v
      obtain ⟨SA, SB, hslots, _, hSA, hSB⟩ := slotsOf_split (A := pre ++ [kid]) (by simp) hSl
      have hcs1 : ∀ t3, insertIntoParent t2 pid kid.pid mid new = Outcome.ok (t3, none) →
          insertLoop ctx_root key value f (pid :: ws) kid.pid t1 = Outcome.ok (true, t3) := by
        intro r hrr
        rw [hr]
        conv_lhs => unfold CoalesceOrSplit
        simp only [hnotroot, Bool.false_eq_true, if_false, hrr, Outcome.ok_bind]
        rfl
      have hcs2 : ∀ t3 a b c,
          insertIntoParent t2 pid kid.pid mid new = Outcome.ok (t3, some (a, b, c)) →
          insertLoop ctx_root key value f (pid :: ws) kid.pid t1
            = (CoalesceOrSplit ctx_root ws t3 a b c >>= fun t5 => pure (true, t5)) := by
        intro r a b c hrr
        rw [hr]
        conv_lhs => unfold CoalesceOrSplit
        simp only [hnotroot, Bool.false_eq_true, if_false, hrr, Outcome.ok_bind]
      rcases insertIntoParent_post L I hI t2 (hkeep.2.1.trans hcI) n m pid
        { ip with page_id_ := pid } hp2 hmax lo hi nxt pre
        (⟨kid.lo, kid.pid, E1, ps1, kid.first⟩ : Kid) (⟨some mid, new, E2, ps2, first2⟩ : Kid)
        post SA SB hslots (slotsOf_snoc_congr hSA rfl rfl) hSB mid new rfl rfl hokK hndK hfreshK
        (by
          have : (pre ++ [kid] ++ post).length ≤ (pre ++ (⟨kid.lo, kid.pid, E1, ps1, kid.first⟩ : Kid)
            :: (⟨some mid, new, E2, ps2, first2⟩ : Kid) :: post).length := by simp
          omega) with
        ⟨t3, hip, hk3, hn3, hrep3, hoth3⟩ | ⟨t3, mid1, K1, K2, hKs, hip, hk3, hn3, hrepA, hrepB, hoth3⟩
      · refine Or.inr (Or.inl ⟨t3, pid :: (pre ++ (⟨kid.lo, kid.pid, E1, ps1, kid.first⟩ : Kid)
            :: (⟨some mid, new, E2, ps2, first2⟩ : Kid) :: post).flatMap Kid.ps, ?_,
          fun v0 hv => hno v0 ((hEkey v0).mp hv),
          keep_trans hkeep hk3, by omega, ?_, ?_, ?_⟩)
        · exact hcs1 _ hip
        · rw [hfirst, ← nextFirst_pair pre kid (⟨kid.lo, kid.pid, E1, ps1, kid.first⟩ : Kid)
            (⟨some mid, new, E2, ps2, first2⟩ : Kid) post nxt rfl]
          exact rep_congr_E (fun k v => (hEK k v).symm) hrep3
        · intro p hp
          rcases hmemK p hp with h | h
          · exact Or.inl h
          · exact Or.inr (by omega)
        · refine ⟨?_, ptrStep_trans hfout.2 (ptrStep_no_leaf t2 t3 (by omega) ?_)⟩
          · intro p hp1 hp3
            have hp2 : p ≠ pid := fun hh => hp1 (hh ▸ List.mem_cons_self _ _)
            rw [hoth3 p hp2]
            exact hfout.1 p hp1 hp3
          · intro _ p
            by_cases hp2 : p = pid
            · obtain ⟨ip3, _, g1, _⟩ := rep_internal_iff.mp hrep3
              rw [hp2]
              exact Or.inr ⟨nextOf_internal g1, nextOf_internal hpg2, Or.inl (by rw [hpg2]; simp)⟩
            · exact Or.inl (hoth3 p hp2)
      · have hnewnot : t2.next_page_id_ ∉ pid :: (K1 ++ K2).flatMap Kid.ps := by
          intro hh
          rw [← hKs] at hh
          have := (hfreshK.2 _ hh).2
          omega
        refine Or.inr (Or.inr ⟨t3, mid1, t2.next_page_id_, fun k v => ∃ x ∈ K1, x.E k v,
          fun k v => ∃ x ∈ K2, x.E k v, pid :: K1.flatMap Kid.ps,
          t2.next_page_id_ :: K2.flatMap Kid.ps, nextFirst K2 nxt, ?_,
          fun v0 hv => hno v0 ((hEkey v0).mp hv), keep_trans hkeep hk3, by omega, ?_, hrepB, ?_,
          ?_, ?_, ?_⟩)
        · exact hcs2 _ _ _ _ hip
        · rw [hfirst, ← nextFirst_pair pre kid (⟨kid.lo, kid.pid, E1, ps1, kid.first⟩ : Kid)
            (⟨some mid, new, E2, ps2, first2⟩ : Kid) post nxt rfl]
          exact hrepA
        · intro k v
          rw [← hEK k v, hKs]
          simp only [List.mem_append]
          constructor
          · rintro (⟨x, hx, hxE⟩ | ⟨x, hx, hxE⟩)
            · exact ⟨x, Or.inl hx, hxE⟩
            · exact ⟨x, Or.inr hx, hxE⟩
          · rintro ⟨x, hx | hx, hxE⟩
            · exact Or.inl ⟨x, hx, hxE⟩
            · exact Or.inr ⟨x, hx, hxE⟩
        · rw [hKs] at hndK
          exact nodup_two_pages hndK hnewnot
        · intro p hp
          have hp' : p = t2.next_page_id_ ∨ p ∈ pid :: (K1 ++ K2).flatMap Kid.ps := by
            rw [List.flatMap_append]
            simp only [List.mem_append, List.mem_cons] at hp ⊢
            tauto
          rcases hp' with h | h
          · exact Or.inr (by omega)
          · rw [← hKs] at h
            rcases hmemK p h with h1 | h1
            · exact Or.inl h1
            · exact Or.inr (by omega)
        · refine ⟨?_, ptrStep_trans hfout.2 (ptrStep_no_leaf t2 t3 (by omega) ?_)⟩
          · intro p hp1 hp3
            have hp2 : p ≠ pid := fun hh => hp1 (hh ▸ List.mem_cons_self _ _)
            rw [hoth3 p hp2 (by omega)]
            exact hfout.1 p hp1 hp3
          · intro hinv2 p
            by_cases hp2 : p = pid
            · obtain ⟨ip3, _, g1, _⟩ := rep_internal_iff.mp hrepA
              rw [hp2]
              exact Or.inr ⟨nextOf_internal g1, nextOf_internal hpg2, Or.inl (by rw [hpg2]; simp)⟩
            · by_cases hp4 : p = t2.next_page_id_
              · obtain ⟨ip3, _, g1, _⟩ := rep_internal_iff.mp hrepB
                rw [hp4]
                refine Or.inr ⟨nextOf_internal g1, ?_, Or.inr ⟨hfreshK.1, by omega⟩⟩
                rw [hinv2.2.1 _ (Or.inr (le_refl _))]
                rfl
              · exact Or.inl (hoth3 p hp2 hp4)

/-! ## B+Tree: `Remove` on a leaf -/

theorem sortedKeys_erase {α : Type} {A B : List (Int × α)} {x : Int × α}
    (hs : SortedKeys (A ++ x :: B)) : SortedKeys (A ++ B) := by
  obtain ⟨h1, h2, h3⟩ := sortedKeys_append.mp hs
  exact sortedKeys_append.mpr ⟨h1, (sortedKeys_cons.mp h2).2,
    fun a ha b hb => h3 a ha b (List.mem_cons_of_mem _ hb)⟩

/-- `RemoveAndDeleteRecord` on a sorted leaf that holds the key. -/
theorem leaf_remove_found (lp : LeafPage) (key : Int) {A B : List (Int × RID)} {v0 : RID}
    (hsplit : lp.slots = A ++ (key, v0) :: B) (hidx : lp.KeyIndex key = (A.length : Int)) :
    lp.RemoveAndDeleteRecord key = (true, { lp with slots := A ++ B }) := by
  obtain ⟨e1, _, e3⟩ := leaf_KeyAt_append lp hsplit
  unfold LeafPage.RemoveAndDeleteRecord
  have hget : (lp.slots.map Prod.fst).getD (A.length : Int).toNat 0 = key := by
    rw [hsplit, Int.toNat_ofNat, List.getD_eq_getElem?_getD, List.map_append, List.map_cons,
      List.getElem?_append_right (by simp)]
    simp
  have hc : ¬ (lp.KeyIndex key ≥ lp.GetSize ∨
      comparator ((lp.slots.map Prod.fst).getD (lp.KeyIndex key).toNat 0) key ≠ 0) := by
    rw [hidx, hget]
    intro h
    rcases h with h | h
    · omega
    · exact h (comparator_self key)
  rw [if_neg hc, hidx, Int.toNat_ofNat, hsplit, eraseIdx_append_cons]

/-- The leaf branch of `Remove` on a represented leaf that is not the root. -/
theorem removeFromLeaf_post (ctx_root key : Int) (L I : Nat) (ws : List Int) (t : BPlusTree)
    (pid : Int) (lo hi : Option Int) (E : Int → RID → Prop) (ps : List Int) (first nxt : Int)
    (lp0 : LeafPage) (hpage : t.pages pid = some (Page.leaf lp0))
    (hrep : Rep L I t.pages 0 2 pid lo hi E ps first nxt) (hnotroot : pid ≠ ctx_root) :
    RemovePost ctx_root L I ws t 0 pid lo hi (fun k v => E k v ∧ k ≠ key) ps first nxt
      (removeFromLeaf ctx_root ws t pid lp0 key) := by
  obtain ⟨lp, h1, h2, h3, h4, h5, h6, h7, h8, h9, h10, h11⟩ := hrep
  rw [hpage] at h1
  simp only [Option.some.injEq, Page.leaf.injEq] at h1
  subst h1
  subst h7
  unfold removeFromLeaf
  generalize hleaf : ({ lp0 with page_id_ := pid } : LeafPage) = leaf
  have hsl : leaf.slots = lp0.slots := by rw [← hleaf]
  have hmax : leaf.max_size_ = L := by rw [← hleaf]; exact h2
  have hnx : leaf.next_page_id_ = nxt := by rw [← hleaf]; exact h9
  have hpl : leaf.page_id_ = pid := by rw [← hleaf]
  have hpv : leaf.prev_page_id_ = lp0.prev_page_id_ := by rw [← hleaf]
  have hnx0 : leaf.next_page_id_ = lp0.next_page_id_ := by rw [← hleaf]
  clear hleaf
  rw [← hsl] at h3 h4 h5 h6 h11
  have hfr : ∀ l2 : LeafPage, l2.next_page_id_ = leaf.next_page_id_ →
      l2.prev_page_id_ = leaf.prev_page_id_ → l2.page_id_ = leaf.page_id_ →
      FrameOut t ((t.setPage pid (Page.leaf leaf)).setPage pid (Page.leaf l2)) [pid] := by
    intro l2 e1 e2 e3
    refine ⟨?_, ptrStep_setLeaf2 t pid lp0 leaf l2 hpage hnx0 hpv (Or.inr hpl) e1 e2 (Or.inl e3)⟩
    intro p hp _
    have : p ≠ pid := fun h => hp (by rw [h]; exact List.mem_singleton_self _)
    simp [this]
  have hfr1 : FrameOut t (t.setPage pid (Page.leaf leaf)) [pid] := by
    refine ⟨?_, ptrStep_setLeaf t pid lp0 leaf hpage hnx0 hpv (Or.inr hpl)⟩
    intro p hp _
    have : p ≠ pid := fun h => hp (by rw [h]; exact List.mem_singleton_self _)
    simp [this]
  have hroot : IsRootPage ctx_root pid = false := by
    unfold IsRootPage
    simp [hnotroot]
  rcases leaf_find leaf key h4 with
    ⟨A, v0, B, hsplit, hidx, hA, hB⟩ | ⟨A, B, hsplit, hidx, hA, hB, hc⟩
  · -- the key is on the page
    obtain ⟨e1, _, e3⟩ := leaf_KeyAt_append _ hsplit
    have hne : ¬ ((A.length : Int) = leaf.GetSize) := by omega
    have hrm := leaf_remove_found leaf key hsplit hidx
    simp only [hidx, hne, if_false, e1, Outcome.ok_bind, comparator_self, ne_eq,
      not_true_eq_false, decide_False, Outcome.pure_eq_ok, Bool.false_eq_true, hrm, hroot]
    have hE1 : ∀ k v, (E k v ∧ k ≠ key) ↔ (k, v) ∈ A ++ B := by
      intro k v
      rw [h6, hsplit]
      simp only [List.mem_append, List.mem_cons, Prod.mk.injEq]
      constructor
      · rintro ⟨h | h | h, hk⟩
        · exact Or.inl h
        · exact absurd h.1 hk
        · exact Or.inr h
      · rintro (h | h)
        · exact ⟨Or.inl h, fun hk => by have := hA _ h; simp only at this; omega⟩
        · exact ⟨Or.inr (Or.inr h), fun hk => by have := hB _ h; simp only at this; omega⟩
    have hrep1 : ∀ m, m ≤ (A ++ B).length + 1 →
        Rep L I ((t.setPage pid (Page.leaf leaf)).setPage pid
        (Page.leaf { leaf with slots := A ++ B })).pages 0 m pid lo hi
        (fun k v => E k v ∧ k ≠ key) [pid] first nxt := by
      intro m hm
      refine ⟨{ leaf with slots := A ++ B }, by simp, hmax, ?_, ?_, ?_, hE1, rfl, h8, hnx, h10,
        hm⟩
      · rw [hsplit] at h3
        simp only [List.length_append, List.length_cons] at h3 ⊢
        omega
      · rw [hsplit] at h4
        exact sortedKeys_erase h4
      · intro s hs1
        apply h5 s
        rw [hsplit]
        rcases List.mem_append.mp hs1 with h | h
        · exact List.mem_append_left _ h
        · exact List.mem_append_right _ (List.mem_cons_of_mem _ h)
    by_cases hsz : ({ leaf with slots := A ++ B } : LeafPage).GetSize
        ≥ ((GetMinSize ({ leaf with slots := A ++ B } : LeafPage).max_size_ : Nat) : Int)
    · rw [if_pos hsz]
      have hpos : 2 ≤ (A ++ B).length + 1 := by
        have hL1 : 1 ≤ L := by
          rw [hsplit] at h3
          simp only [List.length_append, List.length_cons] at h3
          omega
        have hmin : 1 ≤ GetMinSize L := by
          unfold GetMinSize
          omega
        unfold LeafPage.GetSize at hsz
        simp only [hmax] at hsz
        omega
      exact Or.inl ⟨_, [pid], rfl, keep_trans (keep_setPage _ _ _) (keep_setPage _ _ _), rfl,
        hrep1 2 hpos, fun p hp => hp, hfr _ rfl rfl rfl⟩
    · rw [if_neg hsz]
      refine Or.inr ⟨_, [pid], rfl, keep_trans (keep_setPage _ _ _) (keep_setPage _ _ _), rfl,
        hrep1 1 (by omega), fun p hp => hp, hfr _ rfl rfl rfl, ?_⟩
      refine ⟨Page.leaf { leaf with slots := A ++ B }, by simp, hpl, ?_⟩
      unfold LeafPage.GetSize at hsz
      simp only at hsz ⊢
      omega
  · -- the key is not on the page
    have hnotE : ∀ v0, ¬ E key v0 := by
      intro v0 hE
      rw [h6, hsplit] at hE
      exact not_mem_of_bounds hA hB hE
    have hstep : ∀ (jp : Bool → Outcome BPlusTree),
        (if leaf.KeyIndex key = leaf.GetSize then do
          let y ← pure true
          jp y
        else do
          let k ← leaf.KeyAt (leaf.KeyIndex key)
          let y ← pure (decide (comparator k key ≠ 0))
          jp y) = jp true := by
      intro jp
      rcases hc with ⟨hc, _⟩ | ⟨k1, hlt, hk, hne⟩
      · rw [if_pos hc]; rfl
      · rw [if_neg (by omega), hk]
        simp only [Outcome.ok_bind, hne, ne_eq, not_false_eq_true, decide_True,
          Outcome.pure_eq_ok]
    simp only [hstep, if_true]
    refine Or.inl ⟨_, [pid], rfl, keep_setPage _ _ _, rfl, ?_, fun p hp => hp, hfr1⟩
    refine ⟨leaf, by simp, hmax, h3, h4, h5, ?_, rfl, h8, hnx, h10, h11⟩
    intro k v
    rw [← h6]
    constructor
    · exact fun h => h.1
    · exact fun h => ⟨h, fun hk => hnotE v (hk ▸ h)⟩

/-! ## B+Tree: page primitives on given slots -/

theorem internal_at_append (ip : InternalPage) {A B : List (Int × Int)} {s : Int × Int}
    (h : ip.slots = A ++ s :: B) :
    ip.KeyAt (A.length : Int) = Outcome.ok s.1 ∧ ip.ValueAt (A.length : Int) = Outcome.ok s.2 ∧
      ip.SetKeyAt (A.length : Int) = (fun k => Outcome.ok { ip with slots := A ++ (k, s.2) :: B }) ∧
      ip.Remove (A.length : Int) = Outcome.ok { ip with slots := A ++ B } := by
  have hget : ip.slots.get? (A.length : Int).toNat = some s := by
    rw [h]
    simp only [Int.toNat_ofNat, List.get?_eq_getElem?]
    rw [List.getElem?_append_right (le_refl _)]
    simp
  have h0 : (0 : Int) ≤ (A.length : Int) := by omega
  have hlt : (A.length : Int) < ip.GetSize := by
    unfold InternalPage.GetSize
    rw [h, List.length_append, List.length_cons]
    push_cast
    omega
  refine ⟨?_, ?_, ?_, ?_⟩
  · unfold InternalPage.KeyAt
    rw [if_pos h0, hget]
  · unfold InternalPage.ValueAt
    rw [if_pos h0, hget]
  · funext k
    unfold InternalPage.SetKeyAt
    rw [if_pos h0, hget]
    simp only [Int.toNat_ofNat]
    rw [h, List.set_append_right _ _ (le_refl _)]
    simp
  · unfold InternalPage.Remove
    rw [if_pos ⟨h0, hlt⟩, Int.toNat_ofNat, h, eraseIdx_append_cons]

/-- The leaf `KeyIndex` is the number of slots with a key below the search key. -/
theorem leaf_KeyIndex_eq (lp : LeafPage) (key : Int) (hs : SortedKeys lp.slots)
    {A B : List (Int × RID)} (hsl : lp.slots = A ++ B) (hA : ∀ s ∈ A, s.1 < key)
    (hB : ∀ s ∈ B, key ≤ s.1) : lp.KeyIndex key = (A.length : Int) := by
  obtain ⟨r, hr, hrn, h1, h2⟩ := leaf_KeyIndex_split lp key hs
  rw [hr]
  congr 1
  rw [hsl] at h1 h2 hrn
  by_contra hne
  rcases Nat.lt_or_gt_of_ne hne with hlt | hgt
  · -- the slot `r` lies in `A` and behind the index
    have hmem : A[r] ∈ A := List.getElem_mem _
    have hd : A[r] ∈ (A ++ B).drop r := by
      rw [List.drop_append_of_le_length (by omega)]
      apply List.mem_append_left
      rw [List.drop_eq_getElem_cons hlt]
      exact List.mem_cons_self _ _
    have := hA _ hmem
    have := h2 _ hd
    omega
  · -- the first slot of `B` lies before the index
    rw [List.length_append] at hrn
    have hb : 0 < B.length := by omega
    have hmem : B[0] ∈ B := List.getElem_mem _
    have ht : B[0] ∈ (A ++ B).take r := by
      rw [List.take_append_eq_append_take]
      apply List.mem_append_right
      apply List.mem_take_iff_getElem.mpr
      exact ⟨0, by omega, rfl⟩
    have := hB _ hmem
    have := h1 _ ht
    omega

theorem leaf_insert_at (lp : LeafPage) (S : Nat) (key : Int) (value : RID)
    (hs : SortedKeys lp.slots) {A B : List (Int × RID)} (hsl : lp.slots = A ++ B)
    (hA : ∀ s ∈ A, s.1 < key) (hB : ∀ s ∈ B, key ≤ s.1) (hS : lp.slots.length + 2 ≤ S) :
    lp.Insert S key value = (true, { lp with slots := A ++ (key, value) :: B }) := by
  unfold LeafPage.Insert
  have hsz1 : ¬ (lp.GetSize + 1 ≥ (S : Int)) := by
    unfold LeafPage.GetSize
    omega
  rw [if_neg hsz1, leaf_KeyIndex_eq lp key hs hsl hA hB, Int.toNat_ofNat, hsl, insertSlot_append]

theorem leaf_remove_at (lp : LeafPage) (key : Int) (hs : SortedKeys lp.slots)
    {A B : List (Int × RID)} {v : RID} (hsl : lp.slots = A ++ (key, v) :: B) :
    lp.RemoveAndDeleteRecord key = (true, { lp with slots := A ++ B }) := by
  apply leaf_remove_found lp key hsl
  rw [hsl] at hs
  obtain ⟨h1, h2, h3⟩ := sortedKeys_append.mp hs
  apply leaf_KeyIndex_eq lp key (by rw [hsl]; exact hs) hsl
  · intro s hs1
    exact h3 s hs1 _ (List.mem_cons_self _ _)
  · intro s hs1
    rcases List.mem_cons.mp hs1 with h | h
    · rw [h]
    · exact le_of_lt ((sortedKeys_cons.mp h2).1 s h)

theorem leaf_at_append (lp : LeafPage) {A B : List (Int × RID)} {s : Int × RID}
    (h : lp.slots = A ++ s :: B) :
    lp.KeyAt (A.length : Int) = Outcome.ok s.1 ∧ lp.ValueAt (A.length : Int) = Outcome.ok s.2 := by
  obtain ⟨e1, e2, _⟩ := @leaf_KeyAt_append lp A B s.1 s.2 h
  exact ⟨e1, e2⟩

/-! ## B+Tree: merging two pages -/

/-- `BPlusTreeLeafPage::Merge`: the slots of the sibling are appended to the
page, which takes over the next pointer of the sibling. -/
theorem leafMerge_spec (t : BPlusTree) (this_id sib_id : Int) (this sib : LeafPage)
    (hthis : t.pages this_id = some (Page.leaf this))
    (hsib : t.pages sib_id = some (Page.leaf sib))
    (hnext : sib.next_page_id_ = INVALID_PAGE_ID ∨
      (sib.next_page_id_ ≠ this_id ∧ ∃ nl, t.pages sib.next_page_id_ = some (Page.leaf nl))) :
    ∃ t1, leafMerge t this_id sib_id = Outcome.ok t1 ∧
      t1.pages this_id = some (Page.leaf { this with
        slots := this.slots ++ sib.slots, next_page_id_ := sib.next_page_id_ }) ∧
      (∀ p, p ≠ this_id → (t1.pages p).map Page.core = (t.pages p).map Page.core) ∧
      t1.next_page_id_ = t.next_page_id_ ∧ Keep t t1 ∧
      (∀ p, p ≠ this_id →
        ¬ (sib.next_page_id_ ≠ INVALID_PAGE_ID ∧ p = sib.next_page_id_) →
        t1.pages p = t.pages p) ∧
      (sib.next_page_id_ ≠ INVALID_PAGE_ID →
        ∃ nl, t.pages sib.next_page_id_ = some (Page.leaf nl) ∧
          t1.pages sib.next_page_id_
            = some (Page.leaf { nl with prev_page_id_ := this.page_id_ })) := by
  unfold leafMerge
  rw [leafAt_eq hthis, leafAt_eq hsib]
  simp only [Outcome.ok_bind]
  by_cases hinv : sib.next_page_id_ = INVALID_PAGE_ID
  · simp only [hinv, ne_eq, not_true_eq_false, if_false, Outcome.pure_eq_ok]
    refine ⟨_, rfl, by simp, ?_, rfl, ⟨rfl, rfl, rfl, rfl⟩, ?_, fun h => h.elim⟩
    · intro p hp
      simp [hp]
    · intro p hp _
      simp [hp]
  · rcases hnext with h | ⟨hn1, nl, hnl⟩
    · exact absurd h hinv
    · simp only [ne_eq, hinv, not_false_eq_true, if_true]
      have hl : (t.setPage this_id (Page.leaf { this with
          slots := this.slots ++ sib.slots,
          next_page_id_ := sib.next_page_id_ })).leafAt sib.next_page_id_ = Outcome.ok nl := by
        apply leafAt_eq
        simp [hn1, hnl]
      rw [hl]
      simp only [Outcome.ok_bind, Outcome.pure_eq_ok]
      refine ⟨_, rfl, ?_, ?_, rfl, ⟨rfl, rfl, rfl, rfl⟩, ?_, ?_⟩
      · have : ¬ this_id = sib.next_page_id_ := fun h => hn1 h.symm
        simp [this]
      · intro p hp
        by_cases hp3 : p = sib.next_page_id_
        · subst hp3
          simp [hp, hnl, Page.core]
        · simp [hp, hp3]
      · intro p hp hp3
        have hp4 : p ≠ sib.next_page_id_ := fun hh => hp3 ⟨trivial, hh⟩
        simp [hp, hp4]
      · intro _
        exact ⟨nl, hnl, by simp⟩

/-- The merge of two internal pages. -/
theorem internalMerge_spec (t : BPlusTree) (left_id right_id sep : Int)
    (left right : InternalPage) (hleft : t.pages left_id = some (Page.internal left))
    (hright : t.pages right_id = some (Page.internal right)) {r0 : Int × Int}
    {RS : List (Int × Int)} (hr : right.slots = r0 :: RS) :
    internalMerge t left_id right_id sep
      = Outcome.ok ((t.setPage left_id (Page.internal { left with
          slots := left.slots ++ (sep, r0.2) :: RS })).setPage right_id
            (Page.internal { right with slots := [] })) := by
  unfold internalMerge
  rw [internalAt_eq hleft, internalAt_eq hright]
  have hv : right.ValueAt 0 = Outcome.ok r0.2 := by
    unfold InternalPage.ValueAt
    simp [hr]
  simp only [Outcome.ok_bind, hv, Outcome.pure_eq_ok, InternalPage.InsertBack, hr,
    List.drop_succ_cons, List.drop_zero, List.append_assoc, List.singleton_append]

/-! ## B+Tree: the position of a child in its parent -/

theorem valueIndexFrom_kids (v : Int) :
    ∀ (pre : List Kid) (slots : List (Int × Int)) (rest : List Int) (i : Int),
      pre.map Kid.pid ++ v :: rest = slots.map Prod.snd → (∀ x ∈ pre, x.pid ≠ v) →
      valueIndexFrom v slots i = i + pre.length := by
  intro pre
  induction pre with
  | nil =>
    intro slots rest i h _
    cases slots with
    | nil => simp at h
    | cons s S1 =>
      simp only [List.map_nil, List.nil_append, List.map_cons, List.cons.injEq] at h
      simp [valueIndexFrom, h.1]
  | cons x pre1 ih =>
    intro slots rest i h hd
    cases slots with
    | nil => simp at h
    | cons s S1 =>
      simp only [List.map_cons, List.cons_append, List.cons.injEq] at h
      have hne : ¬ s.2 = v := by
        rw [← h.1]
        exact hd x (List.mem_cons_self _ _)
      show (if s.2 = v then i else valueIndexFrom v S1 (i + 1)) = _
      rw [if_neg hne, ih S1 rest (i + 1) h.2 (fun y hy => hd y (List.mem_cons_of_mem _ hy)),
        List.length_cons]
      push_cast
      omega

theorem valueIndex_of_kids (ip : InternalPage) {lo : Option Int} {pre : List Kid} {curr : Kid}
    {post : List Kid} (hSl : SlotsOf lo (pre ++ [curr] ++ post) ip.slots)
    (hd : ∀ x ∈ pre, x.pid ≠ curr.pid) : ip.ValueIndex curr.pid = (pre.length : Int) := by
  unfold InternalPage.ValueIndex
  rw [valueIndexFrom_kids curr.pid pre ip.slots (post.map Kid.pid) 0 _ hd]
  · omega
  · rw [← hSl.1]
    simp

/-! ## B+Tree: the start of `FixUnderflow` -/

/-- `FixUnderflow` on a page that is not the root, with its parent behind it in
the write set: what the call comes to after each of the four ways in which it
can go on. -/
theorem fixUnderflow_cases (ctx_root : Int) (ws : List Int) (t : BPlusTree)
    (curr_id pid : Int) (cpage : Page) (ip : InternalPage)
    (hc : t.pages curr_id = some cpage) (hcid : cpage.GetPageId = curr_id)
    (hnr : curr_id ≠ ctx_root) (hp : t.pages pid = some (Page.internal ip))
    (ci : Nat) (hvi : ip.ValueIndex curr_id = (ci : Int)) (left_id right_id : Int)
    (hleft : (if (ci : Int) > 0 then ip.ValueAt ((ci : Int) - 1) else pure INVALID_PAGE_ID)
      = Outcome.ok left_id)
    (hright : (if (ci : Int) + 1 < ip.GetSize then ip.ValueAt ((ci : Int) + 1)
      else pure INVALID_PAGE_ID) = Outcome.ok right_id) :
    (∀ t1, tryBorrowFromLeft t cpage.IsLeafPage curr_id pid ci left_id = Outcome.ok (some t1) →
      FixUnderflow ctx_root (curr_id :: pid :: ws) t = Outcome.ok t1) ∧
    (∀ t1, tryBorrowFromLeft t cpage.IsLeafPage curr_id pid ci left_id = Outcome.ok none →
      tryBorrowFromRight t cpage.IsLeafPage curr_id pid ci right_id = Outcome.ok (some t1) →
      FixUnderflow ctx_root (curr_id :: pid :: ws) t = Outcome.ok t1) ∧
    (∀ t1, tryBorrowFromLeft t cpage.IsLeafPage curr_id pid ci left_id = Outcome.ok none →
      tryBorrowFromRight t cpage.IsLeafPage curr_id pid ci right_id = Outcome.ok none →
      left_id ≠ INVALID_PAGE_ID →
      mergeWithLeft t cpage.IsLeafPage curr_id pid ci left_id curr_id = Outcome.ok t1 →
      FixUnderflow ctx_root (curr_id :: pid :: ws) t = afterMerge ctx_root (pid :: ws) pid t1) ∧
    (∀ t1, tryBorrowFromLeft t cpage.IsLeafPage curr_id pid ci left_id = Outcome.ok none →
      tryBorrowFromRight t cpage.IsLeafPage curr_id pid ci right_id = Outcome.ok none →
      left_id = INVALID_PAGE_ID → right_id ≠ INVALID_PAGE_ID →
      mergeWithRight t cpage.IsLeafPage curr_id pid ci right_id = Outcome.ok t1 →
      FixUnderflow ctx_root (curr_id :: pid :: ws) t = afterMerge ctx_root (pid :: ws) pid t1) := by
  have hroot : IsRootPage ctx_root curr_id = false := by
    unfold IsRootPage
    simp [hnr]
  have hne : ¬ ((ci : Int) = -1) := by omega
  have hl : ((ci : Int) > 0 ∧ ip.ValueAt ((ci : Int) - 1) = Outcome.ok left_id) ∨
      (¬ (ci : Int) > 0 ∧ left_id = INVALID_PAGE_ID) := by
    by_cases h0 : (ci : Int) > 0
    · rw [if_pos h0] at hleft
      exact Or.inl ⟨h0, hleft⟩
    · rw [if_neg h0] at hleft
      simp only [Outcome.pure_eq_ok, Outcome.ok.injEq] at hleft
      exact Or.inr ⟨h0, hleft.symm⟩
  have hr : ((ci : Int) + 1 < ip.GetSize ∧ ip.ValueAt ((ci : Int) + 1) = Outcome.ok right_id) ∨
      (¬ (ci : Int) + 1 < ip.GetSize ∧ right_id = INVALID_PAGE_ID) := by
    by_cases h0 : (ci : Int) + 1 < ip.GetSize
    · rw [if_pos h0] at hright
      exact Or.inl ⟨h0, hright⟩
    · rw [if_neg h0] at hright
      simp only [Outcome.pure_eq_ok, Outcome.ok.injEq] at hright
      exact Or.inr ⟨h0, hright.symm⟩
  refine ⟨?_, ?_, ?_, ?_⟩
  · intro t1 h1
    conv_lhs => unfold FixUnderflow
    simp only [pageAt_eq hc, Outcome.ok_bind, hcid, hroot, Bool.false_eq_true, false_and,
      if_false, internalAt_eq hp, hvi, hne]
    rcases hl with ⟨hl1, hl2⟩ | ⟨hl1, hl2⟩ <;> rcases hr with ⟨hr1, hr2⟩ | ⟨hr1, hr2⟩ <;>
      simp only [hl1, hr1, if_true, if_false, hl2, hr2, Outcome.ok_bind, Outcome.pure_eq_ok] <;>
      (try rw [hl2] at h1) <;>
      simp only [h1, Outcome.ok_bind]
  · intro t1 h1 h2
    conv_lhs => unfold FixUnderflow
    simp only [pageAt_eq hc, Outcome.ok_bind, hcid, hroot, Bool.false_eq_true, false_and,
      if_false, internalAt_eq hp, hvi, hne]
    rcases hl with ⟨hl1, hl2⟩ | ⟨hl1, hl2⟩ <;> rcases hr with ⟨hr1, hr2⟩ | ⟨hr1, hr2⟩ <;>
      simp only [hl1, hr1, if_true, if_false, hl2, hr2, Outcome.ok_bind, Outcome.pure_eq_ok] <;>
      (try rw [hl2] at h1) <;> (try rw [hr2] at h2) <;>
      simp only [h1, h2, Outcome.ok_bind]
  · intro t1 h1 h2 h3 h4
    conv_lhs => unfold FixUnderflow
    simp only [pageAt_eq hc, Outcome.ok_bind, hcid, hroot, Bool.false_eq_true, false_and,
      if_false, internalAt_eq hp, hvi, hne]
    rcases hl with ⟨hl1, hl2⟩ | ⟨hl1, hl2⟩
    · rcases hr with ⟨hr1, hr2⟩ | ⟨hr1, hr2⟩
      · simp only [hl1, hr1, if_true, hl2, hr2, Outcome.ok_bind, h1, h2, h3, false_and, if_false,
          ne_eq, not_false_eq_true, h4]
        rfl
      · simp only [hl1, hr1, if_true, if_false, hl2, Outcome.ok_bind, Outcome.pure_eq_ok]
        rw [hr2] at h2
        simp only [h1, h2, h3, false_and, if_false, ne_eq, not_false_eq_true, if_true, h4,
          Outcome.ok_bind]
        rfl
    · exact absurd hl2 h3
  · intro t1 h1 h2 h3 h4 h5
    conv_lhs => unfold FixUnderflow
    simp only [pageAt_eq hc, Outcome.ok_bind, hcid, hroot, Bool.false_eq_true, false_and,
      if_false, internalAt_eq hp, hvi, hne]
    rcases hr with ⟨hr1, hr2⟩ | ⟨hr1, hr2⟩
    · rcases hl with ⟨hl1, hl2⟩ | ⟨hl1, hl2⟩
      · simp only [hl1, hr1, if_true, hl2, hr2, Outcome.ok_bind, h1, h2, h3, h4, true_and,
          if_false, ne_eq, not_true_eq_false, h5]
        rfl
      · simp only [hl1, hr1, if_true, if_false, hr2, Outcome.ok_bind, Outcome.pure_eq_ok]
        rw [h3] at h1
        simp only [h1, h2, h4, true_and, and_false, if_false, ne_eq, not_true_eq_false,
          h5, Outcome.ok_bind]
        rfl
    · exact absurd hr2 h4

/-! ## B+Tree: rebuilding the parent after a change of two neighbours -/

theorem rep_replace_seg2 {L I n m : Nat} {t t2 : BPlusTree} {pid : Int} {ip2 : InternalPage}
    {lo hi : Option Int} {nxt : Int} {pre O N post : List Kid}
    (hpage2 : t2.pages pid = some (Page.internal ip2)) (hmax : ip2.max_size_ = I)
    (hSl : SlotsOf lo (pre ++ N ++ post) ip2.slots)
    (hpre : KidsOK (RepKid L I t.pages n) pre (nextLo (O ++ post) hi)
      (nextFirst (O ++ post) nxt))
    (hpost : KidsOK (RepKid L I t.pages n) post hi nxt)
    (hnd : (pid :: (pre ++ O ++ post).flatMap Kid.ps).Nodup)
    (hfresh : Fresh t (pid :: (pre ++ O ++ post).flatMap Kid.ps))
    (hframe : ∀ p, p ∉ O.flatMap Kid.ps → p ≠ pid → p < t.next_page_id_ →
      (t2.pages p).map Page.core = (t.pages p).map Page.core)
    (hnew : KidsOK (RepKid L I t2.pages n) N (nextLo post hi) (nextFirst post nxt))
    (hlo : nextLo (N ++ post) hi = nextLo (O ++ post) hi)
    (hfirst : nextFirst (N ++ post) nxt = nextFirst (O ++ post) nxt)
    (hnewnd : (N.flatMap Kid.ps).Nodup)
    (hsub : ∀ p ∈ N.flatMap Kid.ps, p ∈ O.flatMap Kid.ps ∨ t.next_page_id_ ≤ p)
    (hm : m ≤ (pre ++ N ++ post).length) :
    Rep L I t2.pages (n + 1) m pid lo hi (fun k v => ∃ x ∈ pre ++ N ++ post, x.E k v)
      (pid :: (pre ++ N ++ post).flatMap Kid.ps) (nextFirst (pre ++ O ++ post) nxt) nxt := by
  have hfr : ∀ x ∈ pre ++ post, ∀ p ∈ x.ps,
      (t2.pages p).map Page.core = (t.pages p).map Page.core := by
    intro x hx p hp
    have hnd2 := (List.nodup_cons.mp hnd).2
    rw [List.flatMap_append, List.flatMap_append] at hnd2
    have hpall : p ∈ (pre ++ O ++ post).flatMap Kid.ps := by
      rcases List.mem_append.mp hx with h | h
      · exact List.mem_flatMap.mpr ⟨x, List.mem_append_left _ (List.mem_append_left _ h), hp⟩
      · exact List.mem_flatMap.mpr ⟨x, List.mem_append_right _ h, hp⟩
    apply hframe p _ _ (hfresh.2 p (List.mem_cons_of_mem _ hpall)).2
    · intro hold
      rw [List.nodup_append] at hnd2
      obtain ⟨h1, h2, h3⟩ := hnd2
      rcases List.mem_append.mp hx with h | h
      · rw [List.nodup_append] at h1
        exact h1.2.2 (List.mem_flatMap.mpr ⟨x, h, hp⟩) hold
      · exact h3 (List.mem_append_right _ hold) (List.mem_flatMap.mpr ⟨x, h, hp⟩)
    · intro hh
      rw [hh] at hpall
      exact (List.nodup_cons.mp hnd).1 hpall
  rw [rep_internal_iff]
  refine ⟨ip2, pre ++ N ++ post, hpage2, hmax, hm, hSl, ?_, fun k v => Iff.rfl, rfl, ?_, ?_⟩
  · rw [List.append_assoc, kidsOK_append, hlo, hfirst]
    refine ⟨kidsOK_frame (fun x hx p hp => hfr x (List.mem_append_left _ hx) p hp) hpre, ?_⟩
    rw [kidsOK_append]
    exact ⟨hnew, kidsOK_frame (fun x hx p hp => hfr x (List.mem_append_right _ hx) p hp) hpost⟩
  · exact segment_nodup hnd (fun p hp => (hfresh.2 p hp).2) hnewnd hsub
  · rw [List.append_assoc, List.append_assoc]
    exact (nextFirst_append pre (O ++ post) (N ++ post) nxt hfirst).symm

/-! ## B+Tree: the neighbours of the page that `FixUnderflow` looks at -/

theorem fixGood_of_seg {L I n m : Nat} {t t2 : BPlusTree} {pid : Int} {q : InternalPage}
    {lo hi : Option Int} {nxt : Int} {pre O N post : List Kid}
    (hkeep : Keep t t2) (hnext : t2.next_page_id_ = t.next_page_id_)
    (hpage2 : t2.pages pid = some (Page.internal q)) (hid2 : q.page_id_ = pid)
    (hmax : q.max_size_ = I)
    (hSl : SlotsOf lo (pre ++ N ++ post) q.slots)
    (hpre : KidsOK (RepKid L I t.pages n) pre (nextLo (O ++ post) hi)
      (nextFirst (O ++ post) nxt))
    (hpost : KidsOK (RepKid L I t.pages n) post hi nxt)
    (hnd : (pid :: (pre ++ O ++ post).flatMap Kid.ps).Nodup)
    (hfresh : Fresh t (pid :: (pre ++ O ++ post).flatMap Kid.ps))
    (hframe : ∀ p, p ∉ O.flatMap Kid.ps → p ≠ pid → p < t.next_page_id_ →
      (t2.pages p).map Page.core = (t.pages p).map Page.core)
    (hnew : KidsOK (RepKid L I t2.pages n) N (nextLo post hi) (nextFirst post nxt))
    (hlo : nextLo (N ++ post) hi = nextLo (O ++ post) hi)
    (hfirst : nextFirst (N ++ post) nxt = nextFirst (O ++ post) nxt)
    (hnewnd : (N.flatMap Kid.ps).Nodup)
    (hsub : ∀ p ∈ N.flatMap Kid.ps, p ∈ O.flatMap Kid.ps)
    (hE : ∀ k v, (∃ x ∈ N, x.E k v) ↔ (∃ x ∈ O, x.E k v))
    (hm : m ≤ (pre ++ N ++ post).length) (hptr : PtrStep t t2) :
    FixGood L I t t2 n m pid lo hi (pre ++ O ++ post) nxt := by
  refine ⟨hkeep, hnext, ⟨_, hpage2, hid2⟩, pid :: (pre ++ N ++ post).flatMap Kid.ps, ?_, ?_, ?_⟩
  · have := rep_replace_seg2 hpage2 hmax hSl hpre hpost hnd hfresh hframe hnew hlo hfirst hnewnd
      (fun p hp => Or.inl (hsub p hp)) hm
    apply rep_congr_E _ this
    intro k v
    rw [exists_mem_segment, exists_mem_segment, hE k v]
  · intro p hp
    rcases List.mem_cons.mp hp with h | h
    · rw [h]; exact List.mem_cons_self _ _
    · apply List.mem_cons_of_mem
      rcases mem_segment_flatMap (O := O) h with h1 | h1
      · simp only [List.flatMap_append, List.mem_append]
        exact Or.inl (Or.inr (hsub p h1))
      · exact h1
  · refine ⟨?_, hptr⟩
    intro p hp1 hp3
    apply hframe p _ _ hp3
    · intro hh
      apply hp1
      apply List.mem_cons_of_mem
      simp only [List.flatMap_append, List.mem_append]
      exact Or.inl (Or.inr hh)
    · intro hh
      exact hp1 (hh ▸ List.mem_cons_self _ _)

theorem leftId_snoc (pre1 : List Kid) (left : Kid) : leftId (pre1 ++ [left]) = left.pid := by
  unfold leftId
  simp

theorem leftId_nil : leftId [] = INVALID_PAGE_ID := rfl

theorem rightId_cons (right : Kid) (post1 : List Kid) : rightId (right :: post1) = right.pid :=
  rfl

theorem rightId_nil : rightId [] = INVALID_PAGE_ID := rfl

/-- Every child of the situation has its page id among its pages. -/
theorem fixCtx_pid_mem {ctx_root : Int} {L I S n : Nat} {t : BPlusTree} {pid : Int}
    {ip : InternalPage} {lo hi : Option Int} {nxt : Int} {pre : List Kid} {curr : Kid}
    {post : List Kid} (c : FixCtx ctx_root L I S n t pid ip lo hi nxt pre curr post) :
    ∀ x ∈ pre ++ [curr] ++ post, x.pid ∈ x.ps := by
  intro x hx
  simp only [List.mem_append, List.mem_singleton] at hx
  rcases hx with (h | h) | h
  · obtain ⟨_, _, hr⟩ := kidsOK_mem c.hpre h
    exact rep_pid_mem hr
  · rw [h]
    exact rep_pid_mem c.hcurr
  · obtain ⟨_, _, hr⟩ := kidsOK_mem c.hpost h
    exact rep_pid_mem hr

theorem fixCtx_pid_lt {ctx_root : Int} {L I S n : Nat} {t : BPlusTree} {pid : Int}
    {ip : InternalPage} {lo hi : Option Int} {nxt : Int} {pre : List Kid} {curr : Kid}
    {post : List Kid} (c : FixCtx ctx_root L I S n t pid ip lo hi nxt pre curr post) :
    ∀ x ∈ pre ++ [curr] ++ post, 1 ≤ x.pid ∧ x.pid < t.next_page_id_ := by
  intro x hx
  exact c.hfresh.2 _ (List.mem_cons_of_mem _
    (List.mem_flatMap.mpr ⟨x, hx, fixCtx_pid_mem c x hx⟩))

theorem fixCtx_pid_ne_parent {ctx_root : Int} {L I S n : Nat} {t : BPlusTree} {pid : Int}
    {ip : InternalPage} {lo hi : Option Int} {nxt : Int} {pre : List Kid} {curr : Kid}
    {post : List Kid} (c : FixCtx ctx_root L I S n t pid ip lo hi nxt pre curr post) :
    ∀ x ∈ pre ++ [curr] ++ post, ∀ p ∈ x.ps, p ≠ pid := by
  intro x hx p hp hh
  apply (List.nodup_cons.mp c.hnd).1
  rw [← hh]
  exact List.mem_flatMap.mpr ⟨x, hx, hp⟩

/-- The pages of two different children are disjoint. -/
theorem kids_ps_disjoint {A : List Kid} {x y : Kid} {B C : List Kid}
    (hnd : ((A ++ x :: B ++ y :: C).flatMap Kid.ps).Nodup) :
    ∀ p ∈ x.ps, p ∉ y.ps := by
  intro p hp1 hp2
  have e : A ++ x :: B ++ y :: C = A ++ (x :: B ++ y :: C) := by simp
  rw [e, List.flatMap_append, List.nodup_append] at hnd
  have h2 := hnd.2.1
  rw [List.cons_append, List.flatMap_cons, List.nodup_append] at h2
  apply h2.2.2 hp1
  rw [List.flatMap_append, List.flatMap_cons]
  exact List.mem_append_right _ (List.mem_append_left _ hp2)

theorem fixCtx_valueIndex {ctx_root : Int} {L I S n : Nat} {t : BPlusTree} {pid : Int}
    {ip : InternalPage} {lo hi : Option Int} {nxt : Int} {pre : List Kid} {curr : Kid}
    {post : List Kid} (c : FixCtx ctx_root L I S n t pid ip lo hi nxt pre curr post) :
    ip.ValueIndex curr.pid = (pre.length : Int) := by
  apply valueIndex_of_kids ip c.hSl
  intro x hx heq
  have hnd2 := (List.nodup_cons.mp c.hnd).2
  obtain ⟨A, B, rfl⟩ := List.append_of_mem hx
  have e : A ++ x :: B ++ [curr] ++ post = A ++ x :: B ++ curr :: post := by simp
  rw [e] at hnd2
  apply kids_ps_disjoint hnd2 x.pid
  · exact fixCtx_pid_mem c x (by simp)
  · rw [heq]
    exact fixCtx_pid_mem c curr (by simp)

/-- The sibling ids that `FixUnderflow` reads from the parent. -/
theorem fixCtx_sibling_ids {ctx_root : Int} {L I S n : Nat} {t : BPlusTree} {pid : Int}
    {ip : InternalPage} {lo hi : Option Int} {nxt : Int} {pre : List Kid} {curr : Kid}
    {post : List Kid} (c : FixCtx ctx_root L I S n t pid ip lo hi nxt pre curr post) :
    (if (pre.length : Int) > 0 then ip.ValueAt ((pre.length : Int) - 1)
      else pure INVALID_PAGE_ID) = Outcome.ok (leftId pre) ∧
    (if (pre.length : Int) + 1 < ip.GetSize then ip.ValueAt ((pre.length : Int) + 1)
      else pure INVALID_PAGE_ID) = Outcome.ok (rightId post) := by
  have hlen := slotsOf_length c.hSl
  simp only [List.length_append, List.length_singleton] at hlen
  have hval : ∀ i : Nat, (hi : i < ip.slots.length) →
      ip.ValueAt (i : Int) = Outcome.ok (ip.slots[i]).2 := by
    intro i hi
    unfold InternalPage.ValueAt
    simp only [Int.toNat_ofNat, List.get?_eq_getElem?, Int.natCast_nonneg, if_true,
      List.getElem?_eq_getElem hi]
  constructor
  · rcases List.eq_nil_or_concat pre with h | ⟨pre1, left, h⟩
    · subst h
      simp [leftId_nil]
    · rw [List.concat_eq_append] at h
      subst h
      rw [leftId_snoc]
      have hpos : ((pre1 ++ [left]).length : Int) > 0 := by
        rw [List.length_append, List.length_singleton]; omega
      rw [if_pos hpos]
      have e : ((pre1 ++ [left]).length : Int) - 1 = (pre1.length : Nat) := by simp
      rw [e, hval pre1.length (by simp at hlen; omega)]
      congr 1
      have := kids_pid_getElem c.hSl.1 pre1.length (by simp) (by simp at hlen; omega)
      rw [← this]
      have hg : (pre1 ++ [left] ++ [curr] ++ post)[pre1.length]? = some left := by
        rw [List.append_assoc, List.append_assoc, List.getElem?_append_right (le_refl _)]
        simp
      rw [List.getElem?_eq_getElem (by simp)] at hg
      rw [Option.some.inj hg]
  · cases post with
    | nil =>
      have : ¬ ((pre.length : Int) + 1 < ip.GetSize) := by
        unfold InternalPage.GetSize
        simp at hlen
        omega
      rw [if_neg this]
      rfl
    | cons right post1 =>
      rw [rightId_cons]
      have hlt : (pre.length : Int) + 1 < ip.GetSize := by
        unfold InternalPage.GetSize
        simp at hlen
        omega
      rw [if_pos hlt]
      have e : (pre.length : Int) + 1 = ((pre.length + 1 : Nat) : Int) := by simp
      rw [e, hval (pre.length + 1) (by simp at hlen; omega)]
      congr 1
      have := kids_pid_getElem c.hSl.1 (pre.length + 1) (by simp) (by simp at hlen; omega)
      rw [← this]
      have hg : (pre ++ [curr] ++ right :: post1)[pre.length + 1]? = some right := by
        rw [List.append_assoc, List.getElem?_append_right (by omega)]
        simp
      rw [List.getElem?_eq_getElem (by simp)] at hg
      rw [Option.some.inj hg]

/-! ## B+Tree: the siblings of the page that `FixUnderflow` looks at -/

theorem fixCtx_left {ctx_root : Int} {L I S n : Nat} {t : BPlusTree} {pid : Int}
    {ip : InternalPage} {lo hi : Option Int} {nxt : Int} {pre1 : List Kid} {left curr : Kid}
    {post : List Kid}
    (c : FixCtx ctx_root L I S n t pid ip lo hi nxt (pre1 ++ [left]) curr post) :
    ∃ SA s SB, ip.slots = SA ++ s :: SB ∧ SA.length = pre1.length + 1 ∧ s.2 = curr.pid ∧
      curr.lo = some s.1 ∧ SlotsOf lo (pre1 ++ [left]) SA ∧ SlotsTail post SB ∧
      Rep L I t.pages n 2 left.pid left.lo curr.lo left.E left.ps left.first curr.first ∧
      KidsOK (RepKid L I t.pages n) pre1 left.lo left.first ∧
      (∀ p ∈ left.ps, p ∉ curr.ps) ∧ left.pid ≠ curr.pid := by
  have hSl := c.hSl
  rw [List.append_assoc] at hSl
  obtain ⟨SA, SK, hs, hlen, hSA, hSK⟩ := slotsOf_split (A := pre1 ++ [left]) (by simp) hSl
  obtain ⟨s, SB, rfl, e1, e2, hSB⟩ := slotsTail_cons_left hSK
  have hpre := c.hpre
  rw [kidsOK_append] at hpre
  have hdis : ∀ p ∈ left.ps, p ∉ curr.ps := by
    have hnd2 := (List.nodup_cons.mp c.hnd).2
    have e : pre1 ++ [left] ++ [curr] ++ post = pre1 ++ left :: [] ++ curr :: post := by simp
    rw [e] at hnd2
    exact kids_ps_disjoint hnd2
  refine ⟨SA, s, SB, hs, by simpa using hlen, e2.symm, e1, hSA, hSB, hpre.2.1, hpre.1, hdis, ?_⟩
  intro heq
  apply hdis left.pid (fixCtx_pid_mem c left (by simp))
  rw [heq]
  exact fixCtx_pid_mem c curr (by simp)

theorem fixCtx_right {ctx_root : Int} {L I S n : Nat} {t : BPlusTree} {pid : Int}
    {ip : InternalPage} {lo hi : Option Int} {nxt : Int} {pre : List Kid} {curr right : Kid}
    {post1 : List Kid}
    (c : FixCtx ctx_root L I S n t pid ip lo hi nxt pre curr (right :: post1)) :
    ∃ SA sr SB1, ip.slots = SA ++ sr :: SB1 ∧ SA.length = pre.length + 1 ∧ sr.2 = right.pid ∧
      right.lo = some sr.1 ∧ SlotsOf lo (pre ++ [curr]) SA ∧ SlotsTail post1 SB1 ∧
      Rep L I t.pages n 2 right.pid right.lo (nextLo post1 hi) right.E right.ps right.first
        (nextFirst post1 nxt) ∧
      KidsOK (RepKid L I t.pages n) post1 hi nxt ∧
      (∀ p ∈ curr.ps, p ∉ right.ps) ∧ curr.pid ≠ right.pid := by
  obtain ⟨SA, SK, hs, hlen, hSA, hSK⟩ := slotsOf_split (A := pre ++ [curr]) (by simp) c.hSl
  obtain ⟨sr, SB1, rfl, e1, e2, hSB⟩ := slotsTail_cons_left hSK
  have hdis : ∀ p ∈ curr.ps, p ∉ right.ps := by
    have hnd2 := (List.nodup_cons.mp c.hnd).2
    have e : pre ++ [curr] ++ right :: post1 = pre ++ curr :: [] ++ right :: post1 := by simp
    rw [e] at hnd2
    exact kids_ps_disjoint hnd2
  refine ⟨SA, sr, SB1, hs, by simpa using hlen, e2.symm, e1, hSA, hSB, c.hpost.1, c.hpost.2,
    hdis, ?_⟩
  intro heq
  apply hdis curr.pid (fixCtx_pid_mem c curr (by simp))
  rw [heq]
  exact fixCtx_pid_mem c right (by simp)

theorem getMinSize_pos {L : Nat} (hL : 2 ≤ L) : 1 ≤ GetMinSize L := by
  unfold GetMinSize
  omega

theorem getMinSize_double (L : Nat) : 2 * GetMinSize L ≤ L + 1 := by
  unfold GetMinSize
  omega

theorem getMinSize_two {I : Nat} (hI : 3 ≤ I) : 2 ≤ GetMinSize I := by
  unfold GetMinSize
  omega

/-- The current leaf of the situation. -/
theorem fixCtx_curr_leaf {ctx_root : Int} {L I S : Nat} {t : BPlusTree} {pid : Int}
    {ip : InternalPage} {lo hi : Option Int} {nxt : Int} {pre : List Kid} {curr : Kid}
    {post : List Kid} (c : FixCtx ctx_root L I S 0 t pid ip lo hi nxt pre curr post) :
    ∃ cl, t.pages curr.pid = some (Page.leaf cl) ∧ cl.page_id_ = curr.pid ∧ cl.max_size_ = L ∧
      cl.slots.length < GetMinSize L ∧ SortedKeys cl.slots ∧
      (∀ s ∈ cl.slots, aboveLo curr.lo s.1 ∧ belowHi (nextLo post hi) s.1) ∧
      (∀ k v, curr.E k v ↔ (k, v) ∈ cl.slots) ∧ curr.ps = [curr.pid] ∧
      curr.first = curr.pid ∧ cl.next_page_id_ = nextFirst post nxt ∧
      boundsOrdered curr.lo (nextLo post hi) := by
  obtain ⟨cl, h1, h2, h3, h4, h5, h6, h7, h8, h9, h10, _⟩ := c.hcurr
  obtain ⟨page, hp1, hp2, hp3⟩ := c.hunder
  rw [h1] at hp1
  simp only [Option.some.injEq] at hp1
  subst hp1
  simp only [Page.GetPageId] at hp2
  simp only [h2] at hp3
  exact ⟨cl, h1, hp2, h2, hp3, h4, h5, h6, h7, h8, h9, h10⟩

/-! ## B+Tree: `FixUnderflow` on a leaf -/

theorem list_snoc_of_pos {α : Type} (l : List α) (h : 0 < l.length) :
    ∃ A x, l = A ++ [x] := by
  have hne : l ≠ [] := by
    intro h0
    rw [h0] at h
    simp at h
  exact ⟨l.dropLast, l.getLast hne, (List.dropLast_append_getLast hne).symm⟩

theorem sortedKeys_snoc_lt {α : Type} {A : List (Int × α)} {x : Int × α}
    (hs : SortedKeys (A ++ [x])) : ∀ s ∈ A, s.1 < x.1 := by
  intro s hs1
  exact (sortedKeys_append.mp hs).2.2 s hs1 x (List.mem_singleton_self _)

/-- A leaf borrows the last entry of its left sibling. -/
theorem borrow_left_leaf {ctx_root : Int} {L I S m : Nat} {t : BPlusTree} {pid : Int}
    {ip : InternalPage} {lo hi : Option Int} {nxt : Int} {pre1 : List Kid} {left curr : Kid}
    {post : List Kid}
    (c : FixCtx ctx_root L I S 0 t pid ip lo hi nxt (pre1 ++ [left]) curr post)
    (ll : LeafPage) (hll : t.pages left.pid = some (Page.leaf ll))
    (hlend : ¬ (ll.GetSize ≤ (GetMinSize ll.max_size_ : Int)))
    (hm : m ≤ (pre1 ++ [left] ++ [curr] ++ post).length) :
    ∃ t2, tryBorrowFromLeft t true curr.pid pid ((pre1 ++ [left]).length : Nat) left.pid
        = Outcome.ok (some t2) ∧
      FixGood L I t t2 0 m pid lo hi (pre1 ++ [left] ++ [curr] ++ post) nxt := by
  obtain ⟨SA, s, SB, hslots, hSAlen, hs2, hclo, hSA, hSB, hleft, hpre1, hdis, hne⟩ := fixCtx_left c
  obtain ⟨cl, hcl, hclid, hclmax, hclsmall, hclsorted, hclb, hclE, hclps, hclfirst, hclnext,
    hclord⟩ := fixCtx_curr_leaf c
  obtain ⟨ll1, g1, g2, g3, g4, g5, g6, g7, g8, g9, g10, g11⟩ := hleft
  rw [hll] at g1
  simp only [Option.some.injEq, Page.leaf.injEq] at g1
  subst g1
  have hminpos := getMinSize_pos c.hL
  have hllen : GetMinSize L < ll.slots.length := by
    unfold LeafPage.GetSize at hlend
    rw [g2] at hlend
    omega
  obtain ⟨LA, kv, hLA⟩ := list_snoc_of_pos ll.slots (by omega)
  have hLAlen : LA.length + 1 = ll.slots.length := by rw [hLA]; simp
  have hidx : ll.GetSize - 1 = (LA.length : Int) := by
    unfold LeafPage.GetSize
    omega
  obtain ⟨ek, ev⟩ := leaf_at_append ll (A := LA) (B := []) (s := kv) hLA
  have hkvlt : ∀ s ∈ LA, s.1 < kv.1 := by
    rw [hLA] at g4
    exact sortedKeys_snoc_lt g4
  have hkvb := g5 kv (by rw [hLA]; simp)
  have hkvsep : kv.1 < s.1 := hkvb.2 s.1 hclo
  have hcurrge : ∀ x ∈ cl.slots, kv.1 ≤ x.1 := by
    intro x hx
    have := (hclb x hx).1 s.1 hclo
    omega
  have hrm : ll.RemoveAndDeleteRecord kv.1 = (true, { ll with slots := LA ++ [] }) :=
    leaf_remove_at ll kv.1 g4 (v := kv.2) hLA
  have hin : cl.Insert t.LEAF_PAGE_SLOT_CNT kv.1 kv.2
      = (true, { cl with slots := [] ++ (kv.1, kv.2) :: cl.slots }) :=
    leaf_insert_at cl _ kv.1 kv.2 hclsorted (A := []) (B := cl.slots) rfl (by simp) hcurrge
      (by
        rw [c.cfgS]
        have := c.hS
        have := getMinSize_double L
        omega)
  have hleftid := fixCtx_pid_lt c left (by simp)
  have hleftinv : ¬ left.pid = INVALID_PAGE_ID := by
    unfold INVALID_PAGE_ID
    omega
  have hfirst : ({ cl with slots := [] ++ (kv.1, kv.2) :: cl.slots } : LeafPage).KeyAt 0
      = Outcome.ok kv.1 := by
    unfold LeafPage.KeyAt LeafPage.GetSize
    simp
  obtain ⟨_, _, hset, _⟩ := internal_at_append ip hslots
  have hci : (((pre1 ++ [left]).length : Nat) : Int) = (SA.length : Int) := by
    rw [hSAlen]
    simp
  refine ⟨((t.setPage left.pid (Page.leaf { ll with slots := LA ++ [] })).setPage curr.pid
      (Page.leaf { cl with slots := [] ++ (kv.1, kv.2) :: cl.slots })).setPage pid
      (Page.internal { ip with slots := SA ++ (kv.1, s.2) :: SB }), ?_, ?_⟩
  · unfold tryBorrowFromLeft
    simp only [hleftinv, if_false, pageAt_eq hll, internalAt_eq c.hpage, Outcome.ok_bind,
      if_true, Page.GetSize, Page.GetMaxSize, hlend, leafAt_eq hll, leafAt_eq hcl, hidx, ek, ev,
      hrm, hin, hfirst, hci, hset, Outcome.pure_eq_ok]
  · have hkids : pre1 ++ [left] ++ [curr] ++ post = pre1 ++ [left, curr] ++ post := by simp
    have hpne := fixCtx_pid_ne_parent c
    have hleftne : left.pid ≠ pid := hpne left (by simp) left.pid (fixCtx_pid_mem c left (by simp))
    have hcurrne : curr.pid ≠ pid := hpne curr (by simp) curr.pid (fixCtx_pid_mem c curr (by simp))
    rw [hkids]
    have hnd := c.hnd
    have hfresh := c.hfresh
    rw [hkids] at hnd hfresh hm
    refine fixGood_of_seg (N := [(⟨left.lo, left.pid, fun k v => (k, v) ∈ LA, [left.pid],
        left.pid⟩ : Kid), (⟨some kv.1, curr.pid, fun k v => (k, v) ∈ (kv.1, kv.2) :: cl.slots,
        [curr.pid], curr.pid⟩ : Kid)])
      (keep_trans (keep_trans (keep_setPage _ _ _) (keep_setPage _ _ _)) (keep_setPage _ _ _))
      rfl (q := { ip with slots := SA ++ (kv.1, s.2) :: SB }) (by simp) c.hipid c.hmax ?_
      hpre1 c.hpost hnd hfresh ?_ ?_ rfl (by show left.pid = left.first; exact g8.symm)
      ?_ ?_ ?_ (by simpa using hm) ?_
    · -- the slots of the parent
      have e : pre1 ++ [(⟨left.lo, left.pid, fun k v => (k, v) ∈ LA, [left.pid],
          left.pid⟩ : Kid), (⟨some kv.1, curr.pid, fun k v => (k, v) ∈ (kv.1, kv.2) :: cl.slots,
          [curr.pid], curr.pid⟩ : Kid)] ++ post
          = (pre1 ++ [(⟨left.lo, left.pid, fun k v => (k, v) ∈ LA, [left.pid],
            left.pid⟩ : Kid)]) ++ (⟨some kv.1, curr.pid,
              fun k v => (k, v) ∈ (kv.1, kv.2) :: cl.slots, [curr.pid], curr.pid⟩ : Kid)
              :: post := by simp
      rw [e]
      exact slotsOf_append (slotsOf_snoc_congr hSA rfl rfl)
        (slotsTail_cons.mpr ⟨rfl, hs2.symm, hSB⟩)
    · -- the frame
      intro p hp1 hp2 _
      have h1 : p ≠ left.pid := by
        intro hh
        apply hp1
        simp only [List.flatMap_cons, List.flatMap_nil, List.append_nil, List.mem_append]
        exact Or.inl (hh ▸ fixCtx_pid_mem c left (by simp))
      have h2 : p ≠ curr.pid := by
        intro hh
        apply hp1
        simp only [List.flatMap_cons, List.flatMap_nil, List.append_nil, List.mem_append]
        exact Or.inr (hh ▸ fixCtx_pid_mem c curr (by simp))
      simp [h1, h2, hp2]
    · -- the two leaves
      apply kidsOK_pair
      · refine ⟨{ ll with slots := LA ++ [] }, by simp [hne, hleftne], g2, ?_, ?_, ?_, ?_, rfl,
          rfl, ?_, ?_, ?_⟩
        · show (LA ++ []).length ≤ L
          rw [List.append_nil]; omega
        · show SortedKeys (LA ++ [])
          rw [List.append_nil]
          rw [hLA] at g4
          exact (sortedKeys_append.mp g4).1
        · show ∀ x ∈ LA ++ [], _
          rw [List.append_nil]
          intro x hx
          refine ⟨(g5 x (by rw [hLA]; exact List.mem_append_left _ hx)).1, ?_⟩
          intro h hh
          cases hh
          exact hkvlt x hx
        · intro k v
          show _ ↔ (k, v) ∈ LA ++ []
          rw [List.append_nil]
        · show ll.next_page_id_ = curr.pid
          rw [g9, hclfirst]
        · intro l h hl hh
          cases hh
          have hpos : 0 < LA.length := by omega
          have hmem : LA[0] ∈ LA := List.getElem_mem _
          have := hkvlt _ hmem
          have := (g5 LA[0] (by rw [hLA]; exact List.mem_append_left _ hmem)).1 l hl
          omega
        · show 2 ≤ (LA ++ []).length + 1
          rw [List.append_nil]
          omega
      · refine ⟨{ cl with slots := [] ++ (kv.1, kv.2) :: cl.slots }, by simp [hcurrne], hclmax,
          ?_, ?_, ?_, fun k v => Iff.rfl, rfl, rfl, hclnext, ?_, ?_⟩
        · show ([] ++ (kv.1, kv.2) :: cl.slots).length ≤ L
          simp only [List.nil_append, List.length_cons]
          have := getMinSize_double L
          omega
        · show SortedKeys ([] ++ (kv.1, kv.2) :: cl.slots)
          rw [List.nil_append]
          apply sortedKeys_cons.mpr
          refine ⟨?_, hclsorted⟩
          intro x hx
          have := (hclb x hx).1 s.1 hclo
          show kv.1 < x.1
          omega
        · show ∀ x ∈ [] ++ (kv.1, kv.2) :: cl.slots, _
          rw [List.nil_append]
          intro x hx
          rcases List.mem_cons.mp hx with h | h
          · rw [h]
            refine ⟨fun l hl => by cases hl; exact le_refl _, ?_⟩
            intro h1 hh
            have := hclord s.1 h1 hclo hh
            show kv.1 < h1
            omega
          · refine ⟨?_, (hclb x h).2⟩
            intro l hl
            cases hl
            exact hcurrge x h
        · intro l h hl hh
          cases hl
          have := hclord s.1 h hclo hh
          omega
        · show 2 ≤ ([] ++ (kv.1, kv.2) :: cl.slots).length + 1
          simp only [List.nil_append, List.length_cons]
          omega
    · -- the pages
      simp [hne]
    · intro p hp
      simp only [List.flatMap_cons, List.flatMap_nil, List.append_nil, List.mem_append,
        List.mem_singleton] at hp ⊢
      rcases hp with h | h
      · exact Or.inl (h ▸ fixCtx_pid_mem c left (by simp))
      · exact Or.inr (h ▸ fixCtx_pid_mem c curr (by simp))
    · -- the entries
      intro k v
      simp only [List.mem_cons, List.mem_singleton, List.not_mem_nil, or_false,
        exists_eq_or_imp, exists_eq_left]
      rw [g6, hclE, hLA]
      simp only [List.mem_append, List.mem_singleton]
      constructor
      · rintro (h | h | h)
        · exact Or.inl (Or.inl h)
        · exact Or.inl (Or.inr h)
        · exact Or.inr h
      · rintro ((h | h) | h)
        · exact Or.inl h
        · exact Or.inr (Or.inl h)
        · exact Or.inr (Or.inr h)
    · -- the sibling pointers
      have hne3 : ¬ curr.pid = left.pid := fun h => hne h.symm
      refine ptrStep_trans (ptrStep_trans
        (ptrStep_setLeaf t left.pid ll { ll with slots := LA ++ [] } hll rfl rfl (Or.inl rfl))
        (ptrStep_setLeaf _ curr.pid cl { cl with slots := [] ++ (kv.1, kv.2) :: cl.slots } ?_
          rfl rfl (Or.inl rfl)))
        (ptrStep_setInternal _ pid ip { ip with slots := SA ++ (kv.1, s.2) :: SB } ?_)
      · simp [hcl, hne3]
      · simp [c.hpage, hleftne.symm, hcurrne.symm]

/-- A leaf borrows the first entry of its right sibling. -/
theorem borrow_right_leaf {ctx_root : Int} {L I S m : Nat} {t : BPlusTree} {pid : Int}
    {ip : InternalPage} {lo hi : Option Int} {nxt : Int} {pre : List Kid} {curr right : Kid}
    {post1 : List Kid}
    (c : FixCtx ctx_root L I S 0 t pid ip lo hi nxt pre curr (right :: post1))
    (rl : LeafPage) (hrl : t.pages right.pid = some (Page.leaf rl))
    (hlend : ¬ (rl.GetSize ≤ (GetMinSize rl.max_size_ : Int)))
    (hm : m ≤ (pre ++ [curr] ++ right :: post1).length) :
    ∃ t2, tryBorrowFromRight t true curr.pid pid (pre.length : Nat) right.pid
        = Outcome.ok (some t2) ∧
      FixGood L I t t2 0 m pid lo hi (pre ++ [curr] ++ right :: post1) nxt := by
  obtain ⟨SA, sr, SB1, hslots, hSAlen, hs2, hrlo, hSA, hSB, hright, hpost1, hdis, hne⟩ :=
    fixCtx_right c
  obtain ⟨cl, hcl, hclid, hclmax, hclsmall, hclsorted, hclb, hclE, hclps, hclfirst, hclnext,
    hclord⟩ := fixCtx_curr_leaf c
  obtain ⟨rl1, g1, g2, g3, g4, g5, g6, g7, g8, g9, g10, g11⟩ := hright
  rw [hrl] at g1
  simp only [Option.some.injEq, Page.leaf.injEq] at g1
  subst g1
  have hminpos := getMinSize_pos c.hL
  have hrlen : GetMinSize L < rl.slots.length := by
    unfold LeafPage.GetSize at hlend
    rw [g2] at hlend
    omega
  obtain ⟨kv, RB, hRB⟩ : ∃ kv RB, rl.slots = kv :: RB := by
    cases hsl : rl.slots with
    | nil => rw [hsl] at hrlen; simp at hrlen
    | cons a l => exact ⟨a, l, rfl⟩
  obtain ⟨x2, RB1, hRB1⟩ : ∃ x2 RB1, RB = x2 :: RB1 := by
    cases hsl : RB with
    | nil => rw [hRB, hsl] at hrlen; simp at hrlen; omega
    | cons a l => exact ⟨a, l, rfl⟩
  subst hRB1
  obtain ⟨ek, ev⟩ := leaf_at_append rl (A := []) (B := x2 :: RB1) (s := kv) hRB
  have hsorted2 := g4
  rw [hRB] at hsorted2
  obtain ⟨hkvlt, hsortedRB⟩ := sortedKeys_cons.mp hsorted2
  obtain ⟨hx2lt, _⟩ := sortedKeys_cons.mp hsortedRB
  have hkvb := g5 kv (by rw [hRB]; simp)
  have hx2b := g5 x2 (by rw [hRB]; simp)
  have hsepkv : sr.1 ≤ kv.1 := hkvb.1 sr.1 hrlo
  have hcurrlt : ∀ x ∈ cl.slots, x.1 < kv.1 := by
    intro x hx
    have := (hclb x hx).2 sr.1 hrlo
    omega
  have hrm : rl.RemoveAndDeleteRecord kv.1 = (true, { rl with slots := [] ++ x2 :: RB1 }) :=
    leaf_remove_at rl kv.1 g4 (A := []) (v := kv.2) hRB
  have hin : cl.Insert t.LEAF_PAGE_SLOT_CNT kv.1 kv.2
      = (true, { cl with slots := cl.slots ++ (kv.1, kv.2) :: [] }) :=
    leaf_insert_at cl _ kv.1 kv.2 hclsorted (A := cl.slots) (B := []) (by simp) hcurrlt (by simp)
      (by
        rw [c.cfgS]
        have := c.hS
        have := getMinSize_double L
        omega)
  have hrightid := fixCtx_pid_lt c right (by simp)
  have hrightinv : ¬ right.pid = INVALID_PAGE_ID := by
    unfold INVALID_PAGE_ID
    omega
  have hfirst : ({ rl with slots := [] ++ x2 :: RB1 } : LeafPage).KeyAt 0 = Outcome.ok x2.1 := by
    unfold LeafPage.KeyAt LeafPage.GetSize
    simp
  obtain ⟨_, _, hset, _⟩ := internal_at_append ip hslots
  have hci : ((pre.length : Nat) : Int) + 1 = (SA.length : Int) := by
    rw [hSAlen]
    simp
  have hk0 : rl.KeyAt 0 = Outcome.ok kv.1 := ek
  have hv0 : rl.ValueAt 0 = Outcome.ok kv.2 := ev
  refine ⟨((t.setPage right.pid (Page.leaf { rl with slots := [] ++ x2 :: RB1 })).setPage curr.pid
      (Page.leaf { cl with slots := cl.slots ++ (kv.1, kv.2) :: [] })).setPage pid
      (Page.internal { ip with slots := SA ++ (x2.1, sr.2) :: SB1 }), ?_, ?_⟩
  · unfold tryBorrowFromRight
    simp only [hrightinv, if_false, pageAt_eq hrl, internalAt_eq c.hpage, Outcome.ok_bind,
      if_true, Page.GetSize, Page.GetMaxSize, hlend, leafAt_eq hrl, leafAt_eq hcl, hk0, hv0,
      hrm, hin, hfirst, hci, hset, Outcome.pure_eq_ok]
  · have hkids : pre ++ [curr] ++ right :: post1 = pre ++ [curr, right] ++ post1 := by simp
    have hpne := fixCtx_pid_ne_parent c
    have hrightne : right.pid ≠ pid :=
      hpne right (by simp) right.pid (fixCtx_pid_mem c right (by simp))
    have hcurrne : curr.pid ≠ pid := hpne curr (by simp) curr.pid (fixCtx_pid_mem c curr (by simp))
    rw [hkids]
    have hnd := c.hnd
    have hfresh := c.hfresh
    rw [hkids] at hnd hfresh hm
    have hne2 : ¬ right.pid = curr.pid := fun h => hne h.symm
    refine fixGood_of_seg (N := [(⟨curr.lo, curr.pid,
        fun k v => (k, v) ∈ cl.slots ++ (kv.1, kv.2) :: [], [curr.pid], curr.pid⟩ : Kid),
        (⟨some x2.1, right.pid, fun k v => (k, v) ∈ x2 :: RB1, [right.pid], right.pid⟩ : Kid)])
      (keep_trans (keep_trans (keep_setPage _ _ _) (keep_setPage _ _ _)) (keep_setPage _ _ _))
      rfl (q := { ip with slots := SA ++ (x2.1, sr.2) :: SB1 }) (by simp) c.hipid c.hmax ?_
      c.hpre hpost1 hnd hfresh ?_ ?_ rfl (by show curr.pid = curr.first; exact hclfirst.symm)
      ?_ ?_ ?_ (by simpa using hm) ?_
    · -- the slots of the parent
      have e : pre ++ [(⟨curr.lo, curr.pid,
          fun k v => (k, v) ∈ cl.slots ++ (kv.1, kv.2) :: [], [curr.pid], curr.pid⟩ : Kid),
          (⟨some x2.1, right.pid, fun k v => (k, v) ∈ x2 :: RB1, [right.pid],
            right.pid⟩ : Kid)] ++ post1
          = (pre ++ [(⟨curr.lo, curr.pid,
              fun k v => (k, v) ∈ cl.slots ++ (kv.1, kv.2) :: [], [curr.pid], curr.pid⟩ : Kid)])
            ++ (⟨some x2.1, right.pid, fun k v => (k, v) ∈ x2 :: RB1, [right.pid],
              right.pid⟩ : Kid) :: post1 := by simp
      rw [e]
      exact slotsOf_append (slotsOf_snoc_congr hSA rfl rfl)
        (slotsTail_cons.mpr ⟨rfl, hs2.symm, hSB⟩)
    · -- the frame
      intro p hp1 hp2 _
      have h1 : p ≠ right.pid := by
        intro hh
        apply hp1
        simp only [List.flatMap_cons, List.flatMap_nil, List.append_nil, List.mem_append]
        exact Or.inr (hh ▸ fixCtx_pid_mem c right (by simp))
      have h2 : p ≠ curr.pid := by
        intro hh
        apply hp1
        simp only [List.flatMap_cons, List.flatMap_nil, List.append_nil, List.mem_append]
        exact Or.inl (hh ▸ fixCtx_pid_mem c curr (by simp))
      simp [h1, h2, hp2]
    · -- the two leaves
      apply kidsOK_pair
      · refine ⟨{ cl with slots := cl.slots ++ (kv.1, kv.2) :: [] }, by simp [hcurrne], hclmax,
          ?_, ?_, ?_, fun k v => Iff.rfl, rfl, rfl, ?_, ?_, ?_⟩
        · show (cl.slots ++ (kv.1, kv.2) :: []).length ≤ L
          simp only [List.length_append, List.length_cons, List.length_nil]
          have := getMinSize_double L
          omega
        · show SortedKeys (cl.slots ++ (kv.1, kv.2) :: [])
          apply sortedKeys_append.mpr
          refine ⟨hclsorted, by simp [SortedKeys], ?_⟩
          intro a ha b hb
          rw [List.mem_singleton] at hb
          rw [hb]
          exact hcurrlt a ha
        · show ∀ x ∈ cl.slots ++ (kv.1, kv.2) :: [], _
          intro x hx
          rcases List.mem_append.mp hx with h | h
          · refine ⟨(hclb x h).1, ?_⟩
            intro h1 hh
            cases hh
            have := hcurrlt x h
            have := hkvlt x2 (List.mem_cons_self _ _)
            omega
          · rw [List.mem_singleton] at h
            rw [h]
            refine ⟨?_, ?_⟩
            · intro l hl
              have := hclord l sr.1 hl hrlo
              show l ≤ kv.1
              omega
            · intro h1 hh
              cases hh
              exact hkvlt x2 (List.mem_cons_self _ _)
        · show cl.next_page_id_ = right.pid
          rw [hclnext]
          exact g8
        · intro l h hl hh
          cases hh
          have := hclord l sr.1 hl hrlo
          have := hkvlt x2 (List.mem_cons_self _ _)
          omega
        · show 2 ≤ (cl.slots ++ (kv.1, kv.2) :: []).length + 1
          simp only [List.length_append, List.length_cons, List.length_nil]
          omega
      · refine ⟨{ rl with slots := [] ++ x2 :: RB1 }, by simp [hne2, hrightne], g2, ?_, ?_, ?_,
          fun k v => ?_, rfl, rfl, g9, ?_, ?_⟩
        · show ([] ++ x2 :: RB1).length ≤ L
          rw [hRB] at g3
          simp only [List.nil_append, List.length_cons] at g3 ⊢
          omega
        · show SortedKeys ([] ++ x2 :: RB1)
          rw [List.nil_append]
          exact hsortedRB
        · show ∀ x ∈ [] ++ x2 :: RB1, _
          rw [List.nil_append]
          intro x hx
          refine ⟨?_, (g5 x (by rw [hRB]; exact List.mem_cons_of_mem _ hx)).2⟩
          intro l hl
          cases hl
          rcases List.mem_cons.mp hx with h | h
          · rw [h]
          · exact le_of_lt (hx2lt x h)
        · show _ ↔ (k, v) ∈ [] ++ x2 :: RB1
          rw [List.nil_append]
        · intro l h hl hh
          cases hl
          exact hx2b.2 h hh
        · show 2 ≤ ([] ++ x2 :: RB1).length + 1
          simp only [List.nil_append, List.length_cons]
          omega
    · -- the pages
      simp [hne]
    · intro p hp
      simp only [List.flatMap_cons, List.flatMap_nil, List.append_nil, List.mem_append,
        List.mem_singleton] at hp ⊢
      rcases hp with h | h
      · exact Or.inl (h ▸ fixCtx_pid_mem c curr (by simp))
      · exact Or.inr (h ▸ fixCtx_pid_mem c right (by simp))
    · -- the entries
      intro k v
      simp only [List.mem_cons, List.mem_singleton, List.not_mem_nil, or_false,
        exists_eq_or_imp, exists_eq_left]
      rw [g6, hclE, hRB]
      simp only [List.mem_append, List.mem_singleton, List.mem_cons, List.not_mem_nil, or_false,
        Prod.mk.eta]
      constructor
      · rintro ((h | h) | h | h)
        · exact Or.inl h
        · exact Or.inr (Or.inl h)
        · exact Or.inr (Or.inr (Or.inl h))
        · exact Or.inr (Or.inr (Or.inr h))
      · rintro (h | h | h | h)
        · exact Or.inl (Or.inl h)
        · exact Or.inl (Or.inr h)
        · exact Or.inr (Or.inl h)
        · exact Or.inr (Or.inr h)
    · -- the sibling pointers
      refine ptrStep_trans (ptrStep_trans
        (ptrStep_setLeaf t right.pid rl { rl with slots := [] ++ x2 :: RB1 } hrl rfl rfl
          (Or.inl rfl))
        (ptrStep_setLeaf _ curr.pid cl { cl with slots := cl.slots ++ (kv.1, kv.2) :: [] } ?_
          rfl rfl (Or.inl rfl)))
        (ptrStep_setInternal _ pid ip { ip with slots := SA ++ (x2.1, sr.2) :: SB1 } ?_)
      · simp [hcl, hne]
      · simp [c.hpage, hrightne.symm, hcurrne.symm]

/-- The leaf that follows a run of children is invalid or a leaf outside the
children before the run. -/
theorem next_leaf_ok {L I n : Nat} {t : BPlusTree} {pid : Int} {A post : List Kid}
    {hi : Option Int} {nxt : Int} (hpost : KidsOK (RepKid L I t.pages n) post hi nxt)
    (hnext : NextOK t nxt (pid :: (A ++ post).flatMap Kid.ps))
    (hnd : (pid :: (A ++ post).flatMap Kid.ps).Nodup) :
    nextFirst post nxt = INVALID_PAGE_ID ∨
      (nextFirst post nxt ∉ A.flatMap Kid.ps ∧ nextFirst post nxt ≠ pid ∧
        ∃ nl, t.pages (nextFirst post nxt) = some (Page.leaf nl)) := by
  cases post with
  | nil =>
    rcases hnext with h | ⟨h1, _, nl, h3⟩
    · exact Or.inl h
    · refine Or.inr ⟨?_, ?_, nl, h3⟩
      · intro hh
        apply h1
        apply List.mem_cons_of_mem
        rw [List.flatMap_append]
        exact List.mem_append_left _ hh
      · intro hh
        apply h1
        have hh2 : nxt = pid := hh
        rw [hh2]
        exact List.mem_cons_self _ _
  | cons right post1 =>
    obtain ⟨hf1, nl, hf2⟩ := rep_first hpost.1
    refine Or.inr ⟨?_, ?_, nl, hf2⟩
    · intro hh
      have hnd2 := (List.nodup_cons.mp hnd).2
      rw [List.flatMap_append, List.nodup_append] at hnd2
      apply hnd2.2.2 hh
      rw [List.flatMap_cons]
      exact List.mem_append_left _ hf1
    · intro hh
      apply (List.nodup_cons.mp hnd).1
      show pid ∈ _
      rw [← hh, List.flatMap_append, List.flatMap_cons]
      exact List.mem_append_right _ (List.mem_append_left _ hf1)

/-- A leaf is merged into its left sibling. -/
theorem merge_left_leaf {ctx_root : Int} {L I S : Nat} {t : BPlusTree} {pid : Int}
    {ip : InternalPage} {lo hi : Option Int} {nxt : Int} {pre1 : List Kid} {left curr : Kid}
    {post : List Kid}
    (c : FixCtx ctx_root L I S 0 t pid ip lo hi nxt (pre1 ++ [left]) curr post)
    (ll : LeafPage) (hll : t.pages left.pid = some (Page.leaf ll))
    (hlend : ll.GetSize ≤ (GetMinSize ll.max_size_ : Int)) :
    ∃ t2, mergeWithLeft t true curr.pid pid ((pre1 ++ [left]).length : Nat) left.pid curr.pid
        = Outcome.ok t2 ∧
      FixGood L I t t2 0 1 pid lo hi (pre1 ++ [left] ++ [curr] ++ post) nxt := by
  obtain ⟨SA, s, SB, hslots, hSAlen, hs2, hclo, hSA, hSB, hleft, hpre1, hdis, hne⟩ := fixCtx_left c
  obtain ⟨cl, hcl, hclid, hclmax, hclsmall, hclsorted, hclb, hclE, hclps, hclfirst, hclnext,
    hclord⟩ := fixCtx_curr_leaf c
  obtain ⟨ll1, g1, g2, g3, g4, g5, g6, g7, g8, g9, g10, g11⟩ := hleft
  rw [hll] at g1
  simp only [Option.some.injEq, Page.leaf.injEq] at g1
  subst g1
  have hllen : ll.slots.length ≤ GetMinSize L := by
    unfold LeafPage.GetSize at hlend
    rw [g2] at hlend
    omega
  have hpne := fixCtx_pid_ne_parent c
  have hleftne : left.pid ≠ pid := hpne left (by simp) left.pid (fixCtx_pid_mem c left (by simp))
  have hcurrne : curr.pid ≠ pid := hpne curr (by simp) curr.pid (fixCtx_pid_mem c curr (by simp))
  have hnextok := next_leaf_ok (A := pre1 ++ [left] ++ [curr]) c.hpost c.hnext c.hnd
  obtain ⟨t1, hmerge, h1left, h1other, h1next, h1keep, h1exact, h1z⟩ := leafMerge_spec t left.pid curr.pid ll cl
    hll hcl (by
      rw [hclnext]
      rcases hnextok with h | ⟨h1, h2, nl, h3⟩
      · exact Or.inl h
      · refine Or.inr ⟨?_, nl, h3⟩
        intro hh
        apply h1
        rw [hh]
        exact List.mem_flatMap.mpr ⟨left, by simp, fixCtx_pid_mem c left (by simp)⟩)
  obtain ⟨_, _, _, hrem⟩ := internal_at_append ip hslots
  have hci : (((pre1 ++ [left]).length : Nat) : Int) = (SA.length : Int) := by
    rw [hSAlen]
    simp
  refine ⟨(t1.setPage pid (Page.internal { ip with slots := SA ++ SB })).DeletePage curr.pid,
    ?_, ?_⟩
  · unfold mergeWithLeft
    simp only [internalAt_eq c.hpage, Outcome.ok_bind, if_true, hmerge, hci, hrem,
      Outcome.pure_eq_ok]
  · have hkids : pre1 ++ [left] ++ [curr] ++ post = pre1 ++ [left, curr] ++ post := by simp
    rw [hkids]
    have hnd := c.hnd
    have hfresh := c.hfresh
    rw [hkids] at hnd hfresh
    have hne2 : ¬ left.pid = curr.pid := hne
    refine fixGood_of_seg (N := [(⟨left.lo, left.pid, fun k v => (k, v) ∈ ll.slots ++ cl.slots,
        [left.pid], left.pid⟩ : Kid)])
      (keep_trans (keep_trans h1keep (keep_setPage _ _ _)) (keep_deletePage _ _))
      h1next (q := { ip with slots := SA ++ SB }) (by simp [hcurrne.symm]) c.hipid c.hmax ?_
      hpre1 c.hpost hnd hfresh ?_ ?_ rfl (by show left.pid = left.first; exact g8.symm)
      ?_ ?_ ?_ (by simp; omega) ?_
    · exact slotsOf_append (slotsOf_snoc_congr hSA rfl rfl) hSB
    · -- the frame
      intro p hp1 hp2 _
      have h1 : p ≠ left.pid := by
        intro hh
        apply hp1
        simp only [List.flatMap_cons, List.flatMap_nil, List.append_nil, List.mem_append]
        exact Or.inl (hh ▸ fixCtx_pid_mem c left (by simp))
      have h2 : p ≠ curr.pid := by
        intro hh
        apply hp1
        simp only [List.flatMap_cons, List.flatMap_nil, List.append_nil, List.mem_append]
        exact Or.inr (hh ▸ fixCtx_pid_mem c curr (by simp))
      simp only [deletePage_pages, setPage_pages, h2, hp2, if_false]
      exact h1other p h1
    · -- the merged leaf
      apply kidsOK_single
      refine ⟨{ ll with slots := ll.slots ++ cl.slots, next_page_id_ := cl.next_page_id_ },
        by simp [hne2, hleftne, h1left], g2, ?_, ?_, ?_, fun k v => Iff.rfl, rfl, rfl, hclnext, ?_, ?_⟩
      · show (ll.slots ++ cl.slots).length ≤ L
        rw [List.length_append]
        have := getMinSize_double L
        omega
      · show SortedKeys (ll.slots ++ cl.slots)
        apply sortedKeys_append.mpr
        refine ⟨g4, hclsorted, ?_⟩
        intro a ha b hb
        have := (g5 a ha).2 s.1 hclo
        have := (hclb b hb).1 s.1 hclo
        omega
      · show ∀ x ∈ ll.slots ++ cl.slots, _
        intro x hx
        rcases List.mem_append.mp hx with h | h
        · refine ⟨(g5 x h).1, ?_⟩
          intro h1 hh
          have := (g5 x h).2 s.1 hclo
          have := hclord s.1 h1 hclo hh
          omega
        · refine ⟨?_, (hclb x h).2⟩
          intro l hl
          have := g10 l s.1 hl hclo
          have := (hclb x h).1 s.1 hclo
          omega
      · intro l h hl hh
        have := g10 l s.1 hl hclo
        have := hclord s.1 h hclo hh
        omega
      · show 2 ≤ (ll.slots ++ cl.slots).length + 1
        rw [List.length_append]
        omega
    · simp
    · intro p hp
      simp only [List.flatMap_cons, List.flatMap_nil, List.append_nil, List.mem_append,
        List.mem_singleton] at hp ⊢
      exact Or.inl (hp ▸ fixCtx_pid_mem c left (by simp))
    · -- the entries
      intro k v
      simp only [List.mem_cons, List.mem_singleton, List.not_mem_nil, or_false,
        exists_eq_or_imp, exists_eq_left]
      rw [g6, hclE, List.mem_append]
    · -- the sibling pointers
      have hllnext : ll.next_page_id_ = curr.pid := by rw [g9, hclfirst]
      have hzfacts : cl.next_page_id_ ≠ INVALID_PAGE_ID →
          cl.next_page_id_ ≠ left.pid ∧ cl.next_page_id_ ≠ curr.pid ∧ cl.next_page_id_ ≠ pid := by
        intro hzv
        rw [hclnext] at hzv ⊢
        rcases hnextok with h | ⟨h1, h2, _⟩
        · exact absurd h hzv
        · refine ⟨?_, ?_, h2⟩
          · intro hh
            apply h1
            rw [hh]
            exact List.mem_flatMap.mpr ⟨left, by simp, fixCtx_pid_mem c left (by simp)⟩
          · intro hh
            apply h1
            rw [hh]
            exact List.mem_flatMap.mpr ⟨curr, by simp, fixCtx_pid_mem c curr (by simp)⟩
      have hpidne1 : ¬ pid = curr.pid := fun h => hcurrne h.symm
      apply ptrStep_merge (a := left.pid) (s := curr.pid) (z := cl.next_page_id_)
      · rw [hll]
        simp [nextOf, hllnext]
      · rw [hcl]
        rfl
      · exact hne
      · by_cases hzv : cl.next_page_id_ = INVALID_PAGE_ID
        · exact Or.inl hzv
        · exact Or.inr (hzfacts hzv).1
      · show t.next_page_id_ ≤ t1.next_page_id_
        omega
      · simp [hne2, hleftne, h1left, nextOf]
      · simp [hne2, hleftne, h1left, prevOf, hll]
      · simp [hne2, hleftne, h1left, storedOf, hll]
      · simp
      · intro hzv
        obtain ⟨z1, z2, z3⟩ := hzfacts hzv
        obtain ⟨nl, e1, e2⟩ := h1z hzv
        simp [z2, z3, e1, e2, nextOf, prevOf, storedOf, hll]
      · intro p hp1 hp2 hp3
        by_cases hpp : p = pid
        · subst hpp
          simp [hpidne1, c.hpage, nextOf, prevOf, storedOf]
        · have e : ((t1.setPage pid (Page.internal { ip with slots := SA ++ SB })).DeletePage
              curr.pid).pages p = t.pages p := by
            simp only [deletePage_pages, setPage_pages, hp2, hpp, if_false]
            exact h1exact p hp1 (fun hh => hp3 hh.1 hh.2)
          rw [e]
          refine ⟨rfl, rfl, rfl, ?_⟩
          cases t.pages p with
          | none => exact Or.inl rfl
          | some q => exact Or.inr (by simp)

/-- The right sibling of a leaf is merged into the leaf. -/
theorem merge_right_leaf {ctx_root : Int} {L I S : Nat} {t : BPlusTree} {pid : Int}
    {ip : InternalPage} {lo hi : Option Int} {nxt : Int} {pre : List Kid} {curr right : Kid}
    {post1 : List Kid}
    (c : FixCtx ctx_root L I S 0 t pid ip lo hi nxt pre curr (right :: post1))
    (rl : LeafPage) (hrl : t.pages right.pid = some (Page.leaf rl))
    (hlend : rl.GetSize ≤ (GetMinSize rl.max_size_ : Int)) :
    ∃ t2, mergeWithRight t true curr.pid pid (pre.length : Nat) right.pid = Outcome.ok t2 ∧
      FixGood L I t t2 0 1 pid lo hi (pre ++ [curr] ++ right :: post1) nxt := by
  obtain ⟨SA, sr, SB1, hslots, hSAlen, hs2, hrlo, hSA, hSB, hright, hpost1, hdis, hne⟩ :=
    fixCtx_right c
  obtain ⟨cl, hcl, hclid, hclmax, hclsmall, hclsorted, hclb, hclE, hclps, hclfirst, hclnext,
    hclord⟩ := fixCtx_curr_leaf c
  obtain ⟨rl1, g1, g2, g3, g4, g5, g6, g7, g8, g9, g10, g11⟩ := hright
  rw [hrl] at g1
  simp only [Option.some.injEq, Page.leaf.injEq] at g1
  subst g1
  have hrlen : rl.slots.length ≤ GetMinSize L := by
    unfold LeafPage.GetSize at hlend
    rw [g2] at hlend
    omega
  have hpne := fixCtx_pid_ne_parent c
  have hrightne : right.pid ≠ pid :=
    hpne right (by simp) right.pid (fixCtx_pid_mem c right (by simp))
  have hcurrne : curr.pid ≠ pid := hpne curr (by simp) curr.pid (fixCtx_pid_mem c curr (by simp))
  have hkids : pre ++ [curr] ++ right :: post1 = pre ++ [curr, right] ++ post1 := by simp
  have hnd := c.hnd
  have hfresh := c.hfresh
  have hnext := c.hnext
  rw [hkids] at hnd hfresh hnext
  have hnextok := next_leaf_ok (A := pre ++ [curr, right]) hpost1 hnext hnd
  obtain ⟨t1, hmerge, h1curr, h1other, h1next, h1keep, h1exact, h1z⟩ := leafMerge_spec t curr.pid right.pid cl rl
    hcl hrl (by
      rw [g9]
      rcases hnextok with h | ⟨h1, h2, nl, h3⟩
      · exact Or.inl h
      · refine Or.inr ⟨?_, nl, h3⟩
        intro hh
        apply h1
        rw [hh]
        exact List.mem_flatMap.mpr ⟨curr, by simp, fixCtx_pid_mem c curr (by simp)⟩)
  obtain ⟨_, _, _, hrem⟩ := internal_at_append ip hslots
  have hci : ((pre.length : Nat) : Int) + 1 = (SA.length : Int) := by
    rw [hSAlen]
    simp
  refine ⟨(t1.setPage pid (Page.internal { ip with slots := SA ++ SB1 })).DeletePage right.pid,
    ?_, ?_⟩
  · unfold mergeWithRight
    simp only [internalAt_eq c.hpage, Outcome.ok_bind, if_true, hmerge, hci, hrem,
      Outcome.pure_eq_ok]
  · rw [hkids]
    have hne2 : ¬ curr.pid = right.pid := hne
    refine fixGood_of_seg (N := [(⟨curr.lo, curr.pid, fun k v => (k, v) ∈ cl.slots ++ rl.slots,
        [curr.pid], curr.pid⟩ : Kid)])
      (keep_trans (keep_trans h1keep (keep_setPage _ _ _)) (keep_deletePage _ _))
      h1next (q := { ip with slots := SA ++ SB1 }) (by simp [hrightne.symm]) c.hipid c.hmax ?_
      c.hpre hpost1 hnd hfresh ?_ ?_ rfl (by show curr.pid = curr.first; exact hclfirst.symm)
      ?_ ?_ ?_ (by simp; omega) ?_
    · exact slotsOf_append (slotsOf_snoc_congr hSA rfl rfl) hSB
    · -- the frame
      intro p hp1 hp2 _
      have h1 : p ≠ right.pid := by
        intro hh
        apply hp1
        simp only [List.flatMap_cons, List.flatMap_nil, List.append_nil, List.mem_append]
        exact Or.inr (hh ▸ fixCtx_pid_mem c right (by simp))
      have h2 : p ≠ curr.pid := by
        intro hh
        apply hp1
        simp only [List.flatMap_cons, List.flatMap_nil, List.append_nil, List.mem_append]
        exact Or.inl (hh ▸ fixCtx_pid_mem c curr (by simp))
      simp only [deletePage_pages, setPage_pages, h1, hp2, if_false]
      exact h1other p h2
    · -- the merged leaf
      apply kidsOK_single
      refine ⟨{ cl with slots := cl.slots ++ rl.slots, next_page_id_ := rl.next_page_id_ },
        by simp [hne2, hcurrne, h1curr], hclmax, ?_, ?_, ?_, fun k v => Iff.rfl, rfl, rfl, g9, ?_, ?_⟩
      · show (cl.slots ++ rl.slots).length ≤ L
        rw [List.length_append]
        have := getMinSize_double L
        omega
      · show SortedKeys (cl.slots ++ rl.slots)
        apply sortedKeys_append.mpr
        refine ⟨hclsorted, g4, ?_⟩
        intro a ha b hb
        have := (hclb a ha).2 sr.1 hrlo
        have := (g5 b hb).1 sr.1 hrlo
        omega
      · show ∀ x ∈ cl.slots ++ rl.slots, _
        intro x hx
        rcases List.mem_append.mp hx with h | h
        · refine ⟨(hclb x h).1, ?_⟩
          intro h1 hh
          have := (hclb x h).2 sr.1 hrlo
          have := g10 sr.1 h1 hrlo hh
          omega
        · refine ⟨?_, (g5 x h).2⟩
          intro l hl
          have := hclord l sr.1 hl hrlo
          have := (g5 x h).1 sr.1 hrlo
          omega
      · intro l h hl hh
        have := hclord l sr.1 hl hrlo
        have := g10 sr.1 h hrlo hh
        omega
      · show 2 ≤ (cl.slots ++ rl.slots).length + 1
        rw [List.length_append]
        omega
    · simp
    · intro p hp
      simp only [List.flatMap_cons, List.flatMap_nil, List.append_nil, List.mem_append,
        List.mem_singleton] at hp ⊢
      exact Or.inl (hp ▸ fixCtx_pid_mem c curr (by simp))
    · -- the entries
      intro k v
      simp only [List.mem_cons, List.mem_singleton, List.not_mem_nil, or_false,
        exists_eq_or_imp, exists_eq_left]
      rw [g6, hclE, List.mem_append]
    · -- the sibling pointers
      have hclnext1 : cl.next_page_id_ = right.pid := by rw [hclnext]; exact g8
      have hzfacts : rl.next_page_id_ ≠ INVALID_PAGE_ID →
          rl.next_page_id_ ≠ curr.pid ∧ rl.next_page_id_ ≠ right.pid ∧ rl.next_page_id_ ≠ pid := by
        intro hzv
        rw [g9] at hzv ⊢
        rcases hnextok with h | ⟨h1, h2, _⟩
        · exact absurd h hzv
        · refine ⟨?_, ?_, h2⟩
          · intro hh
            apply h1
            rw [hh]
            exact List.mem_flatMap.mpr ⟨curr, by simp, fixCtx_pid_mem c curr (by simp)⟩
          · intro hh
            apply h1
            rw [hh]
            exact List.mem_flatMap.mpr ⟨right, by simp, fixCtx_pid_mem c right (by simp)⟩
      have hpidne1 : ¬ pid = right.pid := fun h => hrightne h.symm
      apply ptrStep_merge (a := curr.pid) (s := right.pid) (z := rl.next_page_id_)
      · rw [hcl]
        simp [nextOf, hclnext1]
      · rw [hrl]
        rfl
      · exact hne
      · by_cases hzv : rl.next_page_id_ = INVALID_PAGE_ID
        · exact Or.inl hzv
        · exact Or.inr (hzfacts hzv).1
      · show t.next_page_id_ ≤ t1.next_page_id_
        omega
      · simp [hne2, hcurrne, h1curr, nextOf]
      · simp [hne2, hcurrne, h1curr, prevOf, hcl]
      · simp [hne2, hcurrne, h1curr, storedOf, hcl]
      · simp
      · intro hzv
        obtain ⟨z1, z2, z3⟩ := hzfacts hzv
        obtain ⟨nl, e1, e2⟩ := h1z hzv
        simp [z2, z3, e1, e2, nextOf, prevOf, storedOf, hcl]
      · intro p hp1 hp2 hp3
        by_cases hpp : p = pid
        · subst hpp
          simp [hpidne1, c.hpage, nextOf, prevOf, storedOf]
        · have e : ((t1.setPage pid (Page.internal { ip with slots := SA ++ SB1 })).DeletePage
              right.pid).pages p = t.pages p := by
            simp only [deletePage_pages, setPage_pages, hp2, hpp, if_false]
            exact h1exact p hp1 (fun hh => hp3 hh.1 hh.2)
          rw [e]
          refine ⟨rfl, rfl, rfl, ?_⟩
          cases t.pages p with
          | none => exact Or.inl rfl
          | some q => exact Or.inr (by simp)

/-! ## B+Tree: `FixUnderflow` on an internal page -/

theorem rep_internal_build {L I n m : Nat} {t t2 : BPlusTree} {pid : Int} {q : InternalPage}
    {lo hi : Option Int} {nxt : Int} {K : List Kid} {E : Int → RID → Prop} {ps : List Int}
    {first : Int} (hpage : t2.pages pid = some (Page.internal q)) (hmax : q.max_size_ = I)
    (hm : m ≤ K.length) (hSl : SlotsOf lo K q.slots)
    (hok : KidsOK (RepKid L I t.pages n) K hi nxt)
    (hframe : ∀ x ∈ K, ∀ p ∈ x.ps, (t2.pages p).map Page.core = (t.pages p).map Page.core)
    (hE : ∀ k v, E k v ↔ ∃ x ∈ K, x.E k v) (hps : ps = pid :: K.flatMap Kid.ps)
    (hnd : ps.Nodup) (hfirst : first = nextFirst K nxt) :
    Rep L I t2.pages (n + 1) m pid lo hi E ps first nxt :=
  rep_internal_iff.mpr ⟨q, K, hpage, hmax, hm, hSl, kidsOK_frame hframe hok, hE, hps, hnd,
    hfirst⟩

theorem grandkid_mem {k : Kid} {K : List Kid} (hps : k.ps = k.pid :: K.flatMap Kid.ps)
    (hnd : k.ps.Nodup) : ∀ x ∈ K, ∀ p ∈ x.ps, p ≠ k.pid ∧ p ∈ k.ps := by
  intro x hx p hp
  have hmem : p ∈ K.flatMap Kid.ps := List.mem_flatMap.mpr ⟨x, hx, hp⟩
  rw [hps] at hnd ⊢
  refine ⟨?_, List.mem_cons_of_mem _ hmem⟩
  intro hh
  exact (List.nodup_cons.mp hnd).1 (hh ▸ hmem)

/-- The current internal page of the situation. -/
theorem fixCtx_curr_internal {ctx_root : Int} {L I S n : Nat} {t : BPlusTree} {pid : Int}
    {ip : InternalPage} {lo hi : Option Int} {nxt : Int} {pre : List Kid} {curr : Kid}
    {post : List Kid} (c : FixCtx ctx_root L I S (n + 1) t pid ip lo hi nxt pre curr post) :
    ∃ ci KC, t.pages curr.pid = some (Page.internal ci) ∧ ci.page_id_ = curr.pid ∧
      ci.max_size_ = I ∧ 1 ≤ KC.length ∧ ci.slots.length ≤ GetMinSize I ∧
      SlotsOf curr.lo KC ci.slots ∧
      KidsOK (RepKid L I t.pages n) KC (nextLo post hi) (nextFirst post nxt) ∧
      (∀ k v, curr.E k v ↔ ∃ x ∈ KC, x.E k v) ∧ curr.ps = curr.pid :: KC.flatMap Kid.ps ∧
      curr.ps.Nodup ∧ curr.first = nextFirst KC (nextFirst post nxt) := by
  obtain ⟨ci, KC, h1, h2, h3, h4, h5, h6, h7, h8, h9⟩ := rep_internal_iff.mp c.hcurr
  obtain ⟨page, hp1, hp2, hp3⟩ := c.hunder
  rw [h1] at hp1
  simp only [Option.some.injEq] at hp1
  subst hp1
  simp only [Page.GetPageId] at hp2
  simp only [h2] at hp3
  exact ⟨ci, KC, h1, hp2, h2, h3, hp3, h4, h5, h6, h7, h8, h9⟩

theorem nodup_move_left {a c : Int} {A M K : List Int}
    (h : ((a :: (A ++ M)) ++ (c :: K)).Nodup) : ((a :: A) ++ (c :: (M ++ K))).Nodup := by
  have hp : ((a :: (A ++ M)) ++ (c :: K)).Perm ((a :: A) ++ (c :: (M ++ K))) := by
    have h1 : ((a :: (A ++ M)) ++ (c :: K)).Perm (c :: ((a :: (A ++ M)) ++ K)) :=
      List.perm_middle
    have h2 : ((a :: A) ++ (c :: (M ++ K))).Perm (c :: ((a :: A) ++ (M ++ K))) :=
      List.perm_middle
    have e : (a :: (A ++ M)) ++ K = (a :: A) ++ (M ++ K) := by simp
    rw [e] at h1
    exact h1.trans h2.symm
  exact hp.nodup_iff.mp h

theorem nodup_move_right {c r : Int} {K M B : List Int}
    (h : ((c :: K) ++ (r :: (M ++ B))).Nodup) : ((c :: (K ++ M)) ++ (r :: B)).Nodup := by
  have hp : ((c :: K) ++ (r :: (M ++ B))).Perm ((c :: (K ++ M)) ++ (r :: B)) := by
    have h1 : ((c :: K) ++ (r :: (M ++ B))).Perm (r :: ((c :: K) ++ (M ++ B))) :=
      List.perm_middle
    have h2 : ((c :: (K ++ M)) ++ (r :: B)).Perm (r :: ((c :: (K ++ M)) ++ B)) :=
      List.perm_middle
    have e : (c :: (K ++ M)) ++ B = (c :: K) ++ (M ++ B) := by simp
    rw [e] at h2
    exact h1.trans h2.symm
  exact hp.nodup_iff.mp h

/-- The pages of two neighbours among the children have no page in common. -/
theorem pair_nodup {pid : Int} {pre : List Kid} {a b : Kid} {post : List Kid}
    (hnd : (pid :: (pre ++ [a, b] ++ post).flatMap Kid.ps).Nodup) : (a.ps ++ b.ps).Nodup := by
  have hnd2 := (List.nodup_cons.mp hnd).2
  rw [List.flatMap_append, List.flatMap_append, List.nodup_append] at hnd2
  have := hnd2.1
  rw [List.nodup_append] at this
  simpa using this.2.1

/-- An internal page borrows the last child of its left sibling. -/
theorem borrow_left_internal {ctx_root : Int} {L I S n m : Nat} {t : BPlusTree} {pid : Int}
    {ip : InternalPage} {lo hi : Option Int} {nxt : Int} {pre1 : List Kid} {left curr : Kid}
    {post : List Kid}
    (c : FixCtx ctx_root L I S (n + 1) t pid ip lo hi nxt (pre1 ++ [left]) curr post)
    (il : InternalPage) (hil : t.pages left.pid = some (Page.internal il))
    (hlend : ¬ (il.GetSize - 1 ≤ (GetMinSize il.max_size_ : Int)))
    (hm : m ≤ (pre1 ++ [left] ++ [curr] ++ post).length) :
    ∃ t2, tryBorrowFromLeft t false curr.pid pid ((pre1 ++ [left]).length : Nat) left.pid
        = Outcome.ok (some t2) ∧
      FixGood L I t t2 (n + 1) m pid lo hi (pre1 ++ [left] ++ [curr] ++ post) nxt := by
  obtain ⟨SA, s, SB, hslots, hSAlen, hs2, hclo, hSA, hSB, hleft, hpre1, hdis, hne⟩ := fixCtx_left c
  obtain ⟨ci, KC, hci, hciid, hcimax, hKClen, hcismall, hcSl, hcok, hcE, hcps, hcnd, hcfirst⟩ :=
    fixCtx_curr_internal c
  obtain ⟨il1, KL, g1, g2, g3, g4, g5, g6, g7, g8, g9⟩ := rep_internal_iff.mp hleft
  rw [hil] at g1
  simp only [Option.some.injEq, Page.internal.injEq] at g1
  subst g1
  have hmin2 := getMinSize_two c.hI
  have hlen := slotsOf_length g4
  have hllen : GetMinSize I + 2 ≤ il.slots.length := by
    unfold InternalPage.GetSize at hlend
    rw [g2] at hlend
    omega
  obtain ⟨KL1, km, rfl⟩ := list_snoc_of_pos KL (by omega)
  have hKL1len : 3 ≤ KL1.length := by
    rw [List.length_append, List.length_singleton] at hlen
    omega
  have hKL1ne : KL1 ≠ [] := by
    intro h0
    rw [h0] at hKL1len
    simp at hKL1len
  obtain ⟨SL1, SK, hilslots, hSL1len, hSL1, hSK⟩ := slotsOf_split hKL1ne g4
  obtain ⟨sm, SK1, rfl, hkmlo, hkmpid, hSK1⟩ := slotsTail_cons_left hSK
  have := slotsTail_nil_left hSK1
  subst this
  -- the slots of the current page
  obtain ⟨kc0, KC1, rfl⟩ : ∃ kc0 KC1, KC = kc0 :: KC1 := by
    cases KC with
    | nil => simp at hKClen
    | cons a l => exact ⟨a, l, rfl⟩
  obtain ⟨c0, CR, hcislots, hkc0lo, hkc0pid, hCR⟩ := slotsOf_cons_left hcSl
  have hidx : il.GetSize - 1 = (SL1.length : Int) := by
    unfold InternalPage.GetSize
    rw [hilslots]
    simp
  obtain ⟨ekey, eval, _, erem⟩ := internal_at_append il hilslots
  obtain ⟨pkey, _, pset, _⟩ := internal_at_append ip hslots
  have hleftid := fixCtx_pid_lt c left (by simp)
  have hleftinv : ¬ left.pid = INVALID_PAGE_ID := by
    unfold INVALID_PAGE_ID
    omega
  have hcidx : (((pre1 ++ [left]).length : Nat) : Int) = (SA.length : Int) := by
    rw [hSAlen]
    simp
  have hfront : ci.InsertFront s.1 sm.2 = { ci with slots := (c0.1, sm.2) :: (s.1, c0.2) :: CR } := by
    unfold InternalPage.InsertFront
    rw [hcislots]
  refine ⟨((t.setPage left.pid (Page.internal { il with slots := SL1 ++ [] })).setPage curr.pid
      (Page.internal { ci with slots := (c0.1, sm.2) :: (s.1, c0.2) :: CR })).setPage pid
      (Page.internal { ip with slots := SA ++ (sm.1, s.2) :: SB }), ?_, ?_⟩
  · have hlend2 : ¬ ((SL1.length : Int) ≤ (GetMinSize il.max_size_ : Int)) := by
      rw [← hidx]; exact hlend
    unfold tryBorrowFromLeft
    simp only [hleftinv, if_false, pageAt_eq hil, internalAt_eq c.hpage, Outcome.ok_bind,
      Bool.false_eq_true, Page.GetSize, Page.GetMaxSize, hlend2, internalAt_eq hil,
      internalAt_eq hci, hcidx, pkey, hidx, ekey, eval, erem, hfront, pset, Outcome.pure_eq_ok]
  · have hkids : pre1 ++ [left] ++ [curr] ++ post = pre1 ++ [left, curr] ++ post := by simp
    have hpne := fixCtx_pid_ne_parent c
    have hleftne : left.pid ≠ pid := hpne left (by simp) left.pid (fixCtx_pid_mem c left (by simp))
    have hcurrne : curr.pid ≠ pid := hpne curr (by simp) curr.pid (fixCtx_pid_mem c curr (by simp))
    have hne2 : ¬ left.pid = curr.pid := hne
    have hne3 : ¬ curr.pid = left.pid := fun h => hne h.symm
    rw [hkids]
    have hnd := c.hnd
    have hfresh := c.hfresh
    rw [hkids] at hnd hfresh hm
    have hpair := pair_nodup hnd
    have hKLok := g5
    rw [kidsOK_append] at hKLok
    -- the pool is unchanged on the pages of the grandchildren
    have hgl : ∀ x ∈ KL1 ++ [km], ∀ p ∈ x.ps, p ≠ left.pid ∧ p ≠ curr.pid ∧ p ≠ pid := by
      intro x hx p hp
      obtain ⟨h1, h2⟩ := grandkid_mem g7 g8 x hx p hp
      refine ⟨h1, ?_, hpne left (by simp) p h2⟩
      intro hh
      exact hdis p h2 (hh ▸ fixCtx_pid_mem c curr (by simp))
    have hgc : ∀ x ∈ kc0 :: KC1, ∀ p ∈ x.ps, p ≠ left.pid ∧ p ≠ curr.pid ∧ p ≠ pid := by
      intro x hx p hp
      obtain ⟨h1, h2⟩ := grandkid_mem hcps hcnd x hx p hp
      refine ⟨?_, h1, hpne curr (by simp) p h2⟩
      intro hh
      exact hdis p (hh ▸ fixCtx_pid_mem c left (by simp)) h2
    have hfrg : ∀ x ∈ (KL1 ++ [km]) ++ kc0 :: KC1, ∀ p ∈ x.ps,
        ((((t.setPage left.pid (Page.internal { il with slots := SL1 ++ [] })).setPage curr.pid
          (Page.internal { ci with slots := (c0.1, sm.2) :: (s.1, c0.2) :: CR })).setPage pid
          (Page.internal { ip with slots := SA ++ (sm.1, s.2) :: SB })).pages p).map Page.core
          = (t.pages p).map Page.core := by
      intro x hx p hp
      have : p ≠ left.pid ∧ p ≠ curr.pid ∧ p ≠ pid := by
        rcases List.mem_append.mp hx with h | h
        · exact hgl x h p hp
        · exact hgc x h p hp
      simp [this.1, this.2.1, this.2.2]
    have hkmrep : Rep L I t.pages n 2 km.pid km.lo curr.lo km.E km.ps km.first curr.first :=
      hKLok.2.1
    refine fixGood_of_seg (N := [(⟨left.lo, left.pid, fun k v => ∃ x ∈ KL1, x.E k v,
        left.pid :: KL1.flatMap Kid.ps, left.first⟩ : Kid),
        (⟨some sm.1, curr.pid, fun k v => ∃ x ∈ km :: kc0 :: KC1, x.E k v,
          curr.pid :: (km :: kc0 :: KC1).flatMap Kid.ps, km.first⟩ : Kid)])
      (keep_trans (keep_trans (keep_setPage _ _ _) (keep_setPage _ _ _)) (keep_setPage _ _ _))
      rfl (q := { ip with slots := SA ++ (sm.1, s.2) :: SB }) (by simp) c.hipid c.hmax ?_
      hpre1 c.hpost hnd hfresh ?_ ?_ rfl rfl ?_ ?_ ?_ (by simpa using hm) ?_
    · -- the slots of the parent
      have e : pre1 ++ [(⟨left.lo, left.pid, fun k v => ∃ x ∈ KL1, x.E k v,
          left.pid :: KL1.flatMap Kid.ps, left.first⟩ : Kid),
          (⟨some sm.1, curr.pid, fun k v => ∃ x ∈ km :: kc0 :: KC1, x.E k v,
            curr.pid :: (km :: kc0 :: KC1).flatMap Kid.ps, km.first⟩ : Kid)] ++ post
          = (pre1 ++ [(⟨left.lo, left.pid, fun k v => ∃ x ∈ KL1, x.E k v,
            left.pid :: KL1.flatMap Kid.ps, left.first⟩ : Kid)]) ++
            (⟨some sm.1, curr.pid, fun k v => ∃ x ∈ km :: kc0 :: KC1, x.E k v,
              curr.pid :: (km :: kc0 :: KC1).flatMap Kid.ps, km.first⟩ : Kid) :: post := by simp
      rw [e]
      exact slotsOf_append (slotsOf_snoc_congr hSA rfl rfl)
        (slotsTail_cons.mpr ⟨rfl, hs2.symm, hSB⟩)
    · -- the frame
      intro p hp1 hp2 _
      have h1 : p ≠ left.pid := by
        intro hh
        apply hp1
        simp only [List.flatMap_cons, List.flatMap_nil, List.append_nil, List.mem_append]
        exact Or.inl (hh ▸ fixCtx_pid_mem c left (by simp))
      have h2 : p ≠ curr.pid := by
        intro hh
        apply hp1
        simp only [List.flatMap_cons, List.flatMap_nil, List.append_nil, List.mem_append]
        exact Or.inr (hh ▸ fixCtx_pid_mem c curr (by simp))
      simp [h1, h2, hp2]
    · -- the two pages
      apply kidsOK_pair
      · refine rep_internal_build (q := { il with slots := SL1 ++ [] }) (K := KL1)
          (by simp [hne2, hne3, hleftne]) g2 (by omega) (by simpa using hSL1) ?_
          (fun x hx p hp => hfrg x (by simp [hx]) p hp) (fun k v => Iff.rfl) rfl ?_ ?_
        · have := hKLok.1
          simp only [nextLo, nextFirst] at this
          rw [hkmlo] at this
          exact this
        · rw [g7, List.flatMap_append] at g8
          have hsub : (left.pid :: KL1.flatMap Kid.ps).Sublist
              (left.pid :: (KL1.flatMap Kid.ps ++ [km].flatMap Kid.ps)) :=
            List.Sublist.cons₂ _ (List.sublist_append_left _ _)
          exact hsub.nodup g8
        · show left.first = nextFirst KL1 km.first
          rw [g9]
          cases KL1 with
          | nil => exact absurd rfl hKL1ne
          | cons a l => rfl
      · refine rep_internal_build
          (q := { ci with slots := (c0.1, sm.2) :: (s.1, c0.2) :: CR }) (K := km :: kc0 :: KC1)
          (by simp [hcurrne]) hcimax (by simp) ?_ ?_
          (fun x hx p hp => hfrg x (by
            rcases List.mem_cons.mp hx with h | h
            · rw [h]; simp
            · exact List.mem_append_right _ h) p hp) (fun k v => Iff.rfl) rfl ?_ rfl
        · exact slotsOf_cons.mpr ⟨hkmlo, hkmpid,
            slotsTail_cons.mpr ⟨by rw [hkc0lo, hclo], hkc0pid, hCR⟩⟩
        · refine ⟨?_, hcok⟩
          show Rep L I t.pages n 2 km.pid km.lo kc0.lo km.E km.ps km.first kc0.first
          have e1 : kc0.first = curr.first := hcfirst.symm
          rw [hkc0lo, e1]
          exact hkmrep
        · -- the pages of the moved child are new to the page
          rw [g7, hcps] at hpair
          have : ((left.pid :: (KL1.flatMap Kid.ps ++ km.ps))
              ++ (curr.pid :: (kc0 :: KC1).flatMap Kid.ps)).Nodup := by
            simpa [List.flatMap_append] using hpair
          have h2 := nodup_move_left this
          rw [List.nodup_append] at h2
          simpa [List.flatMap_cons] using h2.2.1
    · -- the pages
      rw [g7, hcps] at hpair
      have : ((left.pid :: (KL1.flatMap Kid.ps ++ km.ps))
          ++ (curr.pid :: (kc0 :: KC1).flatMap Kid.ps)).Nodup := by
        simpa [List.flatMap_append] using hpair
      have h2 := nodup_move_left this
      simpa [List.flatMap_cons] using h2
    · intro p hp
      simp only [List.flatMap_cons, List.flatMap_nil, List.append_nil, List.mem_append,
        List.mem_cons] at hp ⊢
      rw [g7, hcps]
      simp only [List.flatMap_append, List.flatMap_cons, List.flatMap_nil, List.append_nil,
        List.mem_cons, List.mem_append]
      tauto
    · -- the entries
      intro k v
      simp only [List.mem_cons, List.mem_singleton, List.not_mem_nil, or_false,
        exists_eq_or_imp, exists_eq_left]
      rw [g6, hcE]
      simp only [List.mem_cons, List.mem_append, List.mem_singleton, exists_eq_or_imp,
        List.not_mem_nil, or_false]
      constructor
      · rintro (⟨x, hx, hxE⟩ | h | h)
        · exact Or.inl ⟨x, Or.inl hx, hxE⟩
        · exact Or.inl ⟨km, Or.inr rfl, h⟩
        · exact Or.inr h
      · rintro (⟨x, hx | hx, hxE⟩ | h)
        · exact Or.inl ⟨x, hx, hxE⟩
        · exact Or.inr (Or.inl (hx ▸ hxE))
        · exact Or.inr (Or.inr h)
    · -- the sibling pointers
      refine ptrStep_no_leaf _ _ ?_ ?_
      · exact le_refl _
      intro _ p
      by_cases q1 : p = left.pid
      · rw [q1]
        refine Or.inr ⟨?_, nextOf_internal hil, Or.inl (by rw [hil]; simp)⟩
        simp only [setPage_pages, deletePage_pages]
        split_ifs <;> rfl
      · by_cases q2 : p = curr.pid
        · rw [q2]
          refine Or.inr ⟨?_, nextOf_internal hci, Or.inl (by rw [hci]; simp)⟩
          simp only [setPage_pages, deletePage_pages]
          split_ifs <;> rfl
        · by_cases q3 : p = pid
          · rw [q3]
            refine Or.inr ⟨?_, nextOf_internal c.hpage, Or.inl (by rw [c.hpage]; simp)⟩
            simp only [setPage_pages, deletePage_pages]
            split_ifs <;> rfl
          · exact Or.inl (by simp only [setPage_pages, deletePage_pages, q1, q2, q3, if_false])

/-- An internal page borrows the first child of its right sibling. -/
theorem borrow_right_internal {ctx_root : Int} {L I S n m : Nat} {t : BPlusTree} {pid : Int}
    {ip : InternalPage} {lo hi : Option Int} {nxt : Int} {pre : List Kid} {curr right : Kid}
    {post1 : List Kid}
    (c : FixCtx ctx_root L I S (n + 1) t pid ip lo hi nxt pre curr (right :: post1))
    (ir : InternalPage) (hir : t.pages right.pid = some (Page.internal ir))
    (hlend : ¬ (ir.GetSize - 1 ≤ (GetMinSize ir.max_size_ : Int)))
    (hm : m ≤ (pre ++ [curr] ++ right :: post1).length) :
    ∃ t2, tryBorrowFromRight t false curr.pid pid (pre.length : Nat) right.pid
        = Outcome.ok (some t2) ∧
      FixGood L I t t2 (n + 1) m pid lo hi (pre ++ [curr] ++ right :: post1) nxt := by
  obtain ⟨SA, sr, SB1, hslots, hSAlen, hs2, hrlo, hSA, hSB, hright, hpost1, hdis, hne⟩ :=
    fixCtx_right c
  obtain ⟨ci, KC, hci, hciid, hcimax, hKClen, hcismall, hcSl, hcok, hcE, hcps, hcnd, hcfirst⟩ :=
    fixCtx_curr_internal c
  obtain ⟨ir1, KR, g1, g2, g3, g4, g5, g6, g7, g8, g9⟩ := rep_internal_iff.mp hright
  rw [hir] at g1
  simp only [Option.some.injEq, Page.internal.injEq] at g1
  subst g1
  have hmin2 := getMinSize_two c.hI
  have hlen := slotsOf_length g4
  have hrlen : GetMinSize I + 2 ≤ ir.slots.length := by
    unfold InternalPage.GetSize at hlend
    rw [g2] at hlend
    omega
  obtain ⟨kr0, kr1, KR2, rfl⟩ : ∃ kr0 kr1 KR2, KR = kr0 :: kr1 :: KR2 := by
    cases KR with
    | nil => simp at hlen; omega
    | cons a l =>
      cases l with
      | nil => simp at hlen; omega
      | cons b l2 => exact ⟨a, b, l2, rfl⟩
  obtain ⟨r0, RS0, hirslots, hkr0lo, hkr0pid, hRS0⟩ := slotsOf_cons_left g4
  obtain ⟨r1, RS, rfl, hkr1lo, hkr1pid, hRS⟩ := slotsTail_cons_left hRS0
  have hKR2len : 2 ≤ KR2.length := by
    simp only [List.length_cons] at hlen
    omega
  obtain ⟨kc0, KC1, rfl⟩ : ∃ kc0 KC1, KC = kc0 :: KC1 := by
    cases KC with
    | nil => simp at hKClen
    | cons a l => exact ⟨a, l, rfl⟩
  have hv0 : ir.ValueAt 0 = Outcome.ok r0.2 := by
    have := (internal_at_append ir (A := []) hirslots).2.1
    simpa using this
  have hk1 : ir.KeyAt 1 = Outcome.ok r1.1 := by
    have := (internal_at_append ir (A := [r0]) (s := r1) (B := RS) hirslots).1
    simpa using this
  have hrem0 : ir.Remove 0 = Outcome.ok { ir with slots := [] ++ r1 :: RS } := by
    have := (internal_at_append ir (A := []) hirslots).2.2.2
    simpa using this
  obtain ⟨pkey, _, pset, _⟩ := internal_at_append ip hslots
  have hrightid := fixCtx_pid_lt c right (by simp)
  have hrightinv : ¬ right.pid = INVALID_PAGE_ID := by
    unfold INVALID_PAGE_ID
    omega
  have hcidx : ((pre.length : Nat) : Int) + 1 = (SA.length : Int) := by
    rw [hSAlen]
    simp
  refine ⟨((t.setPage right.pid (Page.internal { ir with slots := [] ++ r1 :: RS })).setPage
      curr.pid (Page.internal { ci with slots := ci.slots ++ [(sr.1, r0.2)] })).setPage pid
      (Page.internal { ip with slots := SA ++ (r1.1, sr.2) :: SB1 }), ?_, ?_⟩
  · unfold tryBorrowFromRight
    simp only [hrightinv, if_false, pageAt_eq hir, internalAt_eq c.hpage, Outcome.ok_bind,
      Bool.false_eq_true, Page.GetSize, Page.GetMaxSize, hlend, internalAt_eq hir,
      internalAt_eq hci, hcidx, pkey, hv0, hk1, hrem0, InternalPage.InsertBack, pset,
      Outcome.pure_eq_ok]
  · have hkids : pre ++ [curr] ++ right :: post1 = pre ++ [curr, right] ++ post1 := by simp
    have hpne := fixCtx_pid_ne_parent c
    have hrightne : right.pid ≠ pid :=
      hpne right (by simp) right.pid (fixCtx_pid_mem c right (by simp))
    have hcurrne : curr.pid ≠ pid := hpne curr (by simp) curr.pid (fixCtx_pid_mem c curr (by simp))
    have hne2 : ¬ right.pid = curr.pid := fun h => hne h.symm
    have hne3 : ¬ curr.pid = right.pid := hne
    rw [hkids]
    have hnd := c.hnd
    have hfresh := c.hfresh
    rw [hkids] at hnd hfresh hm
    have hpair := pair_nodup hnd
    have hgr : ∀ x ∈ kr0 :: kr1 :: KR2, ∀ p ∈ x.ps, p ≠ right.pid ∧ p ≠ curr.pid ∧ p ≠ pid := by
      intro x hx p hp
      obtain ⟨h1, h2⟩ := grandkid_mem g7 g8 x hx p hp
      refine ⟨h1, ?_, hpne right (by simp) p h2⟩
      intro hh
      exact hdis p (hh ▸ fixCtx_pid_mem c curr (by simp)) h2
    have hgc : ∀ x ∈ kc0 :: KC1, ∀ p ∈ x.ps, p ≠ right.pid ∧ p ≠ curr.pid ∧ p ≠ pid := by
      intro x hx p hp
      obtain ⟨h1, h2⟩ := grandkid_mem hcps hcnd x hx p hp
      refine ⟨?_, h1, hpne curr (by simp) p h2⟩
      intro hh
      exact hdis p h2 (hh ▸ fixCtx_pid_mem c right (by simp))
    have hfrg : ∀ x ∈ (kc0 :: KC1) ++ kr0 :: kr1 :: KR2, ∀ p ∈ x.ps,
        ((((t.setPage right.pid (Page.internal { ir with slots := [] ++ r1 :: RS })).setPage
          curr.pid (Page.internal { ci with slots := ci.slots ++ [(sr.1, r0.2)] })).setPage pid
          (Page.internal { ip with slots := SA ++ (r1.1, sr.2) :: SB1 })).pages p).map Page.core
          = (t.pages p).map Page.core := by
      intro x hx p hp
      have : p ≠ right.pid ∧ p ≠ curr.pid ∧ p ≠ pid := by
        rcases List.mem_append.mp hx with h | h
        · exact hgc x h p hp
        · exact hgr x h p hp
      simp [this.1, this.2.1, this.2.2]
    have hkr0rep : Rep L I t.pages n 2 kr0.pid kr0.lo kr1.lo kr0.E kr0.ps kr0.first kr1.first :=
      g5.1
    have hrfirst : right.first = kr0.first := g9
    refine fixGood_of_seg (N := [(⟨curr.lo, curr.pid,
        fun k v => ∃ x ∈ (kc0 :: KC1) ++ [kr0], x.E k v,
        curr.pid :: ((kc0 :: KC1) ++ [kr0]).flatMap Kid.ps, curr.first⟩ : Kid),
        (⟨some r1.1, right.pid, fun k v => ∃ x ∈ kr1 :: KR2, x.E k v,
          right.pid :: (kr1 :: KR2).flatMap Kid.ps, kr1.first⟩ : Kid)])
      (keep_trans (keep_trans (keep_setPage _ _ _) (keep_setPage _ _ _)) (keep_setPage _ _ _))
      rfl (q := { ip with slots := SA ++ (r1.1, sr.2) :: SB1 }) (by simp) c.hipid c.hmax ?_
      c.hpre hpost1 hnd hfresh ?_ ?_ rfl rfl ?_ ?_ ?_ (by simpa using hm) ?_
    · -- the slots of the parent
      have e : pre ++ [(⟨curr.lo, curr.pid,
          fun k v => ∃ x ∈ (kc0 :: KC1) ++ [kr0], x.E k v,
          curr.pid :: ((kc0 :: KC1) ++ [kr0]).flatMap Kid.ps, curr.first⟩ : Kid),
          (⟨some r1.1, right.pid, fun k v => ∃ x ∈ kr1 :: KR2, x.E k v,
            right.pid :: (kr1 :: KR2).flatMap Kid.ps, kr1.first⟩ : Kid)] ++ post1
          = (pre ++ [(⟨curr.lo, curr.pid,
            fun k v => ∃ x ∈ (kc0 :: KC1) ++ [kr0], x.E k v,
            curr.pid :: ((kc0 :: KC1) ++ [kr0]).flatMap Kid.ps, curr.first⟩ : Kid)]) ++
            (⟨some r1.1, right.pid, fun k v => ∃ x ∈ kr1 :: KR2, x.E k v,
              right.pid :: (kr1 :: KR2).flatMap Kid.ps, kr1.first⟩ : Kid) :: post1 := by simp
      rw [e]
      exact slotsOf_append (slotsOf_snoc_congr hSA rfl rfl)
        (slotsTail_cons.mpr ⟨rfl, hs2.symm, hSB⟩)
    · -- the frame
      intro p hp1 hp2 _
      have h1 : p ≠ right.pid := by
        intro hh
        apply hp1
        simp only [List.flatMap_cons, List.flatMap_nil, List.append_nil, List.mem_append]
        exact Or.inr (hh ▸ fixCtx_pid_mem c right (by simp))
      have h2 : p ≠ curr.pid := by
        intro hh
        apply hp1
        simp only [List.flatMap_cons, List.flatMap_nil, List.append_nil, List.mem_append]
        exact Or.inl (hh ▸ fixCtx_pid_mem c curr (by simp))
      simp [h1, h2, hp2]
    · -- the two pages
      apply kidsOK_pair
      · refine rep_internal_build (q := { ci with slots := ci.slots ++ [(sr.1, r0.2)] })
          (K := (kc0 :: KC1) ++ [kr0]) (by simp [hcurrne]) hcimax (by simp) ?_ ?_
          (fun x hx p hp => hfrg x (by
            rcases List.mem_append.mp hx with h | h
            · exact List.mem_append_left _ h
            · rw [List.mem_singleton] at h
              rw [h]; simp) p hp) (fun k v => Iff.rfl) rfl ?_ ?_
        · exact slotsOf_append hcSl
            (slotsTail_cons.mpr ⟨by rw [hkr0lo, hrlo], hkr0pid, slotsTail_nil⟩)
        · rw [kidsOK_append]
          refine ⟨?_, kidsOK_single (by rw [hkr1lo] at hkr0rep; exact hkr0rep)⟩
          have := hcok
          simp only [nextLo, nextFirst] at this ⊢
          rw [hkr0lo, ← hrfirst]
          exact this
        · rw [hcps, g7] at hpair
          have : ((curr.pid :: (kc0 :: KC1).flatMap Kid.ps)
              ++ (right.pid :: (kr0.ps ++ (kr1 :: KR2).flatMap Kid.ps))).Nodup := by
            simpa [List.flatMap_cons] using hpair
          have h2 := nodup_move_right this
          rw [List.nodup_append] at h2
          simpa [List.flatMap_append] using h2.1
        · show curr.first = kc0.first
          exact hcfirst
      · refine rep_internal_build (q := { ir with slots := [] ++ r1 :: RS }) (K := kr1 :: KR2)
          (by simp [hne2, hne3, hrightne]) g2 (by simp; omega) ?_ g5.2
          (fun x hx p hp => hfrg x (List.mem_append_right _ (List.mem_cons_of_mem _ hx)) p hp)
          (fun k v => Iff.rfl) rfl ?_ rfl
        · exact slotsOf_cons.mpr ⟨hkr1lo, hkr1pid, hRS⟩
        · rw [g7] at g8
          have hsub : (right.pid :: (kr1 :: KR2).flatMap Kid.ps).Sublist
              (right.pid :: (kr0 :: kr1 :: KR2).flatMap Kid.ps) := by
            apply List.Sublist.cons₂
            rw [List.flatMap_cons (kr0)]
            exact List.sublist_append_right _ _
          exact hsub.nodup g8
    · -- the pages
      rw [hcps, g7] at hpair
      have : ((curr.pid :: (kc0 :: KC1).flatMap Kid.ps)
          ++ (right.pid :: (kr0.ps ++ (kr1 :: KR2).flatMap Kid.ps))).Nodup := by
        simpa [List.flatMap_cons] using hpair
      have h2 := nodup_move_right this
      simpa [List.flatMap_cons, List.flatMap_append] using h2
    · intro p hp
      simp only [List.flatMap_cons, List.flatMap_nil, List.append_nil, List.mem_append,
        List.mem_cons] at hp ⊢
      rw [g7, hcps]
      simp only [List.flatMap_append, List.flatMap_cons, List.flatMap_nil, List.append_nil,
        List.mem_cons, List.mem_append] at hp ⊢
      tauto
    · -- the entries
      intro k v
      simp only [List.mem_cons, List.mem_singleton, List.not_mem_nil, or_false,
        exists_eq_or_imp, exists_eq_left]
      rw [g6, hcE]
      simp only [List.mem_cons, List.mem_append, List.mem_singleton, exists_eq_or_imp,
        List.not_mem_nil, or_false]
      constructor
      · rintro (⟨x, (hx | hx) | hx, hxE⟩ | h)
        · exact Or.inl (Or.inl (hx ▸ hxE))
        · exact Or.inl (Or.inr ⟨x, hx, hxE⟩)
        · exact Or.inr (Or.inl (hx ▸ hxE))
        · exact Or.inr (Or.inr h)
      · rintro ((h | ⟨x, hx, hxE⟩) | h | h)
        · exact Or.inl ⟨kc0, Or.inl (Or.inl rfl), h⟩
        · exact Or.inl ⟨x, Or.inl (Or.inr hx), hxE⟩
        · exact Or.inl ⟨kr0, Or.inr rfl, h⟩
        · exact Or.inr h
    · -- the sibling pointers
      refine ptrStep_no_leaf _ _ ?_ ?_
      · exact le_refl _
      intro _ p
      by_cases q1 : p = right.pid
      · rw [q1]
        refine Or.inr ⟨?_, nextOf_internal hir, Or.inl (by rw [hir]; simp)⟩
        simp only [setPage_pages, deletePage_pages]
        split_ifs <;> rfl
      · by_cases q2 : p = curr.pid
        · rw [q2]
          refine Or.inr ⟨?_, nextOf_internal hci, Or.inl (by rw [hci]; simp)⟩
          simp only [setPage_pages, deletePage_pages]
          split_ifs <;> rfl
        · by_cases q3 : p = pid
          · rw [q3]
            refine Or.inr ⟨?_, nextOf_internal c.hpage, Or.inl (by rw [c.hpage]; simp)⟩
            simp only [setPage_pages, deletePage_pages]
            split_ifs <;> rfl
          · exact Or.inl (by simp only [setPage_pages, deletePage_pages, q1, q2, q3, if_false])

theorem nodup_merge {a c : Int} {A K : List Int} (h : ((a :: A) ++ (c :: K)).Nodup) :
    (a :: (A ++ K)).Nodup := by
  have hsub : (a :: (A ++ K)).Sublist ((a :: A) ++ (c :: K)) := by
    rw [List.cons_append]
    apply List.Sublist.cons₂
    exact List.Sublist.append (List.Sublist.refl _) (List.sublist_cons_self _ _)
  exact hsub.nodup h

/-- An internal page is merged into its left sibling. -/
theorem merge_left_internal {ctx_root : Int} {L I S n : Nat} {t : BPlusTree} {pid : Int}
    {ip : InternalPage} {lo hi : Option Int} {nxt : Int} {pre1 : List Kid} {left curr : Kid}
    {post : List Kid}
    (c : FixCtx ctx_root L I S (n + 1) t pid ip lo hi nxt (pre1 ++ [left]) curr post) :
    ∃ t2, mergeWithLeft t false curr.pid pid ((pre1 ++ [left]).length : Nat) left.pid curr.pid
        = Outcome.ok t2 ∧
      FixGood L I t t2 (n + 1) 1 pid lo hi (pre1 ++ [left] ++ [curr] ++ post) nxt := by
  obtain ⟨SA, s, SB, hslots, hSAlen, hs2, hclo, hSA, hSB, hleft, hpre1, hdis, hne⟩ := fixCtx_left c
  obtain ⟨ci, KC, hci, hciid, hcimax, hKClen, hcismall, hcSl, hcok, hcE, hcps, hcnd, hcfirst⟩ :=
    fixCtx_curr_internal c
  obtain ⟨il, KL, hil, g2, g3, g4, g5, g6, g7, g8, g9⟩ := rep_internal_iff.mp hleft
  obtain ⟨kc0, KC1, rfl⟩ : ∃ kc0 KC1, KC = kc0 :: KC1 := by
    cases KC with
    | nil => simp at hKClen
    | cons a l => exact ⟨a, l, rfl⟩
  obtain ⟨c0, CR, hcislots, hkc0lo, hkc0pid, hCR⟩ := slotsOf_cons_left hcSl
  obtain ⟨pkey, _, _, prem⟩ := internal_at_append ip hslots
  have hcidx : (((pre1 ++ [left]).length : Nat) : Int) = (SA.length : Int) := by
    rw [hSAlen]
    simp
  have hmerge := internalMerge_spec t left.pid curr.pid s.1 il ci hil hci hcislots
  refine ⟨(((t.setPage left.pid (Page.internal { il with
      slots := il.slots ++ (s.1, c0.2) :: CR })).setPage curr.pid
        (Page.internal { ci with slots := [] })).setPage pid
          (Page.internal { ip with slots := SA ++ SB })).DeletePage curr.pid, ?_, ?_⟩
  · unfold mergeWithLeft
    simp only [internalAt_eq c.hpage, Outcome.ok_bind, Bool.false_eq_true, if_false, hcidx, pkey,
      hmerge, prem, Outcome.pure_eq_ok]
  · have hkids : pre1 ++ [left] ++ [curr] ++ post = pre1 ++ [left, curr] ++ post := by simp
    have hpne := fixCtx_pid_ne_parent c
    have hleftne : left.pid ≠ pid := hpne left (by simp) left.pid (fixCtx_pid_mem c left (by simp))
    have hcurrne : curr.pid ≠ pid := hpne curr (by simp) curr.pid (fixCtx_pid_mem c curr (by simp))
    have hne2 : ¬ left.pid = curr.pid := hne
    rw [hkids]
    have hnd := c.hnd
    have hfresh := c.hfresh
    rw [hkids] at hnd hfresh
    have hpair := pair_nodup hnd
    have hgl : ∀ x ∈ KL, ∀ p ∈ x.ps, p ≠ left.pid ∧ p ≠ curr.pid ∧ p ≠ pid := by
      intro x hx p hp
      obtain ⟨h1, h2⟩ := grandkid_mem g7 g8 x hx p hp
      refine ⟨h1, ?_, hpne left (by simp) p h2⟩
      intro hh
      exact hdis p h2 (hh ▸ fixCtx_pid_mem c curr (by simp))
    have hgc : ∀ x ∈ kc0 :: KC1, ∀ p ∈ x.ps, p ≠ left.pid ∧ p ≠ curr.pid ∧ p ≠ pid := by
      intro x hx p hp
      obtain ⟨h1, h2⟩ := grandkid_mem hcps hcnd x hx p hp
      refine ⟨?_, h1, hpne curr (by simp) p h2⟩
      intro hh
      exact hdis p (hh ▸ fixCtx_pid_mem c left (by simp)) h2
    have hKLpos := g3
    refine fixGood_of_seg (N := [(⟨left.lo, left.pid,
        fun k v => ∃ x ∈ KL ++ kc0 :: KC1, x.E k v,
        left.pid :: (KL ++ kc0 :: KC1).flatMap Kid.ps, left.first⟩ : Kid)])
      (keep_trans (keep_trans (keep_trans (keep_setPage _ _ _) (keep_setPage _ _ _))
        (keep_setPage _ _ _)) (keep_deletePage _ _))
      rfl (q := { ip with slots := SA ++ SB }) (by simp [hcurrne.symm]) c.hipid c.hmax ?_
      hpre1 c.hpost hnd hfresh ?_ ?_ rfl rfl ?_ ?_ ?_ (by simp; omega) ?_
    · exact slotsOf_append (slotsOf_snoc_congr hSA rfl rfl) hSB
    · -- the frame
      intro p hp1 hp2 _
      have h1 : p ≠ left.pid := by
        intro hh
        apply hp1
        simp only [List.flatMap_cons, List.flatMap_nil, List.append_nil, List.mem_append]
        exact Or.inl (hh ▸ fixCtx_pid_mem c left (by simp))
      have h2 : p ≠ curr.pid := by
        intro hh
        apply hp1
        simp only [List.flatMap_cons, List.flatMap_nil, List.append_nil, List.mem_append]
        exact Or.inr (hh ▸ fixCtx_pid_mem c curr (by simp))
      simp [h1, h2, hp2]
    · -- the merged page
      apply kidsOK_single
      refine rep_internal_build (t := t)
        (q := { il with slots := il.slots ++ (s.1, c0.2) :: CR }) (K := KL ++ kc0 :: KC1)
        (by simp [hne2, hleftne]) g2 (by simp; omega) ?_ ?_ ?_ (fun k v => Iff.rfl) rfl ?_ ?_
      · exact slotsOf_append g4 (slotsTail_cons.mpr ⟨by rw [hkc0lo, hclo], hkc0pid, hCR⟩)
      · rw [kidsOK_append]
        refine ⟨?_, hcok⟩
        have := g5
        simp only [nextLo, nextFirst]
        rw [hkc0lo]
        have e1 : kc0.first = curr.first := hcfirst.symm
        rw [e1]
        exact this
      · intro x hx p hp
        have : p ≠ left.pid ∧ p ≠ curr.pid ∧ p ≠ pid := by
          rcases List.mem_append.mp hx with h | h
          · exact hgl x h p hp
          · exact hgc x h p hp
        simp [this.1, this.2.1, this.2.2]
      · rw [g7, hcps] at hpair
        have := nodup_merge hpair
        simpa [List.flatMap_append] using this
      · show left.first = nextFirst (KL ++ kc0 :: KC1) (nextFirst post nxt)
        rw [g9]
        cases KL with
        | nil => simp at hKLpos
        | cons a l => rfl
    · rw [g7, hcps] at hpair
      have := nodup_merge hpair
      simpa [List.flatMap_append] using this
    · intro p hp
      simp only [List.flatMap_cons, List.flatMap_nil, List.append_nil, List.mem_append,
        List.mem_cons] at hp ⊢
      rw [g7, hcps]
      simp only [List.flatMap_append, List.flatMap_cons, List.flatMap_nil, List.append_nil,
        List.mem_cons, List.mem_append] at hp ⊢
      tauto
    · -- the entries
      intro k v
      simp only [List.mem_cons, List.mem_singleton, List.not_mem_nil, or_false,
        exists_eq_or_imp, exists_eq_left]
      rw [g6, hcE]
      simp only [List.mem_append]
      constructor
      · rintro ⟨x, hx | hx, hxE⟩
        · exact Or.inl ⟨x, hx, hxE⟩
        · exact Or.inr ⟨x, hx, hxE⟩
      · rintro (⟨x, hx, hxE⟩ | ⟨x, hx, hxE⟩)
        · exact ⟨x, Or.inl hx, hxE⟩
        · exact ⟨x, Or.inr hx, hxE⟩
    · -- the sibling pointers
      refine ptrStep_no_leaf _ _ ?_ ?_
      · exact le_refl _
      intro _ p
      by_cases q1 : p = left.pid
      · rw [q1]
        refine Or.inr ⟨?_, nextOf_internal hil, Or.inl (by rw [hil]; simp)⟩
        simp only [setPage_pages, deletePage_pages]
        split_ifs
        rfl
      · by_cases q2 : p = curr.pid
        · rw [q2]
          refine Or.inr ⟨?_, nextOf_internal hci, Or.inl (by rw [hci]; simp)⟩
          simp only [setPage_pages, deletePage_pages]
          split_ifs <;> rfl
        · by_cases q3 : p = pid
          · rw [q3]
            refine Or.inr ⟨?_, nextOf_internal c.hpage, Or.inl (by rw [c.hpage]; simp)⟩
            simp only [setPage_pages, deletePage_pages]
            split_ifs <;> rfl
          · exact Or.inl (by simp only [setPage_pages, deletePage_pages, q1, q2, q3, if_false])

/-- The right sibling of an internal page is merged into the page. -/
theorem merge_right_internal {ctx_root : Int} {L I S n : Nat} {t : BPlusTree} {pid : Int}
    {ip : InternalPage} {lo hi : Option Int} {nxt : Int} {pre : List Kid} {curr right : Kid}
    {post1 : List Kid}
    (c : FixCtx ctx_root L I S (n + 1) t pid ip lo hi nxt pre curr (right :: post1)) :
    ∃ t2, mergeWithRight t false curr.pid pid (pre.length : Nat) right.pid = Outcome.ok t2 ∧
      FixGood L I t t2 (n + 1) 1 pid lo hi (pre ++ [curr] ++ right :: post1) nxt := by
  obtain ⟨SA, sr, SB1, hslots, hSAlen, hs2, hrlo, hSA, hSB, hright, hpost1, hdis, hne⟩ :=
    fixCtx_right c
  obtain ⟨ci, KC, hci, hciid, hcimax, hKClen, hcismall, hcSl, hcok, hcE, hcps, hcnd, hcfirst⟩ :=
    fixCtx_curr_internal c
  obtain ⟨ir, KR, hir, g2, g3, g4, g5, g6, g7, g8, g9⟩ := rep_internal_iff.mp hright
  obtain ⟨kr0, KR1, rfl⟩ : ∃ kr0 KR1, KR = kr0 :: KR1 := by
    cases KR with
    | nil => simp at g3
    | cons a l => exact ⟨a, l, rfl⟩
  obtain ⟨r0, RS0, hirslots, hkr0lo, hkr0pid, hRS0⟩ := slotsOf_cons_left g4
  obtain ⟨pkey, _, _, prem⟩ := internal_at_append ip hslots
  have hcidx : ((pre.length : Nat) : Int) + 1 = (SA.length : Int) := by
    rw [hSAlen]
    simp
  have hmerge := internalMerge_spec t curr.pid right.pid sr.1 ci ir hci hir hirslots
  refine ⟨(((t.setPage curr.pid (Page.internal { ci with
      slots := ci.slots ++ (sr.1, r0.2) :: RS0 })).setPage right.pid
        (Page.internal { ir with slots := [] })).setPage pid
          (Page.internal { ip with slots := SA ++ SB1 })).DeletePage right.pid, ?_, ?_⟩
  · unfold mergeWithRight
    simp only [internalAt_eq c.hpage, Outcome.ok_bind, Bool.false_eq_true, if_false, hcidx, pkey,
      hmerge, prem, Outcome.pure_eq_ok]
  · have hkids : pre ++ [curr] ++ right :: post1 = pre ++ [curr, right] ++ post1 := by simp
    have hpne := fixCtx_pid_ne_parent c
    have hrightne : right.pid ≠ pid :=
      hpne right (by simp) right.pid (fixCtx_pid_mem c right (by simp))
    have hcurrne : curr.pid ≠ pid := hpne curr (by simp) curr.pid (fixCtx_pid_mem c curr (by simp))
    have hne2 : ¬ curr.pid = right.pid := hne
    rw [hkids]
    have hnd := c.hnd
    have hfresh := c.hfresh
    rw [hkids] at hnd hfresh
    have hpair := pair_nodup hnd
    have hgr : ∀ x ∈ kr0 :: KR1, ∀ p ∈ x.ps, p ≠ right.pid ∧ p ≠ curr.pid ∧ p ≠ pid := by
      intro x hx p hp
      obtain ⟨h1, h2⟩ := grandkid_mem g7 g8 x hx p hp
      refine ⟨h1, ?_, hpne right (by simp) p h2⟩
      intro hh
      exact hdis p (hh ▸ fixCtx_pid_mem c curr (by simp)) h2
    have hgc : ∀ x ∈ KC, ∀ p ∈ x.ps, p ≠ right.pid ∧ p ≠ curr.pid ∧ p ≠ pid := by
      intro x hx p hp
      obtain ⟨h1, h2⟩ := grandkid_mem hcps hcnd x hx p hp
      refine ⟨?_, h1, hpne curr (by simp) p h2⟩
      intro hh
      exact hdis p h2 (hh ▸ fixCtx_pid_mem c right (by simp))
    have hrfirst : right.first = kr0.first := g9
    refine fixGood_of_seg (N := [(⟨curr.lo, curr.pid,
        fun k v => ∃ x ∈ KC ++ kr0 :: KR1, x.E k v,
        curr.pid :: (KC ++ kr0 :: KR1).flatMap Kid.ps, curr.first⟩ : Kid)])
      (keep_trans (keep_trans (keep_trans (keep_setPage _ _ _) (keep_setPage _ _ _))
        (keep_setPage _ _ _)) (keep_deletePage _ _))
      rfl (q := { ip with slots := SA ++ SB1 }) (by simp [hrightne.symm]) c.hipid c.hmax ?_
      c.hpre hpost1 hnd hfresh ?_ ?_ rfl rfl ?_ ?_ ?_ (by simp; omega) ?_
    · exact slotsOf_append (slotsOf_snoc_congr hSA rfl rfl) hSB
    · -- the frame
      intro p hp1 hp2 _
      have h1 : p ≠ right.pid := by
        intro hh
        apply hp1
        simp only [List.flatMap_cons, List.flatMap_nil, List.append_nil, List.mem_append]
        exact Or.inr (hh ▸ fixCtx_pid_mem c right (by simp))
      have h2 : p ≠ curr.pid := by
        intro hh
        apply hp1
        simp only [List.flatMap_cons, List.flatMap_nil, List.append_nil, List.mem_append]
        exact Or.inl (hh ▸ fixCtx_pid_mem c curr (by simp))
      simp [h1, h2, hp2]
    · -- the merged page
      apply kidsOK_single
      refine rep_internal_build (t := t)
        (q := { ci with slots := ci.slots ++ (sr.1, r0.2) :: RS0 }) (K := KC ++ kr0 :: KR1)
        (by simp [hne2, hcurrne, hrightne]) hcimax (by simp; omega) ?_ ?_ ?_ (fun k v => Iff.rfl)
        rfl ?_ ?_
      · exact slotsOf_append hcSl (slotsTail_cons.mpr ⟨by rw [hkr0lo, hrlo], hkr0pid, hRS0⟩)
      · rw [kidsOK_append]
        refine ⟨?_, g5⟩
        have := hcok
        simp only [nextLo, nextFirst] at this ⊢
        rw [hkr0lo, ← hrfirst]
        exact this
      · intro x hx p hp
        have : p ≠ right.pid ∧ p ≠ curr.pid ∧ p ≠ pid := by
          rcases List.mem_append.mp hx with h | h
          · exact hgc x h p hp
          · exact hgr x h p hp
        simp [this.1, this.2.1, this.2.2]
      · rw [hcps, g7] at hpair
        have := nodup_merge hpair
        simpa [List.flatMap_append] using this
      · show curr.first = nextFirst (KC ++ kr0 :: KR1) (nextFirst post1 nxt)
        rw [hcfirst]
        cases KC with
        | nil => simp at hKClen
        | cons a l => rfl
    · rw [hcps, g7] at hpair
      have := nodup_merge hpair
      simpa [List.flatMap_append] using this
    · intro p hp
      simp only [List.flatMap_cons, List.flatMap_nil, List.append_nil, List.mem_append,
        List.mem_cons] at hp ⊢
      rw [g7, hcps]
      simp only [List.flatMap_append, List.flatMap_cons, List.flatMap_nil, List.append_nil,
        List.mem_cons, List.mem_append] at hp ⊢
      tauto
    · -- the entries
      intro k v
      simp only [List.mem_cons, List.mem_singleton, List.not_mem_nil, or_false,
        exists_eq_or_imp, exists_eq_left]
      rw [g6, hcE]
      simp only [List.mem_append]
      constructor
      · rintro ⟨x, hx | hx, hxE⟩
        · exact Or.inl ⟨x, hx, hxE⟩
        · exact Or.inr ⟨x, hx, hxE⟩
      · rintro (⟨x, hx, hxE⟩ | ⟨x, hx, hxE⟩)
        · exact ⟨x, Or.inl hx, hxE⟩
        · exact ⟨x, Or.inr hx, hxE⟩
    · -- the sibling pointers
      refine ptrStep_no_leaf _ _ ?_ ?_
      · exact le_refl _
      intro _ p
      by_cases q1 : p = right.pid
      · rw [q1]
        refine Or.inr ⟨?_, nextOf_internal hir, Or.inl (by rw [hir]; simp)⟩
        simp only [setPage_pages, deletePage_pages]
        split_ifs <;> rfl
      · by_cases q2 : p = curr.pid
        · rw [q2]
          refine Or.inr ⟨?_, nextOf_internal hci, Or.inl (by rw [hci]; simp)⟩
          simp only [setPage_pages, deletePage_pages]
          split_ifs
          rfl
        · by_cases q3 : p = pid
          · rw [q3]
            refine Or.inr ⟨?_, nextOf_internal c.hpage, Or.inl (by rw [c.hpage]; simp)⟩
            simp only [setPage_pages, deletePage_pages]
            split_ifs <;> rfl
          · exact Or.inl (by simp only [setPage_pages, deletePage_pages, q1, q2, q3, if_false])

/-! ## B+Tree: one step of `FixUnderflow` -/

theorem tryBorrowFromLeft_invalid (t : BPlusTree) (b : Bool) (c p i : Int) :
    tryBorrowFromLeft t b c p i INVALID_PAGE_ID = Outcome.ok none := by
  unfold tryBorrowFromLeft
  simp

theorem tryBorrowFromRight_invalid (t : BPlusTree) (b : Bool) (c p i : Int) :
    tryBorrowFromRight t b c p i INVALID_PAGE_ID = Outcome.ok none := by
  unfold tryBorrowFromRight
  simp

theorem tryBorrowFromLeft_none_leaf (t : BPlusTree) (c p i left_id : Int) (ll : LeafPage)
    (ip : InternalPage) (hll : t.pages left_id = some (Page.leaf ll))
    (hp : t.pages p = some (Page.internal ip))
    (h : ll.GetSize ≤ (GetMinSize ll.max_size_ : Int)) :
    tryBorrowFromLeft t true c p i left_id = Outcome.ok none := by
  unfold tryBorrowFromLeft
  by_cases hinv : left_id = INVALID_PAGE_ID
  · simp [hinv]
  · simp only [hinv, if_false, pageAt_eq hll, internalAt_eq hp, Outcome.ok_bind, if_true,
      Page.GetSize, Page.GetMaxSize, h, Outcome.pure_eq_ok]

theorem tryBorrowFromRight_none_leaf (t : BPlusTree) (c p i right_id : Int) (rl : LeafPage)
    (ip : InternalPage) (hrl : t.pages right_id = some (Page.leaf rl))
    (hp : t.pages p = some (Page.internal ip))
    (h : rl.GetSize ≤ (GetMinSize rl.max_size_ : Int)) :
    tryBorrowFromRight t true c p i right_id = Outcome.ok none := by
  unfold tryBorrowFromRight
  by_cases hinv : right_id = INVALID_PAGE_ID
  · simp [hinv]
  · simp only [hinv, if_false, pageAt_eq hrl, internalAt_eq hp, Outcome.ok_bind, if_true,
      Page.GetSize, Page.GetMaxSize, h, Outcome.pure_eq_ok]

theorem tryBorrowFromLeft_none_internal (t : BPlusTree) (c p i left_id : Int)
    (il ip : InternalPage) (hil : t.pages left_id = some (Page.internal il))
    (hp : t.pages p = some (Page.internal ip))
    (h : il.GetSize - 1 ≤ (GetMinSize il.max_size_ : Int)) :
    tryBorrowFromLeft t false c p i left_id = Outcome.ok none := by
  unfold tryBorrowFromLeft
  by_cases hinv : left_id = INVALID_PAGE_ID
  · simp [hinv]
  · simp only [hinv, if_false, pageAt_eq hil, internalAt_eq hp, Outcome.ok_bind,
      Bool.false_eq_true, Page.GetSize, Page.GetMaxSize, h, if_true, Outcome.pure_eq_ok]

theorem tryBorrowFromRight_none_internal (t : BPlusTree) (c p i right_id : Int)
    (ir ip : InternalPage) (hir : t.pages right_id = some (Page.internal ir))
    (hp : t.pages p = some (Page.internal ip))
    (h : ir.GetSize - 1 ≤ (GetMinSize ir.max_size_ : Int)) :
    tryBorrowFromRight t false c p i right_id = Outcome.ok none := by
  unfold tryBorrowFromRight
  by_cases hinv : right_id = INVALID_PAGE_ID
  · simp [hinv]
  · simp only [hinv, if_false, pageAt_eq hir, internalAt_eq hp, Outcome.ok_bind,
      Bool.false_eq_true, Page.GetSize, Page.GetMaxSize, h, if_true, Outcome.pure_eq_ok]

theorem fixPost_of_borrow (ctx_root : Int) (ws : List Int) {L I n m : Nat} {t t2 : BPlusTree}
    {pid : Int} {lo hi : Option Int} {kids : List Kid} {nxt : Int} {res : Outcome BPlusTree}
    (hres : res = Outcome.ok t2) (hg : FixGood L I t t2 n m pid lo hi kids nxt) :
    FixPost ctx_root L I ws t (n + 1) m pid lo hi (fun k v => ∃ x ∈ kids, x.E k v)
      (pid :: kids.flatMap Kid.ps) (nextFirst kids nxt) nxt res := by
  obtain ⟨h1, h2, _, ps2, h4, h5, h6⟩ := hg
  exact Or.inl ⟨t2, ps2, hres, h1, h2, h4, h5, h6⟩

theorem fixPost_of_merge {ctx_root : Int} {L I n m : Nat} {ws : List Int} {t t2 : BPlusTree}
    {pid : Int} {lo hi : Option Int} {kids : List Kid} {nxt : Int} {res : Outcome BPlusTree}
    (hres : res = afterMerge ctx_root (pid :: ws) pid t2)
    (hg : FixGood L I t t2 n 1 pid lo hi kids nxt) :
    FixPost ctx_root L I ws t (n + 1) m pid lo hi (fun k v => ∃ x ∈ kids, x.E k v)
      (pid :: kids.flatMap Kid.ps) (nextFirst kids nxt) nxt res := by
  obtain ⟨h1, h2, h3, ps2, h4, h5, h6⟩ := hg
  exact Or.inr ⟨t2, ps2, hres, h1, h2, h4, h5, h6, h3⟩

/-- The step of `FixUnderflow`, given what borrowing from and merging with each
of the two siblings come to. -/
theorem fix_assemble {ctx_root : Int} {L I S n m : Nat} {t : BPlusTree} {pid : Int}
    {ip : InternalPage} {lo hi : Option Int} {nxt : Int} {pre : List Kid} {curr : Kid}
    {post : List Kid} (c : FixCtx ctx_root L I S n t pid ip lo hi nxt pre curr post)
    (ws : List Int) (b : Bool) (cpage : Page) (hc : t.pages curr.pid = some cpage)
    (hcid : cpage.GetPageId = curr.pid) (hb : cpage.IsLeafPage = b)
    (HL : ∀ pre1 left, pre = pre1 ++ [left] →
      (∃ t2, tryBorrowFromLeft t b curr.pid pid (pre.length : Nat) left.pid
          = Outcome.ok (some t2) ∧
        FixGood L I t t2 n m pid lo hi (pre ++ [curr] ++ post) nxt) ∨
      (tryBorrowFromLeft t b curr.pid pid (pre.length : Nat) left.pid = Outcome.ok none ∧
        ∃ t2, mergeWithLeft t b curr.pid pid (pre.length : Nat) left.pid curr.pid
            = Outcome.ok t2 ∧
          FixGood L I t t2 n 1 pid lo hi (pre ++ [curr] ++ post) nxt))
    (HR : ∀ right post1, post = right :: post1 →
      (∃ t2, tryBorrowFromRight t b curr.pid pid (pre.length : Nat) right.pid
          = Outcome.ok (some t2) ∧
        FixGood L I t t2 n m pid lo hi (pre ++ [curr] ++ post) nxt) ∨
      (tryBorrowFromRight t b curr.pid pid (pre.length : Nat) right.pid = Outcome.ok none ∧
        ∃ t2, mergeWithRight t b curr.pid pid (pre.length : Nat) right.pid = Outcome.ok t2 ∧
          FixGood L I t t2 n 1 pid lo hi (pre ++ [curr] ++ post) nxt)) :
    FixPost ctx_root L I ws t (n + 1) m pid lo hi (fun k v => ∃ x ∈ pre ++ [curr] ++ post, x.E k v)
      (pid :: (pre ++ [curr] ++ post).flatMap Kid.ps) (nextFirst (pre ++ [curr] ++ post) nxt) nxt
      (FixUnderflow ctx_root (curr.pid :: pid :: ws) t) := by
  obtain ⟨hid1, hid2⟩ := fixCtx_sibling_ids c
  obtain ⟨C1, C2, C3, C4⟩ := fixUnderflow_cases ctx_root ws t curr.pid pid cpage ip hc hcid
    c.hnotroot c.hpage pre.length (fixCtx_valueIndex c) (leftId pre) (rightId post) hid1 hid2
  rw [hb] at C1 C2 C3 C4
  have hpidge : ∀ x ∈ pre ++ [curr] ++ post, x.pid ≠ INVALID_PAGE_ID := by
    intro x hx
    have := fixCtx_pid_lt c x hx
    unfold INVALID_PAGE_ID
    omega
  rcases List.eq_nil_or_concat pre with hpre | ⟨pre1, left, hpre⟩
  · -- there is no left sibling
    have hpost : ∃ right post1, post = right :: post1 := by
      have := c.hlen
      rw [hpre] at this
      cases post with
      | nil => simp at this
      | cons a l => exact ⟨a, l, rfl⟩
    obtain ⟨right, post1, hpost⟩ := hpost
    have hl : leftId pre = INVALID_PAGE_ID := by rw [hpre]; rfl
    have hr : rightId post = right.pid := by rw [hpost]; rfl
    rw [hl, hr] at C2 C4
    have hbl := tryBorrowFromLeft_invalid t b curr.pid pid (pre.length : Nat)
    rcases HR right post1 hpost with ⟨t2, h1, h2⟩ | ⟨h1, t2, h2, h3⟩
    · exact fixPost_of_borrow ctx_root ws (C2 t2 hbl h1) h2
    · exact fixPost_of_merge (C4 t2 hbl h1 rfl (hpidge right (by rw [hpost]; simp)) h2) h3
  · rw [List.concat_eq_append] at hpre
    have hl : leftId pre = left.pid := by rw [hpre]; exact leftId_snoc _ _
    rw [hl] at C1 C2 C3
    rcases HL pre1 left hpre with ⟨t2, h1, h2⟩ | ⟨h1, t2, h2, h3⟩
    · exact fixPost_of_borrow ctx_root ws (C1 t2 h1) h2
    · have hleftne := hpidge left (by rw [hpre]; simp)
      cases hpost : post with
      | nil =>
        have hr : rightId post = INVALID_PAGE_ID := by rw [hpost]; rfl
        rw [hr] at C3
        have := fixPost_of_merge (m := m) (C3 t2 h1
          (tryBorrowFromRight_invalid t b curr.pid pid (pre.length : Nat)) hleftne h2) h3
        rw [hpost] at this
        exact this
      | cons right post1 =>
        have hr : rightId post = right.pid := by rw [hpost]; rfl
        rw [hr] at C2 C3
        rcases HR right post1 hpost with ⟨t3, k1, k2⟩ | ⟨k1, _⟩
        · have := fixPost_of_borrow ctx_root ws (C2 t3 h1 k1) k2
          rw [hpost] at this
          exact this
        · have := fixPost_of_merge (m := m) (C3 t2 h1 k1 hleftne h2) h3
          rw [hpost] at this
          exact this

/-! ## B+Tree: `FixUnderflow` at a child of a represented page -/

theorem fixUnderflow_step_leaf {ctx_root : Int} {L I S m : Nat} {t : BPlusTree} {pid : Int}
    {ip : InternalPage} {lo hi : Option Int} {nxt : Int} {pre : List Kid} {curr : Kid}
    {post : List Kid} (c : FixCtx ctx_root L I S 0 t pid ip lo hi nxt pre curr post)
    (ws : List Int) (hm : m ≤ (pre ++ [curr] ++ post).length) :
    FixPost ctx_root L I ws t 1 m pid lo hi (fun k v => ∃ x ∈ pre ++ [curr] ++ post, x.E k v)
      (pid :: (pre ++ [curr] ++ post).flatMap Kid.ps) (nextFirst (pre ++ [curr] ++ post) nxt) nxt
      (FixUnderflow ctx_root (curr.pid :: pid :: ws) t) := by
  obtain ⟨cl, hcl, hclid, _⟩ := fixCtx_curr_leaf c
  refine fix_assemble c ws true (Page.leaf cl) hcl hclid rfl ?_ ?_
  · intro pre1 left hpre
    subst hpre
    obtain ⟨_, _, _, _, _, _, _, _, _, hrep, _⟩ := fixCtx_left c
    obtain ⟨ll, hll, _⟩ := rep_leaf_iff.mp hrep
    by_cases hlend : ll.GetSize ≤ (GetMinSize ll.max_size_ : Int)
    · exact Or.inr ⟨tryBorrowFromLeft_none_leaf t _ _ _ _ ll ip hll c.hpage hlend,
        merge_left_leaf c ll hll hlend⟩
    · exact Or.inl (borrow_left_leaf c ll hll hlend hm)
  · intro right post1 hpost
    subst hpost
    obtain ⟨_, _, _, _, _, _, _, _, _, hrep, _⟩ := fixCtx_right c
    obtain ⟨rl, hrl, _⟩ := rep_leaf_iff.mp hrep
    by_cases hlend : rl.GetSize ≤ (GetMinSize rl.max_size_ : Int)
    · exact Or.inr ⟨tryBorrowFromRight_none_leaf t _ _ _ _ rl ip hrl c.hpage hlend,
        merge_right_leaf c rl hrl hlend⟩
    · exact Or.inl (borrow_right_leaf c rl hrl hlend hm)

theorem fixUnderflow_step_internal {ctx_root : Int} {L I S n m : Nat} {t : BPlusTree}
    {pid : Int} {ip : InternalPage} {lo hi : Option Int} {nxt : Int} {pre : List Kid}
    {curr : Kid} {post : List Kid}
    (c : FixCtx ctx_root L I S (n + 1) t pid ip lo hi nxt pre curr post)
    (ws : List Int) (hm : m ≤ (pre ++ [curr] ++ post).length) :
    FixPost ctx_root L I ws t (n + 2) m pid lo hi
      (fun k v => ∃ x ∈ pre ++ [curr] ++ post, x.E k v)
      (pid :: (pre ++ [curr] ++ post).flatMap Kid.ps) (nextFirst (pre ++ [curr] ++ post) nxt) nxt
      (FixUnderflow ctx_root (curr.pid :: pid :: ws) t) := by
  obtain ⟨ci, _, hci, hciid, _⟩ := fixCtx_curr_internal c
  refine fix_assemble c ws false (Page.internal ci) hci hciid rfl ?_ ?_
  · intro pre1 left hpre
    subst hpre
    obtain ⟨_, _, _, _, _, _, _, _, _, hrep, _⟩ := fixCtx_left c
    obtain ⟨il, _, hil, _⟩ := rep_internal_iff.mp hrep
    by_cases hlend : il.GetSize - 1 ≤ (GetMinSize il.max_size_ : Int)
    · exact Or.inr ⟨tryBorrowFromLeft_none_internal t _ _ _ _ il ip hil c.hpage hlend,
        merge_left_internal c⟩
    · exact Or.inl (borrow_left_internal c il hil hlend hm)
  · intro right post1 hpost
    subst hpost
    obtain ⟨_, _, _, _, _, _, _, _, _, hrep, _⟩ := fixCtx_right c
    obtain ⟨ir, _, hir, _⟩ := rep_internal_iff.mp hrep
    by_cases hlend : ir.GetSize - 1 ≤ (GetMinSize ir.max_size_ : Int)
    · exact Or.inr ⟨tryBorrowFromRight_none_internal t _ _ _ _ ir ip hir c.hpage hlend,
        merge_right_internal c⟩
    · exact Or.inl (borrow_right_internal c ir hir hlend hm)

/-- One call of `FixUnderflow` on an underfull child of a represented page. -/
theorem fixUnderflow_step {ctx_root : Int} {L I S n m : Nat} {t : BPlusTree}
    {pid : Int} {ip : InternalPage} {lo hi : Option Int} {nxt : Int} {pre : List Kid}
    {curr : Kid} {post : List Kid}
    (c : FixCtx ctx_root L I S n t pid ip lo hi nxt pre curr post)
    (ws : List Int) (hm : m ≤ (pre ++ [curr] ++ post).length) :
    FixPost ctx_root L I ws t (n + 1) m pid lo hi
      (fun k v => ∃ x ∈ pre ++ [curr] ++ post, x.E k v)
      (pid :: (pre ++ [curr] ++ post).flatMap Kid.ps) (nextFirst (pre ++ [curr] ++ post) nxt) nxt
      (FixUnderflow ctx_root (curr.pid :: pid :: ws) t) := by
  cases n with
  | zero => exact fixUnderflow_step_leaf c ws hm
  | succ n => exact fixUnderflow_step_internal c ws hm

/-! ## B+Tree: the descent of `Remove` through an internal page -/

theorem segment_frame {pages1 pages2 : Int → Option Page} {pre O post : List Kid}
    {pid bound : Int} (hnd : (pid :: (pre ++ O ++ post).flatMap Kid.ps).Nodup)
    (hlt : ∀ p ∈ (pre ++ O ++ post).flatMap Kid.ps, p < bound)
    (hframe : ∀ p, p ∉ O.flatMap Kid.ps → p ≠ pid → p < bound →
      (pages2 p).map Page.core = (pages1 p).map Page.core) :
    ∀ x ∈ pre ++ post, ∀ p ∈ x.ps, (pages2 p).map Page.core = (pages1 p).map Page.core := by
  intro x hx p hp
  have hnd2 := (List.nodup_cons.mp hnd).2
  have hpidnot := (List.nodup_cons.mp hnd).1
  rw [List.flatMap_append, List.flatMap_append] at hnd2 hpidnot
  have hpall : p ∈ (pre ++ O ++ post).flatMap Kid.ps := by
    rcases List.mem_append.mp hx with h | h
    · exact List.mem_flatMap.mpr ⟨x, List.mem_append_left _ (List.mem_append_left _ h), hp⟩
    · exact List.mem_flatMap.mpr ⟨x, List.mem_append_right _ h, hp⟩
  apply hframe p _ _ (hlt p hpall)
  · intro hold
    rw [List.nodup_append] at hnd2
    obtain ⟨h1, h2, h3⟩ := hnd2
    rcases List.mem_append.mp hx with h | h
    · rw [List.nodup_append] at h1
      exact h1.2.2 (List.mem_flatMap.mpr ⟨x, h, hp⟩) hold
    · exact h3 (List.mem_append_right _ hold) (List.mem_flatMap.mpr ⟨x, h, hp⟩)
  · intro hh
    rw [hh] at hpall
    exact (List.nodup_cons.mp hnd).1 hpall

theorem and_shuffle {a b c p : Prop} (ha : a → p) (hc : c → p) :
    ((a ∨ b ∨ c) ∧ p) ↔ (a ∨ (b ∧ p) ∨ c) := by tauto

theorem frameOut_trans {t t1 t2 : BPlusTree} {ps ps1 : List Int}
    (h1 : FrameOut t t1 ps) (h2 : FrameOut t1 t2 ps1) (hn : t1.next_page_id_ = t.next_page_id_)
    (hsub : ∀ p ∈ ps1, p ∈ ps) : FrameOut t t2 ps := by
  refine ⟨?_, ptrStep_trans h1.2 h2.2⟩
  intro p hp hlt
  rw [h2.1 p (fun hh => hp (hsub p hh)) (by rw [hn]; exact hlt), h1.1 p hp hlt]

/-- The result of a step of `FixUnderflow` after a change of the pool that left
the pages outside the subtree alone. -/
theorem fixPost_transport {ctx_root : Int} {L I : Nat} {ws : List Int} {t t1 : BPlusTree}
    {h m : Nat} {pid : Int} {lo hi : Option Int} {E E1 : Int → RID → Prop} {ps ps1 : List Int}
    {first nxt : Int} {res : Outcome BPlusTree}
    (hpost : FixPost ctx_root L I ws t1 h m pid lo hi E1 ps1 first nxt res)
    (hk : Keep t t1) (hn : t1.next_page_id_ = t.next_page_id_) (hE : ∀ k v, E k v ↔ E1 k v)
    (hsub : ∀ p ∈ ps1, p ∈ ps) (hfr : FrameOut t t1 ps) :
    FixPost ctx_root L I ws t h m pid lo hi E ps first nxt res := by
  rcases hpost with ⟨t2, ps2, h1, h2, h3, h4, h5, h6⟩ | ⟨t2, ps2, h1, h2, h3, h4, h5, h6, h7⟩
  · exact Or.inl ⟨t2, ps2, h1, keep_trans hk h2, by rw [h3, hn], rep_congr_E hE h4,
      fun p hp => hsub p (h5 p hp), frameOut_trans hfr h6 hn hsub⟩
  · exact Or.inr ⟨t2, ps2, h1, keep_trans hk h2, by rw [h3, hn], rep_congr_E hE h4,
      fun p hp => hsub p (h5 p hp), frameOut_trans hfr h6 hn hsub, h7⟩

theorem rep_raise {L I : Nat} {pages : Int → Option Page} {h m m1 : Nat} {pid : Int}
    {lo hi : Option Int} {E : Int → RID → Prop} {ps : List Int} {first nxt : Int}
    (hrep : Rep L I pages (h + 1) m pid lo hi E ps first nxt) (ip : InternalPage)
    (hp : pages pid = some (Page.internal ip)) (hm : m1 ≤ ip.slots.length) :
    Rep L I pages (h + 1) m1 pid lo hi E ps first nxt := by
  obtain ⟨ip1, kids, h1, h2, h3, h4, h5, h6, h7, h8, h9⟩ := rep_internal_iff.mp hrep
  rw [hp] at h1
  simp only [Option.some.injEq, Page.internal.injEq] at h1
  subst h1
  exact rep_internal_iff.mpr ⟨ip, kids, hp, h2, by rw [slotsOf_length h4]; exact hm, h4, h5, h6,
    h7, h8, h9⟩

/-- After a merge below a page that is not the root, the page is fine or
`FixUnderflow` goes on with it. -/
theorem removePost_of_fixPost {ctx_root : Int} {L I : Nat} {ws : List Int} {t : BPlusTree}
    {n : Nat} {pid : Int} {lo hi : Option Int} {E : Int → RID → Prop} {ps : List Int}
    {first nxt : Int} {res : Outcome BPlusTree} (hI : 3 ≤ I)
    (hpost : FixPost ctx_root L I ws t (n + 1) 2 pid lo hi E ps first nxt res)
    (hnotroot : pid ≠ ctx_root) :
    RemovePost ctx_root L I ws t (n + 1) pid lo hi E ps first nxt res := by
  rcases hpost with ⟨t2, ps2, h1, h2, h3, h4, h5, h6⟩ | ⟨t2, ps2, h1, h2, h3, h4, h5, h6, h7⟩
  · exact Or.inl ⟨t2, ps2, h1, h2, h3, h4, h5, h6⟩
  · obtain ⟨ip, kids, g1, g2, g3, g4, g5, g6, g7, g8, g9⟩ := rep_internal_iff.mp h4
    obtain ⟨page, hpg, hpgid⟩ := h7
    rw [g1] at hpg
    simp only [Option.some.injEq] at hpg
    subst hpg
    have hipid : ip.page_id_ = pid := hpgid
    have hnr : IsRootPage ctx_root ip.page_id_ = false := by
      unfold IsRootPage
      simp only [decide_eq_false_iff_not]
      rw [hipid]
      exact hnotroot
    have hmin := getMinSize_two hI
    by_cases hsz : ip.GetSize - 1 < (GetMinSize ip.max_size_ : Int)
    · refine Or.inr ⟨t2, ps2, ?_, h2, h3, h4, h5, h6, ?_⟩
      · rw [h1]
        unfold afterMerge
        simp only [internalAt_eq g1, Outcome.ok_bind, hnr, Bool.false_eq_true, if_false, hsz,
          if_true]
      · refine ⟨Page.internal ip, g1, hpgid, ?_⟩
        show ip.slots.length ≤ GetMinSize ip.max_size_
        unfold InternalPage.GetSize at hsz
        omega
    · refine Or.inl ⟨t2, ps2, ?_, h2, h3, ?_, h5, h6⟩
      · rw [h1]
        unfold afterMerge
        simp only [internalAt_eq g1, Outcome.ok_bind, hnr, Bool.false_eq_true, if_false, hsz,
          Outcome.pure_eq_ok]
      · apply rep_raise h4 ip g1
        unfold InternalPage.GetSize at hsz
        rw [g2] at hsz
        omega

/-! ## B+Tree: the descent of `Remove` -/

set_option maxHeartbeats 1000000 in
/-- The descent of `Remove` through an internal page, given what the descent
from its children comes to. -/
theorem removeLoop_internal (ctx_root key : Int) (L I S : Nat) (hL : 2 ≤ L) (hI : 3 ≤ I)
    (hS : L + 2 ≤ S) (n : Nat) (pid : Int) (lo hi : Option Int) (E : Int → RID → Prop)
    (ps : List Int) (first nxt : Int) (ws : List Int) (f : Nat) (t : BPlusTree)
    (hcL : t.leaf_max_size_ = L) (hcI : t.internal_max_size_ = I)
    (hcS : t.LEAF_PAGE_SLOT_CNT = S)
    (hrep : Rep L I t.pages (n + 1) 2 pid lo hi E ps first nxt) (hlok : aboveLo lo key)
    (hhik : belowHi hi key) (hfresh : Fresh t ps) (hroot : ctx_root ∉ ps.tail)
    (hnext : NextOK t nxt ps)
    (ih : ∀ (pid1 : Int) (lo1 hi1 : Option Int) (E1 : Int → RID → Prop) (ps1 : List Int)
      (first1 nxt1 : Int) (t1 : BPlusTree),
      t1.leaf_max_size_ = L → t1.internal_max_size_ = I → t1.LEAF_PAGE_SLOT_CNT = S →
      Rep L I t1.pages n 2 pid1 lo1 hi1 E1 ps1 first1 nxt1 → aboveLo lo1 key →
      belowHi hi1 key → Fresh t1 ps1 → ctx_root ∉ ps1 → NextOK t1 nxt1 ps1 →
      RemovePost ctx_root L I (pid :: ws) t1 n pid1 lo1 hi1 (fun k v => E1 k v ∧ k ≠ key) ps1
        first1 nxt1 (removeLoop ctx_root key f (pid :: ws) pid1 t1)) :
    FixPost ctx_root L I ws t (n + 1) 2 pid lo hi (fun k v => E k v ∧ k ≠ key) ps first nxt
      (removeLoop ctx_root key (f + 1) ws pid t) := by
  obtain ⟨ip, kids, hpage, hmax, hm, hSl, hok, hE, hps, hnd, hfirst⟩ := rep_internal_iff.mp hrep
  obtain ⟨pre, kid, post, hsplit, hidx, hval, hkl, hkh⟩ :=
    select_kid rep_child_ordered { ip with page_id_ := pid } hSl.1 hSl.2 hok key hlok hhik
  rw [split_segment] at hsplit
  subst hsplit
  subst hps
  have heq : removeLoop ctx_root key (f + 1) ws pid t
      = removeLoop ctx_root key f (pid :: ws) kid.pid
          (t.setPage pid (Page.internal { ip with page_id_ := pid })) := by
    conv_lhs => unfold removeLoop
    rw [hpage]
    simp only [hidx, hval, Outcome.ok_bind]
  rw [heq]
  generalize ht1 : t.setPage pid (Page.internal { ip with page_id_ := pid }) = t1
  have h1pid : t1.pages pid = some (Page.internal { ip with page_id_ := pid }) := by
    rw [← ht1]; simp
  have h1other : ∀ p, p ≠ pid → t1.pages p = t.pages p := by
    intro p hp
    rw [← ht1]; simp [hp]
  have h1next : t1.next_page_id_ = t.next_page_id_ := by rw [← ht1]; rfl
  have h1keep : Keep t t1 := by rw [← ht1]; exact keep_setPage _ _ _
  have h1ptr : PtrStep t t1 := by
    rw [← ht1]
    exact ptrStep_setInternal t pid ip _ hpage
  clear ht1
  have hpidnot : pid ∉ (pre ++ [kid] ++ post).flatMap Kid.ps := (List.nodup_cons.mp hnd).1
  have hnd2 := (List.nodup_cons.mp hnd).2
  have hkidsub : ∀ p ∈ kid.ps, p ∈ (pre ++ [kid] ++ post).flatMap Kid.ps := by
    intro p hp
    exact List.mem_flatMap.mpr ⟨kid, by simp, hp⟩
  have hkidne : ∀ p ∈ kid.ps, p ≠ pid := fun p hp hh => hpidnot (hh ▸ hkidsub p hp)
  have hokk := hok
  rw [List.append_assoc, kidsOK_append, List.singleton_append] at hokk
  have hkidrep : Rep L I t.pages n 2 kid.pid kid.lo (nextLo post hi) kid.E kid.ps kid.first
      (nextFirst post nxt) := hokk.2.1
  have hkidrep1 : Rep L I t1.pages n 2 kid.pid kid.lo (nextLo post hi) kid.E kid.ps kid.first
      (nextFirst post nxt) :=
    rep_frame (fun p hp => by rw [h1other p (hkidne p hp)]) hkidrep
  have hfresh1 : Fresh t1 kid.ps :=
    ⟨by rw [h1next]; exact hfresh.1,
      fun p hp => by rw [h1next]; exact hfresh.2 p (List.mem_cons_of_mem _ (hkidsub p hp))⟩
  have hroot1 : ctx_root ∉ kid.ps := fun hh => hroot (hkidsub _ hh)
  have hnext1 : NextOK t1 (nextFirst post nxt) kid.ps := by
    cases post with
    | nil =>
      show NextOK t1 nxt kid.ps
      rcases hnext with hn | ⟨hn1, hn2, lpn, hn3⟩
      · exact Or.inl hn
      · refine Or.inr ⟨fun hh => hn1 (List.mem_cons_of_mem _ (hkidsub _ hh)), by omega, lpn, ?_⟩
        rw [h1other nxt (fun hh => hn1 (hh ▸ List.mem_cons_self _ _))]
        exact hn3
    | cons k1 post1 =>
      have hk1 : Rep L I t.pages n 2 k1.pid k1.lo (nextLo post1 hi) k1.E k1.ps k1.first
          (nextFirst post1 nxt) := hokk.2.2.1
      obtain ⟨hf1, lpf, hf2⟩ := rep_first hk1
      have hf3 : k1.first ∈ (pre ++ [kid] ++ k1 :: post1).flatMap Kid.ps :=
        List.mem_flatMap.mpr ⟨k1, by simp, hf1⟩
      show NextOK t1 k1.first kid.ps
      refine Or.inr ⟨?_, ?_, lpf, ?_⟩
      · intro hh
        rw [List.flatMap_append, List.flatMap_append, List.nodup_append] at hnd2
        apply hnd2.2.2 (List.mem_append_right _ (by simpa using hh))
        exact List.mem_flatMap.mpr ⟨k1, List.mem_cons_self _ _, hf1⟩
      · rw [h1next]
        exact (hfresh.2 _ (List.mem_cons_of_mem _ hf3)).2
      · rw [h1other _ (fun hh => hpidnot (hh ▸ hf3))]
        exact hf2
  have hres := ih kid.pid kid.lo (nextLo post hi) kid.E kid.ps kid.first (nextFirst post nxt)
    t1 (h1keep.1.trans hcL) (h1keep.2.1.trans hcI) (h1keep.2.2.1.trans hcS) hkidrep1 hkl hkh
    hfresh1 hroot1 hnext1
  have hsome := kids_tail_lo_some hSl.2
  have hexcl : ∀ x ∈ pre ++ post, ∀ v, ¬ x.E key v := by
    have hok2 := hok
    rw [← split_segment] at hok2 hsome
    exact kid_excl rep_child_ordered rep_child_bounds pre kid post hi nxt hok2 hsome key hkl hkh
  have hkidflat : [kid].flatMap Kid.ps = kid.ps := by simp
  -- what holds for every outcome of the descent into the child
  have hcommon : ∀ t2, Keep t1 t2 → t2.next_page_id_ = t1.next_page_id_ →
      FrameOut t1 t2 kid.ps →
      t2.pages pid = some (Page.internal { ip with page_id_ := pid }) ∧ Keep t t2 ∧
      (∀ p, p ∉ [kid].flatMap Kid.ps → p ≠ pid → p < t.next_page_id_ →
        (t2.pages p).map Page.core = (t.pages p).map Page.core) ∧
      FrameOut t t2 (pid :: (pre ++ [kid] ++ post).flatMap Kid.ps) := by
    intro t2 hk2 _ hfr
    have hpidlt : pid < t1.next_page_id_ := by
      rw [h1next]; exact (hfresh.2 pid (List.mem_cons_self _ _)).2
    refine ⟨?_, keep_trans h1keep hk2, ?_, ?_⟩
    · apply core_internal_inv
      rw [hfr.1 pid (fun hh => hkidne pid hh rfl) hpidlt, h1pid]
      rfl
    · intro p hp1 hp2 hp3
      rw [hkidflat] at hp1
      rw [hfr.1 p hp1 (by rw [h1next]; exact hp3), h1other p hp2]
    · refine ⟨?_, ptrStep_trans h1ptr hfr.2⟩
      intro p hp1 hp3
      have hp2 : p ≠ pid := fun hh => hp1 (hh ▸ List.mem_cons_self _ _)
      have hp4 : p ∉ kid.ps := fun hh => hp1 (List.mem_cons_of_mem _ (hkidsub p hh))
      rw [hfr.1 p hp4 (by rw [h1next]; exact hp3), h1other p hp2]
  have hEnew : ∀ ps1 k v, (E k v ∧ k ≠ key) ↔
      ∃ x ∈ pre ++ [(⟨kid.lo, kid.pid, fun k v => kid.E k v ∧ k ≠ key, ps1, kid.first⟩ : Kid)]
        ++ post, x.E k v := by
    intro ps1 k v
    rw [hE k v, exists_mem_segment, exists_mem_segment]
    simp only [List.mem_singleton, exists_eq_left]
    apply and_shuffle
    · rintro ⟨x, hx, hxE⟩ hk
      rw [hk] at hxE
      exact hexcl x (List.mem_append_left _ hx) v hxE
    · rintro ⟨x, hx, hxE⟩ hk
      rw [hk] at hxE
      exact hexcl x (List.mem_append_right _ hx) v hxE
  have hsubnew : ∀ ps1, (∀ p ∈ ps1, p ∈ kid.ps) →
      ∀ p ∈ pid :: (pre ++ [(⟨kid.lo, kid.pid, fun k v => kid.E k v ∧ k ≠ key, ps1,
        kid.first⟩ : Kid)] ++ post).flatMap Kid.ps,
      p ∈ pid :: (pre ++ [kid] ++ post).flatMap Kid.ps := by
    intro ps1 hsub2 p hp
    rcases List.mem_cons.mp hp with h | h
    · rw [h]; exact List.mem_cons_self _ _
    · rcases mem_segment_flatMap (O := [kid]) h with h1 | h1
      · simp only [List.flatMap_cons, List.flatMap_nil, List.append_nil] at h1
        exact List.mem_cons_of_mem _ (hkidsub p (hsub2 p h1))
      · exact List.mem_cons_of_mem _ h1
  rcases hres with ⟨t2, ps1, hr, hk2, hn2, hrep2, hsub2, hfr2⟩ |
    ⟨t2, ps1, hr, hk2, hn2, hrep2, hsub2, hfr2, hund⟩
  · -- the child is fine
    obtain ⟨hp2, hkeep, hframe, hfout⟩ := hcommon t2 hk2 hn2 hfr2
    refine Or.inl ⟨t2, pid :: (pre ++ [(⟨kid.lo, kid.pid, fun k v => kid.E k v ∧ k ≠ key, ps1,
      kid.first⟩ : Kid)] ++ post).flatMap Kid.ps, hr, hkeep, by omega, ?_, hsubnew ps1 hsub2,
      hfout⟩
    have := rep_replace_seg (m := 2)
      (N := [(⟨kid.lo, kid.pid, fun k v => kid.E k v ∧ k ≠ key, ps1, kid.first⟩ : Kid)])
      hp2 hmax (slotsOf_congr hSl (by simp) (by simp)) hok hnd hfresh hframe
      (kidsOK_single hrep2) rfl rfl (by simpa using rep_nodup hrep2)
      (by
        intro p hp
        simp only [List.flatMap_cons, List.flatMap_nil, List.append_nil] at hp ⊢
        exact Or.inl (hsub2 p hp))
      (by simpa using hm)
    rw [← hfirst] at this
    exact rep_congr_E (hEnew ps1) this
  · -- the child is below its minimal size
    obtain ⟨hp2, hkeep, hframe, hfout⟩ := hcommon t2 hk2 hn2 hfr2
    have hlt : ∀ p ∈ (pre ++ [kid] ++ post).flatMap Kid.ps, p < t.next_page_id_ :=
      fun p hp => (hfresh.2 p (List.mem_cons_of_mem _ hp)).2
    have hfr := segment_frame hnd hlt hframe
    have hpre2 : KidsOK (RepKid L I t2.pages n) pre kid.lo kid.first :=
      kidsOK_frame (fun x hx p hp => hfr x (List.mem_append_left _ hx) p hp) hokk.1
    have hpost2 : KidsOK (RepKid L I t2.pages n) post hi nxt :=
      kidsOK_frame (fun x hx p hp => hfr x (List.mem_append_right _ hx) p hp) hokk.2.2
    have hndK := segment_nodup hnd (fun p hp => (hfresh.2 p hp).2)
      (N := [(⟨kid.lo, kid.pid, fun k v => kid.E k v ∧ k ≠ key, ps1, kid.first⟩ : Kid)])
      (by simpa using rep_nodup hrep2)
      (by
        intro p hp
        simp only [List.flatMap_cons, List.flatMap_nil, List.append_nil] at hp ⊢
        exact Or.inl (hsub2 p hp))
    have hn2t : t2.next_page_id_ = t.next_page_id_ := by omega
    have c : FixCtx ctx_root L I S n t2 pid { ip with page_id_ := pid } lo hi nxt pre
        (⟨kid.lo, kid.pid, fun k v => kid.E k v ∧ k ≠ key, ps1, kid.first⟩ : Kid) post :=
      { cfgL := hkeep.1.trans hcL
        cfgI := hkeep.2.1.trans hcI
        cfgS := hkeep.2.2.1.trans hcS
        hL := hL
        hI := hI
        hS := hS
        hpage := hp2
        hipid := rfl
        hmax := hmax
        hSl := slotsOf_congr hSl (by simp) (by simp)
        hpre := hpre2
        hcurr := hrep2
        hpost := hpost2
        hnd := hndK
        hfresh := ⟨by rw [hn2t]; exact hfresh.1, fun p hp => by
          rw [hn2t]; exact hfresh.2 p (hsubnew ps1 hsub2 p hp)⟩
        hunder := hund
        hnext := by
          rcases hnext with hn | ⟨hn1, hn2', lpn, hn3⟩
          · exact Or.inl hn
          · refine Or.inr ⟨fun hh => hn1 (hsubnew ps1 hsub2 _ hh), by omega, ?_⟩
            have := hfout.1 nxt hn1 hn2'
            rw [hn3] at this
            obtain ⟨lp1, h1, _⟩ := core_leaf_inv this
            exact ⟨lp1, h1⟩
        hnotroot := fun hh => hroot1 (hh ▸ rep_pid_mem hkidrep)
        hlen := by simpa using hm }
    have hstep := fixUnderflow_step (m := 2) c ws (by simpa using hm)
    have hnf : nextFirst (pre ++ [(⟨kid.lo, kid.pid, fun k v => kid.E k v ∧ k ≠ key, ps1,
        kid.first⟩ : Kid)] ++ post) nxt = nextFirst (pre ++ [kid] ++ post) nxt := by
      cases pre <;> rfl
    rw [hnf] at hstep
    rw [hr]
    refine fixPost_transport hstep hkeep hn2t (hEnew ps1) (hsubnew ps1 hsub2) hfout |>.imp ?_ ?_
    · rintro ⟨t3, ps3, g1, g2, g3, g4, g5, g6⟩
      refine ⟨t3, ps3, g1, g2, g3, ?_, g5, g6⟩
      rw [hfirst]
      exact g4
    · rintro ⟨t3, ps3, g1, g2, g3, g4, g5, g6, g7⟩
      refine ⟨t3, ps3, g1, g2, g3, ?_, g5, g6, g7⟩
      rw [hfirst]
      exact g4

/-! ## B+Tree: `Remove` below the root -/

/-- The descent of `Remove` from a page other than the root. -/
theorem removeLoop_post (ctx_root key : Int) (L I S : Nat) (hL : 2 ≤ L) (hI : 3 ≤ I)
    (hS : L + 2 ≤ S) :
    ∀ (h : Nat) (ws : List Int) (fuel : Nat) (pid : Int) (lo hi : Option Int)
      (E : Int → RID → Prop) (ps : List Int) (first nxt : Int) (t : BPlusTree),
      h < fuel →
      t.leaf_max_size_ = L → t.internal_max_size_ = I → t.LEAF_PAGE_SLOT_CNT = S →
      Rep L I t.pages h 2 pid lo hi E ps first nxt → aboveLo lo key → belowHi hi key →
      Fresh t ps → ctx_root ∉ ps → NextOK t nxt ps →
      RemovePost ctx_root L I ws t h pid lo hi (fun k v => E k v ∧ k ≠ key) ps first nxt
        (removeLoop ctx_root key fuel ws pid t) := by
  intro h
  induction h with
  | zero =>
    intro ws fuel pid lo hi E ps first nxt t hfuel hcL hcI hcS hrep hlok hhik hfresh hroot hnext
    obtain ⟨f, rfl⟩ : ∃ f, fuel = f + 1 := ⟨fuel - 1, by omega⟩
    obtain ⟨lp, hpage, _⟩ := rep_leaf_iff.mp hrep
    unfold removeLoop
    rw [hpage]
    exact removeFromLeaf_post ctx_root key L I ws t pid lo hi E ps first nxt lp hpage hrep
      (fun hh => hroot (hh ▸ rep_pid_mem hrep))
  | succ n ih =>
    intro ws fuel pid lo hi E ps first nxt t hfuel hcL hcI hcS hrep hlok hhik hfresh hroot hnext
    obtain ⟨f, rfl⟩ : ∃ f, fuel = f + 1 := ⟨fuel - 1, by omega⟩
    have hne : pid ≠ ctx_root := fun hh => hroot (hh ▸ rep_pid_mem hrep)
    refine removePost_of_fixPost hI ?_ hne
    apply removeLoop_internal ctx_root key L I S hL hI hS n pid lo hi E ps first nxt ws f t hcL
      hcI hcS hrep hlok hhik hfresh (fun hh => hroot (List.mem_of_mem_tail hh)) hnext
    intro pid1 lo1 hi1 E1 ps1 first1 nxt1 t1 g1 g2 g3 g4 g5 g6 g7 g8 g9
    exact ih (pid :: ws) f pid1 lo1 hi1 E1 ps1 first1 nxt1 t1 (by omega) g1 g2 g3 g4 g5 g6 g7 g8
      g9

theorem rep_ps_head {L I : Nat} {pages : Int → Option Page} {h m : Nat} {pid : Int}
    {lo hi : Option Int} {E : Int → RID → Prop} {ps : List Int} {first nxt : Int}
    (hrep : Rep L I pages h m pid lo hi E ps first nxt) : ∃ tl, ps = pid :: tl := by
  cases h with
  | zero =>
    obtain ⟨lp, _, _, _, _, _, _, h7, _⟩ := rep_leaf_iff.mp hrep
    exact ⟨[], h7⟩
  | succ n =>
    obtain ⟨ip, kids, _, _, _, _, _, _, h7, _⟩ := rep_internal_iff.mp hrep
    exact ⟨_, h7⟩

theorem rep_root_not_tail {L I : Nat} {pages : Int → Option Page} {h m : Nat} {pid : Int}
    {lo hi : Option Int} {E : Int → RID → Prop} {ps : List Int} {first nxt : Int}
    (hrep : Rep L I pages h m pid lo hi E ps first nxt) : pid ∉ ps.tail := by
  obtain ⟨tl, htl⟩ := rep_ps_head hrep
  have hnd := rep_nodup hrep
  rw [htl] at hnd ⊢
  exact (List.nodup_cons.mp hnd).1

/-- `Remove` at a leaf that is the root. -/
theorem removeFromLeaf_root (key : Int) (L I : Nat) (ws : List Int) (t : BPlusTree)
    (pid : Int) (lo hi : Option Int) (E : Int → RID → Prop) (ps : List Int) (first nxt : Int)
    (lp0 : LeafPage) (hpage : t.pages pid = some (Page.leaf lp0))
    (hrep : Rep L I t.pages 0 2 pid lo hi E ps first nxt) :
    ∃ t1, removeFromLeaf pid ws t pid lp0 key = Outcome.ok t1 ∧
      t1.leaf_max_size_ = t.leaf_max_size_ ∧ t1.internal_max_size_ = t.internal_max_size_ ∧
      t1.LEAF_PAGE_SLOT_CNT = t.LEAF_PAGE_SLOT_CNT ∧ t1.next_page_id_ = t.next_page_id_ ∧
      ((t1.root_page_id_ = INVALID_PAGE_ID ∧ ∀ k v, ¬ (E k v ∧ k ≠ key)) ∨
        (t1.root_page_id_ = t.root_page_id_ ∧
          Rep L I t1.pages 0 2 pid lo hi (fun k v => E k v ∧ k ≠ key) ps first nxt)) ∧
      (nxt = INVALID_PAGE_ID → PtrInv t → NoPrev t pid →
        PtrInv t1 ∧ (t1.pages pid ≠ none → NoPrev t1 pid)) := by
  obtain ⟨lp, h1, h2, h3, h4, h5, h6, h7, h8, h9, h10, h11⟩ := hrep
  rw [hpage] at h1
  simp only [Option.some.injEq, Page.leaf.injEq] at h1
  subst h1
  subst h7
  unfold removeFromLeaf
  generalize hleaf : ({ lp0 with page_id_ := pid } : LeafPage) = leaf
  have hsl : leaf.slots = lp0.slots := by rw [← hleaf]
  have hmax : leaf.max_size_ = L := by rw [← hleaf]; exact h2
  have hnx : leaf.next_page_id_ = nxt := by rw [← hleaf]; exact h9
  have hpl : leaf.page_id_ = pid := by rw [← hleaf]
  have hpv : leaf.prev_page_id_ = lp0.prev_page_id_ := by rw [← hleaf]
  have hnx0 : leaf.next_page_id_ = lp0.next_page_id_ := by rw [← hleaf]
  clear hleaf
  rw [← hsl] at h3 h4 h5 h6 h11
  have hroot : IsRootPage pid pid = true := by
    unfold IsRootPage
    simp
  rcases leaf_find leaf key h4 with
    ⟨A, v0, B, hsplit, hidx, hA, hB⟩ | ⟨A, B, hsplit, hidx, hA, hB, hc⟩
  · -- the key is on the page
    obtain ⟨e1, _, e3⟩ := leaf_KeyAt_append _ hsplit
    have hne : ¬ ((A.length : Int) = leaf.GetSize) := by omega
    have hrm := leaf_remove_found leaf key hsplit hidx
    simp only [hidx, hne, if_false, e1, Outcome.ok_bind, comparator_self, ne_eq,
      not_true_eq_false, decide_False, Outcome.pure_eq_ok, Bool.false_eq_true, hrm, hroot,
      if_true]
    have hE1 : ∀ k v, (E k v ∧ k ≠ key) ↔ (k, v) ∈ A ++ B := by
      intro k v
      rw [h6, hsplit]
      simp only [List.mem_append, List.mem_cons, Prod.mk.injEq]
      constructor
      · rintro ⟨h | h | h, hk⟩
        · exact Or.inl h
        · exact absurd h.1 hk
        · exact Or.inr h
      · rintro (h | h)
        · exact ⟨Or.inl h, fun hk => by have := hA _ h; simp only at this; omega⟩
        · exact ⟨Or.inr (Or.inr h), fun hk => by have := hB _ h; simp only at this; omega⟩
    have hrep1 : ∀ m, m ≤ (A ++ B).length + 1 →
        Rep L I ((t.setPage pid (Page.leaf leaf)).setPage pid
        (Page.leaf { leaf with slots := A ++ B })).pages 0 m pid lo hi
        (fun k v => E k v ∧ k ≠ key) [pid] first nxt := by
      intro m hm
      refine ⟨{ leaf with slots := A ++ B }, by simp, hmax, ?_, ?_, ?_, hE1, rfl, h8, hnx, h10,
        hm⟩
      · rw [hsplit] at h3
        simp only [List.length_append, List.length_cons] at h3 ⊢
        omega
      · rw [hsplit] at h4
        exact sortedKeys_erase h4
      · intro s hs1
        apply h5 s
        rw [hsplit]
        rcases List.mem_append.mp hs1 with h | h
        · exact List.mem_append_left _ h
        · exact List.mem_append_right _ (List.mem_cons_of_mem _ h)
    have hstep2 : PtrStep t ((t.setPage pid (Page.leaf leaf)).setPage pid
        (Page.leaf { leaf with slots := A ++ B })) :=
      ptrStep_setLeaf2 t pid lp0 leaf _ hpage hnx0 hpv (Or.inr hpl) rfl rfl (Or.inl rfl)
    by_cases hsz : ({ leaf with slots := A ++ B } : LeafPage).GetSize = 0
    · rw [if_pos hsz]
      refine ⟨_, rfl, rfl, rfl, rfl, rfl, Or.inl ⟨rfl, ?_⟩, ?_⟩
      · intro k v hkv
        have := (hE1 k v).mp hkv
        unfold LeafPage.GetSize at hsz
        simp only at hsz
        have hnil : A ++ B = [] := List.length_eq_zero.mp (by omega)
        rw [hnil] at this
        simp at this
      · intro hnxt hinv hnp
        have hinv2 := hstep2.1 hinv
        have hnp2 := hstep2.2 pid hinv hnp
        refine ⟨?_, ?_⟩
        · exact ptrInv_delete_single _ pid (by simp [nextOf, hnx, hnxt]) hnp2 hinv2
        · intro hne
          exact absurd (by simp) hne
    · rw [if_neg hsz]
      have hpos : 2 ≤ (A ++ B).length + 1 := by
        unfold LeafPage.GetSize at hsz
        simp only at hsz
        omega
      exact ⟨_, rfl, rfl, rfl, rfl, rfl, Or.inr ⟨rfl, hrep1 2 hpos⟩,
        fun _ hinv hnp => ⟨hstep2.1 hinv, fun _ => hstep2.2 pid hinv hnp⟩⟩
  · -- the key is not on the page
    have hnotE : ∀ v0, ¬ E key v0 := by
      intro v0 hE
      rw [h6, hsplit] at hE
      exact not_mem_of_bounds hA hB hE
    have hstep : ∀ (jp : Bool → Outcome BPlusTree),
        (if leaf.KeyIndex key = leaf.GetSize then do
          let y ← pure true
          jp y
        else do
          let k ← leaf.KeyAt (leaf.KeyIndex key)
          let y ← pure (decide (comparator k key ≠ 0))
          jp y) = jp true := by
      intro jp
      rcases hc with ⟨hc, _⟩ | ⟨k1, hlt, hk, hne⟩
      · rw [if_pos hc]; rfl
      · rw [if_neg (by omega), hk]
        simp only [Outcome.ok_bind, hne, ne_eq, not_false_eq_true, decide_True,
          Outcome.pure_eq_ok]
    simp only [hstep, if_true]
    have hstep1 : PtrStep t (t.setPage pid (Page.leaf leaf)) :=
      ptrStep_setLeaf t pid lp0 leaf hpage hnx0 hpv (Or.inr hpl)
    refine ⟨_, rfl, rfl, rfl, rfl, rfl, Or.inr ⟨rfl, ?_⟩,
      fun _ hinv hnp => ⟨hstep1.1 hinv, fun _ => hstep1.2 pid hinv hnp⟩⟩
    refine ⟨leaf, by simp, hmax, h3, h4, h5, ?_, rfl, h8, hnx, h10, h11⟩
    intro k v
    rw [← h6]
    constructor
    · exact fun h => h.1
    · exact fun h => ⟨h, fun hk => hnotE v (hk ▸ h)⟩

/-! ## B+Tree: `Remove` on a represented tree -/

theorem aboveLo_none (k : Int) : aboveLo none k := fun _ h => by cases h

theorem belowHi_none (k : Int) : belowHi none k := fun _ h => by cases h

theorem fresh_mem_ne_invalid {t : BPlusTree} {ps : List Int} (h : Fresh t ps) {p : Int}
    (hp : p ∈ ps) : p ≠ INVALID_PAGE_ID := by
  have := (h.2 p hp).1
  unfold INVALID_PAGE_ID
  omega

/-- After a merge below the root: the root keeps at least two children, or its
only child becomes the root. -/
theorem afterMerge_root (L I S b n : Nat) (t t1 : BPlusTree) (E : Int → RID → Prop)
    (ps ps1 : List Int) (first : Int) (hb : n + 1 < b)
    (hcL : t.leaf_max_size_ = L) (hcI : t.internal_max_size_ = I)
    (hcS : t.LEAF_PAGE_SLOT_CNT = S) (hfresh : Fresh t ps) (hk : Keep t t1)
    (hn : t1.next_page_id_ = t.next_page_id_)
    (hrep : Rep L I t1.pages (n + 1) 1 t.root_page_id_ none none E ps1 first INVALID_PAGE_ID)
    (hsub : ∀ p ∈ ps1, p ∈ ps) (hst : Stored t1 t.root_page_id_)
    (hpi : PtrInv t1) (hnp : NoPrev t1 first) :
    ∃ t2, afterMerge t.root_page_id_ [t.root_page_id_] t.root_page_id_ t1 = Outcome.ok t2 ∧
      TreeInv L I S b t2 E := by
  obtain ⟨ip, kids, g1, g2, g3, g4, g5, g6, g7, g8, g9⟩ := rep_internal_iff.mp hrep
  obtain ⟨page, hpg, hpgid⟩ := hst
  rw [g1] at hpg
  simp only [Option.some.injEq] at hpg
  subst hpg
  have hipid : ip.page_id_ = t.root_page_id_ := hpgid
  have hisroot : IsRootPage t.root_page_id_ ip.page_id_ = true := by
    unfold IsRootPage
    simp [hipid]
  have hfresh1 : Fresh t1 ps1 :=
    ⟨by rw [hn]; exact hfresh.1, fun p hp => by rw [hn]; exact hfresh.2 p (hsub p hp)⟩
  have hrootmem : t.root_page_id_ ∈ ps1 := rep_pid_mem hrep
  have hlen := slotsOf_length g4
  unfold afterMerge
  simp only [internalAt_eq g1, Outcome.ok_bind, hisroot, if_true]
  by_cases hsz : ip.GetSize ≤ 1
  · rw [if_pos hsz]
    unfold InternalPage.GetSize at hsz
    obtain ⟨kid, hkids⟩ : ∃ kid, kids = [kid] := by
      cases kids with
      | nil => simp at g3
      | cons a l =>
        cases l with
        | nil => exact ⟨a, rfl⟩
        | cons c l2 =>
          simp only [List.length_cons] at hlen
          omega
    subst hkids
    obtain ⟨s, S1, hs, hklo, hkpid, _⟩ := slotsOf_cons_left g4
    have hval : ip.ValueAt 0 = Outcome.ok kid.pid := by
      unfold InternalPage.ValueAt
      rw [hs, hkpid]
      rfl
    rw [hval]
    simp only [Outcome.ok_bind, Outcome.pure_eq_ok]
    have hkrep : Rep L I t1.pages n 2 kid.pid kid.lo none kid.E kid.ps kid.first
        INVALID_PAGE_ID := g5.1
    have hkmem : ∀ p ∈ kid.ps, p ∈ ps1 := by
      intro p hp
      rw [g7]
      simp [hp]
    have hknot : t.root_page_id_ ∉ kid.ps := by
      have := g8
      rw [g7] at this
      simpa using (List.nodup_cons.mp this).1
    have hdel : PtrStep t1 (t1.DeletePage ip.page_id_) :=
      ptrStep_deleteInternal t1 ip.page_id_ ip (by rw [hipid]; exact g1)
    have hfk : first = kid.first := g9
    refine ⟨_, rfl, hk.1.trans hcL, hk.2.1.trans hcI, hk.2.2.1.trans hcS,
      by show 1 ≤ t1.next_page_id_; exact hfresh1.1, hdel.1 hpi, Or.inr ⟨?_, n, kid.ps,
      kid.first, by omega, ?_, ?_, hfk ▸ hdel.2 first hpi hnp⟩⟩
    · exact fresh_mem_ne_invalid hfresh1 (hkmem _ (rep_pid_mem hkrep))
    · show Rep L I (t1.DeletePage ip.page_id_).pages n 2 kid.pid none none E kid.ps kid.first
        INVALID_PAGE_ID
      rw [hklo] at hkrep
      apply rep_congr_E _ (rep_frame _ hkrep)
      · intro k v
        rw [g6 k v]
        simp
      · intro p hp
        have : p ≠ ip.page_id_ := by
          rw [hipid]
          exact fun hh => hknot (hh ▸ hp)
        simp [this]
    · exact ⟨hfresh1.1, fun p hp => hfresh1.2 p (hkmem p hp)⟩
  · rw [if_neg hsz]
    unfold InternalPage.GetSize at hsz
    refine ⟨t1, rfl, hk.1.trans hcL, hk.2.1.trans hcI, hk.2.2.1.trans hcS, hfresh1.1, hpi,
      Or.inr ⟨?_, n + 1, ps1, first, hb, ?_, hfresh1, hnp⟩⟩
    · rw [hk.2.2.2]
      exact fresh_mem_ne_invalid hfresh1 hrootmem
    · rw [hk.2.2.2]
      exact rep_raise hrep ip g1 (by omega)

/-- `Remove` on a represented tree returns, and the tree that it leaves is
represented and holds the entries of the old one but for the key. -/
theorem remove_inv (L I S b : Nat) (hL : 2 ≤ L) (hI : 3 ≤ I) (hS : L + 2 ≤ S)
    (t : BPlusTree) (E : Int → RID → Prop) (key : Int) (fuel : Nat)
    (hinv : TreeInv L I S b t E) (hfuel : b ≤ fuel) :
    ∃ t1, t.Remove fuel key = Outcome.ok t1 ∧
      TreeInv L I S b t1 (fun k v => E k v ∧ k ≠ key) := by
  obtain ⟨hcL, hcI, hcS, hnx, hpi, hcase⟩ := hinv
  rcases hcase with ⟨hroot, hempty⟩ | ⟨hroot, h, ps, first, hh, hrep, hfresh, hnp⟩
  · refine ⟨t, ?_, hcL, hcI, hcS, hnx, hpi, Or.inl ⟨hroot, fun k v hkv => hempty k v hkv.1⟩⟩
    unfold BPlusTree.Remove
    rw [if_pos hroot]
  · unfold BPlusTree.Remove
    rw [if_neg hroot]
    obtain ⟨f, rfl⟩ : ∃ f, fuel = f + 1 := ⟨fuel - 1, by omega⟩
    cases h with
    | zero =>
      obtain ⟨lp, hpage, hrest⟩ := rep_leaf_iff.mp hrep
      have hfirst : first = t.root_page_id_ := hrest.2.2.2.2.2.2.1
      unfold removeLoop
      rw [hpage]
      obtain ⟨t1, hres, k1, k2, k3, k4, hor, hptr⟩ := removeFromLeaf_root key L I [] t
        t.root_page_id_ none none E ps first INVALID_PAGE_ID lp hpage hrep
      obtain ⟨hpi1, hnp1⟩ := hptr rfl hpi (hfirst ▸ hnp)
      refine ⟨t1, hres, k1.trans hcL, k2.trans hcI, k3.trans hcS, by rw [k4]; exact hnx, hpi1,
        ?_⟩
      rcases hor with ⟨h1, h2⟩ | ⟨h1, h2⟩
      · exact Or.inl ⟨h1, h2⟩
      · obtain ⟨lp1, hpage1, _⟩ := rep_leaf_iff.mp h2
        refine Or.inr ⟨by rw [h1]; exact hroot, 0, ps, first, hh, by rw [h1]; exact h2, ?_, ?_⟩
        · exact ⟨by rw [k4]; exact hfresh.1, fun p hp => by rw [k4]; exact hfresh.2 p hp⟩
        · rw [hfirst]
          exact hnp1 (by rw [hpage1]; exact fun hh => by cases hh)
    | succ n =>
      have hpost := removeLoop_internal t.root_page_id_ key L I S hL hI hS n t.root_page_id_
        none none E ps first INVALID_PAGE_ID [] f t hcL hcI hcS hrep (aboveLo_none key)
        (belowHi_none key) hfresh (rep_root_not_tail hrep) (Or.inl rfl)
        (fun pid1 lo1 hi1 E1 ps1 first1 nxt1 t1 g1 g2 g3 g4 g5 g6 g7 g8 g9 =>
          removeLoop_post t.root_page_id_ key L I S hL hI hS n [t.root_page_id_] f pid1 lo1 hi1
            E1 ps1 first1 nxt1 t1 (by omega) g1 g2 g3 g4 g5 g6 g7 g8 g9)
      rcases hpost with ⟨t1, ps1, h1, h2, h3, h4, h5, h6⟩ | ⟨t1, ps1, h1, h2, h3, h4, h5, h6, h7⟩
      · have hfresh1 : Fresh t1 ps1 :=
          ⟨by rw [h3]; exact hfresh.1, fun p hp => by rw [h3]; exact hfresh.2 p (h5 p hp)⟩
        refine ⟨t1, h1, h2.1.trans hcL, h2.2.1.trans hcI, h2.2.2.1.trans hcS, hfresh1.1,
          h6.2.1 hpi, Or.inr ⟨by rw [h2.2.2.2]; exact hroot, n + 1, ps1, first, hh, ?_, hfresh1,
          h6.2.2 first hpi hnp⟩⟩
        rw [h2.2.2.2]
        exact h4
      · rw [h1]
        exact afterMerge_root L I S b n t t1 _ ps ps1 first hh hcL hcI hcS hfresh h2 h3 h4 h5 h7
          (h6.2.1 hpi) (h6.2.2 first hpi hnp)

/-! ## B+Tree: `Insert` on a represented tree -/

theorem treeInv_congr {L I S b : Nat} {t : BPlusTree} {E E1 : Int → RID → Prop}
    (hE : ∀ k v, E1 k v ↔ E k v) (h : TreeInv L I S b t E) : TreeInv L I S b t E1 := by
  obtain ⟨h1, h2, h3, h4, hp, h5⟩ := h
  refine ⟨h1, h2, h3, h4, hp, ?_⟩
  rcases h5 with ⟨g1, g2⟩ | ⟨g1, h, ps, first, g2, g3, g4⟩
  · exact Or.inl ⟨g1, fun k v hkv => g2 k v ((hE k v).mp hkv)⟩
  · exact Or.inr ⟨g1, h, ps, first, g2, rep_congr_E hE g3, g4⟩

theorem treeInv_mono {L I S b b1 : Nat} {t : BPlusTree} {E : Int → RID → Prop}
    (hb : b ≤ b1) (h : TreeInv L I S b t E) : TreeInv L I S b1 t E := by
  obtain ⟨h1, h2, h3, h4, hp, h5⟩ := h
  refine ⟨h1, h2, h3, h4, hp, ?_⟩
  rcases h5 with ⟨g1, g2⟩ | ⟨g1, h, ps, first, g2, g3, g4⟩
  · exact Or.inl ⟨g1, g2⟩
  · exact Or.inr ⟨g1, h, ps, first, by omega, g3, g4⟩

/-- `Insert` into the empty tree. -/
theorem insert_empty (L I S b : Nat) (hL : 1 ≤ L) (hS : 2 ≤ S) (t : BPlusTree)
    (key : Int) (value : RID) (fuel : Nat) (hcL : t.leaf_max_size_ = L)
    (hcI : t.internal_max_size_ = I) (hcS : t.LEAF_PAGE_SLOT_CNT = S)
    (hnx : 1 ≤ t.next_page_id_) (hpi : PtrInv t)
    (hroot : t.root_page_id_ = INVALID_PAGE_ID) :
    ∃ t1, t.Insert fuel key value = Outcome.ok (true, t1) ∧
      TreeInv L I S (b + 1) t1 (fun k v => k = key ∧ v = value) := by
  have hne : t.next_page_id_ ≠ INVALID_PAGE_ID := by
    unfold INVALID_PAGE_ID
    omega
  have hleaf : ((LeafPage.Init t.leaf_max_size_).Insert t.LEAF_PAGE_SLOT_CNT key value).2
      = { LeafPage.Init L with slots := [(key, value)] } := by
    unfold LeafPage.Insert
    have : ¬ ((LeafPage.Init t.leaf_max_size_).GetSize + 1 ≥ (t.LEAF_PAGE_SLOT_CNT : Int)) := by
      unfold LeafPage.GetSize LeafPage.Init
      simp only [List.length_nil]
      omega
    simp only [this, if_false]
    simp [LeafPage.Init, insertSlot, hcL]
  unfold BPlusTree.Insert
  simp only [hroot, if_true, newPage_fst, hne, if_false, hleaf]
  have hstep := ptrStep_alloc t (Page.leaf { LeafPage.Init L with slots := [(key, value)] })
    hnx (Or.inr rfl) (Or.inr rfl) hpi
  refine ⟨_, rfl, hcL, hcI, hcS, by show 1 ≤ t.next_page_id_ + 1; omega, hstep.1 hpi,
    Or.inr ⟨hne, 0, [t.next_page_id_], t.next_page_id_, by omega, ?_, ?_, ?_⟩⟩
  · show Rep L I (t.NewPage.2.setPage t.next_page_id_
        (Page.leaf { LeafPage.Init L with slots := [(key, value)] })).pages 0 2
        t.next_page_id_ none none _ _ _ _
    refine rep_leaf_iff.mpr ⟨{ LeafPage.Init L with slots := [(key, value)] }, by simp, rfl,
      ?_, ?_, ?_, ?_, rfl, rfl, rfl, ?_, by simp⟩
    · show 1 ≤ L
      omega
    · unfold SortedKeys
      simp
    · intro s _
      exact ⟨aboveLo_none _, belowHi_none _⟩
    · intro k v
      simp
    · intro l h hl
      cases hl
  · exact ⟨by show 1 ≤ t.next_page_id_ + 1; omega, fun p hp => by
      rw [List.mem_singleton] at hp
      subst hp
      exact ⟨hnx, by show t.next_page_id_ < t.next_page_id_ + 1; omega⟩⟩
  · show prevOf ((t.NewPage.2.setPage t.next_page_id_
        (Page.leaf { LeafPage.Init L with slots := [(key, value)] })).pages t.next_page_id_)
        = some INVALID_PAGE_ID
    simp only [setPage_pages, if_true]
    rfl

/-- A new root above the two halves of the old one. -/
theorem newRootAbove_inv (L I S b h : Nat) (t t1 : BPlusTree) (E E1 E2 : Int → RID → Prop)
    (ps ps1 ps2 : List Int) (first first2 mid new : Int) (hb : h < b)
    (hcL : t.leaf_max_size_ = L) (hcI : t.internal_max_size_ = I)
    (hcS : t.LEAF_PAGE_SLOT_CNT = S) (hfresh : Fresh t ps) (hk : Keep t t1)
    (hn : t.next_page_id_ ≤ t1.next_page_id_)
    (hrepL : Rep L I t1.pages h 2 t.root_page_id_ none (some mid) E1 ps1 first first2)
    (hrepR : Rep L I t1.pages h 2 new (some mid) none E2 ps2 first2 INVALID_PAGE_ID)
    (hE : ∀ k v, (E1 k v ∨ E2 k v) ↔ E k v) (hnd : (ps1 ++ ps2).Nodup)
    (hsub : ∀ p ∈ ps1 ++ ps2, p ∈ ps ∨ (t.next_page_id_ ≤ p ∧ p < t1.next_page_id_))
    (hpi : PtrInv t1) (hnp : NoPrev t1 first) :
    ∃ t2, newRootAbove t1 t.root_page_id_ mid new = Outcome.ok t2 ∧
      TreeInv L I S (b + 1) t2 E := by
  have hne : t1.next_page_id_ ≠ INVALID_PAGE_ID := by
    have := hfresh.1
    unfold INVALID_PAGE_ID
    omega
  have hlt : ∀ p ∈ ps1 ++ ps2, 1 ≤ p ∧ p < t1.next_page_id_ := by
    intro p hp
    rcases hsub p hp with h1 | h1
    · have := hfresh.2 p h1
      omega
    · have := hfresh.1
      omega
  have hnew : t1.next_page_id_ ∉ ps1 ++ ps2 := by
    intro hh
    have := hlt _ hh
    omega
  unfold newRootAbove
  simp only [newPage_fst, hne, if_false]
  generalize ht2 : (t1.NewPage.2.setPage t1.next_page_id_ (Page.internal
    { InternalPage.Init t1.internal_max_size_ with
      slots := [(0, t.root_page_id_), (mid, new)] })) = t2
  have h2page : t2.pages t1.next_page_id_ = some (Page.internal
      { InternalPage.Init t1.internal_max_size_ with
        slots := [(0, t.root_page_id_), (mid, new)] }) := by
    rw [← ht2]; simp
  have h2other : ∀ p, p ≠ t1.next_page_id_ → t2.pages p = t1.pages p := by
    intro p hp
    rw [← ht2]; simp [hp]
  have h2next : t2.next_page_id_ = t1.next_page_id_ + 1 := by rw [← ht2]; rfl
  have h2L : t2.leaf_max_size_ = t1.leaf_max_size_ := by rw [← ht2]; rfl
  have h2I : t2.internal_max_size_ = t1.internal_max_size_ := by rw [← ht2]; rfl
  have h2S : t2.LEAF_PAGE_SLOT_CNT = t1.LEAF_PAGE_SLOT_CNT := by rw [← ht2]; rfl
  have h2ptr : PtrStep t1 t2 := by
    rw [← ht2]
    exact ptrStep_alloc t1 _ (by have := hfresh.1; omega) (Or.inl rfl) (Or.inl rfl) hpi
  clear ht2
  have hfr : ∀ p ∈ ps1 ++ ps2, (t2.pages p).map Page.core = (t1.pages p).map Page.core := by
    intro p hp
    rw [h2other p (fun hh => hnew (hh ▸ hp))]
  refine ⟨_, rfl, (h2L.trans hk.1).trans hcL, (h2I.trans hk.2.1).trans hcI,
    (h2S.trans hk.2.2.1).trans hcS, by show 1 ≤ t2.next_page_id_; have := hfresh.1; omega,
    h2ptr.1 hpi,
    Or.inr ⟨hne, h + 1, t1.next_page_id_ :: (ps1 ++ ps2), first, by omega, ?_, ?_,
      h2ptr.2 first hpi hnp⟩⟩
  · show Rep L I t2.pages (h + 1) 2 t1.next_page_id_ none none E _ first INVALID_PAGE_ID
    refine rep_internal_iff.mpr ⟨_, [(⟨none, t.root_page_id_, E1, ps1, first⟩ : Kid),
      (⟨some mid, new, E2, ps2, first2⟩ : Kid)], h2page, ?_, by simp, ?_, ?_, ?_, ?_, ?_, rfl⟩
    · show t1.internal_max_size_ = I
      exact hk.2.1.trans hcI
    · constructor <;> rfl
    · exact kidsOK_pair (a := (⟨none, t.root_page_id_, E1, ps1, first⟩ : Kid))
        (b := (⟨some mid, new, E2, ps2, first2⟩ : Kid))
        (rep_frame (fun p hp => hfr p (List.mem_append_left _ hp)) hrepL)
        (rep_frame (fun p hp => hfr p (List.mem_append_right _ hp)) hrepR)
    · intro k v
      rw [← hE k v]
      simp
    · simp
    · simp only [List.nodup_cons]
      exact ⟨hnew, hnd⟩
  · refine ⟨by rw [h2next]; have := hfresh.1; omega, ?_⟩
    intro p hp
    rw [h2next]
    rcases List.mem_cons.mp hp with h1 | h1
    · rw [h1]
      have := hfresh.1
      omega
    · have := hlt p h1
      omega

/-- `Insert` on a represented tree returns, and the tree that it leaves is
represented and holds the entries of the old one and, when the key was not
there, the new entry; the flag tells whether the key was not there. -/
theorem insert_inv (L I S b : Nat) (hL : 2 ≤ L) (hI : 3 ≤ I) (hS : L + 2 ≤ S)
    (t : BPlusTree) (E : Int → RID → Prop) (key : Int) (value : RID) (fuel : Nat)
    (hinv : TreeInv L I S b t E) (hfuel : b ≤ fuel) :
    ∃ r t1, t.Insert fuel key value = Outcome.ok (r, t1) ∧
      TreeInv L I S (b + 1) t1
        (fun k v => E k v ∨ (k = key ∧ v = value ∧ ∀ v0, ¬ E key v0)) ∧
      (r = true ↔ ∀ v0, ¬ E key v0) := by
  obtain ⟨hcL, hcI, hcS, hnx, hpi, hcase⟩ := hinv
  rcases hcase with ⟨hroot, hempty⟩ | ⟨hroot, h, ps, first, hh, hrep, hfresh, hnp⟩
  · obtain ⟨t1, h1, h2⟩ := insert_empty L I S b (by omega) (by omega) t key value fuel hcL hcI
      hcS hnx hpi hroot
    refine ⟨true, t1, h1, treeInv_congr ?_ h2, ⟨fun _ v0 => hempty key v0, fun _ => rfl⟩⟩
    intro k v
    constructor
    · rintro (h | ⟨h3, h4, _⟩)
      · exact absurd h (hempty k v)
      · exact ⟨h3, h4⟩
    · rintro ⟨h3, h4⟩
      exact Or.inr ⟨h3, h4, fun v0 => hempty key v0⟩
  · have hpost := insertLoop_post t.root_page_id_ key value L I S hL hI hS h 2 t.root_page_id_
      none none E ps first INVALID_PAGE_ID [] fuel t hcL hcI hcS hrep (aboveLo_none key)
      (belowHi_none key) hfresh (rep_root_not_tail hrep) (Or.inl rfl) (by omega)
    have hins : t.Insert fuel key value
        = insertLoop t.root_page_id_ key value fuel [] t.root_page_id_ t := by
      unfold BPlusTree.Insert
      rw [if_neg hroot]
    rw [hins]
    rcases hpost with ⟨t1, hr, ⟨v0, hv0⟩, hk, hn, hrep1, hfo⟩ |
      ⟨t1, ps1, hr, hno, hk, hn, hrep1, hsub, hfo⟩ |
      ⟨t1, mid, new, E1, E2, ps1, ps2, first2, hr, hno, hk, hn, hrepL, hrepR, hE12, hnd12,
        hsub12, hfo⟩
    · refine ⟨false, t1, hr, ⟨hk.1.trans hcL, hk.2.1.trans hcI, hk.2.2.1.trans hcS,
        by rw [hn]; exact hnx, hfo.2.1 hpi,
        Or.inr ⟨by rw [hk.2.2.2]; exact hroot, h, ps, first, by omega,
        ?_, ⟨by rw [hn]; exact hfresh.1, fun p hp => by rw [hn]; exact hfresh.2 p hp⟩,
        hfo.2.2 first hpi hnp⟩⟩,
        ⟨fun hf => (by cases hf), fun hf => absurd hv0 (hf v0)⟩⟩
      rw [hk.2.2.2]
      apply rep_congr_E _ hrep1
      intro k v
      constructor
      · rintro (h1 | ⟨_, _, h3⟩)
        · exact h1
        · exact absurd hv0 (h3 v0)
      · exact fun h1 => Or.inl h1
    · refine ⟨true, t1, hr, ⟨hk.1.trans hcL, hk.2.1.trans hcI, hk.2.2.1.trans hcS,
        by omega, hfo.2.1 hpi,
        Or.inr ⟨by rw [hk.2.2.2]; exact hroot, h, ps1, first, by omega, ?_, ?_,
        hfo.2.2 first hpi hnp⟩⟩,
        ⟨fun _ => hno, fun _ => rfl⟩⟩
      · rw [hk.2.2.2]
        apply rep_congr_E _ hrep1
        intro k v
        constructor
        · rintro (h1 | ⟨h1, h2, _⟩)
          · exact Or.inl h1
          · exact Or.inr ⟨h1, h2⟩
        · rintro (h1 | ⟨h1, h2⟩)
          · exact Or.inl h1
          · exact Or.inr ⟨h1, h2, hno⟩
      · refine ⟨by omega, fun p hp => ?_⟩
        rcases hsub p hp with h1 | h1
        · have := hfresh.2 p h1
          omega
        · omega
    · obtain ⟨t2, h2, hinv2⟩ := newRootAbove_inv L I S b h t t1
        (fun k v => E k v ∨ (k = key ∧ v = value ∧ ∀ v0, ¬ E key v0)) E1 E2 ps ps1 ps2 first
        first2 mid new hh hcL hcI hcS hfresh hk hn hrepL hrepR
        (by
          intro k v
          rw [hE12 k v]
          constructor
          · rintro (h1 | ⟨h1, h2⟩)
            · exact Or.inl h1
            · exact Or.inr ⟨h1, h2, hno⟩
          · rintro (h1 | ⟨h1, h2, _⟩)
            · exact Or.inl h1
            · exact Or.inr ⟨h1, h2⟩)
        hnd12 hsub12 (hfo.2.1 hpi) (hfo.2.2 first hpi hnp)
      refine ⟨true, t2, ?_, hinv2, ⟨fun _ => hno, fun _ => rfl⟩⟩
      rw [hr]
      have hisroot : IsRootPage t.root_page_id_ t.root_page_id_ = true := by
        unfold IsRootPage
        simp
      unfold CoalesceOrSplit
      simp only [hisroot, if_true, h2]
      rfl

/-! ## B+Tree: the tree against the reference map -/

theorem refMap_find_insertIfAbsent (m : RefMap) (key : Int) (value : RID) (k : Int) (v : RID) :
    (m.insertIfAbsent key value).find k = some v ↔
      (m.find k = some v ∨ (k = key ∧ v = value ∧ ∀ v0, ¬ m.find key = some v0)) := by
  unfold RefMap.insertIfAbsent
  cases hm : m.find key with
  | some v1 =>
    simp only
    constructor
    · exact fun h => Or.inl h
    · rintro (h | ⟨_, _, h3⟩)
      · exact h
      · exact absurd rfl (h3 v1)
  | none =>
    simp only [RefMap.find]
    by_cases hk : key = k
    · subst hk
      simp [hm, eq_comm]
    · have hk2 : ¬ k = key := fun h => hk h.symm
      simp [hk, hk2]

theorem refMap_find_erase (m : RefMap) (key : Int) (k : Int) (v : RID) :
    (m.erase key).find k = some v ↔ (m.find k = some v ∧ k ≠ key) := by
  induction m with
  | nil => simp [RefMap.erase, RefMap.find]
  | cons e rest ih =>
    obtain ⟨a, w⟩ := e
    unfold RefMap.erase at ih ⊢
    by_cases ha : a = key
    · subst ha
      rw [List.filter_cons_of_neg (by simp)]
      rw [ih]
      simp only [RefMap.find]
      by_cases hk : a = k
      · subst hk
        simp
      · simp [hk]
    · rw [List.filter_cons_of_pos (by simpa using ha)]
      simp only [RefMap.find]
      by_cases hk : a = k
      · subst hk
        simp [ha]
      · simp only [hk, if_false]
        exact ih

/-- `GetValue` on a represented tree returns what the tree holds for the key. -/
theorem getValue_inv (L I S b : Nat) (t : BPlusTree) (E : Int → RID → Prop) (key : Int)
    (fuel : Nat) (hinv : TreeInv L I S b t E) (hfuel : b ≤ fuel) :
    ∃ r, t.GetValue fuel key = Outcome.ok r ∧ ∀ v, r = some v ↔ E key v := by
  obtain ⟨_, _, _, _, _, hcase⟩ := hinv
  unfold BPlusTree.GetValue
  rcases hcase with ⟨hroot, hempty⟩ | ⟨hroot, h, ps, first, hh, hrep, _⟩
  · rw [if_pos hroot]
    exact ⟨none, rfl, fun v => ⟨fun hv => (by cases hv), fun hv => absurd hv (hempty key v)⟩⟩
  · rw [if_neg hroot]
    exact rep_getValue t L I key h 2 t.root_page_id_ none none E ps first INVALID_PAGE_ID hrep
      (aboveLo_none key) (belowHi_none key) fuel (by omega)

theorem ptrInv_new (L I S : Nat) : PtrInv (BPlusTree.new L I S) :=
  ⟨fun _ _ _ _ => ⟨fun h => (by cases h), fun h => (by cases h)⟩, fun _ _ => rfl,
    fun _ _ _ h => (by rcases h with h | h <;> cases h)⟩

theorem treeInv_new (L I S : Nat) : TreeInv L I S 0 (BPlusTree.new L I S) (fun _ _ => False) :=
  ⟨rfl, rfl, rfl, by show (1 : Int) ≤ 1; omega, ptrInv_new L I S,
    Or.inl ⟨rfl, fun _ _ h => h⟩⟩

/-- Every call of a sequence returns, and the tree stays represented and holds
what the reference map holds. -/
theorem runOps_inv (L I S : Nat) (hL : 2 ≤ L) (hI : 3 ≤ I) (hS : L + 2 ≤ S) (fuel : Nat) :
    ∀ (ops : List Op) (b : Nat) (t : BPlusTree) (E : Int → RID → Prop) (m : RefMap),
      TreeInv L I S b t E → (∀ k v, E k v ↔ m.find k = some v) → b + ops.length ≤ fuel →
      ∃ t1 E1, runOps fuel ops t = Outcome.ok t1 ∧ TreeInv L I S (b + ops.length) t1 E1 ∧
        ∀ k v, E1 k v ↔ (refRun ops m).find k = some v := by
  intro ops
  induction ops with
  | nil =>
    intro b t E m hinv hE _
    exact ⟨t, E, rfl, hinv, hE⟩
  | cons op rest ih =>
    intro b t E m hinv hE hfuel
    simp only [List.length_cons] at hfuel
    cases op with
    | insert key value =>
      obtain ⟨r, t1, h1, h2, _⟩ := insert_inv L I S b hL hI hS t E key value fuel hinv (by omega)
      obtain ⟨t2, E2, g1, g2, g3⟩ := ih (b + 1) t1 _ (m.insertIfAbsent key value) h2
        (by
          intro k v
          rw [refMap_find_insertIfAbsent, hE k v]
          constructor
          · rintro (h | ⟨h3, h4, h5⟩)
            · exact Or.inl h
            · exact Or.inr ⟨h3, h4, fun v0 hv0 => h5 v0 ((hE key v0).mpr hv0)⟩
          · rintro (h | ⟨h3, h4, h5⟩)
            · exact Or.inl h
            · exact Or.inr ⟨h3, h4, fun v0 hv0 => h5 v0 ((hE key v0).mp hv0)⟩)
        (by omega)
      refine ⟨t2, E2, ?_, ?_, g3⟩
      · show (t.Insert fuel key value).bind (fun r => runOps fuel rest r.2) = _
        rw [h1]
        exact g1
      · have : b + (rest.length + 1) = b + 1 + rest.length := by omega
        rw [List.length_cons, this]
        exact g2
    | remove key =>
      obtain ⟨t1, h1, h2⟩ := remove_inv L I S b hL hI hS t E key fuel hinv (by omega)
      obtain ⟨t2, E2, g1, g2, g3⟩ := ih b t1 _ (m.erase key) h2
        (by
          intro k v
          rw [refMap_find_erase, hE k v])
        (by omega)
      refine ⟨t2, E2, ?_, treeInv_mono (by simp) g2, g3⟩
      show (t.Remove fuel key).bind (fun t1 => runOps fuel rest t1) = _
      rw [h1]
      exact g1

/-- Without calls of `Remove`, the reference map holds every key that it held
and every key of a call of `Insert`. -/
theorem refRun_find_inserted (k : Int) :
    ∀ (ops : List Op) (m : RefMap), (∀ k1, Op.remove k1 ∉ ops) →
      ((∃ v, m.find k = some v) ∨ ∃ v, Op.insert k v ∈ ops) →
      ∃ v, (refRun ops m).find k = some v := by
  intro ops
  induction ops with
  | nil =>
    intro m _ h
    rcases h with h | ⟨v, hv⟩
    · exact h
    · simp at hv
  | cons op rest ih =>
    intro m hno h
    have hno2 : ∀ k1, Op.remove k1 ∉ rest := fun k1 hh => hno k1 (List.mem_cons_of_mem _ hh)
    cases op with
    | remove key => exact absurd (List.mem_cons_self _ _) (hno key)
    | insert key value =>
      apply ih (m.insertIfAbsent key value) hno2
      rcases h with ⟨v, hv⟩ | ⟨v, hv⟩
      · exact Or.inl ⟨v, (refMap_find_insertIfAbsent m key value k v).mpr (Or.inl hv)⟩
      · rcases List.mem_cons.mp hv with h1 | h1
        · simp only [Op.insert.injEq] at h1
          obtain ⟨h2, h3⟩ := h1
          subst h2
          cases hm : m.find k with
          | some v1 =>
            exact Or.inl ⟨v1, (refMap_find_insertIfAbsent m k value k v1).mpr (Or.inl hm)⟩
          | none =>
            refine Or.inl ⟨value, (refMap_find_insertIfAbsent m k value k value).mpr
              (Or.inr ⟨rfl, rfl, ?_⟩)⟩
            intro v0 hv0
            rw [hm] at hv0
            cases hv0
        · exact Or.inr ⟨v, h1⟩

/-- C9 (amended): with `leaf_max_size ≥ 2`, `internal_max_size ≥ 3` and
`leaf_max_size + 2 ≤ LEAF_PAGE_SLOT_CNT`, every sequence of `Insert` and
`Remove` calls on the empty tree returns, and `GetValue(k)` afterwards returns
for every key `k` what the reference map driven by the same calls
(insert-if-absent, erase) holds for `k`: the value `v` when the map holds
`k ↦ v`, nothing otherwise.  In particular, when no call was a `Remove`, every
key of a call of `Insert` is found. -/
theorem GetValue_agrees_with_reference (L I S : Nat) (ops : List Op) (fuel : Nat)
    (hL : 2 ≤ L) (hI : 3 ≤ I) (hS : L + 2 ≤ S) (hfuel : ops.length ≤ fuel) :
    ∃ t, runOps fuel ops (BPlusTree.new L I S) = Outcome.ok t ∧
      (∀ k, t.GetValue fuel k = Outcome.ok ((refRun ops []).find k)) ∧
      ((∀ k1, Op.remove k1 ∉ ops) → ∀ k v, Op.insert k v ∈ ops →
        ∃ v1, t.GetValue fuel k = Outcome.ok (some v1)) := by
  obtain ⟨t, E, h1, h2, h3⟩ := runOps_inv L I S hL hI hS fuel ops 0 (BPlusTree.new L I S)
    (fun _ _ => False) [] (treeInv_new L I S) (fun k v => by simp [RefMap.find]) (by omega)
  have hget : ∀ k, t.GetValue fuel k = Outcome.ok ((refRun ops []).find k) := by
    intro k
    obtain ⟨r, g1, g2⟩ := getValue_inv L I S (0 + ops.length) t E k fuel h2 (by omega)
    rw [g1]
    congr 1
    cases hr : r with
    | none =>
      cases hf : (refRun ops []).find k with
      | none => rfl
      | some v =>
        have := (g2 v).mpr ((h3 k v).mpr hf)
        rw [hr] at this
        cases this
    | some v =>
      have := (h3 k v).mp ((g2 v).mp hr)
      rw [this]
  refine ⟨t, h1, hget, ?_⟩
  intro hno k v hin
  obtain ⟨v1, hv1⟩ := refRun_find_inserted k ops [] hno (Or.inr ⟨v, hin⟩)
  exact ⟨v1, by rw [hget k, hv1]⟩

/-- C9 (amended), applied: with `leaf_max_size = 2`, `internal_max_size = 3`
and four slots in a leaf, the calls `Insert(1)`, `Insert(2)`, `Insert(3)`,
`Remove(2)`, `Insert(1)` return, and `GetValue` agrees with the reference
map on every key afterwards. -/
theorem GetValue_agrees_with_reference_witness :
    ∃ t, runOps 5 [Op.insert 1 ⟨1, 0⟩, Op.insert 2 ⟨2, 0⟩, Op.insert 3 ⟨3, 0⟩, Op.remove 2,
        Op.insert 1 ⟨7, 7⟩] (BPlusTree.new 2 3 4) = Outcome.ok t ∧
      (∀ k, t.GetValue 5 k = Outcome.ok ((refRun [Op.insert 1 ⟨1, 0⟩, Op.insert 2 ⟨2, 0⟩,
        Op.insert 3 ⟨3, 0⟩, Op.remove 2, Op.insert 1 ⟨7, 7⟩] []).find k)) ∧
      ((∀ k1, Op.remove k1 ∉ [Op.insert 1 ⟨1, 0⟩, Op.insert 2 ⟨2, 0⟩, Op.insert 3 ⟨3, 0⟩,
        Op.remove 2, Op.insert 1 ⟨7, 7⟩]) → ∀ k v, Op.insert k v ∈ [Op.insert 1 ⟨1, 0⟩,
        Op.insert 2 ⟨2, 0⟩, Op.insert 3 ⟨3, 0⟩, Op.remove 2, Op.insert 1 ⟨7, 7⟩] →
        ∃ v1, t.GetValue 5 k = Outcome.ok (some v1)) :=
  GetValue_agrees_with_reference 2 3 4 _ 5 (by decide) (by decide) (by decide) (by decide)

/-- C9, refuted as stated: with `leaf_max_size = 4`, `internal_max_size = 3`
and `LEAF_PAGE_SLOT_CNT = 4`, after `Insert(1)`, `Insert(2)`, `Insert(3)`,
`Insert(4)` on the empty tree `GetValue(4)` finds nothing, while the reference
map holds `4 ↦ (4, 0)`: the leaf refuses the fourth key. -/
theorem GetValue_misses_key_refused_by_leaf :
    (runOps 4 [Op.insert 1 ⟨1, 0⟩, Op.insert 2 ⟨2, 0⟩, Op.insert 3 ⟨3, 0⟩, Op.insert 4 ⟨4, 0⟩]
        (BPlusTree.new 4 3 4)).bind (fun t => t.GetValue 4 4) = Outcome.ok none ∧
      (refRun [Op.insert 1 ⟨1, 0⟩, Op.insert 2 ⟨2, 0⟩, Op.insert 3 ⟨3, 0⟩, Op.insert 4 ⟨4, 0⟩]
        []).find 4 = some ⟨4, 0⟩ := by
  constructor
  · decide
  · decide

/-! ## Index iterator: `operator++`, `Begin()` and `Begin(key)` -/

theorem incr_of_leaf (t : BPlusTree) (it : IndexIterator) (leaf_id : Int) (lp : LeafPage)
    (hg : it.page_guard_ = some leaf_id) (hp : t.pages leaf_id = some (Page.leaf lp)) :
    it.incr t = Outcome.ok
      (if it.index_ + 1 ≥ lp.GetSize then
        if lp.next_page_id_ = INVALID_PAGE_ID then IndexIterator.End
        else { current_page_id_ := lp.next_page_id_, index_ := 0,
               page_guard_ := some lp.next_page_id_ }
      else { it with index_ := it.index_ + 1 }) := by
  unfold IndexIterator.incr
  rw [hg]
  simp only [leafAt_eq hp, Outcome.ok_bind]
  by_cases h1 : it.index_ + 1 ≥ lp.GetSize
  · by_cases h2 : lp.next_page_id_ = INVALID_PAGE_ID
    · simp only [h1, h2, if_true, Outcome.pure_eq_ok]
      rfl
    · simp only [h1, h2, if_true, if_false, Outcome.pure_eq_ok]
  · simp only [h1, if_false, Outcome.pure_eq_ok]

/-- C19.  For an iterator that holds a guard on the leaf `leaf_id` and stands at
index `i`: `operator++` yields the same leaf with index `i + 1` when
`i + 1 < size`; otherwise the iterator `(next_page_id, 0)` with a guard on that
page when the next page id of the leaf is valid; otherwise an iterator that
`operator==` finds equal to `End()`, that is `End()` itself, and for which
`IsEnd()` is true. -/
theorem incr_cases (t : BPlusTree) (it : IndexIterator) (leaf_id : Int) (lp : LeafPage)
    (hg : it.page_guard_ = some leaf_id) (hp : t.pages leaf_id = some (Page.leaf lp)) :
    (it.index_ + 1 < lp.GetSize →
      it.incr t = Outcome.ok { current_page_id_ := it.current_page_id_,
                               index_ := it.index_ + 1, page_guard_ := some leaf_id }) ∧
    (¬ it.index_ + 1 < lp.GetSize → lp.next_page_id_ ≠ INVALID_PAGE_ID →
      it.incr t = Outcome.ok { current_page_id_ := lp.next_page_id_, index_ := 0,
                               page_guard_ := some lp.next_page_id_ }) ∧
    (¬ it.index_ + 1 < lp.GetSize → lp.next_page_id_ = INVALID_PAGE_ID →
      ∃ it1, it.incr t = Outcome.ok it1 ∧ it1 = t.End ∧ it1.eq t.End = true ∧
        it1.IsEnd = true) := by
  have h := incr_of_leaf t it leaf_id lp hg hp
  refine ⟨?_, ?_, ?_⟩
  · intro h1
    rw [h, if_neg (by omega), ← hg]
  · intro h1 h2
    rw [h, if_pos (by omega), if_neg h2]
  · intro h1 h2
    refine ⟨IndexIterator.End, ?_, rfl, rfl, rfl⟩
    rw [h, if_pos (by omega), if_pos h2]

/-- C19, applied: the leaf page 1 holds the keys 3 and 5 and points to the leaf
page 2, which holds the key 7 and has no next page; from `(1, 0)` the iterator
goes to `(1, 1)`. -/
theorem incr_cases_witness :
    IndexIterator.incr
        { pages := fun q =>
            if q = 1 then
              some (Page.leaf { page_id_ := 1, max_size_ := 4,
                                slots := [(3, ⟨3, 0⟩), (5, ⟨5, 0⟩)],
                                next_page_id_ := 2, prev_page_id_ := INVALID_PAGE_ID })
            else if q = 2 then
              some (Page.leaf { page_id_ := 2, max_size_ := 4,
                                slots := [(7, ⟨7, 0⟩)],
                                next_page_id_ := INVALID_PAGE_ID, prev_page_id_ := 1 })
            else none,
          next_page_id_ := 3, root_page_id_ := 1, leaf_max_size_ := 4,
          internal_max_size_ := 5, LEAF_PAGE_SLOT_CNT := 255 }
        { current_page_id_ := 1, index_ := 0, page_guard_ := some 1 }
      = Outcome.ok { current_page_id_ := 1, index_ := 1, page_guard_ := some 1 } :=
  (incr_cases _ { current_page_id_ := 1, index_ := 0, page_guard_ := some 1 } 1
    { page_id_ := 1, max_size_ := 4, slots := [(3, ⟨3, 0⟩), (5, ⟨5, 0⟩)],
      next_page_id_ := 2, prev_page_id_ := INVALID_PAGE_ID } rfl rfl).1 (by decide)

/-- C13, the failing input: after `Insert(1)` on the empty tree
(`leaf_max_size = 4`, `internal_max_size = 5`) the root is the leaf page 1, which
holds the key 1, but `Begin()` returns the iterator at the page id stored in
that leaf, which `Insert` has not set: page 0.  The traversal to `End()` does
not yield the key. -/
theorem Begin_after_first_Insert_reads_unset_page_id :
    (runOps 1 [Op.insert 1 ⟨1, 0⟩] (BPlusTree.new 4 5 255)).bind
        (fun t => Outcome.ok t.root_page_id_) = Outcome.ok 1 ∧
      (runOps 1 [Op.insert 1 ⟨1, 0⟩] (BPlusTree.new 4 5 255)).bind
        (fun t => t.GetValue 1 1) = Outcome.ok (some ⟨1, 0⟩) ∧
      (runOps 1 [Op.insert 1 ⟨1, 0⟩] (BPlusTree.new 4 5 255)).bind
        (fun t => t.Begin 1) = Outcome.ok { current_page_id_ := 0, index_ := 0,
                                            page_guard_ := some 0 } ∧
      (runOps 1 [Op.insert 1 ⟨1, 0⟩] (BPlusTree.new 4 5 255)).bind
        (fun t => (t.Begin 1).bind (fun it => traverse t 2 it))
          = Outcome.undefinedBehaviour := by
  refine ⟨?_, ?_, ?_, ?_⟩ <;> decide

/-- C20, the failing input: the tree after `Insert` of 1, 2, 3, 5, 6
(`leaf_max_size = 4`, `internal_max_size = 5`) has the leaves `[1, 2, 3]` (page
1) and `[5, 6]` (page 2).  `Begin(4)` returns the iterator `(1, 3)`: it is not
`End()`, its index is the size of its leaf, and dereferencing it fails the
bounds check of `KeyAt`.  `Begin(5)` returns the iterator `(2, 0)`, the slot
of the key 5 in the second leaf. -/
theorem BeginKey_past_last_key_of_leaf :
    (runOps 2 [Op.insert 1 ⟨1, 0⟩, Op.insert 2 ⟨2, 0⟩, Op.insert 3 ⟨3, 0⟩, Op.insert 5 ⟨5, 0⟩,
        Op.insert 6 ⟨6, 0⟩] (BPlusTree.new 4 5 255)).bind (fun t => t.BeginKey 2 4)
      = Outcome.ok { current_page_id_ := 1, index_ := 3, page_guard_ := some 1 } ∧
    (runOps 2 [Op.insert 1 ⟨1, 0⟩, Op.insert 2 ⟨2, 0⟩, Op.insert 3 ⟨3, 0⟩, Op.insert 5 ⟨5, 0⟩,
        Op.insert 6 ⟨6, 0⟩] (BPlusTree.new 4 5 255)).bind
        (fun t => (t.BeginKey 2 4).bind (fun it => Outcome.ok (it.eq t.End)))
      = Outcome.ok false ∧
    (runOps 2 [Op.insert 1 ⟨1, 0⟩, Op.insert 2 ⟨2, 0⟩, Op.insert 3 ⟨3, 0⟩, Op.insert 5 ⟨5, 0⟩,
        Op.insert 6 ⟨6, 0⟩] (BPlusTree.new 4 5 255)).bind
        (fun t => (t.pages 1).elim Outcome.undefinedBehaviour (fun p => Outcome.ok p.GetSize))
      = Outcome.ok 3 ∧
    (runOps 2 [Op.insert 1 ⟨1, 0⟩, Op.insert 2 ⟨2, 0⟩, Op.insert 3 ⟨3, 0⟩, Op.insert 5 ⟨5, 0⟩,
        Op.insert 6 ⟨6, 0⟩] (BPlusTree.new 4 5 255)).bind
        (fun t => (t.BeginKey 2 4).bind (fun it => it.deref t))
      = Outcome.ensureFailed ∧
    (runOps 2 [Op.insert 1 ⟨1, 0⟩, Op.insert 2 ⟨2, 0⟩, Op.insert 3 ⟨3, 0⟩, Op.insert 5 ⟨5, 0⟩,
        Op.insert 6 ⟨6, 0⟩] (BPlusTree.new 4 5 255)).bind
        (fun t => (t.BeginKey 2 5).bind (fun it => Outcome.ok (it, t.pages 2)))
      = Outcome.ok ({ current_page_id_ := 2, index_ := 0, page_guard_ := some 2 },
          some (Page.leaf { page_id_ := 2, max_size_ := 4,
                            slots := [(5, ⟨5, 0⟩), (6, ⟨6, 0⟩)],
                            next_page_id_ := INVALID_PAGE_ID, prev_page_id_ := 1 })) := by
  refine ⟨?_, ?_, ?_, ?_, ?_⟩ <;> decide

/-! ## B+Tree: removing a key that is absent -/

theorem leafKeyIndexLoop_bounds (keys : List Int) (key : Int) :
    ∀ (fuel : Nat) (left right : Int), left ≤ right + 1 →
      left ≤ leafKeyIndexLoop keys key fuel left right ∧
      leafKeyIndexLoop keys key fuel left right ≤ right + 1 := by
  intro fuel
  induction fuel with
  | zero =>
    intro left right h
    simp only [leafKeyIndexLoop]
    omega
  | succ n ih =>
    intro left right h
    unfold leafKeyIndexLoop
    by_cases hlr : left ≤ right
    · simp only [hlr, if_true]
      by_cases h0 : comparator (keys.getD ((left + right) / 2).toNat 0) key = 0
      · simp only [h0, if_true]
        omega
      · simp only [h0, if_false]
        by_cases h1 : comparator (keys.getD ((left + right) / 2).toNat 0) key < 0
        · simp only [h1, if_true]
          have := ih ((left + right) / 2 + 1) right (by omega)
          omega
        · simp only [h1, if_false]
          have := ih left ((left + right) / 2 - 1) (by omega)
          omega
    · simp only [hlr, if_false]
      omega

theorem leaf_KeyIndex_le_size (lp : LeafPage) (key : Int) :
    0 ≤ lp.KeyIndex key ∧ lp.KeyIndex key ≤ lp.GetSize := by
  unfold LeafPage.KeyIndex
  have := leafKeyIndexLoop_bounds (lp.slots.map Prod.fst) key (lp.slots.length + 1) 0
    (lp.GetSize - 1) (by unfold LeafPage.GetSize; omega)
  omega

/-- What `GetValue` has seen in the leaf when it returns false. -/
theorem getValue_leaf_absent {lp : LeafPage} {key : Int}
    (hg : (if lp.KeyIndex key < lp.GetSize then do
            let k ← lp.KeyAt (lp.KeyIndex key)
            if comparator k key = 0 then do
              let v ← lp.ValueAt (lp.KeyIndex key)
              pure (some v)
            else pure none
          else pure none : Outcome (Option RID)) = Outcome.ok none) :
    lp.KeyIndex key = lp.GetSize ∨
      ∃ k, lp.KeyIndex key ≠ lp.GetSize ∧ lp.KeyAt (lp.KeyIndex key) = Outcome.ok k ∧
        comparator k key ≠ 0 := by
  by_cases hidx : lp.KeyIndex key < lp.GetSize
  · rw [if_pos hidx] at hg
    cases hk : lp.KeyAt (lp.KeyIndex key) with
    | ok k =>
      rw [hk] at hg
      simp only [Outcome.ok_bind] at hg
      by_cases hc : comparator k key = 0
      · rw [if_pos hc] at hg
        cases hv : lp.ValueAt (lp.KeyIndex key) with
        | ok v => rw [hv] at hg; simp at hg
        | ensureFailed => rw [hv] at hg; simp at hg
        | undefinedBehaviour => rw [hv] at hg; simp at hg
        | outOfFuel => rw [hv] at hg; simp at hg
      · exact Or.inr ⟨k, by omega, rfl, hc⟩
    | ensureFailed => rw [hk] at hg; simp at hg
    | undefinedBehaviour => rw [hk] at hg; simp at hg
    | outOfFuel => rw [hk] at hg; simp at hg
  · have := (leaf_KeyIndex_le_size lp key).2
    exact Or.inl (by omega)

/-- The leaf branch of `Remove` on a key that the leaf does not hold. -/
theorem removeFromLeaf_absent (ctx_root : Int) (ws : List Int) (t : BPlusTree) (pid : Int)
    (leaf0 : LeafPage) (key : Int)
    (h : leaf0.KeyIndex key = leaf0.GetSize ∨
      ∃ k, leaf0.KeyIndex key ≠ leaf0.GetSize ∧
        leaf0.KeyAt (leaf0.KeyIndex key) = Outcome.ok k ∧ comparator k key ≠ 0) :
    removeFromLeaf ctx_root ws t pid leaf0 key
      = Outcome.ok (t.setPage pid (Page.withPageId pid (Page.leaf leaf0))) := by
  have hs : ({ leaf0 with page_id_ := pid } : LeafPage).slots = leaf0.slots := rfl
  have hsz : ({ leaf0 with page_id_ := pid } : LeafPage).GetSize = leaf0.GetSize := rfl
  unfold removeFromLeaf
  rcases h with h | ⟨k, h1, h2, h3⟩
  · simp only [leaf_KeyIndex_congr hs, hsz, h, if_true, Outcome.pure_eq_ok, Outcome.ok_bind]
    rfl
  · simp only [leaf_KeyIndex_congr hs, leaf_KeyAt_congr hs, hsz, h1, if_false, h2,
      Outcome.ok_bind, h3, ne_eq, not_false_eq_true, decide_True, Outcome.pure_eq_ok, if_true]
    rfl

/-- The descent of `Remove` follows the descent of `GetValue`; when the latter
does not find the key, the former returns and has only rewritten the page ids
stored in the pages on its way. -/
theorem removeLoop_of_absent {t : BPlusTree} (ctx_root key : Int) :
    ∀ (fuel : Nat) (ws : List Int) (pid : Int) (t1 : BPlusTree), SamePages t t1 →
      getValueLoop t key fuel pid = Outcome.ok none →
      ∃ t2, removeLoop ctx_root key fuel ws pid t1 = Outcome.ok t2 ∧
        SamePages t t2 ∧ t2.root_page_id_ = t1.root_page_id_ ∧
        t2.next_page_id_ = t1.next_page_id_ ∧ t2.leaf_max_size_ = t1.leaf_max_size_ ∧
        t2.internal_max_size_ = t1.internal_max_size_ ∧
        t2.LEAF_PAGE_SLOT_CNT = t1.LEAF_PAGE_SLOT_CNT := by
  intro fuel
  induction fuel with
  | zero =>
    intro ws pid t1 _ hg
    simp [getValueLoop] at hg
  | succ n ih =>
    intro ws pid t1 hsame hg
    unfold getValueLoop at hg
    unfold removeLoop
    cases hp : t.pages pid with
    | none => rw [hp] at hg; simp at hg
    | some p =>
      rw [hp] at hg
      cases p with
      | leaf lp =>
        obtain ⟨lp1, h1, hs, _⟩ := samePages_leaf hsame hp
        rw [h1]
        simp only at hg ⊢
        have habs := getValue_leaf_absent hg
        have hsz : lp1.GetSize = lp.GetSize := by
          unfold LeafPage.GetSize
          rw [hs]
        rw [← leaf_KeyIndex_congr hs, ← leaf_KeyAt_congr hs, ← hsz] at habs
        rw [removeFromLeaf_absent ctx_root ws t1 pid lp1 key habs]
        exact ⟨_, rfl, samePages_setPageId hsame h1 pid, rfl, rfl, rfl, rfl, rfl⟩
      | internal ip =>
        obtain ⟨ip1, h1, hs⟩ := samePages_internal hsame hp
        rw [h1]
        simp only at hg ⊢
        have hs1 : ({ ip1 with page_id_ := pid } : InternalPage).slots = ip.slots := hs
        simp only [internal_KeyIndex_congr hs1, internal_ValueAt_congr hs1]
        cases hv : ip.ValueAt (ip.KeyIndex key) with
        | ok c =>
          rw [hv] at hg
          simp only [Outcome.ok_bind] at hg ⊢
          have hsame1 : SamePages t (t1.setPage pid (Page.internal { ip1 with page_id_ := pid })) :=
            samePages_setPageId hsame h1 pid
          obtain ⟨t2, h2, h3, h4, h5, h6, h7, h8⟩ := ih (pid :: ws) c _ hsame1 hg
          exact ⟨t2, h2, h3, h4, h5, h6, h7, h8⟩
        | ensureFailed => rw [hv] at hg; simp at hg
        | undefinedBehaviour => rw [hv] at hg; simp at hg
        | outOfFuel => rw [hv] at hg; simp at hg

/-- C12.  On the empty tree `GetValue` returns false and `Remove` returns the
tree as it is.  For every tree and every key that `GetValue` does not find in
it, `Remove` of that key returns and leaves the tree as it was: the root page
id and the allocation counter are the same, a page exists afterwards exactly
when it existed before, and every page has the keys, values, size, maximal
size and sibling pointers that it had (only the page id stored in the pages on
the search path is rewritten by `SetPageId`); `GetValue` still does not find
the key.  `GetValue` itself only reads. -/
theorem Remove_absent_unchanged (t : BPlusTree) (fuel : Nat) (key : Int) :
    (t.root_page_id_ = INVALID_PAGE_ID →
      t.GetValue fuel key = Outcome.ok none ∧ t.Remove fuel key = Outcome.ok t) ∧
    (t.GetValue fuel key = Outcome.ok none →
      ∃ t1, t.Remove fuel key = Outcome.ok t1 ∧
        t1.root_page_id_ = t.root_page_id_ ∧ t1.next_page_id_ = t.next_page_id_ ∧
        (∀ pid, (t1.pages pid).map (Page.withPageId 0) = (t.pages pid).map (Page.withPageId 0)) ∧
        (∀ pid, (t1.pages pid).isSome = (t.pages pid).isSome) ∧
        t1.leaf_max_size_ = t.leaf_max_size_ ∧ t1.internal_max_size_ = t.internal_max_size_ ∧
        t1.LEAF_PAGE_SLOT_CNT = t.LEAF_PAGE_SLOT_CNT ∧
        t1.GetValue fuel key = Outcome.ok none) := by
  constructor
  · intro hroot
    unfold BPlusTree.GetValue BPlusTree.Remove
    simp [hroot]
  · intro habsent
    by_cases hroot : t.root_page_id_ = INVALID_PAGE_ID
    · refine ⟨t, ?_, rfl, rfl, fun _ => rfl, fun _ => rfl, rfl, rfl, rfl, habsent⟩
      unfold BPlusTree.Remove
      rw [if_pos hroot]
    · unfold BPlusTree.GetValue at habsent
      rw [if_neg hroot] at habsent
      obtain ⟨t2, h2, h3, h4, h5, h6, h7, h8⟩ :=
        removeLoop_of_absent t.root_page_id_ key fuel [] t.root_page_id_ t
          (samePages_refl t) habsent
      refine ⟨t2, ?_, h4, h5, h3, ?_, h6, h7, h8, ?_⟩
      · unfold BPlusTree.Remove
        rw [if_neg hroot]
        exact h2
      · intro pid
        have := congrArg Option.isSome (h3 pid)
        simpa using this
      · unfold BPlusTree.GetValue
        rw [h4, if_neg hroot, getValueLoop_samePages h3]
        exact habsent

/-- C12, applied: the tree whose root is the leaf page 1 with the keys 3 and 5;
removing the key 4, which it does not hold, changes nothing. -/
theorem Remove_absent_unchanged_witness :
    ∃ t1,
      BPlusTree.Remove
        { pages := fun q =>
            if q = 1 then
              some (Page.leaf { page_id_ := 1, max_size_ := 4,
                                slots := [(3, ⟨3, 0⟩), (5, ⟨5, 0⟩)],
                                next_page_id_ := INVALID_PAGE_ID,
                                prev_page_id_ := INVALID_PAGE_ID })
            else none,
          next_page_id_ := 2, root_page_id_ := 1, leaf_max_size_ := 4,
          internal_max_size_ := 5, LEAF_PAGE_SLOT_CNT := 255 } 3 4
        = Outcome.ok t1 ∧
      t1.root_page_id_ = 1 ∧ t1.next_page_id_ = 2 ∧
      (∀ pid, (t1.pages pid).map (Page.withPageId 0)
        = ((if pid = 1 then
              some (Page.leaf { page_id_ := 1, max_size_ := 4,
                                slots := [(3, ⟨3, 0⟩), (5, ⟨5, 0⟩)],
                                next_page_id_ := INVALID_PAGE_ID,
                                prev_page_id_ := INVALID_PAGE_ID })
            else none : Option Page)).map (Page.withPageId 0)) ∧
      (∀ pid, (t1.pages pid).isSome
        = ((if pid = 1 then
              some (Page.leaf { page_id_ := 1, max_size_ := 4,
                                slots := [(3, ⟨3, 0⟩), (5, ⟨5, 0⟩)],
                                next_page_id_ := INVALID_PAGE_ID,
                                prev_page_id_ := INVALID_PAGE_ID })
            else none : Option Page)).isSome) ∧
      t1.leaf_max_size_ = 4 ∧ t1.internal_max_size_ = 5 ∧ t1.LEAF_PAGE_SLOT_CNT = 255 ∧
      t1.GetValue 3 4 = Outcome.ok none :=
  (Remove_absent_unchanged
    { pages := fun q =>
        if q = 1 then
          some (Page.leaf { page_id_ := 1, max_size_ := 4,
                            slots := [(3, ⟨3, 0⟩), (5, ⟨5, 0⟩)],
                            next_page_id_ := INVALID_PAGE_ID,
                            prev_page_id_ := INVALID_PAGE_ID })
        else none,
      next_page_id_ := 2, root_page_id_ := 1, leaf_max_size_ := 4,
      internal_max_size_ := 5, LEAF_PAGE_SLOT_CNT := 255 } 3 4).2 (by decide)

/-! ## B+Tree: the size of an internal page after a merge -/

/-- C14, the failing input: with `leaf_max_size = 3` and `internal_max_size = 3`,
after `Insert` of 1 to 10 the internal pages 3 and 6 hold 2 and 3 slots.
`Remove(1)` merges the first two leaves, then the internal page 6 into the
internal page 3, which becomes the root and holds 4 slots, one more than its
maximal size 3. -/
theorem internal_merge_exceeds_max_size :
    (runOps 3 [Op.insert 1 ⟨1, 0⟩, Op.insert 2 ⟨2, 0⟩, Op.insert 3 ⟨3, 0⟩, Op.insert 4 ⟨4, 0⟩,
        Op.insert 5 ⟨5, 0⟩, Op.insert 6 ⟨6, 0⟩, Op.insert 7 ⟨7, 0⟩, Op.insert 8 ⟨8, 0⟩,
        Op.insert 9 ⟨9, 0⟩, Op.insert 10 ⟨10, 0⟩] (BPlusTree.new 3 3 255)).bind
        (fun t => Outcome.ok (t.root_page_id_, t.pages 3, t.pages 6, t.pages 7))
      = Outcome.ok (7,
          some (Page.internal { page_id_ := 3, max_size_ := 3, slots := [(0, 1), (3, 2)] }),
          some (Page.internal { page_id_ := 6, max_size_ := 3,
                                slots := [(0, 4), (7, 5), (9, 8)] }),
          some (Page.internal { page_id_ := 7, max_size_ := 3, slots := [(0, 3), (5, 6)] })) ∧
    (runOps 3 [Op.insert 1 ⟨1, 0⟩, Op.insert 2 ⟨2, 0⟩, Op.insert 3 ⟨3, 0⟩, Op.insert 4 ⟨4, 0⟩,
        Op.insert 5 ⟨5, 0⟩, Op.insert 6 ⟨6, 0⟩, Op.insert 7 ⟨7, 0⟩, Op.insert 8 ⟨8, 0⟩,
        Op.insert 9 ⟨9, 0⟩, Op.insert 10 ⟨10, 0⟩, Op.remove 1] (BPlusTree.new 3 3 255)).bind
        (fun t => Outcome.ok (t.root_page_id_, t.pages 3, t.pages 6, t.pages 7))
      = Outcome.ok (3,
          some (Page.internal { page_id_ := 3, max_size_ := 3,
                                slots := [(0, 1), (5, 4), (7, 5), (9, 8)] }),
          none, none) := by
  constructor <;> decide

/-! ## B+Tree: every sequence of calls keeps the tree represented -/

/-- A represented tree whose root is as it has to be holds an entry. -/
theorem rep_nonempty {L I : Nat} {pages : Int → Option Page} :
    ∀ {h : Nat} {pid : Int} {lo hi : Option Int} {E : Int → RID → Prop} {ps : List Int}
      {first nxt : Int}, Rep L I pages h 2 pid lo hi E ps first nxt → ∃ k v, E k v := by
  intro h
  induction h with
  | zero =>
    intro pid lo hi E ps first nxt hrep
    obtain ⟨lp, _, _, _, _, _, h6, _, _, _, _, h11⟩ := rep_leaf_iff.mp hrep
    cases hsl : lp.slots with
    | nil => rw [hsl] at h11; simp at h11
    | cons s rest =>
      exact ⟨s.1, s.2, (h6 s.1 s.2).mpr (by rw [hsl]; exact List.mem_cons_self _ _)⟩
  | succ n ih =>
    intro pid lo hi E ps first nxt hrep
    obtain ⟨ip, kids, _, _, g3, _, g5, g6, _⟩ := rep_internal_iff.mp hrep
    cases kids with
    | nil => simp at g3
    | cons kid rest =>
      obtain ⟨k, v, hkv⟩ := ih g5.1
      exact ⟨k, v, (g6 k v).mpr ⟨kid, List.mem_cons_self _ _, hkv⟩⟩

/-- The leaf branch of `Insert` on a root leaf when the leaf takes fewer
entries than its maximal size allows: the leaf is never split; the key is
there already, or is refused, or is put into the leaf. -/
theorem insertIntoLeaf_small (ctx_root key : Int) (value : RID) (L I S : Nat)
    (hS : S ≤ L + 1) (ws : List Int) (t : BPlusTree) (pid : Int)
    (lo hi : Option Int) (E : Int → RID → Prop) (ps : List Int) (first nxt : Int)
    (lp0 : LeafPage) (hpage : t.pages pid = some (Page.leaf lp0))
    (hcS : t.LEAF_PAGE_SLOT_CNT = S)
    (hrep : Rep L I t.pages 0 2 pid lo hi E ps first nxt)
    (hlok : aboveLo lo key) (hhik : belowHi hi key) :
    ∃ r t1 E1, insertIntoLeaf ctx_root ws t pid lp0 key value = Outcome.ok (r, t1) ∧
      Keep t t1 ∧ t1.next_page_id_ = t.next_page_id_ ∧
      Rep L I t1.pages 0 2 pid lo hi E1 ps first nxt ∧
      (∀ k v, E1 k v → E k v ∨ k = key) ∧ PtrStep t t1 := by
  obtain ⟨lp, h1, h2, h3, h4, h5, h6, h7, h8, h9, h10, h11⟩ := hrep
  rw [hpage] at h1
  simp only [Option.some.injEq, Page.leaf.injEq] at h1
  subst h1
  subst h7
  unfold insertIntoLeaf
  generalize hleaf : ({ lp0 with page_id_ := pid } : LeafPage) = leaf
  have hsl : leaf.slots = lp0.slots := by rw [← hleaf]
  have hmax : leaf.max_size_ = L := by rw [← hleaf]; exact h2
  have hnx : leaf.next_page_id_ = nxt := by rw [← hleaf]; exact h9
  have hpl : leaf.page_id_ = pid := by rw [← hleaf]
  have hpv : leaf.prev_page_id_ = lp0.prev_page_id_ := by rw [← hleaf]
  have hnx0 : leaf.next_page_id_ = lp0.next_page_id_ := by rw [← hleaf]
  have hstep1 : PtrStep t (t.setPage pid (Page.leaf leaf)) :=
    ptrStep_setLeaf t pid lp0 leaf hpage hnx0 hpv (Or.inr hpl)
  have hstep2 : ∀ l2 : LeafPage, l2.next_page_id_ = leaf.next_page_id_ →
      l2.prev_page_id_ = leaf.prev_page_id_ → l2.page_id_ = leaf.page_id_ →
      PtrStep t ((t.setPage pid (Page.leaf leaf)).setPage pid (Page.leaf l2)) :=
    fun l2 e1 e2 e3 =>
      ptrStep_setLeaf2 t pid lp0 leaf l2 hpage hnx0 hpv (Or.inr hpl) e1 e2 (Or.inl e3)
  clear hleaf
  rw [← hsl] at h3 h4 h5 h6 h11
  rcases leaf_find leaf key h4 with
    ⟨A, v0, B, hsplit, hidx, hA, hB⟩ | ⟨A, B, hsplit, hidx, hA, hB, hc⟩
  · -- the key is on the page
    obtain ⟨e1, _, e3⟩ := leaf_KeyAt_append _ hsplit
    refine ⟨false, t.setPage pid (Page.leaf leaf), E, ?_, keep_setPage _ _ _, rfl, ?_,
      fun k v hkv => Or.inl hkv, hstep1⟩
    · simp only [hidx, e3, if_true, e1, Outcome.ok_bind, comparator_self, decide_True,
        Outcome.pure_eq_ok]
    · exact ⟨leaf, by simp, hmax, h3, h4, h5, h6, rfl, h8, hnx, h10, h11⟩
  · -- the key is not on the page
    have hsize : leaf.GetSize = ((A.length + B.length : Nat) : Int) := by
      unfold LeafPage.GetSize
      rw [hsplit, List.length_append]
    have hstep : ∀ (jp : Bool → Outcome (Bool × BPlusTree)),
        (if leaf.KeyIndex key < leaf.GetSize then do
          let k ← leaf.KeyAt (leaf.KeyIndex key)
          let y ← pure (decide (comparator k key = 0))
          jp y
        else do
          let y ← pure false
          jp y) = jp false := by
      intro jp
      rcases hc with ⟨hc, _⟩ | ⟨k1, hlt, hk, hne⟩
      · rw [if_neg (by omega)]; rfl
      · rw [if_pos hlt, hk]
        simp only [Outcome.ok_bind, hne, decide_False, Outcome.pure_eq_ok]
    by_cases hfull : leaf.GetSize + 1 ≥ (t.LEAF_PAGE_SLOT_CNT : Int)
    · -- the leaf refuses the key
      have hins : leaf.Insert t.LEAF_PAGE_SLOT_CNT key value = (false, leaf) := by
        unfold LeafPage.Insert
        rw [if_pos hfull]
      simp only [hstep, hins, Bool.false_eq_true, if_false, if_true]
      refine ⟨false, _, E, rfl, keep_trans (keep_setPage _ _ _) (keep_setPage _ _ _), rfl, ?_,
        fun k v hkv => Or.inl hkv, hstep2 leaf rfl rfl rfl⟩
      exact ⟨leaf, by simp, hmax, h3, h4, h5, h6, rfl, h8, hnx, h10, h11⟩
    · -- the leaf takes the key and is not split
      have hins : leaf.Insert t.LEAF_PAGE_SLOT_CNT key value
          = (true, { leaf with slots := A ++ (key, value) :: B }) := by
        unfold LeafPage.Insert
        rw [if_neg hfull, hidx, Int.toNat_ofNat, hsplit, insertSlot_append]
      have hsize1 : ({ leaf with slots := A ++ (key, value) :: B } : LeafPage).GetSize
          = ((A.length + B.length + 1 : Nat) : Int) := by
        unfold LeafPage.GetSize
        simp only [List.length_append, List.length_cons]
        push_cast
        omega
      have hfit : A.length + B.length + 1 ≤ L := by
        rw [hsize, hcS] at hfull
        omega
      have hle : ((A.length + B.length + 1 : Nat) : Int) ≤ ((leaf.max_size_ : Nat) : Int) := by
        rw [hmax]
        omega
      simp only [hstep, hins, Bool.false_eq_true, if_false, Bool.true_eq_false, hsize1]
      rw [if_pos hle]
      refine ⟨true, _, fun k v => (k, v) ∈ A ++ (key, value) :: B, rfl,
        keep_trans (keep_setPage _ _ _) (keep_setPage _ _ _), rfl, ?_, ?_,
        hstep2 _ rfl rfl rfl⟩
      · refine ⟨{ leaf with slots := A ++ (key, value) :: B }, by simp, hmax, ?_, ?_, ?_,
          fun k v => Iff.rfl, rfl, h8, hnx, h10, ?_⟩
        · simp only [List.length_append, List.length_cons]
          omega
        · apply sortedKeys_insert value _ hA hB
          rw [← hsplit]; exact h4
        · intro s hs1
          rcases List.mem_append.mp hs1 with h | h
          · exact h5 s (by rw [hsplit]; exact List.mem_append_left _ h)
          · rcases List.mem_cons.mp h with h | h
            · rw [h]; exact ⟨hlok, hhik⟩
            · exact h5 s (by rw [hsplit]; exact List.mem_append_right _ h)
        · simp only [List.length_append, List.length_cons]
          omega
      · intro k v hkv
        simp only [List.mem_append, List.mem_cons, Prod.mk.injEq] at hkv
        rw [h6, hsplit]
        simp only [List.mem_append]
        rcases hkv with h | h | h
        · exact Or.inl (Or.inl h)
        · exact Or.inr h.1
        · exact Or.inl (Or.inr h)

/-- `Insert` on a tree that is empty or a single leaf, when the leaf takes fewer
entries than its maximal size allows. -/
theorem insert_small (L I S : Nat) (hS2 : 2 ≤ S) (hS : S ≤ L + 1) (t : BPlusTree)
    (E : Int → RID → Prop) (key : Int) (value : RID) (fuel : Nat)
    (hinv : TreeInv L I S 1 t E) (hfuel : 1 ≤ fuel) :
    ∃ r t1 E1, t.Insert fuel key value = Outcome.ok (r, t1) ∧ TreeInv L I S 1 t1 E1 ∧
      (∀ k v, E1 k v → E k v ∨ k = key) := by
  obtain ⟨hcL, hcI, hcS, hnx, hpi, hcase⟩ := hinv
  rcases hcase with ⟨hroot, hempty⟩ | ⟨hroot, h, ps, first, hh, hrep, hfresh, hnp⟩
  · obtain ⟨t1, h1, h2⟩ := insert_empty L I S 0 (by omega) hS2 t key value fuel hcL hcI hcS hnx
      hpi hroot
    exact ⟨true, t1, _, h1, h2, fun k v hkv => Or.inr hkv.1⟩
  · obtain rfl : h = 0 := by omega
    obtain ⟨f, rfl⟩ : ∃ f, fuel = f + 1 := ⟨fuel - 1, by omega⟩
    obtain ⟨lp, hpage, _⟩ := rep_leaf_iff.mp hrep
    obtain ⟨r, t1, E1, g1, g2, g3, g4, g5, g6⟩ := insertIntoLeaf_small t.root_page_id_ key value L I
      S hS [] t t.root_page_id_ none none E ps first INVALID_PAGE_ID lp hpage hcS hrep
      (aboveLo_none key) (belowHi_none key)
    refine ⟨r, t1, E1, ?_, ⟨g2.1.trans hcL, g2.2.1.trans hcI, g2.2.2.1.trans hcS,
      by rw [g3]; exact hnx, g6.1 hpi, Or.inr ⟨by rw [g2.2.2.2]; exact hroot, 0, ps, first, hh,
      by rw [g2.2.2.2]; exact g4,
      ⟨by rw [g3]; exact hfresh.1, fun p hp => by rw [g3]; exact hfresh.2 p hp⟩,
      g6.2 first hpi hnp⟩⟩, g5⟩
    unfold BPlusTree.Insert
    rw [if_neg hroot]
    unfold insertLoop
    rw [hpage]
    exact g1

/-- `Remove` on a tree that is empty or a single leaf. -/
theorem remove_small (L I S : Nat) (t : BPlusTree) (E : Int → RID → Prop) (key : Int)
    (fuel : Nat) (hinv : TreeInv L I S 1 t E) (hfuel : 1 ≤ fuel) :
    ∃ t1, t.Remove fuel key = Outcome.ok t1 ∧
      TreeInv L I S 1 t1 (fun k v => E k v ∧ k ≠ key) := by
  obtain ⟨hcL, hcI, hcS, hnx, hpi, hcase⟩ := hinv
  rcases hcase with ⟨hroot, hempty⟩ | ⟨hroot, h, ps, first, hh, hrep, hfresh, hnp⟩
  · refine ⟨t, ?_, hcL, hcI, hcS, hnx, hpi, Or.inl ⟨hroot, fun k v hkv => hempty k v hkv.1⟩⟩
    unfold BPlusTree.Remove
    rw [if_pos hroot]
  · obtain rfl : h = 0 := by omega
    unfold BPlusTree.Remove
    rw [if_neg hroot]
    obtain ⟨f, rfl⟩ : ∃ f, fuel = f + 1 := ⟨fuel - 1, by omega⟩
    obtain ⟨lp, hpage, hrest⟩ := rep_leaf_iff.mp hrep
    have hfirst : first = t.root_page_id_ := hrest.2.2.2.2.2.2.1
    unfold removeLoop
    rw [hpage]
    obtain ⟨t1, hres, k1, k2, k3, k4, hor, hptr⟩ := removeFromLeaf_root key L I [] t
      t.root_page_id_ none none E ps first INVALID_PAGE_ID lp hpage hrep
    obtain ⟨hpi1, hnp1⟩ := hptr rfl hpi (hfirst ▸ hnp)
    refine ⟨t1, hres, k1.trans hcL, k2.trans hcI, k3.trans hcS, by rw [k4]; exact hnx, hpi1,
      ?_⟩
    rcases hor with ⟨h1, h2⟩ | ⟨h1, h2⟩
    · exact Or.inl ⟨h1, h2⟩
    · obtain ⟨lp1, hpage1, _⟩ := rep_leaf_iff.mp h2
      refine Or.inr ⟨by rw [h1]; exact hroot, 0, ps, first, hh, by rw [h1]; exact h2, ?_, ?_⟩
      · exact ⟨by rw [k4]; exact hfresh.1, fun p hp => by rw [k4]; exact hfresh.2 p hp⟩
      · rw [hfirst]
        exact hnp1 (by rw [hpage1]; exact fun hh => by cases hh)

/-- The reference map holds a key after `insertIfAbsent` of that key. -/
theorem refMap_find_insertIfAbsent_self (m : RefMap) (key : Int) (value : RID) :
    ∃ v, (m.insertIfAbsent key value).find key = some v := by
  cases hm : m.find key with
  | some v1 => exact ⟨v1, (refMap_find_insertIfAbsent m key value key v1).mpr (Or.inl hm)⟩
  | none =>
    refine ⟨value, (refMap_find_insertIfAbsent m key value key value).mpr
      (Or.inr ⟨rfl, rfl, ?_⟩)⟩
    intro v0 hv0
    rw [hm] at hv0
    cases hv0

/-- Every call of a sequence returns when the leaf takes fewer entries than its
maximal size allows; the tree stays a single leaf, and it holds only keys that
the reference map holds. -/
theorem runOps_small (L I S : Nat) (hS2 : 2 ≤ S) (hS : S ≤ L + 1) (fuel : Nat) :
    ∀ (ops : List Op) (t : BPlusTree) (E : Int → RID → Prop) (m : RefMap),
      TreeInv L I S 1 t E → (∀ k v, E k v → ∃ v1, m.find k = some v1) → ops.length ≤ fuel →
      ∃ t1 E1, runOps fuel ops t = Outcome.ok t1 ∧ TreeInv L I S 1 t1 E1 ∧
        ∀ k v, E1 k v → ∃ v1, (refRun ops m).find k = some v1 := by
  intro ops
  induction ops with
  | nil =>
    intro t E m hinv hE _
    exact ⟨t, E, rfl, hinv, hE⟩
  | cons op rest ih =>
    intro t E m hinv hE hfuel
    simp only [List.length_cons] at hfuel
    cases op with
    | insert key value =>
      obtain ⟨r, t1, E1, h1, h2, h3⟩ := insert_small L I S hS2 hS t E key value fuel hinv
        (by omega)
      obtain ⟨t2, E2, g1, g2, g3⟩ := ih t1 E1 (m.insertIfAbsent key value) h2
        (by
          intro k v hkv
          rcases h3 k v hkv with h | h
          · obtain ⟨v1, hv1⟩ := hE k v h
            exact ⟨v1, (refMap_find_insertIfAbsent m key value k v1).mpr (Or.inl hv1)⟩
          · rw [h]
            exact refMap_find_insertIfAbsent_self m key value)
        (by omega)
      refine ⟨t2, E2, ?_, g2, g3⟩
      show (t.Insert fuel key value).bind (fun r => runOps fuel rest r.2) = _
      rw [h1]
      exact g1
    | remove key =>
      obtain ⟨t1, h1, h2⟩ := remove_small L I S t E key fuel hinv (by omega)
      obtain ⟨t2, E2, g1, g2, g3⟩ := ih t1 _ (m.erase key) h2
        (by
          intro k v hkv
          obtain ⟨v1, hv1⟩ := hE k v hkv.1
          exact ⟨v1, (refMap_find_erase m key k v1).mpr ⟨hv1, hkv.2⟩⟩)
        (by omega)
      refine ⟨t2, E2, ?_, g2, g3⟩
      show (t.Remove fuel key).bind (fun t1 => runOps fuel rest t1) = _
      rw [h1]
      exact g1

/-- Every sequence of calls on the empty tree returns and leaves a represented
tree, whatever the number of slots of a leaf page: the height is at most the
number of calls, and the tree holds only keys that the reference map holds. -/
theorem runOps_reach (L I S : Nat) (hL : 2 ≤ L) (hI : 3 ≤ I) (hS : 2 ≤ S) (fuel : Nat)
    (ops : List Op) (hfuel : ops.length ≤ fuel) :
    ∃ t E, runOps fuel ops (BPlusTree.new L I S) = Outcome.ok t ∧
      TreeInv L I S (ops.length + 1) t E ∧
      ∀ k v, E k v → ∃ v1, (refRun ops []).find k = some v1 := by
  by_cases hreg : L + 2 ≤ S
  · obtain ⟨t, E, h1, h2, h3⟩ := runOps_inv L I S hL hI hreg fuel ops 0 (BPlusTree.new L I S)
      (fun _ _ => False) [] (treeInv_new L I S) (fun k v => by simp [RefMap.find]) (by omega)
    exact ⟨t, E, h1, treeInv_mono (by omega) h2, fun k v hkv => ⟨v, (h3 k v).mp hkv⟩⟩
  · obtain ⟨t, E, h1, h2, h3⟩ := runOps_small L I S hS (by omega) fuel ops (BPlusTree.new L I S)
      (fun _ _ => False) [] (treeInv_mono (by omega) (treeInv_new L I S))
      (fun k v hkv => absurd hkv id) hfuel
    exact ⟨t, E, h1, treeInv_mono (by omega) h2, h3⟩

/-! ## B+Tree: separators and depth of a represented tree -/

/-- The keys reached from the root of a represented tree are keys of entries
of the tree. -/
theorem rep_keysBelow {L I : Nat} (t : BPlusTree) :
    ∀ (n h m : Nat) (pid : Int) (lo hi : Option Int) (E : Int → RID → Prop) (ps : List Int)
      (first nxt : Int), Rep L I t.pages h m pid lo hi E ps first nxt →
      ∀ k ∈ keysBelow t n pid, ∃ v, E k v := by
  intro n
  induction n with
  | zero =>
    intro h m pid lo hi E ps first nxt _ k hk
    simp [keysBelow] at hk
  | succ n ih =>
    intro h m pid lo hi E ps first nxt hrep k hk
    cases h with
    | zero =>
      obtain ⟨lp, h1, _, _, _, _, h6, _⟩ := rep_leaf_iff.mp hrep
      unfold keysBelow at hk
      rw [h1] at hk
      simp only [List.mem_map] at hk
      obtain ⟨s, hs, rfl⟩ := hk
      exact ⟨s.2, (h6 s.1 s.2).mpr hs⟩
    | succ h1 =>
      obtain ⟨ip, kids, g1, _, _, g4, g5, g6, _⟩ := rep_internal_iff.mp hrep
      unfold keysBelow at hk
      rw [g1] at hk
      simp only [List.mem_flatMap] at hk
      obtain ⟨s, hs, hk1⟩ := hk
      have hmem : s.2 ∈ kids.map Kid.pid := by
        rw [g4.1]
        exact List.mem_map.mpr ⟨s, hs, rfl⟩
      obtain ⟨kid, hkid, hkpid⟩ := List.mem_map.mp hmem
      obtain ⟨hi1, nxt1, hr⟩ := kidsOK_mem g5 hkid
      rw [← hkpid] at hk1
      obtain ⟨v, hv⟩ := ih h1 2 kid.pid kid.lo hi1 kid.E kid.ps kid.first nxt1 hr k hk1
      exact ⟨v, (g6 k v).mpr ⟨kid, hkid, hv⟩⟩

/-- Every page reached from the root of a represented tree is the root of a
represented tree. -/
theorem rep_pagesBelow {L I : Nat} (t : BPlusTree) :
    ∀ (n h m : Nat) (pid : Int) (lo hi : Option Int) (E : Int → RID → Prop) (ps : List Int)
      (first nxt : Int), Rep L I t.pages h m pid lo hi E ps first nxt →
      ∀ p ∈ pagesBelow t n pid, ∃ h1 m1 lo1 hi1 E1 ps1 first1 nxt1,
        Rep L I t.pages h1 m1 p lo1 hi1 E1 ps1 first1 nxt1 := by
  intro n
  induction n with
  | zero =>
    intro h m pid lo hi E ps first nxt _ p hp
    simp [pagesBelow] at hp
  | succ n ih =>
    intro h m pid lo hi E ps first nxt hrep p hp
    cases h with
    | zero =>
      obtain ⟨lp, h1, _⟩ := rep_leaf_iff.mp hrep
      unfold pagesBelow at hp
      rw [h1] at hp
      simp only [List.mem_singleton] at hp
      subst hp
      exact ⟨_, _, _, _, _, _, _, _, hrep⟩
    | succ h1 =>
      obtain ⟨ip, kids, g1, _, _, g4, g5, _⟩ := rep_internal_iff.mp hrep
      unfold pagesBelow at hp
      rw [g1] at hp
      simp only [List.mem_cons, List.mem_flatMap] at hp
      rcases hp with hp | ⟨s, hs, hp1⟩
      · subst hp
        exact ⟨_, _, _, _, _, _, _, _, hrep⟩
      · have hmem : s.2 ∈ kids.map Kid.pid := by
          rw [g4.1]
          exact List.mem_map.mpr ⟨s, hs, rfl⟩
        obtain ⟨kid, hkid, hkpid⟩ := List.mem_map.mp hmem
        obtain ⟨hi1, nxt1, hr⟩ := kidsOK_mem g5 hkid
        rw [← hkpid] at hp1
        exact ih h1 2 kid.pid kid.lo hi1 kid.E kid.ps kid.first nxt1 hr p hp1

/-- Every leaf reached from the root of a represented tree of height `h` is
reached by a path of length `h`. -/
theorem rep_leafDepths {L I : Nat} (t : BPlusTree) :
    ∀ (n h m : Nat) (pid : Int) (lo hi : Option Int) (E : Int → RID → Prop) (ps : List Int)
      (first nxt : Int), Rep L I t.pages h m pid lo hi E ps first nxt →
      ∀ d ∈ leafDepths t n pid, d = h := by
  intro n
  induction n with
  | zero =>
    intro h m pid lo hi E ps first nxt _ d hd
    simp [leafDepths] at hd
  | succ n ih =>
    intro h m pid lo hi E ps first nxt hrep d hd
    cases h with
    | zero =>
      obtain ⟨lp, h1, _⟩ := rep_leaf_iff.mp hrep
      unfold leafDepths at hd
      rw [h1] at hd
      simpa using hd
    | succ h1 =>
      obtain ⟨ip, kids, g1, _, _, g4, g5, _⟩ := rep_internal_iff.mp hrep
      unfold leafDepths at hd
      rw [g1] at hd
      simp only [List.mem_map, List.mem_flatMap] at hd
      obtain ⟨d1, ⟨s, hs, hd1⟩, rfl⟩ := hd
      have hmem : s.2 ∈ kids.map Kid.pid := by
        rw [g4.1]
        exact List.mem_map.mpr ⟨s, hs, rfl⟩
      obtain ⟨kid, hkid, hkpid⟩ := List.mem_map.mp hmem
      obtain ⟨hi1, nxt1, hr⟩ := kidsOK_mem g5 hkid
      rw [← hkpid] at hd1
      rw [ih h1 2 kid.pid kid.lo hi1 kid.E kid.ps kid.first nxt1 hr d1 hd1]

/-- With fuel above the height, the leaves of a represented tree are reached. -/
theorem rep_leafDepths_ne_nil {L I : Nat} (t : BPlusTree) :
    ∀ (h n m : Nat) (pid : Int) (lo hi : Option Int) (E : Int → RID → Prop) (ps : List Int)
      (first nxt : Int), Rep L I t.pages h m pid lo hi E ps first nxt → 1 ≤ m → h < n →
      leafDepths t n pid ≠ [] := by
  intro h
  induction h with
  | zero =>
    intro n m pid lo hi E ps first nxt hrep _ hn
    obtain ⟨n1, rfl⟩ : ∃ n1, n = n1 + 1 := ⟨n - 1, by omega⟩
    obtain ⟨lp, h1, _⟩ := rep_leaf_iff.mp hrep
    unfold leafDepths
    rw [h1]
    simp
  | succ h1 ih =>
    intro n m pid lo hi E ps first nxt hrep hm hn
    obtain ⟨n1, rfl⟩ : ∃ n1, n = n1 + 1 := ⟨n - 1, by omega⟩
    obtain ⟨ip, kids, g1, _, g3, g4, g5, _⟩ := rep_internal_iff.mp hrep
    unfold leafDepths
    rw [g1]
    cases kids with
    | nil => simp at g3; omega
    | cons kid rest =>
      obtain ⟨s, S1, hs, _, hkpid, _⟩ := slotsOf_cons_left g4
      have := ih n1 2 kid.pid kid.lo _ kid.E kid.ps kid.first _ g5.1 (by omega) (by omega)
      rw [hkpid] at this
      show List.map (fun d => d + 1) (ip.slots.flatMap fun s => leafDepths t n1 s.2) ≠ []
      rw [hs]
      simp only [List.flatMap_cons, List.map_append, ne_eq, List.append_eq_nil, List.map_eq_nil_iff,
        not_and]
      intro h0
      exact absurd h0 this

/-- The child at a position of a chain of children, with the bound that the
child after it gives. -/
theorem kidsOK_getElem {R : Kid → Option Int → Int → Prop} :
    ∀ (kids : List Kid) (hi : Option Int) (nxt : Int), KidsOK R kids hi nxt →
      ∀ (i : Nat) (h1 : i + 1 < kids.length),
        ∃ nxt1, R (kids.get ⟨i, by omega⟩) (kids.get ⟨i + 1, h1⟩).lo nxt1 := by
  intro kids
  induction kids with
  | nil =>
    intro hi nxt _ i h1
    simp at h1
  | cons a rest ih =>
    intro hi nxt hok i h1
    cases i with
    | zero =>
      cases rest with
      | nil => simp at h1
      | cons b rest2 => exact ⟨_, hok.1⟩
    | succ j =>
      simp only [List.length_cons] at h1
      exact ih hi nxt hok.2 j (by omega)

/-- The separator invariant holds at the root of a represented tree. -/
theorem rep_separators {L I : Nat} (t : BPlusTree) (n h m : Nat) (pid : Int)
    (lo hi : Option Int) (E : Int → RID → Prop) (ps : List Int) (first nxt : Int)
    (ip : InternalPage) (hrep : Rep L I t.pages h m pid lo hi E ps first nxt)
    (hpage : t.pages pid = some (Page.internal ip)) : SeparatorsOK t n ip := by
  cases h with
  | zero =>
    obtain ⟨lp, h1, _⟩ := rep_leaf_iff.mp hrep
    rw [hpage] at h1
    cases h1
  | succ h1 =>
    obtain ⟨ip1, kids, g1, _, _, g4, g5, _⟩ := rep_internal_iff.mp hrep
    rw [hpage] at g1
    simp only [Option.some.injEq, Page.internal.injEq] at g1
    subst g1
    have hlen := kids_length_eq g4.1
    intro i hi1 hi2
    obtain ⟨j, rfl⟩ : ∃ j, i = j + 1 := ⟨i - 1, by omega⟩
    have hlo := kids_lo_getElem g4.2 j (by omega) hi2
    have hpid1 := kids_pid_getElem g4.1 (j + 1) (by omega) hi2
    have hpid0 := kids_pid_getElem g4.1 j (by omega) (by omega)
    have hj : j < ip.slots.length := by omega
    have e1 : ip.slots.getD (j + 1) (0, 0) = ip.slots[j + 1] :=
      List.getD_eq_getElem ip.slots (0, 0) hi2
    have e0 : ip.slots.getD (j + 1 - 1) (0, 0) = ip.slots[j] := by
      rw [Nat.add_sub_cancel]
      exact List.getD_eq_getElem ip.slots (0, 0) hj
    rw [e1, e0]
    obtain ⟨hiB, nxtB, hB⟩ := kidsOK_mem g5 (List.getElem_mem (by omega : j + 1 < kids.length))
    obtain ⟨nxtA, hA⟩ := kidsOK_getElem kids hi nxt g5 j (by omega)
    simp only [List.get_eq_getElem] at hA
    constructor
    · intro k hk
      rw [← hpid1] at hk
      obtain ⟨v, hv⟩ := rep_keysBelow t n h1 2 _ _ _ _ _ _ _ hB k hk
      exact (rep_bounds hB k v hv).1 _ hlo
    · intro k hk
      rw [← hpid0] at hk
      obtain ⟨v, hv⟩ := rep_keysBelow t n h1 2 _ _ _ _ _ _ _ hA k hk
      exact (rep_bounds hA k v hv).2 _ hlo

/-! ## B+Tree: what every sequence of calls keeps -/

/-- C11 (amended).  For every tree built from the empty tree by `Insert` and
`Remove` calls, with `leaf_max_size ≥ 2`, `internal_max_size ≥ 3` and
`leaf_max_size + 2 ≤ LEAF_PAGE_SLOT_CNT`, and for every key that is not in the
tree (`GetValue` does not find it): `Insert(key, value)` returns true and
stores the key, `GetValue(key)` yields `value` afterwards. -/
theorem Insert_of_absent_key_succeeds (L I S : Nat) (ops : List Op) (fuel : Nat) (key : Int)
    (value : RID) (hL : 2 ≤ L) (hI : 3 ≤ I) (hS : L + 2 ≤ S) (hfuel : ops.length + 1 ≤ fuel) :
    ∃ t, runOps fuel ops (BPlusTree.new L I S) = Outcome.ok t ∧
      (t.GetValue fuel key = Outcome.ok none →
        ∃ t1, t.Insert fuel key value = Outcome.ok (true, t1) ∧
          t1.GetValue fuel key = Outcome.ok (some value)) := by
  obtain ⟨t, E, h1, h2, _⟩ := runOps_inv L I S hL hI hS fuel ops 0 (BPlusTree.new L I S)
    (fun _ _ => False) [] (treeInv_new L I S) (fun k v => by simp [RefMap.find]) (by omega)
  refine ⟨t, h1, ?_⟩
  intro habsent
  obtain ⟨r, g1, g2⟩ := getValue_inv L I S (0 + ops.length) t E key fuel h2 (by omega)
  rw [g1] at habsent
  simp only [Outcome.ok.injEq] at habsent
  subst habsent
  have hno : ∀ v0, ¬ E key v0 := by
    intro v0 hv0
    have := (g2 v0).mpr hv0
    cases this
  obtain ⟨r, t1, e1, e2, e3⟩ := insert_inv L I S (0 + ops.length) hL hI hS t E key value fuel h2
    (by omega)
  have hr : r = true := e3.mpr hno
  subst hr
  refine ⟨t1, e1, ?_⟩
  obtain ⟨r1, f1, f2⟩ := getValue_inv L I S (0 + ops.length + 1) t1 _ key fuel e2 (by omega)
  rw [f1, (f2 value).mpr (Or.inr ⟨rfl, rfl, hno⟩)]

/-- C11 (amended), applied: `leaf_max_size = 2`, `internal_max_size = 3`, four
slots in a leaf; after `Insert(1)`, `Insert(2)`, `Insert(3)`, `Remove(2)` the
key 2 is not in the tree, and `Insert(2)` returns true and stores it. -/
theorem Insert_of_absent_key_succeeds_witness :
    ∃ t, runOps 5 [Op.insert 1 ⟨1, 0⟩, Op.insert 2 ⟨2, 0⟩, Op.insert 3 ⟨3, 0⟩, Op.remove 2]
        (BPlusTree.new 2 3 4) = Outcome.ok t ∧
      (t.GetValue 5 2 = Outcome.ok none →
        ∃ t1, t.Insert 5 2 ⟨2, 7⟩ = Outcome.ok (true, t1) ∧
          t1.GetValue 5 2 = Outcome.ok (some ⟨2, 7⟩)) :=
  Insert_of_absent_key_succeeds 2 3 4 _ 5 2 ⟨2, 7⟩ (by decide) (by decide) (by decide)
    (by decide)

/-- C11, refuted as stated: with `leaf_max_size = 3` and
`LEAF_PAGE_SLOT_CNT = 4`, that is `leaf_max_size = LEAF_PAGE_SLOT_CNT - 1`,
after `Insert(1)`, `Insert(2)`, `Insert(3)` the root leaf holds three entries,
no more than its maximal size; the key 4 is not in the tree, and `Insert(4)`
returns false and does not store it. -/
theorem Insert_refused_by_leaf_within_max_size :
    (runOps 3 [Op.insert 1 ⟨1, 0⟩, Op.insert 2 ⟨2, 0⟩, Op.insert 3 ⟨3, 0⟩]
        (BPlusTree.new 3 3 4)).bind (fun t => Outcome.ok (t.pages t.root_page_id_))
      = Outcome.ok (some (Page.leaf { page_id_ := 1, max_size_ := 3,
                                      slots := [(1, ⟨1, 0⟩), (2, ⟨2, 0⟩), (3, ⟨3, 0⟩)],
                                      next_page_id_ := INVALID_PAGE_ID,
                                      prev_page_id_ := INVALID_PAGE_ID })) ∧
    (runOps 3 [Op.insert 1 ⟨1, 0⟩, Op.insert 2 ⟨2, 0⟩, Op.insert 3 ⟨3, 0⟩]
        (BPlusTree.new 3 3 4)).bind (fun t => t.GetValue 3 4) = Outcome.ok none ∧
    (runOps 3 [Op.insert 1 ⟨1, 0⟩, Op.insert 2 ⟨2, 0⟩, Op.insert 3 ⟨3, 0⟩]
        (BPlusTree.new 3 3 4)).bind (fun t =>
          (t.Insert 3 4 ⟨4, 0⟩).bind (fun r => Outcome.ok r.1)) = Outcome.ok false ∧
    (runOps 3 [Op.insert 1 ⟨1, 0⟩, Op.insert 2 ⟨2, 0⟩, Op.insert 3 ⟨3, 0⟩]
        (BPlusTree.new 3 3 4)).bind (fun t =>
          (t.Insert 3 4 ⟨4, 0⟩).bind (fun r => r.2.GetValue 3 4)) = Outcome.ok none := by
  refine ⟨?_, ?_, ?_, ?_⟩ <;> decide

/-- C15.  After every sequence of `Insert` and `Remove` calls on the empty tree
(`leaf_max_size ≥ 2`, `internal_max_size ≥ 3`, at least two slots in a leaf
page), every call returns, and every internal page of the tree satisfies the
separator invariant: for every slot `i ≥ 1`, the keys reachable through child
`i` are at least the key of slot `i`, and the keys reachable through child
`i - 1` are below it. -/
theorem separator_invariant_after_calls (L I S : Nat) (ops : List Op) (fuel : Nat)
    (hL : 2 ≤ L) (hI : 3 ≤ I) (hS : 2 ≤ S) (hfuel : ops.length ≤ fuel) :
    ∃ t, runOps fuel ops (BPlusTree.new L I S) = Outcome.ok t ∧
      ∀ (n m : Nat) (p : Int) (ip : InternalPage), p ∈ t.treePages m →
        t.pages p = some (Page.internal ip) → SeparatorsOK t n ip := by
  obtain ⟨t, E, h1, h2, _⟩ := runOps_reach L I S hL hI hS fuel ops hfuel
  refine ⟨t, h1, ?_⟩
  intro n m p ip hp hpage
  obtain ⟨_, _, _, _, _, hcase⟩ := h2
  unfold BPlusTree.treePages at hp
  rcases hcase with ⟨hroot, _⟩ | ⟨hroot, h, ps, first, _, hrep, _⟩
  · rw [if_pos hroot] at hp
    simp at hp
  · rw [if_neg hroot] at hp
    obtain ⟨h1, m1, lo1, hi1, E1, ps1, first1, nxt1, hr⟩ :=
      rep_pagesBelow t m h 2 _ _ _ _ _ _ _ hrep p hp
    exact rep_separators t n h1 m1 p lo1 hi1 E1 ps1 first1 nxt1 ip hr hpage

/-- C15, applied: `leaf_max_size = 2`, `internal_max_size = 3`, four slots in a
leaf; after `Insert` of 1 to 5 and `Remove(2)` every internal page of the tree
satisfies the separator invariant. -/
theorem separator_invariant_after_calls_witness :
    ∃ t, runOps 6 [Op.insert 1 ⟨1, 0⟩, Op.insert 2 ⟨2, 0⟩, Op.insert 3 ⟨3, 0⟩,
        Op.insert 4 ⟨4, 0⟩, Op.insert 5 ⟨5, 0⟩, Op.remove 2] (BPlusTree.new 2 3 4)
        = Outcome.ok t ∧
      ∀ (n m : Nat) (p : Int) (ip : InternalPage), p ∈ t.treePages m →
        t.pages p = some (Page.internal ip) → SeparatorsOK t n ip :=
  separator_invariant_after_calls 2 3 4 _ 6 (by decide) (by decide) (by decide) (by decide)

/-- C16.  After every sequence of `Insert` and `Remove` calls on the empty tree
(`leaf_max_size ≥ 2`, `internal_max_size ≥ 3`, at least two slots in a leaf
page), every call returns, and the tree is balanced: there is a depth `d` such
that every leaf is reached from the root by a path of length `d`; when the
tree is not empty, leaves are reached. -/
theorem leaves_at_same_depth_after_calls (L I S : Nat) (ops : List Op) (fuel : Nat)
    (hL : 2 ≤ L) (hI : 3 ≤ I) (hS : 2 ≤ S) (hfuel : ops.length ≤ fuel) :
    ∃ t, runOps fuel ops (BPlusTree.new L I S) = Outcome.ok t ∧
      ∃ d, (∀ n, ∀ x ∈ t.treeLeafDepths n, x = d) ∧
        (t.root_page_id_ ≠ INVALID_PAGE_ID → t.treeLeafDepths (fuel + 1) ≠ []) := by
  obtain ⟨t, E, h1, h2, _⟩ := runOps_reach L I S hL hI hS fuel ops hfuel
  refine ⟨t, h1, ?_⟩
  obtain ⟨_, _, _, _, _, hcase⟩ := h2
  unfold BPlusTree.treeLeafDepths
  rcases hcase with ⟨hroot, _⟩ | ⟨hroot, h, ps, first, hh, hrep, _⟩
  · refine ⟨0, ?_, fun hne => absurd hroot hne⟩
    intro n x hx
    rw [if_pos hroot] at hx
    simp at hx
  · refine ⟨h, ?_, ?_⟩
    · intro n x hx
      rw [if_neg hroot] at hx
      exact rep_leafDepths t n h 2 _ _ _ _ _ _ _ hrep x hx
    · intro _
      rw [if_neg hroot]
      exact rep_leafDepths_ne_nil t h (fuel + 1) 2 _ _ _ _ _ _ _ hrep (by omega) (by omega)

/-- C16, applied: `leaf_max_size = 2`, `internal_max_size = 3`, four slots in a
leaf; after `Insert` of 1 to 5 and `Remove(2)` all leaves are at one depth. -/
theorem leaves_at_same_depth_after_calls_witness :
    ∃ t, runOps 6 [Op.insert 1 ⟨1, 0⟩, Op.insert 2 ⟨2, 0⟩, Op.insert 3 ⟨3, 0⟩,
        Op.insert 4 ⟨4, 0⟩, Op.insert 5 ⟨5, 0⟩, Op.remove 2] (BPlusTree.new 2 3 4)
        = Outcome.ok t ∧
      ∃ d, (∀ n, ∀ x ∈ t.treeLeafDepths n, x = d) ∧
        (t.root_page_id_ ≠ INVALID_PAGE_ID → t.treeLeafDepths (6 + 1) ≠ []) :=
  leaves_at_same_depth_after_calls 2 3 4 _ 6 (by decide) (by decide) (by decide) (by decide)

theorem refRun_append (a b : List Op) : ∀ m : RefMap, refRun (a ++ b) m = refRun b (refRun a m) := by
  induction a with
  | nil => intro m; rfl
  | cons op rest ih =>
    intro m
    cases op with
    | insert key value => exact ih _
    | remove key => exact ih _

/-- After calls of `Insert` only, the reference map holds only keys that it held
or that were inserted. -/
theorem refRun_inserts_find (k : Int) :
    ∀ (ins : List (Int × RID)) (m : RefMap) (v : RID),
      (refRun (ins.map (fun e => Op.insert e.1 e.2)) m).find k = some v →
      (∃ v0, m.find k = some v0) ∨ ∃ e ∈ ins, e.1 = k := by
  intro ins
  induction ins with
  | nil =>
    intro m v h
    exact Or.inl ⟨v, h⟩
  | cons e rest ih =>
    intro m v h
    rcases ih (m.insertIfAbsent e.1 e.2) v h with ⟨v0, hv0⟩ | ⟨e1, he1, hk⟩
    · rcases (refMap_find_insertIfAbsent m e.1 e.2 k v0).mp hv0 with h1 | ⟨h1, _, _⟩
      · exact Or.inl ⟨v0, h1⟩
      · exact Or.inr ⟨e, List.mem_cons_self _ _, h1.symm⟩
    · exact Or.inr ⟨e1, List.mem_cons_of_mem _ he1, hk⟩

/-- After calls of `Remove`, the reference map holds none of the removed keys. -/
theorem refRun_removes_find (k : Int) :
    ∀ (rem : List Int) (m : RefMap) (v : RID),
      (refRun (rem.map Op.remove) m).find k = some v → m.find k = some v ∧ k ∉ rem := by
  intro rem
  induction rem with
  | nil =>
    intro m v h
    exact ⟨h, by simp⟩
  | cons key rest ih =>
    intro m v h
    obtain ⟨h1, h2⟩ := ih (m.erase key) v h
    obtain ⟨h3, h4⟩ := (refMap_find_erase m key k v).mp h1
    exact ⟨h3, by simp [h4, h2]⟩

/-- C18.  For every list of entries and every list of keys that names the key
of every entry, in any order (`leaf_max_size ≥ 2`, `internal_max_size ≥ 3`, at
least two slots in a leaf page): `Insert` of all entries and then `Remove` of
all keys on the empty tree return and leave the tree empty, `GetRootPageId()`
is `INVALID_PAGE_ID` and `Begin()` equals `End()`. -/
theorem insert_all_remove_all_leaves_empty (L I S : Nat) (ins : List (Int × RID))
    (rem : List Int) (fuel : Nat) (hL : 2 ≤ L) (hI : 3 ≤ I) (hS : 2 ≤ S)
    (hfuel : ins.length + rem.length ≤ fuel) (hall : ∀ e ∈ ins, e.1 ∈ rem) :
    ∃ t, runOps fuel (ins.map (fun e => Op.insert e.1 e.2) ++ rem.map Op.remove)
        (BPlusTree.new L I S) = Outcome.ok t ∧
      t.GetRootPageId = INVALID_PAGE_ID ∧
      ∃ it, t.Begin fuel = Outcome.ok it ∧ it.eq t.End = true := by
  obtain ⟨t, E, h1, h2, h3⟩ := runOps_reach L I S hL hI hS fuel
    (ins.map (fun e => Op.insert e.1 e.2) ++ rem.map Op.remove) (by simpa using hfuel)
  have hE : ∀ k v, ¬ E k v := by
    intro k v hkv
    obtain ⟨v1, hv1⟩ := h3 k v hkv
    rw [refRun_append] at hv1
    obtain ⟨g1, g2⟩ := refRun_removes_find k rem _ v1 hv1
    rcases refRun_inserts_find k ins [] v1 g1 with ⟨v0, hv0⟩ | ⟨e, he, hk⟩
    · simp [RefMap.find] at hv0
    · exact g2 (hk ▸ hall e he)
  have hroot : t.root_page_id_ = INVALID_PAGE_ID := by
    obtain ⟨_, _, _, _, _, hcase⟩ := h2
    rcases hcase with ⟨hroot, _⟩ | ⟨_, h, ps, first, _, hrep, _⟩
    · exact hroot
    · obtain ⟨k, v, hkv⟩ := rep_nonempty hrep
      exact absurd hkv (hE k v)
  refine ⟨t, h1, hroot, IndexIterator.End, ?_, rfl⟩
  unfold BPlusTree.Begin
  rw [if_pos hroot]
  rfl

/-- C18, applied: `leaf_max_size = 2`, `internal_max_size = 3`, four slots in a
leaf; `Insert` of 3, 1, 2, 5, 4 and then `Remove` of 1, 2, 3, 4, 5 leave the
tree empty. -/
theorem insert_all_remove_all_leaves_empty_witness :
    ∃ t, runOps 10 ([(3, ⟨3, 0⟩), (1, ⟨1, 0⟩), (2, ⟨2, 0⟩), (5, ⟨5, 0⟩),
          (4, (⟨4, 0⟩ : RID))].map (fun e => Op.insert e.1 e.2) ++ [1, 2, 3, 4, 5].map Op.remove)
        (BPlusTree.new 2 3 4) = Outcome.ok t ∧
      t.GetRootPageId = INVALID_PAGE_ID ∧
      ∃ it, t.Begin 10 = Outcome.ok it ∧ it.eq t.End = true :=
  insert_all_remove_all_leaves_empty 2 3 4 _ _ 10 (by decide) (by decide) (by decide)
    (by decide) (by decide)

/-! ## B+Tree: the chain of the leaves -/

theorem headD_append (a b : List Int) (x : Int) : (a ++ b).headD x = a.headD (b.headD x) := by
  cases a <;> rfl

theorem linked_append (t : BPlusTree) :
    ∀ (a b : List Int) (nxt : Int), Linked t a (b.headD nxt) → Linked t b nxt →
      Linked t (a ++ b) nxt := by
  intro a
  induction a with
  | nil => intro b nxt _ hb; exact hb
  | cons p rest ih =>
    intro b nxt ha hb
    obtain ⟨h1, ⟨lp, h2, h3⟩, h4⟩ := ha
    refine ⟨h1, ⟨lp, h2, ?_⟩, ih b nxt h4 hb⟩
    rw [h3]
    exact (headD_append rest b nxt).symm

theorem linked_mem {t : BPlusTree} :
    ∀ {ls : List Int} {nxt : Int}, Linked t ls nxt → ∀ p ∈ ls,
      p ≠ INVALID_PAGE_ID ∧ ∃ lp, t.pages p = some (Page.leaf lp) := by
  intro ls
  induction ls with
  | nil => intro nxt _ p hp; simp at hp
  | cons q rest ih =>
    intro nxt h p hp
    obtain ⟨h1, ⟨lp, h2, _⟩, h4⟩ := h
    rcases List.mem_cons.mp hp with e | e
    · subst e
      exact ⟨h1, lp, h2⟩
    · exact ih h4 p e

theorem linked_last {t : BPlusTree} :
    ∀ {ls : List Int} {nxt last : Int}, Linked t ls nxt → ls.getLast? = some last →
      ∃ lp, t.pages last = some (Page.leaf lp) ∧ lp.next_page_id_ = nxt := by
  intro ls
  induction ls with
  | nil => intro nxt last _ hl; simp at hl
  | cons q rest ih =>
    intro nxt last h hl
    obtain ⟨_, ⟨lp, h2, h3⟩, h4⟩ := h
    cases rest with
    | nil =>
      simp only [List.getLast?_singleton, Option.some.injEq] at hl
      subst hl
      exact ⟨lp, h2, h3⟩
    | cons r rest2 =>
      rw [List.getLast?_cons_cons] at hl
      exact ih h4 hl

/-- Following the next pointers along linked leaves visits them, when the fuel
is more than their number. -/
theorem linked_chain (t : BPlusTree) :
    ∀ (ls : List Int), Linked t ls INVALID_PAGE_ID → ∀ n, ls.length < n →
      nextChain t n (ls.headD INVALID_PAGE_ID) = some ls := by
  intro ls
  induction ls with
  | nil =>
    intro _ n hn
    obtain ⟨n1, rfl⟩ : ∃ n1, n = n1 + 1 := ⟨n - 1, by omega⟩
    simp [nextChain]
  | cons p rest ih =>
    intro h n hn
    obtain ⟨h1, ⟨lp, h2, h3⟩, h4⟩ := h
    simp only [List.length_cons] at hn
    obtain ⟨n1, rfl⟩ : ∃ n1, n = n1 + 1 := ⟨n - 1, by omega⟩
    have := ih h4 n1 (by omega)
    simp only [List.headD_cons]
    unfold nextChain
    rw [if_neg h1, h2]
    simp only [h3, this, Option.map_some']

/-- The leaves of the children of an internal page, one child after the
other. -/
theorem kids_leaves (t : BPlusTree) {R : Kid → Option Int → Int → Prop} (f : Kid → List Int)
    (hRo : ∀ kid hi1 nxt1, R kid hi1 nxt1 → boundsOrdered kid.lo hi1)
    (hRb : ∀ kid hi1 nxt1, R kid hi1 nxt1 → ∀ k v, kid.E k v → aboveLo kid.lo k ∧ belowHi hi1 k)
    (hRl : ∀ kid hi1 nxt1, R kid hi1 nxt1 → LeavesOK t (f kid) kid.E kid.ps kid.first nxt1) :
    ∀ (kids : List Kid) (hi : Option Int) (nxt : Int), KidsOK R kids hi nxt →
      (∀ x ∈ kids, ∃ l, x.lo = some l) ∨ (∀ x ∈ kids.tail, ∃ l, x.lo = some l) →
      (kids.flatMap Kid.ps).Nodup →
      LeavesOK t (kids.flatMap f) (fun k v => ∃ kid ∈ kids, kid.E k v) (kids.flatMap Kid.ps)
        (nextFirst kids nxt) nxt := by
  intro kids
  induction kids with
  | nil =>
    intro hi nxt _ _ _
    refine ⟨rfl, trivial, ?_, List.nodup_nil, List.Pairwise.nil, ?_⟩
    · intro p hp
      simp at hp
    · intro k hk
      simp at hk
  | cons kid rest ih =>
    intro hi nxt hok hsome hnd
    have hsome1 : ∀ x ∈ rest, ∃ l, x.lo = some l := by
      rcases hsome with h | h
      · exact fun x hx => h x (List.mem_cons_of_mem _ hx)
      · exact h
    obtain ⟨h0, hrest⟩ := hok
    simp only [List.flatMap_cons] at hnd ⊢
    obtain ⟨a1, a2, a3, a4, a5, a6⟩ := hRl _ _ _ h0
    obtain ⟨b1, b2, b3, b4, b5, b6⟩ := ih hi nxt hrest (Or.inl hsome1)
      (List.Nodup.of_append_right hnd)
    rw [← b1] at a1 a2
    have hcross : ∀ x ∈ (f kid).flatMap (leafKeys t),
        ∀ y ∈ (rest.flatMap f).flatMap (leafKeys t), x < y := by
      intro x hx y hy
      obtain ⟨vx, hvx⟩ := a6 x hx
      obtain ⟨vy, kid1, hk1, hvy⟩ := b6 y hy
      have hxb := (hRb _ _ _ h0 x vx hvx).2
      obtain ⟨pre, post, hsplit⟩ := List.append_of_mem hk1
      obtain ⟨hi1, nxt1, hr1⟩ := kidsOK_mem hrest hk1
      have hya := (hRb _ _ _ hr1 y vy hvy).1
      rw [hsplit] at hrest
      have hyl := chain_lo_le hRo pre kid1 post hi nxt hrest
        (fun z hz => hsome1 z (by rw [hsplit]; exact List.mem_of_mem_tail hz)) y hya
      rw [← hsplit] at hyl
      obtain ⟨l, hl⟩ := nextLo_some (List.ne_nil_of_mem hk1) hsome1 hi
      have := hxb l hl
      have := hyl l hl
      omega
    refine ⟨?_, ?_, ?_, ?_, ?_, ?_⟩
    · rw [headD_append]
      exact a1
    · exact linked_append t _ _ nxt a2 b2
    · intro p hp
      rcases List.mem_append.mp hp with h | h
      · exact List.mem_append_left _ (a3 p h)
      · exact List.mem_append_right _ (b3 p h)
    · refine List.Nodup.append a4 b4 ?_
      intro p hp1 hp2
      exact (List.disjoint_of_nodup_append hnd) (a3 p hp1) (b3 p hp2)
    · rw [List.flatMap_append]
      exact List.pairwise_append.mpr ⟨a5, b5, hcross⟩
    · intro k hk
      rw [List.flatMap_append] at hk
      rcases List.mem_append.mp hk with h | h
      · obtain ⟨v, hv⟩ := a6 k h
        exact ⟨v, kid, List.mem_cons_self _ _, hv⟩
      · obtain ⟨v, kid1, hk1, hv⟩ := b6 k h
        exact ⟨v, kid1, List.mem_cons_of_mem _ hk1, hv⟩

/-- The leaves reached from the root of a represented tree, with fuel above
its height: they are the leaves of the chain of next pointers, in the order of
the chain and of their keys. -/
theorem rep_leaves {L I : Nat} (t : BPlusTree) (hpi : PtrInv t) :
    ∀ (h n m : Nat) (pid : Int) (lo hi : Option Int) (E : Int → RID → Prop) (ps : List Int)
      (first nxt : Int), Rep L I t.pages h m pid lo hi E ps first nxt → h < n →
      LeavesOK t (leavesBelow t n pid) E ps first nxt := by
  intro h
  induction h with
  | zero =>
    intro n m pid lo hi E ps first nxt hrep hn
    obtain ⟨n1, rfl⟩ : ∃ n1, n = n1 + 1 := ⟨n - 1, by omega⟩
    obtain ⟨lp, h1, _, _, h4, _, h6, h7, h8, h9, _⟩ := rep_leaf_iff.mp hrep
    have hls : leavesBelow t (n1 + 1) pid = [pid] := by
      unfold leavesBelow
      rw [h1]
    have hkeys : [pid].flatMap (leafKeys t) = lp.slots.map Prod.fst := by
      simp [leafKeys, h1]
    rw [hls]
    unfold LeavesOK
    rw [hkeys]
    refine ⟨h8.symm, ⟨ptrInv_ne_invalid hpi (by rw [h1]; exact fun hh => by cases hh),
      ⟨lp, h1, h9⟩, trivial⟩, ?_, List.nodup_singleton _, ?_, ?_⟩
    · intro p hp
      rw [h7]
      exact hp
    · exact List.pairwise_map.mpr h4
    · intro k hk
      obtain ⟨s, hs, rfl⟩ := List.mem_map.mp hk
      exact ⟨s.2, (h6 s.1 s.2).mpr hs⟩
  | succ h1 ih =>
    intro n m pid lo hi E ps first nxt hrep hn
    obtain ⟨n1, rfl⟩ : ∃ n1, n = n1 + 1 := ⟨n - 1, by omega⟩
    obtain ⟨ip, kids, g1, _, _, g4, g5, g6, g7, g8, g9⟩ := rep_internal_iff.mp hrep
    have hls : leavesBelow t (n1 + 1) pid
        = kids.flatMap (fun kid => leavesBelow t n1 kid.pid) := by
      conv_lhs => unfold leavesBelow
      rw [g1]
      show ip.slots.flatMap (fun s => leavesBelow t n1 s.2) = _
      have e1 : ip.slots.flatMap (fun s => leavesBelow t n1 s.2)
          = (ip.slots.map Prod.snd).flatMap (fun p => leavesBelow t n1 p) := by
        rw [List.flatMap_map]
      have e2 : kids.flatMap (fun kid => leavesBelow t n1 kid.pid)
          = (kids.map Kid.pid).flatMap (fun p => leavesBelow t n1 p) := by
        rw [List.flatMap_map]
      rw [e1, e2, g4.1]
    rw [hls]
    rw [g7] at g8
    have hk := kids_leaves t (fun kid => leavesBelow t n1 kid.pid) rep_child_ordered
      rep_child_bounds
      (fun kid hi1 nxt1 hr => ih n1 2 kid.pid kid.lo hi1 kid.E kid.ps kid.first nxt1 hr (by omega))
      kids hi nxt g5 (Or.inr (kids_tail_lo_some g4.2)) (List.nodup_cons.mp g8).2
    obtain ⟨b1, b2, b3, b4, b5, b6⟩ := hk
    refine ⟨b1.trans g9.symm, b2, ?_, b4, b5, ?_⟩
    · intro p hp
      rw [g7]
      exact List.mem_cons_of_mem _ (b3 p hp)
    · intro k hk1
      obtain ⟨v, hv⟩ := b6 k hk1
      exact ⟨v, (g6 k v).mpr hv⟩

/-- C17.  After every sequence of `Insert` and `Remove` calls on the empty tree
(`leaf_max_size ≥ 2`, `internal_max_size ≥ 3`, at least two slots in a leaf
page), every call returns, and when the tree is not empty: following
`next_page_id_` from the leftmost leaf until `INVALID_PAGE_ID` visits the
leaves of the tree from left to right, every leaf once, and the keys read along
the chain are ascending; for leaves `a` and `b`, `b` is the next page of `a` if
and only if `a` is the previous page of `b`; the previous page of the leftmost
leaf and the next page of the rightmost leaf are `INVALID_PAGE_ID`. -/
theorem leaf_chain_after_calls (L I S : Nat) (ops : List Op) (fuel : Nat)
    (hL : 2 ≤ L) (hI : 3 ≤ I) (hS : 2 ≤ S) (hfuel : ops.length ≤ fuel) :
    ∃ t, runOps fuel ops (BPlusTree.new L I S) = Outcome.ok t ∧
      (t.root_page_id_ ≠ INVALID_PAGE_ID → ∀ n, fuel < n →
        ∃ leaves first last, t.treeLeaves n = leaves ∧
          leaves.head? = some first ∧ leaves.getLast? = some last ∧
          (∀ n1, leaves.length < n1 → nextChain t n1 first = some leaves) ∧
          leaves.Nodup ∧
          (leaves.flatMap (leafKeys t)).Pairwise (fun a b => a < b) ∧
          (∀ a ∈ leaves, ∃ la, t.pages a = some (Page.leaf la)) ∧
          (∀ a ∈ leaves, ∀ b ∈ leaves, ∀ la lb, t.pages a = some (Page.leaf la) →
            t.pages b = some (Page.leaf lb) →
            (la.next_page_id_ = b ↔ lb.prev_page_id_ = a)) ∧
          (∃ lf, t.pages first = some (Page.leaf lf) ∧
            lf.prev_page_id_ = INVALID_PAGE_ID) ∧
          (∃ ll, t.pages last = some (Page.leaf ll) ∧
            ll.next_page_id_ = INVALID_PAGE_ID)) := by
  obtain ⟨t, E, h1, h2, _⟩ := runOps_reach L I S hL hI hS fuel ops hfuel
  refine ⟨t, h1, ?_⟩
  intro hne n hn
  obtain ⟨_, _, _, _, hpi, hcase⟩ := h2
  rcases hcase with ⟨hroot, _⟩ | ⟨hroot, h, ps, first, hh, hrep, _, hnp⟩
  · exact absurd hroot hne
  · obtain ⟨a1, a2, _, a4, a5, _⟩ := rep_leaves t hpi h n 2 _ _ _ _ _ _ _ hrep (by omega)
    obtain ⟨_, lf, hlf⟩ := rep_first hrep
    have hfne : first ≠ INVALID_PAGE_ID :=
      ptrInv_ne_invalid hpi (by rw [hlf]; exact fun hh => by cases hh)
    have hls : t.treeLeaves n = leavesBelow t n t.root_page_id_ := by
      unfold BPlusTree.treeLeaves
      rw [if_neg hroot]
    rw [hls]
    generalize leavesBelow t n t.root_page_id_ = ls at a1 a2 a4 a5
    cases ls with
    | nil => exact absurd a1.symm hfne
    | cons p rest =>
      simp only [List.headD_cons] at a1
      subst a1
      obtain ⟨last, hlast⟩ : ∃ last, (p :: rest).getLast? = some last :=
        ⟨(p :: rest).getLast (List.cons_ne_nil _ _), List.getLast?_eq_getLast _ _⟩
      refine ⟨p :: rest, p, last, rfl, rfl, hlast, ?_, a4, a5, ?_, ?_, ?_, ?_⟩
      · intro n1 hn1
        exact linked_chain t (p :: rest) a2 n1 hn1
      · intro a ha
        exact (linked_mem a2 a ha).2
      · intro a ha b hb la lb hpa hpb
        have := hpi.1 a b (linked_mem a2 a ha).1 (linked_mem a2 b hb).1
        rw [hpa, hpb] at this
        simpa [nextOf, prevOf] using this
      · refine ⟨lf, hlf, ?_⟩
        have := hnp
        unfold NoPrev at this
        rw [hlf] at this
        simpa [prevOf] using this
      · exact linked_last a2 hlast

/-- C17, applied: `leaf_max_size = 2`, `internal_max_size = 3`, four slots in a
leaf; after `Insert` of 1 to 5 and `Remove(2)` the leaves are linked as
stated. -/
theorem leaf_chain_after_calls_witness :
    ∃ t, runOps 6 [Op.insert 1 ⟨1, 0⟩, Op.insert 2 ⟨2, 0⟩, Op.insert 3 ⟨3, 0⟩,
        Op.insert 4 ⟨4, 0⟩, Op.insert 5 ⟨5, 0⟩, Op.remove 2] (BPlusTree.new 2 3 4)
        = Outcome.ok t ∧
      (t.root_page_id_ ≠ INVALID_PAGE_ID → ∀ n, 6 < n →
        ∃ leaves first last, t.treeLeaves n = leaves ∧
          leaves.head? = some first ∧ leaves.getLast? = some last ∧
          (∀ n1, leaves.length < n1 → nextChain t n1 first = some leaves) ∧
          leaves.Nodup ∧
          (leaves.flatMap (leafKeys t)).Pairwise (fun a b => a < b) ∧
          (∀ a ∈ leaves, ∃ la, t.pages a = some (Page.leaf la)) ∧
          (∀ a ∈ leaves, ∀ b ∈ leaves, ∀ la lb, t.pages a = some (Page.leaf la) →
            t.pages b = some (Page.leaf lb) →
            (la.next_page_id_ = b ↔ lb.prev_page_id_ = a)) ∧
          (∃ lf, t.pages first = some (Page.leaf lf) ∧
            lf.prev_page_id_ = INVALID_PAGE_ID) ∧
          (∃ ll, t.pages last = some (Page.leaf ll) ∧
            ll.next_page_id_ = INVALID_PAGE_ID)) :=
  leaf_chain_after_calls 2 3 4 _ 6 (by decide) (by decide) (by decide) (by decide)

/-! ## Optimizer rule: `ExtractOrKeys` -/

theorem extractOrKeys_or (a b : AbstractExpression) :
    ExtractOrKeys (AbstractExpression.LogicExpression LogicType.Or a b)
      = if (ExtractOrKeys a).1 ≠ [] ∧ (ExtractOrKeys b).1 ≠ [] ∧
            (ExtractOrKeys a).2 = (ExtractOrKeys b).2 ∧ (ExtractOrKeys a).2 ≠ UINT32_MAX then
          ((ExtractOrKeys a).1 ++ (ExtractOrKeys b).1, (ExtractOrKeys a).2)
        else ([], UINT32_MAX) := by
  conv_lhs => unfold ExtractOrKeys
  simp

theorem extractOrKeys_and (a b : AbstractExpression) :
    ExtractOrKeys (AbstractExpression.LogicExpression LogicType.And a b) = ([], UINT32_MAX) := by
  unfold ExtractOrKeys
  simp

theorem equalityKey_extract (col : Nat) (e key : AbstractExpression)
    (h : equalityKey col e = some key) : ExtractOrKeys e = ([key], col) := by
  cases e with
  | ColumnValueExpression ti ci => simp [equalityKey] at h
  | ConstantValueExpression v => simp [equalityKey] at h
  | LogicExpression ty a b => simp [equalityKey] at h
  | ComparisonExpression ty l r =>
    cases ty <;> cases l <;> cases r <;>
      simp [equalityKey] at h <;>
      simp [ExtractOrKeys, AbstractExpression.asColumnValue, AbstractExpression.asConstantValue,
        h.1.1, h.1.2, h.2]

/-- The keys of a disjunction of equalities on a column are extracted, in the
order of the leaves. -/
theorem extractOrKeys_of_disjunctionKeys (col : Nat) (hcol : col ≠ UINT32_MAX) :
    ∀ (e : AbstractExpression) (ks : List AbstractExpression),
      disjunctionKeys col e = some ks → ExtractOrKeys e = (ks, col) ∧ ks ≠ [] := by
  intro e
  induction e with
  | ColumnValueExpression ti ci =>
    intro ks h
    simp [disjunctionKeys, equalityKey] at h
  | ConstantValueExpression v =>
    intro ks h
    simp [disjunctionKeys, equalityKey] at h
  | ComparisonExpression ty l r _ _ =>
    intro ks h
    simp only [disjunctionKeys, Option.map_eq_some'] at h
    obtain ⟨key, hk, rfl⟩ := h
    exact ⟨equalityKey_extract col _ key hk, by simp⟩
  | LogicExpression ty a b iha ihb =>
    intro ks h
    cases ty with
    | And => simp [disjunctionKeys, equalityKey] at h
    | Or =>
      simp only [disjunctionKeys] at h
      cases ha : disjunctionKeys col a with
      | none => simp [ha] at h
      | some ka =>
        cases hb : disjunctionKeys col b with
        | none => simp [ha, hb] at h
        | some kb =>
          simp only [ha, hb, Option.some.injEq] at h
          subst h
          obtain ⟨ea, na⟩ := iha ka ha
          obtain ⟨eb, nb⟩ := ihb kb hb
          rw [extractOrKeys_or, ea, eb]
          simp [na, nb, hcol]

/-- A comparison gives a key only when it is an equality between a column
reference on the scanned tuple and a constant. -/
theorem extractOrKeys_comparison (ty : ComparisonType) (l r : AbstractExpression) :
    (ExtractOrKeys (AbstractExpression.ComparisonExpression ty l r)
        = ([], UINT32_MAX)) ∨
      ∃ col key, equalityKey col (AbstractExpression.ComparisonExpression ty l r) = some key ∧
        ExtractOrKeys (AbstractExpression.ComparisonExpression ty l r) = ([key], col) := by
  cases ty
  case Equal =>
    cases l with
    | ColumnValueExpression ti ci =>
      cases r with
      | ConstantValueExpression v =>
        by_cases h : ti = 0
        · right
          exact ⟨ci, AbstractExpression.ConstantValueExpression v, by simp [equalityKey, h],
            by simp [ExtractOrKeys, AbstractExpression.asColumnValue,
              AbstractExpression.asConstantValue, h]⟩
        · left
          simp [ExtractOrKeys, AbstractExpression.asColumnValue,
            AbstractExpression.asConstantValue, h]
      | _ =>
        left
        simp [ExtractOrKeys, AbstractExpression.asColumnValue,
          AbstractExpression.asConstantValue]
    | ConstantValueExpression v =>
      cases r with
      | ColumnValueExpression ti ci =>
        by_cases h : ti = 0
        · right
          exact ⟨ci, AbstractExpression.ConstantValueExpression v, by simp [equalityKey, h],
            by simp [ExtractOrKeys, AbstractExpression.asColumnValue,
              AbstractExpression.asConstantValue, h]⟩
        · left
          simp [ExtractOrKeys, AbstractExpression.asColumnValue,
            AbstractExpression.asConstantValue, h]
      | _ =>
        left
        simp [ExtractOrKeys, AbstractExpression.asColumnValue,
          AbstractExpression.asConstantValue]
    | _ =>
      left
      simp [ExtractOrKeys, AbstractExpression.asColumnValue,
        AbstractExpression.asConstantValue]
  all_goals
    left
    simp [ExtractOrKeys]

/-- With an empty key list comes the invalid column id. -/
theorem extractOrKeys_nil_col :
    ∀ e : AbstractExpression, (ExtractOrKeys e).1 = [] → (ExtractOrKeys e).2 = UINT32_MAX := by
  intro e
  cases e with
  | ColumnValueExpression ti ci => intro _; rfl
  | ConstantValueExpression v => intro _; rfl
  | ComparisonExpression ty l r =>
    intro h
    rcases extractOrKeys_comparison ty l r with h1 | ⟨col, key, _, h1⟩
    · rw [h1]
    · rw [h1] at h
      simp at h
  | LogicExpression ty a b =>
    intro h
    cases ty with
    | And => rw [extractOrKeys_and]
    | Or =>
      rw [extractOrKeys_or] at h ⊢
      split_ifs at h ⊢ with hc
      · obtain ⟨h1, _⟩ := hc
        simp at h
        exact absurd h.1 h1
      · rfl

/-- Only a disjunction of equalities on one column gives keys. -/
theorem disjunctionKeys_of_extractOrKeys :
    ∀ e : AbstractExpression, (ExtractOrKeys e).1 ≠ [] →
      disjunctionKeys (ExtractOrKeys e).2 e = some (ExtractOrKeys e).1 := by
  intro e
  induction e with
  | ColumnValueExpression ti ci => intro h; exact absurd rfl h
  | ConstantValueExpression v => intro h; exact absurd rfl h
  | ComparisonExpression ty l r _ _ =>
    intro h
    rcases extractOrKeys_comparison ty l r with h1 | ⟨col, key, h0, h1⟩
    · rw [h1] at h
      exact absurd rfl h
    · rw [h1]
      simp only [disjunctionKeys, h0, Option.map_some']
  | LogicExpression ty a b iha ihb =>
    intro h
    cases ty with
    | And =>
      rw [extractOrKeys_and] at h
      exact absurd rfl h
    | Or =>
      rw [extractOrKeys_or] at h ⊢
      split_ifs at h ⊢ with hc
      · obtain ⟨h1, h2, h3, h4⟩ := hc
        have ea := iha h1
        have eb := ihb h2
        rw [← h3] at eb
        simp only [disjunctionKeys, ea, eb]
      · exact absurd rfl h

/-- The comparison `=` of two values, when it returns. -/
theorem performComparison_equal (x c v : Value)
    (h : Value.PerformComparison ComparisonType.Equal x c = Outcome.ok v) :
    v.GetAsBool = true ↔ x = c := by
  cases x <;> cases c <;> simp [Value.PerformComparison] at h <;> subst h <;>
    simp [Value.GetAsBool]

/-- An equality on a column holds of a tuple exactly when the tuple has the
value of the key in that column. -/
theorem equalityKey_evaluate (col : Nat) (e key : AbstractExpression)
    (h : equalityKey col e = some key) (t : Tuple) (v : Value)
    (hv : e.Evaluate (some t) = Outcome.ok v) :
    v.GetAsBool = true ↔
      ∃ x, key.Evaluate none = Outcome.ok x ∧ t.GetValue col = Outcome.ok x := by
  cases e with
  | ColumnValueExpression ti ci => simp [equalityKey] at h
  | ConstantValueExpression v => simp [equalityKey] at h
  | LogicExpression ty a b => simp [equalityKey] at h
  | ComparisonExpression ty l r =>
    cases ty <;> cases l <;> cases r <;> simp [equalityKey] at h
    · -- column = constant
      rename_i ti ci c
      obtain ⟨⟨_, h2⟩, h3⟩ := h
      subst h2 h3
      simp only [AbstractExpression.Evaluate] at hv ⊢
      cases hg : t.GetValue ci with
      | ok x =>
        rw [hg] at hv
        simp only [Outcome.ok_bind] at hv
        rw [performComparison_equal x c v hv]
        simp [eq_comm]
      | ensureFailed => rw [hg] at hv; cases hv
      | undefinedBehaviour => rw [hg] at hv; cases hv
      | outOfFuel => rw [hg] at hv; cases hv
    · -- constant = column
      rename_i c ti ci
      obtain ⟨⟨_, h2⟩, h3⟩ := h
      subst h2 h3
      simp only [AbstractExpression.Evaluate] at hv ⊢
      cases hg : t.GetValue ci with
      | ok x =>
        rw [hg] at hv
        simp only [Outcome.ok_bind] at hv
        rw [performComparison_equal c x v hv]
        simp
        exact eq_comm
      | ensureFailed => rw [hg] at hv; cases hv
      | undefinedBehaviour => rw [hg] at hv; cases hv
      | outOfFuel => rw [hg] at hv; cases hv

/-- A disjunction of equalities on a column holds of a tuple exactly when the
tuple has the value of one of the keys in that column. -/
theorem disjunctionKeys_evaluate (col : Nat) (t : Tuple) :
    ∀ (e : AbstractExpression) (ks : List AbstractExpression) (v : Value),
      disjunctionKeys col e = some ks → e.Evaluate (some t) = Outcome.ok v →
      (v.GetAsBool = true ↔
        ∃ key ∈ ks, ∃ x, key.Evaluate none = Outcome.ok x ∧ t.GetValue col = Outcome.ok x) := by
  intro e
  induction e with
  | ColumnValueExpression ti ci =>
    intro ks v h _
    simp [disjunctionKeys, equalityKey] at h
  | ConstantValueExpression c =>
    intro ks v h _
    simp [disjunctionKeys, equalityKey] at h
  | ComparisonExpression ty l r _ _ =>
    intro ks v h hv
    simp only [disjunctionKeys, Option.map_eq_some'] at h
    obtain ⟨key, hk, rfl⟩ := h
    rw [equalityKey_evaluate col _ key hk t v hv]
    simp
  | LogicExpression ty a b iha ihb =>
    intro ks v h hv
    cases ty with
    | And => simp [disjunctionKeys, equalityKey] at h
    | Or =>
      simp only [disjunctionKeys] at h
      cases ha : disjunctionKeys col a with
      | none => simp [ha] at h
      | some ka =>
        cases hb : disjunctionKeys col b with
        | none => simp [ha, hb] at h
        | some kb =>
          simp only [ha, hb, Option.some.injEq] at h
          subst h
          simp only [AbstractExpression.Evaluate] at hv
          cases hea : a.Evaluate (some t) with
          | ok va =>
            rw [hea] at hv
            simp only [Outcome.ok_bind] at hv
            cases heb : b.Evaluate (some t) with
            | ok vb =>
              rw [heb] at hv
              simp only [Outcome.ok_bind, Outcome.pure_eq_ok, Outcome.ok.injEq] at hv
              subst hv
              have h1 := iha ka va ha hea
              have h2 := ihb kb vb hb heb
              have e : (Value.boolean (va.GetAsBool || vb.GetAsBool)).GetAsBool
                  = (va.GetAsBool || vb.GetAsBool) := rfl
              rw [e, Bool.or_eq_true, h1, h2]
              simp only [List.mem_append]
              constructor
              · rintro (⟨k, hk, hx⟩ | ⟨k, hk, hx⟩)
                · exact ⟨k, Or.inl hk, hx⟩
                · exact ⟨k, Or.inr hk, hx⟩
              · rintro ⟨k, hk | hk, hx⟩
                · exact Or.inl ⟨k, hk, hx⟩
                · exact Or.inr ⟨k, hk, hx⟩
            | ensureFailed => rw [heb] at hv; cases hv
            | undefinedBehaviour => rw [heb] at hv; cases hv
            | outOfFuel => rw [heb] at hv; cases hv
          | ensureFailed => rw [hea] at hv; cases hv
          | undefinedBehaviour => rw [hea] at hv; cases hv
          | outOfFuel => rw [hea] at hv; cases hv

/-- C23.  `ExtractOrKeys` on an `Equal` comparison between a column reference
with tuple index 0 and a constant returns the index of the column and the key
list that holds the constant expression alone, whether the column is the left
or the right side of the comparison. -/
theorem ExtractOrKeys_of_equality (col_idx : Nat) (val : Value) :
    ExtractOrKeys (AbstractExpression.ComparisonExpression ComparisonType.Equal
        (AbstractExpression.ColumnValueExpression 0 col_idx)
        (AbstractExpression.ConstantValueExpression val))
      = ([AbstractExpression.ConstantValueExpression val], col_idx) ∧
    ExtractOrKeys (AbstractExpression.ComparisonExpression ComparisonType.Equal
        (AbstractExpression.ConstantValueExpression val)
        (AbstractExpression.ColumnValueExpression 0 col_idx))
      = ([AbstractExpression.ConstantValueExpression val], col_idx) := by
  constructor <;>
    simp [ExtractOrKeys, AbstractExpression.asColumnValue, AbstractExpression.asConstantValue]

/-- C24.  For a column id other than `UINT32_MAX`, the invalid column id.
`ExtractOrKeys` on an `Or` of two sub-expressions returns a key list that is
not empty exactly when both sub-expressions extract (a key list that is not
empty, a valid column id) on the same column id; it then returns that column
id with the left key list followed by the right key list, and otherwise the
empty list with the invalid column id, so when the sides extract different
columns.  Hence for an Or-tree of equalities on the column it returns the
constants in the order of the leaves from left to right. -/
theorem ExtractOrKeys_of_or (col : Nat) (hcol : col ≠ UINT32_MAX) :
    (∀ a b : AbstractExpression,
      ((ExtractOrKeys (AbstractExpression.LogicExpression LogicType.Or a b)).1 ≠ [] ↔
        ((ExtractOrKeys a).1 ≠ [] ∧ (ExtractOrKeys a).2 ≠ UINT32_MAX) ∧
        ((ExtractOrKeys b).1 ≠ [] ∧ (ExtractOrKeys b).2 ≠ UINT32_MAX) ∧
        (ExtractOrKeys a).2 = (ExtractOrKeys b).2) ∧
      ((ExtractOrKeys (AbstractExpression.LogicExpression LogicType.Or a b)).1 ≠ [] →
        ExtractOrKeys (AbstractExpression.LogicExpression LogicType.Or a b)
          = ((ExtractOrKeys a).1 ++ (ExtractOrKeys b).1, (ExtractOrKeys a).2)) ∧
      ((ExtractOrKeys (AbstractExpression.LogicExpression LogicType.Or a b)).1 = [] →
        ExtractOrKeys (AbstractExpression.LogicExpression LogicType.Or a b)
          = ([], UINT32_MAX)) ∧
      ((ExtractOrKeys a).2 ≠ (ExtractOrKeys b).2 →
        ExtractOrKeys (AbstractExpression.LogicExpression LogicType.Or a b)
          = ([], UINT32_MAX))) ∧
    (∀ (e : AbstractExpression) (ks : List AbstractExpression),
      disjunctionKeys col e = some ks → ExtractOrKeys e = (ks, col)) := by
  refine ⟨?_, fun e ks h => (extractOrKeys_of_disjunctionKeys col hcol e ks h).1⟩
  intro a b
  rw [extractOrKeys_or]
  refine ⟨?_, ?_, ?_, ?_⟩
  · split_ifs with hc
    · obtain ⟨h1, h2, h3, h4⟩ := hc
      constructor
      · intro _
        exact ⟨⟨h1, h4⟩, ⟨h2, h3 ▸ h4⟩, h3⟩
      · intro _ h
        exact h1 (List.append_eq_nil.mp h).1
    · constructor
      · intro h
        exact absurd rfl h
      · rintro ⟨⟨h1, h4⟩, ⟨h2, _⟩, h3⟩
        exact absurd ⟨h1, h2, h3, h4⟩ hc
  · split_ifs with hc
    · intro _; rfl
    · intro h; exact absurd rfl h
  · split_ifs with hc
    · obtain ⟨h1, _⟩ := hc
      intro h
      exact absurd (List.append_eq_nil.mp h).1 h1
    · intro _; rfl
  · intro hne
    rw [if_neg (fun hc => hne hc.2.2.1)]

/-- C24, applied: `c = 5 OR c = 9 OR c = 3` on the column 0, read as
`(c = 5 OR c = 9) OR c = 3` and as `c = 5 OR (c = 9 OR c = 3)`, gives the keys
`[5, 9, 3]`. -/
theorem ExtractOrKeys_of_or_witness :
    ExtractOrKeys (AbstractExpression.LogicExpression LogicType.Or
        (AbstractExpression.LogicExpression LogicType.Or
          (AbstractExpression.ComparisonExpression ComparisonType.Equal
            (AbstractExpression.ColumnValueExpression 0 0)
            (AbstractExpression.ConstantValueExpression (Value.integer 5)))
          (AbstractExpression.ComparisonExpression ComparisonType.Equal
            (AbstractExpression.ColumnValueExpression 0 0)
            (AbstractExpression.ConstantValueExpression (Value.integer 9))))
        (AbstractExpression.ComparisonExpression ComparisonType.Equal
          (AbstractExpression.ColumnValueExpression 0 0)
          (AbstractExpression.ConstantValueExpression (Value.integer 3))))
      = ([AbstractExpression.ConstantValueExpression (Value.integer 5),
          AbstractExpression.ConstantValueExpression (Value.integer 9),
          AbstractExpression.ConstantValueExpression (Value.integer 3)], 0) ∧
    ExtractOrKeys (AbstractExpression.LogicExpression LogicType.Or
        (AbstractExpression.ComparisonExpression ComparisonType.Equal
          (AbstractExpression.ColumnValueExpression 0 0)
          (AbstractExpression.ConstantValueExpression (Value.integer 5)))
        (AbstractExpression.LogicExpression LogicType.Or
          (AbstractExpression.ComparisonExpression ComparisonType.Equal
            (AbstractExpression.ColumnValueExpression 0 0)
            (AbstractExpression.ConstantValueExpression (Value.integer 9)))
          (AbstractExpression.ComparisonExpression ComparisonType.Equal
            (AbstractExpression.ConstantValueExpression (Value.integer 3))
            (AbstractExpression.ColumnValueExpression 0 0))))
      = ([AbstractExpression.ConstantValueExpression (Value.integer 5),
          AbstractExpression.ConstantValueExpression (Value.integer 9),
          AbstractExpression.ConstantValueExpression (Value.integer 3)], 0) :=
  ⟨(ExtractOrKeys_of_or 0 (by decide)).2 _ _ (by decide),
    (ExtractOrKeys_of_or 0 (by decide)).2 _ _ (by decide)⟩

/-- C25.  `ExtractOrKeys` returns the empty key list and the invalid column id
for an `And`, for a comparison other than `Equal`, for an `Equal` between two
columns or between two constants, for an `Equal` whose column has a tuple index
other than 0, and for an `Or` one side of which gives the empty key list; an
empty key list always comes with the invalid column id; a key list that is not
empty is returned only for an Or-tree of equalities between the returned column
and constants, of which it holds the constants; and then the filter holds of a
tuple, whenever it evaluates, exactly when the tuple has the value of one of
the returned keys in the returned column. -/
theorem ExtractOrKeys_of_other_shapes :
    (∀ a b : AbstractExpression,
      ExtractOrKeys (AbstractExpression.LogicExpression LogicType.And a b) = ([], UINT32_MAX)) ∧
    (∀ (ty : ComparisonType) (l r : AbstractExpression), ty ≠ ComparisonType.Equal →
      ExtractOrKeys (AbstractExpression.ComparisonExpression ty l r) = ([], UINT32_MAX)) ∧
    (∀ t1 c1 t2 c2 : Nat,
      ExtractOrKeys (AbstractExpression.ComparisonExpression ComparisonType.Equal
        (AbstractExpression.ColumnValueExpression t1 c1)
        (AbstractExpression.ColumnValueExpression t2 c2)) = ([], UINT32_MAX)) ∧
    (∀ v1 v2 : Value,
      ExtractOrKeys (AbstractExpression.ComparisonExpression ComparisonType.Equal
        (AbstractExpression.ConstantValueExpression v1)
        (AbstractExpression.ConstantValueExpression v2)) = ([], UINT32_MAX)) ∧
    (∀ (tuple_idx col_idx : Nat) (val : Value), tuple_idx ≠ 0 →
      ExtractOrKeys (AbstractExpression.ComparisonExpression ComparisonType.Equal
        (AbstractExpression.ColumnValueExpression tuple_idx col_idx)
        (AbstractExpression.ConstantValueExpression val)) = ([], UINT32_MAX) ∧
      ExtractOrKeys (AbstractExpression.ComparisonExpression ComparisonType.Equal
        (AbstractExpression.ConstantValueExpression val)
        (AbstractExpression.ColumnValueExpression tuple_idx col_idx)) = ([], UINT32_MAX)) ∧
    (∀ a b : AbstractExpression, (ExtractOrKeys a).1 = [] ∨ (ExtractOrKeys b).1 = [] →
      ExtractOrKeys (AbstractExpression.LogicExpression LogicType.Or a b) = ([], UINT32_MAX)) ∧
    (∀ e : AbstractExpression, (ExtractOrKeys e).1 = [] → (ExtractOrKeys e).2 = UINT32_MAX) ∧
    (∀ e : AbstractExpression, (ExtractOrKeys e).1 ≠ [] →
      disjunctionKeys (ExtractOrKeys e).2 e = some (ExtractOrKeys e).1) ∧
    (∀ (e : AbstractExpression) (t : Tuple) (v : Value), (ExtractOrKeys e).1 ≠ [] →
      e.Evaluate (some t) = Outcome.ok v →
      (v.GetAsBool = true ↔
        ∃ key ∈ (ExtractOrKeys e).1, ∃ x, key.Evaluate none = Outcome.ok x ∧
          t.GetValue (ExtractOrKeys e).2 = Outcome.ok x)) := by
  refine ⟨extractOrKeys_and, ?_, ?_, ?_, ?_, ?_, extractOrKeys_nil_col,
    disjunctionKeys_of_extractOrKeys, ?_⟩
  · intro ty l r hty
    unfold ExtractOrKeys
    rw [if_neg hty]
  · intro t1 c1 t2 c2
    simp [ExtractOrKeys, AbstractExpression.asColumnValue, AbstractExpression.asConstantValue]
  · intro v1 v2
    simp [ExtractOrKeys, AbstractExpression.asColumnValue, AbstractExpression.asConstantValue]
  · intro ti ci v hti
    constructor <;>
      simp [ExtractOrKeys, AbstractExpression.asColumnValue, AbstractExpression.asConstantValue,
        hti]
  · intro a b h
    rw [extractOrKeys_or, if_neg]
    rintro ⟨h1, h2, _⟩
    rcases h with h | h
    · exact h1 h
    · exact h2 h
  · intro e t v hne hv
    exact disjunctionKeys_evaluate _ t e _ v (disjunctionKeys_of_extractOrKeys e hne) hv

/-! ## Optimizer rule: the rewrite of a plan -/

theorem findIndexOn_some (col_idx : Nat) :
    ∀ (indices : List IndexInfo) (index : IndexInfo), findIndexOn col_idx indices = some index →
      ∃ pre post, indices = pre ++ index :: post ∧ index.key_attrs.head? = some col_idx ∧
        ∀ j ∈ pre, j.key_attrs.head? ≠ some col_idx := by
  intro indices
  induction indices with
  | nil => intro index h; simp [findIndexOn] at h
  | cons i rest ih =>
    intro index h
    unfold findIndexOn at h
    cases hk : i.key_attrs with
    | nil =>
      simp only [hk] at h
      obtain ⟨pre, post, h1, h2, h3⟩ := ih index h
      refine ⟨i :: pre, post, by rw [h1]; rfl, h2, ?_⟩
      intro j hj
      rcases List.mem_cons.mp hj with e | e
      · subst e
        simp [hk]
      · exact h3 j e
    | cons first more =>
      simp only [hk] at h
      by_cases hf : first = col_idx
      · rw [if_pos hf] at h
        simp only [Option.some.injEq] at h
        subst h
        exact ⟨[], rest, rfl, by simp [hk, hf], by simp⟩
      · rw [if_neg hf] at h
        obtain ⟨pre, post, h1, h2, h3⟩ := ih index h
        refine ⟨i :: pre, post, by rw [h1]; rfl, h2, ?_⟩
        intro j hj
        rcases List.mem_cons.mp hj with e | e
        · subst e
          simp [hk, hf]
        · exact h3 j e

theorem findIndexOn_none (col_idx : Nat) :
    ∀ (indices : List IndexInfo), findIndexOn col_idx indices = none →
      ∀ j ∈ indices, j.key_attrs.head? ≠ some col_idx := by
  intro indices
  induction indices with
  | nil => intro _ j hj; simp at hj
  | cons i rest ih =>
    intro h j hj
    unfold findIndexOn at h
    cases hk : i.key_attrs with
    | nil =>
      simp only [hk] at h
      rcases List.mem_cons.mp hj with e | e
      · subst e
        simp [hk]
      · exact ih h j e
    | cons first more =>
      simp only [hk] at h
      by_cases hf : first = col_idx
      · rw [if_pos hf] at h
        cases h
      · rw [if_neg hf] at h
        rcases List.mem_cons.mp hj with e | e
        · subst e
          simp [hk, hf]
        · exact ih h j e

/-- The rewritten children are the children, each rewritten. -/
theorem optimizeChildren_iff (catalog_ : Catalog) :
    ∀ (cs cs1 : PlanChildren), optimizeChildren catalog_ cs = Outcome.ok cs1 ↔
      List.Forall₂ (fun c c1 => OptimizeSeqScanAsIndexScan catalog_ c = Outcome.ok c1)
        cs.toList cs1.toList
  | PlanChildren.nil, cs1 => by
    unfold optimizeChildren
    cases cs1 with
    | nil => simp [PlanChildren.toList]
    | cons c rest => simp [PlanChildren.toList]
  | PlanChildren.cons c rest, cs1 => by
    unfold optimizeChildren
    cases hc : OptimizeSeqScanAsIndexScan catalog_ c with
    | ok c1 =>
      simp only [Outcome.ok_bind]
      cases hr : optimizeChildren catalog_ rest with
      | ok rest1 =>
        simp only [Outcome.ok_bind, Outcome.pure_eq_ok, Outcome.ok.injEq]
        constructor
        · intro h
          subst h
          exact List.Forall₂.cons hc ((optimizeChildren_iff catalog_ rest rest1).mp hr)
        · intro h
          cases cs1 with
          | nil => simp [PlanChildren.toList] at h
          | cons d rest2 =>
            simp only [PlanChildren.toList, List.forall₂_cons] at h
            obtain ⟨h1, h2⟩ := h
            rw [hc] at h1
            cases h1
            have := (optimizeChildren_iff catalog_ rest rest2).mpr h2
            rw [hr] at this
            cases this
            rfl
      | ensureFailed =>
        simp only [Outcome.ensureFailed_bind]
        constructor
        · intro h; cases h
        · intro h
          cases cs1 with
          | nil => simp [PlanChildren.toList] at h
          | cons d rest2 =>
            simp only [PlanChildren.toList, List.forall₂_cons] at h
            have := (optimizeChildren_iff catalog_ rest rest2).mpr h.2
            rw [hr] at this
            cases this
      | undefinedBehaviour =>
        simp only [Outcome.undefinedBehaviour_bind]
        constructor
        · intro h; cases h
        · intro h
          cases cs1 with
          | nil => simp [PlanChildren.toList] at h
          | cons d rest2 =>
            simp only [PlanChildren.toList, List.forall₂_cons] at h
            have := (optimizeChildren_iff catalog_ rest rest2).mpr h.2
            rw [hr] at this
            cases this
      | outOfFuel =>
        simp only [Outcome.outOfFuel_bind]
        constructor
        · intro h; cases h
        · intro h
          cases cs1 with
          | nil => simp [PlanChildren.toList] at h
          | cons d rest2 =>
            simp only [PlanChildren.toList, List.forall₂_cons] at h
            have := (optimizeChildren_iff catalog_ rest rest2).mpr h.2
            rw [hr] at this
            cases this
    | ensureFailed =>
      simp only [Outcome.ensureFailed_bind]
      constructor
      · intro h; cases h
      · intro h
        cases cs1 with
        | nil => simp [PlanChildren.toList] at h
        | cons d rest2 =>
          simp only [PlanChildren.toList, List.forall₂_cons] at h
          rw [hc] at h
          cases h.1
    | undefinedBehaviour =>
      simp only [Outcome.undefinedBehaviour_bind]
      constructor
      · intro h; cases h
      · intro h
        cases cs1 with
        | nil => simp [PlanChildren.toList] at h
        | cons d rest2 =>
          simp only [PlanChildren.toList, List.forall₂_cons] at h
          rw [hc] at h
          cases h.1
    | outOfFuel =>
      simp only [Outcome.outOfFuel_bind]
      constructor
      · intro h; cases h
      · intro h
        cases cs1 with
        | nil => simp [PlanChildren.toList] at h
        | cons d rest2 =>
          simp only [PlanChildren.toList, List.forall₂_cons] at h
          rw [hc] at h
          cases h.1

/-- The rewrite of a sequential scan with a filter on a table of the catalog,
by the index that the loop over the indexes finds. -/
theorem rewriteSeqScan_eq (catalog_ : Catalog) (s : SeqScanPlanNode)
    (filter : AbstractExpression) (table_info : TableInfo)
    (hf : s.filter_predicate_ = some filter)
    (ht : catalog_.GetTable s.table_oid_ = some table_info) :
    rewriteSeqScan catalog_ s
      = if (ExtractOrKeys filter).1 ≠ [] ∧ (ExtractOrKeys filter).2 ≠ UINT32_MAX then
          match findIndexOn (ExtractOrKeys filter).2
              (catalog_.GetTableIndexes table_info.name_) with
          | some index =>
            Outcome.ok (AbstractPlanNode.IndexScan
              { output_schema_ := s.output_schema_, table_oid_ := s.table_oid_,
                index_oid_ := index.index_oid_, filter_predicate_ := s.filter_predicate_,
                pred_keys_ := (ExtractOrKeys filter).1 })
          | none => Outcome.ok (AbstractPlanNode.SeqScan s)
        else Outcome.ok (AbstractPlanNode.SeqScan s) := by
  unfold rewriteSeqScan
  simp only [hf, ht]

/-- C22.  `OptimizeSeqScanAsIndexScan` on a sequential scan without filter
returns the node.  On a sequential scan with a filter on a table of the
catalog it returns an index scan exactly when `ExtractOrKeys` gives keys and a
valid column id for the filter and an index of the table has that column as
its first key attribute; the index scan carries the output schema, the table
oid and the filter of the sequential scan, the extracted keys and the oid of
the first such index in the order of the catalog; otherwise it returns the
node.  It returns an index scan as it is, and a node of another type with its
children rewritten and nothing else changed. -/
theorem OptimizeSeqScanAsIndexScan_cases (catalog_ : Catalog) :
    (∀ s : SeqScanPlanNode, s.filter_predicate_ = none →
      OptimizeSeqScanAsIndexScan catalog_ (AbstractPlanNode.SeqScan s)
        = Outcome.ok (AbstractPlanNode.SeqScan s)) ∧
    (∀ (s : SeqScanPlanNode) (filter : AbstractExpression) (table_info : TableInfo),
      s.filter_predicate_ = some filter → catalog_.GetTable s.table_oid_ = some table_info →
      ((∃ node, OptimizeSeqScanAsIndexScan catalog_ (AbstractPlanNode.SeqScan s)
            = Outcome.ok (AbstractPlanNode.IndexScan node)) ↔
        ((ExtractOrKeys filter).1 ≠ [] ∧ (ExtractOrKeys filter).2 ≠ UINT32_MAX ∧
          ∃ index ∈ catalog_.GetTableIndexes table_info.name_,
            index.key_attrs.head? = some (ExtractOrKeys filter).2)) ∧
      (∀ node, OptimizeSeqScanAsIndexScan catalog_ (AbstractPlanNode.SeqScan s)
            = Outcome.ok (AbstractPlanNode.IndexScan node) →
        node.output_schema_ = s.output_schema_ ∧ node.table_oid_ = s.table_oid_ ∧
        node.filter_predicate_ = s.filter_predicate_ ∧
        node.pred_keys_ = (ExtractOrKeys filter).1 ∧
        ∃ pre index post, catalog_.GetTableIndexes table_info.name_ = pre ++ index :: post ∧
          index.key_attrs.head? = some (ExtractOrKeys filter).2 ∧
          (∀ j ∈ pre, j.key_attrs.head? ≠ some (ExtractOrKeys filter).2) ∧
          node.index_oid_ = index.index_oid_) ∧
      ((¬ ∃ node, OptimizeSeqScanAsIndexScan catalog_ (AbstractPlanNode.SeqScan s)
            = Outcome.ok (AbstractPlanNode.IndexScan node)) →
        OptimizeSeqScanAsIndexScan catalog_ (AbstractPlanNode.SeqScan s)
          = Outcome.ok (AbstractPlanNode.SeqScan s))) ∧
    (∀ node : IndexScanPlanNode,
      OptimizeSeqScanAsIndexScan catalog_ (AbstractPlanNode.IndexScan node)
        = Outcome.ok (AbstractPlanNode.IndexScan node)) ∧
    (∀ (type_name : String) (output_schema_ : Schema) (children_ : PlanChildren)
        (p : AbstractPlanNode),
      OptimizeSeqScanAsIndexScan catalog_
          (AbstractPlanNode.Other type_name output_schema_ children_) = Outcome.ok p ↔
        ∃ children1, p = AbstractPlanNode.Other type_name output_schema_ children1 ∧
          List.Forall₂ (fun c c1 => OptimizeSeqScanAsIndexScan catalog_ c = Outcome.ok c1)
            children_.toList children1.toList) := by
  refine ⟨?_, ?_, ?_, ?_⟩
  · intro s hs
    unfold OptimizeSeqScanAsIndexScan rewriteSeqScan
    simp only [hs]
  · intro s filter table_info hf ht
    have hopt : OptimizeSeqScanAsIndexScan catalog_ (AbstractPlanNode.SeqScan s)
        = rewriteSeqScan catalog_ s := by
      unfold OptimizeSeqScanAsIndexScan
      rfl
    rw [hopt, rewriteSeqScan_eq catalog_ s filter table_info hf ht]
    by_cases hc : (ExtractOrKeys filter).1 ≠ [] ∧ (ExtractOrKeys filter).2 ≠ UINT32_MAX
    · rw [if_pos hc]
      cases hfi : findIndexOn (ExtractOrKeys filter).2
          (catalog_.GetTableIndexes table_info.name_) with
      | none =>
        have hnone := findIndexOn_none _ _ hfi
        refine ⟨⟨?_, ?_⟩, ?_, fun _ => rfl⟩
        · rintro ⟨node, h⟩
          cases h
        · rintro ⟨_, _, index, hi, hh⟩
          exact absurd hh (hnone index hi)
        · intro node h
          cases h
      | some index =>
        obtain ⟨pre, post, h1, h2, h3⟩ := findIndexOn_some _ _ index hfi
        refine ⟨⟨fun _ => ⟨hc.1, hc.2, index, ?_, h2⟩, fun _ => ⟨_, rfl⟩⟩, ?_, ?_⟩
        · rw [h1]
          simp
        · intro node h
          simp only [Outcome.ok.injEq, AbstractPlanNode.IndexScan.injEq] at h
          subst h
          exact ⟨rfl, rfl, rfl, rfl, pre, index, post, h1, h2, h3, rfl⟩
        · intro h
          exact absurd ⟨_, rfl⟩ h
    · rw [if_neg hc]
      refine ⟨⟨?_, ?_⟩, ?_, fun _ => rfl⟩
      · rintro ⟨node, h⟩
        cases h
      · rintro ⟨h1, h2, _⟩
        exact absurd ⟨h1, h2⟩ hc
      · intro node h
        cases h
  · intro node
    unfold OptimizeSeqScanAsIndexScan
    rfl
  · intro type_name output_schema_ children_ p
    conv_lhs => unfold OptimizeSeqScanAsIndexScan
    cases hr : optimizeChildren catalog_ children_ with
    | ok cs1 =>
      simp only [Outcome.ok_bind, Outcome.pure_eq_ok, Outcome.ok.injEq]
      constructor
      · intro h
        exact ⟨cs1, h.symm, (optimizeChildren_iff catalog_ children_ cs1).mp hr⟩
      · rintro ⟨cs2, h1, h2⟩
        have := (optimizeChildren_iff catalog_ children_ cs2).mpr h2
        rw [hr] at this
        cases this
        exact h1.symm
    | ensureFailed =>
      simp only [Outcome.ensureFailed_bind]
      constructor
      · intro h; cases h
      · rintro ⟨cs2, _, h2⟩
        have := (optimizeChildren_iff catalog_ children_ cs2).mpr h2
        rw [hr] at this
        cases this
    | undefinedBehaviour =>
      simp only [Outcome.undefinedBehaviour_bind]
      constructor
      · intro h; cases h
      · rintro ⟨cs2, _, h2⟩
        have := (optimizeChildren_iff catalog_ children_ cs2).mpr h2
        rw [hr] at this
        cases this
    | outOfFuel =>
      simp only [Outcome.outOfFuel_bind]
      constructor
      · intro h; cases h
      · rintro ⟨cs2, _, h2⟩
        have := (optimizeChildren_iff catalog_ children_ cs2).mpr h2
        rw [hr] at this
        cases this

/-! ## LRU-K replacer: thirteen accesses to six frames -/

/-- C30, the claim fails: with `k = 2` and capacity 7, after `RecordAccess` on
the frames 1, 2, 3, 4, 5, 6, 1, 2, 3, 4, 5, 6, 1 and `SetEvictable(f, true)` for
every frame, frame 6 has two recorded accesses (the timestamps 11 and 5), and
`Evict()` returns frame 2, not frame 6. -/
theorem Evict_after_thirteen_accesses_is_not_frame_6 :
    ((recordAccesses [1, 2, 3, 4, 5, 6, 1, 2, 3, 4, 5, 6, 1] (LRUKReplacer.new 7 2)).andThen
        (setEvictableAll [1, 2, 3, 4, 5, 6])).andThen
        (fun s => Res.done (findNode s.node_store_ 6) s)
      = Res.done (some { history_ := [11, 5], is_evictable_ := true })
          { node_store_ := [(6, { history_ := [11, 5], is_evictable_ := true }),
                            (5, { history_ := [10, 4], is_evictable_ := true }),
                            (4, { history_ := [9, 3], is_evictable_ := true }),
                            (3, { history_ := [8, 2], is_evictable_ := true }),
                            (2, { history_ := [7, 1], is_evictable_ := true }),
                            (1, { history_ := [12, 6], is_evictable_ := true })],
            current_timestamp_ := 13, curr_size_ := 6, replacer_size_ := 7, k_ := 2 } ∧
    ((recordAccesses [1, 2, 3, 4, 5, 6, 1, 2, 3, 4, 5, 6, 1] (LRUKReplacer.new 7 2)).andThen
        (setEvictableAll [1, 2, 3, 4, 5, 6])).andThen
        (fun s => (Evict s).andThen (fun s1 => Res.done (s.node_store_.length,
          s1.node_store_.map Prod.fst) s1))
      = Res.done (6, [6, 5, 4, 3, 1])
          { node_store_ := [(6, { history_ := [11, 5], is_evictable_ := true }),
                            (5, { history_ := [10, 4], is_evictable_ := true }),
                            (4, { history_ := [9, 3], is_evictable_ := true }),
                            (3, { history_ := [8, 2], is_evictable_ := true }),
                            (1, { history_ := [12, 6], is_evictable_ := true })],
            current_timestamp_ := 14, curr_size_ := 5, replacer_size_ := 7, k_ := 2 } := by
  constructor <;> decide

/-- C30, amended.  With `k = 2` and capacity 7, after `RecordAccess` on the
frames 1, 2, 3, 4, 5, 6, 1, 2, 3, 4, 5, 6, 1 with every frame set evictable (at
the end, or after each access), every frame has two recorded accesses: frame 1
was accessed three times and keeps the timestamps of its two most recent
accesses.  No frame has an infinite backward distance, the backward distances
`current_ts − t` of the frames 6, 5, 4, 3, 2, 1 are 8, 9, 10, 11, 12, 7, and
`Evict()` returns frame 2, the frame with the greatest backward distance. -/
theorem Evict_after_thirteen_accesses :
    ((recordAccesses [1, 2, 3, 4, 5, 6, 1, 2, 3, 4, 5, 6, 1] (LRUKReplacer.new 7 2)).andThen
        (setEvictableAll [1, 2, 3, 4, 5, 6])).andThen
        (fun s => Res.done (s.node_store_.map (fun e => (e.1, e.2.history_.length,
          sizeSub s.current_timestamp_ (e.2.history_.getLast?.getD 0))), s.k_) s)
      = Res.done ([(6, 2, 8), (5, 2, 9), (4, 2, 10), (3, 2, 11), (2, 2, 12), (1, 2, 7)], 2)
          { node_store_ := [(6, { history_ := [11, 5], is_evictable_ := true }),
                            (5, { history_ := [10, 4], is_evictable_ := true }),
                            (4, { history_ := [9, 3], is_evictable_ := true }),
                            (3, { history_ := [8, 2], is_evictable_ := true }),
                            (2, { history_ := [7, 1], is_evictable_ := true }),
                            (1, { history_ := [12, 6], is_evictable_ := true })],
            current_timestamp_ := 13, curr_size_ := 6, replacer_size_ := 7, k_ := 2 } ∧
    ((recordAccesses [1, 2, 3, 4, 5, 6, 1, 2, 3, 4, 5, 6, 1] (LRUKReplacer.new 7 2)).andThen
        (setEvictableAll [1, 2, 3, 4, 5, 6])).andThen Evict
      = Res.done (some 2)
          { node_store_ := [(6, { history_ := [11, 5], is_evictable_ := true }),
                            (5, { history_ := [10, 4], is_evictable_ := true }),
                            (4, { history_ := [9, 3], is_evictable_ := true }),
                            (3, { history_ := [8, 2], is_evictable_ := true }),
                            (1, { history_ := [12, 6], is_evictable_ := true })],
            current_timestamp_ := 14, curr_size_ := 5, replacer_size_ := 7, k_ := 2 } ∧
    (accessAndSetEvictable [1, 2, 3, 4, 5, 6, 1, 2, 3, 4, 5, 6, 1] (LRUKReplacer.new 7 2))
      = (recordAccesses [1, 2, 3, 4, 5, 6, 1, 2, 3, 4, 5, 6, 1] (LRUKReplacer.new 7 2)).andThen
          (setEvictableAll [1, 2, 3, 4, 5, 6]) ∧
    (accessAndSetEvictable [1, 2, 3, 4, 5, 6, 1, 2, 3, 4, 5, 6, 1]
        (LRUKReplacer.new 7 2)).andThen Evict
      = Res.done (some 2)
          { node_store_ := [(6, { history_ := [11, 5], is_evictable_ := true }),
                            (5, { history_ := [10, 4], is_evictable_ := true }),
                            (4, { history_ := [9, 3], is_evictable_ := true }),
                            (3, { history_ := [8, 2], is_evictable_ := true }),
                            (1, { history_ := [12, 6], is_evictable_ := true })],
            current_timestamp_ := 14, curr_size_ := 5, replacer_size_ := 7, k_ := 2 } := by
  refine ⟨?_, ?_, ?_, ?_⟩ <;> decide

/-! ## Sequential scan -/

theorem getElem?_of_drop {α : Type} (l : List α) (k : Nat) (a : α) (rest : List α)
    (h : l.drop k = a :: rest) : l[k]? = some a := by
  have := List.getElem?_drop l k 0
  rw [h] at this
  simpa using this.symm

theorem tableHeap_getTuple_of_drop (table_ : TableHeap) (k : Nat) (slot : TupleMeta × Tuple)
    (rest : List (TupleMeta × Tuple)) (h : table_.slots.drop k = slot :: rest) :
    table_.GetTuple { page_id := 0, slot_num := k } = Outcome.ok slot := by
  unfold TableHeap.GetTuple
  simp only [if_true, getElem?_of_drop _ k slot rest h]

theorem drop_succ_of_drop {α : Type} (l : List α) (k : Nat) (a : α) (rest : List α)
    (h : l.drop k = a :: rest) : l.drop (k + 1) = rest := by
  have : l.drop (k + 1) = (l.drop k).drop 1 := by
    rw [List.drop_drop, Nat.add_comm]
  rw [this, h]
  rfl

/-- The record ids that the iterator of a heap visits. -/
theorem makeIterator_rids (table_ : TableHeap) :
    table_.MakeIterator.rids
      = (List.range' 0 table_.slots.length).map
          (fun i => ({ page_id := 0, slot_num := i } : RID)) := by
  unfold TableHeap.MakeIterator
  rw [List.range_eq_range']

/-- The rows from slot `k` on: the first slot is a row or is left out. -/
theorem liveFrom_cons (filter_predicate_ : Option AbstractExpression) (k : Nat)
    (slot : TupleMeta × Tuple) (rest : List (TupleMeta × Tuple)) :
    ((slotsFrom k (slot :: rest)).filter
        (fun r => !r.2.1.is_deleted_ && filterHolds filter_predicate_ r.2.2)).map
        (fun r => (r.2.2, r.1))
      = if (!slot.1.is_deleted_ && filterHolds filter_predicate_ slot.2) = true then
          (slot.2, ({ page_id := 0, slot_num := k } : RID)) ::
            ((slotsFrom (k + 1) rest).filter
              (fun r => !r.2.1.is_deleted_ && filterHolds filter_predicate_ r.2.2)).map
              (fun r => (r.2.2, r.1))
        else
          ((slotsFrom (k + 1) rest).filter
            (fun r => !r.2.1.is_deleted_ && filterHolds filter_predicate_ r.2.2)).map
            (fun r => (r.2.2, r.1)) := by
  simp only [slotsFrom, List.filter_cons]
  split_ifs <;> rfl

/-- One step of the loop of the scan: the slot is emitted or skipped. -/
theorem seqScanLoop_step (table_ : TableHeap) (filter_predicate_ : Option AbstractExpression)
    (rid : RID) (rest : List RID) (slot : TupleMeta × Tuple)
    (hget : table_.GetTuple rid = Outcome.ok slot)
    (hev : slot.1.is_deleted_ = false → ∀ filter, filter_predicate_ = some filter →
      ∃ v, filter.Evaluate (some slot.2) = Outcome.ok v) :
    seqScanLoop table_ filter_predicate_ (rid :: rest)
      = if (!slot.1.is_deleted_ && filterHolds filter_predicate_ slot.2) = true then
          Outcome.ok (some (slot.2, rid), rest)
        else seqScanLoop table_ filter_predicate_ rest := by
  conv_lhs => unfold seqScanLoop
  simp only [hget, Outcome.ok_bind]
  by_cases hdel : slot.1.is_deleted_ = true
  · simp only [hdel, if_true, Bool.not_true, Bool.false_and, Bool.false_eq_true, if_false]
  · have hdel0 : slot.1.is_deleted_ = false := by simpa using hdel
    simp only [hdel0, Bool.false_eq_true, if_false, Bool.not_false, Bool.true_and]
    cases filter_predicate_ with
    | none => simp only [filterHolds, if_true, Outcome.pure_eq_ok]
    | some filter =>
      obtain ⟨v, hv⟩ := hev hdel0 filter rfl
      simp only [hv, Outcome.ok_bind, filterHolds, Outcome.pure_eq_ok]
      by_cases hb : v.GetAsBool = true
      · simp only [hb, if_true, Bool.true_eq_false, if_false]
      · have hb0 : v.GetAsBool = false := by simpa using hb
        simp only [hb0, if_true, Bool.false_eq_true, if_false]

/-- The scan from slot `k` on emits the rows from slot `k` on that are not
deleted and of which the filter holds, and leaves the iterator at its end. -/
theorem seqScan_run_from (exec_ctx_ : ExecutorContext) (plan_ : SeqScanPlanNode)
    (table_info : TableInfo) (ht : exec_ctx_.catalog_.GetTable plan_.table_oid_ = some table_info)
    (hev : ∀ slot ∈ table_info.table_.slots, slot.1.is_deleted_ = false →
      ∀ filter, plan_.filter_predicate_ = some filter →
        ∃ v, filter.Evaluate (some slot.2) = Outcome.ok v) :
    ∀ (suffix : List (TupleMeta × Tuple)) (k n : Nat), table_info.table_.slots.drop k = suffix →
      suffix.length < n →
      SeqScanExecutor.run exec_ctx_ n
          { plan_ := plan_, table_iterator_ :=
              { rids := (List.range' k suffix.length).map
                  (fun i => ({ page_id := 0, slot_num := i } : RID)) } }
        = Outcome.ok
            (((slotsFrom k suffix).filter
                (fun r => !r.2.1.is_deleted_ && filterHolds plan_.filter_predicate_ r.2.2)).map
                (fun r => (r.2.2, r.1)),
              { plan_ := plan_, table_iterator_ := { rids := [] } }) := by
  intro suffix
  induction suffix with
  | nil =>
    intro k n _ hn
    obtain ⟨n1, rfl⟩ : ∃ n1, n = n1 + 1 := ⟨n - 1, by simp at hn; omega⟩
    simp [SeqScanExecutor.run, SeqScanExecutor.Next, ht, seqScanLoop, slotsFrom]
  | cons slot rest ih =>
    intro k n hdrop hn
    simp only [List.length_cons] at hn
    obtain ⟨n1, rfl⟩ : ∃ n1, n = n1 + 1 := ⟨n - 1, by omega⟩
    have hget := tableHeap_getTuple_of_drop _ k slot rest hdrop
    have hdrop1 := drop_succ_of_drop _ k slot rest hdrop
    have hmem : slot ∈ table_info.table_.slots := by
      have : slot ∈ table_info.table_.slots.drop k := by rw [hdrop]; exact List.mem_cons_self _ _
      exact List.mem_of_mem_drop this
    have hrids : (List.range' k (slot :: rest).length).map
          (fun i => ({ page_id := 0, slot_num := i } : RID))
        = { page_id := 0, slot_num := k } ::
          (List.range' (k + 1) rest.length).map
            (fun i => ({ page_id := 0, slot_num := i } : RID)) := by
      simp [List.range'_succ]
    rw [hrids, liveFrom_cons]
    have hstep := seqScanLoop_step table_info.table_ plan_.filter_predicate_
      { page_id := 0, slot_num := k }
      ((List.range' (k + 1) rest.length).map (fun i => ({ page_id := 0, slot_num := i } : RID)))
      slot hget (hev slot hmem)
    have ih1 := ih (k + 1) (n1 + 1) hdrop1 (by omega)
    by_cases hc : (!slot.1.is_deleted_ && filterHolds plan_.filter_predicate_ slot.2) = true
    · rw [if_pos hc] at hstep ⊢
      have ih0 := ih (k + 1) n1 hdrop1 (by omega)
      conv_lhs => unfold SeqScanExecutor.run
      simp only [SeqScanExecutor.Next, ht, hstep, Outcome.ok_bind, Outcome.pure_eq_ok]
      rw [ih0]
      rfl
    · rw [if_neg hc] at hstep ⊢
      rw [← ih1]
      conv_lhs => unfold SeqScanExecutor.run
      conv_rhs => unfold SeqScanExecutor.run
      simp only [SeqScanExecutor.Next, ht, hstep]

/-- C27.  For a sequential scan of a table of the catalog whose filter, when
there is one, evaluates on every tuple of the heap that is not deleted: the
rows that the calls of `Next` emit after `Init`, with their record ids, are the
slots of the heap in the order of the iterator that are not deleted and of
which the filter holds; the call after the last row returns false, and so does
every call after it. -/
theorem SeqScan_emits_live_rows (exec_ctx_ : ExecutorContext) (plan_ : SeqScanPlanNode)
    (table_info : TableInfo) (n : Nat)
    (ht : exec_ctx_.catalog_.GetTable plan_.table_oid_ = some table_info)
    (hev : ∀ slot ∈ table_info.table_.slots, slot.1.is_deleted_ = false →
      ∀ filter, plan_.filter_predicate_ = some filter →
        ∃ v, filter.Evaluate (some slot.2) = Outcome.ok v)
    (hn : table_info.table_.slots.length < n) :
    ∃ e e1, SeqScanExecutor.Init exec_ctx_ plan_ = Outcome.ok e ∧
      SeqScanExecutor.run exec_ctx_ n e
        = Outcome.ok (liveRows table_info.table_ plan_.filter_predicate_, e1) ∧
      SeqScanExecutor.Next exec_ctx_ e1 = Outcome.ok (none, e1) := by
  refine ⟨{ plan_ := plan_, table_iterator_ := table_info.table_.MakeIterator },
    { plan_ := plan_, table_iterator_ := { rids := [] } }, ?_, ?_, ?_⟩
  · unfold SeqScanExecutor.Init
    rw [ht]
  · have hit : table_info.table_.MakeIterator
        = { rids := (List.range' 0 table_info.table_.slots.length).map
              (fun i => ({ page_id := 0, slot_num := i } : RID)) } := by
      unfold TableHeap.MakeIterator
      rw [List.range_eq_range']
    rw [hit]
    exact seqScan_run_from exec_ctx_ plan_ table_info ht hev _ 0 n (List.drop_zero _) hn
  · simp [SeqScanExecutor.Next, ht, seqScanLoop]

/-- C27, applied to the table `t` of the example, whose heap holds the rows
`(1, 10)`, `(2, 20)` (deleted), `(3, 30)` and `(5, 40)`: the scan with the
filter `c0 = 1 OR c0 = 5` emits the rows of the slots 0 and 3. -/
theorem SeqScan_emits_live_rows_witness :
    (∃ e e1,
      SeqScanExecutor.Init (exampleContext [])
          (exampleSeqScan (some (AbstractExpression.LogicExpression LogicType.Or
            (columnEquals 0 1) (columnEquals 0 5)))) = Outcome.ok e ∧
      SeqScanExecutor.run (exampleContext []) 5 e
        = Outcome.ok
            (liveRows exampleTable.table_
              (exampleSeqScan (some (AbstractExpression.LogicExpression LogicType.Or
                (columnEquals 0 1) (columnEquals 0 5)))).filter_predicate_, e1) ∧
      SeqScanExecutor.Next (exampleContext []) e1 = Outcome.ok (none, e1)) ∧
    liveRows exampleTable.table_
        (exampleSeqScan (some (AbstractExpression.LogicExpression LogicType.Or
          (columnEquals 0 1) (columnEquals 0 5)))).filter_predicate_
      = [(integerRow [1, 10], { page_id := 0, slot_num := 0 }),
         (integerRow [5, 40], { page_id := 0, slot_num := 3 })] :=
  ⟨SeqScan_emits_live_rows (exampleContext [])
    (exampleSeqScan (some (AbstractExpression.LogicExpression LogicType.Or
      (columnEquals 0 1) (columnEquals 0 5)))) exampleTable 5 rfl
    (by
      intro slot hs _ filter hf
      have hf1 : AbstractExpression.LogicExpression LogicType.Or
          (columnEquals 0 1) (columnEquals 0 5) = filter := Option.some.inj hf
      subst hf1
      have hs1 : slot ∈ [(({ ts_ := 0, is_deleted_ := false } : TupleMeta), integerRow [1, 10]),
          ({ ts_ := 0, is_deleted_ := true }, integerRow [2, 20]),
          ({ ts_ := 0, is_deleted_ := false }, integerRow [3, 30]),
          ({ ts_ := 0, is_deleted_ := false }, integerRow [5, 40])] := hs
      simp only [List.mem_cons, List.mem_singleton, List.not_mem_nil, or_false] at hs1
      rcases hs1 with h | h | h | h <;> subst h <;> exact ⟨_, rfl⟩)
    (by decide), by decide⟩
/-! ## Index scan -/

theorem ridSetInsert_mem (rid_set : List RID) (rid x : RID) :
    x ∈ ridSetInsert rid_set rid ↔ x ∈ rid_set ∨ x = rid := by
  unfold ridSetInsert
  split_ifs with h
  · constructor
    · exact Or.inl
    · rintro (h1 | h1)
      · exact h1
      · exact h1 ▸ h
  · simp

theorem ridSetInsert_nodup (rid_set : List RID) (rid : RID) (h : rid_set.Nodup) :
    (ridSetInsert rid_set rid).Nodup := by
  unfold ridSetInsert
  split_ifs with h1
  · exact h
  · rw [List.nodup_append]
    refine ⟨h, List.nodup_singleton _, ?_⟩
    intro a ha hb
    rw [List.mem_singleton] at hb
    exact h1 (hb ▸ ha)

theorem foldl_ridSetInsert_mem (rids : List RID) : ∀ (rid_set : List RID) (x : RID),
    x ∈ rids.foldl ridSetInsert rid_set ↔ x ∈ rid_set ∨ x ∈ rids := by
  induction rids with
  | nil => intro rid_set x; simp
  | cons r rest ih =>
    intro rid_set x
    rw [List.foldl_cons, ih, ridSetInsert_mem, List.mem_cons]
    tauto

theorem foldl_ridSetInsert_nodup (rids : List RID) : ∀ (rid_set : List RID),
    rid_set.Nodup → (rids.foldl ridSetInsert rid_set).Nodup := by
  induction rids with
  | nil => intro rid_set h; exact h
  | cons r rest ih =>
    intro rid_set h
    rw [List.foldl_cons]
    exact ih _ (ridSetInsert_nodup _ _ h)

/-- The loop of a point lookup over keys whose lookups return: the set holds
the record ids that it held and those of the lookups, each once. -/
theorem pointLookupLoop_ok (fuel : Nat) (table_info : TableInfo) (index_info : IndexInfo) :
    ∀ (keys : List AbstractExpression) (rid_set : List RID),
      (∀ key ∈ keys, ∃ x rids, key.Evaluate none = Outcome.ok x ∧
        index_info.ScanKey fuel { values := [x] } = Outcome.ok rids) →
      ∃ out, pointLookupLoop fuel (some table_info) index_info keys rid_set = Outcome.ok out ∧
        (rid_set.Nodup → out.Nodup) ∧
        ∀ rid, rid ∈ out ↔ rid ∈ rid_set ∨ ∃ key ∈ keys, ∃ x rids,
          key.Evaluate none = Outcome.ok x ∧
          index_info.ScanKey fuel { values := [x] } = Outcome.ok rids ∧ rid ∈ rids := by
  intro keys
  induction keys with
  | nil =>
    intro rid_set _
    exact ⟨rid_set, rfl, id, fun rid => by simp⟩
  | cons key rest ih =>
    intro rid_set h
    obtain ⟨x, rids, hx, hr⟩ := h key (List.mem_cons_self _ _)
    obtain ⟨out, ho, hnd, hmem⟩ := ih (rids.foldl ridSetInsert rid_set)
      (fun k hk => h k (List.mem_cons_of_mem _ hk))
    refine ⟨out, ?_, fun hn => hnd (foldl_ridSetInsert_nodup _ _ hn), ?_⟩
    · unfold pointLookupLoop
      simp only [hx, hr, Outcome.ok_bind]
      exact ho
    · intro rid
      rw [hmem, foldl_ridSetInsert_mem]
      constructor
      · rintro ((h1 | h1) | ⟨k, hk, y, rs, h1, h2, h3⟩)
        · exact Or.inl h1
        · exact Or.inr ⟨key, List.mem_cons_self _ _, x, rids, hx, hr, h1⟩
        · exact Or.inr ⟨k, List.mem_cons_of_mem _ hk, y, rs, h1, h2, h3⟩
      · rintro (h1 | ⟨k, hk, y, rs, h1, h2, h3⟩)
        · exact Or.inl (Or.inl h1)
        · rcases List.mem_cons.mp hk with e | e
          · subst e
            rw [hx] at h1
            cases h1
            rw [hr] at h2
            cases h2
            exact Or.inl (Or.inr h3)
          · exact Or.inr ⟨k, e, y, rs, h1, h2, h3⟩

theorem fetchLive_cons (h : TableHeap) (rid : RID) (rest : List RID) (slot : TupleMeta × Tuple)
    (hget : h.GetTuple rid = Outcome.ok slot) :
    fetchLive h (rid :: rest)
      = if slot.1.is_deleted_ = true then fetchLive h rest
        else (slot.2, rid) :: fetchLive h rest := by
  unfold fetchLive
  rw [List.filterMap_cons]
  simp only [hget]
  split_ifs <;> rfl

/-- The index scan from the position `k` on emits the rows at the record ids
from `k` on that are not deleted, and leaves the position at the end. -/
theorem indexScan_run_from (exec_ctx_ : ExecutorContext) (plan_ : IndexScanPlanNode)
    (table_info : TableInfo) (ht : exec_ctx_.catalog_.GetTable plan_.table_oid_ = some table_info)
    (all : List RID) :
    ∀ (suffix : List RID) (k n : Nat), all.drop k = suffix →
      (∀ rid ∈ suffix, ∃ slot, table_info.table_.GetTuple rid = Outcome.ok slot) →
      suffix.length < n →
      IndexScanExecutor.run exec_ctx_ n { plan_ := plan_, scan_rids_ := all, current_index_ := k }
        = Outcome.ok (fetchLive table_info.table_ suffix,
            { plan_ := plan_, scan_rids_ := all, current_index_ := k + suffix.length }) := by
  intro suffix
  induction suffix with
  | nil =>
    intro k n hdrop _ hn
    obtain ⟨n1, rfl⟩ : ∃ n1, n = n1 + 1 := ⟨n - 1, by simp at hn; omega⟩
    simp [IndexScanExecutor.run, IndexScanExecutor.Next, ht, hdrop, indexScanLoop, fetchLive]
  | cons rid rest ih =>
    intro k n hdrop hall hn
    simp only [List.length_cons] at hn
    obtain ⟨n1, rfl⟩ : ∃ n1, n = n1 + 1 := ⟨n - 1, by omega⟩
    obtain ⟨slot, hget⟩ := hall rid (List.mem_cons_self _ _)
    have hdrop1 := drop_succ_of_drop _ k rid rest hdrop
    have hall1 : ∀ r ∈ rest, ∃ slot, table_info.table_.GetTuple r = Outcome.ok slot :=
      fun r hr => hall r (List.mem_cons_of_mem _ hr)
    rw [fetchLive_cons _ rid rest slot hget]
    have hk : k + (rid :: rest).length = k + 1 + rest.length := by
      simp only [List.length_cons]
      omega
    rw [hk]
    by_cases hdel : slot.1.is_deleted_ = true
    · rw [if_pos hdel, ← ih (k + 1) (n1 + 1) hdrop1 hall1 (by omega)]
      conv_lhs => unfold IndexScanExecutor.run
      conv_rhs => unfold IndexScanExecutor.run
      simp only [IndexScanExecutor.Next, ht, hdrop, hdrop1]
      conv_lhs => unfold indexScanLoop
      simp only [hget, Outcome.ok_bind, hdel, if_true]
    · rw [if_neg hdel]
      have ih0 := ih (k + 1) n1 hdrop1 hall1 (by omega)
      conv_lhs => unfold IndexScanExecutor.run
      simp only [IndexScanExecutor.Next, ht, hdrop]
      conv_lhs => unfold indexScanLoop
      have hdel0 : slot.1.is_deleted_ = false := by simpa using hdel
      simp only [hget, Outcome.ok_bind, hdel0, Bool.false_eq_true, if_false, Outcome.pure_eq_ok]
      rw [ih0]
      rfl
/-! ## The rows of a heap and the rows at record ids -/

theorem mem_slotsFrom : ∀ (l : List (TupleMeta × Tuple)) (k : Nat) (r : RID × TupleMeta × Tuple),
    r ∈ slotsFrom k l ↔ r.1.page_id = 0 ∧ k ≤ r.1.slot_num ∧ l[r.1.slot_num - k]? = some r.2 := by
  intro l
  induction l with
  | nil => intro k r; simp [slotsFrom]
  | cons a rest ih =>
    intro k r
    obtain ⟨⟨p, s⟩, slot⟩ := r
    simp only [slotsFrom, List.mem_cons, ih, Prod.mk.injEq, RID.mk.injEq]
    constructor
    · rintro (⟨⟨h1, h2⟩, h3⟩ | ⟨h1, h2, h3⟩)
      · subst h1 h2 h3
        simp
      · refine ⟨h1, by omega, ?_⟩
        have : s - k = (s - (k + 1)) + 1 := by omega
        rw [this, List.getElem?_cons_succ]
        exact h3
    · rintro ⟨h1, h2, h3⟩
      by_cases hs : s = k
      · subst hs
        left
        simp only [Nat.sub_self, List.getElem?_cons_zero, Option.some.injEq] at h3
        exact ⟨⟨h1, rfl⟩, h3.symm⟩
      · right
        refine ⟨h1, by omega, ?_⟩
        have : s - k = (s - (k + 1)) + 1 := by omega
        rw [this, List.getElem?_cons_succ] at h3
        exact h3

/-- A slot with its record id is in the heap exactly when `GetTuple` of the
record id returns the slot. -/
theorem mem_slotsFrom_zero (h : TableHeap) (r : RID × TupleMeta × Tuple) :
    r ∈ slotsFrom 0 h.slots ↔ h.GetTuple r.1 = Outcome.ok r.2 := by
  rw [mem_slotsFrom]
  unfold TableHeap.GetTuple
  simp only [Nat.zero_le, true_and, Nat.sub_zero]
  by_cases hp : r.1.page_id = 0
  · simp only [hp, if_true, true_and]
    cases h.slots[r.1.slot_num]? with
    | none => simp
    | some s => simp
  · simp [hp]

theorem slotsFrom_nodup : ∀ (l : List (TupleMeta × Tuple)) (k : Nat),
    ((slotsFrom k l).map Prod.fst).Nodup := by
  intro l
  induction l with
  | nil => intro k; simp [slotsFrom]
  | cons a rest ih =>
    intro k
    simp only [slotsFrom, List.map_cons, List.nodup_cons]
    refine ⟨?_, ih (k + 1)⟩
    intro hmem
    obtain ⟨r, hr, he⟩ := List.mem_map.mp hmem
    have := (mem_slotsFrom rest (k + 1) r).mp hr
    rw [he] at this
    simp at this

theorem slotsFrom_length : ∀ (l : List (TupleMeta × Tuple)) (k : Nat),
    (slotsFrom k l).length = l.length := by
  intro l
  induction l with
  | nil => intro k; rfl
  | cons a rest ih => intro k; simp [slotsFrom, ih]

/-- A row is among the rows of the heap exactly when its record id holds it,
it is not deleted and the filter holds of it. -/
theorem mem_liveRows (h : TableHeap) (filter_predicate_ : Option AbstractExpression) (t : Tuple)
    (rid : RID) :
    (t, rid) ∈ liveRows h filter_predicate_ ↔
      ∃ tuple_meta, h.GetTuple rid = Outcome.ok (tuple_meta, t) ∧
        tuple_meta.is_deleted_ = false ∧ filterHolds filter_predicate_ t = true := by
  unfold liveRows
  simp only [List.mem_map, List.mem_filter, mem_slotsFrom_zero, Bool.and_eq_true,
    Bool.not_eq_true', Prod.mk.injEq]
  constructor
  · rintro ⟨⟨r, m, t1⟩, ⟨h1, h2, h3⟩, h4, h5⟩
    simp only at h1 h2 h3 h4 h5
    subst h4 h5
    exact ⟨m, h1, h2, h3⟩
  · rintro ⟨m, h1, h2, h3⟩
    exact ⟨(rid, m, t), ⟨h1, h2, h3⟩, rfl, rfl⟩

theorem liveRows_nodup (h : TableHeap) (filter_predicate_ : Option AbstractExpression) :
    (liveRows h filter_predicate_).Nodup := by
  unfold liveRows
  have hnd : (slotsFrom 0 h.slots).Nodup := List.Nodup.of_map _ (slotsFrom_nodup h.slots 0)
  apply List.Nodup.map_on _ (hnd.filter _)
  intro x hx y hy hxy
  have hx1 := (mem_slotsFrom_zero h x).mp (List.mem_filter.mp hx).1
  have hy1 := (mem_slotsFrom_zero h y).mp (List.mem_filter.mp hy).1
  simp only [Prod.mk.injEq] at hxy
  rw [hxy.2] at hx1
  rw [hx1] at hy1
  have h2 : x.2 = y.2 := Outcome.ok.inj hy1
  exact Prod.ext hxy.2 h2

/-- A row is among the rows at the record ids exactly when its record id is in
the list and holds it, and it is not deleted. -/
theorem mem_fetchLive (h : TableHeap) (rids : List RID) (t : Tuple) (rid : RID) :
    (t, rid) ∈ fetchLive h rids ↔
      rid ∈ rids ∧ ∃ tuple_meta, h.GetTuple rid = Outcome.ok (tuple_meta, t) ∧
        tuple_meta.is_deleted_ = false := by
  unfold fetchLive
  rw [List.mem_filterMap]
  constructor
  · rintro ⟨r, hr, hf⟩
    cases hg : h.GetTuple r with
    | ok slot =>
      rw [hg] at hf
      simp only at hf
      by_cases hd : slot.1.is_deleted_ = true
      · rw [if_pos hd] at hf
        cases hf
      · rw [if_neg hd] at hf
        simp only [Option.some.injEq, Prod.mk.injEq] at hf
        obtain ⟨h1, h2⟩ := hf
        subst h2
        refine ⟨hr, slot.1, ?_, by simpa using hd⟩
        rw [hg, ← h1]
    | ensureFailed => rw [hg] at hf; cases hf
    | undefinedBehaviour => rw [hg] at hf; cases hf
    | outOfFuel => rw [hg] at hf; cases hf
  · rintro ⟨hr, m, hg, hd⟩
    refine ⟨rid, hr, ?_⟩
    rw [hg]
    simp [hd]

theorem fetchLive_nodup (h : TableHeap) (rids : List RID) (hnd : rids.Nodup) :
    (fetchLive h rids).Nodup := by
  unfold fetchLive
  apply List.Nodup.filterMap _ hnd
  intro a a1 b hb hb1
  have key : ∀ (r : RID), b ∈ (match h.GetTuple r with
      | Outcome.ok slot => if slot.1.is_deleted_ = true then none else some (slot.2, r)
      | _ => none) → b.2 = r := by
    intro r hm
    cases hg : h.GetTuple r with
    | ok slot =>
      rw [hg] at hm
      simp only at hm
      by_cases hd : slot.1.is_deleted_ = true
      · rw [if_pos hd] at hm
        cases hm
      · rw [if_neg hd] at hm
        simp only [Option.mem_def, Option.some.injEq] at hm
        rw [← hm]
    | ensureFailed => rw [hg] at hm; cases hm
    | undefinedBehaviour => rw [hg] at hm; cases hm
    | outOfFuel => rw [hg] at hm; cases hm
  rw [← key a hb, ← key a1 hb1]

/-- There are no more record ids in a list without repetition of record ids of
the heap than the heap has slots. -/
theorem length_le_slots (h : TableHeap) (rids : List RID) (hnd : rids.Nodup)
    (hall : ∀ rid ∈ rids, ∃ slot, h.GetTuple rid = Outcome.ok slot) :
    rids.length ≤ h.slots.length := by
  have hsub : rids ⊆ (slotsFrom 0 h.slots).map Prod.fst := by
    intro rid hr
    obtain ⟨slot, hs⟩ := hall rid hr
    exact List.mem_map.mpr ⟨(rid, slot), (mem_slotsFrom_zero h (rid, slot)).mpr hs, rfl⟩
  have := (List.Nodup.subperm hnd hsub).length_le
  rw [List.length_map, slotsFrom_length] at this
  exact this

/-- What `indexAgrees` says. -/
theorem indexAgrees_iff (h : TableHeap) (col : Nat) (index : IndexInfo) (fuel : Nat) (x : Value) :
    indexAgrees h col index fuel x = true ↔
      ∃ rids, index.ScanKey fuel { values := [x] } = Outcome.ok rids ∧
        (∀ rid ∈ rids, ∃ slot, h.GetTuple rid = Outcome.ok slot ∧
          (slot.1.is_deleted_ = false → slot.2.GetValue col = Outcome.ok x)) ∧
        (∀ rid slot, h.GetTuple rid = Outcome.ok slot → slot.1.is_deleted_ = false →
          slot.2.GetValue col = Outcome.ok x → rid ∈ rids) := by
  unfold indexAgrees
  cases hs : index.ScanKey fuel { values := [x] } with
  | ok rids =>
    simp only [Bool.and_eq_true, List.all_eq_true, Bool.or_eq_true, Bool.not_eq_true',
      decide_eq_true_eq, decide_eq_false_iff_not, Outcome.ok.injEq, exists_eq_left']
    constructor
    · rintro ⟨h1, h2⟩
      refine ⟨?_, ?_⟩
      · intro rid hr
        have := h1 rid hr
        cases hg : h.GetTuple rid with
        | ok slot =>
          rw [hg] at this
          simp only [Bool.or_eq_true, decide_eq_true_eq] at this
          refine ⟨slot, rfl, fun hd => ?_⟩
          rcases this with h3 | h3
          · rw [hd] at h3
            cases h3
          · exact h3
        | ensureFailed => rw [hg] at this; cases this
        | undefinedBehaviour => rw [hg] at this; cases this
        | outOfFuel => rw [hg] at this; cases this
      · intro rid slot hg hd hv
        have := h2 (rid, slot) ((mem_slotsFrom_zero h (rid, slot)).mpr hg)
        simp only at this
        rcases this with (h3 | h3) | h3
        · rw [hd] at h3
          cases h3
        · exact absurd hv h3
        · exact h3
    · rintro ⟨h1, h2⟩
      refine ⟨?_, ?_⟩
      · intro rid hr
        obtain ⟨slot, hg, hv⟩ := h1 rid hr
        rw [hg]
        simp only [Bool.or_eq_true, decide_eq_true_eq]
        by_cases hd : slot.1.is_deleted_ = true
        · exact Or.inl hd
        · exact Or.inr (hv (by simpa using hd))
      · intro r hr
        have hg := (mem_slotsFrom_zero h r).mp hr
        by_cases hd : r.2.1.is_deleted_ = true
        · exact Or.inl (Or.inl hd)
        · by_cases hv : r.2.2.GetValue col = Outcome.ok x
          · exact Or.inr (h2 r.1 r.2 hg (by simpa using hd) hv)
          · exact Or.inl (Or.inr hv)
  | ensureFailed => simp
  | undefinedBehaviour => simp
  | outOfFuel => simp

theorem equalityKey_unique (c1 c2 : Nat) (e k1 k2 : AbstractExpression)
    (h1 : equalityKey c1 e = some k1) (h2 : equalityKey c2 e = some k2) : c1 = c2 := by
  have a := equalityKey_extract c1 e k1 h1
  have b := equalityKey_extract c2 e k2 h2
  rw [a] at b
  exact (Prod.mk.inj b).2

theorem equalityKey_constant (col : Nat) (e key : AbstractExpression)
    (h : equalityKey col e = some key) :
    ∃ v, key = AbstractExpression.ConstantValueExpression v := by
  cases e with
  | ColumnValueExpression ti ci => simp [equalityKey] at h
  | ConstantValueExpression v => simp [equalityKey] at h
  | LogicExpression ty a b => simp [equalityKey] at h
  | ComparisonExpression ty l r =>
    cases ty <;> cases l <;> cases r <;> simp [equalityKey] at h <;> exact ⟨_, h.2.symm⟩

/-- The keys of a disjunction of equalities are constants. -/
theorem disjunctionKeys_constant (col : Nat) :
    ∀ (e : AbstractExpression) (ks : List AbstractExpression), disjunctionKeys col e = some ks →
      ∀ key ∈ ks, ∃ v, key = AbstractExpression.ConstantValueExpression v := by
  intro e
  induction e with
  | ColumnValueExpression ti ci => intro ks h; simp [disjunctionKeys, equalityKey] at h
  | ConstantValueExpression v => intro ks h; simp [disjunctionKeys, equalityKey] at h
  | ComparisonExpression ty l r _ _ =>
    intro ks h key hk
    simp only [disjunctionKeys, Option.map_eq_some'] at h
    obtain ⟨k, hk1, rfl⟩ := h
    rw [List.mem_singleton] at hk
    subst hk
    exact equalityKey_constant col _ _ hk1
  | LogicExpression ty a b iha ihb =>
    intro ks h key hk
    cases ty with
    | And => simp [disjunctionKeys, equalityKey] at h
    | Or =>
      simp only [disjunctionKeys] at h
      cases ha : disjunctionKeys col a with
      | none => rw [ha] at h; simp at h
      | some ka =>
        cases hb : disjunctionKeys col b with
        | none => rw [ha, hb] at h; simp at h
        | some kb =>
          rw [ha, hb] at h
          simp only [Option.some.injEq] at h
          subst h
          rcases List.mem_append.mp hk with h1 | h1
          · exact iha ka ha key h1
          · exact ihb kb hb key h1
/-! ## The rewritten scan returns the rows of the sequential scan -/

theorem disjunctionKeys_unique (c1 c2 : Nat) :
    ∀ (e : AbstractExpression) (k1 k2 : List AbstractExpression),
      disjunctionKeys c1 e = some k1 → disjunctionKeys c2 e = some k2 → c1 = c2 := by
  intro e
  induction e with
  | ColumnValueExpression ti ci => intro k1 k2 h; simp [disjunctionKeys, equalityKey] at h
  | ConstantValueExpression v => intro k1 k2 h; simp [disjunctionKeys, equalityKey] at h
  | ComparisonExpression ty l r _ _ =>
    intro k1 k2 h1 h2
    simp only [disjunctionKeys, Option.map_eq_some'] at h1 h2
    obtain ⟨a, ha, _⟩ := h1
    obtain ⟨b, hb, _⟩ := h2
    exact equalityKey_unique c1 c2 _ a b ha hb
  | LogicExpression ty a b iha _ =>
    intro k1 k2 h1 h2
    cases ty with
    | And => simp [disjunctionKeys, equalityKey] at h1
    | Or =>
      simp only [disjunctionKeys] at h1 h2
      cases ha1 : disjunctionKeys c1 a with
      | none => rw [ha1] at h1; simp at h1
      | some ka1 =>
        cases ha2 : disjunctionKeys c2 a with
        | none => rw [ha2] at h2; simp at h2
        | some ka2 => exact iha ka1 ka2 ha1 ha2

/-- `Init` of an index scan with a filter and keys whose lookups return: the
record ids of the executor are those of the lookups, each once. -/
theorem indexScan_init_point (exec_ctx_ : ExecutorContext) (fuel : Nat)
    (plan_ : IndexScanPlanNode) (table_info : TableInfo) (index : IndexInfo)
    (hf : plan_.filter_predicate_.isSome = true) (hk : plan_.pred_keys_ ≠ [])
    (ht : exec_ctx_.catalog_.GetTable plan_.table_oid_ = some table_info)
    (hi : exec_ctx_.catalog_.GetIndex plan_.index_oid_ = some index)
    (hkeys : ∀ key ∈ plan_.pred_keys_, ∃ x rids, key.Evaluate none = Outcome.ok x ∧
      index.ScanKey fuel { values := [x] } = Outcome.ok rids) :
    ∃ scan_rids, IndexScanExecutor.Init exec_ctx_ fuel plan_
        = Outcome.ok { plan_ := plan_, scan_rids_ := scan_rids, current_index_ := 0 } ∧
      scan_rids.Nodup ∧
      ∀ rid, rid ∈ scan_rids ↔ ∃ key ∈ plan_.pred_keys_, ∃ x rids,
        key.Evaluate none = Outcome.ok x ∧
        index.ScanKey fuel { values := [x] } = Outcome.ok rids ∧ rid ∈ rids := by
  obtain ⟨out, ho, hnd, hmem⟩ := pointLookupLoop_ok fuel table_info index plan_.pred_keys_ [] hkeys
  refine ⟨out, ?_, hnd List.nodup_nil, fun rid => by rw [hmem]; simp⟩
  unfold IndexScanExecutor.Init
  simp only [hi, ht, hf, if_true, hk, ne_eq, not_false_eq_true, ho, Outcome.ok_bind,
    Outcome.pure_eq_ok]

/-- C21.  For a sequential scan of a table of the catalog whose filter is a
disjunction of equalities between the column `col` and constants and evaluates
on every tuple of the heap that is not deleted: when the index that the rule
picks for the column, if there is one, is the index that the catalog gives
for its oid and agrees with the heap on the values of the constants, the plan
that `OptimizeSeqScanAsIndexScan` returns for the scan yields the rows, with
their record ids, that the scan yields, up to their order. -/
theorem OptimizeSeqScanAsIndexScan_same_rows (exec_ctx_ : ExecutorContext) (n : Nat)
    (seq_scan : SeqScanPlanNode) (filter : AbstractExpression) (table_info : TableInfo)
    (col : Nat) (keys : List AbstractExpression)
    (hf : seq_scan.filter_predicate_ = some filter)
    (ht : exec_ctx_.catalog_.GetTable seq_scan.table_oid_ = some table_info)
    (hd : disjunctionKeys col filter = some keys)
    (hev : ∀ slot ∈ table_info.table_.slots, slot.1.is_deleted_ = false →
      ∃ v, filter.Evaluate (some slot.2) = Outcome.ok v)
    (hidx : ∀ index,
      findIndexOn col (exec_ctx_.catalog_.GetTableIndexes table_info.name_) = some index →
        exec_ctx_.catalog_.GetIndex index.index_oid_ = some index ∧
        ∀ key ∈ keys, ∀ x, key.Evaluate none = Outcome.ok x →
          indexAgrees table_info.table_ col index n x = true)
    (hn : table_info.table_.slots.length < n) :
    ∃ plan rows rows1,
      OptimizeSeqScanAsIndexScan exec_ctx_.catalog_ (AbstractPlanNode.SeqScan seq_scan)
        = Outcome.ok plan ∧
      executeScan exec_ctx_ n (AbstractPlanNode.SeqScan seq_scan) = some (Outcome.ok rows) ∧
      executeScan exec_ctx_ n plan = some (Outcome.ok rows1) ∧
      rows1.Perm rows := by
  have hopt : OptimizeSeqScanAsIndexScan exec_ctx_.catalog_ (AbstractPlanNode.SeqScan seq_scan)
      = rewriteSeqScan exec_ctx_.catalog_ seq_scan := by
    unfold OptimizeSeqScanAsIndexScan
    rfl
  have hseq : executeScan exec_ctx_ n (AbstractPlanNode.SeqScan seq_scan)
      = some (Outcome.ok (liveRows table_info.table_ (some filter))) := by
    have hrun := seqScan_run_from exec_ctx_ seq_scan table_info ht
      (fun slot hs hdel f hf1 => by
        rw [hf] at hf1
        cases hf1
        exact hev slot hs hdel) _ 0 n (List.drop_zero _) hn
    have hit : table_info.table_.MakeIterator
        = { rids := (List.range' 0 table_info.table_.slots.length).map
              (fun i => ({ page_id := 0, slot_num := i } : RID)) } := by
      unfold TableHeap.MakeIterator
      rw [List.range_eq_range']
    unfold executeScan
    simp only [SeqScanExecutor.Init, ht, Outcome.ok_bind, hit, hrun, Outcome.pure_eq_ok]
    rw [hf]
    rfl
  rw [hopt, rewriteSeqScan_eq exec_ctx_.catalog_ seq_scan filter table_info hf ht]
  by_cases hc : (ExtractOrKeys filter).1 ≠ [] ∧ (ExtractOrKeys filter).2 ≠ UINT32_MAX
  · rw [if_pos hc]
    cases hfi : findIndexOn (ExtractOrKeys filter).2
        (exec_ctx_.catalog_.GetTableIndexes table_info.name_) with
    | none => exact ⟨_, _, _, rfl, hseq, hseq, List.Perm.refl _⟩
    | some index =>
      have hd1 := disjunctionKeys_of_extractOrKeys filter hc.1
      have hcol : (ExtractOrKeys filter).2 = col := disjunctionKeys_unique _ _ filter _ _ hd1 hd
      rw [hcol] at hd1 hfi
      have hkeys : (ExtractOrKeys filter).1 = keys := by
        rw [hd] at hd1
        exact (Option.some.inj hd1).symm
      obtain ⟨hgi, hag⟩ := hidx index hfi
      have hlook : ∀ key ∈ keys, ∃ x rids, key.Evaluate none = Outcome.ok x ∧
          index.ScanKey n { values := [x] } = Outcome.ok rids := by
        intro key hk
        obtain ⟨v, rfl⟩ := disjunctionKeys_constant col filter keys hd key hk
        obtain ⟨rids, hr, _⟩ := (indexAgrees_iff _ _ _ _ _).mp (hag _ hk v rfl)
        exact ⟨v, rids, rfl, hr⟩
      obtain ⟨scan_rids, hinit, hnd, hmem⟩ := indexScan_init_point exec_ctx_ n
        { output_schema_ := seq_scan.output_schema_, table_oid_ := seq_scan.table_oid_,
          index_oid_ := index.index_oid_, filter_predicate_ := seq_scan.filter_predicate_,
          pred_keys_ := keys } table_info index (by rw [hf]; rfl)
        (by rw [← hkeys]; exact hc.1) ht hgi hlook
      have hvalid : ∀ rid ∈ scan_rids, ∃ slot, table_info.table_.GetTuple rid = Outcome.ok slot := by
        intro rid hr
        obtain ⟨key, hk, x, rids, hx, hs, hin⟩ := (hmem rid).mp hr
        obtain ⟨rids1, hr1, ha, _⟩ := (indexAgrees_iff _ _ _ _ _).mp (hag key hk x hx)
        rw [hs] at hr1
        cases hr1
        obtain ⟨slot, hg, _⟩ := ha rid hin
        exact ⟨slot, hg⟩
      have hlen := length_le_slots table_info.table_ scan_rids hnd hvalid
      have hrun := indexScan_run_from exec_ctx_
        { output_schema_ := seq_scan.output_schema_, table_oid_ := seq_scan.table_oid_,
          index_oid_ := index.index_oid_, filter_predicate_ := seq_scan.filter_predicate_,
          pred_keys_ := keys } table_info ht scan_rids scan_rids 0 n (List.drop_zero _) hvalid
        (by omega)
      refine ⟨_, _, fetchLive table_info.table_ scan_rids, rfl, hseq, ?_, ?_⟩
      · rw [hkeys]
        unfold executeScan
        simp only [hinit, hrun, Outcome.ok_bind, Outcome.pure_eq_ok]
      · rw [List.perm_ext_iff_of_nodup (fetchLive_nodup _ _ hnd) (liveRows_nodup _ _)]
        rintro ⟨t, rid⟩
        rw [mem_fetchLive, mem_liveRows]
        constructor
        · rintro ⟨hr, m, hg, hdel⟩
          refine ⟨m, hg, hdel, ?_⟩
          obtain ⟨key, hk, x, rids, hx, hs, hin⟩ := (hmem rid).mp hr
          obtain ⟨rids1, hr1, ha, _⟩ := (indexAgrees_iff _ _ _ _ _).mp (hag key hk x hx)
          rw [hs] at hr1
          cases hr1
          obtain ⟨slot, hg1, hv⟩ := ha rid hin
          rw [hg] at hg1
          cases hg1
          have hmemslot : (m, t) ∈ table_info.table_.slots := by
            have := (mem_slotsFrom _ 0 (rid, m, t)).mp
              ((mem_slotsFrom_zero _ (rid, m, t)).mpr hg)
            exact List.mem_iff_getElem?.mpr ⟨_, this.2.2⟩
          obtain ⟨v, hv1⟩ := hev (m, t) hmemslot hdel
          unfold filterHolds
          simp only [hv1]
          exact (disjunctionKeys_evaluate col t filter keys v hd hv1).mpr
            ⟨key, hk, x, hx, hv hdel⟩
        · rintro ⟨m, hg, hdel, hfh⟩
          refine ⟨?_, m, hg, hdel⟩
          have hmemslot : (m, t) ∈ table_info.table_.slots := by
            have := (mem_slotsFrom _ 0 (rid, m, t)).mp
              ((mem_slotsFrom_zero _ (rid, m, t)).mpr hg)
            exact List.mem_iff_getElem?.mpr ⟨_, this.2.2⟩
          obtain ⟨v, hv1⟩ := hev (m, t) hmemslot hdel
          unfold filterHolds at hfh
          simp only [hv1] at hfh
          obtain ⟨key, hk, x, hx, hval⟩ :=
            (disjunctionKeys_evaluate col t filter keys v hd hv1).mp hfh
          obtain ⟨rids, hs, _, hb⟩ := (indexAgrees_iff _ _ _ _ _).mp (hag key hk x hx)
          exact (hmem rid).mpr ⟨key, hk, x, rids, hx, hs, hb rid (m, t) hg hdel hval⟩
  · rw [if_neg hc]
    exact ⟨_, _, _, rfl, hseq, hseq, List.Perm.refl _⟩

/-- C21, applied to the table `t` of the example with the index on its column
0 and the filter `c0 = 1 OR c0 = 5`: the rule returns an index scan, which
yields the rows of the sequential scan. -/
theorem OptimizeSeqScanAsIndexScan_same_rows_witness :
    (∃ plan rows rows1,
      OptimizeSeqScanAsIndexScan (exampleContext [exampleIndex exampleTree]).catalog_
          (AbstractPlanNode.SeqScan (exampleSeqScan (some exampleFilter))) = Outcome.ok plan ∧
      executeScan (exampleContext [exampleIndex exampleTree]) 5
          (AbstractPlanNode.SeqScan (exampleSeqScan (some exampleFilter)))
        = some (Outcome.ok rows) ∧
      executeScan (exampleContext [exampleIndex exampleTree]) 5 plan = some (Outcome.ok rows1) ∧
      rows1.Perm rows) ∧
    (∃ node,
      OptimizeSeqScanAsIndexScan (exampleContext [exampleIndex exampleTree]).catalog_
          (AbstractPlanNode.SeqScan (exampleSeqScan (some exampleFilter)))
        = Outcome.ok (AbstractPlanNode.IndexScan node)) :=
  ⟨OptimizeSeqScanAsIndexScan_same_rows (exampleContext [exampleIndex exampleTree]) 5
    (exampleSeqScan (some exampleFilter)) exampleFilter exampleTable 0
    [AbstractExpression.ConstantValueExpression (Value.integer 1),
     AbstractExpression.ConstantValueExpression (Value.integer 5)] rfl rfl rfl
    (by
      intro slot hs _
      have hs1 : slot ∈ [(({ ts_ := 0, is_deleted_ := false } : TupleMeta), integerRow [1, 10]),
          ({ ts_ := 0, is_deleted_ := true }, integerRow [2, 20]),
          ({ ts_ := 0, is_deleted_ := false }, integerRow [3, 30]),
          ({ ts_ := 0, is_deleted_ := false }, integerRow [5, 40])] := hs
      simp only [List.mem_cons, List.mem_singleton, List.not_mem_nil, or_false] at hs1
      rcases hs1 with h | h | h | h <;> subst h <;> exact ⟨_, rfl⟩)
    (by
      intro index hi
      have hi1 : some (exampleIndex exampleTree) = some index := hi
      have hi2 : exampleIndex exampleTree = index := Option.some.inj hi1
      subst hi2
      refine ⟨rfl, ?_⟩
      intro key hk x hx
      simp only [List.mem_cons, List.mem_singleton, List.not_mem_nil, or_false] at hk
      rcases hk with h | h <;> subst h <;> cases hx <;> decide)
    (by decide), ⟨_, rfl⟩⟩
/-! ## Index scan: the two modes -/

theorem Outcome.bind_eq_ok {α β : Type} (x : Outcome α) (f : α → Outcome β) (b : β)
    (h : (x >>= f) = Outcome.ok b) : ∃ a, x = Outcome.ok a ∧ f a = Outcome.ok b := by
  cases x with
  | ok a => exact ⟨a, rfl, h⟩
  | ensureFailed => cases h
  | undefinedBehaviour => cases h
  | outOfFuel => cases h

/-- An iterator that `Begin()` or `operator++` yields is `End()` or holds a
guard on a page with a valid id. -/
theorem make_good (page_id : Int) :
    IndexIterator.make page_id 0 = IndexIterator.End ∨
      ((IndexIterator.make page_id 0).page_guard_ ≠ none ∧
        (IndexIterator.make page_id 0).current_page_id_ ≠ INVALID_PAGE_ID) := by
  unfold IndexIterator.make IndexIterator.End
  by_cases h : page_id = INVALID_PAGE_ID
  · left
    simp [h]
  · right
    simp [h]

theorem beginLoop_good (t : BPlusTree) : ∀ (fuel : Nat) (page_id : Int) (it : IndexIterator),
    beginLoop t fuel page_id = Outcome.ok it →
      it = IndexIterator.End ∨
        (it.page_guard_ ≠ none ∧ it.current_page_id_ ≠ INVALID_PAGE_ID) := by
  intro fuel
  induction fuel with
  | zero => intro page_id it h; cases h
  | succ n ih =>
    intro page_id it h
    unfold beginLoop at h
    cases hp : t.pages page_id with
    | none => rw [hp] at h; cases h
    | some page =>
      rw [hp] at h
      cases page with
      | leaf lp =>
        simp only [Outcome.pure_eq_ok, Outcome.ok.injEq] at h
        rw [← h]
        exact make_good _
      | «internal» ip =>
        simp only at h
        obtain ⟨child, _, hc⟩ := Outcome.bind_eq_ok _ _ _ h
        exact ih child it hc

theorem begin_good (t : BPlusTree) (fuel : Nat) (it : IndexIterator)
    (h : t.Begin fuel = Outcome.ok it) :
    it = IndexIterator.End ∨
      (it.page_guard_ ≠ none ∧ it.current_page_id_ ≠ INVALID_PAGE_ID) := by
  unfold BPlusTree.Begin at h
  by_cases hr : t.root_page_id_ = INVALID_PAGE_ID
  · rw [if_pos hr] at h
    simp only [Outcome.pure_eq_ok, Outcome.ok.injEq] at h
    exact Or.inl h.symm
  · rw [if_neg hr] at h
    exact beginLoop_good t fuel _ it h

theorem incr_good (t : BPlusTree) (it it1 : IndexIterator)
    (hg : it.page_guard_ ≠ none ∧ it.current_page_id_ ≠ INVALID_PAGE_ID)
    (h : it.incr t = Outcome.ok it1) :
    it1 = IndexIterator.End ∨
      (it1.page_guard_ ≠ none ∧ it1.current_page_id_ ≠ INVALID_PAGE_ID) := by
  unfold IndexIterator.incr at h
  cases hgd : it.page_guard_ with
  | none => exact absurd hgd hg.1
  | some g =>
    rw [hgd] at h
    simp only at h
    obtain ⟨lp, _, h1⟩ := Outcome.bind_eq_ok _ _ _ h
    by_cases hs : it.index_ + 1 ≥ lp.GetSize
    · by_cases hn : lp.next_page_id_ = INVALID_PAGE_ID
      · simp only [hs, hn, if_true, Outcome.pure_eq_ok, Outcome.ok.injEq] at h1
        exact Or.inl h1.symm
      · simp only [hs, hn, if_true, if_false, Outcome.pure_eq_ok, Outcome.ok.injEq] at h1
        rw [← h1]
        exact Or.inr ⟨by simp, hn⟩
    · simp only [hs, if_false, Outcome.pure_eq_ok, Outcome.ok.injEq] at h1
      rw [← h1]
      exact Or.inr ⟨by simp [hgd], hg.2⟩

/-- The loop of the ordered scan returns only at an iterator that is at its
end, with the record ids it was started with: at every other iterator it goes
on to `operator*` and to the read through the reference that `operator*`
returns. -/
theorem orderedScanLoop_ok (t : BPlusTree) (fuel : Nat) (it : IndexIterator)
    (scan_rids_ rids : List RID) (h : orderedScanLoop t fuel it scan_rids_ = Outcome.ok rids) :
    it.IsEnd = true ∧ rids = scan_rids_ := by
  cases fuel with
  | zero => cases h
  | succ n =>
    unfold orderedScanLoop at h
    by_cases he : it.IsEnd = true
    · rw [if_pos he] at h
      cases h
      exact ⟨he, rfl⟩
    · rw [if_neg he] at h
      obtain ⟨entry, _, h1⟩ := Outcome.bind_eq_ok _ _ _ h
      obtain ⟨rid_copy, h2, _⟩ := Outcome.bind_eq_ok _ _ _ h1
      cases h2

/-- At an iterator that is not at its end and at which `operator*` returns, the
loop of the ordered scan reads the record id through a reference whose referent
is destroyed: undefined behaviour. -/
theorem orderedScanLoop_reads_dead_reference (t : BPlusTree) (fuel : Nat) (it : IndexIterator)
    (scan_rids_ : List RID) (p : DanglingPair) (he : it.IsEnd = false)
    (hd : it.deref t = Outcome.ok p) :
    orderedScanLoop t (fuel + 1) it scan_rids_ = Outcome.undefinedBehaviour := by
  unfold orderedScanLoop
  rw [if_neg (by rw [he]; decide), hd]
  rfl

/-- `Init` of an index scan with a filter and no keys collects nothing. -/
theorem indexScan_init_no_keys (exec_ctx_ : ExecutorContext) (fuel : Nat)
    (plan_ : IndexScanPlanNode) (index : IndexInfo)
    (hf : plan_.filter_predicate_.isSome = true) (hk : plan_.pred_keys_ = [])
    (hi : exec_ctx_.catalog_.GetIndex plan_.index_oid_ = some index) :
    IndexScanExecutor.Init exec_ctx_ fuel plan_
      = Outcome.ok { plan_ := plan_, scan_rids_ := [], current_index_ := 0 } := by
  unfold IndexScanExecutor.Init
  simp only [hi, hf, if_true, hk, ne_eq, not_true_eq_false, if_false, Outcome.pure_eq_ok]

/-- `Init` of an index scan without filter runs the ordered loop from
`Begin()`, whatever the keys of the plan are.  It returns only when the
iterator is at its end from the start, with no record id; when the iterator is
not at its end and `operator*` returns, it is undefined behaviour. -/
theorem indexScan_init_ordered (exec_ctx_ : ExecutorContext) (fuel : Nat)
    (plan_ : IndexScanPlanNode) (index : IndexInfo) (it : IndexIterator)
    (hf : plan_.filter_predicate_ = none)
    (hi : exec_ctx_.catalog_.GetIndex plan_.index_oid_ = some index)
    (hb : index.index_.Begin (fuel + 1) = Outcome.ok it) :
    (it.IsEnd = true →
      IndexScanExecutor.Init exec_ctx_ (fuel + 1) plan_
        = Outcome.ok { plan_ := plan_, scan_rids_ := [], current_index_ := 0 }) ∧
    (it.IsEnd = false → ∀ p, it.deref index.index_ = Outcome.ok p →
      IndexScanExecutor.Init exec_ctx_ (fuel + 1) plan_ = Outcome.undefinedBehaviour) ∧
    (∀ e, IndexScanExecutor.Init exec_ctx_ (fuel + 1) plan_ = Outcome.ok e → it.IsEnd = true) := by
  have hinit : IndexScanExecutor.Init exec_ctx_ (fuel + 1) plan_
      = (orderedScanLoop index.index_ (fuel + 1) it []).bind
          (fun rids => Outcome.ok { plan_ := plan_, scan_rids_ := rids, current_index_ := 0 }) := by
    unfold IndexScanExecutor.Init
    simp only [hi, hf, Option.isSome_none, Bool.false_eq_true, if_false,
      IndexInfo.GetBeginIterator, hb, Outcome.ok_bind, Outcome.pure_eq_ok]
    rfl
  refine ⟨?_, ?_, ?_⟩
  · intro he
    rw [hinit]
    unfold orderedScanLoop
    rw [if_pos he]
    rfl
  · intro he p hd
    rw [hinit, orderedScanLoop_reads_dead_reference _ _ _ _ p he hd]
    rfl
  · intro e h
    rw [hinit] at h
    obtain ⟨rids, h1, _⟩ := Outcome.bind_eq_ok _ _ _ h
    exact (orderedScanLoop_ok _ _ _ _ _ h1).1

/-- The calls of `Next` after `Init` emit the rows at the collected record ids
that are not deleted, in the order of the record ids. -/
theorem indexScan_rows (exec_ctx_ : ExecutorContext) (plan_ : IndexScanPlanNode)
    (table_info : TableInfo) (ht : exec_ctx_.catalog_.GetTable plan_.table_oid_ = some table_info)
    (scan_rids : List RID) (n : Nat)
    (hvalid : ∀ rid ∈ scan_rids, ∃ slot, table_info.table_.GetTuple rid = Outcome.ok slot)
    (hn : scan_rids.length < n) :
    ∃ e1, IndexScanExecutor.run exec_ctx_ n
        { plan_ := plan_, scan_rids_ := scan_rids, current_index_ := 0 }
      = Outcome.ok (fetchLive table_info.table_ scan_rids, e1) :=
  ⟨_, indexScan_run_from exec_ctx_ plan_ table_info ht scan_rids scan_rids 0 n (List.drop_zero _)
    hvalid hn⟩

/-- C28, the failing input: the index scan of the example without filter and
without keys, which is in ordered mode for the claim and for the code.  The
index holds the entries of the keys 1, 3 and 5 in two leaves, and the rows
they refer to are not deleted.  `GetBeginIterator` returns the iterator at the
slot 0 of the first leaf, which is not at its end; there `operator*` computes
the entry of the key 1 and returns references to the temporary that holds it;
the loop of `Init` reads the record id through the dead reference.  So `Init`
is undefined behaviour and the scan does not emit the three rows.  Besides,
`Init` chooses its branch by the filter: with a filter and without keys it
collects nothing, and the scan emits no row. -/
theorem IndexScan_ordered_mode_reads_dead_reference :
    (exampleIndexScan none []).filter_predicate_ = none ∧
    (exampleIndexScan none []).pred_keys_ = [] ∧
    (exampleTree.pages 1, exampleTree.pages 2)
      = (some (Page.leaf { page_id_ := 1, max_size_ := 2,
                           slots := [(1, { page_id := 0, slot_num := 0 }),
                                     (3, { page_id := 0, slot_num := 2 })],
                           next_page_id_ := 2, prev_page_id_ := INVALID_PAGE_ID }),
         some (Page.leaf { page_id_ := 2, max_size_ := 2,
                           slots := [(5, { page_id := 0, slot_num := 3 })],
                           next_page_id_ := INVALID_PAGE_ID, prev_page_id_ := 1 })) ∧
    fetchLive exampleTable.table_
        [{ page_id := 0, slot_num := 0 }, { page_id := 0, slot_num := 2 },
          { page_id := 0, slot_num := 3 }]
      = [(integerRow [1, 10], { page_id := 0, slot_num := 0 }),
         (integerRow [3, 30], { page_id := 0, slot_num := 2 }),
         (integerRow [5, 40], { page_id := 0, slot_num := 3 })] ∧
    (exampleIndex exampleTree).GetBeginIterator 5
      = Outcome.ok { current_page_id_ := 1, index_ := 0, page_guard_ := some 1 } ∧
    IndexIterator.IsEnd { current_page_id_ := 1, index_ := 0, page_guard_ := some 1 } = false ∧
    IndexIterator.deref exampleTree { current_page_id_ := 1, index_ := 0, page_guard_ := some 1 }
      = Outcome.ok { referent := (1, { page_id := 0, slot_num := 0 }) } ∧
    IndexScanExecutor.Init (exampleContext [exampleIndex exampleTree]) 5 (exampleIndexScan none [])
      = Outcome.undefinedBehaviour ∧
    executeScan (exampleContext [exampleIndex exampleTree]) 5
        (AbstractPlanNode.IndexScan (exampleIndexScan none []))
      = some Outcome.undefinedBehaviour ∧
    executeScan (exampleContext [exampleIndex exampleTree]) 5
        (AbstractPlanNode.IndexScan (exampleIndexScan (some exampleFilter) []))
      = some (Outcome.ok []) := by
  refine ⟨rfl, rfl, ?_, ?_, ?_, ?_, ?_, ?_, ?_, ?_⟩ <;> decide
/-! ## Update and the indexes -/

/-- C29.  The update `SET c0 = c1` over the rows `(1, 2)` and `(2, 3)` of a
table with an index on `c0`: `Next` reports two rows; the heap holds the old
rows as deleted and the new rows `(2, 2)` and `(3, 3)` in the slots 2 and 3; the
index holds no entry for the key 2, though the row `(2, 2)` is not deleted, so
the point index scan on `c0 = 2` emits nothing while the sequential scan with
that filter emits the row. -/
theorem Update_leaves_new_row_without_index_entry :
    (UpdateExecutor.Next shiftContext 3 (UpdateExecutor.Init shiftUpdate shiftRows)).bind
        (fun r => Outcome.ok (r.1, heapSlots r.2.2 7))
      = Outcome.ok (some { values := [Value.integer 2] },
          some [({ ts_ := 1, is_deleted_ := true }, integerRow [1, 2]),
                ({ ts_ := 1, is_deleted_ := true }, integerRow [2, 3]),
                ({ ts_ := 1, is_deleted_ := false }, integerRow [2, 2]),
                ({ ts_ := 1, is_deleted_ := false }, integerRow [3, 3])]) ∧
    (UpdateExecutor.Next shiftContext 3 (UpdateExecutor.Init shiftUpdate shiftRows)).bind
        (fun r => Outcome.ok (indexLookup r.2.2 3 3 1, indexLookup r.2.2 3 3 2,
          indexLookup r.2.2 3 3 3))
      = Outcome.ok (Outcome.ok [], Outcome.ok [],
          Outcome.ok [{ page_id := 0, slot_num := 3 }]) ∧
    (UpdateExecutor.Next shiftContext 3 (UpdateExecutor.Init shiftUpdate shiftRows)).bind
        (fun r => Outcome.ok
          (executeScan r.2.2 5 (AbstractPlanNode.IndexScan (exampleIndexScan
            (some (columnEquals 0 2))
            [AbstractExpression.ConstantValueExpression (Value.integer 2)]))))
      = Outcome.ok (some (Outcome.ok [])) ∧
    (UpdateExecutor.Next shiftContext 3 (UpdateExecutor.Init shiftUpdate shiftRows)).bind
        (fun r => Outcome.ok
          (executeScan r.2.2 5 (AbstractPlanNode.SeqScan (exampleSeqScan
            (some (columnEquals 0 2))))))
      = Outcome.ok (some (Outcome.ok
          [(integerRow [2, 2], { page_id := 0, slot_num := 2 })])) := by
  refine ⟨by decide, by decide, by decide, by decide⟩
/-! ## Insert, delete and update: the single call that does the work -/

theorem indexOK_mono {fuel k : Nat} {index : IndexInfo} (h : IndexOK fuel (k + 1) index) :
    IndexOK fuel k index := by
  obtain ⟨L, I, S, b, E, h1, h2, h3, h4, h5⟩ := h
  exact ⟨L, I, S, b, E, h1, h2, h3, h4, by omega⟩

theorem indexOK_insertEntry (fuel k : Nat) (index : IndexInfo) (key : Tuple) (rid : RID)
    (h : IndexOK fuel (k + 1) index) :
    ∃ index1, index.InsertEntry fuel key rid = Outcome.ok index1 ∧ IndexOK fuel k index1 ∧
      index1.key_attrs = index.key_attrs := by
  obtain ⟨L, I, S, b, E, h1, h2, h3, h4, h5⟩ := h
  obtain ⟨r, t1, g1, g2, _⟩ := insert_inv L I S b h1 h2 h3 index.index_ E key.toIndexKey rid fuel
    h4 (by omega)
  refine ⟨{ index with index_ := t1 }, ?_, ⟨L, I, S, b + 1, _, h1, h2, h3, g2, by omega⟩, rfl⟩
  unfold IndexInfo.InsertEntry
  simp only [g1, Outcome.ok_bind, Outcome.pure_eq_ok]

theorem indexOK_deleteEntry (fuel k : Nat) (index : IndexInfo) (key : Tuple) (rid : RID)
    (h : IndexOK fuel k index) :
    ∃ index1, index.DeleteEntry fuel key rid = Outcome.ok index1 ∧ IndexOK fuel k index1 ∧
      index1.key_attrs = index.key_attrs := by
  obtain ⟨L, I, S, b, E, h1, h2, h3, h4, h5⟩ := h
  obtain ⟨t1, g1, g2⟩ := remove_inv L I S b h1 h2 h3 index.index_ E key.toIndexKey fuel
    h4 (by omega)
  refine ⟨{ index with index_ := t1 }, ?_, ⟨L, I, S, b, _, h1, h2, h3, g2, h5⟩, rfl⟩
  unfold IndexInfo.DeleteEntry
  simp only [g1, Outcome.ok_bind, Outcome.pure_eq_ok]

/-- The loop over the indexes that inserts the key of a tuple returns, and
leaves indexes that are well formed. -/
theorem insertEntries_ok (fuel k : Nat) (tuple : Tuple) (rid : RID) :
    ∀ (indexes : List IndexInfo), (∀ index ∈ indexes, IndexOK fuel (k + 1) index) →
      (∀ attrs ∈ indexes.map (fun index => index.key_attrs),
        ∃ key, tuple.KeyFromTuple attrs = Outcome.ok key) →
      ∃ indexes1, insertEntries fuel tuple rid indexes = Outcome.ok indexes1 ∧
        (∀ index ∈ indexes1, IndexOK fuel k index) ∧
        indexes1.map (fun index => index.key_attrs)
          = indexes.map (fun index => index.key_attrs) := by
  intro indexes
  induction indexes with
  | nil => intro _ _; exact ⟨[], rfl, fun _ h => by simp at h, rfl⟩
  | cons index rest ih =>
    intro hok hkeys
    obtain ⟨key, hkey⟩ := hkeys index.key_attrs (by simp)
    obtain ⟨index1, h1, h2, h3⟩ := indexOK_insertEntry fuel k index key rid
      (hok index (List.mem_cons_self _ _))
    obtain ⟨rest1, g1, g2, g3⟩ := ih (fun i hi => hok i (List.mem_cons_of_mem _ hi))
      (fun a ha => hkeys a (by
        rw [List.map_cons]
        exact List.mem_cons_of_mem _ ha))
    refine ⟨index1 :: rest1, ?_, ?_, ?_⟩
    · unfold insertEntries
      simp only [hkey, h1, g1, Outcome.ok_bind, Outcome.pure_eq_ok]
    · intro i hi
      rcases List.mem_cons.mp hi with e | e
      · rw [e]
        exact h2
      · exact g2 i e
    · simp only [List.map_cons, h3, g3]

/-- The loop over the indexes that deletes the key of a tuple returns, and
leaves indexes that are well formed. -/
theorem deleteEntries_ok (fuel k : Nat) (tuple : Tuple) (rid : RID) :
    ∀ (indexes : List IndexInfo), (∀ index ∈ indexes, IndexOK fuel k index) →
      (∀ attrs ∈ indexes.map (fun index => index.key_attrs),
        ∃ key, tuple.KeyFromTuple attrs = Outcome.ok key) →
      ∃ indexes1, deleteEntries fuel tuple rid indexes = Outcome.ok indexes1 ∧
        (∀ index ∈ indexes1, IndexOK fuel k index) ∧
        indexes1.map (fun index => index.key_attrs)
          = indexes.map (fun index => index.key_attrs) := by
  intro indexes
  induction indexes with
  | nil => intro _ _; exact ⟨[], rfl, fun _ h => by simp at h, rfl⟩
  | cons index rest ih =>
    intro hok hkeys
    obtain ⟨key, hkey⟩ := hkeys index.key_attrs (by simp)
    obtain ⟨index1, h1, h2, h3⟩ := indexOK_deleteEntry fuel k index key rid
      (hok index (List.mem_cons_self _ _))
    obtain ⟨rest1, g1, g2, g3⟩ := ih (fun i hi => hok i (List.mem_cons_of_mem _ hi))
      (fun a ha => hkeys a (by
        rw [List.map_cons]
        exact List.mem_cons_of_mem _ ha))
    refine ⟨index1 :: rest1, ?_, ?_, ?_⟩
    · unfold deleteEntries
      simp only [hkey, h1, g1, Outcome.ok_bind, Outcome.pure_eq_ok]
    · intro i hi
      rcases List.mem_cons.mp hi with e | e
      · rw [e]
        exact h2
      · exact g2 i e
    · simp only [List.map_cons, h3, g3]

theorem accepts_iff (h : TableHeap) (tuple : Tuple) :
    h.accepts tuple = decide (tuple.values.length ≤ h.tuple_limit) := by
  unfold TableHeap.accepts TableHeap.InsertTuple
  by_cases hc : tuple.values.length ≤ h.tuple_limit
  · simp [hc]
  · simp [hc]

theorem int32Incr_ok (count : Int) (h : count < INT32_MAX) :
    int32Incr count = Outcome.ok (count + 1) := by
  unfold int32Incr
  rw [if_neg (by omega)]

/-- The loop of `InsertExecutor::Next` returns and counts the rows that the
heap accepts. -/
theorem insertExecutorLoop_ok (fuel : Nat) (ts : Int) :
    ∀ (rows : List (Tuple × RID)) (table_ : TableHeap) (indexes : List IndexInfo) (count : Int),
      (∀ index ∈ indexes, IndexOK fuel rows.length index) →
      (∀ row ∈ rows, ∀ attrs ∈ indexes.map (fun index => index.key_attrs),
        ∃ key, row.1.KeyFromTuple attrs = Outcome.ok key) →
      count + rows.length ≤ INT32_MAX →
      ∃ table1 indexes1, insertExecutorLoop fuel ts rows table_ indexes count
        = Outcome.ok (table1, indexes1,
            count + ((rows.countP (fun row => table_.accepts row.1) : Nat) : Int)) := by
  intro rows
  induction rows with
  | nil =>
    intro table_ indexes count _ _ _
    exact ⟨table_, indexes, by simp [insertExecutorLoop]⟩
  | cons row rest ih =>
    intro table_ indexes count hok hkeys hcount
    obtain ⟨child_tuple, child_rid⟩ := row
    simp only [List.length_cons, Nat.cast_add, Nat.cast_one] at hcount
    unfold insertExecutorLoop
    by_cases hacc : child_tuple.values.length ≤ table_.tuple_limit
    · have hins : table_.InsertTuple { ts_ := ts, is_deleted_ := false } child_tuple
          = (some { page_id := 0, slot_num := table_.slots.length },
              { table_ with slots := table_.slots ++
                  [({ ts_ := ts, is_deleted_ := false }, child_tuple)] }) := by
        unfold TableHeap.InsertTuple
        rw [if_pos hacc]
      obtain ⟨indexes1, h1, h2, h3⟩ := insertEntries_ok fuel rest.length child_tuple
        { page_id := 0, slot_num := table_.slots.length } indexes hok
        (hkeys _ (List.mem_cons_self _ _))
      obtain ⟨table2, indexes2, h4⟩ := ih
        { table_ with slots := table_.slots ++
            [({ ts_ := ts, is_deleted_ := false }, child_tuple)] } indexes1 (count + 1) h2
        (fun r hr a ha => hkeys r (List.mem_cons_of_mem _ hr) a (by rw [← h3]; exact ha))
        (by omega)
      refine ⟨table2, indexes2, ?_⟩
      rw [hins]
      simp only [int32Incr_ok count (by omega), h1, Outcome.ok_bind, h4]
      simp only [accepts_iff, List.countP_cons, hacc, decide_True, if_true, Nat.cast_add,
        Nat.cast_one]
      refine congrArg (fun c => Outcome.ok (table2, indexes2, c)) ?_
      omega
    · have hins : table_.InsertTuple { ts_ := ts, is_deleted_ := false } child_tuple
          = (none, table_) := by
        unfold TableHeap.InsertTuple
        rw [if_neg hacc]
      obtain ⟨table2, indexes2, h4⟩ := ih table_ indexes count
        (fun i hi => indexOK_mono (hok i hi))
        (fun r hr a ha => hkeys r (List.mem_cons_of_mem _ hr) a ha) (by omega)
      refine ⟨table2, indexes2, ?_⟩
      rw [hins]
      simp only [h4]
      simp only [accepts_iff, List.countP_cons, hacc, decide_False, Bool.false_eq_true, if_false,
        Nat.add_zero]

theorem getTuple_ok_iff (h : TableHeap) (rid : RID) :
    (∃ slot, h.GetTuple rid = Outcome.ok slot) ↔
      rid.page_id = 0 ∧ rid.slot_num < h.slots.length := by
  unfold TableHeap.GetTuple
  by_cases hp : rid.page_id = 0
  · rw [if_pos hp]
    by_cases hs : rid.slot_num < h.slots.length
    · rw [List.getElem?_eq_getElem hs]
      exact ⟨fun _ => ⟨hp, hs⟩, fun _ => ⟨_, rfl⟩⟩
    · rw [List.getElem?_eq_none (by omega)]
      constructor
      · rintro ⟨_, h1⟩
        cases h1
      · rintro ⟨_, h1⟩
        exact absurd h1 hs
  · rw [if_neg hp]
    constructor
    · rintro ⟨_, h1⟩
      cases h1
    · rintro ⟨h1, _⟩
      exact absurd h1 hp

theorem updateTupleMeta_ok (h : TableHeap) (tuple_meta : TupleMeta) (rid : RID)
    (hp : rid.page_id = 0) (hs : rid.slot_num < h.slots.length) :
    ∃ h1, h.UpdateTupleMeta tuple_meta rid = Outcome.ok h1 ∧
      h1.slots.length = h.slots.length ∧ h1.tuple_limit = h.tuple_limit := by
  unfold TableHeap.UpdateTupleMeta
  rw [if_pos hp, List.getElem?_eq_getElem hs]
  exact ⟨_, rfl, by simp, rfl⟩

/-- The loop of `DeleteExecutor::Next` returns and counts the rows of the
child. -/
theorem deleteExecutorLoop_ok (fuel : Nat) (ts : Int) :
    ∀ (rows : List (Tuple × RID)) (table_ : TableHeap) (indexes : List IndexInfo) (count : Int),
      (∀ index ∈ indexes, IndexOK fuel 0 index) →
      (∀ row ∈ rows, ∀ attrs ∈ indexes.map (fun index => index.key_attrs),
        ∃ key, row.1.KeyFromTuple attrs = Outcome.ok key) →
      (∀ row ∈ rows, row.2.page_id = 0 ∧ row.2.slot_num < table_.slots.length) →
      count + rows.length ≤ INT32_MAX →
      ∃ table1 indexes1, deleteExecutorLoop fuel ts rows table_ indexes count
        = Outcome.ok (table1, indexes1, count + (rows.length : Int)) := by
  intro rows
  induction rows with
  | nil =>
    intro table_ indexes count _ _ _ _
    exact ⟨table_, indexes, by simp [deleteExecutorLoop]⟩
  | cons row rest ih =>
    intro table_ indexes count hok hkeys hrids hcount
    obtain ⟨child_tuple, child_rid⟩ := row
    simp only [List.length_cons, Nat.cast_add, Nat.cast_one] at hcount
    obtain ⟨indexes1, h1, h2, h3⟩ := deleteEntries_ok fuel 0 child_tuple child_rid indexes hok
      (hkeys _ (List.mem_cons_self _ _))
    obtain ⟨hp, hs⟩ := hrids _ (List.mem_cons_self _ _)
    obtain ⟨table1, g1, g2, _⟩ := updateTupleMeta_ok table_ { ts_ := ts, is_deleted_ := true }
      child_rid hp hs
    obtain ⟨table2, indexes2, h4⟩ := ih table1 indexes1 (count + 1) h2
      (fun r hr a ha => hkeys r (List.mem_cons_of_mem _ hr) a (by rw [← h3]; exact ha))
      (fun r hr => by rw [g2]; exact hrids r (List.mem_cons_of_mem _ hr))
      (by omega)
    refine ⟨table2, indexes2, ?_⟩
    unfold deleteExecutorLoop
    simp only [h1, g1, int32Incr_ok count (by omega), Outcome.ok_bind, h4, List.length_cons,
      Nat.cast_add, Nat.cast_one]
    refine congrArg (fun c => Outcome.ok (table2, indexes2, c)) ?_
    omega

/-- The loop of `UpdateExecutor::Next` returns and counts the rows whose new
tuple the heap accepts. -/
theorem updateExecutorLoop_ok (fuel : Nat) (ts : Int) (targets : List AbstractExpression) :
    ∀ (rows : List (Tuple × RID)) (table_ : TableHeap) (indexes : List IndexInfo) (count : Int),
      (∀ index ∈ indexes, IndexOK fuel rows.length index) →
      (∀ row ∈ rows, ∃ values, evaluateTargets row.1 targets = Outcome.ok values) →
      (∀ row ∈ rows, ∀ attrs ∈ indexes.map (fun index => index.key_attrs),
        (∃ key, row.1.KeyFromTuple attrs = Outcome.ok key) ∧
        ∃ key, (updatedTuple targets row.1).KeyFromTuple attrs = Outcome.ok key) →
      (∀ row ∈ rows, row.2.page_id = 0 ∧ row.2.slot_num < table_.slots.length) →
      count + rows.length ≤ INT32_MAX →
      ∃ table1 indexes1, updateExecutorLoop fuel ts targets rows table_ indexes count
        = Outcome.ok (table1, indexes1,
            count + ((rows.countP
              (fun row => table_.accepts (updatedTuple targets row.1)) : Nat) : Int)) := by
  intro rows
  induction rows with
  | nil =>
    intro table_ indexes count _ _ _ _ _
    exact ⟨table_, indexes, by simp [updateExecutorLoop]⟩
  | cons row rest ih =>
    intro table_ indexes count hok hev hkeys hrids hcount
    obtain ⟨child_tuple, child_rid⟩ := row
    simp only [List.length_cons, Nat.cast_add, Nat.cast_one] at hcount
    obtain ⟨values, hvalues⟩ := hev _ (List.mem_cons_self _ _)
    have hnew : updatedTuple targets child_tuple = { values := values } := by
      unfold updatedTuple
      rw [hvalues]
    obtain ⟨indexes1, h1, h2, h3⟩ := deleteEntries_ok fuel (rest.length + 1) child_tuple child_rid
      indexes hok (fun a ha => (hkeys _ (List.mem_cons_self _ _) a ha).1)
    obtain ⟨hp, hs⟩ := hrids _ (List.mem_cons_self _ _)
    obtain ⟨table1, g1, g2, g3⟩ := updateTupleMeta_ok table_ { ts_ := ts, is_deleted_ := true }
      child_rid hp hs
    unfold updateExecutorLoop
    simp only [hvalues, h1, g1, Outcome.ok_bind]
    by_cases hacc : values.length ≤ table_.tuple_limit
    · have hins : table1.InsertTuple { ts_ := ts, is_deleted_ := false } { values := values }
          = (some { page_id := 0, slot_num := table1.slots.length },
              { table1 with slots := table1.slots ++
                  [({ ts_ := ts, is_deleted_ := false }, { values := values })] }) := by
        unfold TableHeap.InsertTuple
        rw [if_pos (by rw [g3]; exact hacc)]
      obtain ⟨indexes2, k1, k2, k3⟩ := insertEntries_ok fuel rest.length { values := values }
        { page_id := 0, slot_num := table1.slots.length } indexes1 h2
        (fun a ha => by
          rw [← hnew]
          exact (hkeys _ (List.mem_cons_self _ _) a (by rw [← h3]; exact ha)).2)
      obtain ⟨table3, indexes3, h4⟩ := ih
        { table1 with slots := table1.slots ++
            [({ ts_ := ts, is_deleted_ := false }, { values := values })] } indexes2 (count + 1) k2
        (fun r hr => hev r (List.mem_cons_of_mem _ hr))
        (fun r hr a ha => hkeys r (List.mem_cons_of_mem _ hr) a (by
          rw [← h3, ← k3]
          exact ha))
        (fun r hr => by
          have := hrids r (List.mem_cons_of_mem _ hr)
          refine ⟨this.1, ?_⟩
          simp only [List.length_append, List.length_singleton, g2]
          omega)
        (by omega)
      refine ⟨table3, indexes3, ?_⟩
      rw [hins]
      simp only [int32Incr_ok count (by omega), k1, Outcome.ok_bind, h4]
      simp only [accepts_iff, List.countP_cons, hnew, g3, hacc, decide_True, if_true, Nat.cast_add,
        Nat.cast_one]
      refine congrArg (fun c => Outcome.ok (table3, indexes3, c)) ?_
      omega
    · have hins : table1.InsertTuple { ts_ := ts, is_deleted_ := false } { values := values }
          = (none, table1) := by
        unfold TableHeap.InsertTuple
        rw [if_neg (by rw [g3]; exact hacc)]
      obtain ⟨table3, indexes3, h4⟩ := ih table1 indexes1 count
        (fun i hi => indexOK_mono (h2 i hi))
        (fun r hr => hev r (List.mem_cons_of_mem _ hr))
        (fun r hr a ha => hkeys r (List.mem_cons_of_mem _ hr) a (by rw [← h3]; exact ha))
        (fun r hr => by rw [g2]; exact hrids r (List.mem_cons_of_mem _ hr))
        (by omega)
      refine ⟨table3, indexes3, ?_⟩
      rw [hins]
      simp only [h4]
      simp only [accepts_iff, List.countP_cons, hnew, g3, hacc, decide_False, Bool.false_eq_true,
        if_false, Nat.add_zero]

/-- A tree that a sequence of calls on the empty tree yields makes a well
formed index. -/
theorem indexOK_of_runOps (L I S fuel0 fuel k : Nat) (hL : 2 ≤ L) (hI : 3 ≤ I) (hS : L + 2 ≤ S)
    (ops : List Op) (t : BPlusTree) (index : IndexInfo)
    (hrun : runOps fuel0 ops (BPlusTree.new L I S) = Outcome.ok t) (hf0 : ops.length ≤ fuel0)
    (hfuel : ops.length + k ≤ fuel) (hi : index.index_ = t) : IndexOK fuel k index := by
  obtain ⟨t1, E1, h1, h2, _⟩ := runOps_inv L I S hL hI hS fuel0 ops 0 (BPlusTree.new L I S)
    (fun _ _ => False) [] (treeInv_new L I S) (fun k v => by simp [RefMap.find]) (by omega)
  rw [hrun] at h1
  cases h1
  exact ⟨L, I, S, 0 + ops.length, E1, hL, hI, hS, hi ▸ h2, by omega⟩

/-- C26, as the claim states it, fails for Update: the update of one row of the
example whose new row has three values, one more than fits into a page of the
heap, outputs the count 0, though the row of the child was processed: its slot
is marked as deleted. -/
theorem Update_counts_accepted_rows_only :
    (UpdateExecutor.Next (exampleContext []) 3
        (UpdateExecutor.Init
          { table_oid_ := 7,
            target_expressions_ := [AbstractExpression.ColumnValueExpression 0 0,
              AbstractExpression.ColumnValueExpression 0 1,
              AbstractExpression.ColumnValueExpression 0 1] }
          [(integerRow [1, 10], { page_id := 0, slot_num := 0 })])).bind
        (fun r => Outcome.ok (r.1, heapSlots r.2.2 7))
      = Outcome.ok (some { values := [Value.integer 0] },
          some [({ ts_ := 1, is_deleted_ := true }, integerRow [1, 10]),
                ({ ts_ := 0, is_deleted_ := true }, integerRow [2, 20]),
                ({ ts_ := 0, is_deleted_ := false }, integerRow [3, 30]),
                ({ ts_ := 0, is_deleted_ := false }, integerRow [5, 40])]) := by
  decide

/-- C26, amended.  For a table of the catalog whose indexes are well formed,
with fuel for one insertion for each row of the child, rows of the child that
have the key columns of the indexes, and at most `2^31 - 1` rows: after `Init`
the first call of `Next` of the insert executor drains the child, returns true
and outputs one tuple with the number of rows that the heap accepted; when the
record ids of the rows are record ids of the heap, that of the delete executor
outputs the number of rows of the child, and that of the update executor,
when the target expressions evaluate on the rows and the new rows have the key
columns, the number of rows whose new row the heap accepted.  Every later call
of `Next` returns false and leaves the context, and so the heap and the
indexes, as it is. -/
theorem mutating_executors_single_shot (exec_ctx_ : ExecutorContext) (fuel : Nat)
    (table_oid : Nat) (table_info : TableInfo) (child_rows : List (Tuple × RID))
    (ht : exec_ctx_.catalog_.GetTable table_oid = some table_info)
    (hidx : ∀ index ∈ exec_ctx_.catalog_.GetTableIndexes table_info.name_,
      IndexOK fuel child_rows.length index)
    (hkeys : ∀ row ∈ child_rows, ∀ index ∈ exec_ctx_.catalog_.GetTableIndexes table_info.name_,
      ∃ key, row.1.KeyFromTuple index.key_attrs = Outcome.ok key)
    (hn : (child_rows.length : Int) ≤ INT32_MAX) :
    (∃ e1 ctx1,
      InsertExecutor.Next exec_ctx_ fuel (InsertExecutor.Init { table_oid_ := table_oid } child_rows)
        = Outcome.ok (some { values := [Value.integer
            ((child_rows.countP (fun row => table_info.table_.accepts row.1) : Nat) : Int)] },
            e1, ctx1) ∧
      e1.child_executor_ = [] ∧
      ∀ ctx2, InsertExecutor.Next ctx2 fuel e1 = Outcome.ok (none, e1, ctx2)) ∧
    ((∀ row ∈ child_rows, ∃ slot, table_info.table_.GetTuple row.2 = Outcome.ok slot) →
      (∃ e1 ctx1,
        DeleteExecutor.Next exec_ctx_ fuel
            (DeleteExecutor.Init { table_oid_ := table_oid } child_rows)
          = Outcome.ok (some { values := [Value.integer (child_rows.length : Int)] }, e1, ctx1) ∧
        e1.child_executor_ = [] ∧
        ∀ ctx2, DeleteExecutor.Next ctx2 fuel e1 = Outcome.ok (none, e1, ctx2)) ∧
      (∀ targets : List AbstractExpression,
        (∀ row ∈ child_rows, ∃ values, evaluateTargets row.1 targets = Outcome.ok values) →
        (∀ row ∈ child_rows, ∀ index ∈ exec_ctx_.catalog_.GetTableIndexes table_info.name_,
          ∃ key, (updatedTuple targets row.1).KeyFromTuple index.key_attrs = Outcome.ok key) →
        ∃ e1 ctx1,
          UpdateExecutor.Next exec_ctx_ fuel
              (UpdateExecutor.Init { table_oid_ := table_oid, target_expressions_ := targets }
                child_rows)
            = Outcome.ok (some { values := [Value.integer
                ((child_rows.countP
                  (fun row => table_info.table_.accepts (updatedTuple targets row.1)) : Nat) :
                  Int)] }, e1, ctx1) ∧
          e1.child_executor_ = [] ∧
          ∀ ctx2, UpdateExecutor.Next ctx2 fuel e1 = Outcome.ok (none, e1, ctx2))) := by
  have hkeys1 : ∀ row ∈ child_rows,
      ∀ attrs ∈ (exec_ctx_.catalog_.GetTableIndexes table_info.name_).map
        (fun index => index.key_attrs), ∃ key, row.1.KeyFromTuple attrs = Outcome.ok key := by
    intro row hr attrs ha
    obtain ⟨index, hi, rfl⟩ := List.mem_map.mp ha
    exact hkeys row hr index hi
  refine ⟨?_, fun hrids => ⟨?_, ?_⟩⟩
  · obtain ⟨table1, indexes1, h⟩ := insertExecutorLoop_ok fuel exec_ctx_.txn_temp_ts_ child_rows
      table_info.table_ _ 0 hidx hkeys1 (by omega)
    refine ⟨{ plan_ := { table_oid_ := table_oid }, child_executor_ := [], done_ := true },
      ExecutorContext.mk
        ((exec_ctx_.catalog_.setTableHeap table_oid table1).setTableIndexes table_info.name_
          indexes1) exec_ctx_.txn_temp_ts_,
      ?_, rfl, ?_⟩
    · unfold InsertExecutor.Next InsertExecutor.Init
      simp only [Bool.false_eq_true, if_false, ht, h, Outcome.ok_bind, Outcome.pure_eq_ok,
        zero_add]
    · intro ctx2
      unfold InsertExecutor.Next
      simp only [if_true]
  · have hrids1 : ∀ row ∈ child_rows,
        row.2.page_id = 0 ∧ row.2.slot_num < table_info.table_.slots.length :=
      fun row hr => (getTuple_ok_iff _ _).mp (hrids row hr)
    have hidx0 : ∀ index ∈ exec_ctx_.catalog_.GetTableIndexes table_info.name_,
        IndexOK fuel 0 index := by
      intro i hi
      obtain ⟨L, I, S, b, E, h1, h2, h3, h4, h5⟩ := hidx i hi
      exact ⟨L, I, S, b, E, h1, h2, h3, h4, by omega⟩
    obtain ⟨table1, indexes1, h⟩ := deleteExecutorLoop_ok fuel exec_ctx_.txn_temp_ts_ child_rows
      table_info.table_ _ 0 hidx0 hkeys1 hrids1 (by omega)
    refine ⟨{ plan_ := { table_oid_ := table_oid }, child_executor_ := [], done_ := true },
      ExecutorContext.mk
        ((exec_ctx_.catalog_.setTableHeap table_oid table1).setTableIndexes table_info.name_
          indexes1) exec_ctx_.txn_temp_ts_,
      ?_, rfl, ?_⟩
    · unfold DeleteExecutor.Next DeleteExecutor.Init
      simp only [Bool.false_eq_true, if_false, ht, h, Outcome.ok_bind, Outcome.pure_eq_ok,
        zero_add]
    · intro ctx2
      unfold DeleteExecutor.Next
      simp only [if_true]
  · intro targets hev hnew
    have hrids1 : ∀ row ∈ child_rows,
        row.2.page_id = 0 ∧ row.2.slot_num < table_info.table_.slots.length :=
      fun row hr => (getTuple_ok_iff _ _).mp (hrids row hr)
    obtain ⟨table1, indexes1, h⟩ := updateExecutorLoop_ok fuel exec_ctx_.txn_temp_ts_ targets
      child_rows table_info.table_ _ 0 hidx hev
      (fun row hr attrs ha => by
        obtain ⟨index, hi, rfl⟩ := List.mem_map.mp ha
        exact ⟨hkeys row hr index hi, hnew row hr index hi⟩) hrids1 (by omega)
    refine ⟨UpdateExecutor.mk { table_oid_ := table_oid, target_expressions_ := targets } [] true,
      ExecutorContext.mk
        ((exec_ctx_.catalog_.setTableHeap table_oid table1).setTableIndexes table_info.name_
          indexes1) exec_ctx_.txn_temp_ts_,
      ?_, rfl, ?_⟩
    · unfold UpdateExecutor.Next UpdateExecutor.Init
      simp only [Bool.false_eq_true, if_false, ht, h, Outcome.ok_bind, Outcome.pure_eq_ok,
        zero_add]
    · intro ctx2
      unfold UpdateExecutor.Next
      simp only [if_true]

theorem exampleTree_run :
    runOps 4 [Op.insert 1 { page_id := 0, slot_num := 0 },
      Op.insert 3 { page_id := 0, slot_num := 2 },
      Op.insert 5 { page_id := 0, slot_num := 3 }] (BPlusTree.new 2 3 4)
      = Outcome.ok exampleTree := by
  obtain ⟨t1, E1, h1, _⟩ := runOps_inv 2 3 4 (by omega) (by omega) (by omega) 4
    [Op.insert 1 { page_id := 0, slot_num := 0 }, Op.insert 3 { page_id := 0, slot_num := 2 },
      Op.insert 5 { page_id := 0, slot_num := 3 }] 0 (BPlusTree.new 2 3 4)
    (fun _ _ => False) [] (treeInv_new 2 3 4) (fun k v => by simp [RefMap.find]) (by decide)
  unfold exampleTree
  simp only [h1]

/-- C26, amended, applied to the table `t` of the example with the index on
its column 0 and to a child that yields the rows of the slots 0 and 2: each of
the three executors outputs the count 2. -/
theorem mutating_executors_single_shot_witness :
    (∃ e1 ctx1,
      InsertExecutor.Next (exampleContext [exampleIndex exampleTree]) 10
          (InsertExecutor.Init { table_oid_ := 7 } exampleChildRows)
        = Outcome.ok (some { values := [Value.integer 2] }, e1, ctx1) ∧
      e1.child_executor_ = [] ∧
      ∀ ctx2, InsertExecutor.Next ctx2 10 e1 = Outcome.ok (none, e1, ctx2)) ∧
    (∃ e1 ctx1,
      DeleteExecutor.Next (exampleContext [exampleIndex exampleTree]) 10
          (DeleteExecutor.Init { table_oid_ := 7 } exampleChildRows)
        = Outcome.ok (some { values := [Value.integer 2] }, e1, ctx1) ∧
      e1.child_executor_ = [] ∧
      ∀ ctx2, DeleteExecutor.Next ctx2 10 e1 = Outcome.ok (none, e1, ctx2)) ∧
    (∃ e1 ctx1,
      UpdateExecutor.Next (exampleContext [exampleIndex exampleTree]) 10
          (UpdateExecutor.Init { table_oid_ := 7, target_expressions_ := exampleTargets }
            exampleChildRows)
        = Outcome.ok (some { values := [Value.integer 2] }, e1, ctx1) ∧
      e1.child_executor_ = [] ∧
      ∀ ctx2, UpdateExecutor.Next ctx2 10 e1 = Outcome.ok (none, e1, ctx2)) := by
  have hmem : ∀ index ∈ (exampleContext [exampleIndex exampleTree]).catalog_.GetTableIndexes
      exampleTable.name_, index = exampleIndex exampleTree := by
    intro index hi
    have hi1 : index ∈ [exampleIndex exampleTree] := hi
    simpa using hi1
  have hrows : ∀ row ∈ exampleChildRows,
      row = (integerRow [1, 10], { page_id := 0, slot_num := 0 }) ∨
      row = (integerRow [3, 30], { page_id := 0, slot_num := 2 }) := by
    intro row hr
    simpa [exampleChildRows] using hr
  have h := mutating_executors_single_shot (exampleContext [exampleIndex exampleTree]) 10 7
    exampleTable exampleChildRows rfl
    (fun index hi => by
      rw [hmem index hi]
      exact indexOK_of_runOps 2 3 4 4 10 2 (by omega) (by omega) (by omega) _ exampleTree _
        exampleTree_run (by decide) (by decide) rfl)
    (fun row hr index hi => by
      rw [hmem index hi]
      rcases hrows row hr with e | e <;> subst e <;> exact ⟨_, rfl⟩)
    (by decide)
  have hv : ∀ row ∈ exampleChildRows,
      ∃ slot, exampleTable.table_.GetTuple row.2 = Outcome.ok slot := by
    intro row hr
    rcases hrows row hr with e | e <;> subst e <;> exact ⟨_, rfl⟩
  exact ⟨h.1, (h.2 hv).1, (h.2 hv).2 exampleTargets
    (fun row hr => by rcases hrows row hr with e | e <;> subst e <;> exact ⟨_, rfl⟩)
    (fun row hr index hi => by
      rw [hmem index hi]
      rcases hrows row hr with e | e <;> subst e <;> exact ⟨_, rfl⟩)⟩
/-! ## B+Tree pages: `Insert` of the leaf page -/

/-- C31, as the claim states it, fails: `Insert` of the leaf page does not look
for an equal key, so on the leaf with the keys 1 and 3 the call `Insert(3, v)`
returns true and leaves two entries with the key 3; and on a leaf with two
entries and three slots the call `Insert(2, v)` for the key 2, which is not in
the page, returns false and leaves the page as it is. -/
theorem LeafPage_Insert_stores_equal_key :
    ({ page_id_ := 1, max_size_ := 4,
       slots := [(1, { page_id := 0, slot_num := 0 }), (3, { page_id := 0, slot_num := 1 })],
       next_page_id_ := INVALID_PAGE_ID, prev_page_id_ := INVALID_PAGE_ID } : LeafPage).Insert
        255 3 { page_id := 0, slot_num := 2 }
      = (true,
          { page_id_ := 1, max_size_ := 4,
            slots := [(1, { page_id := 0, slot_num := 0 }), (3, { page_id := 0, slot_num := 2 }),
              (3, { page_id := 0, slot_num := 1 })],
            next_page_id_ := INVALID_PAGE_ID, prev_page_id_ := INVALID_PAGE_ID }) ∧
    ({ page_id_ := 1, max_size_ := 4,
       slots := [(1, { page_id := 0, slot_num := 0 }), (3, { page_id := 0, slot_num := 1 })],
       next_page_id_ := INVALID_PAGE_ID, prev_page_id_ := INVALID_PAGE_ID } : LeafPage).Insert
        3 2 { page_id := 0, slot_num := 2 }
      = (false,
          { page_id_ := 1, max_size_ := 4,
            slots := [(1, { page_id := 0, slot_num := 0 }), (3, { page_id := 0, slot_num := 1 })],
            next_page_id_ := INVALID_PAGE_ID, prev_page_id_ := INVALID_PAGE_ID }) := by
  constructor <;> decide

/-- C31, amended.  `Insert(k, v)` on a leaf with strictly sorted keys: when
`size + 1 ≥ LEAF_PAGE_SLOT_CNT` it returns false and leaves the page as it is.
Otherwise it returns true, puts `(k, v)` at the index `r` that `KeyIndex`
returns, the number of keys below `k` (the slots before `r` have keys below
`k`, the slots from `r` on have keys that are not below `k`), with the later
entries one slot to the right, and the size grows by one; for a key that is not
in the page the keys stay strictly sorted; for a key that is in the page the
old entry of the key is the slot behind the new one, so the key is stored
twice. -/
theorem LeafPage_Insert_cases (lp : LeafPage) (slot_cnt : Nat) (key : Int) (value : RID)
    (hs : SortedKeys lp.slots) :
    (lp.GetSize + 1 ≥ (slot_cnt : Int) → lp.Insert slot_cnt key value = (false, lp)) ∧
    (lp.GetSize + 1 < (slot_cnt : Int) →
      ∃ r : Nat, lp.KeyIndex key = (r : Int) ∧ r ≤ lp.slots.length ∧
        (∀ s ∈ lp.slots.take r, s.1 < key) ∧ (∀ s ∈ lp.slots.drop r, key ≤ s.1) ∧
        lp.Insert slot_cnt key value
          = (true, { lp with slots := lp.slots.take r ++ (key, value) :: lp.slots.drop r }) ∧
        (lp.Insert slot_cnt key value).2.GetSize = lp.GetSize + 1 ∧
        ((∀ s ∈ lp.slots, s.1 ≠ key) →
          SortedKeys (lp.slots.take r ++ (key, value) :: lp.slots.drop r)) ∧
        (∀ v0, (key, v0) ∈ lp.slots →
          lp.slots.take r ++ (key, value) :: lp.slots.drop r
            = lp.slots.take r ++ (key, value) :: (key, v0) :: lp.slots.drop (r + 1))) := by
  refine ⟨?_, ?_⟩
  · intro h
    unfold LeafPage.Insert
    rw [if_pos h]
  · intro h
    obtain ⟨r, hr, hrn, h1, h2⟩ := leaf_KeyIndex_split lp key hs
    have hins : lp.Insert slot_cnt key value
        = (true, { lp with slots := lp.slots.take r ++ (key, value) :: lp.slots.drop r }) := by
      unfold LeafPage.Insert
      rw [if_neg (by omega), hr, Int.toNat_ofNat]
      rfl
    have hsplit : SortedKeys (lp.slots.take r ++ lp.slots.drop r) := by
      rw [List.take_append_drop]
      exact hs
    refine ⟨r, hr, hrn, h1, h2, hins, ?_, ?_, ?_⟩
    · rw [hins]
      unfold LeafPage.GetSize
      simp only [List.length_append, List.length_cons, List.length_take, List.length_drop]
      omega
    · intro hne
      apply sortedKeys_insert value hsplit h1
      intro s hsm
      have h3 := h2 s hsm
      have h4 := hne s (List.mem_of_mem_drop hsm)
      omega
    · intro v0 hv0
      have hmem : (key, v0) ∈ lp.slots.take r ++ lp.slots.drop r := by
        rw [List.take_append_drop]
        exact hv0
      have hin : (key, v0) ∈ lp.slots.drop r := by
        rcases List.mem_append.mp hmem with h3 | h3
        · exact absurd (h1 _ h3) (lt_irrefl _)
        · exact h3
      have hsd : SortedKeys (lp.slots.drop r) := (sortedKeys_append.mp hsplit).2.1
      cases hd : lp.slots.drop r with
      | nil => rw [hd] at hin; cases hin
      | cons a rest =>
        rw [hd] at hin hsd h2
        have hrest : lp.slots.drop (r + 1) = rest := by
          have : lp.slots.drop (r + 1) = (lp.slots.drop r).drop 1 := by
            rw [List.drop_drop, Nat.add_comm]
          rw [this, hd]
          rfl
        have ha : a = (key, v0) := by
          rcases List.mem_cons.mp hin with e | e
          · exact e.symm
          · have h5 := (sortedKeys_cons.mp hsd).1 _ e
            have h6 := h2 a (List.mem_cons_self _ _)
            simp only at h5
            omega
        rw [hrest, ha]

/-- C31, amended, applied to the leaf with the keys 1 and 3 and the key 2. -/
theorem LeafPage_Insert_cases_witness :
    ∃ r : Nat,
      ({ page_id_ := 1, max_size_ := 4,
         slots := [(1, { page_id := 0, slot_num := 0 }), (3, { page_id := 0, slot_num := 1 })],
         next_page_id_ := INVALID_PAGE_ID, prev_page_id_ := INVALID_PAGE_ID } : LeafPage).KeyIndex 2
        = (r : Int) ∧
      ({ page_id_ := 1, max_size_ := 4,
         slots := [(1, { page_id := 0, slot_num := 0 }), (3, { page_id := 0, slot_num := 1 })],
         next_page_id_ := INVALID_PAGE_ID, prev_page_id_ := INVALID_PAGE_ID } : LeafPage).Insert
          255 2 { page_id := 0, slot_num := 2 }
        = (true,
            { page_id_ := 1, max_size_ := 4,
              slots := List.take r
                  [(1, { page_id := 0, slot_num := 0 }), (3, { page_id := 0, slot_num := 1 })] ++
                (2, { page_id := 0, slot_num := 2 }) ::
                  List.drop r
                    [(1, { page_id := 0, slot_num := 0 }), (3, { page_id := 0, slot_num := 1 })],
              next_page_id_ := INVALID_PAGE_ID, prev_page_id_ := INVALID_PAGE_ID }) ∧
      SortedKeys (List.take r
          [(1, ({ page_id := 0, slot_num := 0 } : RID)), (3, { page_id := 0, slot_num := 1 })] ++
        (2, { page_id := 0, slot_num := 2 }) ::
          List.drop r
            [(1, { page_id := 0, slot_num := 0 }), (3, { page_id := 0, slot_num := 1 })]) := by
  obtain ⟨r, h1, _, _, _, h5, _, h7, _⟩ := (LeafPage_Insert_cases
    { page_id_ := 1, max_size_ := 4,
      slots := [(1, { page_id := 0, slot_num := 0 }), (3, { page_id := 0, slot_num := 1 })],
      next_page_id_ := INVALID_PAGE_ID, prev_page_id_ := INVALID_PAGE_ID }
    255 2 { page_id := 0, slot_num := 2 } (by unfold SortedKeys; decide)).2 (by decide)
  exact ⟨r, h1, h5, h7 (by decide)⟩
/-! ## B+Tree pages: `KeyIndex` of the internal page -/

theorem internal_KeyAt_getElem (ip : InternalPage) (i : Nat) (hi : i < ip.slots.length) :
    ip.KeyAt (i : Int) = Outcome.ok (ip.slots[i]).1 := by
  unfold InternalPage.KeyAt
  rw [if_pos (by omega), Int.toNat_ofNat]
  simp only [List.get?_eq_getElem?, List.getElem?_eq_getElem hi]

theorem internal_ValueAt_getElem (ip : InternalPage) (i : Nat) (hi : i < ip.slots.length) :
    ip.ValueAt (i : Int) = Outcome.ok (ip.slots[i]).2 := by
  unfold InternalPage.ValueAt
  rw [if_pos (by omega), Int.toNat_ofNat]
  simp only [List.get?_eq_getElem?, List.getElem?_eq_getElem hi]

/-- C34.  For an internal page with at least one slot whose keys in the slots
`[1, size)` are strictly sorted, and every search key: `KeyIndex` returns a
slot `r` in `[0, size)`; the keys of the slots `[1, r]` are at most the search
key and the keys of the slots behind `r` are greater, so `r` is the greatest
slot in `[1, size)` whose key is at most the search key, and `r = 0` exactly
when there is no such slot; the child pointer of the slot `r` is read within the
page. -/
theorem InternalPage_KeyIndex_greatest_slot (ip : InternalPage) (key : Int)
    (hn : 1 ≤ ip.slots.length)
    (hs : ((ip.slots.map Prod.fst).drop 1).Pairwise (· < ·)) :
    ∃ r : Nat, ip.KeyIndex key = (r : Int) ∧ r < ip.slots.length ∧
      (∀ i : Nat, 1 ≤ i → i ≤ r → ∃ k, ip.KeyAt (i : Int) = Outcome.ok k ∧ k ≤ key) ∧
      (∀ i : Nat, r < i → i < ip.slots.length →
        ∃ k, ip.KeyAt (i : Int) = Outcome.ok k ∧ key < k) ∧
      (r = 0 ↔ ∀ i : Nat, 1 ≤ i → i < ip.slots.length →
        ∃ k, ip.KeyAt (i : Int) = Outcome.ok k ∧ key < k) ∧
      ∃ s ∈ ip.slots, ip.ValueAt (ip.KeyIndex key) = Outcome.ok s.2 := by
  obtain ⟨r, hr, hrn, h1, h2⟩ := internal_KeyIndex_split ip key hn hs
  have hlow : ∀ i : Nat, 1 ≤ i → i ≤ r → ∃ k, ip.KeyAt (i : Int) = Outcome.ok k ∧ k ≤ key := by
    intro i hi1 hir
    have hi : i < ip.slots.length := by omega
    refine ⟨_, internal_KeyAt_getElem ip i hi, h1 _ ?_⟩
    apply List.mem_drop_iff_getElem.mpr
    refine ⟨i - 1, ?_, ?_⟩
    · rw [List.length_take]
      omega
    · simp only [List.getElem_take]
      congr 1
      omega
  have hhigh : ∀ i : Nat, r < i → i < ip.slots.length →
      ∃ k, ip.KeyAt (i : Int) = Outcome.ok k ∧ key < k := by
    intro i hri hi
    refine ⟨_, internal_KeyAt_getElem ip i hi, h2 _ ?_⟩
    apply List.mem_drop_iff_getElem.mpr
    refine ⟨i - (r + 1), by omega, ?_⟩
    congr 1
    omega
  refine ⟨r, hr, hrn, hlow, hhigh, ⟨?_, ?_⟩, ip.slots[r], List.getElem_mem _, ?_⟩
  · intro h0 i hi1 hi
    exact hhigh i (by omega) hi
  · intro hall
    by_contra hne
    obtain ⟨k, hk, hle⟩ := hlow r (by omega) (le_refl _)
    obtain ⟨k1, hk1, hlt⟩ := hall r (by omega) hrn
    rw [hk] at hk1
    cases hk1
    omega
  · rw [hr]
    exact internal_ValueAt_getElem ip r hrn

/-- C34, applied to the page with the children 10, 11, 12 and the keys 5 and 9,
and the search key 7: `KeyIndex` returns the slot 1. -/
theorem InternalPage_KeyIndex_greatest_slot_witness :
    ∃ r : Nat,
      ({ page_id_ := 3, max_size_ := 3, slots := [(0, 10), (5, 11), (9, 12)] } :
        InternalPage).KeyIndex 7 = (r : Int) ∧ r = 1 := by
  obtain ⟨r, h1, _⟩ := InternalPage_KeyIndex_greatest_slot
    { page_id_ := 3, max_size_ := 3, slots := [(0, 10), (5, 11), (9, 12)] } 7 (by decide)
    (by decide)
  refine ⟨r, h1, ?_⟩
  have h2 : ({ page_id_ := 3, max_size_ := 3, slots := [(0, 10), (5, 11), (9, 12)] } :
      InternalPage).KeyIndex 7 = 1 := by decide
  rw [h2] at h1
  omega
/-! ## B+Tree pages: `Split` of the internal page -/

/-- C33.  `Split` of an internal page with `n ≥ 2` slots into the page
`sibling`, with `mid = n / 2`: the middle key is the key of the slot `mid`; this
page keeps the slots `[0, mid)` as they are and has the size `mid`; the sibling
has the size `n - mid`, the child of its slot 0 is the old child of the slot
`mid`, and its slots `[1, n - mid)` are the old slots `[mid + 1, n)` in order.
The keys of the slots `[1, size)` of this page, the middle key and the keys of
the slots `[1, size)` of the sibling are the old keys of the slots `[1, n)` in
order, so the slot of the middle key is in neither page, and when the old keys
are strictly sorted its key is not a key of either page; the children of this
page followed by the children of the sibling are the old children in order. -/
theorem InternalPage_Split_halves (ip sibling : InternalPage) (hn : 2 ≤ ip.slots.length) :
    ∃ left right middle, ip.Split sibling = Outcome.ok (left, right, middle) ∧
      ip.KeyAt ((ip.slots.length / 2 : Nat) : Int) = Outcome.ok middle ∧
      left = { ip with slots := ip.slots.take (ip.slots.length / 2) } ∧
      left.GetSize = ((ip.slots.length / 2 : Nat) : Int) ∧
      right.GetSize = ((ip.slots.length - ip.slots.length / 2 : Nat) : Int) ∧
      right.ValueAt 0 = ip.ValueAt ((ip.slots.length / 2 : Nat) : Int) ∧
      right.slots.drop 1 = ip.slots.drop (ip.slots.length / 2 + 1) ∧
      right.page_id_ = sibling.page_id_ ∧ right.max_size_ = sibling.max_size_ ∧
      (left.slots.drop 1).map Prod.fst ++ middle :: (right.slots.drop 1).map Prod.fst
        = (ip.slots.drop 1).map Prod.fst ∧
      left.slots.map Prod.snd ++ right.slots.map Prod.snd = ip.slots.map Prod.snd ∧
      (((ip.slots.map Prod.fst).drop 1).Pairwise (· < ·) →
        middle ∉ (left.slots.drop 1).map Prod.fst ∧
        middle ∉ (right.slots.drop 1).map Prod.fst) := by
  have hc : ip.slots.length / 2 < ip.slots.length := by omega
  have hm1 : 1 ≤ ip.slots.length / 2 := by omega
  have hdrop : ip.slots.drop (ip.slots.length / 2)
      = ip.slots[ip.slots.length / 2] :: ip.slots.drop (ip.slots.length / 2 + 1) :=
    List.drop_eq_getElem_cons hc
  have hsplit : ip.slots = ip.slots.take (ip.slots.length / 2) ++
      ip.slots[ip.slots.length / 2] :: ip.slots.drop (ip.slots.length / 2 + 1) := by
    rw [← hdrop, List.take_append_drop]
  have hkeys : (ip.slots.take (ip.slots.length / 2)).drop 1 ++
      ip.slots[ip.slots.length / 2] :: ip.slots.drop (ip.slots.length / 2 + 1)
        = ip.slots.drop 1 := by
    conv_rhs => rw [hsplit]
    rw [List.drop_append_of_le_length]
    rw [List.length_take]
    omega
  refine ⟨{ ip with slots := ip.slots.take (ip.slots.length / 2) },
    { sibling with
        slots := ((sibling.slots.head?.map Prod.fst).getD 0, (ip.slots[ip.slots.length / 2]).2)
                   :: ip.slots.drop (ip.slots.length / 2 + 1) },
    (ip.slots[ip.slots.length / 2]).1, ?_, internal_KeyAt_getElem ip _ hc, rfl, ?_, ?_, ?_, rfl,
    rfl, rfl, ?_, ?_, ?_⟩
  · unfold InternalPage.Split
    simp only [List.get?_eq_getElem?, List.getElem?_eq_getElem hc]
  · unfold InternalPage.GetSize
    simp only [List.length_take]
    omega
  · unfold InternalPage.GetSize
    simp only [List.length_cons, List.length_drop]
    omega
  · rw [internal_ValueAt_getElem ip _ hc]
    rfl
  · show ((ip.slots.take (ip.slots.length / 2)).drop 1).map Prod.fst ++
        (ip.slots[ip.slots.length / 2]).1 ::
          (ip.slots.drop (ip.slots.length / 2 + 1)).map Prod.fst
      = (ip.slots.drop 1).map Prod.fst
    rw [← hkeys, List.map_append, List.map_cons]
  · conv_rhs => rw [hsplit]
    simp only [List.map_append, List.map_cons]
  · intro hsorted
    have hs2 : (((ip.slots.take (ip.slots.length / 2)).drop 1).map Prod.fst ++
        (ip.slots[ip.slots.length / 2]).1 ::
          (ip.slots.drop (ip.slots.length / 2 + 1)).map Prod.fst).Pairwise (· < ·) := by
      have : (ip.slots.map Prod.fst).drop 1 = (ip.slots.drop 1).map Prod.fst := by
        rw [List.map_drop]
      rw [this, ← hkeys, List.map_append, List.map_cons] at hsorted
      exact hsorted
    obtain ⟨_, h2, h3⟩ := List.pairwise_append.mp hs2
    constructor
    · intro hmem
      have := h3 _ hmem _ (List.mem_cons_self _ _)
      omega
    · intro hmem
      have hmem1 : (ip.slots[ip.slots.length / 2]).1 ∈
          (ip.slots.drop (ip.slots.length / 2 + 1)).map Prod.fst := hmem
      have := (List.pairwise_cons.mp h2).1 _ hmem1
      omega

/-- C33, applied to the page with the children 10, 11, 12, 13 and the keys 5,
7, 9: the middle key is 7, this page keeps the children 10 and 11 with the key
5, and the sibling gets the children 12 and 13 with the key 9. -/
theorem InternalPage_Split_halves_witness :
    ∃ left right middle,
      ({ page_id_ := 3, max_size_ := 3, slots := [(0, 10), (5, 11), (7, 12), (9, 13)] } :
        InternalPage).Split (InternalPage.Init 3) = Outcome.ok (left, right, middle) ∧
      left = { page_id_ := 3, max_size_ := 3, slots := [(0, 10), (5, 11)] } ∧
      right.slots.drop 1 = [(9, 13)] ∧
      right.ValueAt 0 = Outcome.ok 12 ∧
      middle = 7 := by
  obtain ⟨left, right, middle, h1, h2, h3, _, _, h6, h7, _⟩ := InternalPage_Split_halves
    { page_id_ := 3, max_size_ := 3, slots := [(0, 10), (5, 11), (7, 12), (9, 13)] }
    (InternalPage.Init 3) (by decide)
  refine ⟨left, right, middle, h1, h3, h7, h6, ?_⟩
  have h8 : ({ page_id_ := 3, max_size_ := 3, slots := [(0, 10), (5, 11), (7, 12), (9, 13)] } :
      InternalPage).KeyAt ((4 / 2 : Nat) : Int) = Outcome.ok 7 := by decide
  have h9 : Outcome.ok (7 : Int) = Outcome.ok middle := h8.symm.trans h2
  exact (Outcome.ok.inj h9).symm
/-! ## B+Tree pages: `Split` of the leaf page -/

/-- C32.  `Split` of the leaf `this_id`, which stores its page id and has
`n ≥ 2` entries, into the leaf `sibling_id`, freshly initialised with its page
id stored, when the next leaf of `this_id`, if there is one, is a third leaf
page: the call returns; this page keeps the entries `[0, ⌈n/2⌉)` and the
sibling gets the entries `[⌈n/2⌉, n)` in order, so the entries of the two pages
are the old entries; the middle key is the first key of the sibling; the next
pointer of this page is the sibling, the previous pointer of the sibling is
this page, the next pointer of the sibling is the old next leaf, and the
previous pointer of the old next leaf is the sibling; no other page changes.
When `n = max_size + 1` both pages have at least `⌈max_size/2⌉` entries. -/
theorem leafSplit_halves_and_links (t : BPlusTree) (this_id sibling_id : Int) (this : LeafPage)
    (sibling_max_size : Nat)
    (hthis : t.pages this_id = some (Page.leaf this)) (hid : this.page_id_ = this_id)
    (hsib : t.pages sibling_id
      = some (Page.leaf { LeafPage.Init sibling_max_size with page_id_ := sibling_id }))
    (hne : this_id ≠ sibling_id) (hn : 2 ≤ this.slots.length)
    (hnext : this.next_page_id_ = INVALID_PAGE_ID ∨
      (this.next_page_id_ ≠ this_id ∧ this.next_page_id_ ≠ sibling_id ∧
        ∃ next_leaf, t.pages this.next_page_id_ = some (Page.leaf next_leaf))) :
    ∃ middle t1 left right, leafSplit t this_id sibling_id = Outcome.ok (middle, t1) ∧
      t1.pages this_id = some (Page.leaf left) ∧
      t1.pages sibling_id = some (Page.leaf right) ∧
      left.slots = this.slots.take ((this.slots.length + 1) / 2) ∧
      right.slots = this.slots.drop ((this.slots.length + 1) / 2) ∧
      left.slots ++ right.slots = this.slots ∧
      right.KeyAt 0 = Outcome.ok middle ∧
      left.next_page_id_ = sibling_id ∧ left.prev_page_id_ = this.prev_page_id_ ∧
      right.prev_page_id_ = this_id ∧ right.next_page_id_ = this.next_page_id_ ∧
      left.page_id_ = this_id ∧ right.page_id_ = sibling_id ∧
      (this.next_page_id_ ≠ INVALID_PAGE_ID →
        ∃ next_leaf, t.pages this.next_page_id_ = some (Page.leaf next_leaf) ∧
          t1.pages this.next_page_id_
            = some (Page.leaf { next_leaf with prev_page_id_ := sibling_id })) ∧
      (∀ p, p ≠ this_id → p ≠ sibling_id → p ≠ this.next_page_id_ → t1.pages p = t.pages p) ∧
      (this.slots.length = this.max_size_ + 1 →
        GetMinSize this.max_size_ ≤ left.slots.length ∧
        GetMinSize this.max_size_ ≤ right.slots.length) := by
  have hc : (this.slots.length + 1) / 2 < this.slots.length := by omega
  obtain ⟨t1, h1, h2, h3, _, _, _, h7, h8⟩ := leafSplit_spec t this_id sibling_id this
    { LeafPage.Init sibling_max_size with page_id_ := sibling_id } hthis hsib hne hc hnext
  have hmid : (this.slots.drop ((this.slots.length + 1) / 2))
      = this.slots[(this.slots.length + 1) / 2] ::
        this.slots.drop ((this.slots.length + 1) / 2 + 1) := List.drop_eq_getElem_cons hc
  refine ⟨_, t1, _, _, h1, h2, h3, rfl, ?_, ?_, ?_, rfl, rfl, hid, rfl, hid, rfl, ?_, ?_, ?_⟩
  · simp [LeafPage.Init]
  · simp only [LeafPage.Init, List.nil_append, List.take_append_drop]
  · unfold LeafPage.KeyAt LeafPage.GetSize
    simp only [LeafPage.Init, List.nil_append]
    rw [if_pos (by
      rw [List.length_drop]
      omega)]
    simp only [Int.toNat_zero, List.get?_eq_getElem?, hmid, List.getElem?_cons_zero]
    rw [List.getD_eq_getElem _ _ (by rw [List.length_map]; exact hc)]
    simp
  · intro hv
    exact h8 hv
  · intro p hp1 hp2 hp3
    exact h7 p hp1 hp2 (fun h => hp3 h.2)
  · intro hmax
    unfold GetMinSize
    simp only [LeafPage.Init, List.nil_append, List.length_take, List.length_drop]
    omega

/-- C32, applied to the root leaf with the keys 1, 2, 3 (`max_size = 2`) and a
fresh leaf 2: this page keeps the keys 1 and 2, the sibling gets the key 3, which
is the middle key. -/
theorem leafSplit_halves_and_links_witness :
    ∃ middle t1 left right,
      leafSplit ((BPlusTree.new 2 3 4).setPage 1 (Page.leaf
          { page_id_ := 1, max_size_ := 2,
            slots := [(1, { page_id := 0, slot_num := 0 }), (2, { page_id := 0, slot_num := 1 }),
              (3, { page_id := 0, slot_num := 2 })],
            next_page_id_ := INVALID_PAGE_ID, prev_page_id_ := INVALID_PAGE_ID }) |>.setPage 2
          (Page.leaf { LeafPage.Init 2 with page_id_ := 2 })) 1 2 = Outcome.ok (middle, t1) ∧
      t1.pages 1 = some (Page.leaf left) ∧ t1.pages 2 = some (Page.leaf right) ∧
      left.slots = [(1, { page_id := 0, slot_num := 0 }), (2, { page_id := 0, slot_num := 1 })] ∧
      right.slots = [(3, { page_id := 0, slot_num := 2 })] ∧
      right.KeyAt 0 = Outcome.ok middle ∧
      left.next_page_id_ = 2 ∧ right.prev_page_id_ = 1 ∧
      right.next_page_id_ = INVALID_PAGE_ID := by
  obtain ⟨middle, t1, left, right, h1, h2, h3, h4, h5, _, h7, h8, _, h10, h11, _⟩ :=
    leafSplit_halves_and_links
      ((BPlusTree.new 2 3 4).setPage 1 (Page.leaf
          { page_id_ := 1, max_size_ := 2,
            slots := [(1, { page_id := 0, slot_num := 0 }), (2, { page_id := 0, slot_num := 1 }),
              (3, { page_id := 0, slot_num := 2 })],
            next_page_id_ := INVALID_PAGE_ID, prev_page_id_ := INVALID_PAGE_ID }) |>.setPage 2
          (Page.leaf { LeafPage.Init 2 with page_id_ := 2 })) 1 2
      { page_id_ := 1, max_size_ := 2,
        slots := [(1, { page_id := 0, slot_num := 0 }), (2, { page_id := 0, slot_num := 1 }),
          (3, { page_id := 0, slot_num := 2 })],
        next_page_id_ := INVALID_PAGE_ID, prev_page_id_ := INVALID_PAGE_ID } 2
      (by decide) rfl (by decide) (by decide) (by decide) (Or.inl rfl)
  exact ⟨middle, t1, left, right, h1, h2, h3, h4, h5, h7, h8, h10, h11⟩
/-! ## B+Tree: `FixUnderflow` on an internal page whose left sibling could lend -/

/-- C35, the failing input: with `leaf_max_size = 3` and `internal_max_size = 3`
(`min_size = 2`), after `Insert` of 10, 9, ..., 1 the root page 7 has the
internal children 3, with 3 slots, and 6, with 2 slots.  `Remove(10)` merges
the last two leaves and leaves page 6 with one child; its left sibling page 3
holds 3 slots, more than `min_size`, but no slot is moved from it: page 6 is
merged into page 3, which then holds 4 slots, and the pages 6 and 7 are
deleted. -/
theorem internal_underflow_merges_with_lending_left_sibling :
    GetMinSize 3 = 2 ∧
    (runOps 4 [Op.insert 10 ⟨10, 0⟩, Op.insert 9 ⟨9, 0⟩, Op.insert 8 ⟨8, 0⟩, Op.insert 7 ⟨7, 0⟩,
        Op.insert 6 ⟨6, 0⟩, Op.insert 5 ⟨5, 0⟩, Op.insert 4 ⟨4, 0⟩, Op.insert 3 ⟨3, 0⟩,
        Op.insert 2 ⟨2, 0⟩, Op.insert 1 ⟨1, 0⟩] (BPlusTree.new 3 3 255)).bind
        (fun t => Outcome.ok (t.root_page_id_, t.pages 3, t.pages 6, t.pages 7))
      = Outcome.ok (7,
          some (Page.internal { page_id_ := 3, max_size_ := 3,
                                slots := [(0, 1), (3, 8), (5, 5)] }),
          some (Page.internal { page_id_ := 0, max_size_ := 3, slots := [(0, 4), (9, 2)] }),
          some (Page.internal { page_id_ := 7, max_size_ := 3, slots := [(0, 3), (7, 6)] })) ∧
    (runOps 4 [Op.insert 10 ⟨10, 0⟩, Op.insert 9 ⟨9, 0⟩, Op.insert 8 ⟨8, 0⟩, Op.insert 7 ⟨7, 0⟩,
        Op.insert 6 ⟨6, 0⟩, Op.insert 5 ⟨5, 0⟩, Op.insert 4 ⟨4, 0⟩, Op.insert 3 ⟨3, 0⟩,
        Op.insert 2 ⟨2, 0⟩, Op.insert 1 ⟨1, 0⟩, Op.remove 10] (BPlusTree.new 3 3 255)).bind
        (fun t => Outcome.ok (t.root_page_id_, t.pages 3, t.pages 6, t.pages 7))
      = Outcome.ok (3,
          some (Page.internal { page_id_ := 3, max_size_ := 3,
                                slots := [(0, 1), (3, 8), (5, 5), (7, 4)] }),
          none, none) := by
  refine ⟨by decide, by decide, by decide⟩

/-! ## LRU-K replacer: a tracked frame without history -/

/-- C37, the failing input: the state after `SetEvictable(1, true)` on a fresh
replacer with `k = 2` is reachable, it tracks frame 1 with an empty history,
and `Evict` in it calls `back()` on that history. -/
theorem reachable_state_tracks_frame_without_history :
    Reachable { node_store_ := [(1, { history_ := [], is_evictable_ := true })],
                current_timestamp_ := 0, curr_size_ := 1, replacer_size_ := 7, k_ := 2 } ∧
    findNode [(1, ({ history_ := [], is_evictable_ := true } : LRUKNode))] 1
      = some { history_ := [], is_evictable_ := true } ∧
    Evict { node_store_ := [(1, { history_ := [], is_evictable_ := true })],
            current_timestamp_ := 0, curr_size_ := 1, replacer_size_ := 7, k_ := 2 }
      = Res.undefinedBehaviour :=
  ⟨Reachable.setEvictable 1 true (Reachable.fresh 7 2) (by decide) (by decide), by decide,
    by decide⟩
/-! ## Index scan: the rows of a point lookup -/

theorem fetchLive_rids_sublist (h : TableHeap) :
    ∀ rids : List RID, ((fetchLive h rids).map Prod.snd).Sublist rids := by
  intro rids
  induction rids with
  | nil => exact List.Sublist.refl _
  | cons rid rest ih =>
    unfold fetchLive
    rw [List.filterMap_cons]
    cases hg : h.GetTuple rid with
    | ok slot =>
      simp only
      by_cases hd : slot.1.is_deleted_ = true
      · rw [if_pos hd]
        exact List.Sublist.cons _ ih
      · rw [if_neg hd]
        simp only [List.map_cons]
        exact List.Sublist.cons₂ _ ih
    | ensureFailed => exact List.Sublist.cons _ ih
    | undefinedBehaviour => exact List.Sublist.cons _ ih
    | outOfFuel => exact List.Sublist.cons _ ih

/-- C36, as the claim states it, fails: the index scan of the example with the
key 1 and without filter has a non-empty list of keys, and `ScanKey` returns
for the key 1 the record id of the slot 0, whose row is not deleted, so the
claim has the scan emit that row and no other.  `Init` does not look the key
up: it branches on the filter, runs the ordered loop from `GetBeginIterator`
and reads the record id through the reference that `operator*` returns, which
is undefined behaviour.  With a filter the same key gives the row of the
slot 0. -/
theorem IndexScan_keys_without_filter_are_not_looked_up :
    (exampleIndexScan none
      [AbstractExpression.ConstantValueExpression (Value.integer 1)]).pred_keys_ ≠ [] ∧
    (exampleIndex exampleTree).ScanKey 5 { values := [Value.integer 1] }
      = Outcome.ok [{ page_id := 0, slot_num := 0 }] ∧
    exampleTable.table_.GetTuple { page_id := 0, slot_num := 0 }
      = Outcome.ok ({ ts_ := 0, is_deleted_ := false }, integerRow [1, 10]) ∧
    IndexScanExecutor.Init (exampleContext [exampleIndex exampleTree]) 5
        (exampleIndexScan none [AbstractExpression.ConstantValueExpression (Value.integer 1)])
      = Outcome.undefinedBehaviour ∧
    executeScan (exampleContext [exampleIndex exampleTree]) 5
        (AbstractPlanNode.IndexScan (exampleIndexScan none
          [AbstractExpression.ConstantValueExpression (Value.integer 1)]))
      = some Outcome.undefinedBehaviour ∧
    executeScan (exampleContext [exampleIndex exampleTree]) 5
        (AbstractPlanNode.IndexScan (exampleIndexScan (some exampleFilter)
          [AbstractExpression.ConstantValueExpression (Value.integer 1)]))
      = some (Outcome.ok [(integerRow [1, 10], { page_id := 0, slot_num := 0 })]) := by
  refine ⟨?_, ?_, ?_, ?_, ?_, ?_⟩ <;> decide

/-- C36, amended.  For an index scan whose plan carries a filter, the condition
under which `Init` looks the keys up, over a table and an index of the
catalog, and every list of key expressions that evaluate against the null
tuple and whose lookups return record ids of the heap: `Init` returns, the
calls of `Next` emit rows until a call returns false, no record id is emitted
twice, and a row is emitted exactly when it is the tuple of a slot of the heap
that is not deleted and whose record id `ScanKey` returns for one of the keys;
the calls of `Next` after the last row return false. -/
theorem IndexScan_point_mode_rows (exec_ctx_ : ExecutorContext) (fuel n : Nat)
    (plan_ : IndexScanPlanNode) (table_info : TableInfo) (index : IndexInfo)
    (hf : plan_.filter_predicate_ ≠ none)
    (ht : exec_ctx_.catalog_.GetTable plan_.table_oid_ = some table_info)
    (hi : exec_ctx_.catalog_.GetIndex plan_.index_oid_ = some index)
    (hkeys : ∀ key ∈ plan_.pred_keys_, ∃ x rids, key.Evaluate none = Outcome.ok x ∧
      index.ScanKey fuel { values := [x] } = Outcome.ok rids ∧
      ∀ rid ∈ rids, ∃ slot, table_info.table_.GetTuple rid = Outcome.ok slot)
    (hn : table_info.table_.slots.length < n) :
    ∃ e rows e1, IndexScanExecutor.Init exec_ctx_ fuel plan_ = Outcome.ok e ∧
      IndexScanExecutor.run exec_ctx_ n e = Outcome.ok (rows, e1) ∧
      (rows.map Prod.snd).Nodup ∧
      (∀ (t : Tuple) (rid : RID), (t, rid) ∈ rows ↔
        (∃ tuple_meta, table_info.table_.GetTuple rid = Outcome.ok (tuple_meta, t) ∧
          tuple_meta.is_deleted_ = false) ∧
        ∃ key ∈ plan_.pred_keys_, ∃ x rids, key.Evaluate none = Outcome.ok x ∧
          index.ScanKey fuel { values := [x] } = Outcome.ok rids ∧ rid ∈ rids) ∧
      IndexScanExecutor.Next exec_ctx_ e1 = Outcome.ok (none, e1) := by
  have hf1 : plan_.filter_predicate_.isSome = true := by
    cases h : plan_.filter_predicate_ with
    | none => exact absurd h hf
    | some f => rfl
  have hkeys1 : ∀ key ∈ plan_.pred_keys_, ∃ x rids, key.Evaluate none = Outcome.ok x ∧
      index.ScanKey fuel { values := [x] } = Outcome.ok rids := by
    intro key hk
    obtain ⟨x, rids, h1, h2, _⟩ := hkeys key hk
    exact ⟨x, rids, h1, h2⟩
  have hinit : ∃ scan_rids, IndexScanExecutor.Init exec_ctx_ fuel plan_
        = Outcome.ok { plan_ := plan_, scan_rids_ := scan_rids, current_index_ := 0 } ∧
      scan_rids.Nodup ∧
      ∀ rid, rid ∈ scan_rids ↔ ∃ key ∈ plan_.pred_keys_, ∃ x rids,
        key.Evaluate none = Outcome.ok x ∧
        index.ScanKey fuel { values := [x] } = Outcome.ok rids ∧ rid ∈ rids := by
    by_cases hk : plan_.pred_keys_ = []
    · refine ⟨[], indexScan_init_no_keys exec_ctx_ fuel plan_ index hf1 hk hi, List.nodup_nil, ?_⟩
      intro rid
      rw [hk]
      simp
    · exact indexScan_init_point exec_ctx_ fuel plan_ table_info index hf1 hk ht hi hkeys1
  obtain ⟨scan_rids, h1, h2, h3⟩ := hinit
  have hvalid : ∀ rid ∈ scan_rids, ∃ slot, table_info.table_.GetTuple rid = Outcome.ok slot := by
    intro rid hr
    obtain ⟨key, hk, x, rids, hx, hs, hin⟩ := (h3 rid).mp hr
    obtain ⟨x1, rids1, hx1, hs1, hv⟩ := hkeys key hk
    rw [hx] at hx1
    cases hx1
    rw [hs] at hs1
    cases hs1
    exact hv rid hin
  have hlen := length_le_slots table_info.table_ scan_rids h2 hvalid
  have hrun := indexScan_run_from exec_ctx_ plan_ table_info ht scan_rids scan_rids 0 n
    (List.drop_zero _) hvalid (by omega)
  refine ⟨_, fetchLive table_info.table_ scan_rids, _, h1, hrun,
    List.Nodup.sublist (fetchLive_rids_sublist _ _) h2, ?_, ?_⟩
  · intro t rid
    rw [mem_fetchLive, h3 rid]
    exact And.comm
  · unfold IndexScanExecutor.Next
    simp only [ht, Nat.zero_add, List.drop_length, indexScanLoop, Outcome.ok_bind,
      Outcome.pure_eq_ok]

/-- C36, amended, applied to the index scan of the example with a filter and
the keys 1, 5 and 1 again: the rows of the slots 0 and 3 are emitted, each
once, in one order or the other. -/
theorem IndexScan_point_mode_rows_witness :
    (∃ e rows e1,
      IndexScanExecutor.Init (exampleContext [exampleIndex exampleTree]) 5
          (exampleIndexScan (some exampleFilter)
            [AbstractExpression.ConstantValueExpression (Value.integer 1),
             AbstractExpression.ConstantValueExpression (Value.integer 5),
             AbstractExpression.ConstantValueExpression (Value.integer 1)]) = Outcome.ok e ∧
      IndexScanExecutor.run (exampleContext [exampleIndex exampleTree]) 5 e
        = Outcome.ok (rows, e1) ∧
      (rows.map Prod.snd).Nodup ∧
      (∀ (t : Tuple) (rid : RID), (t, rid) ∈ rows ↔
        (∃ tuple_meta, exampleTable.table_.GetTuple rid = Outcome.ok (tuple_meta, t) ∧
          tuple_meta.is_deleted_ = false) ∧
        ∃ key ∈ [AbstractExpression.ConstantValueExpression (Value.integer 1),
             AbstractExpression.ConstantValueExpression (Value.integer 5),
             AbstractExpression.ConstantValueExpression (Value.integer 1)],
          ∃ x rids, key.Evaluate none = Outcome.ok x ∧
            (exampleIndex exampleTree).ScanKey 5 { values := [x] } = Outcome.ok rids ∧
            rid ∈ rids) ∧
      IndexScanExecutor.Next (exampleContext [exampleIndex exampleTree]) e1
        = Outcome.ok (none, e1)) ∧
    (∃ rows, executeScan (exampleContext [exampleIndex exampleTree]) 5
        (AbstractPlanNode.IndexScan (exampleIndexScan (some exampleFilter)
          [AbstractExpression.ConstantValueExpression (Value.integer 1),
           AbstractExpression.ConstantValueExpression (Value.integer 5),
           AbstractExpression.ConstantValueExpression (Value.integer 1)]))
        = some (Outcome.ok rows) ∧
      rows.Perm [(integerRow [1, 10], { page_id := 0, slot_num := 0 }),
        (integerRow [5, 40], { page_id := 0, slot_num := 3 })]) :=
  ⟨IndexScan_point_mode_rows (exampleContext [exampleIndex exampleTree]) 5 5
    (exampleIndexScan (some exampleFilter)
      [AbstractExpression.ConstantValueExpression (Value.integer 1),
       AbstractExpression.ConstantValueExpression (Value.integer 5),
       AbstractExpression.ConstantValueExpression (Value.integer 1)])
    exampleTable (exampleIndex exampleTree) (by decide) rfl rfl
    (by
      intro key hk
      have hk1 : key ∈ [AbstractExpression.ConstantValueExpression (Value.integer 1),
          AbstractExpression.ConstantValueExpression (Value.integer 5),
          AbstractExpression.ConstantValueExpression (Value.integer 1)] := hk
      simp only [List.mem_cons, List.mem_singleton, List.not_mem_nil, or_false] at hk1
      rcases hk1 with h | h | h
      · subst h
        refine ⟨Value.integer 1, [{ page_id := 0, slot_num := 0 }], rfl, by decide, ?_⟩
        intro rid hr
        rw [List.mem_singleton] at hr
        subst hr
        exact ⟨_, rfl⟩
      · subst h
        refine ⟨Value.integer 5, [{ page_id := 0, slot_num := 3 }], rfl, by decide, ?_⟩
        intro rid hr
        rw [List.mem_singleton] at hr
        subst hr
        exact ⟨_, rfl⟩
      · subst h
        refine ⟨Value.integer 1, [{ page_id := 0, slot_num := 0 }], rfl, by decide, ?_⟩
        intro rid hr
        rw [List.mem_singleton] at hr
        subst hr
        exact ⟨_, rfl⟩)
    (by decide), ⟨_, by decide, List.Perm.refl _⟩⟩

/-! ## LRU-K replacer: timestamps and the order of the victim scan -/

theorem reachableIn_reachable {n : Nat} {s : LRUKReplacer} (h : ReachableIn n s) :
    Reachable s := by
  induction h with
  | fresh num_frames k => exact Reachable.fresh num_frames k
  | recordAccess f _ hf hop ih => exact Reachable.recordAccess f ih hf hop
  | setEvictable f b _ hf hop ih => exact Reachable.setEvictable f b ih hf hop
  | remove f _ hf hop ih => exact Reachable.remove f ih hf hop
  | evict r _ hop ih => exact Reachable.evict r ih hop
  | reorder l _ hperm ih => exact Reachable.reorder l ih hperm

theorem size_max_succ : SIZE_MAX + 1 = SIZE_MOD := by
  unfold SIZE_MAX SIZE_MOD
  omega

theorem toSizeT_invalid : toSizeT INVALID_FRAME_ID = SIZE_MAX := by
  decide

theorem trimHistory_sublist (k : Nat) (n : LRUKNode) :
    (trimHistory k n).history_.Sublist n.history_ := by
  unfold trimHistory
  split_ifs
  · exact List.dropLast_sublist _
  · exact List.Sublist.refl _

theorem findNode_perm {l l1 : List (Int × LRUKNode)} (hnd : (l.map Prod.fst).Nodup)
    (hperm : l.Perm l1) (f : Int) : findNode l1 f = findNode l f := by
  have hnd1 : (l1.map Prod.fst).Nodup := (hperm.map Prod.fst).nodup_iff.mp hnd
  cases h : findNode l f with
  | none =>
    rw [findNode_eq_none_iff] at h ⊢
    intro hmem
    exact h ((hperm.map Prod.fst).mem_iff.mpr hmem)
  | some n =>
    exact findNode_of_mem hnd1 (hperm.mem_iff.mp (mem_of_findNode h))

/-- What a returning call of `RecordAccess` leaves in the store. -/
theorem recordAccess_find {s s1 : LRUKReplacer} {f : Int}
    (h : RecordAccess s f = Res.done () s1) :
    toSizeT f ≤ s.replacer_size_ ∧
    s1.current_timestamp_ = sizeIncr s.current_timestamp_ ∧
    s1.replacer_size_ = s.replacer_size_ ∧ s1.k_ = s.k_ ∧
    (∀ g, g ≠ f → findNode s1.node_store_ g = findNode s.node_store_ g) ∧
    ∃ n1, findNode s1.node_store_ f = some n1 ∧
      n1.history_.Sublist (s.current_timestamp_ ::
        ((findNode s.node_store_ f).getD LRUKNode.default).history_) := by
  have hidx : findNode (indexNode s.node_store_ f) f
      = some ((findNode s.node_store_ f).getD LRUKNode.default) := by
    rw [findNode_indexNode_self]
    cases findNode s.node_store_ f <;> rfl
  unfold RecordAccess at h
  by_cases hc : toSizeT f ≤ s.replacer_size_
  · rw [if_neg (not_not.mpr hc)] at h
    simp only [hidx, Res.done.injEq, true_and] at h
    subst h
    refine ⟨hc, rfl, rfl, rfl, ?_, ?_⟩
    · intro g hg
      show findNode (setNode (setNode (indexNode s.node_store_ f) f _) f _) g = _
      rw [findNode_setNode_ne _ _ hg, findNode_setNode_ne _ _ hg, findNode_indexNode_ne _ hg]
    · refine ⟨_, findNode_setNode_self _ (findNode_setNode_self _ hidx), ?_⟩
      exact trimHistory_sublist _ _
  · rw [if_pos hc] at h
    simp at h

/-- What a returning call of `SetEvictable` leaves in the store. -/
theorem setEvictable_find {s s1 : LRUKReplacer} {f : Int} {b : Bool}
    (h : SetEvictable s f b = Res.done () s1) :
    s1.current_timestamp_ = s.current_timestamp_ ∧
    s1.replacer_size_ = s.replacer_size_ ∧ s1.k_ = s.k_ ∧
    (∀ g, g ≠ f → findNode s1.node_store_ g = findNode s.node_store_ g) ∧
    ∃ n1, findNode s1.node_store_ f = some n1 ∧
      n1.history_ = ((findNode s.node_store_ f).getD LRUKNode.default).history_ := by
  have hidx : findNode (indexNode s.node_store_ f) f
      = some ((findNode s.node_store_ f).getD LRUKNode.default) := by
    rw [findNode_indexNode_self]
    cases findNode s.node_store_ f <;> rfl
  unfold SetEvictable at h
  simp only [hidx, Res.done.injEq, true_and] at h
  subst h
  refine ⟨rfl, rfl, rfl, ?_, ?_⟩
  · intro g hg
    show findNode (setNode (indexNode s.node_store_ f) f _) g = _
    rw [findNode_setNode_ne _ _ hg, findNode_indexNode_ne _ hg]
  · exact ⟨_, findNode_setNode_self _ hidx, rfl⟩

/-- What a returning call of `Remove` leaves in the store. -/
theorem remove_find {s s1 : LRUKReplacer} {f : Int} (h : Remove s f = Res.done () s1) :
    s1.current_timestamp_ = s.current_timestamp_ ∧
    s1.replacer_size_ = s.replacer_size_ ∧ s1.k_ = s.k_ ∧
    ∀ g n, findNode s1.node_store_ g = some n → findNode s.node_store_ g = some n := by
  unfold Remove at h
  cases hfind : findNode s.node_store_ f with
  | none =>
    rw [hfind] at h
    simp only [Res.done.injEq, true_and] at h
    subst h
    exact ⟨rfl, rfl, rfl, fun g n hg => hg⟩
  | some node =>
    rw [hfind] at h
    by_cases hev : node.is_evictable_ = true
    · simp only [hev, ne_eq, not_true_eq_false, if_false, Res.done.injEq, true_and] at h
      subst h
      refine ⟨rfl, rfl, rfl, ?_⟩
      intro g n hg
      by_cases hgf : g = f
      · subst hgf
        have hg1 : findNode (eraseNode s.node_store_ g) g = some n := hg
        rw [findNode_eraseNode_self] at hg1
        exact absurd hg1 (by simp)
      · have hg1 : findNode (eraseNode s.node_store_ f) g = some n := hg
        rwa [findNode_eraseNode_ne _ hgf] at hg1
    · simp [hev] at h

/-- What a returning call of `Evict` leaves in the store. -/
theorem evict_find {s s1 : LRUKReplacer} {r : Option Int} (h : Evict s = Res.done r s1) :
    s1.current_timestamp_ = sizeIncr s.current_timestamp_ ∧
    s1.replacer_size_ = s.replacer_size_ ∧ s1.k_ = s.k_ ∧
    ∀ g n, findNode s1.node_store_ g = some n → findNode s.node_store_ g = some n := by
  obtain ⟨hts, hcap, hk, hsome, hnone⟩ := evict_post s r s1 h
  refine ⟨hts, hcap, hk, ?_⟩
  intro g n hg
  cases r with
  | none =>
    rw [(hnone rfl).1] at hg
    exact hg
  | some f =>
    obtain ⟨_, _, hself, hother, _, _⟩ := hsome f rfl
    by_cases hgf : g = f
    · subst hgf
      rw [hself] at hg
      exact absurd hg (by simp)
    · rwa [hother g hgf] at hg

/-- The timestamp invariant passes to a state whose histories are histories of
the state before, or empty, and whose clock is not behind. -/
theorem tsInv_of_sub {s s1 : LRUKReplacer} (hinv : TsInv s)
    (hts : s.current_timestamp_ ≤ s1.current_timestamp_)
    (hcap : s1.replacer_size_ = s.replacer_size_)
    (hsub : ∀ g n, findNode s1.node_store_ g = some n →
      n.history_ = [] ∨ ∃ m, findNode s.node_store_ g = some m ∧ m.history_ = n.history_) :
    TsInv s1 := by
  obtain ⟨h1, h2⟩ := hinv
  refine ⟨?_, ?_⟩
  · intro f n hf
    rcases hsub f n hf with he | ⟨m, hm, hmn⟩
    · rw [he]
      exact ⟨fun t ht => by simp at ht, List.Pairwise.nil, fun hh => absurd rfl hh⟩
    · obtain ⟨a, b, c⟩ := h1 f m hm
      rw [← hmn, hcap]
      exact ⟨fun t ht => lt_of_lt_of_le (a t ht) hts, b, c⟩
  · intro f g n m t hf hg htn htm
    rcases hsub f n hf with he | ⟨n0, hn0, hn0e⟩
    · rw [he] at htn
      simp at htn
    · rcases hsub g m hg with he | ⟨m0, hm0, hm0e⟩
      · rw [he] at htm
        simp at htm
      · rw [← hn0e] at htn
        rw [← hm0e] at htm
        exact h2 f g n0 m0 t hn0 hm0 htn htm

theorem tsInv_recordAccess {s s1 : LRUKReplacer} {f : Int} (hinv : TsInv s)
    (hlt : s.current_timestamp_ < SIZE_MAX) (h : RecordAccess s f = Res.done () s1) :
    TsInv s1 := by
  obtain ⟨hc, hts, hcap, _, hother, n1, hn1, hpre⟩ := recordAccess_find h
  have hts1 : s1.current_timestamp_ = s.current_timestamp_ + 1 := by
    rw [hts]
    exact sizeIncr_eq_succ (by rw [← size_max_succ]; omega)
  obtain ⟨h1, h2⟩ := hinv
  have hold : ∀ t ∈ ((findNode s.node_store_ f).getD LRUKNode.default).history_,
      ∃ n0, findNode s.node_store_ f = some n0 ∧ t ∈ n0.history_ := by
    intro t ht
    cases hfind : findNode s.node_store_ f with
    | none =>
      rw [hfind] at ht
      simp [LRUKNode.default] at ht
    | some n0 =>
      rw [hfind] at ht
      exact ⟨n0, rfl, ht⟩
  have hmem1 : ∀ t ∈ n1.history_, t = s.current_timestamp_ ∨
      ∃ n0, findNode s.node_store_ f = some n0 ∧ t ∈ n0.history_ := by
    intro t ht
    have := hpre.subset ht
    rcases List.mem_cons.mp this with h0 | h0
    · exact Or.inl h0
    · exact Or.inr (hold t h0)
  refine ⟨?_, ?_⟩
  · intro g n hg
    by_cases hgf : g = f
    · subst hgf
      rw [hn1] at hg
      cases hg
      refine ⟨?_, ?_, fun _ => by rw [hcap]; exact hc⟩
      · intro t ht
        rcases hmem1 t ht with h0 | ⟨n0, hn0, ht0⟩
        · omega
        · have := (h1 g n0 hn0).1 t ht0
          omega
      · refine List.Pairwise.sublist hpre ?_
        rw [List.pairwise_cons]
        refine ⟨?_, ?_⟩
        · intro t ht
          obtain ⟨n0, hn0, ht0⟩ := hold t ht
          exact (h1 g n0 hn0).1 t ht0
        · cases hfind : findNode s.node_store_ g with
          | none => simp [LRUKNode.default]
          | some n0 => exact (h1 g n0 hfind).2.1
    · rw [hother g hgf] at hg
      obtain ⟨a, b, c⟩ := h1 g n hg
      rw [hcap]
      exact ⟨fun t ht => by have := a t ht; omega, b, c⟩
  · intro g g1 n m t hg hg1 htn htm
    by_cases hgf : g = f
    · by_cases hg1f : g1 = f
      · rw [hgf, hg1f]
      · subst hgf
        rw [hn1] at hg
        cases hg
        rw [hother g1 hg1f] at hg1
        rcases hmem1 t htn with h0 | ⟨n0, hn0, ht0⟩
        · have := (h1 g1 m hg1).1 t htm
          omega
        · exact h2 g g1 n0 m t hn0 hg1 ht0 htm
    · rw [hother g hgf] at hg
      by_cases hg1f : g1 = f
      · subst hg1f
        rw [hn1] at hg1
        cases hg1
        rcases hmem1 t htm with h0 | ⟨n0, hn0, ht0⟩
        · have := (h1 g n hg).1 t htn
          omega
        · exact h2 g g1 n n0 t hg hn0 htn ht0
      · rw [hother g1 hg1f] at hg1
        exact h2 g g1 n m t hg hg1 htn htm

theorem tsInv_setEvictable {s s1 : LRUKReplacer} {f : Int} {b : Bool} (hinv : TsInv s)
    (h : SetEvictable s f b = Res.done () s1) : TsInv s1 := by
  obtain ⟨hts, hcap, _, hother, n1, hn1, hhist⟩ := setEvictable_find h
  refine tsInv_of_sub hinv (le_of_eq hts.symm) hcap ?_
  intro g n hg
  by_cases hgf : g = f
  · subst hgf
    rw [hn1] at hg
    cases hg
    cases hfind : findNode s.node_store_ g with
    | none =>
      rw [hfind] at hhist
      exact Or.inl hhist
    | some n0 =>
      rw [hfind] at hhist
      exact Or.inr ⟨n0, rfl, hhist.symm⟩
  · rw [hother g hgf] at hg
    exact Or.inr ⟨n, hg, rfl⟩

theorem tsInv_remove {s s1 : LRUKReplacer} {f : Int} (hinv : TsInv s)
    (h : Remove s f = Res.done () s1) : TsInv s1 := by
  obtain ⟨hts, hcap, _, hsub⟩ := remove_find h
  exact tsInv_of_sub hinv (le_of_eq hts.symm) hcap
    (fun g n hg => Or.inr ⟨n, hsub g n hg, rfl⟩)

theorem tsInv_evict {s s1 : LRUKReplacer} {r : Option Int} (hinv : TsInv s)
    (hlt : s.current_timestamp_ < SIZE_MAX) (h : Evict s = Res.done r s1) : TsInv s1 := by
  obtain ⟨hts, hcap, _, hsub⟩ := evict_find h
  have hts1 : s1.current_timestamp_ = s.current_timestamp_ + 1 := by
    rw [hts]
    exact sizeIncr_eq_succ (by rw [← size_max_succ]; omega)
  exact tsInv_of_sub hinv (by omega) hcap (fun g n hg => Or.inr ⟨n, hsub g n hg, rfl⟩)

/-- While fewer than `2^64` timestamps have been handed out, the clock is the
number of timestamps handed out and the timestamp invariant holds. -/
theorem reachableIn_tsInv {n : Nat} {s : LRUKReplacer} (h : ReachableIn n s) :
    n ≤ SIZE_MAX → s.current_timestamp_ = n ∧ TsInv s := by
  induction h with
  | fresh num_frames k =>
    intro _
    refine ⟨rfl, ?_, ?_⟩
    · intro f n hf
      simp [LRUKReplacer.new, findNode] at hf
    · intro f g n m t hf
      simp [LRUKReplacer.new, findNode] at hf
  | recordAccess f _ hf hop ih =>
    intro hn
    obtain ⟨hcur, hinv⟩ := ih (by omega)
    refine ⟨?_, tsInv_recordAccess hinv (by omega) hop⟩
    rw [(recordAccess_find hop).2.1, hcur]
    exact sizeIncr_eq_succ (by rw [← size_max_succ]; omega)
  | setEvictable f b _ hf hop ih =>
    intro hn
    obtain ⟨hcur, hinv⟩ := ih hn
    exact ⟨by rw [(setEvictable_find hop).1, hcur], tsInv_setEvictable hinv hop⟩
  | remove f _ hf hop ih =>
    intro hn
    obtain ⟨hcur, hinv⟩ := ih hn
    exact ⟨by rw [(remove_find hop).1, hcur], tsInv_remove hinv hop⟩
  | evict r _ hop ih =>
    intro hn
    obtain ⟨hcur, hinv⟩ := ih (by omega)
    refine ⟨?_, tsInv_evict hinv (by omega) hop⟩
    rw [(evict_find hop).1, hcur]
    exact sizeIncr_eq_succ (by rw [← size_max_succ]; omega)
  | reorder l hr hperm ih =>
    intro hn
    obtain ⟨hcur, hinv⟩ := ih hn
    have hnd := (reachable_storeInv (reachableIn_reachable hr)).1
    refine ⟨hcur, ?_, ?_⟩
    · intro f n hf
      have hf1 : findNode l f = some n := hf
      rw [findNode_perm hnd hperm] at hf1
      exact hinv.1 f n hf1
    · intro f g n m t hf hg
      have hf1 : findNode l f = some n := hf
      have hg1 : findNode l g = some m := hg
      rw [findNode_perm hnd hperm] at hf1 hg1
      exact hinv.2 f g n m t hf1 hg1

/-- The scan runs into `back()` on an empty history as soon as the store holds
an evictable record without a history, wherever the record stands. -/
theorem evictScan_none_of_mem {k cur : Nat} {l : List (Int × LRUKNode)} {e : Int × LRUKNode}
    (he : e ∈ l) (hev : e.2.is_evictable_ = true) (hh : e.2.history_ = []) :
    ∀ acc, evictScan k cur acc l = none := by
  induction l with
  | nil => simp at he
  | cons x rest ih =>
    intro acc
    rw [evictScan]
    cases hx : evictVisit k cur acc x with
    | none => rfl
    | some acc1 =>
      rcases List.mem_cons.mp he with h0 | h0
      · subst h0
        unfold evictVisit at hx
        simp [hev, hh] at hx
      · exact ih h0 acc1

theorem evictScan_some_history {k cur : Nat} {l : List (Int × LRUKNode)} {acc sc : EvictScan}
    (h : evictScan k cur acc l = some sc) :
    ∀ e ∈ l, e.2.is_evictable_ = true → e.2.history_ ≠ [] := by
  intro e he hev hh
  rw [evictScan_none_of_mem he hev hh acc] at h
  simp at h

/-- Two scans of the same records, in any two orders, end with the same two
victims when the recorded timestamps are below the clock and no timestamp is
recorded for two frames. -/
theorem evictScan_order {k cur : Nat} {l l1 : List (Int × LRUKNode)} {sc sc1 : EvictScan}
    (hperm : l.Perm l1) (hcur : cur ≤ SIZE_MAX)
    (hlt : ∀ e ∈ l, ∀ t ∈ e.2.history_, t < cur)
    (hdis : ∀ e ∈ l, ∀ e1 ∈ l, ∀ t, t ∈ e.2.history_ → t ∈ e1.2.history_ → e.1 = e1.1)
    (hid : ∀ e ∈ l, e.2.is_evictable_ = true → e.1 ≠ INVALID_FRAME_ID)
    (h : evictScan k cur EvictScan.init l = some sc)
    (h1 : evictScan k cur EvictScan.init l1 = some sc1) :
    sc.inf_victim_frame = sc1.inf_victim_frame ∧ sc.reg_victim_frame = sc1.reg_victim_frame := by
  have hid1 : ∀ e ∈ l1, e.2.is_evictable_ = true → e.1 ≠ INVALID_FRAME_ID :=
    fun e he => hid e (hperm.mem_iff.mpr he)
  obtain ⟨ia, _, ic⟩ := evictScan_infSeen h
  obtain ⟨ia1, _, ic1⟩ := evictScan_infSeen h1
  have hr := evictScan_regSeen hid h
  have hr1 := evictScan_regSeen hid1 h1
  refine ⟨?_, ?_⟩
  · rcases ic with ⟨hv, hc⟩ | ⟨e, he, hev, hlen, hlast, hfr⟩
    · rcases ic1 with ⟨hv1, _⟩ | ⟨e1, he1, hev1, hlen1, hlast1, _⟩
      · rw [hv, hv1]
      · have hle := ia e1 (hperm.mem_iff.mpr he1) hev1 hlen1 _ hlast1
        have := hlt e1 (hperm.mem_iff.mpr he1) _ (List.mem_of_getLast?_eq_some hlast1)
        omega
    · rcases ic1 with ⟨_, hc1⟩ | ⟨e1, he1, hev1, hlen1, hlast1, hfr1⟩
      · have hle := ia1 e (hperm.mem_iff.mp he) hev hlen _ hlast
        have := hlt e he _ (List.mem_of_getLast?_eq_some hlast)
        omega
      · have hle := ia e1 (hperm.mem_iff.mpr he1) hev1 hlen1 _ hlast1
        have hle1 := ia1 e (hperm.mem_iff.mp he) hev hlen _ hlast
        have heq : sc.inf_candidate_time = sc1.inf_candidate_time := by omega
        rw [← heq] at hlast1
        rw [← hfr, ← hfr1]
        exact hdis e he e1 (hperm.mem_iff.mpr he1) _ (List.mem_of_getLast?_eq_some hlast)
          (List.mem_of_getLast?_eq_some hlast1)
  · rcases hr with ⟨hv, hno⟩ | ⟨e, he, hev, hlen, hfr, t, hlast, hd, hmax⟩
    · rcases hr1 with ⟨hv1, _⟩ | ⟨e1, he1, hev1, hlen1, _⟩
      · rw [hv, hv1]
      · exact absurd (hno e1 (hperm.mem_iff.mpr he1) hev1 hlen1) id
    · rcases hr1 with ⟨_, hno1⟩ | ⟨e1, he1, hev1, hlen1, hfr1, t1, hlast1, hd1, hmax1⟩
      · exact absurd (hno1 e (hperm.mem_iff.mp he) hev hlen) id
      · have hle := hmax e1 (hperm.mem_iff.mpr he1) hev1 hlen1 t1 hlast1
        have hle1 := hmax1 e (hperm.mem_iff.mp he) hev hlen t hlast
        have ht := hlt e he _ (List.mem_of_getLast?_eq_some hlast)
        have ht1 := hlt e1 (hperm.mem_iff.mpr he1) _ (List.mem_of_getLast?_eq_some hlast1)
        rw [← hd] at hle
        rw [← hd1] at hle1
        rw [sizeSub_eq_sub (le_of_lt ht), sizeSub_eq_sub (le_of_lt ht1)] at hle hle1
        have heq : t = t1 := by omega
        rw [← heq] at hlast1
        rw [← hfr, ← hfr1]
        exact hdis e he e1 (hperm.mem_iff.mpr he1) _ (List.mem_of_getLast?_eq_some hlast)
          (List.mem_of_getLast?_eq_some hlast1)

/-- The result of `Evict` does not depend on the order of the record store. -/
theorem evict_order {s : LRUKReplacer} {l : List (Int × LRUKNode)}
    (hperm : s.node_store_.Perm l) (hcur : s.current_timestamp_ ≤ SIZE_MAX)
    (hlt : ∀ e ∈ s.node_store_, ∀ t ∈ e.2.history_, t < s.current_timestamp_)
    (hdis : ∀ e ∈ s.node_store_, ∀ e1 ∈ s.node_store_, ∀ t, t ∈ e.2.history_ →
      t ∈ e1.2.history_ → e.1 = e1.1)
    (hid : ∀ e ∈ s.node_store_, e.2.history_ ≠ [] → e.1 ≠ INVALID_FRAME_ID) :
    (Evict s = Res.undefinedBehaviour ∧
      Evict { s with node_store_ := l } = Res.undefinedBehaviour) ∨
    ∃ r s1 s2, Evict s = Res.done r s1 ∧ Evict { s with node_store_ := l } = Res.done r s2 ∧
      s1.node_store_.Perm s2.node_store_ ∧ s2 = { s1 with node_store_ := s2.node_store_ } := by
  by_cases hbad : ∃ e ∈ s.node_store_, e.2.is_evictable_ = true ∧ e.2.history_ = []
  · obtain ⟨e, he, hev, hh⟩ := hbad
    left
    unfold Evict
    have e1 := @evictScan_none_of_mem s.k_ s.current_timestamp_ _ _ he hev hh EvictScan.init
    have e2 := @evictScan_none_of_mem s.k_ s.current_timestamp_ _ _ (hperm.mem_iff.mp he) hev hh
      EvictScan.init
    simp only [e1, e2, and_self]
  · right
    have hgood : ∀ e ∈ s.node_store_, e.2.is_evictable_ = true → e.2.history_ ≠ [] :=
      fun e he hev hh => hbad ⟨e, he, hev, hh⟩
    have hgood1 : ∀ e ∈ l, e.2.is_evictable_ = true → e.2.history_ ≠ [] :=
      fun e he => hgood e (hperm.mem_iff.mpr he)
    obtain ⟨sc, hsc⟩ := evictScan_total s.k_ s.current_timestamp_ hgood EvictScan.init
    obtain ⟨sc1, hsc1⟩ := evictScan_total s.k_ s.current_timestamp_ hgood1 EvictScan.init
    obtain ⟨hinf, hreg⟩ := evictScan_order hperm hcur hlt hdis
      (fun e he hev => hid e he (hgood e he hev)) hsc hsc1
    have hfil : ∀ f, (eraseNode s.node_store_ f).Perm (eraseNode l f) :=
      fun f => hperm.filter _
    unfold Evict
    simp only [hsc, hsc1, ← hinf, ← hreg]
    by_cases hi : sc.inf_victim_frame = INVALID_FRAME_ID
    · by_cases hg : sc.reg_victim_frame = INVALID_FRAME_ID
      · simp only [hi, hg, ne_eq, not_true_eq_false, if_false]
        exact ⟨_, _, _, rfl, rfl, hperm, rfl⟩
      · simp only [hi, hg, ne_eq, not_true_eq_false, not_false_eq_true, if_false, if_true]
        exact ⟨_, _, _, rfl, rfl, hfil _, rfl⟩
    · simp only [hi, ne_eq, not_false_eq_true, if_true]
      exact ⟨_, _, _, rfl, rfl, hfil _, rfl⟩

/-- C38.  Let `s` be a state reached from a freshly constructed replacer by
returning calls of `RecordAccess`, `SetEvictable`, `Remove` and `Evict`, in
which `n < 2^64 - 1` timestamps have been handed out, the capacity being below
`2^64 - 1`.  Then `current_timestamp_` is `n`, and a further returning call
leaves it as it is (`SetEvictable`, `Remove`) or adds one (`RecordAccess`,
`Evict`): it never decreases.  Every recorded timestamp is smaller than
`current_timestamp_`, every history is strictly decreasing from front to back,
and no timestamp occurs in the histories of two records; in particular no two
records have the same oldest timestamp or the same backward distance, so the
first-found tie-break of the scan is never exercised.  Whatever the iteration
order `l` of the record store, `Evict` ends in the same way: it returns the
same frame (or no frame) and leaves the same records, clock and size, or it
runs into undefined behaviour in both orders (an evictable record without a
history is visited in every order). -/
theorem ReachableIn_timestamps_fix_the_victim (n : Nat) (s : LRUKReplacer)
    (hr : ReachableIn n s) (hn : n < SIZE_MAX) (hcap : s.replacer_size_ < SIZE_MAX) :
    s.current_timestamp_ = n ∧
    (∀ f s1, RecordAccess s f = Res.done () s1 →
      s1.current_timestamp_ = s.current_timestamp_ + 1) ∧
    (∀ f b s1, SetEvictable s f b = Res.done () s1 →
      s1.current_timestamp_ = s.current_timestamp_) ∧
    (∀ f s1, Remove s f = Res.done () s1 → s1.current_timestamp_ = s.current_timestamp_) ∧
    (∀ r s1, Evict s = Res.done r s1 → s1.current_timestamp_ = s.current_timestamp_ + 1) ∧
    (∀ e ∈ s.node_store_, ∀ t ∈ e.2.history_, t < s.current_timestamp_) ∧
    (∀ e ∈ s.node_store_, e.2.history_.Pairwise (· > ·)) ∧
    s.node_store_.Pairwise (fun a b => ∀ t ∈ a.2.history_, t ∉ b.2.history_) ∧
    s.node_store_.Pairwise (fun a b => ∀ t u, a.2.history_.getLast? = some t →
      b.2.history_.getLast? = some u →
      t ≠ u ∧ sizeSub s.current_timestamp_ t ≠ sizeSub s.current_timestamp_ u) ∧
    (∀ l, s.node_store_.Perm l →
      (Evict s = Res.undefinedBehaviour ∧
        Evict { s with node_store_ := l } = Res.undefinedBehaviour) ∨
      ∃ r s1 s2, Evict s = Res.done r s1 ∧
        Evict { s with node_store_ := l } = Res.done r s2 ∧
        s1.node_store_.Perm s2.node_store_ ∧ s2 = { s1 with node_store_ := s2.node_store_ }) := by
  obtain ⟨hcur, hinv⟩ := reachableIn_tsInv hr (le_of_lt hn)
  have hnd := (reachable_storeInv (reachableIn_reachable hr)).1
  have hfind : ∀ e ∈ s.node_store_, findNode s.node_store_ e.1 = some e.2 :=
    fun e he => findNode_of_mem hnd he
  have hsucc : sizeIncr s.current_timestamp_ = s.current_timestamp_ + 1 :=
    sizeIncr_eq_succ (by rw [← size_max_succ]; omega)
  have hlt : ∀ e ∈ s.node_store_, ∀ t ∈ e.2.history_, t < s.current_timestamp_ :=
    fun e he => (hinv.1 e.1 e.2 (hfind e he)).1
  have hdis : ∀ e ∈ s.node_store_, ∀ e1 ∈ s.node_store_, ∀ t, t ∈ e.2.history_ →
      t ∈ e1.2.history_ → e.1 = e1.1 :=
    fun e he e1 he1 t ht ht1 => hinv.2 e.1 e1.1 e.2 e1.2 t (hfind e he) (hfind e1 he1) ht ht1
  have hid : ∀ e ∈ s.node_store_, e.2.history_ ≠ [] → e.1 ≠ INVALID_FRAME_ID := by
    intro e he hne heq
    have := (hinv.1 e.1 e.2 (hfind e he)).2.2 hne
    rw [heq, toSizeT_invalid] at this
    omega
  have hpw : s.node_store_.Pairwise (fun a b => ∀ t ∈ a.2.history_, t ∉ b.2.history_) := by
    have h0 : s.node_store_.Pairwise (fun a b => a.1 ≠ b.1) := List.pairwise_map.mp hnd
    refine List.Pairwise.imp_of_mem ?_ h0
    intro a b ha hb hab t ht ht1
    exact hab (hdis a ha b hb t ht ht1)
  refine ⟨hcur, ?_, ?_, ?_, ?_, hlt, ?_, hpw, ?_, ?_⟩
  · intro f s1 h
    rw [(recordAccess_find h).2.1, hsucc]
  · intro f b s1 h
    exact (setEvictable_find h).1
  · intro f s1 h
    exact (remove_find h).1
  · intro r s1 h
    rw [(evict_find h).1, hsucc]
  · intro e he
    exact (hinv.1 e.1 e.2 (hfind e he)).2.1
  · refine List.Pairwise.imp_of_mem ?_ hpw
    intro a b ha hb hab t u ht hu
    have hta := List.mem_of_getLast?_eq_some ht
    have hub := List.mem_of_getLast?_eq_some hu
    have hne : t ≠ u := by
      intro htu
      rw [← htu] at hub
      exact hab t hta hub
    have h1 := hlt a ha t hta
    have h2 := hlt b hb u hub
    refine ⟨hne, ?_⟩
    rw [sizeSub_eq_sub (le_of_lt h1), sizeSub_eq_sub (le_of_lt h2)]
    omega
  · intro l hperm
    exact evict_order hperm (by omega) hlt hdis hid

/-- C38, applied to the replacer after `RecordAccess(1)`, `RecordAccess(2)`,
`SetEvictable(1, true)`, `SetEvictable(2, true)`, `RecordAccess(1)` (capacity
7, `k = 2`, three timestamps handed out): in both orders of the two records
`Evict` returns frame 2, the frame with fewer than `k` accesses. -/
theorem ReachableIn_timestamps_fix_the_victim_witness :
    ReachableIn 3 exampleReplacer ∧ 3 < SIZE_MAX ∧ exampleReplacer.replacer_size_ < SIZE_MAX ∧
    (exampleReplacer.current_timestamp_ = 3 ∧
      (∀ e ∈ exampleReplacer.node_store_, ∀ t ∈ e.2.history_,
        t < exampleReplacer.current_timestamp_) ∧
      (∀ e ∈ exampleReplacer.node_store_, e.2.history_.Pairwise (· > ·)) ∧
      exampleReplacer.node_store_.Pairwise (fun a b => ∀ t ∈ a.2.history_, t ∉ b.2.history_) ∧
      (∀ l, exampleReplacer.node_store_.Perm l →
        (Evict exampleReplacer = Res.undefinedBehaviour ∧
          Evict { exampleReplacer with node_store_ := l } = Res.undefinedBehaviour) ∨
        ∃ r s1 s2, Evict exampleReplacer = Res.done r s1 ∧
          Evict { exampleReplacer with node_store_ := l } = Res.done r s2 ∧
          s1.node_store_.Perm s2.node_store_ ∧
          s2 = { s1 with node_store_ := s2.node_store_ })) ∧
    Evict exampleReplacer
      = Res.done (some 2)
          { node_store_ := [(1, { history_ := [2, 0], is_evictable_ := true })],
            current_timestamp_ := 4, curr_size_ := 1, replacer_size_ := 7, k_ := 2 } ∧
    Evict { exampleReplacer with node_store_ := exampleReplacer.node_store_.reverse }
      = Res.done (some 2)
          { node_store_ := [(1, { history_ := [2, 0], is_evictable_ := true })],
            current_timestamp_ := 4, curr_size_ := 1, replacer_size_ := 7, k_ := 2 } :=
  have hr : ReachableIn 3 exampleReplacer :=
    @ReachableIn.recordAccess 2
      { node_store_ := [(2, { history_ := [1], is_evictable_ := true }),
                        (1, { history_ := [0], is_evictable_ := true })],
        current_timestamp_ := 2, curr_size_ := 2, replacer_size_ := 7, k_ := 2 } _ 1
      (@ReachableIn.setEvictable 2
        { node_store_ := [(2, { history_ := [1], is_evictable_ := false }),
                          (1, { history_ := [0], is_evictable_ := true })],
          current_timestamp_ := 2, curr_size_ := 1, replacer_size_ := 7, k_ := 2 } _ 2 true
        (@ReachableIn.setEvictable 2
          { node_store_ := [(2, { history_ := [1], is_evictable_ := false }),
                            (1, { history_ := [0], is_evictable_ := false })],
            current_timestamp_ := 2, curr_size_ := 0, replacer_size_ := 7, k_ := 2 } _ 1 true
          (@ReachableIn.recordAccess 1
            { node_store_ := [(1, { history_ := [0], is_evictable_ := false })],
              current_timestamp_ := 1, curr_size_ := 0, replacer_size_ := 7, k_ := 2 } _ 2
            (@ReachableIn.recordAccess 0 (LRUKReplacer.new 7 2) _ 1 (ReachableIn.fresh 7 2)
              (by decide) (by decide))
            (by decide) (by decide))
          (by decide) (by decide))
        (by decide) (by decide))
      (by decide) (by decide)
  have h := ReachableIn_timestamps_fix_the_victim 3 exampleReplacer hr (by decide) (by decide)
  ⟨hr, by decide, by decide, ⟨h.1, h.2.2.2.2.2.1, h.2.2.2.2.2.2.1, h.2.2.2.2.2.2.2.1,
    h.2.2.2.2.2.2.2.2.2⟩, by decide, by decide⟩

end bustub
